import Mathlib

/-!
# Forward lexicon-tree search

A shallow embedding of `ngram_search_fwdtree.c`: the backpointer-table
routines (`cache_bptable_paths`, `save_bwd_ptr`, `bptable_maxwpf`), the start
of an utterance (`ngram_fwdtree_start`) and the per-frame search
(`ngram_fwdtree_search` with the passes it calls), together with the
properties proved about them.

Conventions of the embedding.

* C `int32` values are `Int`: score arithmetic is exact, wrap-around is not
  modelled.
* A C array is a total map `Int → α`: memory is taken to be large enough, so
  a reallocation only changes the recorded sizes.  A pointer to a table entry
  is the index of the entry, `NULL` is `none`; a pointer to a tree node is an
  address into a map of nodes, `NULL` is address 0.
* The ways a routine can fail to return are the `Except.error` results:
  following a backpointer link that is negative (`NO_BP`), the `E_FATAL` of
  `bptable_maxwpf`, a failed `assert`, a division by zero, and running out of
  loop fuel.
* `for (bp = lo; bp < hi; bp++)` is a recursion on the number of remaining
  iterations, `(hi - bp).toNat`; a loop over a linked list takes fuel.
-/

namespace Fwdtree

/-! ## Data model -/

/-- Modelled from the spec: the `NO_BP` macro of `ngram_search.h` (no
predecessor / no exit in this frame), which is not part of the source tree.
It is the index `-1`, below every index of the table. -/
def NO_BP : Int := -1

/-- Modelled from the spec: the `WORST_SCORE` macro of the HMM header, which
is not part of the source tree: `(int32) 0xE0000000`. -/
def WORST_SCORE : Int := -536870912

/-- The value `(int32) 0x80000000` used as initial best score. -/
def INT32_MIN : Int := -2147483648

/-- The value `(int32) 0x7fffffff` used as initial worst score. -/
def INT32_MAX : Int := 2147483647

/-- The ways a routine can fail to return. -/
inductive Fault where
  | fatal
  | no_bp
  | fuel
  | assert
  | div_zero
  deriving DecidableEq, Repr

/-- Backpointer table entry (`bptbl_t`). -/
structure bptbl_t where
  frame : Int := 0
  wid : Int := 0
  bp : Int := 0
  score : Int := 0
  s_idx : Int := 0
  real_wid : Int := 0
  prev_real_wid : Int := 0
  r_diph : Int := 0
  valid : Bool := false
  deriving DecidableEq, Repr

/-- Dictionary entry (`dict_entry_t`): base word id, length in phones, the
phone-id sequences and the multiplex flag. -/
structure dict_entry_t where
  wid : Int := 0
  len : Int := 1
  mpx : Bool := false
  phone_ids : Int → Int := fun _ => 0
  ci_phone_ids : Int → Int := fun _ => 0

/-- The part of the dictionary (`dict_t`) the search reads; `n_main_words`
stands for `dict_get_num_main_words(dict)`. -/
structure dict_t where
  dict_entry_count : Int := 0
  dict_list : Int → dict_entry_t := fun _ => {}
  rcFwdSizeTable : Int → Int := fun _ => 1
  n_main_words : Int := 0

/-- The part of the search state (`ngram_search_t`) the backpointer routines
read and write. `n_ciphone` stands for `bin_mdef_n_ciphone(ngs->acmod->mdef)`. -/
structure ngram_search_t where
  dict : dict_t := {}
  n_ciphone : Int := 1
  silence_wid : Int := 0
  maxwpf : Int := -1
  bp_table : Int → bptbl_t := fun _ => {}
  bp_table_size : Int := 1
  bpidx : Int := 0
  bp_table_idx : Int → Int := fun _ => 0
  bscore_stack : Int → Int := fun _ => 0
  bscore_stack_size : Int := 1
  bss_head : Int := 0
  word_lat_idx : Int → Int := fun _ => NO_BP

/-- Array store `a[i] = v`. -/
def store {α : Type} (a : Int → α) (i : Int) (v : α) : Int → α :=
  fun j => if j = i then v else a j

/-- The assignment `bpe->valid = v`. -/
def set_valid (e : bptbl_t) (v : Bool) : bptbl_t := { e with valid := v }

/-! ## `bptable_maxwpf` -/

/-- The first loop of `bptable_maxwpf`, `k` iterations from index `bp`:
every filler entry is invalidated and counted, the best-scoring one is
remembered.  The result is the table, `bestscr`, `bestbpe` and `n`. -/
def filler_loop (silence_wid : Int) :
    Nat → Int → (Int → bptbl_t) → Int → Option Int → Int →
      (Int → bptbl_t) × Int × Option Int × Int
  | 0, _, tbl, bestscr, bestbpe, n => (tbl, bestscr, bestbpe, n)
  | k + 1, bp, tbl, bestscr, bestbpe, n =>
    let bpe := tbl bp
    if bpe.wid ≥ silence_wid then
      let best := if bpe.score > bestscr then (bpe.score, some bp) else (bestscr, bestbpe)
      filler_loop silence_wid k (bp + 1) (store tbl bp (set_valid bpe false))
        best.1 best.2 (n + 1)
    else
      filler_loop silence_wid k (bp + 1) tbl bestscr bestbpe n

/-- The inner loop of the second phase of `bptable_maxwpf`, `k` iterations
from index `bp`: the first valid entry of least score below `worstscr`. -/
def worst_loop (tbl : Int → bptbl_t) : Nat → Int → Int → Option Int → Option Int
  | 0, _, _, worstbpe => worstbpe
  | k + 1, bp, worstscr, worstbpe =>
    let bpe := tbl bp
    if bpe.valid && decide (bpe.score < worstscr) then
      worst_loop tbl k (bp + 1) bpe.score (some bp)
    else
      worst_loop tbl k (bp + 1) worstscr worstbpe

/-- The outer loop `for (; n > maxwpf; --n)` of `bptable_maxwpf`, `k`
iterations: each one invalidates the worst valid entry of the segment of
`cnt` entries from `lo`, or ends in `E_FATAL` when there is none. -/
def prune_loop (lo : Int) (cnt : Nat) :
    Nat → (Int → bptbl_t) → Except Fault (Int → bptbl_t)
  | 0, tbl => pure tbl
  | k + 1, tbl =>
    match worst_loop tbl cnt lo INT32_MAX none with
    | none => throw Fault.fatal
    | some w => prune_loop lo cnt k (store tbl w (set_valid (tbl w) false))

/-- Limit the number of word exits of frame `frame_idx` to `maxwpf`, and the
number of filler exits to one (`bptable_maxwpf`). -/
def bptable_maxwpf (ngs : ngram_search_t) (frame_idx : Int) :
    Except Fault ngram_search_t :=
  if ngs.maxwpf = -1 ∨ ngs.maxwpf = ngs.dict.dict_entry_count then
    pure ngs
  else
    let lo := ngs.bp_table_idx frame_idx
    let cnt := (ngs.bpidx - lo).toNat
    let r := filler_loop ngs.silence_wid cnt lo ngs.bp_table INT32_MIN none 0
    let tbl1 := r.1
    let bestbpe := r.2.2.1
    let n1 := r.2.2.2
    let tbl2 := match bestbpe with
      | some b => store tbl1 b (set_valid (tbl1 b) true)
      | none => tbl1
    let n2 := match bestbpe with
      | some _ => n1 - 1
      | none => n1
    let n := (ngs.bpidx - lo) - n2
    match prune_loop lo cnt (n - ngs.maxwpf).toNat tbl2 with
    | Except.error e => Except.error e
    | Except.ok tbl3 => Except.ok { ngs with bp_table := tbl3 }

/-- Number of indices among the `k` indices from `lo` at which `p` holds. -/
def count_in (p : Int → Bool) : Nat → Int → Nat
  | 0, _ => 0
  | k + 1, lo => (if p lo then 1 else 0) + count_in p k (lo + 1)

/-- Number of entries with `valid` set among the `k` entries from `lo`. -/
def count_valid (tbl : Int → bptbl_t) (k : Nat) (lo : Int) : Nat :=
  count_in (fun j => (tbl j).valid) k lo

/-- Number of valid entries in the segment of frame `f`. -/
def frame_valid_count (ngs : ngram_search_t) (f : Int) : Nat :=
  count_valid ngs.bp_table (ngs.bpidx - ngs.bp_table_idx f).toNat (ngs.bp_table_idx f)

/-- Index `i` lies in the segment `[bp_table_idx[f], bpidx)` of frame `f`. -/
def in_frame (ngs : ngram_search_t) (f : Int) (i : Int) : Prop :=
  ngs.bp_table_idx f ≤ i ∧ i < ngs.bpidx

instance (ngs : ngram_search_t) (f i : Int) : Decidable (in_frame ngs f i) := by
  unfold in_frame
  exact inferInstance

/-! ## `cache_bptable_paths` and `save_bwd_ptr` -/

/-- The assignment `bpe->real_wid = w`. -/
def set_real_wid (e : bptbl_t) (w : Int) : bptbl_t := { e with real_wid := w }

/-- The assignment `bpe->prev_real_wid = w`. -/
def set_prev_real_wid (e : bptbl_t) (w : Int) : bptbl_t := { e with prev_real_wid := w }

/-- The assignment `bpe->bp = path`. -/
def set_bp (e : bptbl_t) (path : Int) : bptbl_t := { e with bp := path }

/-- The assignment `bpe->score = score`. -/
def set_score (e : bptbl_t) (score : Int) : bptbl_t := { e with score := score }

/-- The loop `while (w >= silence_wid) { prev_bp = bp_table[prev_bp].bp;
w = bp_table[prev_bp].wid; }` of `cache_bptable_paths`, started at entry
`prev_bp` whose word is `w`.  One unit of fuel is spent per evaluation of the
loop condition; stepping to a negative predecessor is the `no_bp` fault.  The
result is the final `prev_bp` and `w`. -/
def skip_fillers (silence_wid : Int) (tbl : Int → bptbl_t) :
    Nat → Int → Int → Except Fault (Int × Int)
  | 0, _, _ => Except.error Fault.fuel
  | fuel + 1, prev_bp, w =>
    if w ≥ silence_wid then
      let prev_bp1 := (tbl prev_bp).bp
      if prev_bp1 < 0 then Except.error Fault.no_bp
      else skip_fillers silence_wid tbl fuel prev_bp1 (tbl prev_bp1).wid
    else Except.ok (prev_bp, w)

/-- Find the trigram predecessors of backpointer table entry `bp`
(`cache_bptable_paths`). -/
def cache_bptable_paths (fuel : Nat) (ngs : ngram_search_t) (bp : Int) :
    Except Fault ngram_search_t :=
  match skip_fillers ngs.silence_wid ngs.bp_table fuel bp (ngs.bp_table bp).wid with
  | Except.error e => Except.error e
  | Except.ok (prev_bp, w) =>
    let tbl1 := store ngs.bp_table bp
      (set_real_wid (ngs.bp_table bp) (ngs.dict.dict_list w).wid)
    let prev_bp2 := (tbl1 prev_bp).bp
    if prev_bp2 ≠ NO_BP then
      if prev_bp2 < 0 then Except.error Fault.no_bp
      else Except.ok { ngs with
        bp_table := store tbl1 bp (set_prev_real_wid (tbl1 bp) (tbl1 prev_bp2).real_wid) }
    else
      Except.ok { ngs with bp_table := store tbl1 bp (set_prev_real_wid (tbl1 bp) (-1)) }

/-- The loop `for (i = rcsize, bss = ...; i > 0; --i, bss++) *bss = WORST_SCORE`
of `save_bwd_ptr`: `k` slots from `p` are set to `WORST_SCORE`. -/
def fill_worst : Nat → Int → (Int → Int) → (Int → Int)
  | 0, _, stack => stack
  | k + 1, p, stack => fill_worst k (p + 1) (store stack p WORST_SCORE)

/-- The right-context key `r_diph` that `save_bwd_ptr` gives an exit of a
word with dictionary entry `de`. -/
def exit_r_diph (de : dict_entry_t) : Int :=
  if de.len ≠ 1 ∧ de.mpx = true then de.phone_ids (de.len - 1) else -1

/-- The number `rcsize` of score-stack slots `save_bwd_ptr` gives an exit of
a word with dictionary entry `de`. -/
def exit_rcsize (dict : dict_t) (de : dict_entry_t) : Int :=
  if de.len ≠ 1 ∧ de.mpx = true then dict.rcFwdSizeTable (exit_r_diph de) else 1

/-- The branch of `save_bwd_ptr` for a word that already has an exit `_bp_`
in this frame. -/
def save_bwd_ptr_update (fuel : Nat) (ngs : ngram_search_t) (_bp_ score path rc : Int) :
    Except Fault ngram_search_t :=
  let r : Except Fault ngram_search_t :=
    if (ngs.bp_table _bp_).score < score then
      let r1 : Except Fault ngram_search_t :=
        if (ngs.bp_table _bp_).bp ≠ path then
          cache_bptable_paths fuel
            { ngs with bp_table := store ngs.bp_table _bp_ (set_bp (ngs.bp_table _bp_) path) }
            _bp_
        else Except.ok ngs
      match r1 with
      | Except.error e => Except.error e
      | Except.ok ngs1 =>
        Except.ok { ngs1 with
          bp_table := store ngs1.bp_table _bp_ (set_score (ngs1.bp_table _bp_) score) }
    else Except.ok ngs
  match r with
  | Except.error e => Except.error e
  | Except.ok ngs2 =>
    Except.ok { ngs2 with
      bscore_stack := store ngs2.bscore_stack ((ngs2.bp_table _bp_).s_idx + rc) score }

/-- The field assignments `save_bwd_ptr` makes to the entry it appends: `wid`,
`frame`, `bp`, `score`, `s_idx`, `valid = TRUE` and `r_diph`. -/
def new_bpe (old : bptbl_t) (frame_idx w path score s_idx r_diph : Int) : bptbl_t :=
  { old with
    wid := w, frame := frame_idx, bp := path, score := score, s_idx := s_idx,
    valid := true, r_diph := r_diph }

/-- The branch of `save_bwd_ptr` for the first exit of word `w` in this
frame: a new entry is appended. -/
def save_bwd_ptr_append (fuel : Nat) (ngs : ngram_search_t)
    (frame_idx w score path rc : Int) : Except Fault ngram_search_t :=
  let bp_table_size :=
    if ngs.bpidx ≥ ngs.bp_table_size then ngs.bp_table_size * 2 else ngs.bp_table_size
  let bscore_stack_size :=
    if ngs.bss_head ≥ ngs.bscore_stack_size - ngs.n_ciphone then ngs.bscore_stack_size * 2
    else ngs.bscore_stack_size
  let de := ngs.dict.dict_list w
  let r_diph := exit_r_diph de
  let rcsize := exit_rcsize ngs.dict de
  let bpe := new_bpe (ngs.bp_table ngs.bpidx) frame_idx w path score ngs.bss_head r_diph
  let stack := store (fill_worst rcsize.toNat ngs.bss_head ngs.bscore_stack)
    (ngs.bss_head + rc) score
  let ngs1 : ngram_search_t :=
    { ngs with
      bp_table_size := bp_table_size, bscore_stack_size := bscore_stack_size,
      word_lat_idx := store ngs.word_lat_idx w ngs.bpidx,
      bp_table := store ngs.bp_table ngs.bpidx bpe,
      bscore_stack := stack }
  match cache_bptable_paths fuel ngs1 ngs1.bpidx with
  | Except.error e => Except.error e
  | Except.ok ngs2 =>
    Except.ok { ngs2 with bpidx := ngs2.bpidx + 1, bss_head := ngs2.bss_head + rcsize }

/-- Enter a word exit in the backpointer table (`save_bwd_ptr`). -/
def save_bwd_ptr (fuel : Nat) (ngs : ngram_search_t) (frame_idx w score path rc : Int) :
    Except Fault ngram_search_t :=
  let _bp_ := ngs.word_lat_idx w
  if _bp_ ≠ NO_BP then save_bwd_ptr_update fuel ngs _bp_ score path rc
  else save_bwd_ptr_append fuel ngs frame_idx w score path rc

/-! ## The decoder around the backpointer table

The per-frame search of `ngram_search_fwdtree.c`.  The phone HMM, the
acoustic model, the language model and `ngram_search_mark_bptable` are
collaborators whose code is not in the source tree; they are modelled from
their interface in the spec.  The state of the C structure `ngram_search_t`
is split in two: the backpointer part above (`ngram_search_t`) and the rest
(`decoder_t`), which holds the former as its field `ngs`.

A pointer to a tree node or leaf (`chan_t *`) is an address into the map
`chan`; `NULL` is address 0.  `listelem_alloc` hands out the next unused
address; freed cells are not handed out again. -/

/-- Modelled from the spec: the phone HMM (`hmm_t`) of the HMM layer, which is
not part of the source tree: frame stamp, pending entry score and history,
score and history of the further emitting states, exit score and history,
best state score, multiplex flag, senone-sequence id (`s.ssid`, or
`s.mpx_ssid[0]` of a multiplex HMM) and transition matrix id. -/
structure hmm_t where
  frame : Int := -1
  in_score : Int := WORST_SCORE
  in_history : Int := -1
  inner : List (Int × Int) := []
  out_score : Int := WORST_SCORE
  out_history : Int := -1
  bestscore : Int := WORST_SCORE
  mpx : Bool := false
  ssid : Int := -1
  tmatid : Int := -1

/-- Modelled from the spec: `hmm_clear` of the HMM layer, which is not part of
the source tree: every score becomes `WORST_SCORE`, every history -1 and the
frame stamp -1. -/
def hmm_clear (h : hmm_t) : hmm_t :=
  { h with
    frame := -1, in_score := WORST_SCORE, in_history := -1,
    inner := h.inner.map (fun _ => (WORST_SCORE, -1)),
    out_score := WORST_SCORE, out_history := -1, bestscore := WORST_SCORE }

/-- Modelled from the spec: `hmm_clear_scores` of the HMM layer, which is not
part of the source tree: every score becomes `WORST_SCORE`; histories and
frame stamp stay. -/
def hmm_clear_scores (h : hmm_t) : hmm_t :=
  { h with
    in_score := WORST_SCORE,
    inner := h.inner.map (fun p => (WORST_SCORE, p.2)),
    out_score := WORST_SCORE, bestscore := WORST_SCORE }

/-- Modelled from the spec: `hmm_enter(h, score, history, frame)` of the HMM
layer, which is not part of the source tree: the pending entry score and
history and the frame stamp are set. -/
def hmm_enter (h : hmm_t) (score histid frame : Int) : hmm_t :=
  { h with in_score := score, in_history := histid, frame := frame }

/-- Modelled from the spec: `hmm_normalize(h, norm)` of the HMM layer, which is
not part of the source tree: `norm` is subtracted from every state score that
is better than `WORST_SCORE`. -/
def hmm_normalize (h : hmm_t) (norm : Int) : hmm_t :=
  { h with
    in_score := if h.in_score > WORST_SCORE then h.in_score - norm else h.in_score,
    inner := h.inner.map (fun p => (if p.1 > WORST_SCORE then p.1 - norm else p.1, p.2)),
    out_score := if h.out_score > WORST_SCORE then h.out_score - norm else h.out_score }

/-- Modelled from the spec: `hmm_init(ctx, h, mpx, ssid, tmatid)` of the HMM
layer, which is not part of the source tree: a cleared HMM with `n_inner`
further emitting states. -/
def hmm_init (n_inner : Nat) (mpx : Bool) (ssid tmatid : Int) : hmm_t :=
  { frame := -1, in_score := WORST_SCORE, in_history := -1,
    inner := List.replicate n_inner (WORST_SCORE, -1),
    out_score := WORST_SCORE, out_history := -1, bestscore := WORST_SCORE,
    mpx := mpx, ssid := ssid, tmatid := tmatid }

/-- The assignment `hmm_frame(h) = f`. -/
def hmm_set_frame (h : hmm_t) (f : Int) : hmm_t := { h with frame := f }

/-- The assignment `h->s.mpx_ssid[0] = ssid`. -/
def hmm_set_ssid (h : hmm_t) (ssid : Int) : hmm_t := { h with ssid := ssid }

/-- The collaborators the search calls: the Viterbi step of the HMM layer on
the senone scores of a frame (`hmm_vit_eval`, whose return value is the new
best state score), the trigram score of the language model
(`ngram_tg_score(lmset, w, prev, prev_prev)`) and its test whether it knows a
word (`ngram_model_set_known_wid(lmset, wid)`). -/
structure env_t where
  vit_eval : Int → hmm_t → hmm_t := fun _ h => h
  tg_score : Int → Int → Int → Int := fun _ _ _ => 0
  known_wid : Int → Bool := fun _ => true

/-- Root channel of the lexicon tree (`root_chan_t`). -/
structure root_chan_t where
  hmm : hmm_t := {}
  next : Int := 0
  penult_phn_wid : Int := -1
  diphone : Int := 0
  ciphone : Int := 0

/-- Non-root channel (`chan_t`): tree node or right-context leaf; `info` is
the union of `penult_phn_wid` and `rc_id`. -/
structure chan_t where
  hmm : hmm_t := {}
  next : Int := 0
  alt : Int := 0
  ciphone : Int := 0
  info : Int := -1

/-- Candidate for entering a last phone (`lastphn_cand_t`). -/
structure lastphn_cand_t where
  wid : Int := 0
  score : Int := 0
  bp : Int := 0
  next : Int := 0

/-- Best transition into a word found so far (`last_ltrans_t`). -/
structure last_ltrans_t where
  sf : Int := 0
  dscr : Int := 0
  bp : Int := 0

/-- Candidates grouped by the end frame of their predecessor (`cand_sf_t`). -/
structure cand_sf_t where
  bp_ef : Int := 0
  cand : Int := 0

/-- Best predecessor for a right context (`bestbp_rc_t`). -/
structure bestbp_rc_t where
  score : Int := 0
  path : Int := 0
  lc : Int := 0

/-- The cross-word tables of the dictionary and the ids of the sentence
markers, read by the search; `rcFwdTable[p]` is an array of ssids ended by a
negative entry. -/
structure xwd_t where
  start_wid : Int := 0
  rcFwdTable : Int → Int → Int := fun _ _ => -1
  rcFwdPermTable : Int → Int → Int := fun _ _ => 0
  lcFwdTable : Int → Int → Int := fun _ _ => 0

/-- The search state of `ngram_search_t` outside the backpointer part `ngs`:
configuration, lexicon tree, active lists, scratch tables, scores, statistics
and the frame counters of the acoustic model. -/
structure decoder_t where
  ngs : ngram_search_t := {}
  xwd : xwd_t := {}
  n_inner : Nat := 2
  sil : Int := 0
  finish_wid : Int := 0
  beam : Int := 0
  pbeam : Int := 0
  lpbeam : Int := 0
  lponlybeam : Int := 0
  wbeam : Int := 0
  pip : Int := 0
  nwpen : Int := 0
  silpen : Int := 0
  fillpen : Int := 0
  maxhmmpf : Int := -1
  n_root_chan : Int := 0
  root_chan : Int → root_chan_t := fun _ => {}
  chan : Int → chan_t := fun _ => {}
  heap_top : Int := 0
  homophone_set : Int → Int := fun _ => -1
  n_1ph_words : Int := 0
  n_1ph_LMwords : Int := 0
  single_phone_wid : Int → Int := fun _ => 0
  all_rhmm : Int → root_chan_t := fun _ => {}
  word_chan : Int → Int := fun _ => 0
  word_active : Int → Int := fun _ => 0
  active_chan_list : Int → Int → Int := fun _ _ => 0
  n_active_chan : Int → Int := fun _ => 0
  active_word_list : Int → Int → Int := fun _ _ => 0
  n_active_word : Int → Int := fun _ => 0
  lastphn_cand : Int → lastphn_cand_t := fun _ => {}
  n_lastphn_cand : Int := 0
  cand_sf : Int → cand_sf_t := fun _ => {}
  cand_sf_alloc : Int := 0
  last_ltrans : Int → last_ltrans_t := fun _ => {}
  bestbp_rc : Int → bestbp_rc_t := fun _ => {}
  best_score : Int := 0
  last_phone_best_score : Int := 0
  dynamic_beam : Int := 0
  renormalized : Bool := false
  n_root_chan_eval : Int := 0
  n_nonroot_chan_eval : Int := 0
  n_last_chan_eval : Int := 0
  n_word_lastchan_eval : Int := 0
  n_lastphn_cand_utt : Int := 0
  n_senone_active_utt : Int := 0
  n_feat_frame : Int := 0
  output_frame : Int := 0
  first_phone_rchan_map : Int → Int := fun _ => -1
  n_root_chan_alloc : Int := 0
  n_nonroot_chan : Int := 0
  max_nonroot_chan : Int := 0

/-- The loop `for (i = lo; i < lo + n; i++) body(i)`, for a body that always
returns. -/
def iter_up {σ : Type} (body : Int → σ → σ) : Nat → Int → σ → σ
  | 0, _, s => s
  | n + 1, i, s => iter_up body n (i + 1) (body i s)

/-- The loop `for (i = lo; i < lo + n; i++) body(i)`, for a body that can
fault. -/
def for_up {σ : Type} (body : Int → σ → Except Fault σ) : Nat → Int → σ → Except Fault σ
  | 0, _, s => Except.ok s
  | n + 1, i, s =>
    match body i s with
    | Except.error e => Except.error e
    | Except.ok s1 => for_up body n (i + 1) s1

/-- The loop `for (p = first; p != stop; p = next(p)) body(p)` over a linked
list, `stop` being `NULL` for pointers and any negative value for index
chains; the link is read after the body has run.  One unit of fuel is spent
per evaluation of the loop condition. -/
def for_list {σ : Type} (stop : Int → Bool) (next : σ → Int → Int)
    (body : Int → σ → Except Fault σ) : Nat → Int → σ → Except Fault σ
  | 0, _, _ => Except.error Fault.fuel
  | fuel + 1, p, s =>
    if stop p then Except.ok s
    else
      match body p s with
      | Except.error e => Except.error e
      | Except.ok s1 => for_list stop next body fuel (next s1 p) s1

/-- The test `p == NULL` on a `chan_t *`. -/
def is_null (p : Int) : Bool := decide (p = 0)

/-- The test `w < 0` ending a chain of word ids or candidate indices. -/
def is_neg (w : Int) : Bool := decide (w < 0)

/-- The parity `frame & 0x1` selecting one of the two active lists. -/
def parity (frame : Int) : Int := frame % 2

/-- The write `ngs->root_chan[i].hmm = h`. -/
def set_root_hmm (d : decoder_t) (i : Int) (h : hmm_t) : decoder_t :=
  { d with root_chan := store d.root_chan i { d.root_chan i with hmm := h } }

/-- The write of the HMM of the tree node or leaf at address `a`. -/
def set_chan_hmm (d : decoder_t) (a : Int) (h : hmm_t) : decoder_t :=
  { d with chan := store d.chan a { d.chan a with hmm := h } }

/-- The write of the HMM of the permanently allocated channel of the
single-phone word `w`, `((root_chan_t *) ngs->word_chan[w])->hmm = h`. -/
def set_rhmm_hmm (d : decoder_t) (w : Int) (h : hmm_t) : decoder_t :=
  { d with all_rhmm := store d.all_rhmm w { d.all_rhmm w with hmm := h } }

/-- The write of a field of the backpointer part. -/
def set_ngs (d : decoder_t) (ngs : ngram_search_t) : decoder_t := { d with ngs := ngs }

/-- The resets at the head of `ngram_fwdtree_start`: statistics, backpointer
table, word lattice, active lists, scores and `last_ltrans[].sf`. -/
def start_reset (d : decoder_t) : decoder_t :=
  let n_words := d.ngs.dict.dict_entry_count
  let d1 : decoder_t :=
    { d with
      n_root_chan_eval := 0, n_nonroot_chan_eval := 0, n_last_chan_eval := 0,
      n_word_lastchan_eval := 0, n_lastphn_cand_utt := 0, n_senone_active_utt := 0 }
  let d2 := set_ngs d1 { d1.ngs with bpidx := 0, bss_head := 0 }
  let d3 := set_ngs d2 { d2.ngs with
    word_lat_idx := iter_up (fun i a => store a i NO_BP) n_words.toNat 0 d2.ngs.word_lat_idx }
  let d4 : decoder_t :=
    { d3 with
      n_active_chan := store (store d3.n_active_chan 1 0) 0 0,
      n_active_word := store (store d3.n_active_word 1 0) 0 0,
      best_score := 0, renormalized := false }
  { d4 with
    last_ltrans := iter_up (fun i a => store a i { a i with sf := -1 }) n_words.toNat 0
      d4.last_ltrans }

/-- The loop of `ngram_fwdtree_start` that clears the permanently allocated
channel of every word listed in `single_phone_wid`. -/
def start_clear_1ph (d : decoder_t) : decoder_t :=
  iter_up
    (fun i (s : decoder_t) =>
      let w := s.single_phone_wid i
      set_rhmm_hmm s w (hmm_clear (s.all_rhmm w).hmm))
    d.n_1ph_words.toNat 0 d

/-- Begin an utterance (`ngram_fwdtree_start`). -/
def ngram_fwdtree_start (d : decoder_t) : decoder_t :=
  let d6 := start_clear_1ph (start_reset d)
  let w := d6.xwd.start_wid
  let d7 := set_rhmm_hmm d6 w (hmm_clear (d6.all_rhmm w).hmm)
  set_rhmm_hmm d7 w (hmm_enter (d7.all_rhmm w).hmm 0 NO_BP 0)

/-- Modelled from the spec: `ngram_search_mark_bptable`, which is not part of
the source tree: `bp_table_idx[frame_idx]` becomes the first backpointer
index of the frame, the current `bpidx`. -/
def ngram_search_mark_bptable (d : decoder_t) (frame_idx : Int) : decoder_t :=
  set_ngs d { d.ngs with bp_table_idx := store d.ngs.bp_table_idx frame_idx d.ngs.bpidx }

/-- Subtract `norm` from the scores of every HMM active in `frame_idx`
(`renormalize_scores`). -/
def renormalize_scores (fuel : Nat) (d : decoder_t) (frame_idx norm : Int) :
    Except Fault decoder_t :=
  let d1 := iter_up
    (fun i (s : decoder_t) =>
      if (s.root_chan i).hmm.frame = frame_idx then
        set_root_hmm s i (hmm_normalize (s.root_chan i).hmm norm)
      else s)
    d.n_root_chan.toNat 0 d
  let d2 := iter_up
    (fun k (s : decoder_t) =>
      let a := s.active_chan_list (parity frame_idx) k
      set_chan_hmm s a (hmm_normalize (s.chan a).hmm norm))
    (d1.n_active_chan (parity frame_idx)).toNat 0 d1
  match for_up
      (fun k (s : decoder_t) =>
        let w := s.active_word_list (parity frame_idx) k
        for_list is_null (fun s1 a => (s1.chan a).next)
          (fun a s1 => Except.ok (set_chan_hmm s1 a (hmm_normalize (s1.chan a).hmm norm)))
          fuel (s.word_chan w) s)
      (d2.n_active_word (parity frame_idx)).toNat 0 d2 with
  | Except.error e => Except.error e
  | Except.ok d3 =>
    let d4 := iter_up
      (fun i (s : decoder_t) =>
        let w := s.single_phone_wid i
        if (s.all_rhmm w).hmm.frame = frame_idx then
          set_rhmm_hmm s w (hmm_normalize (s.all_rhmm w).hmm norm)
        else s)
      d3.n_1ph_words.toNat 0 d3
    Except.ok { d4 with renormalized := true }

/-- Viterbi step of the active root channels; the result carries the best
score found (`eval_root_chan`). -/
def eval_root_chan (env : env_t) (d : decoder_t) (frame_idx : Int) : decoder_t × Int :=
  iter_up
    (fun i (sb : decoder_t × Int) =>
      if (sb.1.root_chan i).hmm.frame = frame_idx then
        let h := env.vit_eval frame_idx (sb.1.root_chan i).hmm
        let score := h.bestscore
        let s1 := set_root_hmm sb.1 i h
        ({ s1 with n_root_chan_eval := s1.n_root_chan_eval + 1 },
          if sb.2 < score then score else sb.2)
      else sb)
    d.n_root_chan.toNat 0 (d, WORST_SCORE)

/-- Viterbi step of the tree nodes on the active list of the frame
(`eval_nonroot_chan`). -/
def eval_nonroot_chan (env : env_t) (d : decoder_t) (frame_idx : Int) :
    Except Fault (decoder_t × Int) :=
  let i := d.n_active_chan (parity frame_idx)
  let d1 : decoder_t := { d with n_nonroot_chan_eval := d.n_nonroot_chan_eval + i }
  for_up
    (fun k (sb : decoder_t × Int) =>
      let a := sb.1.active_chan_list (parity frame_idx) k
      let h := env.vit_eval frame_idx (sb.1.chan a).hmm
      let score := h.bestscore
      if h.frame = frame_idx then
        Except.ok (set_chan_hmm sb.1 a h, if sb.2 < score then score else sb.2)
      else Except.error Fault.assert)
    i.toNat 0 (d1, WORST_SCORE)

/-- Viterbi step of the leaves of the active words and of the active
single-phone words (`eval_word_chan`); the result state carries the loop
counter `k` of leaves evaluated in the running count it returns. -/
def eval_word_chan (env : env_t) (fuel : Nat) (d : decoder_t) (frame_idx : Int) :
    Except Fault (decoder_t × Int) :=
  match for_up
      (fun i (sbk : decoder_t × Int × Int) =>
        let w := sbk.1.active_word_list (parity frame_idx) i
        if sbk.1.word_active w = 0 then Except.error Fault.assert
        else
          let s1 : decoder_t := { sbk.1 with word_active := store sbk.1.word_active w 0 }
          if s1.word_chan w = 0 then Except.error Fault.assert
          else
            for_list is_null (fun (t : decoder_t × Int × Int) a => (t.1.chan a).next)
              (fun a (t : decoder_t × Int × Int) =>
                if (t.1.chan a).hmm.frame = frame_idx then
                  let h := env.vit_eval frame_idx (t.1.chan a).hmm
                  let score := h.bestscore
                  Except.ok (set_chan_hmm t.1 a h,
                    (if t.2.1 < score then score else t.2.1), t.2.2 + 1)
                else Except.error Fault.assert)
              fuel (s1.word_chan w) (s1, sbk.2.1, sbk.2.2))
      (d.n_active_word (parity frame_idx)).toNat 0 (d, WORST_SCORE, 0) with
  | Except.error e => Except.error e
  | Except.ok (d1, best1, k) =>
    let r := iter_up
      (fun i (sbj : decoder_t × Int × Int) =>
        let w := sbj.1.single_phone_wid i
        if (sbj.1.all_rhmm w).hmm.frame < frame_idx then sbj
        else
          let h := env.vit_eval frame_idx (sbj.1.all_rhmm w).hmm
          let score := h.bestscore
          (set_rhmm_hmm sbj.1 w h,
            (if sbj.2.1 < score ∧ w ≠ sbj.1.finish_wid then score else sbj.2.1),
            sbj.2.2 + 1))
      d1.n_1ph_words.toNat 0 (d1, best1, 0)
    let d2 := r.1
    let j := r.2.2
    Except.ok
      ({ d2 with
          n_last_chan_eval := d2.n_last_chan_eval + (k + j),
          n_nonroot_chan_eval := d2.n_nonroot_chan_eval + (k + j),
          n_word_lastchan_eval :=
            d2.n_word_lastchan_eval + (d2.n_active_word (parity frame_idx) + j) },
        r.2.1)

/-- Viterbi step of every active HMM, tracking `best_score` and
`last_phone_best_score` (`evaluate_channels`). -/
def evaluate_channels (env : env_t) (fuel : Nat) (d : decoder_t) (frame_idx : Int) :
    Except Fault decoder_t :=
  let r1 := eval_root_chan env d frame_idx
  let d1 : decoder_t := { r1.1 with best_score := r1.2 }
  match eval_nonroot_chan env d1 frame_idx with
  | Except.error e => Except.error e
  | Except.ok (d2, bs2) =>
    let d3 : decoder_t := if bs2 > d2.best_score then { d2 with best_score := bs2 } else d2
    match eval_word_chan env fuel d3 frame_idx with
    | Except.error e => Except.error e
    | Except.ok (d4, bs4) =>
      let d5 : decoder_t := if bs4 > d4.best_score then { d4 with best_score := bs4 } else d4
      Except.ok { d5 with last_phone_best_score := bs4 }

/-- The larger of two beams, `(a > b ? a : b)`. -/
def beam_max (a b : Int) : Int := if a > b then a else b

/-- Append a last-phone candidate: `candp = lastphn_cand + n_lastphn_cand;
n_lastphn_cand++; candp->wid = w; candp->score = score; candp->bp = bp`. -/
def add_cand (d : decoder_t) (w score bp : Int) : decoder_t :=
  { d with
    lastphn_cand := store d.lastphn_cand d.n_lastphn_cand
      { d.lastphn_cand d.n_lastphn_cand with wid := w, score := score, bp := bp },
    n_lastphn_cand := d.n_lastphn_cand + 1 }

/-- The write `active_chan_list[par][n] = a` of `*(nacl++) = hmm`. -/
def push_chan (d : decoder_t) (par n a : Int) : decoder_t :=
  { d with active_chan_list := store d.active_chan_list par (store (d.active_chan_list par) n a) }

/-- The write `active_word_list[par][n] = w` of `*(nawl++) = w`. -/
def push_word (d : decoder_t) (par n w : Int) : decoder_t :=
  { d with active_word_list := store d.active_word_list par (store (d.active_word_list par) n w) }

/-- The loop over the homophone chain headed at `w0` that emits one
last-phone candidate per word, with score `newphone_score - nwpen` and the
exit history `bp` of the node left. -/
def emit_cands (fuel : Nat) (d : decoder_t) (w0 newphone_score bp : Int) :
    Except Fault decoder_t :=
  for_list is_neg (fun (s : decoder_t) w => s.homophone_set w)
    (fun w (s : decoder_t) => Except.ok (add_cand s w (newphone_score - s.nwpen) bp))
    fuel w0 d

/-- Prune the active root channels and leave them towards their children and
last phones (`prune_root_chan`). -/
def prune_root_chan (fuel : Nat) (d : decoder_t) (frame_idx : Int) : Except Fault decoder_t :=
  let nf := frame_idx + 1
  let thresh := d.best_score + d.dynamic_beam
  let newphone_thresh := d.best_score + beam_max d.dynamic_beam d.pbeam
  let lastphn_thresh := d.best_score + beam_max d.dynamic_beam d.lpbeam
  match for_up
      (fun i (sn : decoder_t × Int) =>
        if (sn.1.root_chan i).hmm.frame < frame_idx then Except.ok sn
        else if (sn.1.root_chan i).hmm.bestscore > thresh then
          let s1 := set_root_hmm sn.1 i (hmm_set_frame (sn.1.root_chan i).hmm nf)
          let newphone_score := (s1.root_chan i).hmm.out_score + s1.pip
          if newphone_score > newphone_thresh then
            match for_list is_null (fun (t : decoder_t × Int) a => (t.1.chan a).alt)
                (fun a (t : decoder_t × Int) =>
                  if (t.1.chan a).hmm.frame < frame_idx ∨
                      (t.1.chan a).hmm.in_score < newphone_score then
                    let t1 := set_chan_hmm t.1 a
                      (hmm_enter (t.1.chan a).hmm newphone_score
                        (t.1.root_chan i).hmm.out_history nf)
                    Except.ok (push_chan t1 (parity nf) t.2 a, t.2 + 1)
                  else Except.ok t)
                fuel (s1.root_chan i).next (s1, sn.2) with
            | Except.error e => Except.error e
            | Except.ok (s2, n2) =>
              if newphone_score > lastphn_thresh then
                match emit_cands fuel s2 (s2.root_chan i).penult_phn_wid newphone_score
                    (s2.root_chan i).hmm.out_history with
                | Except.error e => Except.error e
                | Except.ok s3 => Except.ok (s3, n2)
              else Except.ok (s2, n2)
          else Except.ok (s1, sn.2)
        else Except.ok sn)
      d.n_root_chan.toNat 0 (d, 0) with
  | Except.error e => Except.error e
  | Except.ok (d1, n) =>
    Except.ok { d1 with n_active_chan := store d1.n_active_chan (parity nf) n }

/-- Prune the tree nodes of the active list and leave them towards their
children and last phones (`prune_nonroot_chan`). -/
def prune_nonroot_chan (fuel : Nat) (d : decoder_t) (frame_idx : Int) :
    Except Fault decoder_t :=
  let nf := frame_idx + 1
  let thresh := d.best_score + d.dynamic_beam
  let newphone_thresh := d.best_score + beam_max d.dynamic_beam d.pbeam
  let lastphn_thresh := d.best_score + beam_max d.dynamic_beam d.lpbeam
  match for_up
      (fun k (sn : decoder_t × Int) =>
        let a := sn.1.active_chan_list (parity frame_idx) k
        if (sn.1.chan a).hmm.frame < frame_idx then Except.error Fault.assert
        else if (sn.1.chan a).hmm.bestscore > thresh then
          let sn1 : decoder_t × Int :=
            if (sn.1.chan a).hmm.frame ≠ nf then
              (push_chan (set_chan_hmm sn.1 a (hmm_set_frame (sn.1.chan a).hmm nf))
                (parity nf) sn.2 a, sn.2 + 1)
            else sn
          let newphone_score := (sn1.1.chan a).hmm.out_score + sn1.1.pip
          if newphone_score > newphone_thresh then
            match for_list is_null (fun (t : decoder_t × Int) c => (t.1.chan c).alt)
                (fun c (t : decoder_t × Int) =>
                  if (t.1.chan c).hmm.frame < frame_idx ∨
                      (t.1.chan c).hmm.in_score < newphone_score then
                    let t1 : decoder_t × Int :=
                      if (t.1.chan c).hmm.frame ≠ nf then
                        (push_chan t.1 (parity nf) t.2 c, t.2 + 1)
                      else t
                    Except.ok (set_chan_hmm t1.1 c
                      (hmm_enter (t1.1.chan c).hmm newphone_score
                        (t1.1.chan a).hmm.out_history nf), t1.2)
                  else Except.ok t)
                fuel (sn1.1.chan a).next sn1 with
            | Except.error e => Except.error e
            | Except.ok (s2, n2) =>
              if newphone_score > lastphn_thresh then
                match emit_cands fuel s2 (s2.chan a).info newphone_score
                    (s2.chan a).hmm.out_history with
                | Except.error e => Except.error e
                | Except.ok s3 => Except.ok (s3, n2)
              else Except.ok (s2, n2)
          else Except.ok sn1
        else if (sn.1.chan a).hmm.frame ≠ nf then
          Except.ok (set_chan_hmm sn.1 a (hmm_clear_scores (sn.1.chan a).hmm), sn.2)
        else Except.ok sn)
      (d.n_active_chan (parity frame_idx)).toNat 0 (d, d.n_active_chan (parity nf)) with
  | Except.error e => Except.error e
  | Except.ok (d1, n) =>
    Except.ok { d1 with n_active_chan := store d1.n_active_chan (parity nf) n }

/-- Modelled from the spec: the `CAND_SF_ALLOCSIZE` macro of
`ngram_search.h`, which is not part of the source tree: the number of buckets
by which the table `cand_sf` is resized on demand. -/
def CAND_SF_ALLOCSIZE : Int := 32

/-- Modelled from the spec: the permutation table `ngs->zeroPermTab`, which is
allocated outside the source tree: all zero, used when `r_diph == -1`. -/
def zeroPermTab : Int → Int := fun _ => 0

/-- The table `rcpermtab` chosen for an entry: `rcFwdPermTable[r_diph]` when
`r_diph >= 0`, else `zeroPermTab`. -/
def rcpermtab_of (d : decoder_t) (bpe : bptbl_t) : Int → Int :=
  if bpe.r_diph ≥ 0 then d.xwd.rcFwdPermTable bpe.r_diph else zeroPermTab

/-- Modelled from the spec: `listelem_alloc(sizeof(chan_t))`, which is not
part of the source tree: the address of a cell not in use is returned; its
contents are whatever the cell held. -/
def listelem_alloc (d : decoder_t) : decoder_t × Int :=
  ({ d with heap_top := d.heap_top + 1 }, d.heap_top + 1)

/-- The initialisation of a freshly allocated leaf at address `a` in
`alloc_all_rc`: `next`, `info.rc_id`, `ciphone` and `hmm_init(.., FALSE,
ssid, ciphone)`. -/
def init_leaf (d : decoder_t) (a next rc_id ciphone ssid : Int) : decoder_t :=
  { d with
    chan := store d.chan a ({ d.chan a with
      next := next, info := rc_id, ciphone := ciphone,
      hmm := hmm_init d.n_inner false ssid ciphone }) }

/-- The write `hmm->next = v` of the node at address `a`. -/
def set_chan_next (d : decoder_t) (a v : Int) : decoder_t :=
  { d with chan := store d.chan a { d.chan a with next := v } }

/-- The write `ngs->word_chan[w] = v`. -/
def set_word_chan (d : decoder_t) (w v : Int) : decoder_t :=
  { d with word_chan := store d.word_chan w v }

/-- The loop `for (i = 1, sseq_rc++; *sseq_rc >= 0; sseq_rc++, i++)` of
`alloc_all_rc`, at index `i` with `hmm` the leaf reached so far. -/
def alloc_rc_loop (sseq_rc : Int → Int) (ciphone : Int) :
    Nat → Int → Int → decoder_t → Except Fault decoder_t
  | 0, _, _, _ => Except.error Fault.fuel
  | fuel + 1, i, hmm, d =>
    if sseq_rc i ≥ 0 then
      if (d.chan hmm).next = 0 ∨ (d.chan (d.chan hmm).next).hmm.ssid ≠ sseq_rc i then
        let r := listelem_alloc d
        let thmm := r.2
        let d1 := init_leaf r.1 thmm (r.1.chan hmm).next i ciphone (sseq_rc i)
        let d2 := set_chan_next d1 hmm thmm
        alloc_rc_loop sseq_rc ciphone fuel (i + 1) thmm d2
      else alloc_rc_loop sseq_rc ciphone fuel (i + 1) (d.chan hmm).next d
    else Except.ok d

/-- Allocate the last-phone channels of word `w` for all its right contexts
(`alloc_all_rc`). -/
def alloc_all_rc (fuel : Nat) (d : decoder_t) (w : Int) : Except Fault decoder_t :=
  let de := d.ngs.dict.dict_list w
  if de.mpx = false then Except.error Fault.assert
  else
    let sseq_rc := d.xwd.rcFwdTable (de.phone_ids (de.len - 1))
    let ciphone := de.ci_phone_ids (de.len - 1)
    let hmm := d.word_chan w
    if hmm = 0 ∨ (d.chan hmm).hmm.ssid ≠ sseq_rc 0 then
      let r := listelem_alloc d
      let d1 := init_leaf r.1 r.2 (r.1.word_chan w) 0 ciphone (sseq_rc 0)
      let d2 := set_word_chan d1 w r.2
      alloc_rc_loop sseq_rc ciphone fuel 1 r.2 d2
    else alloc_rc_loop sseq_rc ciphone fuel 1 hmm d

/-- The backpointer entry a link `bp` points at; following a negative link is
the `no_bp` fault. -/
def bp_deref (d : decoder_t) (bp : Int) : Except Fault bptbl_t :=
  if bp < 0 then Except.error Fault.no_bp else Except.ok (d.ngs.bp_table bp)

/-- The search `for (j = 0; j < n_cand_sf; j++) if (cand_sf[j].bp_ef == ef)
break;`: the first matching bucket among the `k` from `j`, else the index
after them. -/
def find_cand_sf (cand_sf : Int → cand_sf_t) (ef : Int) : Nat → Int → Int
  | 0, j => j
  | k + 1, j => if (cand_sf j).bp_ef = ef then j else find_cand_sf cand_sf ef k (j + 1)

/-- The field writes of `last_phone_transition` and `word_transition` to
`last_ltrans[w]`. -/
def set_ltrans (d : decoder_t) (w : Int) (v : last_ltrans_t) : decoder_t :=
  { d with last_ltrans := store d.last_ltrans w v }

/-- The write of candidate `i`. -/
def set_cand (d : decoder_t) (i : Int) (v : lastphn_cand_t) : decoder_t :=
  { d with lastphn_cand := store d.lastphn_cand i v }

/-- The write of bucket `j` of `cand_sf`. -/
def set_bucket (d : decoder_t) (j : Int) (v : cand_sf_t) : decoder_t :=
  { d with cand_sf := store d.cand_sf j v }

/-- The growth of `cand_sf` by `CAND_SF_ALLOCSIZE` buckets when the
`n_cand_sf` buckets in use fill it; memory being large enough, only the
recorded size changes. -/
def grow_cand_sf (d : decoder_t) (n_cand_sf : Int) : decoder_t :=
  if n_cand_sf ≥ d.cand_sf_alloc then
    if d.cand_sf_alloc = 0 then { d with cand_sf_alloc := CAND_SF_ALLOCSIZE }
    else { d with cand_sf_alloc := d.cand_sf_alloc + CAND_SF_ALLOCSIZE }
  else d

/-- The bucket of end frame `ef` for candidate `i`: the candidate is chained
in front of the bucket found by the search, or a new bucket `j = n_cand_sf++`
is opened for it.  The result is the state, `j` and `n_cand_sf`. -/
def lpt_find_bucket (d : decoder_t) (i n_cand_sf ef : Int) : decoder_t × Int × Int :=
  let j := find_cand_sf d.cand_sf ef n_cand_sf.toNat 0
  if j < n_cand_sf then
    (set_cand d i { d.lastphn_cand i with next := (d.cand_sf j).cand }, j, n_cand_sf)
  else
    let d2 := grow_cand_sf d n_cand_sf
    let d3 := set_cand d2 i { d2.lastphn_cand i with next := -1 }
    (set_bucket d3 n_cand_sf { d3.cand_sf n_cand_sf with bp_ef := ef }, n_cand_sf,
      n_cand_sf + 1)

/-- Step 1 of `last_phone_transition` for candidate `i`: the start score is
taken off the candidate and the candidate is chained onto the bucket of its
predecessor's end frame, unless `last_ltrans` already covers that frame.  The
state carries the local `n_cand_sf`. -/
def lpt_bucket (i : Int) (sn : decoder_t × Int) : Except Fault (decoder_t × Int) :=
  let d := sn.1
  let n_cand_sf := sn.2
  match bp_deref d (d.lastphn_cand i).bp with
  | Except.error e => Except.error e
  | Except.ok bpe =>
    let rcpermtab := rcpermtab_of d bpe
    let de := d.ngs.dict.dict_list (d.lastphn_cand i).wid
    let ciph0 := de.ci_phone_ids 0
    let d1 := set_cand d i
      { d.lastphn_cand i with
        score := (d.lastphn_cand i).score - d.ngs.bscore_stack (bpe.s_idx + rcpermtab ciph0) }
    let wid := (d1.lastphn_cand i).wid
    if (d1.last_ltrans wid).sf ≠ bpe.frame + 1 then
      let r := lpt_find_bucket d1 i n_cand_sf bpe.frame
      let d4 := set_bucket r.1 r.2.1 { r.1.cand_sf r.2.1 with cand := i }
      let d5 := set_ltrans d4 wid { d4.last_ltrans wid with dscr := WORST_SCORE }
      let d6 := set_ltrans d5 wid { d5.last_ltrans wid with sf := bpe.frame + 1 }
      Except.ok (d6, r.2.2)
    else Except.ok (d1, n_cand_sf)

/-- Step 2 of `last_phone_transition` for the entry at `bp` and the
candidates chained from `j0`: the best transition score into each candidate's
word is kept in `last_ltrans`, with its entry. -/
def lpt_score (env : env_t) (fuel : Nat) (bp j0 : Int) (d : decoder_t) :
    Except Fault decoder_t :=
  let bpe := d.ngs.bp_table bp
  if bpe.valid = false then Except.ok d
  else
    let rcpermtab := rcpermtab_of d bpe
    for_list is_neg (fun (s : decoder_t) j => (s.lastphn_cand j).next)
      (fun j (s : decoder_t) =>
        let wid := (s.lastphn_cand j).wid
        let de := s.ngs.dict.dict_list wid
        let ciph0 := de.ci_phone_ids 0
        let dscr := s.ngs.bscore_stack (bpe.s_idx + rcpermtab ciph0)
          + env.tg_score de.wid bpe.real_wid bpe.prev_real_wid
        if (s.last_ltrans wid).dscr < dscr then
          let s1 := set_ltrans s wid { s.last_ltrans wid with dscr := dscr }
          Except.ok (set_ltrans s1 wid { s1.last_ltrans wid with bp := bp })
        else Except.ok s)
      fuel j0 d

/-- Step 4 of `last_phone_transition` for candidate `i`: a candidate within
the beam has its leaves allocated and entered, and its word put on the next
active-word list.  The state carries the fill count of that list. -/
def lpt_enter (fuel : Nat) (frame_idx thresh : Int) (i : Int) (sn : decoder_t × Int) :
    Except Fault (decoder_t × Int) :=
  let nf := frame_idx + 1
  let cand := sn.1.lastphn_cand i
  if cand.score > thresh then
    let w := cand.wid
    match alloc_all_rc fuel sn.1 w with
    | Except.error e => Except.error e
    | Except.ok d1 =>
      match for_list is_null (fun (t : decoder_t × Int) a => (t.1.chan a).next)
          (fun a (t : decoder_t × Int) =>
            if (t.1.chan a).hmm.frame < frame_idx ∨
                (t.1.chan a).hmm.in_score < (t.1.lastphn_cand i).score then
              if (t.1.chan a).hmm.frame = nf then Except.error Fault.assert
              else
                Except.ok (set_chan_hmm t.1 a
                  (hmm_enter (t.1.chan a).hmm (t.1.lastphn_cand i).score
                    (t.1.lastphn_cand i).bp nf), t.2 + 1)
            else Except.ok t)
          fuel (d1.word_chan w) (d1, 0) with
      | Except.error e => Except.error e
      | Except.ok (d2, k) =>
        if k > 0 then
          if d2.word_active w ≠ 0 then Except.error Fault.assert
          else if ¬ ((d2.ngs.dict.dict_list w).len > 1) then Except.error Fault.assert
          else
            let d3 := push_word d2 (parity nf) sn.2 w
            Except.ok ({ d3 with word_active := store d3.word_active w 1 }, sn.2 + 1)
        else Except.ok (d2, sn.2)
  else Except.ok sn

/-- Enter the last phone of every candidate word that left the tree, with the
language model score of the transition (`last_phone_transition`). -/
def last_phone_transition (env : env_t) (fuel : Nat) (d : decoder_t) (frame_idx : Int) :
    Except Fault decoder_t :=
  let nf := frame_idx + 1
  let d0 : decoder_t := { d with n_lastphn_cand_utt := d.n_lastphn_cand_utt + d.n_lastphn_cand }
  match for_up lpt_bucket d0.n_lastphn_cand.toNat 0 (d0, 0) with
  | Except.error e => Except.error e
  | Except.ok (d1, n_cand_sf) =>
    match for_up
        (fun i (s : decoder_t) =>
          let bp0 := s.ngs.bp_table_idx (s.cand_sf i).bp_ef
          let bplast := s.ngs.bp_table_idx ((s.cand_sf i).bp_ef + 1) - 1
          for_up (fun bp (s1 : decoder_t) => lpt_score env fuel bp (s1.cand_sf i).cand s1)
            (bplast - bp0 + 1).toNat bp0 s)
        n_cand_sf.toNat 0 d1 with
    | Except.error e => Except.error e
    | Except.ok d2 =>
      let r := iter_up
        (fun i (sb : decoder_t × Int) =>
          let wid := (sb.1.lastphn_cand i).wid
          let s1 := set_cand sb.1 i
            { sb.1.lastphn_cand i with
              score := (sb.1.lastphn_cand i).score + (sb.1.last_ltrans wid).dscr }
          let s2 := set_cand s1 i
            { s1.lastphn_cand i with bp := (s1.last_ltrans (s1.lastphn_cand i).wid).bp }
          (s2, if sb.2 < (s2.lastphn_cand i).score then (s2.lastphn_cand i).score else sb.2))
        d2.n_lastphn_cand.toNat 0 (d2, d2.last_phone_best_score)
      let bestscore := r.2
      let d3 : decoder_t := { r.1 with last_phone_best_score := bestscore }
      let thresh := bestscore + d3.lponlybeam
      match for_up (lpt_enter fuel frame_idx thresh) d3.n_lastphn_cand.toNat 0 (d3, 0) with
      | Except.error e => Except.error e
      | Except.ok (d4, n) =>
        Except.ok { d4 with n_active_word := store d4.n_active_word (parity nf) n }

/-- The place `phmmp` points at in `prune_word_chan`: `&ngs->word_chan[w]` or
`&hmm->next` of the leaf at an address. -/
inductive link_t where
  | head (w : Int)
  | next_of (a : Int)

/-- The write `*phmmp = v`. -/
def write_link (d : decoder_t) (l : link_t) (v : Int) : decoder_t :=
  match l with
  | link_t.head w => set_word_chan d w v
  | link_t.next_of a => set_chan_next d a v

/-- The call of `save_bwd_ptr` on the backpointer part of the decoder. -/
def save_exit (fuel : Nat) (d : decoder_t) (frame_idx w score path rc : Int) :
    Except Fault decoder_t :=
  match save_bwd_ptr fuel d.ngs frame_idx w score path rc with
  | Except.error e => Except.error e
  | Except.ok ngs1 => Except.ok (set_ngs d ngs1)

/-- The loop `for (hmm = ngs->word_chan[w]; hmm; hmm = thmm)` of
`prune_word_chan` over the leaves of word `w`, at leaf `hmm`, with the count
`k` of leaves kept and the place `phmmp` to unlink from; `sfuel` is the fuel
of the calls of `save_bwd_ptr`.  The result is the state and `k`. -/
def prune_leaves (sfuel : Nat) (frame_idx w newword_thresh lastphn_thresh : Int) :
    Nat → Int → link_t → Int → decoder_t → Except Fault (decoder_t × Int)
  | 0, _, _, _, _ => Except.error Fault.fuel
  | fuel + 1, hmm, phmmp, k, d =>
    if hmm = 0 then Except.ok (d, k)
    else if (d.chan hmm).hmm.frame < frame_idx then Except.error Fault.assert
    else
      let thmm := (d.chan hmm).next
      if (d.chan hmm).hmm.bestscore > lastphn_thresh then
        let d1 := set_chan_hmm d hmm (hmm_set_frame (d.chan hmm).hmm (frame_idx + 1))
        if (d1.chan hmm).hmm.out_score > newword_thresh then
          match save_exit sfuel d1 frame_idx w (d1.chan hmm).hmm.out_score
              (d1.chan hmm).hmm.out_history (d1.chan hmm).info with
          | Except.error e => Except.error e
          | Except.ok d2 =>
            prune_leaves sfuel frame_idx w newword_thresh lastphn_thresh fuel thmm
              (link_t.next_of hmm) (k + 1) d2
        else
          prune_leaves sfuel frame_idx w newword_thresh lastphn_thresh fuel thmm
            (link_t.next_of hmm) (k + 1) d1
      else if (d.chan hmm).hmm.frame = frame_idx + 1 then
        prune_leaves sfuel frame_idx w newword_thresh lastphn_thresh fuel thmm
          (link_t.next_of hmm) k d
      else
        prune_leaves sfuel frame_idx w newword_thresh lastphn_thresh fuel thmm phmmp k
          (write_link d phmmp thmm)

/-- Prune the leaves of the active words and the single-phone words, saving
a backpointer for each exit within the word beam (`prune_word_chan`). -/
def prune_word_chan (fuel : Nat) (d : decoder_t) (frame_idx : Int) : Except Fault decoder_t :=
  let nf := frame_idx + 1
  let newword_thresh := d.last_phone_best_score + beam_max d.dynamic_beam d.wbeam
  let lastphn_thresh := d.last_phone_best_score + beam_max d.dynamic_beam d.lponlybeam
  match for_up
      (fun i (sn : decoder_t × Int) =>
        let w := sn.1.active_word_list (parity frame_idx) i
        match prune_leaves fuel frame_idx w newword_thresh lastphn_thresh fuel
            (sn.1.word_chan w) (link_t.head w) 0 sn.1 with
        | Except.error e => Except.error e
        | Except.ok (s1, k) =>
          if k > 0 ∧ s1.word_active w = 0 then
            if ¬ ((s1.ngs.dict.dict_list w).len > 1) then Except.error Fault.assert
            else
              let s2 := push_word s1 (parity nf) sn.2 w
              Except.ok ({ s2 with word_active := store s2.word_active w 1 }, sn.2 + 1)
          else Except.ok (s1, sn.2))
      (d.n_active_word (parity frame_idx)).toNat 0 (d, d.n_active_word (parity nf)) with
  | Except.error e => Except.error e
  | Except.ok (d1, n) =>
    let d2 : decoder_t := { d1 with n_active_word := store d1.n_active_word (parity nf) n }
    for_up
      (fun i (s : decoder_t) =>
        let w := s.single_phone_wid i
        if (s.all_rhmm w).hmm.frame < frame_idx then Except.ok s
        else if (s.all_rhmm w).hmm.bestscore > lastphn_thresh then
          let s1 := set_rhmm_hmm s w (hmm_set_frame (s.all_rhmm w).hmm nf)
          if (s1.all_rhmm w).hmm.out_score > newword_thresh then
            save_exit fuel s1 frame_idx w (s1.all_rhmm w).hmm.out_score
              (s1.all_rhmm w).hmm.out_history 0
          else Except.ok s1
        else Except.ok s)
      d2.n_1ph_words.toNat 0 d2

/-- The loop `for (i = nhmms = 0; i < 256; ++i) { nhmms += bins[i]; if (nhmms >
maxhmmpf) break; }` of `prune_channels`, with `k` bins left from bin `i`: the
value of `i` after the loop. -/
def beam_bin (bins : Int → Int) (maxhmmpf : Int) : Nat → Int → Int → Int
  | 0, i, _ => i
  | k + 1, i, nhmms =>
    if nhmms + bins i > maxhmmpf then i
    else beam_bin bins maxhmmpf k (i + 1) (nhmms + bins i)

/-- The bin `b` of an HMM of best score `bestscore`: `(best_score -
bestscore) / bw`, at most 255. -/
def bin_of (best_score bestscore bw : Int) : Int :=
  let b := (best_score - bestscore).tdiv bw
  if b ≥ 256 then 255 else b

/-- The histogram of `prune_channels` for bin width `bw`: one count per root
channel and one per channel of the frame's active list, in the bin of its
best score. -/
def beam_hist (d : decoder_t) (frame_idx bw : Int) : Int → Int :=
  let bins0 : Int → Int := fun _ => 0
  let bins1 := iter_up
    (fun i (bins : Int → Int) =>
      let b := bin_of d.best_score (d.root_chan i).hmm.bestscore bw
      store bins b (bins b + 1))
    d.n_root_chan.toNat 0 bins0
  iter_up
    (fun k (bins : Int → Int) =>
      let a := d.active_chan_list (parity frame_idx) k
      let b := bin_of d.best_score (d.chan a).hmm.bestscore bw
      store bins b (bins b + 1))
    (d.n_active_chan (parity frame_idx)).toNat 0 bins1

/-- The head of `prune_channels`: the candidate list is emptied and the
dynamic beam is set, from the histogram when `maxhmmpf` is exceeded.  The
division by a bin width of zero is the `div_zero` fault. -/
def set_dynamic_beam (d : decoder_t) (frame_idx : Int) : Except Fault decoder_t :=
  let d1 : decoder_t := { d with n_lastphn_cand := 0 }
  let d2 : decoder_t := { d1 with dynamic_beam := d1.beam }
  if d2.maxhmmpf ≠ -1 ∧ d2.n_root_chan_eval + d2.n_nonroot_chan_eval > d2.maxhmmpf then
    let bw := (-d2.beam).tdiv 256
    if bw = 0 then Except.error Fault.div_zero
    else
      let i := beam_bin (beam_hist d2 frame_idx bw) d2.maxhmmpf 256 0 0
      Except.ok { d2 with dynamic_beam := -(i * bw) }
  else Except.ok d2

/-- Set the dynamic beam from `maxhmmpf` and run the four pruning passes
(`prune_channels`). -/
def prune_channels (env : env_t) (fuel : Nat) (d : decoder_t) (frame_idx : Int) :
    Except Fault decoder_t :=
  match set_dynamic_beam d frame_idx with
  | Except.error e => Except.error e
  | Except.ok d3 =>
    match prune_root_chan fuel d3 frame_idx with
    | Except.error e => Except.error e
    | Except.ok d4 =>
      match prune_nonroot_chan fuel d4 frame_idx with
      | Except.error e => Except.error e
      | Except.ok d5 =>
        match last_phone_transition env fuel d5 frame_idx with
        | Except.error e => Except.error e
        | Except.ok d6 => prune_word_chan fuel d6 frame_idx

/-- The loop `for (i = hi; i > hi - n; --i) body(i)`. -/
def iter_down {σ : Type} (body : Int → σ → σ) : Nat → Int → σ → σ
  | 0, _, s => s
  | n + 1, i, s => iter_down body n (i - 1) (body i s)

/-- The write `ngs->bestbp_rc[rc] = v`. -/
def set_bestbp_rc (d : decoder_t) (rc : Int) (v : bestbp_rc_t) : decoder_t :=
  { d with bestbp_rc := store d.bestbp_rc rc v }

/-- The first loop of `word_transition` at entry `bp`: the word's lattice
index is reset and, unless the word is `</s>`, the entry competes as best
predecessor for every right context.  The state carries the count `k` of
exits other than `</s>`. -/
def wt_best_rc (bp : Int) (sk : decoder_t × Int) : decoder_t × Int :=
  let d := sk.1
  let bpe := d.ngs.bp_table bp
  let d1 := set_ngs d { d.ngs with word_lat_idx := store d.ngs.word_lat_idx bpe.wid NO_BP }
  if bpe.wid = d1.finish_wid then (d1, sk.2)
  else
    let de := d1.ngs.dict.dict_list bpe.wid
    let rcpermtab := rcpermtab_of d1 bpe
    let last_ciph := de.ci_phone_ids (de.len - 1)
    let d2 := iter_down
      (fun rc (s : decoder_t) =>
        if s.ngs.bscore_stack (bpe.s_idx + rcpermtab rc) > (s.bestbp_rc rc).score then
          set_bestbp_rc s rc
            { score := s.ngs.bscore_stack (bpe.s_idx + rcpermtab rc), path := bp,
              lc := last_ciph }
        else s)
      d1.ngs.n_ciphone.toNat (d1.ngs.n_ciphone - 1) d1
    (d2, sk.2 + 1)

/-- The entry of a root-shaped channel in `word_transition`: taken when the
channel is not active in the next frame yet or the new score is better. -/
def wt_enter_ok (h : hmm_t) (frame_idx newscore : Int) : Bool :=
  decide (h.frame < frame_idx ∨ h.in_score < newscore)

/-- Transitions into the tree roots in `word_transition`, root `i`. -/
def wt_root (frame_idx thresh : Int) (i : Int) (d : decoder_t) : decoder_t :=
  let nf := frame_idx + 1
  let rhmm := d.root_chan i
  let best := d.bestbp_rc rhmm.ciphone
  let newscore := best.score + d.nwpen + d.pip
  if newscore > thresh then
    if wt_enter_ok rhmm.hmm frame_idx newscore then
      let ssid := d.xwd.lcFwdTable rhmm.diphone best.lc
      let h1 := hmm_enter rhmm.hmm newscore best.path nf
      set_root_hmm d i (if h1.mpx then hmm_set_ssid h1 ssid else h1)
    else d
  else d

/-- The second loop over the frame's entries in `word_transition`, entry
`bp`: the best language-model transition into every in-LM single-phone word
is kept in `last_ltrans`. -/
def wt_ltrans (env : env_t) (bp : Int) (d : decoder_t) : decoder_t :=
  let bpe := d.ngs.bp_table bp
  if bpe.valid = false then d
  else
    let rcpermtab := rcpermtab_of d bpe
    iter_up
      (fun i (s : decoder_t) =>
        let w := s.single_phone_wid i
        let de := s.ngs.dict.dict_list w
        let newscore := s.ngs.bscore_stack (bpe.s_idx + rcpermtab (de.ci_phone_ids 0))
          + env.tg_score de.wid bpe.real_wid bpe.prev_real_wid
        if (s.last_ltrans w).dscr < newscore then
          let s1 := set_ltrans s w { s.last_ltrans w with dscr := newscore }
          set_ltrans s1 w { s1.last_ltrans w with bp := bp }
        else s)
      d.n_1ph_LMwords.toNat 0 d

/-- Transition into the in-LM single-phone word listed at `i` in
`word_transition`. -/
def wt_single (frame_idx thresh : Int) (i : Int) (d : decoder_t) : Except Fault decoder_t :=
  let nf := frame_idx + 1
  let w := d.single_phone_wid i
  let rhmm := d.all_rhmm w
  let newscore := (d.last_ltrans w).dscr + d.pip
  if newscore > thresh then
    match bp_deref d (d.last_ltrans w).bp with
    | Except.error e => Except.error e
    | Except.ok bpe =>
      let pde := d.ngs.dict.dict_list bpe.wid
      if wt_enter_ok rhmm.hmm frame_idx newscore then
        let h1 := hmm_enter rhmm.hmm newscore (d.last_ltrans w).bp nf
        Except.ok (set_rhmm_hmm d w
          (if h1.mpx then
            hmm_set_ssid h1 (d.xwd.lcFwdTable rhmm.diphone (pde.ci_phone_ids (pde.len - 1)))
          else h1))
      else Except.ok d
  else Except.ok d

/-- Transition into the silence or a noise word `w` in `word_transition`,
from the best predecessor for the silence phone. -/
def wt_filler (frame_idx newscore : Int) (w : Int) (d : decoder_t) : decoder_t :=
  let rhmm := d.all_rhmm w
  if wt_enter_ok rhmm.hmm frame_idx newscore then
    set_rhmm_hmm d w
      (hmm_enter rhmm.hmm newscore (d.bestbp_rc d.sil).path (frame_idx + 1))
  else d

/-- Transitions from the words that ended in the frame to the start of new
words (`word_transition`). -/
def word_transition (env : env_t) (d : decoder_t) (frame_idx : Int) : Except Fault decoder_t :=
  let d1 := iter_down
    (fun i (s : decoder_t) => set_bestbp_rc s i { s.bestbp_rc i with score := WORST_SCORE })
    d.ngs.n_ciphone.toNat (d.ngs.n_ciphone - 1) d
  let lo := d1.ngs.bp_table_idx frame_idx
  let cnt := (d1.ngs.bpidx - lo).toNat
  let r := iter_up wt_best_rc cnt lo (d1, 0)
  let d2 := r.1
  if r.2 = 0 then Except.ok d2
  else
    let thresh := d2.best_score + d2.dynamic_beam
    let d3 := iter_up (wt_root frame_idx thresh) d2.n_root_chan.toNat 0 d2
    let d4 := iter_up
      (fun i (s : decoder_t) =>
        let w := s.single_phone_wid i
        set_ltrans s w { s.last_ltrans w with dscr := INT32_MIN })
      d3.n_1ph_LMwords.toNat 0 d3
    let d5 := iter_up (wt_ltrans env) cnt lo d4
    match for_up (wt_single frame_idx thresh) d5.n_1ph_LMwords.toNat 0 d5 with
    | Except.error e => Except.error e
    | Except.ok d6 =>
      let newscore_sil := (d6.bestbp_rc d6.sil).score + d6.silpen + d6.pip
      let d7 :=
        if newscore_sil > thresh then wt_filler frame_idx newscore_sil d6.ngs.silence_wid d6
        else d6
      let newscore_fill := (d7.bestbp_rc d7.sil).score + d7.fillpen + d7.pip
      let d8 :=
        if newscore_fill > thresh then
          iter_up (wt_filler frame_idx newscore_fill)
            (d7.ngs.dict.dict_entry_count - (d7.ngs.silence_wid + 1)).toNat
            (d7.ngs.silence_wid + 1) d7
        else d7
      Except.ok d8

/-- Clear the scores of the roots and single-phone channels that were not
carried into the next frame (`deactivate_channels`). -/
def deactivate_channels (d : decoder_t) (frame_idx : Int) : decoder_t :=
  let d1 := iter_up
    (fun i (s : decoder_t) =>
      if (s.root_chan i).hmm.frame = frame_idx then
        set_root_hmm s i (hmm_clear_scores (s.root_chan i).hmm)
      else s)
    d.n_root_chan.toNat 0 d
  iter_up
    (fun i (s : decoder_t) =>
      let w := s.single_phone_wid i
      if (s.all_rhmm w).hmm.frame = frame_idx then
        set_rhmm_hmm s w (hmm_clear_scores (s.all_rhmm w).hmm)
      else s)
    d1.n_1ph_words.toNat 0 d1

/-- Word-exit cap on the backpointer part of the decoder. -/
def cap_exits (d : decoder_t) (frame_idx : Int) : Except Fault decoder_t :=
  match bptable_maxwpf d.ngs frame_idx with
  | Except.error e => Except.error e
  | Except.ok ngs1 => Except.ok (set_ngs d ngs1)

/-- One frame of the search (`ngram_fwdtree_search`): the result is the new
state and the number of frames processed, 0 or 1.  The frame index and the
senone scores come from `acmod_score`, which is modelled from the spec: it
returns the index of the current output frame and advances by one frame.
`compute_sen_active` only tells the acoustic model which senones to score
and has no effect on the search state. -/
def ngram_fwdtree_search (env : env_t) (fuel : Nat) (d : decoder_t) :
    Except Fault (decoder_t × Int) :=
  if d.n_feat_frame = 0 then Except.ok (d, 0)
  else
    let frame_idx := d.output_frame
    let d1 : decoder_t :=
      { d with output_frame := d.output_frame + 1, n_feat_frame := d.n_feat_frame - 1 }
    let d2 := ngram_search_mark_bptable d1 frame_idx
    let r3 : Except Fault decoder_t :=
      if d2.best_score + 2 * d2.beam < WORST_SCORE then
        renormalize_scores fuel d2 frame_idx d2.best_score
      else Except.ok d2
    match r3 with
    | Except.error e => Except.error e
    | Except.ok d3 =>
      match evaluate_channels env fuel d3 frame_idx with
      | Except.error e => Except.error e
      | Except.ok d4 =>
        match prune_channels env fuel d4 frame_idx with
        | Except.error e => Except.error e
        | Except.ok d5 =>
          match cap_exits d5 frame_idx with
          | Except.error e => Except.error e
          | Except.ok d6 =>
            match word_transition env d6 frame_idx with
            | Except.error e => Except.error e
            | Except.ok d7 => Except.ok (deactivate_channels d7 frame_idx, 1)

/-! ## The construction of the lexicon tree -/

/-- A place holding the first child and the homophone chain of a tree level:
a root channel, by index, or a tree node, by address. -/
inductive parent_t where
  | root (i : Int)
  | node (a : Int)

/-- The first child: `rhmm->next` or `hmm->next`. -/
def kids (d : decoder_t) : parent_t → Int
  | parent_t.root i => (d.root_chan i).next
  | parent_t.node a => (d.chan a).next

/-- The write `rhmm->next = v` of root `i`. -/
def set_root_next (d : decoder_t) (i v : Int) : decoder_t :=
  { d with root_chan := store d.root_chan i { d.root_chan i with next := v } }

/-- The write `hmm->alt = v` of the node at address `a`. -/
def set_chan_alt (d : decoder_t) (a v : Int) : decoder_t :=
  { d with chan := store d.chan a { d.chan a with alt := v } }

/-- The write of the first child. -/
def set_kids (d : decoder_t) (p : parent_t) (v : Int) : decoder_t :=
  match p with
  | parent_t.root i => set_root_next d i v
  | parent_t.node a => set_chan_next d a v

/-- The head of the homophone chain: `rhmm->penult_phn_wid` or
`hmm->info.penult_phn_wid`. -/
def penult (d : decoder_t) : parent_t → Int
  | parent_t.root i => (d.root_chan i).penult_phn_wid
  | parent_t.node a => (d.chan a).info

/-- The write of the head of the homophone chain. -/
def set_penult (d : decoder_t) (p : parent_t) (w : Int) : decoder_t :=
  match p with
  | parent_t.root i =>
    { d with root_chan := store d.root_chan i { d.root_chan i with penult_phn_wid := w } }
  | parent_t.node a => { d with chan := store d.chan a { d.chan a with info := w } }

/-- One-time initialisation of the tree node at address `hmm`
(`init_nonroot_chan`). -/
def init_nonroot_chan (d : decoder_t) (hmm ph ci : Int) : decoder_t :=
  { d with
    chan := store d.chan hmm
      { d.chan hmm with
        next := 0, alt := 0, info := -1, ciphone := ci,
        hmm := hmm_init d.n_inner false ph ci } }

/-- The search `for (; hmm && (hmm->hmm.s.ssid != ph); hmm = hmm->alt)
prev_hmm = hmm;` of `create_search_tree`: the values of `hmm` and `prev_hmm`
after the loop. -/
def find_sib (chan : Int → chan_t) (ph : Int) : Nat → Int → Int → Except Fault (Int × Int)
  | 0, _, _ => Except.error Fault.fuel
  | fuel + 1, hmm, prev_hmm =>
    if hmm ≠ 0 ∧ (chan hmm).hmm.ssid ≠ ph then find_sib chan ph fuel (chan hmm).alt hmm
    else Except.ok (hmm, prev_hmm)

/-- The walk `for (; ngs->homophone_set[j] >= 0; j = ngs->homophone_set[j]);`
of `create_search_tree`: the value of `j` after the loop. -/
def chain_last (homophone_set : Int → Int) : Nat → Int → Except Fault Int
  | 0, _ => Except.error Fault.fuel
  | fuel + 1, j =>
    if homophone_set j ≥ 0 then chain_last homophone_set fuel (homophone_set j)
    else Except.ok j

/-- A freshly allocated tree node for phone `ph`, counted in
`n_nonroot_chan`; `link` stores its address in the parent or the sibling that
points at it.  The result is the state and the address. -/
def new_nonroot_chan (d : decoder_t) (link : decoder_t → Int → decoder_t) (ph ci : Int) :
    decoder_t × Int :=
  let r := listelem_alloc d
  let d1 := link r.1 r.2
  let d2 := init_nonroot_chan d1 r.2 ph ci
  ({ d2 with n_nonroot_chan := d2.n_nonroot_chan + 1 }, r.2)

/-- One level of the descent of `create_search_tree`: the child of `p` for
phone `ph` is found on the sibling chain, or allocated and linked as the
first child or after the last sibling.  The result is the state and the
address of the child. -/
def find_or_add_child (fuel : Nat) (d : decoder_t) (p : parent_t) (ph ci : Int) :
    Except Fault (decoder_t × Int) :=
  if kids d p = 0 then
    Except.ok (new_nonroot_chan d (fun s v => set_kids s p v) ph ci)
  else
    match find_sib d.chan ph fuel (kids d p) 0 with
    | Except.error e => Except.error e
    | Except.ok r =>
      if r.1 = 0 then
        Except.ok (new_nonroot_chan d (fun s v => set_chan_alt s r.2 v) ph ci)
      else Except.ok (d, r.1)

/-- The word `w` is put on the homophone chain of `p`: as its head when the
chain is empty, else after its last word. -/
def add_homophone (fuel : Nat) (d : decoder_t) (p : parent_t) (w : Int) :
    Except Fault decoder_t :=
  if penult d p < 0 then Except.ok (set_penult d p w)
  else
    match chain_last d.homophone_set fuel (penult d p) with
    | Except.error e => Except.error e
    | Except.ok j => Except.ok { d with homophone_set := store d.homophone_set j w }

/-- The root channel of a word with entry `de`: the one mapped to its first
phone, or the next root of the pool, set up for that phone.  The result is
the state and the index of the root. -/
def find_or_add_root (d : decoder_t) (de : dict_entry_t) : decoder_t × Int :=
  let p0 := de.phone_ids 0
  if d.first_phone_rchan_map p0 < 0 then
    let i := d.n_root_chan
    let d1 : decoder_t :=
      { d with first_phone_rchan_map := store d.first_phone_rchan_map p0 i }
    let d2 := set_root_hmm d1 i (hmm_set_ssid (d1.root_chan i).hmm p0)
    let d3 := set_root_hmm d2 i { (d2.root_chan i).hmm with tmatid := de.ci_phone_ids 0 }
    let d4 : decoder_t :=
      { d3 with
        root_chan := store d3.root_chan i
          { d3.root_chan i with diphone := p0, ciphone := de.ci_phone_ids 0 } }
    ({ d4 with n_root_chan := d4.n_root_chan + 1 }, i)
  else (d, d.first_phone_rchan_map p0)

/-- The write `ngs->single_phone_wid[ngs->n_1ph_LMwords++] = w`. -/
def push_1ph_LMword (d : decoder_t) (w : Int) : decoder_t :=
  { d with
    single_phone_wid := store d.single_phone_wid d.n_1ph_LMwords w,
    n_1ph_LMwords := d.n_1ph_LMwords + 1 }

/-- The write `ngs->single_phone_wid[ngs->n_1ph_words++] = w`. -/
def push_1ph_word (d : decoder_t) (w : Int) : decoder_t :=
  { d with
    single_phone_wid := store d.single_phone_wid d.n_1ph_words w,
    n_1ph_words := d.n_1ph_words + 1 }

/-- The body of the main loop of `create_search_tree` for the main-vocabulary
word `w`: a word the language model does not know is ignored, a single-phone
word is listed, any other word is inserted into the tree. -/
def cst_word (env : env_t) (fuel : Nat) (w : Int) (d : decoder_t) : Except Fault decoder_t :=
  let de := d.ngs.dict.dict_list w
  if env.known_wid de.wid = false then Except.ok d
  else if de.len = 1 then Except.ok (push_1ph_LMword d w)
  else
    let r := find_or_add_root d de
    if de.len = 2 then add_homophone fuel r.1 (parent_t.root r.2) w
    else
      match find_or_add_child fuel r.1 (parent_t.root r.2) (de.phone_ids 1)
          (de.ci_phone_ids 1) with
      | Except.error e => Except.error e
      | Except.ok s1 =>
        match for_up
            (fun p (s : decoder_t × Int) =>
              find_or_add_child fuel s.1 (parent_t.node s.2) (de.phone_ids p)
                (de.ci_phone_ids p))
            (de.len - 1 - 2).toNat 2 s1 with
        | Except.error e => Except.error e
        | Except.ok s2 => add_homophone fuel s2.1 (parent_t.node s2.2) w

/-- The resets at the head of `create_search_tree`. -/
def cst_reset (d : decoder_t) : decoder_t :=
  let d1 : decoder_t :=
    { d with
      homophone_set := iter_up (fun w a => store a w (-1)) d.ngs.dict.n_main_words.toNat 0
        d.homophone_set }
  let d2 : decoder_t :=
    { d1 with
      first_phone_rchan_map := iter_up (fun i a => store a i (-1)) d1.n_root_chan_alloc.toNat 0
        d1.first_phone_rchan_map }
  { d2 with n_1ph_LMwords := 0, n_root_chan := 0, n_nonroot_chan := 0 }

/-- The value of the C expression `!w`. -/
def lnot (w : Int) : Int := if w = 0 then 1 else 0

/-- The body of the loop of `create_search_tree` over the words from `</s>`
on, with its test `(!w >= ngs->silence_wid) && !known_wid(de->wid)`. -/
def cst_post_word (env : env_t) (w : Int) (d : decoder_t) : decoder_t :=
  if lnot w ≥ d.ngs.silence_wid ∧ env.known_wid (d.ngs.dict.dict_list w).wid = false then d
  else push_1ph_word d w

/-- The end of the enumeration of the single-phone words in
`create_search_tree`: `n_1ph_words` restarts at the count of the listed
main-vocabulary words, `n_1ph_LMwords` counts `</s>` in, and the words from
`dict_to_id(dict, "</s>")`, kept in `finish_wid`, to the end of the dictionary
are run through. -/
def cst_post (env : env_t) (d : decoder_t) : decoder_t :=
  let d1 : decoder_t := { d with n_1ph_words := d.n_1ph_LMwords }
  let d2 : decoder_t := { d1 with n_1ph_LMwords := d1.n_1ph_LMwords + 1 }
  iter_up (cst_post_word env) (d2.ngs.dict.dict_entry_count - d2.finish_wid).toNat
    d2.finish_wid d2

/-- The resizing of the active channel lists at the end of
`create_search_tree`; the new lists are zeroed. -/
def cst_resize (d : decoder_t) : decoder_t :=
  if d.n_nonroot_chan ≥ d.max_nonroot_chan then
    { d with max_nonroot_chan := d.n_nonroot_chan + 128, active_chan_list := fun _ _ => 0 }
  else d

/-- Build the lexicon tree for the words the language model knows
(`create_search_tree`). -/
def create_search_tree (env : env_t) (fuel : Nat) (d : decoder_t) : Except Fault decoder_t :=
  match for_up (cst_word env fuel) d.ngs.dict.n_main_words.toNat 0 (cst_reset d) with
  | Except.error e => Except.error e
  | Except.ok d1 => Except.ok (cst_resize (cst_post env d1))

/-! ## The teardown of the lexicon tree -/

/-- Modelled from the spec: `listelem_free(hmm, sizeof(*hmm))`, which is not
part of the source tree: the cell at `a` is given back.  `listelem_alloc`
hands out cells that were never in use, so nothing is recorded. -/
def listelem_free (d : decoder_t) (_a : Int) : decoder_t := d

mutual
/-- Free the nodes below the node at `hmm`, then the node itself
(`reinit_search_subtree`); `hmm_deinit` releases nothing the model holds. -/
def reinit_search_subtree : Nat → decoder_t → Int → Except Fault decoder_t
  | 0, _, _ => Except.error Fault.fuel
  | fuel + 1, d, hmm =>
    match reinit_siblings fuel d (d.chan hmm).next with
    | Except.error e => Except.error e
    | Except.ok d1 => Except.ok (listelem_free d1 hmm)
/-- The loop `for (child = first; child; child = sibling) { sibling =
child->alt; reinit_search_subtree(child); }` of `reinit_search_subtree`, which
is also the loop `while (hmm)` of `reinit_search_tree`. -/
def reinit_siblings : Nat → decoder_t → Int → Except Fault decoder_t
  | 0, _, _ => Except.error Fault.fuel
  | fuel + 1, d, child =>
    if child = 0 then Except.ok d
    else
      match reinit_search_subtree fuel d child with
      | Except.error e => Except.error e
      | Except.ok d1 => reinit_siblings fuel d1 (d.chan child).alt
end

/-- The body of the loop of `reinit_search_tree` for root `i`: the tree below
the root is freed and the root is put back in its state after
`init_search_tree`. -/
def reinit_root (fuel : Nat) (i : Int) (d : decoder_t) : Except Fault decoder_t :=
  match reinit_siblings fuel d (d.root_chan i).next with
  | Except.error e => Except.error e
  | Except.ok d1 => Except.ok (set_root_next (set_penult d1 (parent_t.root i) (-1)) i 0)

/-- Delete the search tree (`reinit_search_tree`). -/
def reinit_search_tree (fuel : Nat) (d : decoder_t) : Except Fault decoder_t :=
  match for_up (reinit_root fuel) d.n_root_chan.toNat 0 d with
  | Except.error e => Except.error e
  | Except.ok d1 => Except.ok { d1 with n_nonroot_chan := 0 }

/-! ## Specification-side notions for the cached trigram path -/

/-- The chain `e, e.bp, e.bp.bp, ...` of backpointer entries: its `k`-th
member, counted from `e` itself. -/
def bp_chain (tbl : Int → bptbl_t) (e : Int) : Nat → Int
  | 0 => e
  | k + 1 => (tbl (bp_chain tbl e k)).bp

/-- The `k`-th member of the chain from `start` is its first member whose word
is not a filler (word id below `silence_wid`), and the chain stays inside the
table up to there. -/
def first_real_on_chain (silence_wid : Int) (tbl : Int → bptbl_t) (start : Int) (k : Nat) :
    Prop :=
  (∀ j, j < k → silence_wid ≤ (tbl (bp_chain tbl start j)).wid ∧
    0 ≤ bp_chain tbl start (j + 1)) ∧
  (tbl (bp_chain tbl start k)).wid < silence_wid

/-! ## Test states -/

/-- A small test state: four exits in frame 0, word ids 0..3, silence is 2. -/
def ex_tbl : Int → bptbl_t := fun i =>
  if i = 0 then { wid := 0, score := -10, valid := true }
  else if i = 1 then { wid := 2, score := -30, valid := true }
  else if i = 2 then { wid := 1, score := -20, valid := true }
  else if i = 3 then { wid := 3, score := -5, valid := true }
  else {}

/-- The test table in a state with silence id 2 and a cap of two exits. -/
def ex_ngs : ngram_search_t :=
  { silence_wid := 2, maxwpf := 2, bpidx := 4, bp_table := ex_tbl,
    dict := { dict_entry_count := 4 } }

/-- The test state with the cap switched off. -/
def ex_ngs_off : ngram_search_t := { ex_ngs with maxwpf := -1 }

/-- A frame holding a single silence exit, with a cap of zero exits. -/
def ex_sil_ngs : ngram_search_t :=
  { silence_wid := 2, maxwpf := 0, bpidx := 1,
    bp_table := fun i => if i = 0 then { wid := 2, score := -30, valid := true } else {},
    dict := { dict_entry_count := 4 } }

/-- A frame holding two filler exits, with a cap of two exits. -/
def ex_fill_ngs : ngram_search_t :=
  { silence_wid := 2, maxwpf := 2, bpidx := 2,
    bp_table := fun i =>
      if i = 0 then { wid := 2, score := -30, valid := true }
      else if i = 1 then { wid := 3, score := -7, valid := true }
      else {},
    dict := { dict_entry_count := 4 } }

/-- A chain of four exits: start word (id 1), a real word (id 0), silence
(id 5) and a noise word (id 6), each pointing at the one before; the cached
fields of the first two are filled in. Base word ids are word ids plus 100. -/
def ex_chain_ngs : ngram_search_t :=
  { silence_wid := 5, bpidx := 4,
    dict := { dict_entry_count := 7, dict_list := fun w => { wid := w + 100 } },
    bp_table := fun i =>
      if i = 0 then { wid := 1, bp := NO_BP, real_wid := 101, prev_real_wid := -1, valid := true }
      else if i = 1 then { wid := 0, bp := 0, real_wid := 100, prev_real_wid := 101, valid := true }
      else if i = 2 then { wid := 5, bp := 1, valid := true }
      else if i = 3 then { wid := 6, bp := 2, valid := true }
      else {} }

/-- The test chain after word 2 has exited in the current frame at index 4
with score -40, its single score-stack slot being slot 9. -/
def ex_exit_ngs : ngram_search_t :=
  { ex_chain_ngs with
    bpidx := 5, bss_head := 10,
    bp_table := store ex_chain_ngs.bp_table 4
      { wid := 2, bp := 3, score := -40, s_idx := 9, real_wid := 102, prev_real_wid := 100,
        r_diph := -1, valid := true },
    bscore_stack := store ex_chain_ngs.bscore_stack 9 (-40),
    word_lat_idx := store ex_chain_ngs.word_lat_idx 2 4 }

/-! ## Sequences of `save_bwd_ptr` calls -/

/-- The arguments of one call `save_bwd_ptr(ngs, frame_idx, w, score, path, rc)`. -/
structure bwd_call where
  frame_idx : Int
  w : Int
  score : Int
  path : Int
  rc : Int

/-- Book-keeping for the score/stack agreement: `g i` is the right-context
index of the call that last wrote the score of entry `i`.  A call writes the
score of the entry it appends, and of an existing entry when the new score is
strictly greater. -/
def saved_rc_step (ngs : ngram_search_t) (g : Int → Int) (c : bwd_call) : Int → Int :=
  if ngs.word_lat_idx c.w ≠ NO_BP then
    if (ngs.bp_table (ngs.word_lat_idx c.w)).score < c.score then
      store g (ngs.word_lat_idx c.w) c.rc
    else g
  else store g ngs.bpidx c.rc

/-- A sequence of `save_bwd_ptr` calls, run in order, together with the
book-keeping of `saved_rc_step`. -/
def save_bwd_ptr_seq (fuel : Nat) :
    ngram_search_t → (Int → Int) → List bwd_call → Except Fault (ngram_search_t × (Int → Int))
  | ngs, g, [] => Except.ok (ngs, g)
  | ngs, g, c :: cs =>
    match save_bwd_ptr fuel ngs c.frame_idx c.w c.score c.path c.rc with
    | Except.error e => Except.error e
    | Except.ok ngs1 => save_bwd_ptr_seq fuel ngs1 (saved_rc_step ngs g c) cs

/-- The invariant behind the score/stack agreement, for the entries saved
since the state `ngs0` (book-keeping `g0`): they are exactly what
`word_lat_idx` points at, their stack regions lie in order between the old and
the new `bss_head`, and each holds its score in the slot recorded by `g`,
which belongs to a call already seen.  Older entries and slots are untouched. -/
def agree_inv (ngs0 : ngram_search_t) (g0 : Int → Int) (ngs : ngram_search_t)
    (g : Int → Int) (seen : List (Int × Int)) : Prop :=
  ngs.dict = ngs0.dict ∧ ngs0.bpidx ≤ ngs.bpidx ∧ ngs0.bss_head ≤ ngs.bss_head ∧
  (∀ w, ngs.word_lat_idx w = NO_BP ∨
    (ngs0.bpidx ≤ ngs.word_lat_idx w ∧ ngs.word_lat_idx w < ngs.bpidx ∧
      (ngs.bp_table (ngs.word_lat_idx w)).wid = w)) ∧
  (∀ i, ngs0.bpidx ≤ i → i < ngs.bpidx →
    ngs0.bss_head ≤ (ngs.bp_table i).s_idx ∧
    (ngs.bp_table i).s_idx
      + exit_rcsize ngs0.dict (ngs0.dict.dict_list (ngs.bp_table i).wid) ≤ ngs.bss_head ∧
    0 ≤ g i ∧ g i < exit_rcsize ngs0.dict (ngs0.dict.dict_list (ngs.bp_table i).wid) ∧
    ngs.bscore_stack ((ngs.bp_table i).s_idx + g i) = (ngs.bp_table i).score ∧
    ((ngs.bp_table i).wid, g i) ∈ seen ∧
    ngs.word_lat_idx (ngs.bp_table i).wid = i) ∧
  (∀ i j, ngs0.bpidx ≤ i → i < j → j < ngs.bpidx →
    (ngs.bp_table i).s_idx
      + exit_rcsize ngs0.dict (ngs0.dict.dict_list (ngs.bp_table i).wid)
      ≤ (ngs.bp_table j).s_idx) ∧
  (∀ i, i < ngs0.bpidx → ngs.bp_table i = ngs0.bp_table i ∧ g i = g0 i) ∧
  (∀ j, j < ngs0.bss_head → ngs.bscore_stack j = ngs0.bscore_stack j)

/-- Two exits of word 2 for the right contexts 0 and 1 (word 2 is given two
right contexts), the second with the lower score. -/
def ex_calls_two_rc : List bwd_call :=
  [{ frame_idx := 7, w := 2, score := -40, path := 3, rc := 0 },
   { frame_idx := 7, w := 2, score := -60, path := 3, rc := 1 }]

/-- The test chain with word 2 a two-phone multiplex word whose last phone
has two right contexts. -/
def ex_mpx_ngs : ngram_search_t :=
  { ex_chain_ngs with
    dict := { dict_entry_count := 7,
              dict_list := fun w => { wid := w + 100, len := if w = 2 then 2 else 1,
                                      mpx := decide (w = 2), phone_ids := fun _ => 9 },
              rcFwdSizeTable := fun _ => 2 } }

/-! ## A small decoder for tests -/

/-- A Viterbi step that moves the pending entry to the exit: exit score,
exit history and best score become those of the entry state. -/
def ex_env : env_t :=
  { vit_eval := fun _ h =>
      { h with out_score := h.in_score, out_history := h.in_history, bestscore := h.in_score } }

/-- The dictionary of the test decoder: word 0 has two phones and one right
context, word 1 is `</s>`, word 2 is `<s>`, word 3 is silence. -/
def ex_dec_dict : dict_t :=
  { dict_entry_count := 4,
    dict_list := fun w =>
      if w = 0 then
        { wid := 0, len := 2, mpx := true, phone_ids := fun p => if p = 0 then 10 else 11,
          ci_phone_ids := fun p => if p = 0 then 0 else 1 }
      else { wid := w, len := 1, mpx := false, phone_ids := fun _ => 12, ci_phone_ids := fun _ => 1 },
    rcFwdSizeTable := fun _ => 1 }

/-- A decoder with one root for word 0, all beams -1000 and no penalties, as
left behind by earlier use: the root is still stamped for frame 0 and holds
history 7, entry 7 of the backpointer table is a valid exit of frame 0 and
the frame mark of frame 1 is 8. -/
def ex_stale_dec : decoder_t :=
  { ngs :=
      { dict := ex_dec_dict, n_ciphone := 2, silence_wid := 3, maxwpf := -1,
        bp_table := fun i =>
          if i = 7 then { wid := 2, frame := 0, bp := 6, r_diph := -1, valid := true } else {},
        bp_table_idx := fun f => if f = 1 then 8 else 0 },
    xwd := { start_wid := 2, rcFwdTable := fun _ i => if i = 0 then 20 else -1 },
    n_inner := 0, sil := 1, finish_wid := 1,
    beam := -1000, pbeam := -1000, lpbeam := -1000, lponlybeam := -1000, wbeam := -1000,
    n_root_chan := 1,
    root_chan := fun _ =>
      { hmm := { frame := 0, in_score := -10, in_history := 7 }, penult_phn_wid := 0,
        diphone := 10, ciphone := 0 },
    n_1ph_words := 3, n_1ph_LMwords := 1,
    single_phone_wid := fun i => if i = 0 then 1 else if i = 1 then 2 else 3,
    n_feat_frame := 5 }

/-- The test decoder as a first utterance finds it: nothing is stamped, the
backpointer table and the frame marks are zeroed. -/
def ex_fresh_dec : decoder_t :=
  { ex_stale_dec with
    ngs := { ex_stale_dec.ngs with bp_table := fun _ => {}, bp_table_idx := fun _ => 0 },
    root_chan := fun _ => { penult_phn_wid := 0, diphone := 10, ciphone := 0 } }

/-- The result of one frame of search when it returns; the unchanged state
and 0 frames when it faults. -/
def search_out (env : env_t) (fuel : Nat) (d : decoder_t) : decoder_t × Int :=
  match ngram_fwdtree_search env fuel d with
  | Except.ok x => x
  | Except.error _ => (d, 0)

/-- Whether one frame of search returns. -/
def search_returns (env : env_t) (fuel : Nat) (d : decoder_t) : Bool :=
  match ngram_fwdtree_search env fuel d with
  | Except.ok _ => true
  | Except.error _ => false

/-- The state after `n` frames of search. -/
def frames (env : env_t) (fuel : Nat) : Nat → decoder_t → decoder_t
  | 0, d => d
  | n + 1, d => frames env fuel n (search_out env fuel d).1

/-- Whether each of `n` frames of search returns. -/
def frames_return (env : env_t) (fuel : Nat) : Nat → decoder_t → Bool
  | 0, _ => true
  | n + 1, d => search_returns env fuel d && frames_return env fuel n (search_out env fuel d).1

/-! ## Reachable states and the order of backpointers -/

/-- Every history held in the HMM (entry state, further states, exit) is
below `B`. -/
def hmm_below (B : Int) (h : hmm_t) : Prop :=
  h.in_history < B ∧ h.out_history < B ∧ ∀ p ∈ h.inner, p.2 < B

/-- Every HMM of the decoder (tree roots, tree nodes and leaves, single-phone
channels) holds only histories below `B`. -/
def hist_ok (B : Int) (d : decoder_t) : Prop :=
  (∀ i, hmm_below B (d.root_chan i).hmm) ∧ (∀ a, hmm_below B (d.chan a).hmm) ∧
  (∀ w, hmm_below B (d.all_rhmm w).hmm)

/-- The predecessor indices kept in the scratch tables `bestbp_rc` and
`last_ltrans` are below `B`, or not positive (as in zeroed memory). -/
def scratch_ok (B : Int) (d : decoder_t) : Prop :=
  (∀ rc, (d.bestbp_rc rc).path < B ∨ (d.bestbp_rc rc).path ≤ 0) ∧
  (∀ w, (d.last_ltrans w).bp < B ∨ (d.last_ltrans w).bp ≤ 0)

/-- The predecessor index of every last-phone candidate of the frame is below
`B`. -/
def cands_ok (B : Int) (d : decoder_t) : Prop :=
  ∀ i, 0 ≤ i → i < d.n_lastphn_cand → (d.lastphn_cand i).bp < B

/-- The Viterbi step invents no history: whatever bounds the histories of an
HMM before the step bounds them after it. -/
def vit_ok (env : env_t) : Prop :=
  ∀ f h B, hmm_below B h → hmm_below B (env.vit_eval f h)

/-- The backpointer part in the course of frame `f`, whose first entry is
`B`: earlier entries point backwards and the frame after theirs starts at or
before `B`; the entries of the frame point below `B`; a word's lattice index
is `NO_BP` or the index of an entry of the frame for that word. -/
def bt_ok (f B : Int) (ngs : ngram_search_t) : Prop :=
  0 ≤ B ∧ B ≤ ngs.bpidx ∧ ngs.bp_table_idx f = B ∧
  (∀ i, 0 ≤ i → i < B →
    (ngs.bp_table i).bp < i ∧ ngs.bp_table_idx ((ngs.bp_table i).frame + 1) ≤ B) ∧
  (∀ i, B ≤ i → i < ngs.bpidx → (ngs.bp_table i).bp < B ∧ (ngs.bp_table i).frame = f) ∧
  (∀ w, ngs.word_lat_idx w = NO_BP ∨
    (B ≤ ngs.word_lat_idx w ∧ ngs.word_lat_idx w < ngs.bpidx ∧
      (ngs.bp_table (ngs.word_lat_idx w)).wid = w))

/-- The decoder in the course of frame `f`, whose first backpointer entry is
`B`. -/
def frame_ok (f B : Int) (d : decoder_t) : Prop :=
  bt_ok f B d.ngs ∧ d.output_frame = f + 1 ∧ hist_ok B d ∧ scratch_ok B d

/-- The decoder between two frames: every entry points backwards, the frame
after an entry's frame starts at or before `bpidx` unless it is the frame to
come, no word has a lattice index, every history is below `bpidx` and every
scratch index is below `bpidx` or not positive. -/
def idle_ok (d : decoder_t) : Prop :=
  0 ≤ d.ngs.bpidx ∧
  (∀ i, 0 ≤ i → i < d.ngs.bpidx →
    (d.ngs.bp_table i).bp < i ∧
    (d.ngs.bp_table_idx ((d.ngs.bp_table i).frame + 1) ≤ d.ngs.bpidx ∨
      (d.ngs.bp_table i).frame + 1 = d.output_frame)) ∧
  (∀ w, d.ngs.word_lat_idx w = NO_BP) ∧
  hist_ok d.ngs.bpidx d ∧ scratch_ok d.ngs.bpidx d

/-- A decoder that holds nothing of an earlier utterance: every HMM history
is negative, every scratch predecessor index is at most 0, and no word id
outside the dictionary has a lattice index. -/
def clean (d : decoder_t) : Prop :=
  hist_ok 0 d ∧ scratch_ok 0 d ∧
  ∀ w, w < 0 ∨ d.ngs.dict.dict_entry_count ≤ w → d.ngs.word_lat_idx w = NO_BP

/-- The states reached by `ngram_fwdtree_start` on a decoder satisfying `pre`
followed by any number of returning calls of `ngram_fwdtree_search`. -/
inductive reachable (env : env_t) (pre : decoder_t → Prop) : decoder_t → Prop
  | start (d0 : decoder_t) : pre d0 → reachable env pre (ngram_fwdtree_start d0)
  | step (fuel : Nat) (d d1 : decoder_t) (r : Int) :
      reachable env pre d → ngram_fwdtree_search env fuel d = Except.ok (d1, r) →
      reachable env pre d1

/-- The buckets `cand_sf[0 .. n)` name end frames whose following frame
starts at or before `B`. -/
def buckets_ok (B : Int) (d : decoder_t) (n : Int) : Prop :=
  ∀ j, 0 ≤ j → j < n → d.ngs.bp_table_idx ((d.cand_sf j).bp_ef + 1) ≤ B

/-- What step 1 and step 2 of `last_phone_transition` keep, for the state and
the number of buckets in use: the frame invariant, the bound on the `N`
candidates, and the buckets' end frames. -/
def lpt_ok (f B N : Int) (sn : decoder_t × Int) : Prop :=
  (frame_ok f B sn.1 ∧ cands_ok B sn.1 ∧ sn.1.n_lastphn_cand = N) ∧ buckets_ok B sn.1 sn.2

/-- The decoder in the course of `word_transition` for a frame whose
backpointer part on entry was `ngs0`: nothing but `word_lat_idx` has changed
in the backpointer part, every history is below `bpidx`, every scratch index
is below `bpidx` or not positive, and a word's lattice index is `NO_BP` or the index of an entry for that word
from `i` on. -/
def wt_ok (f : Int) (ngs0 : ngram_search_t) (i : Int) (d : decoder_t) : Prop :=
  d.ngs.bp_table = ngs0.bp_table ∧ d.ngs.bpidx = ngs0.bpidx ∧
  d.ngs.bp_table_idx = ngs0.bp_table_idx ∧ d.output_frame = f + 1 ∧
  hist_ok ngs0.bpidx d ∧ scratch_ok ngs0.bpidx d ∧
  ∀ w, d.ngs.word_lat_idx w = NO_BP ∨
    (i ≤ d.ngs.word_lat_idx w ∧ d.ngs.word_lat_idx w < ngs0.bpidx ∧
      (ngs0.bp_table (d.ngs.word_lat_idx w)).wid = w)

/-- The cleared state of an HMM, as `hmm_clear` leaves it: frame stamp -1,
every score `WORST_SCORE`, every history -1. -/
def hmm_is_clear (h : hmm_t) : Prop :=
  h.frame = -1 ∧ h.in_score = WORST_SCORE ∧ h.in_history = -1 ∧
  (∀ p ∈ h.inner, p = (WORST_SCORE, -1)) ∧
  h.out_score = WORST_SCORE ∧ h.out_history = -1 ∧ h.bestscore = WORST_SCORE

/-- The lattice index tracks the exits saved from entry `lo` on: a word's
index is `NO_BP` or the index of an entry for that word among them, and every
such entry is the one its word's index names. -/
def wl_tracks (lo : Int) (ngs : ngram_search_t) : Prop :=
  (∀ w, ngs.word_lat_idx w = NO_BP ∨
    (lo ≤ ngs.word_lat_idx w ∧ ngs.word_lat_idx w < ngs.bpidx ∧
      (ngs.bp_table (ngs.word_lat_idx w)).wid = w)) ∧
  (∀ i, lo ≤ i → i < ngs.bpidx → ngs.word_lat_idx (ngs.bp_table i).wid = i)

/-- The backpointer part in the course of the first loop of `word_transition`
on the part `ngs0`, at entry `i`: only `word_lat_idx` has changed, and a
word's lattice index is `NO_BP` or the index of an entry for that word from
`i` on. -/
def wl_reset_ok (ngs0 : ngram_search_t) (i : Int) (d : decoder_t) : Prop :=
  d.ngs.bp_table = ngs0.bp_table ∧ d.ngs.bpidx = ngs0.bpidx ∧
  d.ngs.bp_table_idx = ngs0.bp_table_idx ∧
  ∀ w, d.ngs.word_lat_idx w = NO_BP ∨
    (i ≤ d.ngs.word_lat_idx w ∧ d.ngs.word_lat_idx w < ngs0.bpidx ∧
      (ngs0.bp_table (d.ngs.word_lat_idx w)).wid = w)

/-- The multiplex test chain at the start of frame 7: the frame is marked at
the current end of the table and no word has an exit yet. -/
def ex_frame_ngs : ngram_search_t :=
  { ex_mpx_ngs with bp_table_idx := fun _ => 4, word_lat_idx := fun _ => NO_BP }

/-- Exits of words 2, 1 and 2 again in frame 7. -/
def ex_calls_frame : List bwd_call :=
  [{ frame_idx := 7, w := 2, score := -40, path := 3, rc := 0 },
   { frame_idx := 7, w := 1, score := -50, path := 3, rc := 0 },
   { frame_idx := 7, w := 2, score := -30, path := 2, rc := 1 }]

/-- The cumulative count of the bins `0 .. k - 1` of a histogram. -/
def cum_bins (bins : Int → Int) : Nat → Int
  | 0 => 0
  | k + 1 => cum_bins bins k + bins k

/-- A decoder with three roots of best scores 0, -10 and -500 outside the
frame, a beam of -1000 and at most one HMM wanted per frame. -/
def ex_beam_dec : decoder_t :=
  { beam := -1000, maxhmmpf := 1, n_root_chan := 3, n_root_chan_eval := 3,
    root_chan := fun i =>
      { hmm := { bestscore := if i = 0 then 0 else if i = 1 then -10 else -500 } } }

/-- The entry of a test word with the given phones; the context-independent
phone of phone `p` is `p % 10`. -/
def ex_entry (wid : Int) (phones : List Int) : dict_entry_t :=
  { wid := wid, len := phones.length,
    phone_ids := fun p => phones.getD p.toNat 0,
    ci_phone_ids := fun p => (phones.getD p.toNat 0) % 10 }

/-- A dictionary of seven main-vocabulary words followed by `</s>` (7), `<s>`
(8), silence (9) and a noise word (10).  Words 0 and 6 have one phone, words
1 and 5 two, words 2 and 3 three with the same first two, word 4 four. -/
def ex_tree_dict : dict_t :=
  { dict_entry_count := 11, n_main_words := 7,
    dict_list := fun w =>
      if w = 1 then ex_entry 1 [10, 11]
      else if w = 2 then ex_entry 2 [10, 12, 13]
      else if w = 3 then ex_entry 3 [10, 12, 14]
      else if w = 4 then ex_entry 4 [10, 15, 16, 17]
      else if w = 5 then ex_entry 5 [20, 21]
      else ex_entry w [30] }

/-- A language model that knows the main-vocabulary words other than 6, and
`</s>`. -/
def ex_tree_env : env_t :=
  { known_wid := fun w => decide (0 ≤ w ∧ w ≤ 7 ∧ w ≠ 6) }

/-- A decoder for the test dictionary before the tree is built: a pool of 21
cleared roots and no tree node. -/
def ex_tree_dec : decoder_t :=
  { ngs := { dict := ex_tree_dict, silence_wid := 9 },
    xwd := { start_wid := 8 }, finish_wid := 7, n_root_chan_alloc := 21 }

/-- The words listed in `single_phone_wid[0 .. n)`. -/
def single_phone_list (d : decoder_t) (n : Int) : List Int :=
  (List.range n.toNat).map (fun i : Nat => d.single_phone_wid (Int.ofNat i))

/-! ## The shape of the lexicon tree -/

/-- The sibling chain from address `a`: `l` lists the addresses met along
`alt` up to `NULL`. -/
def sib_list (chan : Int → chan_t) : Int → List Int → Prop
  | a, [] => a = 0
  | a, b :: l => a ≠ 0 ∧ a = b ∧ sib_list chan (chan b).alt l

/-- The homophone chain from word `j`: `l` lists the words met along
`homophone_set` up to a negative entry. -/
def hom_list (homophone_set : Int → Int) : Int → List Int → Prop
  | j, [] => j < 0
  | j, w :: l => 0 ≤ j ∧ j = w ∧ hom_list homophone_set (homophone_set w) l

/-- The roots in use and the tree nodes among `nodes`. -/
def is_parent (d : decoder_t) (nodes : List Int) : parent_t → Prop
  | parent_t.root i => 0 ≤ i ∧ i < d.n_root_chan
  | parent_t.node a => a ∈ nodes

/-- The phones from a root down to a parent, `path` giving those of the tree
nodes. -/
def ppath (d : decoder_t) (path : Int → List Int) : parent_t → List Int
  | parent_t.root i => [(d.root_chan i).diphone]
  | parent_t.node a => path a

/-- The nodes whose path is that of the parent `q` and one phone more, in the
order of `nodes`. -/
def kids_of (nodes : List Int) (path : Int → List Int) (q : List Int) : List Int :=
  nodes.filter (fun a => decide ((path a).dropLast = q))

/-- The lexicon tree is well formed: `nodes` lists the tree nodes in the order
of their allocation and `path a` gives the phones from the root down to node
`a`.  Nodes are allocated cells with distinct paths of two phones or more, the
last phone being the node's ssid; every node hangs under a root in use or
another node, and the sibling chain of the first child of every parent lists
its children in the order of allocation.  The roots in use have distinct first
phones, which `first_phone_rchan_map` maps back to them, the other entries of
the map being -1; the roots of the pool not in use are cleared.  The links `next` and `alt` of a node lead to nodes
allocated after it. -/
structure tree_inv (d : decoder_t) (nodes : List Int) (path : Int → List Int) : Prop where
  heap : 0 ≤ d.heap_top
  mem : ∀ a ∈ nodes, 0 < a ∧ a ≤ d.heap_top
  nodup : nodes.Nodup
  ssid : ∀ a ∈ nodes, path a = (path a).dropLast ++ [(d.chan a).hmm.ssid]
  len : ∀ a ∈ nodes, 2 ≤ (path a).length
  inj : ∀ a ∈ nodes, ∀ b ∈ nodes, path a = path b → a = b
  par : ∀ a ∈ nodes, ∃ p, is_parent d nodes p ∧ (path a).dropLast = ppath d path p
  chain : ∀ p, is_parent d nodes p →
    sib_list d.chan (kids d p) (kids_of nodes path (ppath d path p))
  n_root : 0 ≤ d.n_root_chan
  roots_inj : ∀ i j, 0 ≤ i → i < d.n_root_chan → 0 ≤ j → j < d.n_root_chan →
    (d.root_chan i).diphone = (d.root_chan j).diphone → i = j
  root_range : ∀ i, 0 ≤ i → i < d.n_root_chan →
    0 ≤ (d.root_chan i).diphone ∧ (d.root_chan i).diphone < d.n_root_chan_alloc
  map_root : ∀ i, 0 ≤ i → i < d.n_root_chan →
    d.first_phone_rchan_map (d.root_chan i).diphone = i
  map_ok : ∀ p0, 0 ≤ p0 → p0 < d.n_root_chan_alloc → 0 ≤ d.first_phone_rchan_map p0 →
    d.first_phone_rchan_map p0 < d.n_root_chan ∧
      (d.root_chan (d.first_phone_rchan_map p0)).diphone = p0
  map_unset : ∀ p0, 0 ≤ p0 → p0 < d.n_root_chan_alloc → d.first_phone_rchan_map p0 < 0 →
    d.first_phone_rchan_map p0 = -1
  pool : ∀ i, d.n_root_chan ≤ i → i < d.n_root_chan_alloc →
    (d.root_chan i).next = 0 ∧ (d.root_chan i).penult_phn_wid = -1
  up_next : ∀ a ∈ nodes, (d.chan a).next = 0 ∨ ((d.chan a).next ∈ nodes ∧ a < (d.chan a).next)
  up_alt : ∀ a ∈ nodes, (d.chan a).alt = 0 ∨ ((d.chan a).alt ∈ nodes ∧ a < (d.chan a).alt)
  root_next : ∀ i, 0 ≤ i → i < d.n_root_chan →
    (d.root_chan i).next = 0 ∨ (d.root_chan i).next ∈ nodes

/-- A step of the tree construction from `d` to `d1`, the nodes growing from
`nodes` to `nodes1`: only the tree cells, the links of the roots, the heap and
the count of nodes change; the nodes there keep their paths and chain heads; a
node that is new has an empty homophone chain and a path no parent had. -/
structure tree_step (d d1 : decoder_t) (nodes nodes1 : List Int)
    (path path1 : Int → List Int) : Prop where
  rest : d1 = { d with
    chan := d1.chan, root_chan := d1.root_chan, heap_top := d1.heap_top,
    n_nonroot_chan := d1.n_nonroot_chan }
  roots : ∀ i, (d1.root_chan i).diphone = (d.root_chan i).diphone ∧
    (d1.root_chan i).penult_phn_wid = (d.root_chan i).penult_phn_wid ∧
    (d1.root_chan i).ciphone = (d.root_chan i).ciphone ∧
    (d1.root_chan i).hmm = (d.root_chan i).hmm
  info : ∀ b ∈ nodes, (d1.chan b).info = (d.chan b).info
  paths : ∀ b ∈ nodes, path1 b = path b
  sub : ∀ b ∈ nodes, b ∈ nodes1
  fresh : ∀ b ∈ nodes1, b ∉ nodes →
    (d1.chan b).info = -1 ∧ ∀ p, is_parent d nodes p → ppath d path p ≠ path1 b

/-- The list `ps` with `x` added at the end when it is not there yet. -/
def spec_add {α : Type} [DecidableEq α] (ps : List α) (x : α) : List α :=
  if x ∈ ps then ps else ps ++ [x]

/-- The first `k` phones of a dictionary entry. -/
def word_path (de : dict_entry_t) (k : Nat) : List Int :=
  (List.range k).map (fun p : Nat => de.phone_ids (Int.ofNat p))

/-- The main loop of `create_search_tree` puts word `v` in the tree: the
language model knows it and it does not have exactly one phone. -/
def in_tree (env : env_t) (dict : dict_t) (v : Int) : Bool :=
  env.known_wid (dict.dict_list v).wid && decide ((dict.dict_list v).len ≠ 1)

/-- The phones of word `v` without the last. -/
def penult_path (dict : dict_t) (v : Int) : List Int :=
  word_path (dict.dict_list v) ((dict.dict_list v).len - 1).toNat

/-- The word ids `0 .. n - 1`. -/
def word_range (n : Nat) : List Int := (List.range n).map (fun k : Nat => Int.ofNat k)

/-- The words below `w` that are in the tree with `q` as their phones without
the last, in increasing order. -/
def hom_of (env : env_t) (dict : dict_t) (w : Nat) (q : List Int) : List Int :=
  (word_range w).filter (fun v => in_tree env dict v && decide (penult_path dict v = q))

/-- The homophone chains after the words below `w` have been run through: the
chain of every parent lists the words in the tree that end one phone after
its path, every word in the tree has such a parent, and the words from `w` on
are on no chain. -/
structure hom_inv (env : env_t) (d : decoder_t) (nodes : List Int) (path : Int → List Int)
    (w : Nat) : Prop where
  chains : ∀ p, is_parent d nodes p →
    hom_list d.homophone_set (penult d p) (hom_of env d.ngs.dict w (ppath d path p))
  has_parent : ∀ v ∈ word_range w, in_tree env d.ngs.dict v = true →
    ∃ p, is_parent d nodes p ∧ ppath d path p = penult_path d.ngs.dict v
  tail : ∀ v, (w : Int) ≤ v → v < d.ngs.dict.n_main_words → d.homophone_set v = -1

/-- The paths of the tree nodes after `j` levels of the descent for a word
with entry `de`, from the paths `ps`: the first two phones, the first three,
and so on are added when new. -/
def spec_word_nodes (ps : List (List Int)) (de : dict_entry_t) : Nat → List (List Int)
  | 0 => ps
  | j + 1 => spec_add (spec_word_nodes ps de j) (word_path de (j + 2))

/-- The paths of the tree nodes, in the order of their allocation, after the
words below `w` have been run through. -/
def spec_nodes (env : env_t) (dict : dict_t) : Nat → List (List Int)
  | 0 => []
  | w + 1 =>
    if in_tree env dict w then
      spec_word_nodes (spec_nodes env dict w) (dict.dict_list w)
        ((dict.dict_list w).len - 2).toNat
    else spec_nodes env dict w

/-- The first phones of the roots, in the order of the roots, after the words
below `w` have been run through. -/
def spec_roots (env : env_t) (dict : dict_t) : Nat → List Int
  | 0 => []
  | w + 1 =>
    if in_tree env dict w then spec_add (spec_roots env dict w) ((dict.dict_list w).phone_ids 0)
    else spec_roots env dict w

/-- A bound on the number of tree nodes the words below `w` need. -/
def node_bound (dict : dict_t) : Nat → Nat
  | 0 => 0
  | w + 1 => node_bound dict w + ((dict.dict_list w).len - 2).toNat

/-- The first phones of the roots in use. -/
def root_list (d : decoder_t) : List Int :=
  (List.range d.n_root_chan.toNat).map (fun i : Nat => (d.root_chan (Int.ofNat i)).diphone)

/-- The single-phone words below `w` that the language model knows, in
increasing order. -/
def lm_1ph (env : env_t) (dict : dict_t) (w : Nat) : List Int :=
  (word_range w).filter
    (fun v => env.known_wid (dict.dict_list v).wid && decide ((dict.dict_list v).len = 1))

/-- What `init_search_tree` has checked of the main vocabulary: every word has
a phone, and the first phone of a word of several phones is an index into the
pool of roots. -/
def dict_ok (d : decoder_t) : Prop :=
  ∀ w, 0 ≤ w → w < d.ngs.dict.n_main_words →
    1 ≤ (d.ngs.dict.dict_list w).len ∧
    ((d.ngs.dict.dict_list w).len ≠ 1 →
      0 ≤ (d.ngs.dict.dict_list w).phone_ids 0 ∧
      (d.ngs.dict.dict_list w).phone_ids 0 < d.n_root_chan_alloc)

/-- The state `init_search_tree` and `reinit_search_tree` leave for
`create_search_tree`: every root of the pool is without children and without
words, and the dictionary is as `init_search_tree` has checked it. -/
def tree_ready (d : decoder_t) : Prop :=
  0 ≤ d.heap_top ∧ dict_ok d ∧
  ∀ i, 0 ≤ i → i < d.n_root_chan_alloc →
    (d.root_chan i).next = 0 ∧ (d.root_chan i).penult_phn_wid = -1

/-- The state of the main loop of `create_search_tree`, started on `d0`,
before word `w`: the tree is well formed with the nodes and roots the words
below `w` need, in the order of first need; the homophone chains hold those
words; the single-phone words among them that the language model knows are
listed. -/
structure cst_inv (env : env_t) (d0 d : decoder_t) (nodes : List Int)
    (path : Int → List Int) (w : Nat) : Prop where
  tree : tree_inv d nodes path
  hom : hom_inv env d nodes path w
  ngs : d.ngs = d0.ngs
  fin : d.finish_wid = d0.finish_wid
  alloc : d.n_root_chan_alloc = d0.n_root_chan_alloc
  spec : nodes.map path = spec_nodes env d0.ngs.dict w
  roots : root_list d = spec_roots env d0.ngs.dict w
  lmw : 0 ≤ d.n_1ph_LMwords ∧
    single_phone_list d d.n_1ph_LMwords = lm_1ph env d0.ngs.dict w

/-- The parts of the state outside the tree cells that the descent for a word
leaves as they are in `dr`. -/
def side_same (dr d : decoder_t) : Prop :=
  d.ngs = dr.ngs ∧ d.finish_wid = dr.finish_wid ∧
  d.n_root_chan_alloc = dr.n_root_chan_alloc ∧ d.n_1ph_LMwords = dr.n_1ph_LMwords ∧
  d.single_phone_wid = dr.single_phone_wid ∧ root_list d = root_list dr

/-- The state of the descent for the word `w` with entry `de` after `j`
levels below the root, `s` being the state and the node reached: the node has
the first `j + 1` phones of the word as its path, and the paths of the tree
are those before the descent, `ps0`, with those of the levels added. -/
def desc_inv (env : env_t) (dr : decoder_t) (ps0 : List (List Int)) (de : dict_entry_t)
    (w : Nat) (j : Nat) (s : decoder_t × Int) : Prop :=
  ∃ (nodes : List Int) (path : Int → List Int),
    tree_inv s.1 nodes path ∧ hom_inv env s.1 nodes path w ∧ s.2 ∈ nodes ∧
    path s.2 = word_path de (j + 1) ∧ nodes.map path = spec_word_nodes ps0 de j ∧
    side_same dr s.1

/-- The words among the `k` from `finish_wid` on that the last loop of
`create_search_tree` lists: those that fail its test `(!w >=
ngs->silence_wid) && !known_wid(de->wid)`. -/
def post_1ph (env : env_t) (d : decoder_t) (k : Nat) : List Int :=
  ((List.range k).map (fun j : Nat => d.finish_wid + Int.ofNat j)).filter
    (fun w =>
      !(decide (lnot w ≥ d.ngs.silence_wid) &&
        (env.known_wid (d.ngs.dict.dict_list w).wid == false)))

/-- The tree, the chains, the dictionary and the marker ids of `d1` are those
of `d`. -/
def tree_same (d d1 : decoder_t) : Prop :=
  d1.chan = d.chan ∧ d1.root_chan = d.root_chan ∧ d1.heap_top = d.heap_top ∧
  d1.n_root_chan = d.n_root_chan ∧ d1.n_root_chan_alloc = d.n_root_chan_alloc ∧
  d1.first_phone_rchan_map = d.first_phone_rchan_map ∧
  d1.homophone_set = d.homophone_set ∧ d1.ngs = d.ngs ∧ d1.finish_wid = d.finish_wid

/-- The roots in use and the tree nodes reached from them: a node is reached
when it is on the sibling chain of the first child of a root in use or of a
node reached. -/
inductive tree_parent (d : decoder_t) : parent_t → Prop
  | root (i : Int) : 0 ≤ i → i < d.n_root_chan → tree_parent d (parent_t.root i)
  | node (p : parent_t) (l : List Int) (a : Int) :
      tree_parent d p → sib_list d.chan (kids d p) l → a ∈ l → tree_parent d (parent_t.node a)

/-- The place reached for a word with entry `de` after `k` levels below the
root: the root that `first_phone_rchan_map` gives for the first phone, an
index into that map, then at each level the child, on the sibling chain of
the first child, whose ssid is the next phone. -/
def reached (d : decoder_t) (de : dict_entry_t) : Nat → parent_t → Prop
  | 0, p =>
    0 ≤ de.phone_ids 0 ∧ de.phone_ids 0 < d.n_root_chan_alloc ∧
    0 ≤ d.first_phone_rchan_map (de.phone_ids 0) ∧
    d.first_phone_rchan_map (de.phone_ids 0) < d.n_root_chan ∧
    p = parent_t.root (d.first_phone_rchan_map (de.phone_ids 0))
  | k + 1, p =>
    ∃ q l a, reached d de k q ∧ sib_list d.chan (kids d q) l ∧ a ∈ l ∧
      (d.chan a).hmm.ssid = de.phone_ids (Int.ofNat k + 1) ∧ p = parent_t.node a

/-- The state `create_search_tree` returns; the unchanged state when it
faults. -/
def tree_out (env : env_t) (fuel : Nat) (d : decoder_t) : decoder_t :=
  match create_search_tree env fuel d with
  | Except.ok d1 => d1
  | Except.error _ => d

/-- Whether `create_search_tree` returns. -/
def tree_returns (env : env_t) (fuel : Nat) (d : decoder_t) : Bool :=
  match create_search_tree env fuel d with
  | Except.ok _ => true
  | Except.error _ => false

/-- The ssids of the children of the parent with path `q`, in the order of
allocation, read off the list `ps` of the paths of the nodes. -/
def spec_kids (ps : List (List Int)) (q : List Int) : List Int :=
  (ps.filter (fun x => decide (x.dropLast = q))).map (fun x => x.getLast?.getD 0)

/-- The trees of `d1` and `d3` are the same: the same roots in use with the
same first phones and the same root map; for every run of phones, a place is
reached in the one when it is in the other, and the two places have the same
ssids along the sibling chain of their children and the same homophone chain;
the same single-phone words are listed, with the same counts. -/
def same_tree (d1 d3 : decoder_t) : Prop :=
  d3.n_root_chan = d1.n_root_chan ∧
  (∀ i, 0 ≤ i → i < d1.n_root_chan →
    (d3.root_chan i).diphone = (d1.root_chan i).diphone) ∧
  (∀ p0, 0 ≤ p0 → p0 < d1.n_root_chan_alloc →
    d3.first_phone_rchan_map p0 = d1.first_phone_rchan_map p0) ∧
  (∀ de k, (∃ p, reached d1 de k p) ↔ (∃ p, reached d3 de k p)) ∧
  (∀ de k p1 p3, reached d1 de k p1 → reached d3 de k p3 →
    (∃ l1 l3, sib_list d1.chan (kids d1 p1) l1 ∧ sib_list d3.chan (kids d3 p3) l3 ∧
      l1.map (fun a => (d1.chan a).hmm.ssid) = l3.map (fun a => (d3.chan a).hmm.ssid)) ∧
    (∃ l, hom_list d1.homophone_set (penult d1 p1) l ∧
      hom_list d3.homophone_set (penult d3 p3) l)) ∧
  d3.n_1ph_words = d1.n_1ph_words ∧ d3.n_1ph_LMwords = d1.n_1ph_LMwords ∧
  single_phone_list d3 d3.n_1ph_words = single_phone_list d1 d1.n_1ph_words

/-- The state after `create_search_tree`, `reinit_search_tree` and a second
`create_search_tree`; the unchanged state when one of them faults. -/
def rebuild_out (env : env_t) (fuel fuel2 : Nat) (d : decoder_t) : decoder_t :=
  match create_search_tree env fuel d with
  | Except.error _ => d
  | Except.ok d1 =>
    match reinit_search_tree fuel2 d1 with
    | Except.error _ => d
    | Except.ok d2 =>
      match create_search_tree env fuel d2 with
      | Except.error _ => d
      | Except.ok d3 => d3

/-- The score-stack slots the appending branch of `save_bwd_ptr` writes for an
exit of word `w` with right context `rc`: the `rcsize` slots from `bss_head`
that are set to `WORST_SCORE`, and slot `bss_head + rc`. -/
def stack_written (ngs : ngram_search_t) (w rc : Int) (j : Int) : Prop :=
  (ngs.bss_head ≤ j ∧ j < ngs.bss_head + exit_rcsize ngs.dict (ngs.dict.dict_list w)) ∨
  j = ngs.bss_head + rc

/-- The test chain with a full backpointer table of four entries and the
score-stack head at slot 7 of 8, for two CI phones. -/
def ex_full_ngs : ngram_search_t :=
  { ex_chain_ngs with bp_table_size := 4, n_ciphone := 2, bscore_stack_size := 8, bss_head := 7 }

/-- State `s` differs from `d` in `word_lat_idx` and the scratch table
`bestbp_rc` at most. -/
def wt_only (d s : decoder_t) : Prop :=
  s = { d with
    ngs := { d.ngs with word_lat_idx := s.ngs.word_lat_idx }, bestbp_rc := s.bestbp_rc }

/-- The fresh test decoder with a single exit of `</s>` (word 1) in frame 0,
which `word_lat_idx` names. -/
def ex_fin_dec : decoder_t :=
  { ex_fresh_dec with
    ngs := { ex_fresh_dec.ngs with
      bpidx := 1,
      bp_table := fun i => if i = 0 then { wid := 1, bp := NO_BP, valid := true } else {},
      word_lat_idx := fun w => if w = 1 then 0 else NO_BP } }

/-- The dictionary of the capped test decoder: words 0 and 1 have two phones
and two right contexts each, word 2 is `</s>`, word 3 is `<s>`, word 4 is
silence. -/
def ex_cap_dict : dict_t :=
  { dict_entry_count := 5, n_main_words := 2,
    dict_list := fun w =>
      if w = 0 then
        { wid := 0, len := 2, mpx := true, phone_ids := fun p => if p = 0 then 10 else 11,
          ci_phone_ids := fun p => if p = 0 then 0 else 1 }
      else if w = 1 then
        { wid := 1, len := 2, mpx := true, phone_ids := fun p => if p = 0 then 12 else 13,
          ci_phone_ids := fun p => if p = 0 then 1 else 0 }
      else { wid := w, len := 1, mpx := false, phone_ids := fun _ => 14, ci_phone_ids := fun _ => 1 },
    rcFwdSizeTable := fun _ => 2 }

/-- A decoder in frame 5 after pruning, with at most one exit wanted per
frame: entry 0 is the exit of `<s>` in frame 0; word 0 has left in frame 5
with score -10 for right context 0 only (entry 1), word 1 with score -20 for
right context 1 only (entry 2).  Root 0 starts with CI phone 0, root 1 with CI
phone 1; both are idle. -/
def ex_cap_dec : decoder_t :=
  { ngs :=
      { dict := ex_cap_dict, n_ciphone := 2, silence_wid := 4, maxwpf := 1,
        bp_table := fun i =>
          if i = 0 then
            { wid := 3, frame := 0, bp := NO_BP, s_idx := 0, real_wid := 3, prev_real_wid := -1,
              r_diph := -1, valid := true }
          else if i = 1 then
            { wid := 0, frame := 5, bp := 0, score := -10, s_idx := 1, real_wid := 0,
              prev_real_wid := 3, r_diph := 11, valid := true }
          else if i = 2 then
            { wid := 1, frame := 5, bp := 0, score := -20, s_idx := 3, real_wid := 1,
              prev_real_wid := 3, r_diph := 13, valid := true }
          else {},
        bp_table_size := 8, bpidx := 3,
        bp_table_idx := fun f => if f ≤ 0 then 0 else 1,
        bscore_stack := fun j =>
          if j = 1 then -10 else if j = 4 then -20 else if j = 0 then 0 else WORST_SCORE,
        bscore_stack_size := 16, bss_head := 5,
        word_lat_idx := fun w => if w = 0 then 1 else if w = 1 then 2 else NO_BP },
    xwd := { start_wid := 3, rcFwdPermTable := fun _ rc => rc },
    n_inner := 0, sil := 1, finish_wid := 2,
    beam := -1000, pbeam := -1000, lpbeam := -1000, lponlybeam := -1000, wbeam := -1000,
    dynamic_beam := -1000, best_score := -10, last_phone_best_score := -10,
    n_root_chan := 2,
    root_chan := fun i =>
      if i = 0 then { diphone := 10, ciphone := 0 } else { diphone := 12, ciphone := 1 },
    n_1ph_words := 3, n_1ph_LMwords := 1,
    single_phone_wid := fun i => if i = 0 then 2 else if i = 1 then 3 else 4,
    output_frame := 6 }

/-- The state after the word-exit cap and `word_transition` of a frame, as
`ngram_fwdtree_search` runs them; the unchanged state when one of them
faults. -/
def cap_wt_out (env : env_t) (d : decoder_t) (frame_idx : Int) : decoder_t :=
  match cap_exits d frame_idx with
  | Except.error _ => d
  | Except.ok d1 =>
    match word_transition env d1 frame_idx with
    | Except.error _ => d
    | Except.ok d2 => d2

/-- Whether the word-exit cap and `word_transition` of a frame return. -/
def cap_wt_returns (env : env_t) (d : decoder_t) (frame_idx : Int) : Bool :=
  match cap_exits d frame_idx with
  | Except.error _ => false
  | Except.ok d1 =>
    match word_transition env d1 frame_idx with
    | Except.error _ => false
    | Except.ok _ => true

/-- The transition score `word_transition` computes for entering the
single-phone word `w` from entry `b`: the entry's score for the right context
of the first CI phone of `w`, plus the trigram score of `w` after the entry's
cached words. -/
def lm_cand (env : env_t) (d : decoder_t) (b w : Int) : Int :=
  d.ngs.bscore_stack ((d.ngs.bp_table b).s_idx +
      rcpermtab_of d (d.ngs.bp_table b) ((d.ngs.dict.dict_list w).ci_phone_ids 0))
    + env.tg_score (d.ngs.dict.dict_list w).wid (d.ngs.bp_table b).real_wid
        (d.ngs.bp_table b).prev_real_wid

/-- State `s` differs from `d` in `word_lat_idx`, `bestbp_rc`, the root
channels and `last_ltrans` at most. -/
def wt_pre (d s : decoder_t) : Prop :=
  s = { d with
    ngs := { d.ngs with word_lat_idx := s.ngs.word_lat_idx }, bestbp_rc := s.bestbp_rc,
    root_chan := s.root_chan, last_ltrans := s.last_ltrans }

/-- State `s` differs from `d` in `word_lat_idx`, `bestbp_rc`, the root
channels, the single-phone channels and `last_ltrans` at most. -/
def wt_frame (d s : decoder_t) : Prop :=
  s = { d with
    ngs := { d.ngs with word_lat_idx := s.ngs.word_lat_idx }, bestbp_rc := s.bestbp_rc,
    root_chan := s.root_chan, last_ltrans := s.last_ltrans, all_rhmm := s.all_rhmm }

/-- The record `lt` kept for word `w` accounts for the valid entries of
`[lo, B)`: its score bounds their transition scores from above and is the
initial `INT32_MIN`, with the predecessor `bp0` it held before, or the score
of a valid entry in `[lo, B)`, the first to reach it. -/
def lt_acc (env : env_t) (d : decoder_t) (lo B : Int) (w bp0 : Int) (lt : last_ltrans_t) :
    Prop :=
  (∀ b, lo ≤ b → b < B → (d.ngs.bp_table b).valid = true → lm_cand env d b w ≤ lt.dscr) ∧
  ((lt.dscr = INT32_MIN ∧ lt.bp = bp0) ∨
    (lo ≤ lt.bp ∧ lt.bp < B ∧ (d.ngs.bp_table lt.bp).valid = true ∧
      lm_cand env d lt.bp w = lt.dscr ∧
      ∀ b, lo ≤ b → b < lt.bp → (d.ngs.bp_table b).valid = true → lm_cand env d b w < lt.dscr))

/-- The channel of the single-phone word `w` after the transition with score
`dscr` from entry `bp` in frame `f`: entered for frame `f + 1` with score
`dscr + pip` and history `bp` when that score is within the beam and the
channel is not active in the next frame yet or the score is better; a
multiplex HMM has its left context set from the last CI phone of the word of
entry `bp`. -/
def single_entered (d : decoder_t) (f : Int) (w dscr bp : Int) : root_chan_t :=
  if dscr + d.pip > d.best_score + d.dynamic_beam ∧
      ((d.all_rhmm w).hmm.frame < f ∨ (d.all_rhmm w).hmm.in_score < dscr + d.pip) then
    { d.all_rhmm w with
      hmm :=
        if (d.all_rhmm w).hmm.mpx then
          hmm_set_ssid (hmm_enter (d.all_rhmm w).hmm (dscr + d.pip) bp (f + 1))
            (d.xwd.lcFwdTable (d.all_rhmm w).diphone
              ((d.ngs.dict.dict_list (d.ngs.bp_table bp).wid).ci_phone_ids
                ((d.ngs.dict.dict_list (d.ngs.bp_table bp).wid).len - 1)))
        else hmm_enter (d.all_rhmm w).hmm (dscr + d.pip) bp (f + 1) }
  else d.all_rhmm w

/-- Word `w` is listed among the first `n_1ph_LMwords` entries of
`single_phone_wid`: a single-phone word of the language model. -/
def is_lm (d : decoder_t) (w : Int) : Prop :=
  ∃ j, 0 ≤ j ∧ j < d.n_1ph_LMwords ∧ d.single_phone_wid j = w

/-- The capped test decoder with the cap on word exits switched off. -/
def ex_open_dec : decoder_t :=
  { ex_cap_dec with ngs := { ex_cap_dec.ngs with maxwpf := -1 } }

/-- The chain from address `x` along the link `nxt`: `l` lists the addresses
met before `y` is reached; no address met is `NULL`. -/
def chain_seg (nxt : Int → Int) : Int → List Int → Int → Prop
  | x, [], y => x = y
  | x, a :: l, y => x ≠ 0 ∧ x = a ∧ chain_seg nxt (nxt a) l y

/-- The leaf chain from address `a`: `l` lists the addresses met along `next`
up to `NULL`. -/
def leaf_list (chan : Int → chan_t) (a : Int) (l : List Int) : Prop :=
  chain_seg (fun x => (chan x).next) a l 0

/-- The state after `alloc_all_rc` has allocated a leaf for right context
`rc_id` and linked it behind the leaf `hmm`: `thmm = listelem_alloc(..);
thmm->next = hmm->next; hmm->next = thmm;` and the initialisation of
`thmm`. -/
def link_leaf (d : decoder_t) (hmm rc_id ciphone ssid : Int) : decoder_t :=
  set_chan_next
    (init_leaf (listelem_alloc d).1 (listelem_alloc d).2 ((listelem_alloc d).1.chan hmm).next
      rc_id ciphone ssid)
    hmm (listelem_alloc d).2

/-- The state after `alloc_all_rc` has allocated the leaf for right context 0
and made it the head of the chain of word `w`. -/
def link_head (d : decoder_t) (w ciphone ssid : Int) : decoder_t :=
  set_word_chan
    (init_leaf (listelem_alloc d).1 (listelem_alloc d).2 ((listelem_alloc d).1.word_chan w) 0
      ciphone ssid)
    w (listelem_alloc d).2

/-- Cell `c1` holds what cell `c` held, except perhaps for its `next`
link. -/
def keeps_leaf (c c1 : chan_t) : Prop :=
  c1.hmm = c.hmm ∧ c1.alt = c.alt ∧ c1.ciphone = c.ciphone ∧ c1.info = c.info

/-- The address read through the place `phmmp` points at. -/
def read_link (d : decoder_t) : link_t → Int
  | link_t.head w => d.word_chan w
  | link_t.next_of a => (d.chan a).next

/-- The place `phmmp` points at is not the `next` field of a cell of `l`. -/
def link_out : link_t → List Int → Prop
  | link_t.head _, _ => True
  | link_t.next_of p, l => p ∉ l

/-- The test of `prune_word_chan` for carrying a leaf into the next frame:
its best score beats `lpt`. -/
def leaf_wins (d : decoder_t) (lpt : Int) (a : Int) : Bool :=
  decide ((d.chan a).hmm.bestscore > lpt)

/-- The leaves `prune_word_chan` leaves in a chain: those whose best score
beats `lpt` and those already stamped for frame `nf`. -/
def leaf_kept (d : decoder_t) (lpt nf : Int) (a : Int) : Bool :=
  leaf_wins d lpt a || decide ((d.chan a).hmm.frame = nf)

/-- State `s` differs from `d` in the tree cells, `word_chan` and the
backpointer part at most. -/
def leaves_frame (d s : decoder_t) : Prop :=
  s = { d with chan := s.chan, word_chan := s.word_chan, ngs := s.ngs }

/-- The HMM of a leaf after `prune_word_chan` has looked at it: stamped for
frame `nf` when its best score beats `lpt`, as it was otherwise. -/
def leaf_hmm (d : decoder_t) (lpt nf : Int) (a : Int) : hmm_t :=
  if leaf_wins d lpt a then hmm_set_frame (d.chan a).hmm nf else (d.chan a).hmm

/-- State `s` differs from `d` in the tree cells, `word_chan`, the backpointer
part, `word_active` and the active word lists at most. -/
def words_frame (d s : decoder_t) : Prop :=
  s = { d with
    chan := s.chan, word_chan := s.word_chan, ngs := s.ngs, word_active := s.word_active,
    active_word_list := s.active_word_list }

/-- The word listed at `j` in frame `f` is put on the next list by
`prune_word_chan`: a leaf of its chain `L j` beats `lpt` and the word is not
marked active yet. -/
def word_pushed (d : decoder_t) (f lpt : Int) (L : Int → List Int) (j : Int) : Prop :=
  (L j).filter (leaf_wins d lpt) ≠ [] ∧
  d.word_active (d.active_word_list (parity f) j) = 0

/-- The chains of the words on the active list of frame `f`: `L j` is the
leaf chain of the word listed at `j`; no leaf is in two chains and no word is
listed twice. -/
structure word_chains (d : decoder_t) (f : Int) (L : Int → List Int) : Prop where
  chain : ∀ j, 0 ≤ j → j < d.n_active_word (parity f) →
    leaf_list d.chan (d.word_chan (d.active_word_list (parity f) j)) (L j)
  disj : ∀ i j a, 0 ≤ i → i < d.n_active_word (parity f) → 0 ≤ j →
    j < d.n_active_word (parity f) → a ∈ L i → a ∈ L j → i = j
  inj : ∀ i j, 0 ≤ i → i < d.n_active_word (parity f) → 0 ≤ j →
    j < d.n_active_word (parity f) →
    d.active_word_list (parity f) i = d.active_word_list (parity f) j → i = j

/-- The state of the first loop of `prune_word_chan` before the word listed
at `i`, with `m` words on the next list, of which the first `n0` were there
before the loop: the words listed before `i` have their chains pruned and
their surviving leaves stamped, the others are as they were; the next list has
grown by the words pushed, which are marked active. -/
structure pw_inv (d : decoder_t) (f lpt : Int) (L : Int → List Int) (n0 : Int) (i : Int)
    (s : decoder_t) (m : Int) : Prop where
  frame : words_frame d s
  cur : s.active_word_list (parity f) = d.active_word_list (parity f)
  done : ∀ j, 0 ≤ j → j < d.n_active_word (parity f) → j < i →
    leaf_list s.chan (s.word_chan (d.active_word_list (parity f) j))
      ((L j).filter (leaf_kept d lpt (f + 1))) ∧
    ∀ a ∈ L j, (s.chan a).hmm = leaf_hmm d lpt (f + 1) a
  todo : ∀ j, 0 ≤ j → j < d.n_active_word (parity f) → i ≤ j →
    leaf_list s.chan (s.word_chan (d.active_word_list (parity f) j)) (L j) ∧
    ∀ a ∈ L j, s.chan a = d.chan a
  cells : ∀ a, (∀ j, 0 ≤ j → j < d.n_active_word (parity f) → a ∉ L j) → s.chan a = d.chan a
  heads : ∀ v, (∀ j, 0 ≤ j → j < d.n_active_word (parity f) →
    d.active_word_list (parity f) j ≠ v) → s.word_chan v = d.word_chan v
  count : n0 ≤ m
  old : ∀ k, k < n0 ∨ m ≤ k →
    s.active_word_list (parity (f + 1)) k = d.active_word_list (parity (f + 1)) k
  new : ∀ k, n0 ≤ k → k < m → ∃ j, 0 ≤ j ∧ j < i ∧ j < d.n_active_word (parity f) ∧
    word_pushed d f lpt L j ∧
    s.active_word_list (parity (f + 1)) k = d.active_word_list (parity f) j ∧
    ∀ k1, n0 ≤ k1 → k1 < k →
      s.active_word_list (parity (f + 1)) k1 ≠ d.active_word_list (parity f) j
  all : ∀ j, 0 ≤ j → j < i → j < d.n_active_word (parity f) → word_pushed d f lpt L j →
    ∃ k, n0 ≤ k ∧ k < m ∧
      s.active_word_list (parity (f + 1)) k = d.active_word_list (parity f) j
  act : ∀ v, (s.word_active v = d.word_active v ∧
      ¬ ∃ j, 0 ≤ j ∧ j < i ∧ j < d.n_active_word (parity f) ∧
        d.active_word_list (parity f) j = v ∧ word_pushed d f lpt L j) ∨
    (s.word_active v = 1 ∧
      ∃ j, 0 ≤ j ∧ j < i ∧ j < d.n_active_word (parity f) ∧
        d.active_word_list (parity f) j = v ∧ word_pushed d f lpt L j)

/-- State `s` differs from `d` in the single-phone channels and the
backpointer part at most. -/
def rhmm_frame (d s : decoder_t) : Prop :=
  s = { d with all_rhmm := s.all_rhmm, ngs := s.ngs }

/-- The channel of single-phone word `w` is active in frame `f` and its best
score beats `lpt`. -/
def rhmm_wins (d : decoder_t) (f lpt : Int) (w : Int) : Prop :=
  f ≤ (d.all_rhmm w).hmm.frame ∧ (d.all_rhmm w).hmm.bestscore > lpt

/-- The channel of single-phone word `w`, stamped for frame `f + 1`. -/
def rhmm_stamped (d : decoder_t) (f : Int) (w : Int) : root_chan_t :=
  { d.all_rhmm w with hmm := hmm_set_frame (d.all_rhmm w).hmm (f + 1) }

/-- Result of `prune_word_chan`, or the input when the call fails. -/
def pwc_out (fuel : Nat) (d : decoder_t) (f : Int) : decoder_t :=
  match prune_word_chan fuel d f with
  | Except.ok d1 => d1
  | Except.error _ => d

/-- Whether `prune_word_chan` returns. -/
def pwc_returns (fuel : Nat) (d : decoder_t) (f : Int) : Bool :=
  match prune_word_chan fuel d f with
  | Except.ok _ => true
  | Except.error _ => false

/-- Test decoder in frame 6 after evaluation, with the best score 0 on a
root: the multi-phone word 0 is on the active word list with two leaves in
cells 1 and 2, of best scores -10 and -50; the single-phone words 3 and 4 are
active with best scores -50 and -10.  The best last-phone score is -10, the
dynamic beam and `lpbeam` are -100 and `lponlybeam` is -20. -/
def ex_lp_dec : decoder_t :=
  { ex_cap_dec with
    best_score := 0, last_phone_best_score := -10, dynamic_beam := -100, lpbeam := -100,
    lponlybeam := -20, wbeam := -5, heap_top := 2,
    root_chan := fun i =>
      if i = 0 then { hmm := { frame := 6, bestscore := 0 }, diphone := 10, ciphone := 0 }
      else { diphone := 12, ciphone := 1 },
    word_chan := fun w => if w = 0 then 1 else 0,
    chan := fun a =>
      if a = 1 then { hmm := { frame := 6, bestscore := -10 }, next := 2, info := 0 }
      else if a = 2 then { hmm := { frame := 6, bestscore := -50 }, info := 1 }
      else {},
    n_active_word := fun p => if p = 0 then 1 else 0,
    all_rhmm := fun w =>
      if w = 3 then { hmm := { frame := 6, bestscore := -50 } }
      else if w = 4 then { hmm := { frame := 6, bestscore := -10 } }
      else {} }

/-- The leaf chains of all words: `C w` is the chain from `word_chan[w]`, in
order up to the null link; no cell is in two chains and every cell is in use
(at most `heap_top`). -/
structure leaf_heap (d : decoder_t) (C : Int → List Int) : Prop where
  top : 0 ≤ d.heap_top
  chain : ∀ w, leaf_list d.chan (d.word_chan w) (C w)
  disj : ∀ v w a, a ∈ C v → a ∈ C w → v = w
  bound : ∀ w a, a ∈ C w → a ≤ d.heap_top

/-- The test of `last_phone_transition` for entering the leaf at `a` with the
score `sc` in frame `f`: the leaf is not active in the frame, or its entry
score is below `sc`. -/
def enters (d : decoder_t) (f sc : Int) (a : Int) : Bool :=
  decide ((d.chan a).hmm.frame < f ∨ (d.chan a).hmm.in_score < sc)

/-- The leaf at `a` after `last_phone_transition` has gone over it with the
score `sc` and the history `bp` in frame `f`. -/
def entered (d : decoder_t) (f sc bp : Int) (a : Int) : chan_t :=
  if enters d f sc a then { d.chan a with hmm := hmm_enter (d.chan a).hmm sc bp (f + 1) }
  else d.chan a

/-- Word `w` is among the first `n` words of the active word list of frame
`f`. -/
def on_list (d : decoder_t) (f n w : Int) : Prop :=
  ∃ i, 0 ≤ i ∧ i < n ∧ d.active_word_list (parity f) i = w

/-- The state `s` of the last loop of `last_phone_transition` in frame `f`,
started in `d` with the leaf chains `C0`, when `n` words are on the next
list: the chains `C` extend those of `C0` by new cells; the next list has no
word twice and holds the words marked active, which are the words with a leaf
stamped `f + 1`; a word with a new leaf is on it. -/
structure lp_inv (d : decoder_t) (f : Int) (C0 : Int → List Int) (s : decoder_t) (n : Int)
    (C : Int → List Int) : Prop where
  frame : s = { d with
    chan := s.chan, word_chan := s.word_chan, heap_top := s.heap_top,
    word_active := s.word_active, active_word_list := s.active_word_list }
  cur : s.active_word_list (parity f) = d.active_word_list (parity f)
  heap : leaf_heap s C
  grow : ∀ w, (C0 w).Sublist (C w)
  top : d.heap_top ≤ s.heap_top
  fresh : ∀ w a, a ∈ C w → a ∈ C0 w ∨ d.heap_top < a
  cells : ∀ a, a ≤ d.heap_top → (∀ w, a ∉ C0 w) → s.chan a = d.chan a
  count : 0 ≤ n
  inj : ∀ i j, 0 ≤ i → i < n → 0 ≤ j → j < n →
    s.active_word_list (parity (f + 1)) i = s.active_word_list (parity (f + 1)) j → i = j
  act : ∀ w, (s.word_active w = 1 ∧ on_list s (f + 1) n w) ∨
    (s.word_active w = 0 ∧ ¬ on_list s (f + 1) n w)
  stamp : ∀ w a, a ∈ C w → (s.chan a).hmm.frame = f + 1 → on_list s (f + 1) n w
  live : ∀ w, on_list s (f + 1) n w → ∃ a ∈ C w, (s.chan a).hmm.frame = f + 1
  new : ∀ w a, a ∈ C w → a ∈ C0 w ∨ on_list s (f + 1) n w

/-- State `s` differs from `d` in the candidate tables of
`last_phone_transition`, the count of candidates of the utterance and the best
last-phone score at most. -/
def cand_frame (d s : decoder_t) : Prop :=
  s = { d with
    lastphn_cand := s.lastphn_cand, cand_sf := s.cand_sf, cand_sf_alloc := s.cand_sf_alloc,
    last_ltrans := s.last_ltrans, n_lastphn_cand_utt := s.n_lastphn_cand_utt,
    last_phone_best_score := s.last_phone_best_score }

/-- Result of `last_phone_transition`, or the input when the call fails. -/
def lpt_out (env : env_t) (fuel : Nat) (d : decoder_t) (f : Int) : decoder_t :=
  match last_phone_transition env fuel d f with
  | Except.ok d1 => d1
  | Except.error _ => d

/-- Whether `last_phone_transition` returns. -/
def lpt_returns (env : env_t) (fuel : Nat) (d : decoder_t) (f : Int) : Bool :=
  match last_phone_transition env fuel d f with
  | Except.ok _ => true
  | Except.error _ => false

/-- The test decoder `ex_lp_dec` with one candidate for the last phone of the
multi-phone word 1, which has no leaves yet: score -5 from entry 0. -/
def ex_wl_dec : decoder_t :=
  { ex_lp_dec with
    n_lastphn_cand := 1,
    lastphn_cand := fun i => if i = 0 then { wid := 1, score := -5, bp := 0 } else {} }

/-- Cell `a` is among the first `n` entries of the active channel list of
frame `f`. -/
def on_chan_list (d : decoder_t) (f n a : Int) : Prop :=
  ∃ k, 0 ≤ k ∧ k < n ∧ d.active_chan_list (parity f) k = a

/-- The state `s` of `prune_root_chan` and `prune_nonroot_chan` in frame `f`,
started in `d`, when `n` nodes are on the next active list; `N` is the set of
non-root nodes.  Only HMMs of roots and of nodes, the next list and the
candidates have changed; the next list has no node twice and holds the
nodes stamped `f + 1`; a stamp that changed is `f + 1`. -/
structure nl_inv (d : decoder_t) (f : Int) (N : Int → Prop) (s : decoder_t) (n : Int) :
    Prop where
  frame : s = { d with
    chan := s.chan, root_chan := s.root_chan, active_chan_list := s.active_chan_list,
    n_active_chan := s.n_active_chan, lastphn_cand := s.lastphn_cand,
    n_lastphn_cand := s.n_lastphn_cand }
  links : ∀ a, (s.chan a).next = (d.chan a).next ∧ (s.chan a).alt = (d.chan a).alt
  roots : ∀ i, (s.root_chan i).next = (d.root_chan i).next
  off : ∀ a, ¬ N a → s.chan a = d.chan a
  cur : s.active_chan_list (parity f) = d.active_chan_list (parity f)
  ncur : s.n_active_chan (parity f) = d.n_active_chan (parity f)
  count : 0 ≤ n
  inj : ∀ i j, 0 ≤ i → i < n → 0 ≤ j → j < n →
    s.active_chan_list (parity (f + 1)) i = s.active_chan_list (parity (f + 1)) j → i = j
  mem : ∀ k, 0 ≤ k → k < n → N (s.active_chan_list (parity (f + 1)) k)
  stamp : ∀ a, N a → ((s.chan a).hmm.frame = f + 1 ↔ on_chan_list s (f + 1) n a)
  keep : ∀ a, (s.chan a).hmm.frame = f + 1 ∨ (s.chan a).hmm.frame = (d.chan a).hmm.frame

/-- Result of `prune_root_chan`, or the input when the call fails. -/
def prc_out (fuel : Nat) (d : decoder_t) (f : Int) : decoder_t :=
  match prune_root_chan fuel d f with
  | Except.ok d1 => d1
  | Except.error _ => d

/-- Whether `prune_root_chan` returns. -/
def prc_returns (fuel : Nat) (d : decoder_t) (f : Int) : Bool :=
  match prune_root_chan fuel d f with
  | Except.ok _ => true
  | Except.error _ => false

/-- Result of `prune_nonroot_chan`, or the input when the call fails. -/
def pnc_out (fuel : Nat) (d : decoder_t) (f : Int) : decoder_t :=
  match prune_nonroot_chan fuel d f with
  | Except.ok d1 => d1
  | Except.error _ => d

/-- Whether `prune_nonroot_chan` returns. -/
def pnc_returns (fuel : Nat) (d : decoder_t) (f : Int) : Bool :=
  match prune_nonroot_chan fuel d f with
  | Except.ok _ => true
  | Except.error _ => false

/-- Test decoder in frame 6 with one root, active with best and exit score 0,
whose children are the nodes in cells 1 and 2; the node in cell 3 is the
child of node 1.  Node 1 is active (stamp 6, scores -5) and alone on the
active list of frame 6; nodes 2 and 3 are idle. -/
def ex_nl_dec : decoder_t :=
  { ex_cap_dec with
    best_score := 0, n_root_chan := 1, heap_top := 3,
    root_chan := fun i =>
      if i = 0 then
        { hmm := { frame := 6, bestscore := 0, out_score := 0 }, next := 1, diphone := 10 }
      else {},
    chan := fun a =>
      if a = 1 then
        { hmm := { frame := 6, bestscore := -5, out_score := -5 }, next := 3, alt := 2 }
      else {},
    n_active_chan := fun p => if p = 0 then 1 else 0,
    active_chan_list := fun p k => if p = 0 ∧ k = 0 then 1 else 0 }

/-- Test decoder in frame 6 with the tree of `ex_nl_dec`, an empty active
list and no node stamped 6: the root is active with exit score -10, node 2
carries the stamp 7 and the entry score 0. -/
def ex_late_dec : decoder_t :=
  { ex_cap_dec with
    best_score := 0, n_root_chan := 1, heap_top := 3,
    root_chan := fun i =>
      if i = 0 then
        { hmm := { frame := 6, bestscore := 0, out_score := -10 }, next := 1, diphone := 10 }
      else {},
    chan := fun a =>
      if a = 1 then { next := 3, alt := 2 }
      else if a = 2 then { hmm := { frame := 7, in_score := 0 } }
      else {} }

/-- Test decoder in frame 6 with a beam of -2560 and `maxhmmpf = 0`: root 0
is active with best score 0, root 1 is idle (stamp -1, best score
`WORST_SCORE`); the active list is empty. -/
def ex_hist_dec : decoder_t :=
  { beam := -2560, maxhmmpf := 0, best_score := 0, n_root_chan := 2, n_root_chan_eval := 1,
    root_chan := fun i => if i = 0 then { hmm := { frame := 6, bestscore := 0 } } else {} }

/-- The first part of `word_transition`: the scores of `bestbp_rc` are reset
and the loop over the exits of the frame fills `bestbp_rc`; the result is the
state and the count `k` of exits other than `finish_wid`. -/
def wt_first (d : decoder_t) (frame_idx : Int) : decoder_t × Int :=
  let d1 := iter_down
    (fun i (s : decoder_t) => set_bestbp_rc s i { s.bestbp_rc i with score := WORST_SCORE })
    d.ngs.n_ciphone.toNat (d.ngs.n_ciphone - 1) d
  let lo := d1.ngs.bp_table_idx frame_idx
  let cnt := (d1.ngs.bpidx - lo).toNat
  iter_up wt_best_rc cnt lo (d1, 0)

/-- The score of the exit `b` for the right context `rc`:
`bscore_stack[b.s_idx + rcpermtab[rc]]`. -/
def rc_score (d : decoder_t) (b rc : Int) : Int :=
  d.ngs.bscore_stack ((d.ngs.bp_table b).s_idx + rcpermtab_of d (d.ngs.bp_table b) rc)

/-- The exit `b` is one of frame `f`, in `bp_table_idx[f] .. bpidx - 1`, of a
word other than `finish_wid`. -/
def rc_exit (d : decoder_t) (f b : Int) : Prop :=
  d.ngs.bp_table_idx f ≤ b ∧ b < d.ngs.bpidx ∧ (d.ngs.bp_table b).wid ≠ d.finish_wid

/-- The value `v` of `bestbp_rc[rc]` is the best over the exits of frame `f`
below index `i`: its score is the maximum of `WORST_SCORE` and their scores
for `rc`, and when that exceeds `WORST_SCORE` its path is the first exit
attaining it and `lc` the last CI phone of that exit's word. -/
def rc_best (d : decoder_t) (f rc i : Int) (v : bestbp_rc_t) : Prop :=
  WORST_SCORE ≤ v.score ∧
  (∀ b, rc_exit d f b → b < i → rc_score d b rc ≤ v.score) ∧
  (v.score > WORST_SCORE →
    rc_exit d f v.path ∧ v.path < i ∧ rc_score d v.path rc = v.score ∧
    (∀ b, rc_exit d f b → b < v.path → rc_score d b rc < v.score) ∧
    v.lc = (d.ngs.dict.dict_list (d.ngs.bp_table v.path).wid).ci_phone_ids
      ((d.ngs.dict.dict_list (d.ngs.bp_table v.path).wid).len - 1))

/-- The score the Viterbi step of frame `f` returns for the HMM `h`. -/
def vit_score (env : env_t) (f : Int) (h : hmm_t) : Int := (env.vit_eval f h).bestscore

/-- The score `m` is the best of the scores `P`, never taken below
`WORST_SCORE`: it bounds them, and it is one of them or `WORST_SCORE`. -/
def best_of (P : Int → Prop) (m : Int) : Prop :=
  WORST_SCORE ≤ m ∧ (∀ s, P s → s ≤ m) ∧ (m = WORST_SCORE ∨ P m)

/-- The scores returned in frame `f` for the first `n` root channels of `d`
that are active in the frame. -/
def root_scores (env : env_t) (d : decoder_t) (f n : Int) (s : Int) : Prop :=
  ∃ i, 0 ≤ i ∧ i < n ∧ (d.root_chan i).hmm.frame = f ∧
    s = vit_score env f (d.root_chan i).hmm

/-- The scores returned in frame `f` for the first `n` nodes of the non-root
active list of `d`. -/
def node_scores (env : env_t) (d : decoder_t) (f n : Int) (s : Int) : Prop :=
  ∃ k, 0 ≤ k ∧ k < n ∧ s = vit_score env f (d.chan (d.active_chan_list (parity f) k)).hmm

/-- The scores returned in frame `f` for the leaves of the first `n` words of
the active word list of `d`, `L j` being the leaf chain of the word listed at
`j`. -/
def leaf_scores (env : env_t) (d : decoder_t) (f : Int) (L : Int → List Int) (n : Int)
    (s : Int) : Prop :=
  ∃ j a, 0 ≤ j ∧ j < n ∧ a ∈ L j ∧ s = vit_score env f (d.chan a).hmm

/-- The scores returned in frame `f` for the first `n` single-phone words of
`d` whose channel is not stamped below `f`; the finish word counts only when
`fin` is set. -/
def single_scores (env : env_t) (d : decoder_t) (f : Int) (fin : Bool) (n : Int)
    (s : Int) : Prop :=
  ∃ i, 0 ≤ i ∧ i < n ∧ ¬ (d.all_rhmm (d.single_phone_wid i)).hmm.frame < f ∧
    (fin = true ∨ d.single_phone_wid i ≠ d.finish_wid) ∧
    s = vit_score env f (d.all_rhmm (d.single_phone_wid i)).hmm

/-- The scores returned in frame `f` for the last phones: the leaves of the
active words and the single-phone words. -/
def last_scores (env : env_t) (d : decoder_t) (f : Int) (L : Int → List Int) (fin : Bool)
    (s : Int) : Prop :=
  leaf_scores env d f L (d.n_active_word (parity f)) s ∨
  single_scores env d f fin d.n_1ph_words s

/-- The scores returned in frame `f` for every HMM evaluated. -/
def all_scores (env : env_t) (d : decoder_t) (f : Int) (L : Int → List Int) (fin : Bool)
    (s : Int) : Prop :=
  root_scores env d f d.n_root_chan s ∨ node_scores env d f (d.n_active_chan (parity f)) s ∨
  last_scores env d f L fin s

/-- State `s` differs from `d` in HMMs, in the marks of active words, in the
two best scores and in the counters of evaluations at most. -/
def eval_frame (d s : decoder_t) : Prop :=
  s = { d with
    root_chan := s.root_chan, chan := s.chan, all_rhmm := s.all_rhmm,
    word_active := s.word_active, best_score := s.best_score,
    last_phone_best_score := s.last_phone_best_score,
    n_root_chan_eval := s.n_root_chan_eval, n_nonroot_chan_eval := s.n_nonroot_chan_eval,
    n_last_chan_eval := s.n_last_chan_eval, n_word_lastchan_eval := s.n_word_lastchan_eval }
/-- Result of `evaluate_channels`, or the input when the call fails. -/
def eval_out (env : env_t) (fuel : Nat) (d : decoder_t) (f : Int) : decoder_t :=
  match evaluate_channels env fuel d f with
  | Except.ok d1 => d1
  | Except.error _ => d

/-- Whether `evaluate_channels` returns. -/
def eval_returns (env : env_t) (fuel : Nat) (d : decoder_t) (f : Int) : Bool :=
  match evaluate_channels env fuel d f with
  | Except.ok _ => true
  | Except.error _ => false

/-- Test decoder at the start of frame 6: root 0 is active with entry score
-30, node 3 is on the non-root active list with -20, the multi-phone word 0 is
on the active word list with the leaves 1 and 2 (-40 and -15), and of the
single-phone words 1 (the finish word), 2 and 3 the first two are active with
-5 and -25. -/
def ex_eval_dec : decoder_t :=
  { finish_wid := 1, n_root_chan := 2,
    root_chan := fun i =>
      if i = 0 then { hmm := { frame := 6, in_score := -30 } } else { hmm := { frame := 5 } },
    chan := fun a =>
      if a = 1 then { hmm := { frame := 6, in_score := -40 }, next := 2 }
      else if a = 2 then { hmm := { frame := 6, in_score := -15 } }
      else if a = 3 then { hmm := { frame := 6, in_score := -20 } }
      else {},
    heap_top := 3,
    active_chan_list := fun _ _ => 3,
    n_active_chan := fun p => if p = 0 then 1 else 0,
    word_chan := fun w => if w = 0 then 1 else 0,
    word_active := fun w => if w = 0 then 1 else 0,
    n_active_word := fun p => if p = 0 then 1 else 0,
    n_1ph_words := 3,
    single_phone_wid := fun i => if i = 0 then 1 else if i = 1 then 2 else 3,
    all_rhmm := fun w =>
      if w = 1 then { hmm := { frame := 6, in_score := -5 } }
      else if w = 2 then { hmm := { frame := 6, in_score := -25 } }
      else { hmm := { frame := 5 } } }

/-- The state scores of an HMM: entry state, further emitting states and
exit state. -/
def state_scores (h : hmm_t) : List Int :=
  h.in_score :: (h.inner.map (fun p => p.1) ++ [h.out_score])

/-- The effect of `hmm_normalize` on one state score. -/
def norm_score (norm x : Int) : Int := if x > WORST_SCORE then x - norm else x

/-- The HMM `h` is active in frame `f`: it is the HMM of a root or of a
single-phone word stamped `f`, of a node on the non-root active list, or of a
leaf of a word on the active word list, `L j` being the leaf chain of the word
listed at `j`. -/
def active_hmm (d : decoder_t) (f : Int) (L : Int → List Int) (h : hmm_t) : Prop :=
  (∃ i, 0 ≤ i ∧ i < d.n_root_chan ∧ (d.root_chan i).hmm.frame = f ∧
    h = (d.root_chan i).hmm) ∨
  (∃ k, 0 ≤ k ∧ k < d.n_active_chan (parity f) ∧
    h = (d.chan (d.active_chan_list (parity f) k)).hmm) ∨
  (∃ j a, 0 ≤ j ∧ j < d.n_active_word (parity f) ∧ a ∈ L j ∧ h = (d.chan a).hmm) ∨
  (∃ i, 0 ≤ i ∧ i < d.n_1ph_words ∧ (d.all_rhmm (d.single_phone_wid i)).hmm.frame = f ∧
    h = (d.all_rhmm (d.single_phone_wid i)).hmm)

/-- Result of `renormalize_scores`, or the input when the call fails. -/
def renorm_out (fuel : Nat) (d : decoder_t) (f norm : Int) : decoder_t :=
  match renormalize_scores fuel d f norm with
  | Except.ok d1 => d1
  | Except.error _ => d

/-- Whether `renormalize_scores` returns. -/
def renorm_returns (fuel : Nat) (d : decoder_t) (f norm : Int) : Bool :=
  match renormalize_scores fuel d f norm with
  | Except.ok _ => true
  | Except.error _ => false

/-- A Viterbi step that moves the pending entry through to the exit and
charges every HMM but those of senone sequence 5 a cost of 10. -/
def ex_rn_env : env_t :=
  { vit_eval := fun _ h =>
      { h with
        in_score := h.in_score + (if h.ssid = 5 then 0 else -10),
        out_score := h.in_score + (if h.ssid = 5 then 0 else -10),
        out_history := h.in_history,
        bestscore := h.in_score + (if h.ssid = 5 then 0 else -10) } }

/-- The test decoder with beams so wide that every frame renormalises; the
channel of the finish word has senone sequence 5. -/
def ex_rn_dec : decoder_t :=
  { ex_fresh_dec with
    beam := -300000000, pbeam := -300000000, lpbeam := -300000000, lponlybeam := -300000000,
    wbeam := -300000000,
    all_rhmm := fun w => if w = 1 then { hmm := { ssid := 5 } } else {} }
/-- The test decoder `ex_rn_dec` after `start()` and `n` frames of search. -/
def ex_rn_run (n : Nat) : decoder_t := frames ex_rn_env 10 n (ngram_fwdtree_start ex_rn_dec)

/-- The end frame of the predecessor of candidate `c`: the frame of the
backpointer entry `lastphn_cand[c].bp`. -/
def cand_ef (d : decoder_t) (c : Int) : Int :=
  (d.ngs.bp_table (d.lastphn_cand c).bp).frame

/-- Candidate `c` has no cached transition: `last_ltrans[wid].sf` differs
from the frame after the end frame of its predecessor. -/
def cand_fresh (d : decoder_t) (c : Int) : Prop :=
  (d.last_ltrans (d.lastphn_cand c).wid).sf ≠ cand_ef d c + 1

/-- The score of candidate `c` after step 1 of `last_phone_transition`: the
score the predecessor exit gave the first phone of the word is taken off. -/
def cand_base (d : decoder_t) (c : Int) : Int :=
  (d.lastphn_cand c).score -
    d.ngs.bscore_stack ((d.ngs.bp_table (d.lastphn_cand c).bp).s_idx +
      rcpermtab_of d (d.ngs.bp_table (d.lastphn_cand c).bp)
        ((d.ngs.dict.dict_list (d.lastphn_cand c).wid).ci_phone_ids 0))

/-- The entry `last_ltrans[wid]` of a candidate without cached transition
after step 1: score `WORST_SCORE`, start frame set, `bp` as it was. -/
def lt_init (d : decoder_t) (c : Int) : last_ltrans_t :=
  { d.last_ltrans (d.lastphn_cand c).wid with dscr := WORST_SCORE, sf := cand_ef d c + 1 }

/-- One update of `last_ltrans[w]` in step 2 of `last_phone_transition`, for
the backpointer entry `bp`. -/
def lt_step (env : env_t) (d : decoder_t) (w bp : Int) (v : last_ltrans_t) : last_ltrans_t :=
  if (d.ngs.bp_table bp).valid = false then v
  else if v.dscr < lm_cand env d bp w then { v with dscr := lm_cand env d bp w, bp := bp }
  else v

/-- The updates of `last_ltrans[w]` for the `n` backpointer entries from
`lo`. -/
def lt_run (env : env_t) (d : decoder_t) (w : Int) (n : Nat) (lo : Int) (v : last_ltrans_t) :
    last_ltrans_t :=
  iter_up (lt_step env d w) n lo v

/-- The entry `last_ltrans[wid]` that step 3 of `last_phone_transition` reads
for candidate `c`: the cached one, or the one step 2 computes over the entries
`bp_table_idx[ef] .. bp_table_idx[ef + 1] - 1` of the end frame `ef` of the
predecessor. -/
def lt_final (env : env_t) (d : decoder_t) (c : Int) : last_ltrans_t :=
  if (d.last_ltrans (d.lastphn_cand c).wid).sf ≠ cand_ef d c + 1 then
    lt_run env d (d.lastphn_cand c).wid
      (d.ngs.bp_table_idx (cand_ef d c + 1) - 1 - d.ngs.bp_table_idx (cand_ef d c) + 1).toNat
      (d.ngs.bp_table_idx (cand_ef d c)) (lt_init d c)
  else d.last_ltrans (d.lastphn_cand c).wid

/-- The entry `v` holds the best transition into word `w` over the valid
backpointer entries `lo .. hi - 1`, never taken below `WORST_SCORE`: the
score bounds theirs; it is `WORST_SCORE` with `bp` left at `bp0`, or it is
the score of entry `v.bp`, the first to reach it. -/
def lt_best (env : env_t) (d : decoder_t) (lo hi w bp0 : Int) (v : last_ltrans_t) : Prop :=
  WORST_SCORE ≤ v.dscr ∧
  (∀ b, lo ≤ b → b < hi → (d.ngs.bp_table b).valid = true → lm_cand env d b w ≤ v.dscr) ∧
  ((v.dscr = WORST_SCORE ∧ v.bp = bp0) ∨
    (lo ≤ v.bp ∧ v.bp < hi ∧ (d.ngs.bp_table v.bp).valid = true ∧
      lm_cand env d v.bp w = v.dscr ∧
      ∀ b, lo ≤ b → b < v.bp → (d.ngs.bp_table b).valid = true → lm_cand env d b w < v.dscr))
/-- The state `s` of step 1 of `last_phone_transition`, started in `d`,
before candidate `i`, with `m` buckets: the candidates before `i` have lost
the entry score of their first phone; those without cached transition have
the entry of their word reset and are chained, through `next`, in the bucket
of their end frame, `Bk j` being the chain of bucket `j`. -/
structure bk_inv (d : decoder_t) (i : Int) (s : decoder_t) (m : Int) (Bk : Int → List Int) :
    Prop where
  frame : cand_frame d s
  same : ∀ c, (s.lastphn_cand c).wid = (d.lastphn_cand c).wid ∧
    (s.lastphn_cand c).bp = (d.lastphn_cand c).bp
  done : ∀ c, 0 ≤ c → c < i → (s.lastphn_cand c).score = cand_base d c
  todo : ∀ c, i ≤ c → s.lastphn_cand c = d.lastphn_cand c
  lt_new : ∀ c, 0 ≤ c → c < i → cand_fresh d c →
    s.last_ltrans (d.lastphn_cand c).wid = lt_init d c
  lt_old : ∀ w, (∀ c, 0 ≤ c → c < i → cand_fresh d c → (d.lastphn_cand c).wid ≠ w) →
    s.last_ltrans w = d.last_ltrans w
  m0 : 0 ≤ m
  out : ∀ k, ¬ (0 ≤ k ∧ k < m) → Bk k = []
  chain : ∀ j, 0 ≤ j → j < m →
    hom_list (fun x => (s.lastphn_cand x).next) (s.cand_sf j).cand (Bk j)
  mem : ∀ j c, 0 ≤ j → j < m → c ∈ Bk j →
    0 ≤ c ∧ c < i ∧ cand_fresh d c ∧ cand_ef d c = (s.cand_sf j).bp_ef
  cover : ∀ c, 0 ≤ c → c < i → cand_fresh d c → ∃ j, 0 ≤ j ∧ j < m ∧ c ∈ Bk j
  disj : ∀ j k c, 0 ≤ j → j < m → 0 ≤ k → k < m → c ∈ Bk j → c ∈ Bk k → j = k
  nodup : ∀ j, 0 ≤ j → j < m → (Bk j).Nodup
/-- State `s` differs from `d` in `last_ltrans` at most. -/
def lt_only (d s : decoder_t) : Prop := s = { d with last_ltrans := s.last_ltrans }
/-- The parents of the lexicon tree in use: the roots `0 .. n_root_chan - 1`
and the non-root nodes in `N`. -/
def is_par (d : decoder_t) (N : Int → Prop) : parent_t → Prop
  | parent_t.root i => 0 ≤ i ∧ i < d.n_root_chan
  | parent_t.node a => N a

/-- The state `s` of the tree pruning of frame `f`, started in `d`: the
homophone chains and the words ending at each parent are as in `d`, the
active list of the frame is as in `d`, and the candidates emitted so far are
words of `S`, none twice. -/
structure cd_inv (d : decoder_t) (f : Int) (S : Int → Prop) (s : decoder_t) : Prop where
  hs : s.homophone_set = d.homophone_set
  pen : ∀ i, (s.root_chan i).penult_phn_wid = (d.root_chan i).penult_phn_wid
  info : ∀ a, (s.chan a).info = (d.chan a).info
  cur : s.active_chan_list (parity f) = d.active_chan_list (parity f)
  nroot : s.n_root_chan = d.n_root_chan
  n0 : 0 ≤ s.n_lastphn_cand
  inj : ∀ c c1, 0 ≤ c → c < s.n_lastphn_cand → 0 ≤ c1 → c1 < s.n_lastphn_cand →
    (s.lastphn_cand c).wid = (s.lastphn_cand c1).wid → c = c1
  src : ∀ c, 0 ≤ c → c < s.n_lastphn_cand → S (s.lastphn_cand c).wid

/-! ## The state between two frames -/

/-- The Viterbi step keeps the frame stamp of the HMM. -/
def vit_frame (env : env_t) : Prop := ∀ f h, (env.vit_eval f h).frame = h.frame

/-- The lexicon tree of `d` is well formed: `N` is the set of its non-root
nodes, `KR i` lists the children of root `i` and `H p` the homophone chain of
the parent `p`.  The children of the roots are nodes, no node is the child of
two roots, the children and siblings of nodes are nodes; no word is on a
homophone chain twice or on the chains of two parents, and the words on the
chains are multi-phone words of the dictionary. -/
structure tree_ok (d : decoder_t) (N : Int → Prop) (KR : Int → List Int)
    (H : parent_t → List Int) : Prop where
  kr : ∀ i, 0 ≤ i → i < d.n_root_chan →
    chain_seg (fun x => (d.chan x).alt) (d.root_chan i).next (KR i) 0
  krN : ∀ i, 0 ≤ i → i < d.n_root_chan → ∀ c ∈ KR i, N c
  krd : ∀ i j c, 0 ≤ i → i < d.n_root_chan → 0 ≤ j → j < d.n_root_chan →
    c ∈ KR i → c ∈ KR j → i = j
  nnext : ∀ c, N c → (d.chan c).next ≠ 0 → N (d.chan c).next
  nalt : ∀ c, N c → (d.chan c).alt ≠ 0 → N (d.chan c).alt
  hch : ∀ p, is_par d N p → hom_list d.homophone_set (penult d p) (H p)
  hnd : ∀ p, is_par d N p → (H p).Nodup
  hdj : ∀ p q w, is_par d N p → is_par d N q → w ∈ H p → w ∈ H q → p = q
  hmp : ∀ p w, is_par d N p → w ∈ H p →
    (d.ngs.dict.dict_list w).mpx = true ∧ (d.ngs.dict.dict_list w).len > 1

/-- State `s` has the tree, the leaf chains, the active lists and the frame
stamps of the cells of `d`. -/
structure quiet (d s : decoder_t) : Prop where
  hs : s.homophone_set = d.homophone_set
  nroot : s.n_root_chan = d.n_root_chan
  dict : s.ngs.dict = d.ngs.dict
  top : s.heap_top = d.heap_top
  wc : s.word_chan = d.word_chan
  acl : s.active_chan_list = d.active_chan_list
  nac : s.n_active_chan = d.n_active_chan
  awl : s.active_word_list = d.active_word_list
  naw : s.n_active_word = d.n_active_word
  cells : ∀ a, (s.chan a).next = (d.chan a).next ∧ (s.chan a).alt = (d.chan a).alt ∧
    (s.chan a).info = (d.chan a).info ∧ (s.chan a).hmm.frame = (d.chan a).hmm.frame
  roots : ∀ i, (s.root_chan i).next = (d.root_chan i).next ∧
    (s.root_chan i).penult_phn_wid = (d.root_chan i).penult_phn_wid

/-- The decoder between two frames, before frame `f`, with the leaf chains
`C`: the tree is well formed and its nodes are cells in use that are no
leaves; the active list of nodes has no node twice and holds nodes only; no
node and no leaf is stamped for a later frame; the active word list has no
word twice and every word with a leaf is on it. -/
structure run_inv (N : Int → Prop) (KR : Int → List Int) (H : parent_t → List Int)
    (f : Int) (d : decoder_t) (C : Int → List Int) : Prop where
  tree : tree_ok d N KR H
  f0 : 0 ≤ f
  heap : leaf_heap d C
  nbound : ∀ a, N a → a ≤ d.heap_top
  nleaf : ∀ a w, N a → a ∉ C w
  cinj : ∀ i j, 0 ≤ i → i < d.n_active_chan (parity f) → 0 ≤ j →
    j < d.n_active_chan (parity f) →
    d.active_chan_list (parity f) i = d.active_chan_list (parity f) j → i = j
  cmem : ∀ k, 0 ≤ k → k < d.n_active_chan (parity f) → N (d.active_chan_list (parity f) k)
  cst : ∀ a, N a → (d.chan a).hmm.frame ≤ f
  winj : ∀ i j, 0 ≤ i → i < d.n_active_word (parity f) → 0 ≤ j →
    j < d.n_active_word (parity f) →
    d.active_word_list (parity f) i = d.active_word_list (parity f) j → i = j
  wst : ∀ w a, a ∈ C w → (d.chan a).hmm.frame ≤ f
  wlive : ∀ w, C w ≠ [] → on_list d f (d.n_active_word (parity f)) w

/-- The marks of active words before frame `f`: `word_active[w]` is 1 for the
words on the active word list of the frame and 0 for every other word. -/
def marks_ok (f : Int) (d : decoder_t) : Prop :=
  ∀ w, (d.word_active w = 1 ∧ on_list d f (d.n_active_word (parity f)) w) ∨
    (d.word_active w = 0 ∧ ¬ on_list d f (d.n_active_word (parity f)) w)

/-- A decoder ready for `ngram_fwdtree_start`: the lexicon tree is well
formed, its nodes are cells in use and idle (stamped for no frame to come),
the frame counter of the acoustic model is not negative, no word has a leaf
and no word is marked active. -/
def ready (N : Int → Prop) (KR : Int → List Int) (H : parent_t → List Int)
    (d : decoder_t) : Prop :=
  tree_ok d N KR H ∧ 0 ≤ d.heap_top ∧ (∀ a, N a → a ≤ d.heap_top) ∧ 0 ≤ d.output_frame ∧
  (∀ a, N a → (d.chan a).hmm.frame < d.output_frame) ∧
  (∀ w, d.word_chan w = 0) ∧ (∀ w, d.word_active w = 0)

/-- The part of a frame of `ngram_fwdtree_search` that comes before
`last_phone_transition`: the frame is marked in the backpointer table, the
scores are renormalised if need be, every active HMM is evaluated, and in
`prune_channels` the dynamic beam is set and the roots and the tree nodes are
pruned, which collects the last-phone candidates. -/
def search_cands (env : env_t) (fuel : Nat) (d : decoder_t) : Except Fault decoder_t :=
  let frame_idx := d.output_frame
  let d1 : decoder_t :=
    { d with output_frame := d.output_frame + 1, n_feat_frame := d.n_feat_frame - 1 }
  let d2 := ngram_search_mark_bptable d1 frame_idx
  let r3 : Except Fault decoder_t :=
    if d2.best_score + 2 * d2.beam < WORST_SCORE then
      renormalize_scores fuel d2 frame_idx d2.best_score
    else Except.ok d2
  match r3 with
  | Except.error e => Except.error e
  | Except.ok d3 =>
    match evaluate_channels env fuel d3 frame_idx with
    | Except.error e => Except.error e
    | Except.ok d4 =>
      match set_dynamic_beam d4 frame_idx with
      | Except.error e => Except.error e
      | Except.ok d5 =>
        match prune_root_chan fuel d5 frame_idx with
        | Except.error e => Except.error e
        | Except.ok d6 => prune_nonroot_chan fuel d6 frame_idx

/-- State `s` has the tree, the leaf chains, the active lists, the frame
stamps of the cells, the marks of active words and the frame counter of
`d`. -/
def calm (d s : decoder_t) : Prop :=
  quiet d s ∧ s.word_active = d.word_active ∧ s.output_frame = d.output_frame

/-- The decoder in frame `f` before `last_phone_transition`, with the leaf
chains `C`: what `run_inv` says of the tree and the leaves, for the active
node list of frame `f + 1`; no word is marked active; no word id occurs twice
among the last-phone candidates and every candidate is a word of a homophone
chain of the tree. -/
structure cand_inv (N : Int → Prop) (KR : Int → List Int) (H : parent_t → List Int)
    (f : Int) (s : decoder_t) (C : Int → List Int) : Prop where
  tree : tree_ok s N KR H
  f0 : 0 ≤ f
  heap : leaf_heap s C
  nbound : ∀ a, N a → a ≤ s.heap_top
  nleaf : ∀ a w, N a → a ∉ C w
  ninj : ∀ i j, 0 ≤ i → i < s.n_active_chan (parity (f + 1)) → 0 ≤ j →
    j < s.n_active_chan (parity (f + 1)) →
    s.active_chan_list (parity (f + 1)) i = s.active_chan_list (parity (f + 1)) j → i = j
  nmem : ∀ k, 0 ≤ k → k < s.n_active_chan (parity (f + 1)) →
    N (s.active_chan_list (parity (f + 1)) k)
  nst : ∀ a, N a → (s.chan a).hmm.frame ≤ f + 1
  winj : ∀ i j, 0 ≤ i → i < s.n_active_word (parity f) → 0 ≤ j →
    j < s.n_active_word (parity f) →
    s.active_word_list (parity f) i = s.active_word_list (parity f) j → i = j
  wact : ∀ w, s.word_active w = 0
  wst : ∀ w a, a ∈ C w → (s.chan a).hmm.frame ≤ f
  wlive : ∀ w, C w ≠ [] → on_list s f (s.n_active_word (parity f)) w
  cinj : ∀ c c1, 0 ≤ c → c < s.n_lastphn_cand → 0 ≤ c1 → c1 < s.n_lastphn_cand →
    (s.lastphn_cand c).wid = (s.lastphn_cand c1).wid → c = c1
  csrc : ∀ c, 0 ≤ c → c < s.n_lastphn_cand →
    ∃ p, is_par s N p ∧ (s.lastphn_cand c).wid ∈ H p

/-- Every cell in use in `s` carries the frame stamp `nf`, the stamp it has
in `d` where it is in use too, or the stamp -1 of a cleared HMM. -/
def stamps_to (nf : Int) (d s : decoder_t) : Prop :=
  ∀ a, a ≤ s.heap_top →
    (s.chan a).hmm.frame = nf ∨
    (a ≤ d.heap_top ∧ (s.chan a).hmm.frame = (d.chan a).hmm.frame) ∨
    (s.chan a).hmm.frame = -1

/-- The state `search_cands` returns; the unchanged state when it faults. -/
def cands_out (env : env_t) (fuel : Nat) (d : decoder_t) : decoder_t :=
  match search_cands env fuel d with
  | Except.ok s => s
  | Except.error _ => d

/-- Whether `search_cands` returns. -/
def cands_returns (env : env_t) (fuel : Nat) (d : decoder_t) : Bool :=
  match search_cands env fuel d with
  | Except.ok _ => true
  | Except.error _ => false

/-- The tree of the test decoder has no node below its root. -/
def ex_fresh_nodes : Int → Prop := fun _ => False

/-- The root of the test decoder has no children. -/
def ex_fresh_kids : Int → List Int := fun _ => []

/-- The homophone chains of the test decoder: word 0 at its root. -/
def ex_fresh_hom : parent_t → List Int
  | parent_t.root _ => [0]
  | parent_t.node _ => []

/-! ## The end of an utterance -/

/-- Free the leaves of word `w` (`free_all_rc`): the chain from
`word_chan[w]` is walked to its end, every leaf being given back
(`hmm_deinit` and `listelem_free`, which change nothing of the state kept
here: freed cells are not handed out again), and `word_chan[w]` becomes
`NULL`. -/
def free_all_rc (fuel : Nat) (d : decoder_t) (w : Int) : Except Fault decoder_t :=
  match for_list is_null (fun (s : decoder_t) a => (s.chan a).next)
      (fun _ (s : decoder_t) => Except.ok s) fuel (d.word_chan w) d with
  | Except.error e => Except.error e
  | Except.ok d1 => Except.ok (set_word_chan d1 w 0)

/-- The body of the last loop of `ngram_fwdtree_finish` for the word listed
at `i` in the active word list of frame `cf`: a single-phone word is skipped;
the mark of any other word is cleared and its leaves, if any, are freed. -/
def finish_word (fuel : Nat) (cf : Int) (i : Int) (s : decoder_t) : Except Fault decoder_t :=
  let w := s.active_word_list (parity cf) i
  if (s.ngs.dict.dict_list w).len = 1 then Except.ok s
  else
    let s1 : decoder_t := { s with word_active := store s.word_active w 0 }
    if s1.word_chan w = 0 then Except.ok s1
    else free_all_rc fuel s1 w

/-- End an utterance (`ngram_fwdtree_finish`): the frame after the last is
marked in the backpointer table, the HMMs of all roots and of the tree nodes
lined up for that frame are cleared, and the words lined up for it lose their
mark and their leaves.  `cf` is the number of frames processed, the frame
counter of the acoustic model; the statistics printed at the end change no
state. -/
def ngram_fwdtree_finish (fuel : Nat) (d : decoder_t) : Except Fault decoder_t :=
  let cf := d.output_frame
  let d1 := ngram_search_mark_bptable d cf
  let d2 := iter_up
    (fun i (s : decoder_t) => set_root_hmm s i (hmm_clear (s.root_chan i).hmm))
    d1.n_root_chan.toNat 0 d1
  let d3 := iter_up
    (fun k (s : decoder_t) =>
      let a := s.active_chan_list (parity cf) k
      set_chan_hmm s a (hmm_clear (s.chan a).hmm))
    (d2.n_active_chan (parity cf)).toNat 0 d2
  for_up (finish_word fuel cf) (d3.n_active_word (parity cf)).toNat 0 d3

/-- The state `s` of the last loop of `ngram_fwdtree_finish`, started on `d`
in frame `f`, before the word listed at `i`: lists, dictionary, single-phone
channels and the links of the cells are those of `d`; a chain head or a mark
is what it was or cleared; the chain heads of single-phone words are
untouched; the words listed before `i` that are no single-phone words have no
chain and no mark. -/
structure fin_inv (d : decoder_t) (f : Int) (i : Int) (s : decoder_t) : Prop where
  awl : s.active_word_list = d.active_word_list
  dict : s.ngs.dict = d.ngs.dict
  rhmm : s.all_rhmm = d.all_rhmm
  links : ∀ a, (s.chan a).next = (d.chan a).next
  wc : ∀ v, s.word_chan v = 0 ∨ s.word_chan v = d.word_chan v
  wa : ∀ v, s.word_active v = 0 ∨ s.word_active v = d.word_active v
  one : ∀ v, (d.ngs.dict.dict_list v).len = 1 → s.word_chan v = d.word_chan v
  done : ∀ j, 0 ≤ j → j < i →
    (d.ngs.dict.dict_list (d.active_word_list (parity f) j)).len ≠ 1 →
    s.word_chan (d.active_word_list (parity f) j) = 0 ∧
    s.word_active (d.active_word_list (parity f) j) = 0

/-- The result of `ngram_fwdtree_finish` when it returns; the unchanged state
when it faults. -/
def finish_out (fuel : Nat) (d : decoder_t) : decoder_t :=
  match ngram_fwdtree_finish fuel d with
  | Except.ok d1 => d1
  | Except.error _ => d

/-- Whether `ngram_fwdtree_finish` returns. -/
def finish_returns (fuel : Nat) (d : decoder_t) : Bool :=
  match ngram_fwdtree_finish fuel d with
  | Except.ok _ => true
  | Except.error _ => false

/-! ## The cache of language-model transitions over an utterance -/

/-- The word `w` is on a homophone chain of the tree: it can become a
last-phone candidate. -/
def lm_word (d : decoder_t) (N : Int → Prop) (H : parent_t → List Int) (w : Int) : Prop :=
  ∃ p, is_par d N p ∧ w ∈ H p

/-- The cached transition `last_ltrans[w]` is unset (`sf == -1`), or it names
the start frame `e + 1` after an end frame `e` whose backpointer entries, the
entries between the frame marks of `e` and `e + 1`, lie below `B`, and it
holds what the maximisation of step 2 of `last_phone_transition` over those
entries computes from the score `WORST_SCORE`. -/
def cache_ok (env : env_t) (d : decoder_t) (B : Int) (w : Int) : Prop :=
  (d.last_ltrans w).sf = -1 ∨
  ∃ e, (d.last_ltrans w).sf = e + 1 ∧ 0 ≤ d.ngs.bp_table_idx e ∧
    d.ngs.bp_table_idx (e + 1) ≤ B ∧ e + 1 < d.output_frame ∧
    d.last_ltrans w = lt_run env d w
      (d.ngs.bp_table_idx (e + 1) - 1 - d.ngs.bp_table_idx e + 1).toNat
      (d.ngs.bp_table_idx e) { d.last_ltrans w with dscr := WORST_SCORE }

/-- The end of the entries of frame `e` in the course of frame `f`, whose
first entry is `B`: the frame mark of frame `e + 1`, and `B` for the frame
before `f`, the mark of frame `f` being set when the frame begins. -/
def frame_end (d : decoder_t) (f B e : Int) : Int :=
  if e + 1 = f then B else d.ngs.bp_table_idx (e + 1)

/-- The entries below `B` lie in the segments of their frames: entry `i` is
at or after the frame mark of its frame and before the end of that frame,
and every entry of that segment has the frame of `i`. -/
def seg_ok (f B : Int) (d : decoder_t) : Prop :=
  ∀ i, 0 ≤ i → i < B →
    d.ngs.bp_table_idx (d.ngs.bp_table i).frame ≤ i ∧
    i < frame_end d f B (d.ngs.bp_table i).frame ∧
    frame_end d f B (d.ngs.bp_table i).frame ≤ B ∧
    ∀ j, d.ngs.bp_table_idx (d.ngs.bp_table i).frame ≤ j →
      j < frame_end d f B (d.ngs.bp_table i).frame →
      (d.ngs.bp_table j).frame = (d.ngs.bp_table i).frame

/-- The backpointer table and the transition cache in the course of an
utterance, `B` being the number of entries of the frames before `f` and `S`
the stack head they left: these entries belong to marked frames before `f`
and read their scores below `S`, and they lie in the segments the frame
marks delimit; the entries from `B` on have their scores
from `S` on and read them below the stack head; the cache of every word of
`W` is unset or holds the best transition over the entries of its frame. -/
structure lm_inv (env : env_t) (W : Int → Prop) (f B S : Int) (d : decoder_t) : Prop where
  head : S ≤ d.ngs.bss_head
  live : ∀ i, 0 ≤ i → i < B → 0 ≤ (d.ngs.bp_table i).frame ∧ (d.ngs.bp_table i).frame < f ∧
    0 ≤ d.ngs.bp_table_idx (d.ngs.bp_table i).frame
  reads : ∀ i, 0 ≤ i → i < B → ∀ ci,
    (d.ngs.bp_table i).s_idx + rcpermtab_of d (d.ngs.bp_table i) ci < S
  cur : ∀ i, B ≤ i → i < d.ngs.bpidx → S ≤ (d.ngs.bp_table i).s_idx ∧
    ∀ ci, (d.ngs.bp_table i).s_idx + rcpermtab_of d (d.ngs.bp_table i) ci < d.ngs.bss_head
  cache : ∀ w, W w → cache_ok env d B w
  seg : seg_ok f B d

/-- The tables of the dictionary the cache relies on: the words on the
homophone chains are words of the dictionary, the single-phone words known to
the language model have one phone, every right-context table has an entry,
and the permutation of a right-context table maps into the table. -/
structure lm_static (N : Int → Prop) (H : parent_t → List Int) (d : decoder_t) : Prop where
  wdict : ∀ w, lm_word d N H w → 0 ≤ w ∧ w < d.ngs.dict.dict_entry_count
  one : ∀ i, 0 ≤ i → i < d.n_1ph_LMwords →
    (d.ngs.dict.dict_list (d.single_phone_wid i)).len = 1
  size : ∀ r, 0 < d.ngs.dict.rcFwdSizeTable r
  perm : ∀ r ci, d.xwd.rcFwdPermTable r ci < d.ngs.dict.rcFwdSizeTable r

/-- The cells in use above address `T` are leaves: their right-context
index is not negative and their link is null or another such cell; every
leaf chain starts at such a cell or is empty. -/
def leaves_ok (T : Int) (d : decoder_t) : Prop :=
  T ≤ d.heap_top ∧
  (∀ a, T < a → a ≤ d.heap_top → 0 ≤ (d.chan a).info ∧
    ((d.chan a).next = 0 ∨ (T < (d.chan a).next ∧ (d.chan a).next ≤ d.heap_top))) ∧
  ∀ w, d.word_chan w = 0 ∨ (T < d.word_chan w ∧ d.word_chan w ≤ d.heap_top)

/-- A decoder ready for `ngram_fwdtree_start` that holds nothing of an earlier
utterance and whose dictionary tables are well formed. -/
def lm_ready (N : Int → Prop) (KR : Int → List Int) (H : parent_t → List Int)
    (d : decoder_t) : Prop :=
  ready N KR H d ∧ clean d ∧ lm_static N H d

/-- The decoder between two frames, as far as the cache of transitions is
concerned. -/
structure lm_run (env : env_t) (N : Int → Prop) (H : parent_t → List Int) (T : Int)
    (d : decoder_t) : Prop where
  idle : idle_ok d
  inv : lm_inv env (lm_word d N H) d.output_frame d.ngs.bpidx d.ngs.bss_head d
  leaves : leaves_ok T d
  stat : lm_static N H d

/-- State `s` has the backpointer part, the transition cache, the tables, the
frame counter, the leaf links and the leaf chains of `d`. -/
def lm_same (d s : decoder_t) : Prop :=
  s.ngs = d.ngs ∧ s.last_ltrans = d.last_ltrans ∧ s.xwd = d.xwd ∧
  s.output_frame = d.output_frame ∧ s.n_1ph_words = d.n_1ph_words ∧
  s.n_1ph_LMwords = d.n_1ph_LMwords ∧ s.single_phone_wid = d.single_phone_wid ∧
  s.n_root_chan = d.n_root_chan ∧ s.heap_top = d.heap_top ∧ s.word_chan = d.word_chan ∧
  ∀ a, (s.chan a).next = (d.chan a).next ∧ (s.chan a).info = (d.chan a).info

/-- State `s` has the entries below `B`, the stack slots below `S`, the frame
marks, the tables, the cache, the frame counter and the single-phone words of
`d`. -/
def bt_frozen (B S : Int) (d s : decoder_t) : Prop :=
  (∀ b, 0 ≤ b → b < B → s.ngs.bp_table b = d.ngs.bp_table b) ∧
  (∀ j, j < S → s.ngs.bscore_stack j = d.ngs.bscore_stack j) ∧
  s.ngs.bp_table_idx = d.ngs.bp_table_idx ∧ s.ngs.dict = d.ngs.dict ∧ s.xwd = d.xwd ∧
  s.last_ltrans = d.last_ltrans ∧ s.output_frame = d.output_frame ∧
  s.n_1ph_LMwords = d.n_1ph_LMwords ∧ s.single_phone_wid = d.single_phone_wid ∧
  s.n_root_chan = d.n_root_chan

/-- State `s` has the backpointer part, the transition cache, the tables and
the frame counter of `d`. -/
def lm_keep (d s : decoder_t) : Prop :=
  s.ngs = d.ngs ∧ s.last_ltrans = d.last_ltrans ∧ s.xwd = d.xwd ∧
  s.output_frame = d.output_frame ∧ s.n_1ph_LMwords = d.n_1ph_LMwords ∧
  s.single_phone_wid = d.single_phone_wid ∧ s.n_root_chan = d.n_root_chan

/-- The state `d` of `prune_word_chan` in frame `f`, started in `d0`: the
frame invariant holds, the table part of the cache invariant holds, the
entries of earlier frames and their stack slots are those of `d0`, and the
leaves are in order. -/
def pw_lm (env : env_t) (f B S T : Int) (d0 d : decoder_t) : Prop :=
  frame_ok f B d ∧ lm_inv env (fun _ => False) f B S d ∧ bt_frozen B S d0 d ∧ leaves_ok T d

/-- State `s` of `word_transition`, started in `d`: it differs from `d` in
`word_lat_idx`, `bestbp_rc`, the root channels, the single-phone channels and
`last_ltrans` at most, and `last_ltrans` has changed for the single-phone
words of the language model only. -/
def wt_lm (d s : decoder_t) : Prop :=
  wt_frame d s ∧ ∀ w, ¬ is_lm d w → s.last_ltrans w = d.last_ltrans w

/-- The test decoder after `n` frames of its first utterance. -/
def ex_lm_run (n : Nat) : decoder_t := frames ex_env 10 n (ngram_fwdtree_start ex_fresh_dec)

/-- The state in which `last_phone_transition` is called in the frame after
`n` frames of the test decoder. -/
def ex_lm_cands (n : Nat) : decoder_t := cands_out ex_env 10 (ex_lm_run n)

/-- The state `last_phone_transition` returns in the frame after `n` frames of
the test decoder. -/
def ex_lm_done (n : Nat) : decoder_t :=
  lpt_out ex_env 10 (ex_lm_cands n) (ex_lm_run n).output_frame

/-- In the course of frame `f` the entries of the frame of an earlier entry
`p` are the entries between the frame mark of that frame and the next. -/
theorem frame_entries (env : env_t) (W : Int → Prop) (f B S : Int) (s : decoder_t) (p : Int)
    (hi : lm_inv env W f B S s) (hb : bt_ok f B s.ngs) (hp0 : 0 ≤ p) (hpB : p < B) :
    ∀ b, 0 ≤ b → b < s.ngs.bpidx →
      ((s.ngs.bp_table b).frame = (s.ngs.bp_table p).frame ↔
        s.ngs.bp_table_idx (s.ngs.bp_table p).frame ≤ b ∧
        b < s.ngs.bp_table_idx ((s.ngs.bp_table p).frame + 1)) := by
  obtain ⟨_, _, b2, _, b4, _⟩ := hb
  have ef : ∀ e, frame_end s f B e = s.ngs.bp_table_idx (e + 1) := fun e => by
    unfold frame_end
    split
    · rename_i he
      rw [he, b2]
    · rfl
  intro b hb0 hb1
  constructor
  · intro h
    by_cases hbB : b < B
    · obtain ⟨s1, s2, _, _⟩ := hi.seg b hb0 hbB
      rw [h] at s1 s2
      rw [ef] at s2
      exact ⟨s1, s2⟩
    · have h1 := (b4 b (by omega) hb1).2
      have h2 := (hi.live p hp0 hpB).2.1
      omega
  · rintro ⟨h1, h2⟩
    obtain ⟨_, _, _, s4⟩ := hi.seg p hp0 hpB
    rw [ef] at s4
    exact s4 b h1 h2

/-! ## Theorems -/

/-! ### Array stores and counting -/

theorem store_same {α : Type} (a : Int → α) (i : Int) (v : α) : store a i v i = v := by
  simp [store]

theorem store_ne {α : Type} (a : Int → α) (i j : Int) (v : α) (h : j ≠ i) :
    store a i v j = a j := by
  simp [store, h]

theorem count_in_le (p : Int → Bool) (k : Nat) (lo : Int) : count_in p k lo ≤ k := by
  induction k generalizing lo with
  | zero => simp [count_in]
  | succ k ih =>
    have := ih (lo + 1)
    simp only [count_in]
    split <;> omega

theorem count_in_succ_true (p : Int → Bool) (k : Nat) (lo : Int) (h : p lo = true) :
    count_in p (k + 1) lo = count_in p k (lo + 1) + 1 := by
  simp [count_in, h]; omega

theorem count_in_succ_false (p : Int → Bool) (k : Nat) (lo : Int) (h : p lo = false) :
    count_in p (k + 1) lo = count_in p k (lo + 1) := by
  simp [count_in, h]

theorem count_in_mono (p q : Int → Bool) (k : Nat) (lo : Int)
    (h : ∀ j, lo ≤ j → j < lo + k → p j = true → q j = true) :
    count_in p k lo ≤ count_in q k lo := by
  induction k generalizing lo with
  | zero => simp [count_in]
  | succ k ih =>
    have h1 := ih (lo + 1) (fun j a b c => h j (by omega) (by push_cast; omega) c)
    have h0 := h lo (by omega) (by push_cast; omega)
    cases hp : p lo <;> cases hq : q lo
    · rw [count_in_succ_false p k lo hp, count_in_succ_false q k lo hq]; exact h1
    · rw [count_in_succ_false p k lo hp, count_in_succ_true q k lo hq]; omega
    · simp [hp, hq] at h0
    · rw [count_in_succ_true p k lo hp, count_in_succ_true q k lo hq]; omega

theorem count_in_congr (p q : Int → Bool) (k : Nat) (lo : Int)
    (h : ∀ j, lo ≤ j → j < lo + k → p j = q j) :
    count_in p k lo = count_in q k lo := by
  apply Nat.le_antisymm
  · exact count_in_mono p q k lo (fun j a b c => by rw [← h j a b]; exact c)
  · exact count_in_mono q p k lo (fun j a b c => by rw [h j a b]; exact c)

theorem count_in_or (p q : Int → Bool) (k : Nat) (lo : Int) :
    count_in (fun j => p j || q j) k lo ≤ count_in p k lo + count_in q k lo := by
  induction k generalizing lo with
  | zero => simp [count_in]
  | succ k ih =>
    have h1 := ih (lo + 1)
    cases hp : p lo <;> cases hq : q lo
    · rw [count_in_succ_false p k lo hp, count_in_succ_false q k lo hq,
        count_in_succ_false _ k lo (by simp [hp, hq])]; exact h1
    · rw [count_in_succ_false p k lo hp, count_in_succ_true q k lo hq,
        count_in_succ_true _ k lo (by simp [hp, hq])]; omega
    · rw [count_in_succ_true p k lo hp, count_in_succ_false q k lo hq,
        count_in_succ_true _ k lo (by simp [hp, hq])]; omega
    · rw [count_in_succ_true p k lo hp, count_in_succ_true q k lo hq,
        count_in_succ_true _ k lo (by simp [hp, hq])]; omega

theorem count_in_or_disj (p q : Int → Bool) (k : Nat) (lo : Int)
    (h : ∀ j, lo ≤ j → j < lo + k → p j = true → q j = false) :
    count_in (fun j => p j || q j) k lo = count_in p k lo + count_in q k lo := by
  induction k generalizing lo with
  | zero => simp [count_in]
  | succ k ih =>
    have h1 := ih (lo + 1) (fun j a b c => h j (by omega) (by push_cast; omega) c)
    have h0 := h lo (by omega) (by push_cast; omega)
    cases hp : p lo <;> cases hq : q lo
    · rw [count_in_succ_false p k lo hp, count_in_succ_false q k lo hq,
        count_in_succ_false _ k lo (by simp [hp, hq])]; exact h1
    · rw [count_in_succ_false p k lo hp, count_in_succ_true q k lo hq,
        count_in_succ_true _ k lo (by simp [hp, hq])]; omega
    · rw [count_in_succ_true p k lo hp, count_in_succ_false q k lo hq,
        count_in_succ_true _ k lo (by simp [hp, hq])]; omega
    · simp [hp, hq] at h0

theorem count_in_not (p : Int → Bool) (k : Nat) (lo : Int) :
    count_in p k lo + count_in (fun j => !p j) k lo = k := by
  induction k generalizing lo with
  | zero => simp [count_in]
  | succ k ih =>
    have h1 := ih (lo + 1)
    cases hp : p lo
    · rw [count_in_succ_false p k lo hp, count_in_succ_true _ k lo (by simp [hp])]; omega
    · rw [count_in_succ_true p k lo hp, count_in_succ_false _ k lo (by simp [hp])]; omega

theorem count_in_eq_out (b : Int) (k : Nat) (lo : Int) (h : b < lo ∨ lo + k ≤ b) :
    count_in (fun j => decide (j = b)) k lo = 0 := by
  induction k generalizing lo with
  | zero => simp [count_in]
  | succ k ih =>
    have h1 := ih (lo + 1) (by push_cast at h; omega)
    simp only [count_in, h1]
    have : lo ≠ b := by push_cast at h; omega
    simp [this]

theorem count_in_eq_in (b : Int) (k : Nat) (lo : Int) (h1 : lo ≤ b) (h2 : b < lo + k) :
    count_in (fun j => decide (j = b)) k lo = 1 := by
  induction k generalizing lo with
  | zero => simp at h2; omega
  | succ k ih =>
    simp only [count_in]
    by_cases hb : lo = b
    · have := count_in_eq_out b k (lo + 1) (Or.inl (by omega))
      simp [hb] at this ⊢
      exact this
    · have := ih (lo + 1) (by omega) (by push_cast at h2; omega)
      simp [hb, this]

theorem count_in_eq_le (b : Int) (k : Nat) (lo : Int) :
    count_in (fun j => decide (j = b)) k lo ≤ 1 := by
  by_cases h : lo ≤ b ∧ b < lo + k
  · rw [count_in_eq_in b k lo h.1 h.2]
  · rw [count_in_eq_out b k lo (by omega)]
    omega

/-! ### The filler pass of `bptable_maxwpf` -/

theorem filler_loop_tbl (sil : Int) (k : Nat) (bp : Int) (tbl : Int → bptbl_t) (bs : Int)
    (bb : Option Int) (n : Int) (j : Int) :
    (filler_loop sil k bp tbl bs bb n).1 j =
      if bp ≤ j ∧ j < bp + k ∧ sil ≤ (tbl j).wid then set_valid (tbl j) false
      else tbl j := by
  induction k generalizing bp tbl bs bb n with
  | zero =>
    simp only [filler_loop]
    rw [if_neg]
    push_cast
    omega
  | succ k ih =>
    simp only [filler_loop]
    split
    · rename_i hf
      rw [ih]
      by_cases hj : j = bp
      · subst hj
        rw [if_neg (by omega), if_pos ⟨le_refl _, by push_cast; omega, hf⟩, store_same]
      · rw [store_ne _ _ _ _ hj]
        by_cases hc : bp + 1 ≤ j ∧ j < bp + 1 + k ∧ sil ≤ (tbl j).wid
        · rw [if_pos hc, if_pos ⟨by omega, by push_cast; omega, hc.2.2⟩]
        · rw [if_neg hc, if_neg]
          push_cast
          omega
    · rename_i hf
      rw [ih]
      by_cases hj : j = bp
      · subst hj
        rw [if_neg (by omega), if_neg]
        intro h
        exact hf h.2.2
      · by_cases hc : bp + 1 ≤ j ∧ j < bp + 1 + k ∧ sil ≤ (tbl j).wid
        · rw [if_pos hc, if_pos ⟨by omega, by push_cast; omega, hc.2.2⟩]
        · rw [if_neg hc, if_neg]
          push_cast
          omega

theorem filler_loop_n (sil : Int) (k : Nat) (bp : Int) (tbl : Int → bptbl_t) (bs : Int)
    (bb : Option Int) (n : Int) :
    (filler_loop sil k bp tbl bs bb n).2.2.2 =
      n + count_in (fun j => decide (sil ≤ (tbl j).wid)) k bp := by
  induction k generalizing bp tbl bs bb n with
  | zero => simp [filler_loop, count_in]
  | succ k ih =>
    simp only [filler_loop]
    split
    · rename_i hf
      rw [ih, count_in_succ_true _ k bp (by simpa using hf)]
      have : count_in (fun j => decide (sil ≤ (store tbl bp (set_valid (tbl bp) false) j).wid)) k (bp + 1)
          = count_in (fun j => decide (sil ≤ (tbl j).wid)) k (bp + 1) := by
        apply count_in_congr
        intro j h1 h2
        rw [store_ne _ _ _ _ (by omega)]
      rw [this]
      push_cast
      omega
    · rename_i hf
      rw [ih, count_in_succ_false _ k bp (by simpa using hf)]

/-- Outcome of the best-filler search: the running best score never drops, it
bounds the score of every filler visited, and the remembered entry is either
the one remembered before or a visited filler holding the best score. -/
theorem filler_loop_best (sil : Int) (k : Nat) (bp : Int) (tbl : Int → bptbl_t) (bs : Int)
    (bb : Option Int) (n : Int) :
    bs ≤ (filler_loop sil k bp tbl bs bb n).2.1 ∧
    (∀ j, bp ≤ j → j < bp + k → sil ≤ (tbl j).wid →
      (tbl j).score ≤ (filler_loop sil k bp tbl bs bb n).2.1) ∧
    (((filler_loop sil k bp tbl bs bb n).2.2.1 = bb ∧
        (filler_loop sil k bp tbl bs bb n).2.1 = bs) ∨
      ∃ b, (filler_loop sil k bp tbl bs bb n).2.2.1 = some b ∧ bp ≤ b ∧ b < bp + k ∧
        sil ≤ (tbl b).wid ∧ (tbl b).score = (filler_loop sil k bp tbl bs bb n).2.1 ∧
        bs < (tbl b).score) := by
  induction k generalizing bp tbl bs bb n with
  | zero =>
    simp only [filler_loop]
    refine ⟨le_refl _, ?_, Or.inl (by simp)⟩
    intro j h1 h2
    push_cast at h2
    omega
  | succ k ih =>
    simp only [filler_loop]
    split
    · rename_i hf
      have key : ∀ j, bp + 1 ≤ j →
          store tbl bp (set_valid (tbl bp) false) j = tbl j :=
        fun j hj => store_ne _ _ _ _ (by omega)
      by_cases hs : (tbl bp).score > bs
      · simp only [hs, if_true]
        obtain ⟨h1, h2, h3⟩ := ih (bp + 1) (store tbl bp (set_valid (tbl bp) false))
          (tbl bp).score (some bp) (n + 1)
        refine ⟨by omega, ?_, ?_⟩
        · intro j hj1 hj2 hj3
          by_cases hj : j = bp
          · subst hj; exact h1
          · have := h2 j (by omega) (by push_cast at hj2; omega) (by rw [key j (by omega)]; exact hj3)
            rw [key j (by omega)] at this
            exact this
        · right
          rcases h3 with ⟨e1, e2⟩ | ⟨b, e1, e2, e3, e4, e5, e6⟩
          · exact ⟨bp, e1, le_refl _, by push_cast; omega, hf, e2.symm, hs⟩
          · rw [key b e2] at e4 e5 e6
            exact ⟨b, e1, by omega, by push_cast; omega, e4, e5, by omega⟩
      · simp only [hs, if_false]
        obtain ⟨h1, h2, h3⟩ := ih (bp + 1) (store tbl bp (set_valid (tbl bp) false))
          bs bb (n + 1)
        refine ⟨h1, ?_, ?_⟩
        · intro j hj1 hj2 hj3
          by_cases hj : j = bp
          · subst hj; omega
          · have := h2 j (by omega) (by push_cast at hj2; omega) (by rw [key j (by omega)]; exact hj3)
            rw [key j (by omega)] at this
            exact this
        · rcases h3 with ⟨e1, e2⟩ | ⟨b, e1, e2, e3, e4, e5, e6⟩
          · exact Or.inl ⟨e1, e2⟩
          · rw [key b e2] at e4 e5 e6
            exact Or.inr ⟨b, e1, by omega, by push_cast; omega, e4, e5, e6⟩
    · rename_i hf
      obtain ⟨h1, h2, h3⟩ := ih (bp + 1) tbl bs bb n
      refine ⟨h1, ?_, ?_⟩
      · intro j hj1 hj2 hj3
        by_cases hj : j = bp
        · subst hj; exact absurd hj3 hf
        · exact h2 j (by omega) (by push_cast at hj2; omega) hj3
      · rcases h3 with ⟨e1, e2⟩ | ⟨b, e1, e2, e3, e4, e5, e6⟩
        · exact Or.inl ⟨e1, e2⟩
        · exact Or.inr ⟨b, e1, by omega, by push_cast; omega, e4, e5, e6⟩

/-! ### The pruning pass of `bptable_maxwpf` -/

theorem worst_loop_none (tbl : Int → bptbl_t) (k : Nat) (bp ws : Int) (wb : Option Int)
    (h : worst_loop tbl k bp ws wb = none) :
    wb = none ∧ ∀ j, bp ≤ j → j < bp + k → (tbl j).valid = true → ws ≤ (tbl j).score := by
  induction k generalizing bp ws wb with
  | zero =>
    simp only [worst_loop] at h
    refine ⟨h, ?_⟩
    intro j h1 h2
    push_cast at h2
    omega
  | succ k ih =>
    simp only [worst_loop] at h
    split at h
    · have := (ih _ _ _ h).1
      simp at this
    · rename_i hc
      obtain ⟨h1, h2⟩ := ih _ _ _ h
      refine ⟨h1, ?_⟩
      intro j hj1 hj2 hj3
      by_cases hj : j = bp
      · subst hj
        simp [hj3] at hc
        exact hc
      · exact h2 j (by omega) (by push_cast at hj2; omega) hj3

theorem worst_loop_some (tbl : Int → bptbl_t) (k : Nat) (bp ws : Int) (wb : Option Int)
    (w : Int) (h : worst_loop tbl k bp ws wb = some w) :
    (wb = some w ∧ ∀ j, bp ≤ j → j < bp + k → (tbl j).valid = true → ws ≤ (tbl j).score) ∨
    (bp ≤ w ∧ w < bp + k ∧ (tbl w).valid = true ∧ (tbl w).score < ws ∧
      ∀ j, bp ≤ j → j < bp + k → (tbl j).valid = true → (tbl w).score ≤ (tbl j).score) := by
  induction k generalizing bp ws wb with
  | zero =>
    simp only [worst_loop] at h
    left
    refine ⟨h, ?_⟩
    intro j h1 h2
    push_cast at h2
    omega
  | succ k ih =>
    simp only [worst_loop] at h
    split at h
    · rename_i hc
      simp only [Bool.and_eq_true, decide_eq_true_eq] at hc
      right
      rcases ih _ _ _ h with ⟨e1, e2⟩ | ⟨e1, e2, e3, e4, e5⟩
      · have hw : bp = w := by simpa using e1
        subst hw
        refine ⟨le_refl _, by push_cast; omega, hc.1, hc.2, ?_⟩
        intro j hj1 hj2 hj3
        by_cases hj : j = bp
        · subst hj; exact le_refl _
        · exact e2 j (by omega) (by push_cast at hj2; omega) hj3
      · refine ⟨by omega, by push_cast; omega, e3, by omega, ?_⟩
        intro j hj1 hj2 hj3
        by_cases hj : j = bp
        · subst hj; omega
        · exact e5 j (by omega) (by push_cast at hj2; omega) hj3
    · rename_i hc
      simp only [Bool.and_eq_true, decide_eq_true_eq, not_and, not_lt] at hc
      rcases ih _ _ _ h with ⟨e1, e2⟩ | ⟨e1, e2, e3, e4, e5⟩
      · left
        refine ⟨e1, ?_⟩
        intro j hj1 hj2 hj3
        by_cases hj : j = bp
        · subst hj; exact hc hj3
        · exact e2 j (by omega) (by push_cast at hj2; omega) hj3
      · right
        refine ⟨by omega, by push_cast; omega, e3, e4, ?_⟩
        intro j hj1 hj2 hj3
        by_cases hj : j = bp
        · subst hj
          have := hc hj3
          omega
        · exact e5 j (by omega) (by push_cast at hj2; omega) hj3

/-- The worst entry found from scratch is a valid entry of the segment whose
score is least among the valid entries of the segment. -/
theorem worst_loop_found (tbl : Int → bptbl_t) (cnt : Nat) (lo w : Int)
    (h : worst_loop tbl cnt lo INT32_MAX none = some w) :
    lo ≤ w ∧ w < lo + cnt ∧ (tbl w).valid = true ∧ (tbl w).score < INT32_MAX ∧
      ∀ j, lo ≤ j → j < lo + cnt → (tbl j).valid = true → (tbl w).score ≤ (tbl j).score := by
  rcases worst_loop_some tbl cnt lo INT32_MAX none w h with ⟨e1, _⟩ | h2
  · simp at e1
  · exact h2

theorem set_valid_valid (e : bptbl_t) (v : Bool) : (set_valid e v).valid = v := rfl

theorem set_valid_score (e : bptbl_t) (v : Bool) : (set_valid e v).score = e.score := rfl

theorem set_valid_wid (e : bptbl_t) (v : Bool) : (set_valid e v).wid = e.wid := rfl

theorem set_valid_self (e : bptbl_t) : set_valid e e.valid = e := rfl

/-- Clearing the flag of one valid entry of the segment lowers the count by one. -/
theorem count_valid_clear (tbl : Int → bptbl_t) (cnt : Nat) (lo w : Int)
    (h1 : lo ≤ w) (h2 : w < lo + cnt) (hv : (tbl w).valid = true) :
    count_valid (store tbl w (set_valid (tbl w) false)) cnt lo + 1 = count_valid tbl cnt lo := by
  unfold count_valid
  have e1 : count_in (fun j => (tbl j).valid) cnt lo
      = count_in (fun j => (store tbl w (set_valid (tbl w) false) j).valid || decide (j = w))
          cnt lo := by
    apply count_in_congr
    intro j _ _
    by_cases hj : j = w
    · subst hj; simp [hv]
    · simp [store_ne _ _ _ _ hj, hj]
  rw [e1, count_in_or_disj, count_in_eq_in w cnt lo h1 h2]
  intro j _ _ hj
  by_cases hjw : j = w
  · subst hjw
    rw [store_same, set_valid_valid] at hj
    exact absurd hj (by simp)
  · simp [hjw]

/-- What the pruning loop does to the table: an entry is either untouched, or
it was a valid entry of the segment, has lost its flag, and scores no more
than any entry of the segment that is still valid. -/
theorem prune_loop_spec (lo : Int) (cnt k : Nat) (tbl tbl3 : Int → bptbl_t)
    (h : prune_loop lo cnt k tbl = Except.ok tbl3) :
    (∀ j, tbl3 j = tbl j ∨
      (tbl3 j = set_valid (tbl j) false ∧ (tbl j).valid = true ∧ lo ≤ j ∧ j < lo + cnt ∧
        ∀ i, lo ≤ i → i < lo + cnt → (tbl3 i).valid = true → (tbl j).score ≤ (tbl3 i).score)) ∧
    count_valid tbl3 cnt lo + k = count_valid tbl cnt lo := by
  induction k generalizing tbl with
  | zero =>
    simp only [prune_loop, pure, Except.pure, Except.ok.injEq] at h
    subst h
    exact ⟨fun j => Or.inl rfl, rfl⟩
  | succ k ih =>
    simp only [prune_loop] at h
    split at h
    · simp [throw, throwThe, MonadExceptOf.throw] at h
    · rename_i w hw
      obtain ⟨w1, w2, w3, _, w5⟩ := worst_loop_found tbl cnt lo w hw
      obtain ⟨a, b⟩ := ih _ h
      have hc := count_valid_clear tbl cnt lo w w1 w2 w3
      refine ⟨?_, by omega⟩
      have same : ∀ i, (tbl3 i).valid = true → tbl3 i = tbl i ∧ i ≠ w := by
        intro i hi
        rcases a i with e | ⟨e, _⟩
        · by_cases hiw : i = w
          · subst hiw
            rw [e, store_same, set_valid_valid] at hi
            exact absurd hi (by simp)
          · rw [store_ne _ _ _ _ hiw] at e
            exact ⟨e, hiw⟩
        · rw [e, set_valid_valid] at hi
          exact absurd hi (by simp)
      intro j
      by_cases hj : j = w
      · subst hj
        right
        rcases a j with e | ⟨_, e, _⟩
        · rw [store_same] at e
          refine ⟨e, w3, w1, w2, ?_⟩
          intro i hi1 hi2 hi3
          obtain ⟨s1, _⟩ := same i hi3
          rw [s1]
          rw [s1] at hi3
          exact w5 i hi1 hi2 hi3
        · rw [store_same, set_valid_valid] at e
          exact absurd e (by simp)
      · rcases a j with e | ⟨e1, e2, e3, e4, e5⟩
        · left
          rw [e, store_ne _ _ _ _ hj]
        · right
          rw [store_ne _ _ _ _ hj] at e1 e2 e5
          exact ⟨e1, e2, e3, e4, e5⟩

theorem count_in_false (k : Nat) (lo : Int) : count_in (fun _ => false) k lo = 0 := by
  induction k generalizing lo with
  | zero => rfl
  | succ k ih => rw [count_in_succ_false _ k lo rfl]; exact ih (lo + 1)

/-- The pruning loop runs to completion when every iteration finds a valid
entry scoring below `INT32_MAX`. -/
theorem prune_loop_ok (lo : Int) (cnt k : Nat) (tbl : Int → bptbl_t)
    (hk : k ≤ count_valid tbl cnt lo)
    (hs : ∀ j, lo ≤ j → j < lo + cnt → (tbl j).score < INT32_MAX) :
    ∃ tbl3, prune_loop lo cnt k tbl = Except.ok tbl3 := by
  induction k generalizing tbl with
  | zero => exact ⟨tbl, rfl⟩
  | succ k ih =>
    simp only [prune_loop]
    cases hw : worst_loop tbl cnt lo INT32_MAX none with
    | none =>
      exfalso
      obtain ⟨_, h2⟩ := worst_loop_none tbl cnt lo INT32_MAX none hw
      have : count_valid tbl cnt lo ≤ count_in (fun _ => false) cnt lo := by
        apply count_in_mono
        intro j hj1 hj2 hj3
        have := h2 j hj1 hj2 hj3
        have := hs j hj1 hj2
        omega
      have h0 := count_in_false cnt lo
      omega
    | some w =>
      obtain ⟨w1, w2, w3, _, _⟩ := worst_loop_found tbl cnt lo w hw
      have hc := count_valid_clear tbl cnt lo w w1 w2 w3
      apply ih
      · omega
      · intro j hj1 hj2
        by_cases hj : j = w
        · subst hj; rw [store_same, set_valid_score]; exact hs j hj1 hj2
        · rw [store_ne _ _ _ _ hj]; exact hs j hj1 hj2

/-! ### `bptable_maxwpf` as a whole -/

/-- The table handed to the pruning loop: in the segment every filler entry
has lost its flag except the best one `best`, everything else is untouched;
`n` is the segment length less the fillers dropped. -/
theorem bptable_maxwpf_eq (ngs : ngram_search_t) (f : Int)
    (he : ¬ (ngs.maxwpf = -1 ∨ ngs.maxwpf = ngs.dict.dict_entry_count)) :
    ∃ (best : Option Int) (tbl2 : Int → bptbl_t) (n : Int),
      (∀ b, best = some b → ngs.bp_table_idx f ≤ b ∧ b < ngs.bpidx ∧
        ngs.silence_wid ≤ (ngs.bp_table b).wid ∧ INT32_MIN < (ngs.bp_table b).score ∧
        ∀ j, ngs.bp_table_idx f ≤ j → j < ngs.bpidx → ngs.silence_wid ≤ (ngs.bp_table j).wid →
          (ngs.bp_table j).score ≤ (ngs.bp_table b).score) ∧
      (best = none → ∀ j, ngs.bp_table_idx f ≤ j → j < ngs.bpidx →
        ngs.silence_wid ≤ (ngs.bp_table j).wid → (ngs.bp_table j).score ≤ INT32_MIN) ∧
      (∀ j, tbl2 j = if ngs.bp_table_idx f ≤ j ∧ j < ngs.bpidx ∧
          ngs.silence_wid ≤ (ngs.bp_table j).wid
        then set_valid (ngs.bp_table j) (decide (best = some j)) else ngs.bp_table j) ∧
      n = (ngs.bpidx - ngs.bp_table_idx f)
          - count_in (fun j => decide (ngs.silence_wid ≤ (ngs.bp_table j).wid))
              (ngs.bpidx - ngs.bp_table_idx f).toNat (ngs.bp_table_idx f)
          + (if best.isSome then 1 else 0) ∧
      bptable_maxwpf ngs f =
        match prune_loop (ngs.bp_table_idx f) (ngs.bpidx - ngs.bp_table_idx f).toNat
            (n - ngs.maxwpf).toNat tbl2 with
        | Except.error e => Except.error e
        | Except.ok tbl3 => Except.ok { ngs with bp_table := tbl3 } := by
  have hcnt : ∀ j : Int, j < ngs.bp_table_idx f + ((ngs.bpidx - ngs.bp_table_idx f).toNat : Int)
      ↔ (j < ngs.bpidx ∨ j < ngs.bp_table_idx f) := by
    intro j; omega
  obtain ⟨b1, b2, b3⟩ := filler_loop_best ngs.silence_wid (ngs.bpidx - ngs.bp_table_idx f).toNat
    (ngs.bp_table_idx f) ngs.bp_table INT32_MIN none 0
  have hn := filler_loop_n ngs.silence_wid (ngs.bpidx - ngs.bp_table_idx f).toNat
    (ngs.bp_table_idx f) ngs.bp_table INT32_MIN none 0
  have ht := filler_loop_tbl ngs.silence_wid (ngs.bpidx - ngs.bp_table_idx f).toNat
    (ngs.bp_table_idx f) ngs.bp_table INT32_MIN none 0
  simp only [bptable_maxwpf, if_neg he]
  generalize filler_loop ngs.silence_wid (ngs.bpidx - ngs.bp_table_idx f).toNat
    (ngs.bp_table_idx f) ngs.bp_table INT32_MIN none 0 = r at b1 b2 b3 hn ht
  obtain ⟨tbl1, bs, bb, n1⟩ := r
  simp only at b1 b2 b3 hn ht
  cases bb with
  | none =>
    refine ⟨none, tbl1, _, ?_, ?_, ?_, ?_, rfl⟩
    · intro b hb; simp at hb
    · intro _ j hj1 hj2 hj3
      rcases b3 with ⟨_, e⟩ | ⟨b, e, _⟩
      · rw [← e]; exact b2 j hj1 (by rw [hcnt]; exact Or.inl hj2) hj3
      · simp at e
    · intro j
      rw [ht j]
      by_cases hc : ngs.bp_table_idx f ≤ j ∧ j < ngs.bpidx ∧
          ngs.silence_wid ≤ (ngs.bp_table j).wid
      · rw [if_pos hc, if_pos ⟨hc.1, by rw [hcnt]; exact Or.inl hc.2.1, hc.2.2⟩]
        simp
      · rw [if_neg hc, if_neg]
        rw [hcnt]
        intro h
        apply hc
        refine ⟨h.1, ?_, h.2.2⟩
        have := h.2.1
        omega
    · rw [hn]; simp
  | some b =>
    have hb : ngs.bp_table_idx f ≤ b ∧ b < ngs.bpidx ∧
        ngs.silence_wid ≤ (ngs.bp_table b).wid ∧ (ngs.bp_table b).score = bs ∧
        INT32_MIN < (ngs.bp_table b).score := by
      rcases b3 with ⟨e, _⟩ | ⟨b', e, e1, e2, e3, e4, e5⟩
      · simp at e
      · have : b' = b := by simpa using e.symm
        subst this
        rw [hcnt] at e2
        exact ⟨e1, by omega, e3, e4, e5⟩
    refine ⟨some b, store tbl1 b (set_valid (tbl1 b) true), _, ?_, ?_, ?_, ?_, rfl⟩
    · intro b' hb'
      have : b = b' := by simpa using hb'
      subst this
      refine ⟨hb.1, hb.2.1, hb.2.2.1, hb.2.2.2.2, ?_⟩
      intro j hj1 hj2 hj3
      rw [hb.2.2.2.1]
      exact b2 j hj1 (by rw [hcnt]; exact Or.inl hj2) hj3
    · intro h; simp at h
    · intro j
      by_cases hj : j = b
      · subst hj
        rw [store_same, ht j, if_pos ⟨hb.1, by rw [hcnt]; exact Or.inl hb.2.1, hb.2.2.1⟩,
          if_pos ⟨hb.1, hb.2.1, hb.2.2.1⟩]
        simp [set_valid]
      · rw [store_ne _ _ _ _ hj, ht j]
        have hne : ¬ (some b = some j) := by
          intro h; apply hj; simpa using h.symm
        by_cases hc : ngs.bp_table_idx f ≤ j ∧ j < ngs.bpidx ∧
            ngs.silence_wid ≤ (ngs.bp_table j).wid
        · rw [if_pos hc, if_pos ⟨hc.1, by rw [hcnt]; exact Or.inl hc.2.1, hc.2.2⟩]
          simp [hne]
        · rw [if_neg hc, if_neg]
          rw [hcnt]
          intro h
          apply hc
          refine ⟨h.1, ?_, h.2.2⟩
          have := h.2.1
          omega
    · rw [hn]; simp; omega

/-- With every entry of the segment valid on entry, the table handed to the
pruning loop has exactly `n` valid entries in the segment. -/
theorem count_after_fillers (sil lo hi : Int) (tbl tbl2 : Int → bptbl_t) (best : Option Int)
    (hlo : lo ≤ hi)
    (hv : ∀ i, lo ≤ i → i < hi → (tbl i).valid = true)
    (hb : ∀ b, best = some b → lo ≤ b ∧ b < hi ∧ sil ≤ (tbl b).wid)
    (h2 : ∀ j, tbl2 j = if lo ≤ j ∧ j < hi ∧ sil ≤ (tbl j).wid
        then set_valid (tbl j) (decide (best = some j)) else tbl j) :
    (count_valid tbl2 (hi - lo).toNat lo : Int)
      = (hi - lo) - count_in (fun j => decide (sil ≤ (tbl j).wid)) (hi - lo).toNat lo
        + (if best.isSome then 1 else 0) := by
  have hcnt : ∀ j : Int, j < lo + ((hi - lo).toNat : Int) ↔ j < hi := by
    intro j; omega
  have e1 : count_valid tbl2 (hi - lo).toNat lo
      = count_in (fun j => (!decide (sil ≤ (tbl j).wid)) || decide (best = some j))
          (hi - lo).toNat lo := by
    unfold count_valid
    apply count_in_congr
    intro j hj1 hj2
    rw [hcnt] at hj2
    rw [h2 j]
    by_cases hf : sil ≤ (tbl j).wid
    · rw [if_pos ⟨hj1, hj2, hf⟩, set_valid_valid]
      simp [hf]
    · rw [if_neg (fun h => hf h.2.2), hv j hj1 hj2]
      simp [hf]
  have e2 : count_in (fun j => (!decide (sil ≤ (tbl j).wid)) || decide (best = some j))
        (hi - lo).toNat lo
      = count_in (fun j => !decide (sil ≤ (tbl j).wid)) (hi - lo).toNat lo
        + count_in (fun j => decide (best = some j)) (hi - lo).toNat lo := by
    apply count_in_or_disj (fun j => !decide (sil ≤ (tbl j).wid))
      (fun j => decide (best = some j))
    intro j _ _ hj
    simp only [Bool.not_eq_true', decide_eq_false_iff_not, not_le] at hj
    simp only [decide_eq_false_iff_not]
    intro hbj
    have := (hb j hbj).2.2
    omega
  have e3 := count_in_not (fun j => decide (sil ≤ (tbl j).wid)) (hi - lo).toNat lo
  have e4 : count_in (fun j => decide (best = some j)) (hi - lo).toNat lo
      = if best.isSome then 1 else 0 := by
    cases best with
    | none =>
      simp only [Option.isSome_none, Bool.false_eq_true, if_false]
      have : (fun j : Int => decide ((none : Option Int) = some j)) = fun _ => false := by
        funext j; simp
      rw [this, count_in_false]
    | some b =>
      simp only [Option.isSome_some, if_true]
      have : (fun j : Int => decide (some b = some j)) = fun j => decide (j = b) := by
        funext j
        by_cases h : j = b
        · subst h; simp
        · have : ¬ (b = j) := fun e => h e.symm
          simp [h, this]
      rw [this]
      obtain ⟨b1, b2, _⟩ := hb b rfl
      exact count_in_eq_in b _ lo b1 (by rw [hcnt]; exact b2)
  rw [e1, e2, e4]
  have e5 : (((hi - lo).toNat : Nat) : Int) = hi - lo := by omega
  split <;> push_cast <;> omega

/-- C1. Word-exit cap bound: with the cap enabled (`maxwpf` at least 0 and
different from the dictionary size) and every entry of the segment of frame
`f` valid on entry, a run of `bptable_maxwpf` that returns leaves at most
`maxwpf` valid entries in the segment; and the run does return whenever every
score in the segment is below `INT32_MAX`. -/
theorem bptable_maxwpf_cap (ngs : ngram_search_t) (f : Int)
    (h0 : 0 ≤ ngs.maxwpf) (hd : ngs.maxwpf ≠ ngs.dict.dict_entry_count)
    (hv : ∀ i, in_frame ngs f i → (ngs.bp_table i).valid = true) :
    (∀ s', bptable_maxwpf ngs f = Except.ok s' →
      (frame_valid_count s' f : Int) ≤ ngs.maxwpf) ∧
    ((∀ i, in_frame ngs f i → (ngs.bp_table i).score < INT32_MAX) →
      ∃ s', bptable_maxwpf ngs f = Except.ok s') := by
  have he : ¬ (ngs.maxwpf = -1 ∨ ngs.maxwpf = ngs.dict.dict_entry_count) := by
    intro h
    rcases h with h | h
    · omega
    · exact hd h
  obtain ⟨best, tbl2, n, hb, _, h2, hn, hrun⟩ := bptable_maxwpf_eq ngs f he
  -- the number of valid entries handed to the pruning loop
  have hc : (ngs.bp_table_idx f ≤ ngs.bpidx ∧
        (count_valid tbl2 (ngs.bpidx - ngs.bp_table_idx f).toNat (ngs.bp_table_idx f) : Int) = n)
      ∨ ((ngs.bpidx - ngs.bp_table_idx f).toNat = 0 ∧ n < 0) := by
    by_cases hlo : ngs.bp_table_idx f ≤ ngs.bpidx
    · left
      refine ⟨hlo, ?_⟩
      rw [hn]
      exact count_after_fillers ngs.silence_wid (ngs.bp_table_idx f) ngs.bpidx ngs.bp_table tbl2
        best hlo (fun i a b => hv i ⟨a, b⟩)
        (fun b e => ⟨(hb b e).1, (hb b e).2.1, (hb b e).2.2.1⟩) h2
    · right
      have hz : (ngs.bpidx - ngs.bp_table_idx f).toNat = 0 := by omega
      refine ⟨hz, ?_⟩
      have hbn : best = none := by
        cases hbb : best with
        | none => rfl
        | some b =>
          have := hb b hbb
          omega
      rw [hn, hz, hbn]
      simp [count_in]
      omega
  constructor
  · intro s' hs
    rw [hrun] at hs
    split at hs
    · simp at hs
    · rename_i tbl3 hp
      simp only [Except.ok.injEq] at hs
      subst hs
      obtain ⟨_, hcount⟩ := prune_loop_spec _ _ _ _ _ hp
      simp only [frame_valid_count]
      rcases hc with ⟨_, hc⟩ | ⟨hz, hneg⟩
      · omega
      · rw [hz]
        simp [count_valid, count_in]
        exact h0
  · intro hs
    have hk : (n - ngs.maxwpf).toNat
        ≤ count_valid tbl2 (ngs.bpidx - ngs.bp_table_idx f).toNat (ngs.bp_table_idx f) := by
      rcases hc with ⟨_, hc⟩ | ⟨hz, hneg⟩
      · omega
      · omega
    have hsc : ∀ j, ngs.bp_table_idx f ≤ j →
        j < ngs.bp_table_idx f + ((ngs.bpidx - ngs.bp_table_idx f).toNat : Int) →
        (tbl2 j).score < INT32_MAX := by
      intro j hj1 hj2
      rw [h2 j]
      split
      · rw [set_valid_score]; exact hs j ⟨hj1, by omega⟩
      · exact hs j ⟨hj1, by omega⟩
    obtain ⟨tbl3, hp⟩ := prune_loop_ok _ _ _ tbl2 hk hsc
    rw [hrun, hp]
    exact ⟨_, rfl⟩

/-- The cap of two exits on the four-exit test frame: two entries survive. -/
theorem bptable_maxwpf_cap_witness :
    (0 ≤ ex_ngs.maxwpf ∧ ex_ngs.maxwpf ≠ ex_ngs.dict.dict_entry_count ∧
      ∀ i, in_frame ex_ngs 0 i → (ex_ngs.bp_table i).valid = true) ∧
    ((∀ s', bptable_maxwpf ex_ngs 0 = Except.ok s' →
        (frame_valid_count s' 0 : Int) ≤ ex_ngs.maxwpf) ∧
      ((∀ i, in_frame ex_ngs 0 i → (ex_ngs.bp_table i).score < INT32_MAX) →
        ∃ s', bptable_maxwpf ex_ngs 0 = Except.ok s')) :=
  have hv : ∀ i, in_frame ex_ngs 0 i → (ex_ngs.bp_table i).valid = true := by
    intro i hi
    obtain ⟨h1, h2⟩ := hi
    simp only [ex_ngs] at h1 h2
    have : i = 0 ∨ i = 1 ∨ i = 2 ∨ i = 3 := by omega
    rcases this with h | h | h | h <;> subst h <;> rfl
  ⟨⟨by decide, by decide, hv⟩, bptable_maxwpf_cap ex_ngs 0 (by decide) (by decide) hv⟩

theorem count_in_all (p : Int → Bool) (k : Nat) (lo : Int)
    (h : ∀ j, lo ≤ j → j < lo + k → p j = true) : count_in p k lo = k := by
  have h1 := count_in_not p k lo
  have h2 : count_in (fun j => !p j) k lo ≤ count_in (fun _ => false) k lo := by
    apply count_in_mono
    intro j a b c
    rw [h j a b] at c
    exact c
  rw [count_in_false] at h2
  omega

/-- The cap only ever changes `valid` flags, and only inside the segment. -/
theorem bptable_maxwpf_frame (ngs s' : ngram_search_t) (f : Int)
    (h : bptable_maxwpf ngs f = Except.ok s') :
    s' = { ngs with bp_table := s'.bp_table } ∧
    (∀ j, s'.bp_table j = set_valid (ngs.bp_table j) (s'.bp_table j).valid) ∧
    (∀ j, ¬ in_frame ngs f j → s'.bp_table j = ngs.bp_table j) := by
  by_cases he : ngs.maxwpf = -1 ∨ ngs.maxwpf = ngs.dict.dict_entry_count
  · simp only [bptable_maxwpf, if_pos he, pure, Except.pure, Except.ok.injEq] at h
    subst h
    exact ⟨rfl, fun j => rfl, fun j _ => rfl⟩
  · obtain ⟨best, tbl2, n, _, _, h2, _, hrun⟩ := bptable_maxwpf_eq ngs f he
    rw [hrun] at h
    split at h
    · simp at h
    · rename_i tbl3 hp
      simp only [Except.ok.injEq] at h
      subst h
      obtain ⟨hsp, _⟩ := prune_loop_spec _ _ _ _ _ hp
      refine ⟨rfl, ?_, ?_⟩
      · intro j
        show tbl3 j = set_valid (ngs.bp_table j) (tbl3 j).valid
        have h2j := h2 j
        rcases hsp j with e | ⟨e, _⟩
        · rw [e, h2j]
          split <;> rfl
        · rw [e, h2j]
          split <;> rfl
      · intro j hj
        show tbl3 j = ngs.bp_table j
        have h2j := h2 j
        rw [if_neg (fun c => hj ⟨c.1, c.2.1⟩)] at h2j
        rcases hsp j with e | ⟨_, _, e1, e2, _⟩
        · rw [e, h2j]
        · exact absurd ⟨e1, by omega⟩ hj

/-- C4. Cap disabled: with `maxwpf == -1` or `maxwpf` equal to the dictionary
entry count, `bptable_maxwpf` returns the search state unchanged, so every
backpointer entry that was valid is still valid. -/
theorem bptable_maxwpf_disabled (ngs : ngram_search_t) (f : Int)
    (h : ngs.maxwpf = -1 ∨ ngs.maxwpf = ngs.dict.dict_entry_count) :
    bptable_maxwpf ngs f = Except.ok ngs ∧
    ∀ s', bptable_maxwpf ngs f = Except.ok s' →
      ∀ i, (ngs.bp_table i).valid = true → (s'.bp_table i).valid = true := by
  have h1 : bptable_maxwpf ngs f = Except.ok ngs := by
    simp only [bptable_maxwpf, if_pos h]
    rfl
  refine ⟨h1, ?_⟩
  intro s' hs i hi
  rw [h1] at hs
  simp only [Except.ok.injEq] at hs
  subst hs
  exact hi

/-- The test frame with the cap off is returned as it is. -/
theorem bptable_maxwpf_disabled_witness :
    (ex_ngs_off.maxwpf = -1 ∨ ex_ngs_off.maxwpf = ex_ngs_off.dict.dict_entry_count) ∧
    bptable_maxwpf ex_ngs_off 0 = Except.ok ex_ngs_off :=
  ⟨Or.inl rfl, (bptable_maxwpf_disabled ex_ngs_off 0 (Or.inl rfl)).1⟩

/-- C3. The cap drops the worst exits: after `bptable_maxwpf`, every
non-filler entry of the frame that was valid and has been invalidated scores
no more than any entry of the frame that is still valid. -/
theorem bptable_maxwpf_drops_worst (ngs s' : ngram_search_t) (f : Int)
    (h : bptable_maxwpf ngs f = Except.ok s') (i j : Int)
    (_hi : in_frame ngs f i) (hj : in_frame ngs f j)
    (hnf : (ngs.bp_table i).wid < ngs.silence_wid)
    (hvi : (ngs.bp_table i).valid = true) (hii : (s'.bp_table i).valid = false)
    (hvj : (s'.bp_table j).valid = true) :
    (s'.bp_table i).score ≤ (s'.bp_table j).score := by
  by_cases he : ngs.maxwpf = -1 ∨ ngs.maxwpf = ngs.dict.dict_entry_count
  · have := (bptable_maxwpf_disabled ngs f he).1
    rw [this] at h
    simp only [Except.ok.injEq] at h
    subst h
    rw [hvi] at hii
    exact absurd hii (by simp)
  · obtain ⟨best, tbl2, n, _, _, h2, _, hrun⟩ := bptable_maxwpf_eq ngs f he
    rw [hrun] at h
    split at h
    · simp at h
    · rename_i tbl3 hp
      simp only [Except.ok.injEq] at h
      subst h
      obtain ⟨hsp, _⟩ := prune_loop_spec _ _ _ _ _ hp
      have h2i : tbl2 i = ngs.bp_table i := by
        rw [h2 i, if_neg]
        intro c
        omega
      change (tbl3 i).valid = false at hii
      change (tbl3 j).valid = true at hvj
      show (tbl3 i).score ≤ (tbl3 j).score
      rcases hsp i with e | ⟨e, _, _, _, e5⟩
      · rw [e, h2i, hvi] at hii
        exact absurd hii (by simp)
      · have := e5 j hj.1 (by have := hj.2; omega) hvj
        rw [e, set_valid_score]
        exact this

/-- The run of the cap on the four-exit test frame returns, drops the
non-filler at index 2 and keeps the one at index 0. -/
theorem ex_ngs_run :
    ∃ s', bptable_maxwpf ex_ngs 0 = Except.ok s' ∧ (s'.bp_table 2).valid = false ∧
      (s'.bp_table 0).valid = true :=
  ⟨_, rfl, by decide, by decide⟩

/-- On the test frame the dropped exit (score -20) is below the kept one. -/
theorem bptable_maxwpf_drops_worst_witness :
    ∃ s', bptable_maxwpf ex_ngs 0 = Except.ok s' ∧
      (s'.bp_table 2).score ≤ (s'.bp_table 0).score :=
  match ex_ngs_run with
  | ⟨s', h, a, b⟩ =>
    ⟨s', h, bptable_maxwpf_drops_worst ex_ngs s' 0 h 2 0 (by decide) (by decide) (by decide)
      (by decide) a b⟩

/-- C2 (amended). Single best filler: after `bptable_maxwpf` with the cap
enabled, at most one filler entry of the frame is valid, and a valid filler
scores at least as much as every filler entry of the frame.  In a non-empty
frame whose exits are all fillers, when `maxwpf` is at least 1 and some
filler scores above `INT32_MIN`, the run returns and exactly one entry, a
highest-scoring one, is valid while all others are not. -/
theorem bptable_maxwpf_fillers (ngs : ngram_search_t) (f : Int)
    (he : ¬ (ngs.maxwpf = -1 ∨ ngs.maxwpf = ngs.dict.dict_entry_count)) :
    (∀ s', bptable_maxwpf ngs f = Except.ok s' →
      (∀ i j, in_frame ngs f i → in_frame ngs f j →
        ngs.silence_wid ≤ (s'.bp_table i).wid → ngs.silence_wid ≤ (s'.bp_table j).wid →
        (s'.bp_table i).valid = true → (s'.bp_table j).valid = true → i = j) ∧
      (∀ i, in_frame ngs f i → ngs.silence_wid ≤ (s'.bp_table i).wid →
        (s'.bp_table i).valid = true →
        ∀ j, in_frame ngs f j → ngs.silence_wid ≤ (s'.bp_table j).wid →
          (s'.bp_table j).score ≤ (s'.bp_table i).score)) ∧
    ((∀ i, in_frame ngs f i → ngs.silence_wid ≤ (ngs.bp_table i).wid) →
      (∃ i, in_frame ngs f i ∧ INT32_MIN < (ngs.bp_table i).score) →
      1 ≤ ngs.maxwpf →
      ∃ s' b, bptable_maxwpf ngs f = Except.ok s' ∧ in_frame ngs f b ∧
        (s'.bp_table b).valid = true ∧
        (∀ j, in_frame ngs f j → (s'.bp_table j).score ≤ (s'.bp_table b).score) ∧
        ∀ j, in_frame ngs f j → j ≠ b → (s'.bp_table j).valid = false) := by
  obtain ⟨best, tbl2, n, hb, hbn, h2, hn, hrun⟩ := bptable_maxwpf_eq ngs f he
  constructor
  · intro s' hs
    have hfr := (bptable_maxwpf_frame ngs s' f hs).2.1
    rw [hrun] at hs
    split at hs
    · simp at hs
    · rename_i tbl3 hp
      simp only [Except.ok.injEq] at hs
      subst hs
      dsimp only at hfr ⊢
      obtain ⟨hsp, _⟩ := prune_loop_spec _ _ _ _ _ hp
      -- a filler of the frame that is valid at the end is the best filler
      have key : ∀ i, in_frame ngs f i → ngs.silence_wid ≤ (tbl3 i).wid →
          (tbl3 i).valid = true → best = some i := by
        intro i hi hw hv
        have hw' : ngs.silence_wid ≤ (ngs.bp_table i).wid := by
          have := hfr i
          rw [this, set_valid_wid] at hw
          exact hw
        have h2i := h2 i
        rw [if_pos ⟨hi.1, hi.2, hw'⟩] at h2i
        rcases hsp i with e | ⟨e, _⟩
        · rw [e, h2i, set_valid_valid] at hv
          simpa using hv
        · rw [e, set_valid_valid] at hv
          exact absurd hv (by simp)
      constructor
      · intro i j hi hj hwi hwj hvi hvj
        have a := key i hi hwi hvi
        have b := key j hj hwj hvj
        rw [a] at b
        simpa using b
      · intro i hi hwi hvi j hj hwj
        have a := key i hi hwi hvi
        obtain ⟨_, _, _, _, hmax⟩ := hb i a
        have ei := hfr i
        have ej := hfr j
        rw [ej, set_valid_wid] at hwj
        rw [ei, ej, set_valid_score, set_valid_score]
        exact hmax j hj.1 hj.2 hwj
  · intro hall hex h1
    obtain ⟨i0, hi0, hs0⟩ := hex
    have hlo : ngs.bp_table_idx f ≤ ngs.bpidx := by
      have := hi0.1
      have := hi0.2
      omega
    cases hbest : best with
    | none =>
      exfalso
      have := hbn hbest i0 hi0.1 hi0.2 (hall i0 hi0)
      omega
    | some b =>
      obtain ⟨b1, b2, b3, b4, b5⟩ := hb b hbest
      have hcf : count_in (fun j => decide (ngs.silence_wid ≤ (ngs.bp_table j).wid))
          (ngs.bpidx - ngs.bp_table_idx f).toNat (ngs.bp_table_idx f)
          = (ngs.bpidx - ngs.bp_table_idx f).toNat := by
        apply count_in_all
        intro j hj1 hj2
        simp only [decide_eq_true_eq]
        exact hall j ⟨hj1, by omega⟩
      have hn1 : n = 1 := by
        rw [hn, hcf, hbest]
        simp
        omega
      have hk : (n - ngs.maxwpf).toNat = 0 := by omega
      rw [hk] at hrun
      refine ⟨{ ngs with bp_table := tbl2 }, b, hrun, ⟨b1, b2⟩, ?_, ?_, ?_⟩
      · show (tbl2 b).valid = true
        rw [h2 b, if_pos ⟨b1, b2, b3⟩, set_valid_valid, hbest]
        simp
      · intro j hj
        show (tbl2 j).score ≤ (tbl2 b).score
        rw [h2 j, h2 b, if_pos ⟨hj.1, hj.2, hall j hj⟩, if_pos ⟨b1, b2, b3⟩,
          set_valid_score, set_valid_score]
        exact b5 j hj.1 hj.2 (hall j hj)
      · intro j hj hne
        show (tbl2 j).valid = false
        rw [h2 j, if_pos ⟨hj.1, hj.2, hall j hj⟩, set_valid_valid, hbest]
        have : ¬ (some b = some j) := by
          intro c
          apply hne
          simpa using c.symm
        simp [this]

/-- On the frame of two fillers with a cap of two, the run keeps exactly the
filler at index 1 (score -7). -/
theorem bptable_maxwpf_fillers_witness :
    ¬ (ex_fill_ngs.maxwpf = -1 ∨ ex_fill_ngs.maxwpf = ex_fill_ngs.dict.dict_entry_count) ∧
    ∃ s' b, bptable_maxwpf ex_fill_ngs 0 = Except.ok s' ∧ in_frame ex_fill_ngs 0 b ∧
      (s'.bp_table b).valid = true ∧
      (∀ j, in_frame ex_fill_ngs 0 j → (s'.bp_table j).score ≤ (s'.bp_table b).score) ∧
      ∀ j, in_frame ex_fill_ngs 0 j → j ≠ b → (s'.bp_table j).valid = false :=
  have hall : ∀ i, in_frame ex_fill_ngs 0 i →
      ex_fill_ngs.silence_wid ≤ (ex_fill_ngs.bp_table i).wid := by
    intro i hi
    obtain ⟨h1, h2⟩ := hi
    simp only [ex_fill_ngs] at h1 h2
    have : i = 0 ∨ i = 1 := by omega
    rcases this with h | h <;> subst h <;> decide
  ⟨by decide,
    (bptable_maxwpf_fillers ex_fill_ngs 0 (by decide)).2 hall
      ⟨1, by decide, by decide⟩ (by decide)⟩

/-- C2 fails as stated: with a cap of zero exits (enabled), the frame holding
one silence exit is non-empty and all fillers, yet no entry is valid after
`bptable_maxwpf`. -/
theorem bptable_maxwpf_fillers_counterexample :
    ¬ (ex_sil_ngs.maxwpf = -1 ∨ ex_sil_ngs.maxwpf = ex_sil_ngs.dict.dict_entry_count) ∧
    (∃ i, in_frame ex_sil_ngs 0 i) ∧
    (∀ i, in_frame ex_sil_ngs 0 i → ex_sil_ngs.silence_wid ≤ (ex_sil_ngs.bp_table i).wid) ∧
    ∃ s', bptable_maxwpf ex_sil_ngs 0 = Except.ok s' ∧
      ¬ ∃ i, in_frame ex_sil_ngs 0 i ∧ (s'.bp_table i).valid = true := by
  refine ⟨by decide, ⟨0, by decide⟩, ?_, _, rfl, ?_⟩
  · intro i hi
    obtain ⟨h1, h2⟩ := hi
    simp only [ex_sil_ngs] at h1 h2
    have : i = 0 := by omega
    subst this
    decide
  · rintro ⟨i, hi, hv⟩
    obtain ⟨h1, h2⟩ := hi
    simp only [ex_sil_ngs] at h1 h2
    have : i = 0 := by omega
    subst this
    revert hv
    decide

/-! ### `cache_bptable_paths` -/

theorem bp_chain_succ_left (tbl : Int → bptbl_t) (e : Int) (k : Nat) :
    bp_chain tbl e (k + 1) = bp_chain tbl (tbl e).bp k := by
  induction k with
  | zero => rfl
  | succ k ih =>
    show (tbl (bp_chain tbl e (k + 1))).bp = (tbl (bp_chain tbl (tbl e).bp k)).bp
    rw [ih]

/-- A filler-skipping walk that returns has stopped at the first non-filler
of the chain, after fewer steps than it had fuel. -/
theorem skip_fillers_ok (sil : Int) (tbl : Int → bptbl_t) (fuel : Nat) (e p w : Int)
    (h : skip_fillers sil tbl fuel e (tbl e).wid = Except.ok (p, w)) :
    ∃ k, k < fuel ∧ first_real_on_chain sil tbl e k ∧ p = bp_chain tbl e k ∧
      w = (tbl p).wid := by
  induction fuel generalizing e with
  | zero => simp [skip_fillers] at h
  | succ fuel ih =>
    simp only [skip_fillers] at h
    split at h
    · rename_i hf
      split at h
      · simp at h
      · rename_i hneg
        obtain ⟨k, hk, ⟨hc1, hc2⟩, hp, hw⟩ := ih _ h
        refine ⟨k + 1, by omega, ⟨?_, ?_⟩, ?_, hw⟩
        · intro j hj
          cases j with
          | zero =>
            refine ⟨hf, ?_⟩
            show 0 ≤ (tbl e).bp
            omega
          | succ j =>
            rw [bp_chain_succ_left, bp_chain_succ_left]
            exact hc1 j (by omega)
        · rw [bp_chain_succ_left]
          exact hc2
        · rw [bp_chain_succ_left]
          exact hp
    · rename_i hf
      simp only [Except.ok.injEq, Prod.mk.injEq] at h
      refine ⟨0, by omega, ⟨?_, ?_⟩, h.1.symm, ?_⟩
      · intro j hj
        omega
      · show (tbl e).wid < sil
        omega
      · rw [← h.1]
        exact h.2.symm

/-- The filler-skipping walk returns as soon as it has more fuel than the
position of the first non-filler on the chain. -/
theorem skip_fillers_total (sil : Int) (tbl : Int → bptbl_t) (fuel : Nat) (e : Int) (k : Nat)
    (hk : k < fuel) (hc : first_real_on_chain sil tbl e k) :
    skip_fillers sil tbl fuel e (tbl e).wid
      = Except.ok (bp_chain tbl e k, (tbl (bp_chain tbl e k)).wid) := by
  induction fuel generalizing e k with
  | zero => omega
  | succ fuel ih =>
    obtain ⟨hc1, hc2⟩ := hc
    simp only [skip_fillers]
    cases k with
    | zero =>
      have : ¬ ((tbl e).wid ≥ sil) := by
        have : (tbl e).wid < sil := hc2
        omega
      rw [if_neg this]
      rfl
    | succ k =>
      obtain ⟨a, b⟩ := hc1 0 (by omega)
      have a' : (tbl e).wid ≥ sil := a
      have b' : ¬ ((tbl e).bp < 0) := by
        have : 0 ≤ (tbl e).bp := b
        omega
      rw [if_pos a', if_neg b', bp_chain_succ_left]
      apply ih _ k (by omega)
      refine ⟨?_, ?_⟩
      · intro j hj
        have := hc1 (j + 1) (by omega)
        rw [bp_chain_succ_left, bp_chain_succ_left] at this
        exact this
      · rw [bp_chain_succ_left] at hc2
        exact hc2

/-- The position of the first non-filler on a chain is unique. -/
theorem first_real_on_chain_unique (sil : Int) (tbl : Int → bptbl_t) (e : Int) (k k' : Nat)
    (h : first_real_on_chain sil tbl e k) (h' : first_real_on_chain sil tbl e k') : k = k' := by
  rcases Nat.lt_trichotomy k k' with c | c | c
  · have := (h'.1 k c).1
    have := h.2
    omega
  · exact c
  · have := (h.1 k' c).1
    have := h'.2
    omega

theorem set_real_wid_bp (e : bptbl_t) (w : Int) : (set_real_wid e w).bp = e.bp := rfl

theorem set_real_wid_real_wid (e : bptbl_t) (w : Int) : (set_real_wid e w).real_wid = w := rfl

/-- What `cache_bptable_paths` returns: only the two cached fields of entry
`bp` change; `real_wid` becomes the base word id of the first non-filler on
the chain from `bp` itself, `prev_real_wid` the `real_wid` found at that
entry's predecessor (read after the update), or -1. -/
theorem cache_bptable_paths_spec (fuel : Nat) (ngs s' : ngram_search_t) (bp : Int)
    (h : cache_bptable_paths fuel ngs bp = Except.ok s') :
    ∃ k, k < fuel ∧ first_real_on_chain ngs.silence_wid ngs.bp_table bp k ∧
      ¬ ((ngs.bp_table (bp_chain ngs.bp_table bp k)).bp < NO_BP) ∧
      s' = { ngs with bp_table := s'.bp_table } ∧
      (∀ i, i ≠ bp → s'.bp_table i = ngs.bp_table i) ∧
      s'.bp_table bp = set_prev_real_wid
        (set_real_wid (ngs.bp_table bp)
          (ngs.dict.dict_list (ngs.bp_table (bp_chain ngs.bp_table bp k)).wid).wid)
        (if (ngs.bp_table (bp_chain ngs.bp_table bp k)).bp = NO_BP then -1
          else (s'.bp_table (ngs.bp_table (bp_chain ngs.bp_table bp k)).bp).real_wid) := by
  simp only [cache_bptable_paths] at h
  split at h
  · simp at h
  · rename_i prev_bp w hsk
    obtain ⟨k, hk, hc, hp, hw⟩ := skip_fillers_ok _ _ _ _ _ _ hsk
    subst hp
    subst hw
    have hbp : ∀ x, (store ngs.bp_table bp (set_real_wid (ngs.bp_table bp) x)
        (bp_chain ngs.bp_table bp k)).bp = (ngs.bp_table (bp_chain ngs.bp_table bp k)).bp := by
      intro x
      by_cases hj : bp_chain ngs.bp_table bp k = bp
      · rw [hj, store_same, set_real_wid_bp]
      · rw [store_ne _ _ _ _ hj]
    rw [hbp] at h
    refine ⟨k, hk, hc, ?_⟩
    split at h
    · rename_i hne
      split at h
      · simp at h
      · rename_i hnn
        simp only [Except.ok.injEq] at h
        subst h
        refine ⟨by simp only [NO_BP] at hne ⊢; omega, rfl, ?_, ?_⟩
        · intro i hi
          show store (store _ _ _) _ _ i = _
          rw [store_ne _ _ _ _ hi, store_ne _ _ _ _ hi]
        · show store (store _ _ _) _ _ bp = _
          rw [store_same, store_same, if_neg hne]
          congr 1
          dsimp only
          by_cases hj : (ngs.bp_table (bp_chain ngs.bp_table bp k)).bp = bp
          · rw [hj]
            simp only [store_same]
            rfl
          · simp only [store_ne _ _ _ _ hj]
    · rename_i hne
      simp only [ne_eq, not_not] at hne
      simp only [Except.ok.injEq] at h
      subst h
      refine ⟨by rw [hne]; simp, rfl, ?_, ?_⟩
      · intro i hi
        show store (store _ _ _) _ _ i = _
        rw [store_ne _ _ _ _ hi, store_ne _ _ _ _ hi]
      · show store (store _ _ _) _ _ bp = _
        rw [store_same, store_same, if_pos hne]

/-- The call `cache_bptable_paths` returns when the chain from `bp` reaches a
non-filler within the fuel and that entry's predecessor is `NO_BP` or an
index of the table. -/
theorem cache_bptable_paths_total (fuel : Nat) (ngs : ngram_search_t) (bp : Int) (k : Nat)
    (hk : k < fuel) (hc : first_real_on_chain ngs.silence_wid ngs.bp_table bp k)
    (hp : ¬ ((ngs.bp_table (bp_chain ngs.bp_table bp k)).bp < NO_BP)) :
    ∃ s', cache_bptable_paths fuel ngs bp = Except.ok s' := by
  simp only [cache_bptable_paths]
  rw [skip_fillers_total _ _ _ _ k hk hc]
  simp only
  have hbp : ∀ x, (store ngs.bp_table bp (set_real_wid (ngs.bp_table bp) x)
      (bp_chain ngs.bp_table bp k)).bp = (ngs.bp_table (bp_chain ngs.bp_table bp k)).bp := by
    intro x
    by_cases hj : bp_chain ngs.bp_table bp k = bp
    · rw [hj, store_same, set_real_wid_bp]
    · rw [store_ne _ _ _ _ hj]
  rw [hbp]
  split
  · rename_i hne
    have : ¬ ((ngs.bp_table (bp_chain ngs.bp_table bp k)).bp < 0) := by
      simp only [NO_BP] at hne hp
      omega
    rw [if_neg this]
    exact ⟨_, rfl⟩
  · exact ⟨_, rfl⟩

/-- C8. Trigram path cache: after `cache_bptable_paths` on entry `e`,
`real_wid(e)` is the dictionary base word id of the nearest entry on the chain
`e, e.bp, e.bp.bp, ...` whose word id is below `silence_wid`, and
`prev_real_wid(e)` is the cached `real_wid` of that entry's predecessor, or -1
when that predecessor is `NO_BP`; the call returns whenever such an entry is
reached within the fuel and its predecessor is `NO_BP` or a table index. -/
theorem cache_bptable_paths_real_wid (fuel : Nat) (ngs : ngram_search_t) (e : Int) :
    (∀ s', cache_bptable_paths fuel ngs e = Except.ok s' →
      ∃ k, first_real_on_chain ngs.silence_wid ngs.bp_table e k ∧
        (s'.bp_table e).real_wid
          = (ngs.dict.dict_list (ngs.bp_table (bp_chain ngs.bp_table e k)).wid).wid ∧
        (s'.bp_table e).prev_real_wid
          = (if (ngs.bp_table (bp_chain ngs.bp_table e k)).bp = NO_BP then -1
            else (s'.bp_table (ngs.bp_table (bp_chain ngs.bp_table e k)).bp).real_wid) ∧
        ((ngs.bp_table (bp_chain ngs.bp_table e k)).bp ≠ e →
          (s'.bp_table (ngs.bp_table (bp_chain ngs.bp_table e k)).bp).real_wid
            = (ngs.bp_table (ngs.bp_table (bp_chain ngs.bp_table e k)).bp).real_wid)) ∧
    (∀ k, k < fuel → first_real_on_chain ngs.silence_wid ngs.bp_table e k →
      ¬ ((ngs.bp_table (bp_chain ngs.bp_table e k)).bp < NO_BP) →
      ∃ s', cache_bptable_paths fuel ngs e = Except.ok s') := by
  constructor
  · intro s' h
    obtain ⟨k, _, hc, _, _, hfr, he⟩ := cache_bptable_paths_spec fuel ngs s' e h
    refine ⟨k, hc, ?_, ?_, ?_⟩
    · rw [he]; rfl
    · rw [he]; rfl
    · intro hne
      rw [hfr _ hne]
  · intro k hk hc hp
    exact cache_bptable_paths_total fuel ngs e k hk hc hp

/-- On the test chain, the noise exit at index 3 gets the base id of the real
word two steps back (100) and that word's predecessor's id (101). -/
theorem cache_bptable_paths_real_wid_witness :
    ∃ s', cache_bptable_paths 10 ex_chain_ngs 3 = Except.ok s' ∧
      (s'.bp_table 3).real_wid = 100 ∧ (s'.bp_table 3).prev_real_wid = 101 ∧
      ∃ k, first_real_on_chain ex_chain_ngs.silence_wid ex_chain_ngs.bp_table 3 k ∧
        (s'.bp_table 3).real_wid = (ex_chain_ngs.dict.dict_list
          (ex_chain_ngs.bp_table (bp_chain ex_chain_ngs.bp_table 3 k)).wid).wid :=
  have hrun : ∃ s', cache_bptable_paths 10 ex_chain_ngs 3 = Except.ok s' ∧
      (s'.bp_table 3).real_wid = 100 ∧ (s'.bp_table 3).prev_real_wid = 101 :=
    ⟨_, rfl, by decide, by decide⟩
  match hrun with
  | ⟨s', h, a, b⟩ =>
    match (cache_bptable_paths_real_wid 10 ex_chain_ngs 3).1 s' h with
    | ⟨k, hk, hr, _⟩ => ⟨s', h, a, b, k, hk, hr⟩

theorem first_real_on_chain_shift (sil : Int) (tbl : Int → bptbl_t) (e : Int) (k : Nat)
    (h : first_real_on_chain sil tbl e (k + 1)) :
    first_real_on_chain sil tbl (tbl e).bp k := by
  obtain ⟨h1, h2⟩ := h
  refine ⟨?_, ?_⟩
  · intro j hj
    have := h1 (j + 1) (by omega)
    rw [bp_chain_succ_left, bp_chain_succ_left] at this
    exact this
  · rw [bp_chain_succ_left] at h2
    exact h2

/-- C9 (amended). Start point of the cached-path walk: the walk that
determines `real_wid(e)` starts from `e` itself.  When the word of `e` is not
a filler, `real_wid(e)` is the base word id of `e`'s own word; only when the
word of `e` is a filler is it the base word id of the first non-filler entry
found among `e.bp, e.bp.bp, ...`. -/
theorem cache_bptable_paths_walk_start (fuel : Nat) (ngs s' : ngram_search_t) (e : Int)
    (h : cache_bptable_paths fuel ngs e = Except.ok s') :
    ((ngs.bp_table e).wid < ngs.silence_wid →
      (s'.bp_table e).real_wid = (ngs.dict.dict_list (ngs.bp_table e).wid).wid) ∧
    (ngs.silence_wid ≤ (ngs.bp_table e).wid →
      ∃ k, first_real_on_chain ngs.silence_wid ngs.bp_table (ngs.bp_table e).bp k ∧
        (s'.bp_table e).real_wid = (ngs.dict.dict_list
          (ngs.bp_table (bp_chain ngs.bp_table (ngs.bp_table e).bp k)).wid).wid) := by
  obtain ⟨k, _, hc, _, _, _, he⟩ := cache_bptable_paths_spec fuel ngs s' e h
  constructor
  · intro hw
    have h0 : first_real_on_chain ngs.silence_wid ngs.bp_table e 0 :=
      ⟨fun j hj => absurd hj (by omega), hw⟩
    have := first_real_on_chain_unique _ _ _ _ _ hc h0
    subst this
    rw [he]
    rfl
  · intro hw
    cases k with
    | zero =>
      have : (ngs.bp_table e).wid < ngs.silence_wid := hc.2
      omega
    | succ k =>
      refine ⟨k, first_real_on_chain_shift _ _ _ _ hc, ?_⟩
      rw [he, ← bp_chain_succ_left]
      rfl

/-- On the test chain the real-word exit at index 1 caches its own base id. -/
theorem cache_bptable_paths_walk_start_witness :
    ∃ s', cache_bptable_paths 10 ex_chain_ngs 1 = Except.ok s' ∧
      (s'.bp_table 1).real_wid
        = (ex_chain_ngs.dict.dict_list (ex_chain_ngs.bp_table 1).wid).wid :=
  have hrun : ∃ s', cache_bptable_paths 10 ex_chain_ngs 1 = Except.ok s' := ⟨_, rfl⟩
  match hrun with
  | ⟨s', h⟩ => ⟨s', h, (cache_bptable_paths_walk_start 10 ex_chain_ngs s' 1 h).1 (by decide)⟩

/-- C9 fails as stated: on the test chain, the exit at index 1 is a real word
(base id 100) whose predecessor is the real word of base id 101; the call
caches 100, the entry's own id, and not the id of the first non-filler found
from `e.bp` on. -/
theorem cache_bptable_paths_walk_start_counterexample :
    ∃ s', cache_bptable_paths 10 ex_chain_ngs 1 = Except.ok s' ∧
      (s'.bp_table 1).real_wid = 100 ∧
      ¬ ∃ k, first_real_on_chain ex_chain_ngs.silence_wid ex_chain_ngs.bp_table
            (ex_chain_ngs.bp_table 1).bp k ∧
          (s'.bp_table 1).real_wid = (ex_chain_ngs.dict.dict_list
            (ex_chain_ngs.bp_table
              (bp_chain ex_chain_ngs.bp_table (ex_chain_ngs.bp_table 1).bp k)).wid).wid := by
  refine ⟨_, rfl, by decide, ?_⟩
  rintro ⟨k, hk, he⟩
  have h0 : first_real_on_chain ex_chain_ngs.silence_wid ex_chain_ngs.bp_table
      (ex_chain_ngs.bp_table 1).bp 0 :=
    ⟨fun j hj => absurd hj (by omega), by decide⟩
  have := first_real_on_chain_unique _ _ _ _ _ hk h0
  subst this
  revert he
  decide

/-! ### `save_bwd_ptr` -/

theorem fill_worst_spec (k : Nat) (p : Int) (stack : Int → Int) (j : Int) :
    fill_worst k p stack j = if p ≤ j ∧ j < p + k then WORST_SCORE else stack j := by
  induction k generalizing p stack with
  | zero =>
    simp only [fill_worst]
    rw [if_neg]
    push_cast
    omega
  | succ k ih =>
    simp only [fill_worst]
    rw [ih]
    by_cases hj : j = p
    · subst hj
      rw [if_neg (by omega), store_same, if_pos ⟨le_refl _, by push_cast; omega⟩]
    · rw [store_ne _ _ _ _ hj]
      by_cases hc : p + 1 ≤ j ∧ j < p + 1 + k
      · rw [if_pos hc, if_pos ⟨by omega, by push_cast; omega⟩]
      · rw [if_neg hc, if_neg]
        push_cast
        omega

/-- Only the backpointer table differs after `cache_bptable_paths`. -/
theorem cache_bptable_paths_fields (fuel : Nat) (ngs s' : ngram_search_t) (bp : Int)
    (h : cache_bptable_paths fuel ngs bp = Except.ok s') :
    s'.bpidx = ngs.bpidx ∧ s'.bss_head = ngs.bss_head ∧ s'.bscore_stack = ngs.bscore_stack ∧
    s'.word_lat_idx = ngs.word_lat_idx ∧ s'.dict = ngs.dict ∧
    s'.silence_wid = ngs.silence_wid ∧ s'.bp_table_idx = ngs.bp_table_idx ∧
    s'.maxwpf = ngs.maxwpf ∧ s'.bp_table_size = ngs.bp_table_size ∧
    s'.bscore_stack_size = ngs.bscore_stack_size ∧ s'.n_ciphone = ngs.n_ciphone := by
  obtain ⟨_, _, _, _, he, _, _⟩ := cache_bptable_paths_spec fuel ngs s' bp h
  refine ⟨?_, ?_, ?_, ?_, ?_, ?_, ?_, ?_, ?_, ?_, ?_⟩ <;> rw [he]

/-- The entry `cache_bptable_paths` works on keeps every field but the two
cached ones. -/
theorem cache_bptable_paths_entry (fuel : Nat) (ngs s' : ngram_search_t) (bp : Int)
    (h : cache_bptable_paths fuel ngs bp = Except.ok s') :
    (s'.bp_table bp).wid = (ngs.bp_table bp).wid ∧
    (s'.bp_table bp).frame = (ngs.bp_table bp).frame ∧
    (s'.bp_table bp).bp = (ngs.bp_table bp).bp ∧
    (s'.bp_table bp).score = (ngs.bp_table bp).score ∧
    (s'.bp_table bp).s_idx = (ngs.bp_table bp).s_idx ∧
    (s'.bp_table bp).r_diph = (ngs.bp_table bp).r_diph ∧
    (s'.bp_table bp).valid = (ngs.bp_table bp).valid ∧
    ∀ i, i ≠ bp → s'.bp_table i = ngs.bp_table i := by
  obtain ⟨_, _, _, _, _, hfr, he⟩ := cache_bptable_paths_spec fuel ngs s' bp h
  refine ⟨?_, ?_, ?_, ?_, ?_, ?_, ?_, hfr⟩ <;> rw [he] <;> rfl

/-- C5. First exit of `w` in the frame: if `word_lat_idx[w] == NO_BP`, a
returning `save_bwd_ptr` has written at index old `bpidx` an entry with
`wid = w`, `frame = f`, `bp = path`, `score = score`, `s_idx` = old
`bss_head`, `valid = true` and `r_diph` = last phone id of `w` if `w` is
multi-phone and mpx, else -1; the `rcsize` stack slots from `s_idx` hold
`WORST_SCORE` except slot `rc` which holds `score`; `word_lat_idx[w]` = old
`bpidx`; `bpidx` grew by 1 and `bss_head` by `rcsize`; no other entry changed.
The call returns for every non-filler `w` whose `path` is `NO_BP` or a table
index. -/
theorem save_bwd_ptr_first_exit (fuel : Nat) (ngs : ngram_search_t)
    (f w score path rc : Int) (hw : ngs.word_lat_idx w = NO_BP) :
    (∀ s', save_bwd_ptr fuel ngs f w score path rc = Except.ok s' →
      (s'.bp_table ngs.bpidx).wid = w ∧
      (s'.bp_table ngs.bpidx).frame = f ∧
      (s'.bp_table ngs.bpidx).bp = path ∧
      (s'.bp_table ngs.bpidx).score = score ∧
      (s'.bp_table ngs.bpidx).s_idx = ngs.bss_head ∧
      (s'.bp_table ngs.bpidx).valid = true ∧
      (s'.bp_table ngs.bpidx).r_diph
        = (if (ngs.dict.dict_list w).len ≠ 1 ∧ (ngs.dict.dict_list w).mpx = true
          then (ngs.dict.dict_list w).phone_ids ((ngs.dict.dict_list w).len - 1) else -1) ∧
      (∀ i, 0 ≤ i → i < exit_rcsize ngs.dict (ngs.dict.dict_list w) →
        s'.bscore_stack ((s'.bp_table ngs.bpidx).s_idx + i)
          = if i = rc then score else WORST_SCORE) ∧
      s'.word_lat_idx w = ngs.bpidx ∧
      s'.bpidx = ngs.bpidx + 1 ∧
      s'.bss_head = ngs.bss_head + exit_rcsize ngs.dict (ngs.dict.dict_list w) ∧
      (∀ i, i ≠ ngs.bpidx → s'.bp_table i = ngs.bp_table i)) ∧
    (w < ngs.silence_wid → 1 ≤ fuel → (path = NO_BP ∨ 0 ≤ path) →
      ∃ s', save_bwd_ptr fuel ngs f w score path rc = Except.ok s') := by
  have hb : ¬ (ngs.word_lat_idx w ≠ NO_BP) := by simp [hw]
  constructor
  · intro s' h
    simp only [save_bwd_ptr, if_neg hb, save_bwd_ptr_append] at h
    split at h
    · simp at h
    · rename_i ngs2 hc
      simp only [Except.ok.injEq] at h
      subst h
      obtain ⟨e1, e2, e3, e4, e5, e6, e7, e8⟩ := cache_bptable_paths_entry _ _ _ _ hc
      obtain ⟨f1, f2, f3, f4, _⟩ := cache_bptable_paths_fields _ _ _ _ hc
      dsimp only at e1 e2 e3 e4 e5 e6 e7 e8 f1 f2 f3 f4 ⊢
      rw [store_same] at e1 e2 e3 e4 e5 e6 e7
      dsimp only [new_bpe] at e1 e2 e3 e4 e5 e6 e7
      refine ⟨e1, e2, e3, e4, e5, e7, e6, ?_, ?_, ?_, ?_, ?_⟩
      · intro i hi1 hi2
        rw [f3, e5]
        by_cases hi : i = rc
        · subst hi
          rw [store_same, if_pos rfl]
        · rw [store_ne _ _ _ _ (by omega), if_neg hi, fill_worst_spec, if_pos]
          exact ⟨by omega, by omega⟩
      · rw [f4, store_same]
      · rw [f1]
      · rw [f2]
      · intro i hi
        rw [e8 i hi, store_ne _ _ _ _ hi]
  · intro hnf hfuel hpath
    simp only [save_bwd_ptr, if_neg hb, save_bwd_ptr_append]
    have : ∃ s1, cache_bptable_paths fuel
        { ngs with
          bp_table_size :=
            if ngs.bpidx ≥ ngs.bp_table_size then ngs.bp_table_size * 2 else ngs.bp_table_size,
          bscore_stack_size :=
            if ngs.bss_head ≥ ngs.bscore_stack_size - ngs.n_ciphone then
              ngs.bscore_stack_size * 2
            else ngs.bscore_stack_size,
          word_lat_idx := store ngs.word_lat_idx w ngs.bpidx,
          bp_table := store ngs.bp_table ngs.bpidx
            (new_bpe (ngs.bp_table ngs.bpidx) f w path score ngs.bss_head
              (exit_r_diph (ngs.dict.dict_list w))),
          bscore_stack := store
            (fill_worst (exit_rcsize ngs.dict (ngs.dict.dict_list w)).toNat ngs.bss_head
              ngs.bscore_stack) (ngs.bss_head + rc) score }
        ngs.bpidx = Except.ok s1 := by
      apply cache_bptable_paths_total _ _ _ 0 (by omega)
      · refine ⟨fun j hj => absurd hj (by omega), ?_⟩
        dsimp only [bp_chain]
        rw [store_same]
        exact hnf
      · dsimp only [bp_chain]
        rw [store_same]
        show ¬ (path < NO_BP)
        simp only [NO_BP] at hpath ⊢
        omega
    obtain ⟨s1, hs1⟩ := this
    rw [hs1]
    exact ⟨_, rfl⟩

/-- A first exit on the test chain: word 2 leaves with score -40 from
predecessor 3 and becomes entry 4. -/
theorem save_bwd_ptr_first_exit_witness :
    ex_chain_ngs.word_lat_idx 2 = NO_BP ∧
    ∃ s', save_bwd_ptr 10 ex_chain_ngs 7 2 (-40) 3 0 = Except.ok s' ∧
      (s'.bp_table 4).wid = 2 ∧ (s'.bp_table 4).bp = 3 ∧ (s'.bp_table 4).score = -40 ∧
      s'.bscore_stack ((s'.bp_table 4).s_idx + 0) = -40 ∧
      s'.word_lat_idx 2 = 4 ∧ s'.bpidx = 5 :=
  have hw : ex_chain_ngs.word_lat_idx 2 = NO_BP := rfl
  match (save_bwd_ptr_first_exit 10 ex_chain_ngs 7 2 (-40) 3 0 hw).2
      (by decide) (by decide) (Or.inr (by decide)) with
  | ⟨s', h⟩ =>
    match (save_bwd_ptr_first_exit 10 ex_chain_ngs 7 2 (-40) 3 0 hw).1 s' h with
    | ⟨a1, _, a3, a4, _, _, _, a8, a9, a10, _, _⟩ =>
      ⟨hw, s', h, a1, a3, a4, a8 0 (by decide) (by decide), a9, a10⟩

/-- C6. Repeated exit of `w` in the frame: if `word_lat_idx[w] != NO_BP`, a
returning `save_bwd_ptr` leaves the existing entry with score
`max(old score, new score)`; its `bp` is `path` when the new score is strictly
greater than the old one and is unchanged otherwise, and in that other case
no entry of the table changes at all (nothing is re-cached); the stack slot
`s_idx + rc` is overwritten with the new score; `bpidx` and `bss_head` are
unchanged.  The call returns whenever no re-caching is due. -/
theorem save_bwd_ptr_repeated_exit (fuel : Nat) (ngs : ngram_search_t)
    (f w score path rc : Int) (hw : ngs.word_lat_idx w ≠ NO_BP) :
    (∀ s', save_bwd_ptr fuel ngs f w score path rc = Except.ok s' →
      (s'.bp_table (ngs.word_lat_idx w)).score
        = max (ngs.bp_table (ngs.word_lat_idx w)).score score ∧
      (s'.bp_table (ngs.word_lat_idx w)).bp
        = (if (ngs.bp_table (ngs.word_lat_idx w)).score < score then path
          else (ngs.bp_table (ngs.word_lat_idx w)).bp) ∧
      (¬ ((ngs.bp_table (ngs.word_lat_idx w)).score < score) →
        s'.bp_table = ngs.bp_table) ∧
      (∀ i, i ≠ ngs.word_lat_idx w → s'.bp_table i = ngs.bp_table i) ∧
      s'.bscore_stack = store ngs.bscore_stack
        ((ngs.bp_table (ngs.word_lat_idx w)).s_idx + rc) score ∧
      s'.bpidx = ngs.bpidx ∧ s'.bss_head = ngs.bss_head ∧
      s'.word_lat_idx = ngs.word_lat_idx) ∧
    ((¬ ((ngs.bp_table (ngs.word_lat_idx w)).score < score) ∨
        (ngs.bp_table (ngs.word_lat_idx w)).bp = path) →
      ∃ s', save_bwd_ptr fuel ngs f w score path rc = Except.ok s') := by
  constructor
  · intro s' h
    simp only [save_bwd_ptr, if_pos hw, save_bwd_ptr_update] at h
    by_cases hs : (ngs.bp_table (ngs.word_lat_idx w)).score < score
    · rw [if_pos hs] at h
      have hmax : max (ngs.bp_table (ngs.word_lat_idx w)).score score = score :=
        max_eq_right (le_of_lt hs)
      rw [hmax, if_pos hs]
      by_cases hp : (ngs.bp_table (ngs.word_lat_idx w)).bp ≠ path
      · rw [if_pos hp] at h
        split at h
        · simp at h
        · rename_i ngs2 h2
          split at h2
          · simp at h2
          · rename_i ngs1 hc
            simp only [Except.ok.injEq] at h2 h
            subst h2
            subst h
            obtain ⟨_, _, e3, _, e5, _, _, e8⟩ := cache_bptable_paths_entry _ _ _ _ hc
            obtain ⟨f1, f2, f3, f4, _⟩ := cache_bptable_paths_fields _ _ _ _ hc
            dsimp only at e3 e5 e8 f1 f2 f3 f4 ⊢
            rw [store_same] at e3 e5
            rw [store_same]
            refine ⟨rfl, ?_, fun c => absurd hs c, ?_, ?_, f1, f2, f4⟩
            · show (ngs1.bp_table (ngs.word_lat_idx w)).bp = path
              rw [e3]; rfl
            · intro i hi
              rw [store_ne _ _ _ _ hi, e8 i hi, store_ne _ _ _ _ hi]
            · rw [f3]
              have : (set_score (ngs1.bp_table (ngs.word_lat_idx w)) score).s_idx
                  = (ngs.bp_table (ngs.word_lat_idx w)).s_idx := by
                show (ngs1.bp_table (ngs.word_lat_idx w)).s_idx = _
                rw [e5]; rfl
              rw [this]
      · rw [if_neg hp] at h
        simp only [ne_eq, not_not] at hp
        simp only [Except.ok.injEq] at h
        subst h
        dsimp only
        rw [store_same]
        refine ⟨rfl, hp, fun c => absurd hs c, ?_, rfl, rfl, rfl, rfl⟩
        intro i hi
        rw [store_ne _ _ _ _ hi]
    · rw [if_neg hs] at h
      simp only [Except.ok.injEq] at h
      subst h
      dsimp only
      have hmax : max (ngs.bp_table (ngs.word_lat_idx w)).score score
          = (ngs.bp_table (ngs.word_lat_idx w)).score := max_eq_left (by omega)
      rw [hmax, if_neg hs]
      exact ⟨rfl, rfl, fun _ => rfl, fun _ _ => rfl, rfl, rfl, rfl, rfl⟩
  · intro hc
    simp only [save_bwd_ptr, if_pos hw, save_bwd_ptr_update]
    by_cases hs : (ngs.bp_table (ngs.word_lat_idx w)).score < score
    · have hp : ¬ ((ngs.bp_table (ngs.word_lat_idx w)).bp ≠ path) := by
        rcases hc with c | c
        · exact absurd hs c
        · simp [c]
      rw [if_pos hs, if_neg hp]
      exact ⟨_, rfl⟩
    · rw [if_neg hs]
      exact ⟨_, rfl⟩

/-- A repeated exit on the test state: word 2 leaves again with the lower
score -60 for right context 1; the entry keeps score -40 and predecessor 3,
and slot 10 of the stack receives -60. -/
theorem save_bwd_ptr_repeated_exit_witness :
    ex_exit_ngs.word_lat_idx 2 ≠ NO_BP ∧
    ∃ s', save_bwd_ptr 10 ex_exit_ngs 7 2 (-60) 1 1 = Except.ok s' ∧
      (s'.bp_table 4).score = -40 ∧ (s'.bp_table 4).bp = 3 ∧
      s'.bscore_stack 10 = -60 ∧ s'.bpidx = 5 :=
  have hw : ex_exit_ngs.word_lat_idx 2 ≠ NO_BP := by decide
  match (save_bwd_ptr_repeated_exit 10 ex_exit_ngs 7 2 (-60) 1 1 hw).2
      (Or.inl (by decide)) with
  | ⟨s', h⟩ =>
    match (save_bwd_ptr_repeated_exit 10 ex_exit_ngs 7 2 (-60) 1 1 hw).1 s' h with
    | ⟨a1, a2, _, _, a5, a6, _, _⟩ =>
      ⟨hw, s', h, a1.trans (by decide), a2.trans (by decide),
        (congrFun a5 10).trans (by decide), a6⟩

theorem store_self {α : Type} (a : Int → α) (i : Int) : store a i (a i) = a := by
  funext j
  by_cases h : j = i
  · subst h; rw [store_same]
  · rw [store_ne _ _ _ _ h]

/-- The state `cache_bptable_paths` returns, written out: entry `bp` has its
two cached fields replaced. -/
theorem cache_bptable_paths_eq (fuel : Nat) (ngs s' : ngram_search_t) (bp : Int)
    (h : cache_bptable_paths fuel ngs bp = Except.ok s') :
    ∃ rw prw, s' = { ngs with
      bp_table := store ngs.bp_table bp
        (set_prev_real_wid (set_real_wid (ngs.bp_table bp) rw) prw) } := by
  obtain ⟨_, _, _, _, he, hfr, hb⟩ := cache_bptable_paths_spec fuel ngs s' bp h
  have hb' : ∃ x y, s'.bp_table bp
      = set_prev_real_wid (set_real_wid (ngs.bp_table bp) x) y := ⟨_, _, hb⟩
  obtain ⟨x, y, hxy⟩ := hb'
  refine ⟨x, y, ?_⟩
  rw [he]
  congr 1
  funext j
  by_cases hj : j = bp
  · subst hj
    rw [store_same, hxy]
  · rw [store_ne _ _ _ _ hj, hfr j hj]

/-- The state a returning first-exit call of `save_bwd_ptr` produces. -/
theorem save_bwd_ptr_append_eq (fuel : Nat) (ngs s' : ngram_search_t)
    (f w score path rc : Int) (hw : ngs.word_lat_idx w = NO_BP)
    (h : save_bwd_ptr fuel ngs f w score path rc = Except.ok s') :
    ∃ rw prw, s' = { ngs with
      bp_table_size :=
        if ngs.bpidx ≥ ngs.bp_table_size then ngs.bp_table_size * 2 else ngs.bp_table_size,
      bscore_stack_size :=
        if ngs.bss_head ≥ ngs.bscore_stack_size - ngs.n_ciphone then ngs.bscore_stack_size * 2
        else ngs.bscore_stack_size,
      word_lat_idx := store ngs.word_lat_idx w ngs.bpidx,
      bp_table := store ngs.bp_table ngs.bpidx
        (set_prev_real_wid (set_real_wid
          (new_bpe (ngs.bp_table ngs.bpidx) f w path score ngs.bss_head
            (exit_r_diph (ngs.dict.dict_list w))) rw) prw),
      bscore_stack := store
        (fill_worst (exit_rcsize ngs.dict (ngs.dict.dict_list w)).toNat ngs.bss_head
          ngs.bscore_stack) (ngs.bss_head + rc) score,
      bpidx := ngs.bpidx + 1,
      bss_head := ngs.bss_head + exit_rcsize ngs.dict (ngs.dict.dict_list w) } := by
  have hb : ¬ (ngs.word_lat_idx w ≠ NO_BP) := by simp [hw]
  simp only [save_bwd_ptr, if_neg hb, save_bwd_ptr_append] at h
  split at h
  · simp at h
  · rename_i ngs2 hc
    simp only [Except.ok.injEq] at h
    subst h
    obtain ⟨rw, prw, he⟩ := cache_bptable_paths_eq _ _ _ _ hc
    refine ⟨rw, prw, ?_⟩
    rw [he]
    dsimp only
    congr 1
    funext j
    by_cases hj : j = ngs.bpidx
    · subst hj
      rw [store_same, store_same, store_same]
    · rw [store_ne _ _ _ _ hj, store_ne _ _ _ _ hj, store_ne _ _ _ _ hj]

/-- The state a returning repeated-exit call of `save_bwd_ptr` produces: the
existing entry `b` keeps word, frame, stack offset, right-context key and
flag, and one stack slot is overwritten. -/
theorem save_bwd_ptr_update_eq (fuel : Nat) (ngs s' : ngram_search_t)
    (f w score path rc : Int) (hw : ngs.word_lat_idx w ≠ NO_BP)
    (h : save_bwd_ptr fuel ngs f w score path rc = Except.ok s') :
    ∃ e', s' = { ngs with
        bp_table := store ngs.bp_table (ngs.word_lat_idx w) e',
        bscore_stack := store ngs.bscore_stack
          ((ngs.bp_table (ngs.word_lat_idx w)).s_idx + rc) score } ∧
      e'.wid = (ngs.bp_table (ngs.word_lat_idx w)).wid ∧
      e'.frame = (ngs.bp_table (ngs.word_lat_idx w)).frame ∧
      e'.s_idx = (ngs.bp_table (ngs.word_lat_idx w)).s_idx ∧
      e'.r_diph = (ngs.bp_table (ngs.word_lat_idx w)).r_diph ∧
      e'.valid = (ngs.bp_table (ngs.word_lat_idx w)).valid ∧
      e'.score = max (ngs.bp_table (ngs.word_lat_idx w)).score score ∧
      e'.bp = (if (ngs.bp_table (ngs.word_lat_idx w)).score < score then path
        else (ngs.bp_table (ngs.word_lat_idx w)).bp) ∧
      (¬ ((ngs.bp_table (ngs.word_lat_idx w)).score < score) →
        e' = ngs.bp_table (ngs.word_lat_idx w)) := by
  simp only [save_bwd_ptr, if_pos hw, save_bwd_ptr_update] at h
  by_cases hs : (ngs.bp_table (ngs.word_lat_idx w)).score < score
  · rw [if_pos hs] at h
    have hmax : max (ngs.bp_table (ngs.word_lat_idx w)).score score = score :=
      max_eq_right (le_of_lt hs)
    rw [hmax, if_pos hs]
    by_cases hp : (ngs.bp_table (ngs.word_lat_idx w)).bp ≠ path
    · rw [if_pos hp] at h
      split at h
      · simp at h
      · rename_i ngs2 h2
        split at h2
        · simp at h2
        · rename_i ngs1 hc
          simp only [Except.ok.injEq] at h2 h
          subst h2
          subst h
          obtain ⟨rw, prw, he⟩ := cache_bptable_paths_eq _ _ _ _ hc
          subst he
          dsimp only
          rw [store_same, store_same]
          refine ⟨set_score (set_prev_real_wid (set_real_wid
            (set_bp (ngs.bp_table (ngs.word_lat_idx w)) path) rw) prw) score,
            ?_, rfl, rfl, rfl, rfl, rfl, rfl, rfl, fun c => absurd hs c⟩
          congr 1
          · funext j
            by_cases hj : j = ngs.word_lat_idx w
            · rw [hj, store_same, store_same]
            · rw [store_ne _ _ _ _ hj, store_ne _ _ _ _ hj, store_ne _ _ _ _ hj,
                store_ne _ _ _ _ hj]
          · rw [store_same]
            rfl
    · rw [if_neg hp] at h
      simp only [ne_eq, not_not] at hp
      simp only [Except.ok.injEq] at h
      subst h
      rw [store_same]
      exact ⟨set_score (ngs.bp_table (ngs.word_lat_idx w)) score,
        rfl, rfl, rfl, rfl, rfl, rfl, rfl, hp, fun c => absurd hs c⟩
  · rw [if_neg hs] at h
    simp only [Except.ok.injEq] at h
    subst h
    have hmax : max (ngs.bp_table (ngs.word_lat_idx w)).score score
        = (ngs.bp_table (ngs.word_lat_idx w)).score := max_eq_left (by omega)
    rw [hmax, if_neg hs]
    refine ⟨ngs.bp_table (ngs.word_lat_idx w), ?_, rfl, rfl, rfl, rfl, rfl, rfl, rfl,
      fun _ => rfl⟩
    rw [store_self]

/-! ### Score/stack agreement over sequences of `save_bwd_ptr` calls -/

/-- One call of `save_bwd_ptr` preserves the agreement invariant, provided
its pair `(w, rc)` has not been seen and `rc` is one of the right contexts of
`w`. -/
theorem agree_inv_step (fuel : Nat) (ngs0 : ngram_search_t) (g0 : Int → Int)
    (ngs s' : ngram_search_t) (g : Int → Int) (seen : List (Int × Int)) (c : bwd_call)
    (hb0 : 0 ≤ ngs0.bpidx)
    (hinv : agree_inv ngs0 g0 ngs g seen)
    (hnew : (c.w, c.rc) ∉ seen)
    (hrc : 0 ≤ c.rc ∧ c.rc < exit_rcsize ngs0.dict (ngs0.dict.dict_list c.w))
    (h : save_bwd_ptr fuel ngs c.frame_idx c.w c.score c.path c.rc = Except.ok s') :
    agree_inv ngs0 g0 s' (saved_rc_step ngs g c) ((c.w, c.rc) :: seen) := by
  obtain ⟨hd, hbp, hbs, hwl, hent, hord, hold, hstk⟩ := hinv
  by_cases hw : ngs.word_lat_idx c.w = NO_BP
  · -- a new entry is appended
    obtain ⟨rw, prw, he⟩ := save_bwd_ptr_append_eq fuel ngs s' _ _ _ _ _ hw h
    have hg : saved_rc_step ngs g c = store g ngs.bpidx c.rc := by
      simp [saved_rc_step, hw]
    rw [hg]
    subst he
    rw [hd]
    have hR := hrc.2
    have hr0 := hrc.1
    refine ⟨rfl, by dsimp only; omega, by dsimp only; omega, ?_, ?_, ?_, ?_, ?_⟩
    · intro w
      dsimp only
      by_cases hww : w = c.w
      · subst hww
        right
        rw [store_same, store_same]
        exact ⟨hbp, by omega, rfl⟩
      · rw [store_ne _ _ _ _ hww]
        rcases hwl w with e | ⟨e1, e2, e3⟩
        · exact Or.inl e
        · right
          rw [store_ne _ _ _ _ (by omega)]
          exact ⟨e1, by omega, e3⟩
    · intro i hi1 hi2
      dsimp only at hi2 ⊢
      by_cases hi : i = ngs.bpidx
      · subst hi
        rw [store_same, store_same]
        refine ⟨hbs, le_refl _, hr0, hR, ?_, List.mem_cons_self _ _, ?_⟩
        · show store _ (ngs.bss_head + c.rc) c.score (ngs.bss_head + c.rc) = c.score
          rw [store_same]
        · show store ngs.word_lat_idx c.w ngs.bpidx c.w = ngs.bpidx
          rw [store_same]
      · obtain ⟨a1, a2, a3, a4, a5, a6, a7⟩ := hent i hi1 (by omega)
        rw [store_ne _ _ _ _ hi, store_ne _ _ _ _ hi]
        refine ⟨a1, by omega, a3, a4, ?_, List.mem_cons_of_mem _ a6, ?_⟩
        · rw [store_ne _ _ _ _ (by omega), fill_worst_spec, if_neg (by omega)]
          exact a5
        · have : (ngs.bp_table i).wid ≠ c.w := by
            intro e
            rw [e, hw] at a7
            simp only [NO_BP] at a7
            omega
          rw [store_ne _ _ _ _ this]
          exact a7
    · intro i j hi hij hj
      dsimp only at hj ⊢
      have hi' : i ≠ ngs.bpidx := by omega
      rw [store_ne _ _ _ _ hi']
      by_cases hjb : j = ngs.bpidx
      · subst hjb
        rw [store_same]
        exact (hent i hi (by omega)).2.1
      · rw [store_ne _ _ _ _ hjb]
        exact hord i j hi hij (by omega)
    · intro i hi
      dsimp only
      rw [store_ne _ _ _ _ (by omega), store_ne _ _ _ _ (by omega)]
      exact hold i hi
    · intro j hj
      dsimp only
      rw [store_ne _ _ _ _ (by omega), fill_worst_spec, if_neg (by omega)]
      exact hstk j hj
  · -- the existing entry of the word is updated
    obtain ⟨e', he, w1, _, w3, _, _, w6, _, w8⟩ :=
      save_bwd_ptr_update_eq fuel ngs s' _ _ _ _ _ hw h
    obtain ⟨b1, b2, b3⟩ : ngs0.bpidx ≤ ngs.word_lat_idx c.w ∧
        ngs.word_lat_idx c.w < ngs.bpidx ∧ (ngs.bp_table (ngs.word_lat_idx c.w)).wid = c.w := by
      rcases hwl c.w with e | e
      · exact absurd e hw
      · exact e
    obtain ⟨c1, c2, c3, c4, c5, c6, c7⟩ := hent _ b1 b2
    rw [b3] at c2 c4 c6
    have hrne : c.rc ≠ g (ngs.word_lat_idx c.w) := by
      intro e
      rw [← e] at c6
      exact hnew c6
    subst he
    refine ⟨hd, hbp, hbs, ?_, ?_, ?_, ?_, ?_⟩
    · intro w
      dsimp only
      rcases hwl w with e | ⟨e1, e2, e3⟩
      · exact Or.inl e
      · right
        refine ⟨e1, e2, ?_⟩
        by_cases hww : ngs.word_lat_idx w = ngs.word_lat_idx c.w
        · rw [hww, store_same, w1, ← hww, e3]
        · rw [store_ne _ _ _ _ hww, e3]
    · intro i hi1 hi2
      dsimp only at hi2 ⊢
      by_cases hi : i = ngs.word_lat_idx c.w
      · subst hi
        rw [store_same, w1, w3, b3]
        refine ⟨c1, c2, ?_⟩
        by_cases hs : (ngs.bp_table (ngs.word_lat_idx c.w)).score < c.score
        · have hg : saved_rc_step ngs g c = store g (ngs.word_lat_idx c.w) c.rc := by
            simp [saved_rc_step, hw, hs]
          rw [hg, store_same, store_same, w6, max_eq_right (le_of_lt hs)]
          exact ⟨hrc.1, hrc.2, rfl, List.mem_cons_self _ _, rfl⟩
        · have hg : saved_rc_step ngs g c = g := by
            simp [saved_rc_step, hw, hs]
          rw [hg, store_ne _ _ _ _ (by omega), w8 hs]
          exact ⟨c3, c4, c5, List.mem_cons_of_mem _ c6, rfl⟩
      · obtain ⟨a1, a2, a3, a4, a5, a6, a7⟩ := hent i hi1 hi2
        have hgi : saved_rc_step ngs g c i = g i := by
          simp only [saved_rc_step, if_pos hw]
          split
          · rw [store_ne _ _ _ _ hi]
          · rfl
        rw [hgi, store_ne _ _ _ _ hi]
        refine ⟨a1, a2, a3, a4, ?_, List.mem_cons_of_mem _ a6, a7⟩
        have hne : (ngs.bp_table i).s_idx + g i
            ≠ (ngs.bp_table (ngs.word_lat_idx c.w)).s_idx + c.rc := by
          rcases lt_or_gt_of_ne hi with hlt | hgt
          · have := hord i _ hi1 hlt b2
            omega
          · have := hord _ i b1 hgt hi2
            rw [b3] at this
            omega
        rw [store_ne _ _ _ _ hne]
        exact a5
    · intro i j hi hij hj
      dsimp only at hj ⊢
      have key : ∀ k, (store ngs.bp_table (ngs.word_lat_idx c.w) e' k).s_idx
            = (ngs.bp_table k).s_idx ∧
          (store ngs.bp_table (ngs.word_lat_idx c.w) e' k).wid = (ngs.bp_table k).wid := by
        intro k
        by_cases hk : k = ngs.word_lat_idx c.w
        · rw [hk, store_same]
          exact ⟨w3, w1⟩
        · rw [store_ne _ _ _ _ hk]
          exact ⟨rfl, rfl⟩
      rw [(key i).1, (key i).2, (key j).1]
      exact hord i j hi hij hj
    · intro i hi
      dsimp only
      have hgi : saved_rc_step ngs g c i = g i := by
        simp only [saved_rc_step, if_pos hw]
        split
        · rw [store_ne _ _ _ _ (by omega)]
        · rfl
      rw [hgi, store_ne _ _ _ _ (by omega)]
      exact hold i hi
    · intro j hj
      dsimp only
      rw [store_ne _ _ _ _ (by omega)]
      exact hstk j hj

/-- The agreement invariant survives a whole sequence of calls whose pairs
`(w, rc)` are pairwise distinct, unseen, and within the right contexts of `w`. -/
theorem agree_inv_seq (fuel : Nat) (ngs0 : ngram_search_t) (g0 : Int → Int)
    (hb0 : 0 ≤ ngs0.bpidx) (calls : List bwd_call) :
    ∀ (ngs : ngram_search_t) (g : Int → Int) (seen : List (Int × Int))
      (s' : ngram_search_t) (g' : Int → Int),
      agree_inv ngs0 g0 ngs g seen →
      (calls.map (fun c => (c.w, c.rc))).Nodup →
      (∀ c ∈ calls, (c.w, c.rc) ∉ seen) →
      (∀ c ∈ calls, 0 ≤ c.rc ∧ c.rc < exit_rcsize ngs0.dict (ngs0.dict.dict_list c.w)) →
      save_bwd_ptr_seq fuel ngs g calls = Except.ok (s', g') →
      ∃ seen', agree_inv ngs0 g0 s' g' seen' := by
  induction calls with
  | nil =>
    intro ngs g seen s' g' hinv _ _ _ h
    simp only [save_bwd_ptr_seq, Except.ok.injEq, Prod.mk.injEq] at h
    obtain ⟨h1, h2⟩ := h
    subst h1
    subst h2
    exact ⟨seen, hinv⟩
  | cons c cs ih =>
    intro ngs g seen s' g' hinv hnd hseen hrc h
    simp only [save_bwd_ptr_seq] at h
    split at h
    · simp at h
    · rename_i ngs1 h1
      have hstep := agree_inv_step fuel ngs0 g0 ngs ngs1 g seen c hb0 hinv
        (hseen c (List.mem_cons_self _ _)) (hrc c (List.mem_cons_self _ _)) h1
      rw [List.map_cons, List.nodup_cons] at hnd
      apply ih ngs1 (saved_rc_step ngs g c) ((c.w, c.rc) :: seen) s' g' hstep hnd.2
      · intro d hd hmem
        rcases List.mem_cons.mp hmem with e | e
        · apply hnd.1
          rw [← e]
          exact List.mem_map.mpr ⟨d, hd, rfl⟩
        · exact hseen d (List.mem_cons_of_mem _ hd) e
      · intro d hd
        exact hrc d (List.mem_cons_of_mem _ hd)
      · exact h

/-- C7. Score/stack agreement: after any sequence of
`save_bwd_ptr` calls of one frame (started with `word_lat_idx` all `NO_BP`) in
which no pair `(w, rc)` occurs twice and every `rc` is one of the `rcsize`
right contexts of `w`, every entry `e` saved by the sequence satisfies
`bscore_stack[e.s_idx + rc] == e.score` for the right-context index `rc` at
which its score was saved; an older entry whose slot lies below the old
`bss_head` keeps its fields and its slot. -/
theorem save_bwd_ptr_seq_agree (fuel : Nat) (ngs0 s' : ngram_search_t) (g0 g' : Int → Int)
    (calls : List bwd_call)
    (hb0 : 0 ≤ ngs0.bpidx) (hl : ∀ w, ngs0.word_lat_idx w = NO_BP)
    (hnd : (calls.map (fun c => (c.w, c.rc))).Nodup)
    (hrc : ∀ c ∈ calls, 0 ≤ c.rc ∧ c.rc < exit_rcsize ngs0.dict (ngs0.dict.dict_list c.w))
    (h : save_bwd_ptr_seq fuel ngs0 g0 calls = Except.ok (s', g')) :
    (∀ i, ngs0.bpidx ≤ i → i < s'.bpidx →
      s'.bscore_stack ((s'.bp_table i).s_idx + g' i) = (s'.bp_table i).score) ∧
    (∀ i, i < ngs0.bpidx → (ngs0.bp_table i).s_idx + g0 i < ngs0.bss_head →
      s'.bp_table i = ngs0.bp_table i ∧ g' i = g0 i ∧
      s'.bscore_stack ((s'.bp_table i).s_idx + g' i)
        = ngs0.bscore_stack ((ngs0.bp_table i).s_idx + g0 i)) := by
  have hinit : agree_inv ngs0 g0 ngs0 g0 [] := by
    refine ⟨rfl, le_refl _, le_refl _, fun w => Or.inl (hl w), ?_, ?_, fun i _ => ⟨rfl, rfl⟩,
      fun j _ => rfl⟩
    · intro i h1 h2
      omega
    · intro i j h1 h2 h3
      omega
  obtain ⟨seen', _, _, _, _, hent, _, hold, hstk⟩ :=
    agree_inv_seq fuel ngs0 g0 hb0 calls ngs0 g0 [] s' g' hinit hnd
      (fun c _ hm => by simp at hm) hrc h
  constructor
  · intro i h1 h2
    exact (hent i h1 h2).2.2.2.2.1
  · intro i h1 h2
    obtain ⟨a, b⟩ := hold i h1
    refine ⟨a, b, ?_⟩
    rw [a, b]
    exact hstk _ h2

/-- Two exits of the two-context word 2 for right contexts 0 and 1: the
entry keeps score -40, saved at right context 0, and slot 0 holds -40. -/
theorem save_bwd_ptr_seq_agree_witness :
    ∃ s' g', save_bwd_ptr_seq 10 ex_mpx_ngs (fun _ => 0) ex_calls_two_rc = Except.ok (s', g') ∧
      s'.bpidx = 5 ∧ g' 4 = 0 ∧ (s'.bp_table 4).score = -40 ∧
      ∀ i, ex_mpx_ngs.bpidx ≤ i → i < s'.bpidx →
        s'.bscore_stack ((s'.bp_table i).s_idx + g' i) = (s'.bp_table i).score :=
  have hrun : ∃ s' g',
      save_bwd_ptr_seq 10 ex_mpx_ngs (fun _ => 0) ex_calls_two_rc = Except.ok (s', g') ∧
      s'.bpidx = 5 ∧ g' 4 = 0 ∧ (s'.bp_table 4).score = -40 :=
    ⟨_, _, rfl, by decide, by decide, by decide⟩
  match hrun with
  | ⟨s', g', h, a, b, c⟩ =>
    ⟨s', g', h, a, b, c,
      (save_bwd_ptr_seq_agree 10 ex_mpx_ngs s' (fun _ => 0) g' ex_calls_two_rc (by decide)
        (fun _ => rfl) (by decide) (by decide) h).1⟩

/-! ### Loops -/

/-- Invariant rule for `iter_up`, the invariant depending on the index. -/
theorem iter_up_ind {σ : Type} (P : Int → σ → Prop) (body : Int → σ → σ) (n : Nat) :
    ∀ (lo : Int) (s : σ), (∀ i s, lo ≤ i → i < lo + n → P i s → P (i + 1) (body i s)) →
      P lo s → P (lo + n) (iter_up body n lo s) := by
  induction n with
  | zero =>
    intro lo s _ h0
    simpa [iter_up] using h0
  | succ n ih =>
    intro lo s h h0
    have h1 : P (lo + 1) (body lo s) := h lo s (le_refl _) (by push_cast; omega) h0
    have h2 := ih (lo + 1) (body lo s)
      (fun i t hi1 hi2 => h i t (by omega) (by push_cast; omega)) h1
    have e : lo + ((n + 1 : Nat) : Int) = lo + 1 + (n : Int) := by push_cast; ring
    rw [e]
    exact h2

/-- Invariant rule for `iter_up`. -/
theorem iter_up_inv {σ : Type} (P : σ → Prop) (body : Int → σ → σ) (n : Nat) (lo : Int)
    (s : σ) (h : ∀ i s, lo ≤ i → i < lo + n → P s → P (body i s)) (h0 : P s) :
    P (iter_up body n lo s) :=
  iter_up_ind (fun _ => P) body n lo s h h0

/-- Invariant rule for `iter_down`. -/
theorem iter_down_inv {σ : Type} (P : σ → Prop) (body : Int → σ → σ) (n : Nat) :
    ∀ (hi : Int) (s : σ), (∀ i s, hi - n < i → i ≤ hi → P s → P (body i s)) →
      P s → P (iter_down body n hi s) := by
  induction n with
  | zero =>
    intro hi s _ h0
    simpa [iter_down] using h0
  | succ n ih =>
    intro hi s h h0
    have h1 : P (body hi s) := h hi s (by push_cast; omega) (le_refl _) h0
    exact ih (hi - 1) (body hi s)
      (fun i t hi1 hi2 => h i t (by push_cast; omega) (by omega)) h1

/-- Invariant rule for `for_up`, the invariant depending on the index. -/
theorem for_up_ind {σ : Type} (P : Int → σ → Prop) (body : Int → σ → Except Fault σ)
    (n : Nat) :
    ∀ (lo : Int) (s s1 : σ),
      (∀ i s s1, lo ≤ i → i < lo + n → P i s → body i s = Except.ok s1 → P (i + 1) s1) →
      P lo s → for_up body n lo s = Except.ok s1 → P (lo + n) s1 := by
  induction n with
  | zero =>
    intro lo s s1 _ h0 hr
    simp only [for_up, Except.ok.injEq] at hr
    subst hr
    simpa using h0
  | succ n ih =>
    intro lo s s1 h h0 hr
    simp only [for_up] at hr
    split at hr
    · simp at hr
    · rename_i t ht
      have h1 : P (lo + 1) t := h lo s t (le_refl _) (by push_cast; omega) h0 ht
      have h2 := ih (lo + 1) t s1
        (fun i u u1 hi1 hi2 => h i u u1 (by omega) (by push_cast; omega)) h1 hr
      have e : lo + ((n + 1 : Nat) : Int) = lo + 1 + (n : Int) := by push_cast; ring
      rw [e]
      exact h2

/-- Invariant rule for `for_up`. -/
theorem for_up_inv {σ : Type} (P : σ → Prop) (body : Int → σ → Except Fault σ)
    (n : Nat) (lo : Int) (s s1 : σ)
    (h : ∀ i s s1, lo ≤ i → i < lo + n → P s → body i s = Except.ok s1 → P s1)
    (h0 : P s) (hr : for_up body n lo s = Except.ok s1) : P s1 :=
  for_up_ind (fun _ => P) body n lo s s1 h h0 hr

/-- Invariant rule for `for_list`. -/
theorem for_list_inv {σ : Type} (P : σ → Prop) (stop : Int → Bool) (next : σ → Int → Int)
    (body : Int → σ → Except Fault σ)
    (h : ∀ p s s1, stop p = false → P s → body p s = Except.ok s1 → P s1) (fuel : Nat) :
    ∀ (p : Int) (s s1 : σ), P s → for_list stop next body fuel p s = Except.ok s1 → P s1 := by
  induction fuel with
  | zero =>
    intro p s s1 _ hr
    simp [for_list] at hr
  | succ n ih =>
    intro p s s1 h0 hr
    simp only [for_list] at hr
    split at hr
    · simp only [Except.ok.injEq] at hr
      subst hr
      exact h0
    · rename_i hs
      split at hr
      · simp at hr
      · rename_i t ht
        exact ih _ t s1 (h p s t (by simpa using hs) h0 ht) hr

/-! ### Histories of an HMM -/

theorem hmm_below_mono (B C : Int) (h : hmm_t) (hBC : B ≤ C) (hb : hmm_below B h) :
    hmm_below C h :=
  ⟨lt_of_lt_of_le hb.1 hBC, lt_of_lt_of_le hb.2.1 hBC,
    fun p hp => lt_of_lt_of_le (hb.2.2 p hp) hBC⟩

theorem hmm_below_enter (B : Int) (h : hmm_t) (score hist fr : Int) (hb : hmm_below B h)
    (hh : hist < B) : hmm_below B (hmm_enter h score hist fr) :=
  ⟨hh, hb.2.1, hb.2.2⟩

theorem hmm_below_set_frame (B : Int) (h : hmm_t) (fr : Int) (hb : hmm_below B h) :
    hmm_below B (hmm_set_frame h fr) := hb

theorem hmm_below_set_ssid (B : Int) (h : hmm_t) (ssid : Int) (hb : hmm_below B h) :
    hmm_below B (hmm_set_ssid h ssid) := hb

theorem hmm_below_clear_scores (B : Int) (h : hmm_t) (hb : hmm_below B h) :
    hmm_below B (hmm_clear_scores h) := by
  refine ⟨hb.1, hb.2.1, ?_⟩
  intro p hp
  simp only [hmm_clear_scores, List.mem_map] at hp
  obtain ⟨q, hq, rfl⟩ := hp
  exact hb.2.2 q hq

theorem hmm_below_normalize (B : Int) (h : hmm_t) (norm : Int) (hb : hmm_below B h) :
    hmm_below B (hmm_normalize h norm) := by
  refine ⟨hb.1, hb.2.1, ?_⟩
  intro p hp
  simp only [hmm_normalize, List.mem_map] at hp
  obtain ⟨q, hq, rfl⟩ := hp
  exact hb.2.2 q hq

theorem hmm_below_clear (B : Int) (h : hmm_t) (hB : 0 ≤ B) : hmm_below B (hmm_clear h) := by
  refine ⟨by show (-1 : Int) < B; omega, by show (-1 : Int) < B; omega, ?_⟩
  intro p hp
  simp only [hmm_clear, List.mem_map] at hp
  obtain ⟨q, _, rfl⟩ := hp
  show (-1 : Int) < B
  omega

theorem hmm_below_init (B : Int) (n : Nat) (mpx : Bool) (ssid tmatid : Int) (hB : 0 ≤ B) :
    hmm_below B (hmm_init n mpx ssid tmatid) := by
  refine ⟨by show (-1 : Int) < B; omega, by show (-1 : Int) < B; omega, ?_⟩
  intro p hp
  simp only [hmm_init, List.mem_replicate] at hp
  obtain ⟨_, rfl⟩ := hp
  show (-1 : Int) < B
  omega

/-! ### Writes that keep the histories and scratch indices bounded -/

theorem hist_ok_set_root_hmm (B : Int) (d : decoder_t) (i : Int) (h : hmm_t)
    (hd : hist_ok B d) (hh : hmm_below B h) : hist_ok B (set_root_hmm d i h) := by
  refine ⟨?_, hd.2.1, hd.2.2⟩
  intro j
  show hmm_below B (store d.root_chan i _ j).hmm
  by_cases hj : j = i
  · subst hj
    rw [store_same]
    exact hh
  · rw [store_ne _ _ _ _ hj]
    exact hd.1 j

theorem hist_ok_set_chan_hmm (B : Int) (d : decoder_t) (a : Int) (h : hmm_t)
    (hd : hist_ok B d) (hh : hmm_below B h) : hist_ok B (set_chan_hmm d a h) := by
  refine ⟨hd.1, ?_, hd.2.2⟩
  intro j
  show hmm_below B (store d.chan a _ j).hmm
  by_cases hj : j = a
  · subst hj
    rw [store_same]
    exact hh
  · rw [store_ne _ _ _ _ hj]
    exact hd.2.1 j

theorem hist_ok_set_rhmm_hmm (B : Int) (d : decoder_t) (w : Int) (h : hmm_t)
    (hd : hist_ok B d) (hh : hmm_below B h) : hist_ok B (set_rhmm_hmm d w h) := by
  refine ⟨hd.1, hd.2.1, ?_⟩
  intro j
  show hmm_below B (store d.all_rhmm w _ j).hmm
  by_cases hj : j = w
  · subst hj
    rw [store_same]
    exact hh
  · rw [store_ne _ _ _ _ hj]
    exact hd.2.2 j

theorem hist_ok_mono (B C : Int) (d : decoder_t) (hBC : B ≤ C) (hd : hist_ok B d) :
    hist_ok C d :=
  ⟨fun i => hmm_below_mono B C _ hBC (hd.1 i), fun a => hmm_below_mono B C _ hBC (hd.2.1 a),
    fun w => hmm_below_mono B C _ hBC (hd.2.2 w)⟩

theorem scratch_ok_mono (B C : Int) (d : decoder_t) (hBC : B ≤ C) (hd : scratch_ok B d) :
    scratch_ok C d :=
  ⟨fun rc => (hd.1 rc).imp (fun h => lt_of_lt_of_le h hBC) id,
    fun w => (hd.2 w).imp (fun h => lt_of_lt_of_le h hBC) id⟩

theorem scratch_ok_set_ltrans (B : Int) (d : decoder_t) (w : Int) (v : last_ltrans_t)
    (hd : scratch_ok B d) (hv : v.bp < B ∨ v.bp ≤ 0) : scratch_ok B (set_ltrans d w v) := by
  refine ⟨hd.1, ?_⟩
  intro j
  show (store d.last_ltrans w v j).bp < B ∨ (store d.last_ltrans w v j).bp ≤ 0
  by_cases hj : j = w
  · subst hj
    rw [store_same]
    exact hv
  · rw [store_ne _ _ _ _ hj]
    exact hd.2 j

theorem scratch_ok_set_bestbp_rc (B : Int) (d : decoder_t) (rc : Int) (v : bestbp_rc_t)
    (hd : scratch_ok B d) (hv : v.path < B ∨ v.path ≤ 0) :
    scratch_ok B (set_bestbp_rc d rc v) := by
  refine ⟨?_, hd.2⟩
  intro j
  show (store d.bestbp_rc rc v j).path < B ∨ (store d.bestbp_rc rc v j).path ≤ 0
  by_cases hj : j = rc
  · subst hj
    rw [store_same]
    exact hv
  · rw [store_ne _ _ _ _ hj]
    exact hd.1 j

theorem frame_ok_set_root_hmm (f B : Int) (d : decoder_t) (i : Int) (h : hmm_t)
    (hd : frame_ok f B d) (hh : hmm_below B h) : frame_ok f B (set_root_hmm d i h) :=
  ⟨hd.1, hd.2.1, hist_ok_set_root_hmm B d i h hd.2.2.1 hh, hd.2.2.2⟩

theorem frame_ok_set_chan_hmm (f B : Int) (d : decoder_t) (a : Int) (h : hmm_t)
    (hd : frame_ok f B d) (hh : hmm_below B h) : frame_ok f B (set_chan_hmm d a h) :=
  ⟨hd.1, hd.2.1, hist_ok_set_chan_hmm B d a h hd.2.2.1 hh, hd.2.2.2⟩

theorem frame_ok_set_rhmm_hmm (f B : Int) (d : decoder_t) (w : Int) (h : hmm_t)
    (hd : frame_ok f B d) (hh : hmm_below B h) : frame_ok f B (set_rhmm_hmm d w h) :=
  ⟨hd.1, hd.2.1, hist_ok_set_rhmm_hmm B d w h hd.2.2.1 hh, hd.2.2.2⟩

theorem frame_ok_set_ltrans (f B : Int) (d : decoder_t) (w : Int) (v : last_ltrans_t)
    (hd : frame_ok f B d) (hv : v.bp < B ∨ v.bp ≤ 0) : frame_ok f B (set_ltrans d w v) :=
  ⟨hd.1, hd.2.1, hd.2.2.1, scratch_ok_set_ltrans B d w v hd.2.2.2 hv⟩

/-! ### Renormalisation and the Viterbi step -/

/-- Renormalisation keeps the frame invariant. -/
theorem renormalize_scores_ok (fuel : Nat) (d d1 : decoder_t) (f B fi norm : Int)
    (hd : frame_ok f B d) (hr : renormalize_scores fuel d fi norm = Except.ok d1) :
    frame_ok f B d1 := by
  simp only [renormalize_scores] at hr
  split at hr
  · simp at hr
  · rename_i d3 h3
    simp only [Except.ok.injEq] at hr
    subst hr
    have key : ∀ X : decoder_t, frame_ok f B X → frame_ok f B { X with renormalized := true } :=
      fun X h => h
    apply key
    apply iter_up_inv (frame_ok f B)
    · intro i s _ _ hs
      dsimp only
      split
      · exact frame_ok_set_rhmm_hmm f B s _ _ hs (hmm_below_normalize B _ norm (hs.2.2.1.2.2 _))
      · exact hs
    · refine for_up_inv (frame_ok f B) _ _ _ _ _ ?_ ?_ h3
      · intro k s s1 _ _ hs hb
        refine for_list_inv (frame_ok f B) _ _ _ ?_ _ _ _ _ hs hb
        intro a t t1 _ ht hb1
        simp only [Except.ok.injEq] at hb1
        subst hb1
        exact frame_ok_set_chan_hmm f B t _ _ ht (hmm_below_normalize B _ norm (ht.2.2.1.2.1 _))
      · apply iter_up_inv (frame_ok f B)
        · intro k s _ _ hs
          exact frame_ok_set_chan_hmm f B s _ _ hs (hmm_below_normalize B _ norm (hs.2.2.1.2.1 _))
        · apply iter_up_inv (frame_ok f B)
          · intro i s _ _ hs
            dsimp only
            split
            · exact frame_ok_set_root_hmm f B s _ _ hs
                (hmm_below_normalize B _ norm (hs.2.2.1.1 _))
            · exact hs
          · exact hd

/-- The Viterbi step of the roots keeps the frame invariant. -/
theorem eval_root_chan_ok (env : env_t) (hv : vit_ok env) (d : decoder_t) (f B fi : Int)
    (hd : frame_ok f B d) : frame_ok f B (eval_root_chan env d fi).1 := by
  unfold eval_root_chan
  apply iter_up_inv (fun sb : decoder_t × Int => frame_ok f B sb.1)
  · intro i s _ _ hs
    dsimp only
    split
    · exact frame_ok_set_root_hmm f B s.1 _ _ hs (hv _ _ _ (hs.2.2.1.1 _))
    · exact hs
  · exact hd

/-- The Viterbi step of the tree nodes keeps the frame invariant. -/
theorem eval_nonroot_chan_ok (env : env_t) (hv : vit_ok env) (d : decoder_t) (f B fi : Int)
    (r : decoder_t × Int) (hd : frame_ok f B d)
    (hr : eval_nonroot_chan env d fi = Except.ok r) : frame_ok f B r.1 := by
  unfold eval_nonroot_chan at hr
  refine for_up_inv (fun sb : decoder_t × Int => frame_ok f B sb.1) _ _ _ _ _ ?_ ?_ hr
  · intro k s s1 _ _ hs hb
    dsimp only at hb
    split at hb
    · simp only [Except.ok.injEq] at hb
      subst hb
      exact frame_ok_set_chan_hmm f B s.1 _ _ hs (hv _ _ _ (hs.2.2.1.2.1 _))
    · simp at hb
  · exact hd

/-- The Viterbi step of the leaves and single-phone channels keeps the frame
invariant. -/
theorem eval_word_chan_ok (env : env_t) (hv : vit_ok env) (fuel : Nat) (d : decoder_t)
    (f B fi : Int) (r : decoder_t × Int) (hd : frame_ok f B d)
    (hr : eval_word_chan env fuel d fi = Except.ok r) : frame_ok f B r.1 := by
  unfold eval_word_chan at hr
  split at hr
  · simp at hr
  · rename_i d1 best1 k h1
    simp only [Except.ok.injEq] at hr
    subst hr
    have key : ∀ (X : decoder_t) (a b c : Int), frame_ok f B X →
        frame_ok f B
          { X with n_last_chan_eval := a, n_nonroot_chan_eval := b, n_word_lastchan_eval := c } :=
      fun X _ _ _ h => h
    apply key
    apply iter_up_inv (fun sb : decoder_t × Int × Int => frame_ok f B sb.1)
    · intro i s _ _ hs
      dsimp only
      split
      · exact hs
      · exact frame_ok_set_rhmm_hmm f B s.1 _ _ hs (hv _ _ _ (hs.2.2.1.2.2 _))
    · have h2 := for_up_inv (fun sb : decoder_t × Int × Int => frame_ok f B sb.1) _ _ _ _ _
        ?_ hd h1
      · exact h2
      · intro i s s1 _ _ hs hb
        dsimp only at hb
        split at hb
        · simp at hb
        · split at hb
          · simp at hb
          · refine for_list_inv (fun sb : decoder_t × Int × Int => frame_ok f B sb.1)
              _ _ _ ?_ _ _ _ _ ?_ hb
            · intro a t t1 _ ht hb1
              split at hb1
              · simp only [Except.ok.injEq] at hb1
                subst hb1
                exact frame_ok_set_chan_hmm f B t.1 _ _ ht (hv _ _ _ (ht.2.2.1.2.1 _))
              · simp at hb1
            · exact hs

/-- The Viterbi step of every active HMM keeps the frame invariant. -/
theorem evaluate_channels_ok (env : env_t) (hv : vit_ok env) (fuel : Nat) (d d1 : decoder_t)
    (f B fi : Int) (hd : frame_ok f B d)
    (hr : evaluate_channels env fuel d fi = Except.ok d1) : frame_ok f B d1 := by
  unfold evaluate_channels at hr
  dsimp only at hr
  split at hr
  · simp at hr
  · rename_i d2 bs2 h2
    split at hr
    · simp at hr
    · rename_i d4 bs4 h4
      simp only [Except.ok.injEq] at hr
      subst hr
      have e1 : frame_ok f B d2 := by
        refine eval_nonroot_chan_ok env hv _ f B fi _ ?_ h2
        exact eval_root_chan_ok env hv d f B fi hd
      have e2 : frame_ok f B d4 := by
        refine eval_word_chan_ok env hv fuel _ f B fi _ ?_ h4
        split
        · exact e1
        · exact e1
      show frame_ok f B _
      split
      · exact e2
      · exact e2

/-! ### Pruning of the tree channels -/

/-- The frame invariant together with the bound on the candidates. -/
theorem cands_ok_add_cand (B : Int) (d : decoder_t) (w score bp : Int) (hd : cands_ok B d)
    (hbp : bp < B) : cands_ok B (add_cand d w score bp) := by
  intro i h0 hi
  show (store d.lastphn_cand d.n_lastphn_cand _ i).bp < B
  by_cases hj : i = d.n_lastphn_cand
  · subst hj
    rw [store_same]
    exact hbp
  · rw [store_ne _ _ _ _ hj]
    have hi1 : i < d.n_lastphn_cand + 1 := hi
    exact hd i h0 (by omega)

theorem cands_ok_set_cand (B : Int) (d : decoder_t) (i : Int) (v : lastphn_cand_t)
    (hd : cands_ok B d) (hv : v.bp < B) : cands_ok B (set_cand d i v) := by
  intro j h0 hj
  show (store d.lastphn_cand i v j).bp < B
  by_cases hji : j = i
  · subst hji
    rw [store_same]
    exact hv
  · rw [store_ne _ _ _ _ hji]
    exact hd j h0 hj

/-- Emitting the candidates of a homophone chain keeps the invariants when the
history handed on is below `B`. -/
theorem emit_cands_ok (fuel : Nat) (d d1 : decoder_t) (f B w0 score bp : Int)
    (hd : frame_ok f B d ∧ cands_ok B d) (hbp : bp < B)
    (hr : emit_cands fuel d w0 score bp = Except.ok d1) :
    frame_ok f B d1 ∧ cands_ok B d1 := by
  unfold emit_cands at hr
  refine for_list_inv (fun s : decoder_t => frame_ok f B s ∧ cands_ok B s) _ _ _ ?_ _ _ _ _ hd hr
  intro w s s1 _ hs hb
  simp only [Except.ok.injEq] at hb
  subst hb
  exact ⟨hs.1, cands_ok_add_cand B s _ _ _ hs.2 hbp⟩

/-- Pruning the roots keeps the invariants. -/
theorem prune_root_chan_ok (fuel : Nat) (d d1 : decoder_t) (f B fi : Int)
    (hd : frame_ok f B d ∧ cands_ok B d)
    (hr : prune_root_chan fuel d fi = Except.ok d1) :
    frame_ok f B d1 ∧ cands_ok B d1 := by
  unfold prune_root_chan at hr
  dsimp only at hr
  split at hr
  · simp at hr
  · rename_i d2 n h2
    simp only [Except.ok.injEq] at hr
    subst hr
    have h3 := for_up_inv (fun sn : decoder_t × Int => frame_ok f B sn.1 ∧ cands_ok B sn.1)
      _ _ _ _ _ ?_ hd h2
    · exact h3
    · intro i sn sn1 _ _ hs hb
      split at hb
      · simp only [Except.ok.injEq] at hb
        subst hb
        exact hs
      · split at hb
        · have hs1 : frame_ok f B
              (set_root_hmm sn.1 i (hmm_set_frame (sn.1.root_chan i).hmm (fi + 1))) ∧
              cands_ok B (set_root_hmm sn.1 i (hmm_set_frame (sn.1.root_chan i).hmm (fi + 1))) :=
            ⟨frame_ok_set_root_hmm f B sn.1 _ _ hs.1 (hs.1.2.2.1.1 _), hs.2⟩
          split at hb
          · split at hb
            · simp at hb
            · rename_i s2 n2 hl
              have hs2 := for_list_inv
                (fun t : decoder_t × Int => frame_ok f B t.1 ∧ cands_ok B t.1) _ _ _ ?_ _ _ _ _
                hs1 hl
              · split at hb
                · split at hb
                  · simp at hb
                  · rename_i s3 he
                    simp only [Except.ok.injEq] at hb
                    subst hb
                    exact emit_cands_ok fuel s2 s3 f B _ _ _ hs2 (hs2.1.2.2.1.1 _).2.1 he
                · simp only [Except.ok.injEq] at hb
                  subst hb
                  exact hs2
              · intro a t t1 _ ht hb1
                split at hb1
                · simp only [Except.ok.injEq] at hb1
                  subst hb1
                  exact ⟨frame_ok_set_chan_hmm f B t.1 _ _ ht.1
                    (hmm_below_enter B _ _ _ _ (ht.1.2.2.1.2.1 _) (ht.1.2.2.1.1 _).2.1), ht.2⟩
                · simp only [Except.ok.injEq] at hb1
                  subst hb1
                  exact ht
          · simp only [Except.ok.injEq] at hb
            subst hb
            exact hs1
        · simp only [Except.ok.injEq] at hb
          subst hb
          exact hs

/-- Pruning the tree nodes keeps the invariants. -/
theorem prune_nonroot_chan_ok (fuel : Nat) (d d1 : decoder_t) (f B fi : Int)
    (hd : frame_ok f B d ∧ cands_ok B d)
    (hr : prune_nonroot_chan fuel d fi = Except.ok d1) :
    frame_ok f B d1 ∧ cands_ok B d1 := by
  unfold prune_nonroot_chan at hr
  dsimp only at hr
  split at hr
  · simp at hr
  · rename_i d2 n h2
    simp only [Except.ok.injEq] at hr
    subst hr
    have h3 := for_up_inv (fun sn : decoder_t × Int => frame_ok f B sn.1 ∧ cands_ok B sn.1)
      _ _ _ _ _ ?_ hd h2
    · exact h3
    · clear h2
      intro k sn sn1 _ _ hs hb
      split at hb
      · simp at hb
      · split at hb
        · generalize hX : (ite ((sn.1.chan (sn.1.active_chan_list (parity fi) k)).hmm.frame
            ≠ fi + 1) _ sn) = x at hb
          have hx : frame_ok f B x.1 ∧ cands_ok B x.1 := by
            rw [← hX]
            split
            · exact ⟨frame_ok_set_chan_hmm f B sn.1 _ _ hs.1 (hs.1.2.2.1.2.1 _), hs.2⟩
            · exact hs
          clear hX
          split at hb
          · split at hb
            · simp at hb
            · rename_i s2 n2 hl
              have hs2 := for_list_inv
                (fun t : decoder_t × Int => frame_ok f B t.1 ∧ cands_ok B t.1) _ _ _ ?_ _ _ _ _
                hx hl
              · split at hb
                · split at hb
                  · simp at hb
                  · rename_i s3 he
                    simp only [Except.ok.injEq] at hb
                    subst hb
                    exact emit_cands_ok fuel s2 s3 f B _ _ _ hs2 (hs2.1.2.2.1.2.1 _).2.1 he
                · simp only [Except.ok.injEq] at hb
                  subst hb
                  exact hs2
              · clear hl hb
                intro c t t1 _ ht hb1
                split at hb1
                · simp only [Except.ok.injEq] at hb1
                  subst hb1
                  generalize hY : (ite ((t.1.chan c).hmm.frame ≠ fi + 1) _ t) = y
                  have hy : frame_ok f B y.1 ∧ cands_ok B y.1 := by
                    rw [← hY]
                    split
                    · exact ht
                    · exact ht
                  exact ⟨frame_ok_set_chan_hmm f B y.1 _ _ hy.1
                    (hmm_below_enter B _ _ _ _ (hy.1.2.2.1.2.1 _) (hy.1.2.2.1.2.1 _).2.1), hy.2⟩
                · simp only [Except.ok.injEq] at hb1
                  subst hb1
                  exact ht
          · simp only [Except.ok.injEq] at hb
            subst hb
            exact hx
        · split at hb
          · simp only [Except.ok.injEq] at hb
            subst hb
            exact ⟨frame_ok_set_chan_hmm f B sn.1 _ _ hs.1
              (hmm_below_clear_scores B _ (hs.1.2.2.1.2.1 _)), hs.2⟩
          · simp only [Except.ok.injEq] at hb
            subst hb
            exact hs

/-! ### Allocation of the leaves -/

/-- The invariants carried through `last_phone_transition`: the frame
invariant, the bound on the candidates and their number `N`. -/
theorem hist_ok_init_leaf (B : Int) (d : decoder_t) (a next rc_id ciphone ssid : Int)
    (hB : 0 ≤ B) (hd : hist_ok B d) : hist_ok B (init_leaf d a next rc_id ciphone ssid) := by
  refine ⟨hd.1, ?_, hd.2.2⟩
  intro j
  show hmm_below B (store d.chan a _ j).hmm
  by_cases hj : j = a
  · subst hj
    rw [store_same]
    exact hmm_below_init B _ _ _ _ hB
  · rw [store_ne _ _ _ _ hj]
    exact hd.2.1 j

theorem hist_ok_set_chan_next (B : Int) (d : decoder_t) (a v : Int) (hd : hist_ok B d) :
    hist_ok B (set_chan_next d a v) := by
  refine ⟨hd.1, ?_, hd.2.2⟩
  intro j
  show hmm_below B (store d.chan a _ j).hmm
  by_cases hj : j = a
  · subst hj
    rw [store_same]
    exact hd.2.1 j
  · rw [store_ne _ _ _ _ hj]
    exact hd.2.1 j

/-- What `last_phone_transition` keeps: the frame invariant, the bound on the
candidates and their number. -/
theorem lpt_ok_init_leaf (f B N : Int) (d : decoder_t) (a next rc_id ciphone ssid : Int)
    (hd : frame_ok f B d ∧ cands_ok B d ∧ d.n_lastphn_cand = N) :
    frame_ok f B (init_leaf d a next rc_id ciphone ssid) ∧
      cands_ok B (init_leaf d a next rc_id ciphone ssid) ∧
      (init_leaf d a next rc_id ciphone ssid).n_lastphn_cand = N :=
  ⟨⟨hd.1.1, hd.1.2.1, hist_ok_init_leaf B d _ _ _ _ _ hd.1.1.1 hd.1.2.2.1, hd.1.2.2.2⟩,
    hd.2.1, hd.2.2⟩

theorem lpt_ok_set_chan_next (f B N : Int) (d : decoder_t) (a v : Int)
    (hd : frame_ok f B d ∧ cands_ok B d ∧ d.n_lastphn_cand = N) :
    frame_ok f B (set_chan_next d a v) ∧ cands_ok B (set_chan_next d a v) ∧
      (set_chan_next d a v).n_lastphn_cand = N :=
  ⟨⟨hd.1.1, hd.1.2.1, hist_ok_set_chan_next B d _ _ hd.1.2.2.1, hd.1.2.2.2⟩, hd.2.1, hd.2.2⟩

/-- The allocation loop over the right contexts keeps the invariants. -/
theorem alloc_rc_loop_ok (f B N : Int) (sseq_rc : Int → Int) (ciphone : Int) (fuel : Nat) :
    ∀ (i hmm : Int) (d d1 : decoder_t),
      frame_ok f B d ∧ cands_ok B d ∧ d.n_lastphn_cand = N →
      alloc_rc_loop sseq_rc ciphone fuel i hmm d = Except.ok d1 →
      frame_ok f B d1 ∧ cands_ok B d1 ∧ d1.n_lastphn_cand = N := by
  induction fuel with
  | zero =>
    intro i hmm d d1 _ hr
    simp [alloc_rc_loop] at hr
  | succ n ih =>
    intro i hmm d d1 hd hr
    simp only [alloc_rc_loop] at hr
    split at hr
    · split at hr
      · refine ih _ _ _ _ ?_ hr
        apply lpt_ok_set_chan_next
        apply lpt_ok_init_leaf
        exact hd
      · exact ih _ _ _ _ hd hr
    · simp only [Except.ok.injEq] at hr
      subst hr
      exact hd

/-- Allocating the leaves of a word keeps the invariants. -/
theorem alloc_all_rc_ok (f B N : Int) (fuel : Nat) (d d1 : decoder_t) (w : Int)
    (hd : frame_ok f B d ∧ cands_ok B d ∧ d.n_lastphn_cand = N)
    (hr : alloc_all_rc fuel d w = Except.ok d1) :
    frame_ok f B d1 ∧ cands_ok B d1 ∧ d1.n_lastphn_cand = N := by
  unfold alloc_all_rc at hr
  dsimp only at hr
  split at hr
  · simp at hr
  · split at hr
    · refine alloc_rc_loop_ok f B N _ _ fuel _ _ _ _ ?_ hr
      have key : ∀ X : decoder_t, (frame_ok f B X ∧ cands_ok B X ∧ X.n_lastphn_cand = N) →
          ∀ v, (frame_ok f B (set_word_chan X w v) ∧ cands_ok B (set_word_chan X w v) ∧
            (set_word_chan X w v).n_lastphn_cand = N) := fun X h _ => h
      apply key
      apply lpt_ok_init_leaf
      exact hd
    · exact alloc_rc_loop_ok f B N _ _ fuel _ _ _ _ hd hr

/-! ### `last_phone_transition` -/

theorem cands_ok_set_cand_same (B : Int) (d : decoder_t) (i : Int) (v : lastphn_cand_t)
    (hd : cands_ok B d) (hv : v.bp = (d.lastphn_cand i).bp) : cands_ok B (set_cand d i v) := by
  intro j h0 hj
  show (store d.lastphn_cand i v j).bp < B
  by_cases hji : j = i
  · subst hji
    rw [store_same, hv]
    exact hd j h0 hj
  · rw [store_ne _ _ _ _ hji]
    exact hd j h0 hj

theorem buckets_ok_set_bucket_same (B : Int) (d : decoder_t) (n j : Int) (v : cand_sf_t)
    (hv : v.bp_ef = (d.cand_sf j).bp_ef) (h : buckets_ok B d n) :
    buckets_ok B (set_bucket d j v) n := by
  intro k h0 hk
  show d.ngs.bp_table_idx ((store d.cand_sf j v k).bp_ef + 1) ≤ B
  by_cases hkj : k = j
  · subst hkj
    rw [store_same, hv]
    exact h k h0 hk
  · rw [store_ne _ _ _ _ hkj]
    exact h k h0 hk

theorem buckets_ok_new (B : Int) (d : decoder_t) (n : Int) (v : cand_sf_t)
    (h : buckets_ok B d n) (hef : d.ngs.bp_table_idx (v.bp_ef + 1) ≤ B) :
    buckets_ok B (set_bucket d n v) (n + 1) := by
  intro k h0 hk
  show d.ngs.bp_table_idx ((store d.cand_sf n v k).bp_ef + 1) ≤ B
  by_cases hkj : k = n
  · subst hkj
    rw [store_same]
    exact hef
  · rw [store_ne _ _ _ _ hkj]
    exact h k h0 (by omega)

theorem lpt_ok_set_cand_same (f B N : Int) (d : decoder_t) (n i : Int) (v : lastphn_cand_t)
    (hv : v.bp = (d.lastphn_cand i).bp) (hd : lpt_ok f B N (d, n)) :
    lpt_ok f B N (set_cand d i v, n) :=
  ⟨⟨hd.1.1, cands_ok_set_cand_same B d i v hd.1.2.1 hv, hd.1.2.2⟩, hd.2⟩

theorem lpt_ok_set_bucket_same (f B N : Int) (d : decoder_t) (n j : Int) (v : cand_sf_t)
    (hv : v.bp_ef = (d.cand_sf j).bp_ef) (hd : lpt_ok f B N (d, n)) :
    lpt_ok f B N (set_bucket d j v, n) :=
  ⟨hd.1, buckets_ok_set_bucket_same B d n j v hv hd.2⟩

theorem lpt_ok_new_bucket (f B N : Int) (d : decoder_t) (n : Int) (v : cand_sf_t)
    (hef : d.ngs.bp_table_idx (v.bp_ef + 1) ≤ B) (hd : lpt_ok f B N (d, n)) :
    lpt_ok f B N (set_bucket d n v, n + 1) :=
  ⟨hd.1, buckets_ok_new B d n v hd.2 hef⟩

theorem lpt_ok_set_ltrans_same (f B N : Int) (d : decoder_t) (n w : Int) (v : last_ltrans_t)
    (hv : v.bp = (d.last_ltrans w).bp) (hd : lpt_ok f B N (d, n)) :
    lpt_ok f B N (set_ltrans d w v, n) :=
  ⟨⟨frame_ok_set_ltrans f B d w v hd.1.1 (by rw [hv]; exact hd.1.1.2.2.2.2 w), hd.1.2.1,
    hd.1.2.2⟩, hd.2⟩

theorem lpt_ok_set_ltrans (f B N : Int) (d : decoder_t) (n w : Int) (v : last_ltrans_t)
    (hv : v.bp < B) (hd : lpt_ok f B N (d, n)) :
    lpt_ok f B N (set_ltrans d w v, n) :=
  ⟨⟨frame_ok_set_ltrans f B d w v hd.1.1 (Or.inl hv), hd.1.2.1, hd.1.2.2⟩, hd.2⟩

/-- Growing `cand_sf` changes nothing the invariants read. -/
theorem grow_cand_sf_ok (f B N : Int) (d : decoder_t) (n m : Int)
    (hd : lpt_ok f B N (d, m)) : lpt_ok f B N (grow_cand_sf d n, m) := by
  unfold grow_cand_sf
  split
  · split
    · exact hd
    · exact hd
  · exact hd

theorem grow_cand_sf_ngs (d : decoder_t) (n : Int) : (grow_cand_sf d n).ngs = d.ngs := by
  unfold grow_cand_sf
  split
  · split
    · rfl
    · rfl
  · rfl

/-- Finding or opening the bucket of a candidate, and heading it with the
candidate, keeps the invariants. -/
theorem lpt_find_bucket_ok (f B N : Int) (d : decoder_t) (i n ef : Int)
    (hef : d.ngs.bp_table_idx (ef + 1) ≤ B) (hd : lpt_ok f B N (d, n)) :
    lpt_ok f B N
      (set_bucket (lpt_find_bucket d i n ef).1 (lpt_find_bucket d i n ef).2.1
        { (lpt_find_bucket d i n ef).1.cand_sf (lpt_find_bucket d i n ef).2.1 with cand := i },
       (lpt_find_bucket d i n ef).2.2) := by
  unfold lpt_find_bucket
  dsimp only
  split
  · dsimp only
    apply lpt_ok_set_bucket_same
    · rfl
    · apply lpt_ok_set_cand_same
      · rfl
      · exact hd
  · dsimp only
    apply lpt_ok_set_bucket_same
    · rfl
    · apply lpt_ok_new_bucket
      · show (grow_cand_sf d n).ngs.bp_table_idx (ef + 1) ≤ B
        rw [grow_cand_sf_ngs]
        exact hef
      · apply lpt_ok_set_cand_same
        · rfl
        · exact grow_cand_sf_ok f B N d n n hd

/-- Step 1 of `last_phone_transition` keeps the invariants; when it returns,
the candidate has a predecessor, so the frame does not start at entry 0. -/
theorem lpt_bucket_ok (f B N : Int) (i : Int) (sn sn1 : decoder_t × Int)
    (hi0 : 0 ≤ i) (hiN : i < N) (hd : lpt_ok f B N sn)
    (hr : lpt_bucket i sn = Except.ok sn1) : lpt_ok f B N sn1 ∧ 1 ≤ B := by
  unfold lpt_bucket at hr
  simp only [bp_deref] at hr
  split at hr
  · simp at hr
  · rename_i bpe hbpe
    split at hbpe
    · simp at hbpe
    · rename_i hneg
      simp only [Except.ok.injEq] at hbpe
      have hlt : (sn.1.lastphn_cand i).bp < B := hd.1.2.1 i hi0 (by rw [hd.1.2.2]; exact hiN)
      have hef : sn.1.ngs.bp_table_idx (bpe.frame + 1) ≤ B := by
        rw [← hbpe]
        exact (hd.1.1.1.2.2.2.1 _ (by omega) hlt).2
      refine ⟨?_, by omega⟩
      split at hr
      · simp only [Except.ok.injEq] at hr
        subst hr
        apply lpt_ok_set_ltrans_same
        · rfl
        · apply lpt_ok_set_ltrans_same
          · rfl
          · apply lpt_find_bucket_ok
            · exact hef
            · apply lpt_ok_set_cand_same
              · rfl
              · exact hd
      · simp only [Except.ok.injEq] at hr
        subst hr
        apply lpt_ok_set_cand_same
        · rfl
        · exact hd

theorem toNat_range (i lo n : Int) (h1 : lo ≤ i) (h2 : i < lo + (n.toNat : Int)) :
    i < lo + n := by
  omega

/-- Step 2 of `last_phone_transition` for one entry below `B` keeps the
invariants. -/
theorem lpt_score_ok (env : env_t) (fuel : Nat) (f B N n bp j0 : Int) (d d1 : decoder_t)
    (hbp : bp < B) (hd : lpt_ok f B N (d, n))
    (hr : lpt_score env fuel bp j0 d = Except.ok d1) : lpt_ok f B N (d1, n) := by
  unfold lpt_score at hr
  dsimp only at hr
  split at hr
  · simp only [Except.ok.injEq] at hr
    subst hr
    exact hd
  · refine for_list_inv (fun s : decoder_t => lpt_ok f B N (s, n)) _ _ _ ?_ _ _ _ _ hd hr
    intro j s s1 _ hs hb
    split at hb
    · simp only [Except.ok.injEq] at hb
      subst hb
      apply lpt_ok_set_ltrans
      · exact hbp
      · apply lpt_ok_set_ltrans_same
        · rfl
        · exact hs
    · simp only [Except.ok.injEq] at hb
      subst hb
      exact hs

theorem cand_ok_set_cand (f B N : Int) (d : decoder_t) (i : Int) (v : lastphn_cand_t)
    (hv : v.bp < B) (hd : frame_ok f B d ∧ cands_ok B d ∧ d.n_lastphn_cand = N) :
    frame_ok f B (set_cand d i v) ∧ cands_ok B (set_cand d i v) ∧
      (set_cand d i v).n_lastphn_cand = N :=
  ⟨hd.1, cands_ok_set_cand B d i v hd.2.1 hv, hd.2.2⟩

theorem cand_ok_set_cand_same (f B N : Int) (d : decoder_t) (i : Int) (v : lastphn_cand_t)
    (hv : v.bp = (d.lastphn_cand i).bp)
    (hd : frame_ok f B d ∧ cands_ok B d ∧ d.n_lastphn_cand = N) :
    frame_ok f B (set_cand d i v) ∧ cands_ok B (set_cand d i v) ∧
      (set_cand d i v).n_lastphn_cand = N :=
  ⟨hd.1, cands_ok_set_cand_same B d i v hd.2.1 hv, hd.2.2⟩

theorem cand_ok_set_chan_hmm (f B N : Int) (d : decoder_t) (a : Int) (h : hmm_t)
    (hh : hmm_below B h) (hd : frame_ok f B d ∧ cands_ok B d ∧ d.n_lastphn_cand = N) :
    frame_ok f B (set_chan_hmm d a h) ∧ cands_ok B (set_chan_hmm d a h) ∧
      (set_chan_hmm d a h).n_lastphn_cand = N :=
  ⟨frame_ok_set_chan_hmm f B d a h hd.1 hh, hd.2.1, hd.2.2⟩

/-- Step 4 of `last_phone_transition` for one candidate keeps the
invariants. -/
theorem lpt_enter_ok (fuel : Nat) (f B N fi thresh i : Int) (sn sn1 : decoder_t × Int)
    (hi0 : 0 ≤ i) (hiN : i < N)
    (hd : frame_ok f B sn.1 ∧ cands_ok B sn.1 ∧ sn.1.n_lastphn_cand = N)
    (hr : lpt_enter fuel fi thresh i sn = Except.ok sn1) :
    frame_ok f B sn1.1 ∧ cands_ok B sn1.1 ∧ sn1.1.n_lastphn_cand = N := by
  unfold lpt_enter at hr
  dsimp only at hr
  split at hr
  · split at hr
    · simp at hr
    · rename_i d1 ha
      have h1 := alloc_all_rc_ok f B N fuel _ _ _ hd ha
      split at hr
      · simp at hr
      · rename_i d2 k hl
        have h2 := for_list_inv
          (fun t : decoder_t × Int =>
            frame_ok f B t.1 ∧ cands_ok B t.1 ∧ t.1.n_lastphn_cand = N) _ _ _ ?_ _ _ _ _ h1 hl
        · split at hr
          · split at hr
            · simp at hr
            · split at hr
              · simp at hr
              · simp only [Except.ok.injEq] at hr
                subst hr
                exact h2
          · simp only [Except.ok.injEq] at hr
            subst hr
            exact h2
        · clear hl hr
          intro a t t1 _ ht hb
          split at hb
          · split at hb
            · simp at hb
            · simp only [Except.ok.injEq] at hb
              subst hb
              apply cand_ok_set_chan_hmm
              · apply hmm_below_enter
                · exact ht.1.2.2.1.2.1 _
                · exact ht.2.1 i hi0 (by rw [ht.2.2]; exact hiN)
              · exact ht
          · simp only [Except.ok.injEq] at hb
            subst hb
            exact ht
  · simp only [Except.ok.injEq] at hr
    subst hr
    exact hd

/-- The last-phone transition keeps the frame invariant. -/
theorem last_phone_transition_ok (env : env_t) (fuel : Nat) (d d1 : decoder_t) (f B fi : Int)
    (hd : frame_ok f B d ∧ cands_ok B d)
    (hr : last_phone_transition env fuel d fi = Except.ok d1) : frame_ok f B d1 := by
  unfold last_phone_transition at hr
  dsimp only at hr
  split at hr
  · simp at hr
  · rename_i d2 ncs h1
    have hb0 : lpt_ok f B d.n_lastphn_cand
        ({ d with n_lastphn_cand_utt := d.n_lastphn_cand_utt + d.n_lastphn_cand }, 0) :=
      ⟨⟨hd.1, hd.2, rfl⟩, fun j h0 hj => absurd hj (by omega)⟩
    have hs1 : lpt_ok f B d.n_lastphn_cand (d2, ncs) ∧
        (0 < 0 + (d.n_lastphn_cand.toNat : Int) → 1 ≤ B) := by
      refine for_up_ind
        (fun i (sn : decoder_t × Int) => lpt_ok f B d.n_lastphn_cand sn ∧ (0 < i → 1 ≤ B))
        _ _ _ _ _ ?_ ⟨hb0, fun h => absurd h (lt_irrefl _)⟩ h1
      intro i sn sn1 hi0 hi1 hs hb
      have hiN : i < d.n_lastphn_cand := by
        have := toNat_range i 0 _ hi0 hi1
        omega
      have h := lpt_bucket_ok f B _ i sn sn1 hi0 hiN hs.1 hb
      exact ⟨h.1, fun _ => h.2⟩
    have hB1 : 0 < d.n_lastphn_cand → 1 ≤ B := by
      intro h
      apply hs1.2
      omega
    replace hs1 := hs1.1
    clear h1 hb0
    split at hr
    · simp at hr
    · rename_i d3 h2
      have hs2 : lpt_ok f B d.n_lastphn_cand (d3, ncs) := by
        refine for_up_inv (fun s : decoder_t => lpt_ok f B d.n_lastphn_cand (s, ncs))
          _ _ _ _ _ ?_ hs1 h2
        intro i s s1 hi0 hi1 hs hb
        have hin : i < ncs := by
          have := toNat_range i 0 _ hi0 hi1
          omega
        have hm := hs.2 i hi0 hin
        refine for_up_inv (fun s : decoder_t => lpt_ok f B d.n_lastphn_cand (s, ncs))
          _ _ _ _ _ ?_ hs hb
        intro bp t t1 hb0 hb1 ht hbt
        refine lpt_score_ok env fuel f B _ ncs bp _ t t1 ?_ ht hbt
        have := toNat_range bp _ _ hb0 hb1
        change s.ngs.bp_table_idx ((s.cand_sf i).bp_ef + 1) ≤ B at hm
        omega
      clear h2 hs1
      generalize hR : iter_up _ d3.n_lastphn_cand.toNat 0 (d3, d3.last_phone_best_score) = R
        at hr
      have hR1 : frame_ok f B R.1 ∧ cands_ok B R.1 ∧ R.1.n_lastphn_cand = d.n_lastphn_cand := by
        rw [← hR]
        apply iter_up_inv (fun sb : decoder_t × Int =>
          frame_ok f B sb.1 ∧ cands_ok B sb.1 ∧ sb.1.n_lastphn_cand = d.n_lastphn_cand)
        · intro i sb hi0 hi1 hsb
          have hN : 0 < d.n_lastphn_cand := by
            have h := hs2.1.2.2
            rw [h] at hi1
            have := toNat_range i 0 _ hi0 hi1
            omega
          have hB := hB1 hN
          have hall : ∀ w, (sb.1.last_ltrans w).bp < B := fun w =>
            (hsb.1.2.2.2.2 w).elim id (fun h => lt_of_le_of_lt h (by omega))
          apply cand_ok_set_cand
          · exact hall _
          · apply cand_ok_set_cand_same
            · rfl
            · exact hsb
        · exact hs2.1
      clear hR
      split at hr
      · simp at hr
      · rename_i d4 n h4
        simp only [Except.ok.injEq] at hr
        subst hr
        have h5 := for_up_inv
          (fun sn : decoder_t × Int =>
            frame_ok f B sn.1 ∧ cands_ok B sn.1 ∧ sn.1.n_lastphn_cand = d.n_lastphn_cand)
          _ _ _ _ _ ?_ ?_ h4
        · exact h5.1
        · intro i sn sn1 hi0 hi1 hs hb
          rw [hR1.2.2] at hi1
          have hiN : i < d.n_lastphn_cand := by
            have := toNat_range i 0 _ hi0 hi1
            omega
          exact lpt_enter_ok fuel f B _ fi _ i sn sn1 hi0 hiN hs hb
        · exact hR1

/-! ### Word exits -/

/-- A call of `save_bwd_ptr` for frame `f` with a history below `B` keeps the
backpointer part in order. -/
theorem save_bwd_ptr_bt_ok (fuel : Nat) (ngs s1 : ngram_search_t) (f B w score path rc : Int)
    (hb : bt_ok f B ngs) (hp : path < B)
    (hr : save_bwd_ptr fuel ngs f w score path rc = Except.ok s1) : bt_ok f B s1 := by
  obtain ⟨h0, hB, hm, hlo, hhi, hwl⟩ := hb
  by_cases hw : ngs.word_lat_idx w = NO_BP
  · obtain ⟨x, y, he⟩ := save_bwd_ptr_append_eq fuel ngs s1 f w score path rc hw hr
    subst he
    refine ⟨h0, ?_, hm, ?_, ?_, ?_⟩
    · show B ≤ ngs.bpidx + 1
      omega
    · intro i hi0 hiB
      show (store ngs.bp_table ngs.bpidx _ i).bp < i ∧
        ngs.bp_table_idx ((store ngs.bp_table ngs.bpidx _ i).frame + 1) ≤ B
      rw [store_ne _ _ _ _ (by omega)]
      exact hlo i hi0 hiB
    · intro i hiB hi
      show (store ngs.bp_table ngs.bpidx _ i).bp < B ∧
        (store ngs.bp_table ngs.bpidx _ i).frame = f
      have hi1 : i < ngs.bpidx + 1 := hi
      by_cases hie : i = ngs.bpidx
      · subst hie
        rw [store_same]
        exact ⟨hp, rfl⟩
      · rw [store_ne _ _ _ _ hie]
        exact hhi i hiB (by omega)
    · intro v
      show store ngs.word_lat_idx w ngs.bpidx v = NO_BP ∨
        (B ≤ store ngs.word_lat_idx w ngs.bpidx v ∧
          store ngs.word_lat_idx w ngs.bpidx v < ngs.bpidx + 1 ∧
          (store ngs.bp_table ngs.bpidx _ (store ngs.word_lat_idx w ngs.bpidx v)).wid = v)
      by_cases hv : v = w
      · subst hv
        rw [store_same, store_same]
        exact Or.inr ⟨hB, by omega, rfl⟩
      · rw [store_ne _ _ _ _ hv]
        rcases hwl v with h | ⟨h1, h2, h3⟩
        · exact Or.inl h
        · refine Or.inr ⟨h1, by omega, ?_⟩
          rw [store_ne _ _ _ _ (by omega)]
          exact h3
  · obtain ⟨e1, he, hwid, hfr, _, _, _, _, hbp, _⟩ :=
      save_bwd_ptr_update_eq fuel ngs s1 f w score path rc hw hr
    subst he
    have hin : B ≤ ngs.word_lat_idx w ∧ ngs.word_lat_idx w < ngs.bpidx ∧
        (ngs.bp_table (ngs.word_lat_idx w)).wid = w := by
      rcases hwl w with h | h
      · exact absurd h hw
      · exact h
    refine ⟨h0, hB, hm, ?_, ?_, ?_⟩
    · intro i hi0 hiB
      show (store ngs.bp_table (ngs.word_lat_idx w) e1 i).bp < i ∧
        ngs.bp_table_idx ((store ngs.bp_table (ngs.word_lat_idx w) e1 i).frame + 1) ≤ B
      rw [store_ne _ _ _ _ (by omega)]
      exact hlo i hi0 hiB
    · intro i hiB hi
      show (store ngs.bp_table (ngs.word_lat_idx w) e1 i).bp < B ∧
        (store ngs.bp_table (ngs.word_lat_idx w) e1 i).frame = f
      by_cases hie : i = ngs.word_lat_idx w
      · subst hie
        rw [store_same, hbp, hfr]
        refine ⟨?_, (hhi _ hiB hi).2⟩
        split
        · exact hp
        · exact (hhi _ hiB hi).1
      · rw [store_ne _ _ _ _ hie]
        exact hhi i hiB hi
    · intro v
      show ngs.word_lat_idx v = NO_BP ∨
        (B ≤ ngs.word_lat_idx v ∧ ngs.word_lat_idx v < ngs.bpidx ∧
          (store ngs.bp_table (ngs.word_lat_idx w) e1 (ngs.word_lat_idx v)).wid = v)
      rcases hwl v with h | ⟨h1, h2, h3⟩
      · exact Or.inl h
      · refine Or.inr ⟨h1, h2, ?_⟩
        by_cases hvw : ngs.word_lat_idx v = ngs.word_lat_idx w
        · rw [hvw, store_same, hwid, ← hvw]
          exact h3
        · rw [store_ne _ _ _ _ hvw]
          exact h3

theorem frame_ok_set_ngs (f B : Int) (d : decoder_t) (ngs : ngram_search_t)
    (hd : frame_ok f B d) (hn : bt_ok f B ngs) : frame_ok f B (set_ngs d ngs) :=
  ⟨hn, hd.2.1, hd.2.2.1, hd.2.2.2⟩

/-- Saving an exit with a history below `B` keeps the frame invariant. -/
theorem save_exit_ok (fuel : Nat) (d d1 : decoder_t) (f B w score path rc : Int)
    (hd : frame_ok f B d) (hp : path < B)
    (hr : save_exit fuel d f w score path rc = Except.ok d1) : frame_ok f B d1 := by
  unfold save_exit at hr
  split at hr
  · simp at hr
  · rename_i ngs1 hs
    simp only [Except.ok.injEq] at hr
    subst hr
    exact frame_ok_set_ngs f B d ngs1 hd (save_bwd_ptr_bt_ok fuel _ _ f B _ _ _ _ hd.1 hp hs)

theorem frame_ok_set_chan_next (f B : Int) (d : decoder_t) (a v : Int) (hd : frame_ok f B d) :
    frame_ok f B (set_chan_next d a v) :=
  ⟨hd.1, hd.2.1, hist_ok_set_chan_next B d a v hd.2.2.1, hd.2.2.2⟩

theorem frame_ok_write_link (f B : Int) (d : decoder_t) (l : link_t) (v : Int)
    (hd : frame_ok f B d) : frame_ok f B (write_link d l v) := by
  cases l with
  | head w => exact hd
  | next_of a => exact frame_ok_set_chan_next f B d a v hd

/-- Pruning the leaves of a word in frame `f` keeps the frame invariant. -/
theorem prune_leaves_ok (sfuel : Nat) (f B w nwt lpt : Int) (fuel : Nat) :
    ∀ (hmm : Int) (phmmp : link_t) (k : Int) (d : decoder_t) (r : decoder_t × Int),
      frame_ok f B d → prune_leaves sfuel f w nwt lpt fuel hmm phmmp k d = Except.ok r →
      frame_ok f B r.1 := by
  induction fuel with
  | zero =>
    intro hmm phmmp k d r _ hr
    simp [prune_leaves] at hr
  | succ n ih =>
    intro hmm phmmp k d r hd hr
    simp only [prune_leaves] at hr
    split at hr
    · simp only [Except.ok.injEq] at hr
      subst hr
      exact hd
    · split at hr
      · simp at hr
      · have h1 : frame_ok f B (set_chan_hmm d hmm (hmm_set_frame (d.chan hmm).hmm (f + 1))) :=
          frame_ok_set_chan_hmm f B d _ _ hd (hd.2.2.1.2.1 _)
        split at hr
        · split at hr
          · split at hr
            · simp at hr
            · rename_i d2 hs
              refine ih _ _ _ _ _ ?_ hr
              exact save_exit_ok sfuel _ d2 f B _ _ _ _ h1 (h1.2.2.1.2.1 _).2.1 hs
          · exact ih _ _ _ _ _ h1 hr
        · split at hr
          · exact ih _ _ _ _ _ hd hr
          · exact ih _ _ _ _ _ (frame_ok_write_link f B d _ _ hd) hr

/-- Pruning the word channels of frame `f`, with the exits it saves, keeps the
frame invariant. -/
theorem prune_word_chan_ok (fuel : Nat) (d d1 : decoder_t) (f B : Int) (hd : frame_ok f B d)
    (hr : prune_word_chan fuel d f = Except.ok d1) : frame_ok f B d1 := by
  unfold prune_word_chan at hr
  dsimp only at hr
  split at hr
  · simp at hr
  · rename_i d2 n h2
    have hs2 : frame_ok f B d2 := by
      have h3 := for_up_inv (fun sn : decoder_t × Int => frame_ok f B sn.1) _ _ _ _ _ ?_ hd h2
      · exact h3
      · intro i sn sn1 _ _ hs hb
        split at hb
        · simp at hb
        · rename_i s1 k hp
          have hs1 := prune_leaves_ok fuel f B _ _ _ fuel _ _ _ _ _ hs hp
          split at hb
          · split at hb
            · simp at hb
            · simp only [Except.ok.injEq] at hb
              subst hb
              exact hs1
          · simp only [Except.ok.injEq] at hb
            subst hb
            exact hs1
    refine for_up_inv (frame_ok f B) _ _ _ _ _ ?_ ?_ hr
    · intro i s s1 _ _ hs hb
      split at hb
      · simp only [Except.ok.injEq] at hb
        subst hb
        exact hs
      · split at hb
        · have h1 := frame_ok_set_rhmm_hmm f B s (s.single_phone_wid i)
            (hmm_set_frame (s.all_rhmm (s.single_phone_wid i)).hmm (f + 1)) hs (hs.2.2.1.2.2 _)
          split at hb
          · exact save_exit_ok fuel _ s1 f B _ _ _ _ h1 (h1.2.2.1.2.2 _).2.1 hb
          · simp only [Except.ok.injEq] at hb
            subst hb
            exact h1
        · simp only [Except.ok.injEq] at hb
          subst hb
          exact hs
    · exact hs2

/-- The pruning passes of frame `f` keep the frame invariant. -/
theorem prune_channels_ok (env : env_t) (fuel : Nat) (d d1 : decoder_t) (f B : Int)
    (hd : frame_ok f B d) (hr : prune_channels env fuel d f = Except.ok d1) :
    frame_ok f B d1 := by
  unfold prune_channels at hr
  split at hr
  · simp at hr
  · rename_i d3 h3
    have hc : ∀ X : decoder_t, X.n_lastphn_cand = 0 → cands_ok B X := by
      intro X hX i h0 hi
      rw [hX] at hi
      omega
    have hs3 : frame_ok f B d3 ∧ cands_ok B d3 := by
      unfold set_dynamic_beam at h3
      dsimp only at h3
      split at h3
      · split at h3
        · simp at h3
        · simp only [Except.ok.injEq] at h3
          subst h3
          exact ⟨hd, hc _ rfl⟩
      · simp only [Except.ok.injEq] at h3
        subst h3
        exact ⟨hd, hc _ rfl⟩
    clear h3
    split at hr
    · simp at hr
    · rename_i d4 h4
      have hs4 := prune_root_chan_ok fuel d3 d4 f B f hs3 h4
      split at hr
      · simp at hr
      · rename_i d5 h5
        have hs5 := prune_nonroot_chan_ok fuel d4 d5 f B f hs4 h5
        split at hr
        · simp at hr
        · rename_i d6 h6
          have hs6 := last_phone_transition_ok env fuel d5 d6 f B f hs5 h6
          exact prune_word_chan_ok fuel d6 d1 f B hs6 hr

/-! ### The word-exit cap and the word transition -/

/-- The word-exit cap keeps the frame invariant: it changes `valid` flags
only. -/
theorem cap_exits_ok (d d1 : decoder_t) (f B fi : Int) (hd : frame_ok f B d)
    (hr : cap_exits d fi = Except.ok d1) : frame_ok f B d1 := by
  unfold cap_exits at hr
  split at hr
  · simp at hr
  · rename_i ngs1 hs
    simp only [Except.ok.injEq] at hr
    subst hr
    obtain ⟨he, hv, _⟩ := bptable_maxwpf_frame d.ngs ngs1 fi hs
    have e1 : ngs1.bpidx = d.ngs.bpidx := by
      have e := congrArg ngram_search_t.bpidx he
      exact e
    have e2 : ngs1.bp_table_idx = d.ngs.bp_table_idx := by
      have e := congrArg ngram_search_t.bp_table_idx he
      exact e
    have e3 : ngs1.word_lat_idx = d.ngs.word_lat_idx := by
      have e := congrArg ngram_search_t.word_lat_idx he
      exact e
    have e4 : ∀ j, (ngs1.bp_table j).bp = (d.ngs.bp_table j).bp := fun j => by
      rw [hv j]
      rfl
    have e5 : ∀ j, (ngs1.bp_table j).frame = (d.ngs.bp_table j).frame := fun j => by
      rw [hv j]
      rfl
    have e6 : ∀ j, (ngs1.bp_table j).wid = (d.ngs.bp_table j).wid := fun j => by
      rw [hv j]
      rfl
    apply frame_ok_set_ngs f B d ngs1 hd
    obtain ⟨h0, hB, hm, hlo, hhi, hwl⟩ := hd.1
    refine ⟨h0, by rw [e1]; exact hB, by rw [e2]; exact hm, ?_, ?_, ?_⟩
    · intro i hi0 hiB
      rw [e4, e5, e2]
      exact hlo i hi0 hiB
    · intro i hiB hi
      rw [e4, e5]
      rw [e1] at hi
      exact hhi i hiB hi
    · intro w
      rw [e3, e6, e1]
      exact hwl w

theorem wt_ok_set_bestbp_rc (f : Int) (ngs0 : ngram_search_t) (i : Int) (d : decoder_t)
    (rc : Int) (v : bestbp_rc_t) (hv : v.path < ngs0.bpidx ∨ v.path ≤ 0)
    (hd : wt_ok f ngs0 i d) :
    wt_ok f ngs0 i (set_bestbp_rc d rc v) :=
  ⟨hd.1, hd.2.1, hd.2.2.1, hd.2.2.2.1, hd.2.2.2.2.1,
    scratch_ok_set_bestbp_rc _ d rc v hd.2.2.2.2.2.1 hv, hd.2.2.2.2.2.2⟩

theorem wt_ok_set_ltrans (f : Int) (ngs0 : ngram_search_t) (i : Int) (d : decoder_t)
    (w : Int) (v : last_ltrans_t) (hv : v.bp < ngs0.bpidx ∨ v.bp ≤ 0)
    (hd : wt_ok f ngs0 i d) :
    wt_ok f ngs0 i (set_ltrans d w v) :=
  ⟨hd.1, hd.2.1, hd.2.2.1, hd.2.2.2.1, hd.2.2.2.2.1,
    scratch_ok_set_ltrans _ d w v hd.2.2.2.2.2.1 hv, hd.2.2.2.2.2.2⟩

theorem wt_ok_set_root_hmm (f : Int) (ngs0 : ngram_search_t) (i : Int) (d : decoder_t)
    (j : Int) (h : hmm_t) (hh : hmm_below ngs0.bpidx h) (hd : wt_ok f ngs0 i d) :
    wt_ok f ngs0 i (set_root_hmm d j h) :=
  ⟨hd.1, hd.2.1, hd.2.2.1, hd.2.2.2.1, hist_ok_set_root_hmm _ d j h hd.2.2.2.2.1 hh,
    hd.2.2.2.2.2.1, hd.2.2.2.2.2.2⟩

theorem wt_ok_set_rhmm_hmm (f : Int) (ngs0 : ngram_search_t) (i : Int) (d : decoder_t)
    (w : Int) (h : hmm_t) (hh : hmm_below ngs0.bpidx h) (hd : wt_ok f ngs0 i d) :
    wt_ok f ngs0 i (set_rhmm_hmm d w h) :=
  ⟨hd.1, hd.2.1, hd.2.2.1, hd.2.2.2.1, hist_ok_set_rhmm_hmm _ d w h hd.2.2.2.2.1 hh,
    hd.2.2.2.2.2.1, hd.2.2.2.2.2.2⟩

/-- On entry to `word_transition` the frame invariant gives the transition
invariant from the first entry of the frame. -/
theorem wt_ok_of_frame_ok (f B : Int) (d : decoder_t) (hd : frame_ok f B d) :
    wt_ok f d.ngs B d :=
  ⟨rfl, rfl, rfl, hd.2.1, hist_ok_mono B _ d hd.1.2.1 hd.2.2.1,
    scratch_ok_mono B _ d hd.1.2.1 hd.2.2.2, hd.1.2.2.2.2.2⟩

/-- One entry of the first loop of `word_transition`. -/
theorem wt_best_rc_ok (f : Int) (ngs0 : ngram_search_t) (bp : Int) (sk : decoder_t × Int)
    (hbp : bp < ngs0.bpidx) (hd : wt_ok f ngs0 bp sk.1) :
    wt_ok f ngs0 (bp + 1) (wt_best_rc bp sk).1 := by
  have h1 : wt_ok f ngs0 (bp + 1)
      (set_ngs sk.1 { sk.1.ngs with
        word_lat_idx := store sk.1.ngs.word_lat_idx (sk.1.ngs.bp_table bp).wid NO_BP }) := by
    refine ⟨hd.1, hd.2.1, hd.2.2.1, hd.2.2.2.1, hd.2.2.2.2.1, hd.2.2.2.2.2.1, ?_⟩
    intro w
    show store sk.1.ngs.word_lat_idx (sk.1.ngs.bp_table bp).wid NO_BP w = NO_BP ∨
      (bp + 1 ≤ store sk.1.ngs.word_lat_idx (sk.1.ngs.bp_table bp).wid NO_BP w ∧
        store sk.1.ngs.word_lat_idx (sk.1.ngs.bp_table bp).wid NO_BP w < ngs0.bpidx ∧
        (ngs0.bp_table (store sk.1.ngs.word_lat_idx (sk.1.ngs.bp_table bp).wid NO_BP w)).wid
          = w)
    by_cases hw : w = (sk.1.ngs.bp_table bp).wid
    · rw [hw, store_same]
      exact Or.inl rfl
    · rw [store_ne _ _ _ _ hw]
      rcases hd.2.2.2.2.2.2 w with h | ⟨ha, hb, hc⟩
      · exact Or.inl h
      · refine Or.inr ⟨?_, hb, hc⟩
        by_cases he : sk.1.ngs.word_lat_idx w = bp
        · rw [he, ← hd.1] at hc
          exact absurd hc.symm hw
        · omega
  unfold wt_best_rc
  dsimp only
  split
  · exact h1
  · dsimp only
    apply iter_down_inv (wt_ok f ngs0 (bp + 1))
    · intro rc s _ _ hs
      dsimp only
      split
      · exact wt_ok_set_bestbp_rc f ngs0 _ s rc _ (Or.inl hbp) hs
      · exact hs
    · exact h1

theorem wt_root_ok (f : Int) (ngs0 : ngram_search_t) (i fi thresh j : Int) (d : decoder_t)
    (h1b : 1 ≤ ngs0.bpidx) (hd : wt_ok f ngs0 i d) :
    wt_ok f ngs0 i (wt_root fi thresh j d) := by
  unfold wt_root
  dsimp only
  split
  · split
    · apply wt_ok_set_root_hmm
      · have h1 : hmm_below ngs0.bpidx
            (hmm_enter (d.root_chan j).hmm
              ((d.bestbp_rc (d.root_chan j).ciphone).score + d.nwpen + d.pip)
              (d.bestbp_rc (d.root_chan j).ciphone).path (fi + 1)) :=
          hmm_below_enter _ _ _ _ _ (hd.2.2.2.2.1.1 j)
            ((hd.2.2.2.2.2.1.1 _).elim id (fun h => lt_of_le_of_lt h (by omega)))
        split
        · exact hmm_below_set_ssid _ _ _ h1
        · exact h1
      · exact hd
    · exact hd
  · exact hd

theorem wt_ltrans_ok (env : env_t) (f : Int) (ngs0 : ngram_search_t) (i bp : Int)
    (d : decoder_t) (hbp : bp < ngs0.bpidx) (hd : wt_ok f ngs0 i d) :
    wt_ok f ngs0 i (wt_ltrans env bp d) := by
  unfold wt_ltrans
  dsimp only
  split
  · exact hd
  · apply iter_up_inv (wt_ok f ngs0 i)
    · intro k s _ _ hs
      dsimp only
      split
      · apply wt_ok_set_ltrans
        · exact Or.inl hbp
        · apply wt_ok_set_ltrans
          · exact hs.2.2.2.2.2.1.2 _
          · exact hs
      · exact hs
    · exact hd

theorem wt_single_ok (f : Int) (ngs0 : ngram_search_t) (i fi thresh k : Int)
    (d d1 : decoder_t) (h1b : 1 ≤ ngs0.bpidx) (hd : wt_ok f ngs0 i d)
    (hr : wt_single fi thresh k d = Except.ok d1) : wt_ok f ngs0 i d1 := by
  unfold wt_single at hr
  dsimp only at hr
  split at hr
  · split at hr
    · simp at hr
    · split at hr
      · simp only [Except.ok.injEq] at hr
        subst hr
        apply wt_ok_set_rhmm_hmm
        · have h1 : hmm_below ngs0.bpidx
              (hmm_enter (d.all_rhmm (d.single_phone_wid k)).hmm
                ((d.last_ltrans (d.single_phone_wid k)).dscr + d.pip)
                (d.last_ltrans (d.single_phone_wid k)).bp (fi + 1)) :=
            hmm_below_enter _ _ _ _ _ (hd.2.2.2.2.1.2.2 _)
              ((hd.2.2.2.2.2.1.2 _).elim id (fun h => lt_of_le_of_lt h (by omega)))
          split
          · exact hmm_below_set_ssid _ _ _ h1
          · exact h1
        · exact hd
      · simp only [Except.ok.injEq] at hr
        subst hr
        exact hd
  · simp only [Except.ok.injEq] at hr
    subst hr
    exact hd

theorem wt_filler_ok (f : Int) (ngs0 : ngram_search_t) (i fi newscore w : Int)
    (d : decoder_t) (h1b : 1 ≤ ngs0.bpidx) (hd : wt_ok f ngs0 i d) :
    wt_ok f ngs0 i (wt_filler fi newscore w d) := by
  unfold wt_filler
  dsimp only
  split
  · apply wt_ok_set_rhmm_hmm
    · exact hmm_below_enter _ _ _ _ _ (hd.2.2.2.2.1.2.2 _)
        ((hd.2.2.2.2.2.1.1 _).elim id (fun h => lt_of_le_of_lt h (by omega)))
    · exact hd
  · exact hd

/-- After the last entry of the frame the transition invariant gives the
invariant between frames. -/
theorem idle_ok_of_wt_ok (f B : Int) (ngs0 : ngram_search_t) (d : decoder_t)
    (hb : bt_ok f B ngs0) (hd : wt_ok f ngs0 ngs0.bpidx d) : idle_ok d := by
  obtain ⟨h0, hB, hm, hlo, hhi, hwl⟩ := hb
  obtain ⟨e1, e2, e3, e4, e5, e6, e7⟩ := hd
  refine ⟨by rw [e2]; omega, ?_, ?_, by rw [e2]; exact e5, by rw [e2]; exact e6⟩
  · intro i hi0 hi
    rw [e1, e2, e3, e4]
    rw [e2] at hi
    by_cases hiB : i < B
    · have := hlo i hi0 hiB
      exact ⟨this.1, Or.inl (by omega)⟩
    · have := hhi i (by omega) hi
      exact ⟨by omega, Or.inr (by rw [this.2])⟩
  · intro w
    rcases e7 w with h | ⟨ha, hb, _⟩
    · exact h
    · omega

/-- The word transition of frame `f` leads from the frame invariant to the
transition invariant past the last entry of the frame. -/
theorem word_transition_ok (env : env_t) (d d1 : decoder_t) (f B : Int) (hd : frame_ok f B d)
    (hr : word_transition env d f = Except.ok d1) : wt_ok f d.ngs d.ngs.bpidx d1 := by
  unfold word_transition at hr
  dsimp only at hr
  generalize hD : iter_down _ d.ngs.n_ciphone.toNat (d.ngs.n_ciphone - 1) d = D at hr
  have hD1 : wt_ok f d.ngs B D := by
    rw [← hD]
    apply iter_down_inv (wt_ok f d.ngs B)
    · intro rc s _ _ hs
      exact wt_ok_set_bestbp_rc f d.ngs B s rc _ (hs.2.2.2.2.2.1.1 rc) hs
    · exact wt_ok_of_frame_ok f B d hd
  clear hD
  rw [hD1.2.1, hD1.2.2.1, hd.1.2.2.1] at hr
  generalize hR : iter_up wt_best_rc (d.ngs.bpidx - B).toNat B (D, 0) = R at hr
  have hR1 : wt_ok f d.ngs d.ngs.bpidx R.1 := by
    rw [← hR]
    have h := iter_up_ind (fun i (sk : decoder_t × Int) => wt_ok f d.ngs i sk.1) wt_best_rc
      (d.ngs.bpidx - B).toNat B (D, 0)
      (fun i sk h1 h2 hs => wt_best_rc_ok f d.ngs i sk (by have := hd.1.2.1; omega) hs) hD1
    have e : B + ((d.ngs.bpidx - B).toNat : Int) = d.ngs.bpidx := by
      have := hd.1.2.1
      omega
    rw [e] at h
    exact h
  have hk : ¬ R.2 = 0 → 1 ≤ d.ngs.bpidx := by
    intro hne
    by_contra hlt
    have hz : (d.ngs.bpidx - B).toNat = 0 := by
      have := hd.1.1
      have := hd.1.2.1
      omega
    rw [hz] at hR
    simp only [iter_up] at hR
    subst hR
    exact hne rfl
  clear hR
  split at hr
  · simp only [Except.ok.injEq] at hr
    subst hr
    exact hR1
  · rename_i hne
    have h1b := hk hne
    split at hr
    · simp at hr
    · rename_i d6 h6
      have hs6 : wt_ok f d.ngs d.ngs.bpidx d6 := by
        refine for_up_inv (wt_ok f d.ngs d.ngs.bpidx) _ _ _ _ _ ?_ ?_ h6
        · intro k s s1 _ _ hs hb
          exact wt_single_ok f d.ngs _ f _ k s s1 h1b hs hb
        · apply iter_up_inv (wt_ok f d.ngs d.ngs.bpidx)
          · intro bp s h1 h2 hs
            exact wt_ltrans_ok env f d.ngs _ bp s (by have := hd.1.2.1; omega) hs
          · apply iter_up_inv (wt_ok f d.ngs d.ngs.bpidx)
            · intro k s _ _ hs
              exact wt_ok_set_ltrans f d.ngs _ s _ _ (hs.2.2.2.2.2.1.2 _) hs
            · apply iter_up_inv (wt_ok f d.ngs d.ngs.bpidx)
              · intro k s _ _ hs
                exact wt_root_ok f d.ngs _ f _ k s h1b hs
              · exact hR1
      clear h6
      simp only [Except.ok.injEq] at hr
      subst hr
      generalize hX : (ite ((d6.bestbp_rc d6.sil).score + d6.silpen + d6.pip >
        R.1.best_score + R.1.dynamic_beam) _ d6) = X
      have hX1 : wt_ok f d.ngs d.ngs.bpidx X := by
        rw [← hX]
        split
        · exact wt_filler_ok f d.ngs _ f _ _ d6 h1b hs6
        · exact hs6
      clear hX
      split
      · apply iter_up_inv (wt_ok f d.ngs d.ngs.bpidx)
        · intro w s _ _ hs
          exact wt_filler_ok f d.ngs _ f _ w s h1b hs
        · exact hX1
      · exact hX1

/-! ### One frame, the start of an utterance, and the reachable states -/

theorem wt_ok_deactivate (f : Int) (ngs0 : ngram_search_t) (i fi : Int) (d : decoder_t)
    (hd : wt_ok f ngs0 i d) : wt_ok f ngs0 i (deactivate_channels d fi) := by
  unfold deactivate_channels
  dsimp only
  apply iter_up_inv (wt_ok f ngs0 i)
  · intro k s _ _ hs
    dsimp only
    split
    · exact wt_ok_set_rhmm_hmm f ngs0 i s _ _
        (hmm_below_clear_scores _ _ (hs.2.2.2.2.1.2.2 _)) hs
    · exact hs
  · apply iter_up_inv (wt_ok f ngs0 i)
    · intro k s _ _ hs
      dsimp only
      split
      · exact wt_ok_set_root_hmm f ngs0 i s _ _
          (hmm_below_clear_scores _ _ (hs.2.2.2.2.1.1 _)) hs
      · exact hs
    · exact hd

/-- Marking the frame turns the invariant between frames into the frame
invariant, with the current `bpidx` as first entry of the frame. -/
theorem frame_ok_mark (d : decoder_t) (n : Int) (hd : idle_ok d) :
    frame_ok d.output_frame d.ngs.bpidx
      (ngram_search_mark_bptable
        { d with output_frame := d.output_frame + 1, n_feat_frame := n } d.output_frame) := by
  obtain ⟨h0, hen, hwl, hh, hs⟩ := hd
  refine ⟨⟨h0, le_refl _, ?_, ?_, ?_, fun w => Or.inl (hwl w)⟩, rfl, hh, hs⟩
  · show store d.ngs.bp_table_idx d.output_frame d.ngs.bpidx d.output_frame = d.ngs.bpidx
    rw [store_same]
  · intro i hi0 hi
    refine ⟨(hen i hi0 hi).1, ?_⟩
    show store d.ngs.bp_table_idx d.output_frame d.ngs.bpidx ((d.ngs.bp_table i).frame + 1)
      ≤ d.ngs.bpidx
    by_cases he : (d.ngs.bp_table i).frame + 1 = d.output_frame
    · rw [he, store_same]
    · rw [store_ne _ _ _ _ he]
      rcases (hen i hi0 hi).2 with h | h
      · exact h
      · exact absurd h he
  · intro i hi1 hi2
    have hi3 : i < d.ngs.bpidx := hi2
    omega

/-- One returning call of `ngram_fwdtree_search` keeps the invariant between
frames and does not lower `bpidx`. -/
theorem ngram_fwdtree_search_ok (env : env_t) (hv : vit_ok env) (fuel : Nat)
    (d d1 : decoder_t) (r : Int) (hd : idle_ok d)
    (hr : ngram_fwdtree_search env fuel d = Except.ok (d1, r)) :
    idle_ok d1 ∧ d.ngs.bpidx ≤ d1.ngs.bpidx := by
  unfold ngram_fwdtree_search at hr
  split at hr
  · simp only [Except.ok.injEq, Prod.mk.injEq] at hr
    obtain ⟨h1, _⟩ := hr
    subst h1
    exact ⟨hd, le_refl _⟩
  · dsimp only at hr
    have h2 := frame_ok_mark d (d.n_feat_frame - 1) hd
    split at hr
    · simp at hr
    · rename_i d3 h3
      have hs3 : frame_ok d.output_frame d.ngs.bpidx d3 := by
        split at h3
        · exact renormalize_scores_ok fuel _ d3 _ _ _ _ h2 h3
        · simp only [Except.ok.injEq] at h3
          subst h3
          exact h2
      clear h3
      split at hr
      · simp at hr
      · rename_i d4 h4
        have hs4 := evaluate_channels_ok env hv fuel d3 d4 _ _ _ hs3 h4
        split at hr
        · simp at hr
        · rename_i d5 h5
          have hs5 := prune_channels_ok env fuel d4 d5 _ _ hs4 h5
          split at hr
          · simp at hr
          · rename_i d6 h6
            have hs6 := cap_exits_ok d5 d6 _ _ _ hs5 h6
            split at hr
            · simp at hr
            · rename_i d7 h7
              have hs7 := word_transition_ok env d6 d7 _ _ hs6 h7
              simp only [Except.ok.injEq, Prod.mk.injEq] at hr
              obtain ⟨h8, _⟩ := hr
              subst h8
              have hs8 := wt_ok_deactivate _ _ _ d.output_frame d7 hs7
              refine ⟨idle_ok_of_wt_ok _ _ d6.ngs _ hs6.1 hs8, ?_⟩
              rw [hs8.2.1]
              exact hs6.1.2.1

/-- Filling the first `n` slots of `word_lat_idx` with `NO_BP`. -/
theorem fill_no_bp (n : Nat) (a : Int → Int) (w : Int) :
    iter_up (fun i (a : Int → Int) => store a i NO_BP) n 0 a w
      = if 0 ≤ w ∧ w < n then NO_BP else a w := by
  have h := iter_up_ind
    (fun i (b : Int → Int) => ∀ w, b w = if 0 ≤ w ∧ w < i then NO_BP else a w)
    (fun i (a : Int → Int) => store a i NO_BP) n 0 a
    (by
      intro i b hi0 _ hb v
      dsimp only
      by_cases hv : v = i
      · subst hv
        rw [store_same, if_pos ⟨hi0, by omega⟩]
      · rw [store_ne _ _ _ _ hv, hb v]
        by_cases hc : 0 ≤ v ∧ v < i
        · rw [if_pos hc, if_pos ⟨hc.1, by omega⟩]
        · rw [if_neg hc, if_neg (by omega)])
    (by
      intro v
      rw [if_neg (by omega)])
  have e : (0 : Int) + (n : Int) = n := by omega
  rw [e] at h
  exact h w

theorem reset_sf_bp (n : Nat) (a : Int → last_ltrans_t) (w : Int) :
    (iter_up (fun i (a : Int → last_ltrans_t) => store a i { a i with sf := -1 }) n 0 a w).bp
      = (a w).bp := by
  have h := iter_up_inv (fun b : Int → last_ltrans_t => ∀ w, (b w).bp = (a w).bp)
    (fun i (a : Int → last_ltrans_t) => store a i { a i with sf := -1 }) n 0 a
    (by
      intro i b _ _ hb v
      dsimp only
      by_cases hv : v = i
      · subst hv
        rw [store_same]
        exact hb v
      · rw [store_ne _ _ _ _ hv]
        exact hb v)
    (fun _ => rfl)
  exact h w

/-- After `ngram_fwdtree_start` on a clean decoder the invariant between frames
holds, with an empty backpointer table. -/
theorem ngram_fwdtree_start_ok (d : decoder_t) (hd : clean d) :
    idle_ok (ngram_fwdtree_start d) ∧ (ngram_fwdtree_start d).ngs.bpidx = 0 := by
  obtain ⟨hh, hs, hwl⟩ := hd
  have key : ∀ X : decoder_t, (hist_ok 0 X ∧ scratch_ok 0 X ∧
      X.ngs.bpidx = 0 ∧ ∀ w, X.ngs.word_lat_idx w = NO_BP) → idle_ok X ∧ X.ngs.bpidx = 0 := by
    intro X ⟨h1, h2, h3, h4⟩
    refine ⟨⟨by omega, ?_, h4, by rw [h3]; exact h1, by rw [h3]; exact h2⟩, h3⟩
    intro i hi0 hi
    omega
  have hset : ∀ (X : decoder_t) (w : Int) (h : hmm_t), hmm_below 0 h →
      (hist_ok 0 X ∧ scratch_ok 0 X ∧ X.ngs.bpidx = 0 ∧ ∀ w, X.ngs.word_lat_idx w = NO_BP) →
      (hist_ok 0 (set_rhmm_hmm X w h) ∧ scratch_ok 0 (set_rhmm_hmm X w h) ∧
        (set_rhmm_hmm X w h).ngs.bpidx = 0 ∧
        ∀ v, (set_rhmm_hmm X w h).ngs.word_lat_idx v = NO_BP) :=
    fun X w h hb hX => ⟨hist_ok_set_rhmm_hmm 0 X w h hX.1 hb, hX.2.1, hX.2.2.1, hX.2.2.2⟩
  have hent : ∀ (X : decoder_t) (w : Int),
      (hist_ok 0 X ∧ scratch_ok 0 X ∧ X.ngs.bpidx = 0 ∧ ∀ w, X.ngs.word_lat_idx w = NO_BP) →
      (hist_ok 0 (set_rhmm_hmm X w (hmm_enter (X.all_rhmm w).hmm 0 NO_BP 0)) ∧
        scratch_ok 0 (set_rhmm_hmm X w (hmm_enter (X.all_rhmm w).hmm 0 NO_BP 0)) ∧
        (set_rhmm_hmm X w (hmm_enter (X.all_rhmm w).hmm 0 NO_BP 0)).ngs.bpidx = 0 ∧
        ∀ v, (set_rhmm_hmm X w (hmm_enter (X.all_rhmm w).hmm 0 NO_BP 0)).ngs.word_lat_idx v
          = NO_BP) :=
    fun X w hX => hset X w _ (hmm_below_enter 0 _ _ _ _ (hX.1.2.2 w) (by decide)) hX
  apply key
  unfold ngram_fwdtree_start
  dsimp only
  apply hent
  · apply hset
    · exact hmm_below_clear 0 _ (le_refl _)
    · unfold start_clear_1ph
      apply iter_up_inv (fun X : decoder_t => hist_ok 0 X ∧ scratch_ok 0 X ∧
        X.ngs.bpidx = 0 ∧ ∀ w, X.ngs.word_lat_idx w = NO_BP)
      · intro i s _ _ hs1
        exact hset s _ _ (hmm_below_clear 0 _ (le_refl _)) hs1
      · refine ⟨hh, ⟨hs.1, ?_⟩, rfl, ?_⟩
        · intro w
          show (iter_up _ _ 0 d.last_ltrans w).bp < 0 ∨ (iter_up _ _ 0 d.last_ltrans w).bp ≤ 0
          rw [reset_sf_bp]
          exact hs.2 w
        · intro w
          show iter_up _ _ 0 d.ngs.word_lat_idx w = NO_BP
          rw [fill_no_bp]
          split
          · rfl
          · rename_i hc
            apply hwl
            omega

/-- A returning frame of search returns `search_out`. -/
theorem search_out_eq (env : env_t) (fuel : Nat) (d : decoder_t)
    (h : search_returns env fuel d = true) :
    ngram_fwdtree_search env fuel d = Except.ok (search_out env fuel d) := by
  unfold search_returns at h
  unfold search_out
  split at h
  · rename_i x hx
    rw [hx]
  · simp at h

/-- The states after returning frames of search are reachable. -/
theorem reachable_frames (env : env_t) (pre : decoder_t → Prop) (fuel : Nat) (n : Nat) :
    ∀ d, reachable env pre d → frames_return env fuel n d = true →
      reachable env pre (frames env fuel n d) := by
  induction n with
  | zero =>
    intro d hd _
    exact hd
  | succ n ih =>
    intro d hd hr
    simp only [frames_return, Bool.and_eq_true] at hr
    exact ih _ (reachable.step fuel d (search_out env fuel d).1 (search_out env fuel d).2 hd
      (search_out_eq env fuel d hr.1)) hr.2

/-- The Viterbi step of the test environment invents no history. -/
theorem vit_ok_ex_env : vit_ok ex_env :=
  fun _ _ _ hb => ⟨hb.1, hb.1, hb.2.2⟩

/-- The fresh test decoder is clean. -/
theorem clean_ex_fresh_dec : clean ex_fresh_dec := by
  have hh : ∀ h : hmm_t, h.in_history = -1 → h.out_history = -1 → h.inner = [] →
      hmm_below 0 h := by
    intro h h1 h2 h3
    refine ⟨by rw [h1]; decide, by rw [h2]; decide, ?_⟩
    rw [h3]
    intro p hp
    exact absurd hp (List.not_mem_nil p)
  refine ⟨⟨fun i => hh _ rfl rfl rfl, fun a => hh _ rfl rfl rfl, fun w => hh _ rfl rfl rfl⟩,
    ⟨fun rc => Or.inr (le_refl _), fun w => Or.inr (le_refl _)⟩, fun w _ => rfl⟩

/-- From a clean decoder every reachable state satisfies the invariant between
frames. -/
theorem reachable_idle_ok (env : env_t) (hv : vit_ok env) (d : decoder_t)
    (hr : reachable env clean d) : idle_ok d := by
  induction hr with
  | start d0 h0 => exact (ngram_fwdtree_start_ok d0 h0).1
  | step fuel d d1 r _ hs ih => exact (ngram_fwdtree_search_ok env hv fuel d d1 r ih hs).1

/-- C10 (with the start state made explicit): in every state reached by
`ngram_fwdtree_search` calls from `ngram_fwdtree_start` on a clean decoder --
every HMM history negative, every scratch predecessor index at most 0 -- and
for a Viterbi step that invents no history, every backpointer entry `i` below
`bpidx` has `bp == NO_BP` or `bp < i` (indeed `bp < i` always), and a
returning frame of search does not lower `bpidx`. -/
theorem reachable_bp_acyclic (env : env_t) (hv : vit_ok env) (d : decoder_t)
    (hr : reachable env clean d) :
    (∀ i, 0 ≤ i → i < d.ngs.bpidx →
      ((d.ngs.bp_table i).bp = NO_BP ∨ (d.ngs.bp_table i).bp < i) ∧ (d.ngs.bp_table i).bp < i) ∧
    (∀ fuel d1 r, ngram_fwdtree_search env fuel d = Except.ok (d1, r) →
      d.ngs.bpidx ≤ d1.ngs.bpidx) := by
  have hi := reachable_idle_ok env hv d hr
  refine ⟨fun i h0 h1 => ⟨Or.inr (hi.2.1 i h0 h1).1, (hi.2.1 i h0 h1).1⟩, ?_⟩
  intro fuel d1 r hs
  exact (ngram_fwdtree_search_ok env hv fuel d d1 r hi hs).2

set_option maxRecDepth 100000 in
/-- Witness for C10: three frames on the fresh test decoder leave eight
entries, all pointing backwards. -/
theorem reachable_bp_acyclic_witness :
    vit_ok ex_env ∧
    reachable ex_env clean (frames ex_env 10 3 (ngram_fwdtree_start ex_fresh_dec)) ∧
    (frames ex_env 10 3 (ngram_fwdtree_start ex_fresh_dec)).ngs.bpidx = 8 ∧
    ((frames ex_env 10 3 (ngram_fwdtree_start ex_fresh_dec)).ngs.bp_table 7).bp = 0 ∧
    (∀ i, 0 ≤ i → i < (frames ex_env 10 3 (ngram_fwdtree_start ex_fresh_dec)).ngs.bpidx →
      (((frames ex_env 10 3 (ngram_fwdtree_start ex_fresh_dec)).ngs.bp_table i).bp = NO_BP ∨
        ((frames ex_env 10 3 (ngram_fwdtree_start ex_fresh_dec)).ngs.bp_table i).bp < i) ∧
      ((frames ex_env 10 3 (ngram_fwdtree_start ex_fresh_dec)).ngs.bp_table i).bp < i) ∧
    (∀ fuel d1 r,
      ngram_fwdtree_search ex_env fuel (frames ex_env 10 3 (ngram_fwdtree_start ex_fresh_dec))
        = Except.ok (d1, r) →
      (frames ex_env 10 3 (ngram_fwdtree_start ex_fresh_dec)).ngs.bpidx ≤ d1.ngs.bpidx) :=
  have hreach : reachable ex_env clean (frames ex_env 10 3 (ngram_fwdtree_start ex_fresh_dec)) :=
    reachable_frames ex_env clean 10 3 _ (reachable.start ex_fresh_dec clean_ex_fresh_dec)
      (by decide!)
  ⟨vit_ok_ex_env, hreach, by decide!, by decide!,
    (reachable_bp_acyclic ex_env vit_ok_ex_env _ hreach).1,
    (reachable_bp_acyclic ex_env vit_ok_ex_env _ hreach).2⟩

set_option maxRecDepth 100000 in
/-- Counterexample to C10 as stated: `ngram_fwdtree_start` on a decoder left
with a root channel still stamped and holding history 7, followed by two
frames of search, gives a table of five entries whose entry 1 has `bp = 7`. -/
theorem reachable_bp_acyclic_counterexample :
    vit_ok ex_env ∧
    reachable ex_env (fun _ => True) (frames ex_env 10 2 (ngram_fwdtree_start ex_stale_dec)) ∧
    (frames ex_env 10 2 (ngram_fwdtree_start ex_stale_dec)).ngs.bpidx = 5 ∧
    ((frames ex_env 10 2 (ngram_fwdtree_start ex_stale_dec)).ngs.bp_table 1).bp = 7 ∧
    ¬ (∀ i, 0 ≤ i → i < (frames ex_env 10 2 (ngram_fwdtree_start ex_stale_dec)).ngs.bpidx →
      ((frames ex_env 10 2 (ngram_fwdtree_start ex_stale_dec)).ngs.bp_table i).bp = NO_BP ∨
        ((frames ex_env 10 2 (ngram_fwdtree_start ex_stale_dec)).ngs.bp_table i).bp < i) :=
  ⟨vit_ok_ex_env,
    reachable_frames ex_env (fun _ => True) 10 2 _ (reachable.start ex_stale_dec trivial)
      (by decide!),
    by decide!, by decide!,
    fun h => absurd (h 1 (by decide) (by decide!)) (by decide!)⟩

/-! ### The start of an utterance -/

/-- The loop of `ngram_fwdtree_start` over the single-phone words touches
nothing but their channels. -/
theorem start_clear_1ph_fields (d : decoder_t) :
    (start_clear_1ph d).ngs = d.ngs ∧ (start_clear_1ph d).n_active_chan = d.n_active_chan ∧
    (start_clear_1ph d).n_active_word = d.n_active_word ∧
    (start_clear_1ph d).best_score = d.best_score ∧
    (start_clear_1ph d).renormalized = d.renormalized ∧
    (start_clear_1ph d).root_chan = d.root_chan ∧ (start_clear_1ph d).chan = d.chan ∧
    (start_clear_1ph d).single_phone_wid = d.single_phone_wid ∧
    (start_clear_1ph d).xwd = d.xwd := by
  unfold start_clear_1ph
  apply iter_up_inv (fun s : decoder_t => s.ngs = d.ngs ∧ s.n_active_chan = d.n_active_chan ∧
    s.n_active_word = d.n_active_word ∧ s.best_score = d.best_score ∧
    s.renormalized = d.renormalized ∧ s.root_chan = d.root_chan ∧ s.chan = d.chan ∧
    s.single_phone_wid = d.single_phone_wid ∧ s.xwd = d.xwd)
  · intro i s _ _ hs
    exact hs
  · exact ⟨rfl, rfl, rfl, rfl, rfl, rfl, rfl, rfl, rfl⟩

/-- C17: after `ngram_fwdtree_start`, `bpidx` and `bss_head` are 0,
`word_lat_idx[w]` is `NO_BP` for every dictionary word, both counts of active
non-root channels and both counts of active words are 0, `best_score` is 0
and `renormalized` is cleared. -/
theorem ngram_fwdtree_start_resets (d : decoder_t) :
    (ngram_fwdtree_start d).ngs.bpidx = 0 ∧ (ngram_fwdtree_start d).ngs.bss_head = 0 ∧
    (∀ w, 0 ≤ w → w < d.ngs.dict.dict_entry_count →
      (ngram_fwdtree_start d).ngs.word_lat_idx w = NO_BP) ∧
    (ngram_fwdtree_start d).n_active_chan 0 = 0 ∧ (ngram_fwdtree_start d).n_active_chan 1 = 0 ∧
    (ngram_fwdtree_start d).n_active_word 0 = 0 ∧ (ngram_fwdtree_start d).n_active_word 1 = 0 ∧
    (ngram_fwdtree_start d).best_score = 0 ∧ (ngram_fwdtree_start d).renormalized = false := by
  obtain ⟨h1, h2, h3, h4, h5, _, _, _, _⟩ := start_clear_1ph_fields (start_reset d)
  refine ⟨?_, ?_, ?_, ?_, ?_, ?_, ?_, ?_, ?_⟩
  · show (start_clear_1ph (start_reset d)).ngs.bpidx = 0
    rw [h1]
    rfl
  · show (start_clear_1ph (start_reset d)).ngs.bss_head = 0
    rw [h1]
    rfl
  · intro w hw0 hw1
    show (start_clear_1ph (start_reset d)).ngs.word_lat_idx w = NO_BP
    rw [h1]
    show iter_up _ _ 0 d.ngs.word_lat_idx w = NO_BP
    rw [fill_no_bp, if_pos]
    omega
  · show (start_clear_1ph (start_reset d)).n_active_chan 0 = 0
    rw [h2]
    rfl
  · show (start_clear_1ph (start_reset d)).n_active_chan 1 = 0
    rw [h2]
    rfl
  · show (start_clear_1ph (start_reset d)).n_active_word 0 = 0
    rw [h3]
    rfl
  · show (start_clear_1ph (start_reset d)).n_active_word 1 = 0
    rw [h3]
    rfl
  · show (start_clear_1ph (start_reset d)).best_score = 0
    rw [h4]
    rfl
  · show (start_clear_1ph (start_reset d)).renormalized = false
    rw [h5]
    rfl

theorem hmm_is_clear_clear (h : hmm_t) : hmm_is_clear (hmm_clear h) := by
  refine ⟨rfl, rfl, rfl, ?_, rfl, rfl, rfl⟩
  intro p hp
  simp only [hmm_clear, List.mem_map] at hp
  obtain ⟨q, _, rfl⟩ := hp
  rfl

theorem hmm_clear_idem (h : hmm_t) : hmm_clear (hmm_clear h) = hmm_clear h := by
  simp only [hmm_clear, List.map_map]
  congr 1

/-- After the loop of `ngram_fwdtree_start` over the single-phone words, the
HMM of every listed word is `hmm_clear` of what it was, and every HMM is
either that or untouched. -/
theorem start_clear_1ph_hmms (d : decoder_t) :
    (∀ w, ((start_clear_1ph d).all_rhmm w).hmm = hmm_clear (d.all_rhmm w).hmm ∨
      ((start_clear_1ph d).all_rhmm w).hmm = (d.all_rhmm w).hmm) ∧
    (∀ j, 0 ≤ j → j < d.n_1ph_words →
      ((start_clear_1ph d).all_rhmm (d.single_phone_wid j)).hmm
        = hmm_clear (d.all_rhmm (d.single_phone_wid j)).hmm) := by
  have h := iter_up_ind
    (fun i (s : decoder_t) => s.single_phone_wid = d.single_phone_wid ∧
      (∀ w, (s.all_rhmm w).hmm = hmm_clear (d.all_rhmm w).hmm ∨
        (s.all_rhmm w).hmm = (d.all_rhmm w).hmm) ∧
      (∀ j, 0 ≤ j → j < i →
        (s.all_rhmm (d.single_phone_wid j)).hmm
          = hmm_clear (d.all_rhmm (d.single_phone_wid j)).hmm))
    (fun i (s : decoder_t) =>
      let w := s.single_phone_wid i
      set_rhmm_hmm s w (hmm_clear (s.all_rhmm w).hmm))
    d.n_1ph_words.toNat 0 d
    (by
      intro i s hi0 _ hs
      obtain ⟨h1, h2, h3⟩ := hs
      have hnew : hmm_clear (s.all_rhmm (s.single_phone_wid i)).hmm
          = hmm_clear (d.all_rhmm (s.single_phone_wid i)).hmm := by
        rcases h2 (s.single_phone_wid i) with e | e
        · rw [e, hmm_clear_idem]
        · rw [e]
      refine ⟨h1, ?_, ?_⟩
      · intro w
        show (store s.all_rhmm (s.single_phone_wid i) _ w).hmm = _ ∨
          (store s.all_rhmm (s.single_phone_wid i) _ w).hmm = _
        by_cases hw : w = s.single_phone_wid i
        · subst hw
          rw [store_same]
          exact Or.inl hnew
        · rw [store_ne _ _ _ _ hw]
          exact h2 w
      · intro j hj0 hj
        show (store s.all_rhmm (s.single_phone_wid i) _ (d.single_phone_wid j)).hmm = _
        by_cases hw : d.single_phone_wid j = s.single_phone_wid i
        · rw [hw, store_same]
          exact hnew
        · rw [store_ne _ _ _ _ hw]
          have hji : j ≠ i := by
            intro e
            rw [e, h1] at hw
            exact hw rfl
          exact h3 j hj0 (by omega))
    ⟨rfl, fun w => Or.inr rfl, fun j h0 h1 => absurd h1 (by omega)⟩
  refine ⟨h.2.1, ?_⟩
  intro j hj0 hj
  exact h.2.2 j hj0 (by omega)

/-- C18 (as the code has it): after `ngram_fwdtree_start` the channel of
`<s>` is entered with score 0, history `NO_BP` and frame 0, its other states
cleared; the channel of every other word listed in `single_phone_wid[0 ..
n_1ph_words)` is in the cleared state; the root channels and the tree nodes
are left as they were. -/
theorem ngram_fwdtree_start_hmms (d : decoder_t) :
    ((ngram_fwdtree_start d).all_rhmm d.xwd.start_wid).hmm
      = hmm_enter (hmm_clear (d.all_rhmm d.xwd.start_wid).hmm) 0 NO_BP 0 ∧
    (∀ j, 0 ≤ j → j < d.n_1ph_words → d.single_phone_wid j ≠ d.xwd.start_wid →
      hmm_is_clear ((ngram_fwdtree_start d).all_rhmm (d.single_phone_wid j)).hmm) ∧
    (ngram_fwdtree_start d).root_chan = d.root_chan ∧
    (ngram_fwdtree_start d).chan = d.chan := by
  obtain ⟨_, _, _, _, _, h6, h7, _, h9⟩ := start_clear_1ph_fields (start_reset d)
  obtain ⟨g1, g2⟩ := start_clear_1ph_hmms (start_reset d)
  have hw : (start_clear_1ph (start_reset d)).xwd.start_wid = d.xwd.start_wid := by
    rw [h9]
    rfl
  refine ⟨?_, ?_, ?_, ?_⟩
  · unfold ngram_fwdtree_start
    dsimp only
    rw [hw]
    show root_chan_t.hmm (store _ d.xwd.start_wid _ d.xwd.start_wid) = _
    rw [store_same]
    show hmm_enter (root_chan_t.hmm (store _ d.xwd.start_wid _ d.xwd.start_wid)) 0 NO_BP 0 = _
    rw [store_same]
    show hmm_enter (hmm_clear
      ((start_clear_1ph (start_reset d)).all_rhmm d.xwd.start_wid).hmm) 0 NO_BP 0 = _
    rcases g1 d.xwd.start_wid with e | e
    · rw [e, hmm_clear_idem]
      rfl
    · rw [e]
      rfl
  · intro j hj0 hj hne
    unfold ngram_fwdtree_start
    dsimp only
    rw [hw]
    show hmm_is_clear (root_chan_t.hmm (store _ d.xwd.start_wid _ (d.single_phone_wid j)))
    rw [store_ne _ _ _ _ hne]
    show hmm_is_clear (root_chan_t.hmm (store _ d.xwd.start_wid _ (d.single_phone_wid j)))
    rw [store_ne _ _ _ _ hne]
    have e := g2 j hj0 hj
    change ((start_clear_1ph (start_reset d)).all_rhmm (d.single_phone_wid j)).hmm
      = hmm_clear (d.all_rhmm (d.single_phone_wid j)).hmm at e
    rw [e]
    exact hmm_is_clear_clear _
  · show (start_clear_1ph (start_reset d)).root_chan = d.root_chan
    rw [h6]
    rfl
  · show (start_clear_1ph (start_reset d)).chan = d.chan
    rw [h7]
    rfl

/-- Witness for C17 on the fresh test decoder. -/
theorem ngram_fwdtree_start_resets_witness :
    (0 : Int) ≤ 2 ∧ (2 : Int) < ex_fresh_dec.ngs.dict.dict_entry_count ∧
    (ngram_fwdtree_start ex_fresh_dec).ngs.word_lat_idx 2 = NO_BP :=
  ⟨by decide, by decide,
    (ngram_fwdtree_start_resets ex_fresh_dec).2.2.1 2 (by decide) (by decide)⟩

/-- Witness for C18 on the fresh test decoder: `</s>`, listed first, is
cleared. -/
theorem ngram_fwdtree_start_hmms_witness :
    (0 : Int) ≤ 0 ∧ (0 : Int) < ex_fresh_dec.n_1ph_words ∧
    ex_fresh_dec.single_phone_wid 0 ≠ ex_fresh_dec.xwd.start_wid ∧
    hmm_is_clear ((ngram_fwdtree_start ex_fresh_dec).all_rhmm
      (ex_fresh_dec.single_phone_wid 0)).hmm :=
  ⟨by decide, by decide, by decide,
    (ngram_fwdtree_start_hmms ex_fresh_dec).2.1 0 (by decide) (by decide) (by decide)⟩

/-- Counterexample to C18 as stated: on the decoder left with a root channel
stamped for frame 0, the root is not in the cleared state after
`ngram_fwdtree_start`. -/
theorem ngram_fwdtree_start_hmms_counterexample :
    ((ngram_fwdtree_start ex_stale_dec).root_chan 0).hmm.frame = 0 ∧
    ((ngram_fwdtree_start ex_stale_dec).root_chan 0).hmm.in_score = -10 ∧
    ¬ hmm_is_clear ((ngram_fwdtree_start ex_stale_dec).root_chan 0).hmm :=
  ⟨by decide!, by decide!, fun h => absurd h.1 (by decide!)⟩

/-! ### `word_lat_idx` over a frame -/

/-- One call of `save_bwd_ptr` keeps the tracking of the lattice index, moves
`bpidx` by at most one step up and leaves the frame marks alone. -/
theorem save_bwd_ptr_wl_tracks (fuel : Nat) (ngs s1 : ngram_search_t)
    (f w score path rc lo : Int) (h0 : 0 ≤ lo) (h1 : lo ≤ ngs.bpidx) (ht : wl_tracks lo ngs)
    (hr : save_bwd_ptr fuel ngs f w score path rc = Except.ok s1) :
    wl_tracks lo s1 ∧ ngs.bpidx ≤ s1.bpidx ∧ s1.bp_table_idx = ngs.bp_table_idx := by
  obtain ⟨hwl, hen⟩ := ht
  by_cases hw : ngs.word_lat_idx w = NO_BP
  · obtain ⟨x, y, he⟩ := save_bwd_ptr_append_eq fuel ngs s1 f w score path rc hw hr
    subst he
    refine ⟨⟨?_, ?_⟩, ?_, rfl⟩
    · intro v
      show store ngs.word_lat_idx w ngs.bpidx v = NO_BP ∨
        (lo ≤ store ngs.word_lat_idx w ngs.bpidx v ∧
          store ngs.word_lat_idx w ngs.bpidx v < ngs.bpidx + 1 ∧
          (store ngs.bp_table ngs.bpidx _ (store ngs.word_lat_idx w ngs.bpidx v)).wid = v)
      by_cases hv : v = w
      · subst hv
        rw [store_same, store_same]
        exact Or.inr ⟨h1, by omega, rfl⟩
      · rw [store_ne _ _ _ _ hv]
        rcases hwl v with h | ⟨ha, hb, hc⟩
        · exact Or.inl h
        · refine Or.inr ⟨ha, by omega, ?_⟩
          rw [store_ne _ _ _ _ (by omega)]
          exact hc
    · intro i hi0 hi
      have hi1 : i < ngs.bpidx + 1 := hi
      show store ngs.word_lat_idx w ngs.bpidx (store ngs.bp_table ngs.bpidx _ i).wid = i
      by_cases hie : i = ngs.bpidx
      · subst hie
        rw [store_same]
        show store ngs.word_lat_idx w ngs.bpidx w = ngs.bpidx
        rw [store_same]
      · rw [store_ne _ _ _ _ hie]
        have hold := hen i hi0 (by omega)
        have hne : (ngs.bp_table i).wid ≠ w := by
          intro e
          rw [e, hw] at hold
          have : NO_BP = (-1 : Int) := rfl
          omega
        rw [store_ne _ _ _ _ hne]
        exact hold
    · show ngs.bpidx ≤ ngs.bpidx + 1
      omega
  · obtain ⟨e1, he, hwid, _, _, _, _, _, _, _⟩ :=
      save_bwd_ptr_update_eq fuel ngs s1 f w score path rc hw hr
    subst he
    have hwid1 : ∀ i, (store ngs.bp_table (ngs.word_lat_idx w) e1 i).wid = (ngs.bp_table i).wid := by
      intro i
      by_cases hie : i = ngs.word_lat_idx w
      · rw [hie, store_same, hwid]
      · rw [store_ne _ _ _ _ hie]
    refine ⟨⟨?_, ?_⟩, le_refl _, rfl⟩
    · intro v
      show ngs.word_lat_idx v = NO_BP ∨
        (lo ≤ ngs.word_lat_idx v ∧ ngs.word_lat_idx v < ngs.bpidx ∧
          (store ngs.bp_table (ngs.word_lat_idx w) e1 (ngs.word_lat_idx v)).wid = v)
      rw [hwid1]
      exact hwl v
    · intro i hi0 hi
      show ngs.word_lat_idx (store ngs.bp_table (ngs.word_lat_idx w) e1 i).wid = i
      rw [hwid1]
      exact hen i hi0 hi

/-- A sequence of `save_bwd_ptr` calls keeps the tracking of the lattice
index. -/
theorem save_bwd_ptr_seq_wl_tracks (fuel : Nat) (lo : Int) (h0 : 0 ≤ lo)
    (calls : List bwd_call) :
    ∀ (ngs : ngram_search_t) (g : Int → Int) (s1 : ngram_search_t) (g1 : Int → Int),
      lo ≤ ngs.bpidx → wl_tracks lo ngs →
      save_bwd_ptr_seq fuel ngs g calls = Except.ok (s1, g1) →
      wl_tracks lo s1 ∧ ngs.bpidx ≤ s1.bpidx ∧ s1.bp_table_idx = ngs.bp_table_idx := by
  induction calls with
  | nil =>
    intro ngs g s1 g1 _ ht h
    simp only [save_bwd_ptr_seq, Except.ok.injEq, Prod.mk.injEq] at h
    obtain ⟨e, _⟩ := h
    subst e
    exact ⟨ht, le_refl _, rfl⟩
  | cons c cs ih =>
    intro ngs g s1 g1 h1 ht h
    simp only [save_bwd_ptr_seq] at h
    split at h
    · simp at h
    · rename_i ngs1 hs
      obtain ⟨a1, a2, a3⟩ := save_bwd_ptr_wl_tracks fuel ngs ngs1 _ _ _ _ _ lo h0 h1 ht hs
      obtain ⟨b1, b2, b3⟩ := ih ngs1 _ s1 g1 (by omega) a1 h
      exact ⟨b1, by omega, by rw [b3, a3]⟩

/-- Rule for a `for_up` loop whose body returns under an invariant: the loop
returns. -/
theorem for_up_total {σ : Type} (P : σ → Prop) (body : Int → σ → Except Fault σ) (n : Nat) :
    ∀ (lo : Int) (s : σ),
      (∀ i s, lo ≤ i → i < lo + n → P s → ∃ s1, body i s = Except.ok s1 ∧ P s1) →
      P s → ∃ s1, for_up body n lo s = Except.ok s1 ∧ P s1 := by
  induction n with
  | zero =>
    intro lo s _ h0
    exact ⟨s, rfl, h0⟩
  | succ n ih =>
    intro lo s h h0
    obtain ⟨t, ht, hp⟩ := h lo s (le_refl _) (by push_cast; omega) h0
    obtain ⟨u, hu, hq⟩ := ih (lo + 1) t
      (fun i v hi1 hi2 => h i v (by omega) (by push_cast; omega)) hp
    refine ⟨u, ?_, hq⟩
    simp only [for_up, ht]
    exact hu

theorem wl_reset_best_rc (ngs0 : ngram_search_t) (bp : Int) (sk : decoder_t × Int)
    (hd : wl_reset_ok ngs0 bp sk.1) : wl_reset_ok ngs0 (bp + 1) (wt_best_rc bp sk).1 := by
  have h1 : wl_reset_ok ngs0 (bp + 1)
      (set_ngs sk.1 { sk.1.ngs with
        word_lat_idx := store sk.1.ngs.word_lat_idx (sk.1.ngs.bp_table bp).wid NO_BP }) := by
    refine ⟨hd.1, hd.2.1, hd.2.2.1, ?_⟩
    intro w
    show store sk.1.ngs.word_lat_idx (sk.1.ngs.bp_table bp).wid NO_BP w = NO_BP ∨
      (bp + 1 ≤ store sk.1.ngs.word_lat_idx (sk.1.ngs.bp_table bp).wid NO_BP w ∧
        store sk.1.ngs.word_lat_idx (sk.1.ngs.bp_table bp).wid NO_BP w < ngs0.bpidx ∧
        (ngs0.bp_table (store sk.1.ngs.word_lat_idx (sk.1.ngs.bp_table bp).wid NO_BP w)).wid
          = w)
    by_cases hw : w = (sk.1.ngs.bp_table bp).wid
    · rw [hw, store_same]
      exact Or.inl rfl
    · rw [store_ne _ _ _ _ hw]
      rcases hd.2.2.2 w with h | ⟨ha, hb, hc⟩
      · exact Or.inl h
      · refine Or.inr ⟨?_, hb, hc⟩
        by_cases he : sk.1.ngs.word_lat_idx w = bp
        · rw [he, ← hd.1] at hc
          exact absurd hc.symm hw
        · omega
  unfold wt_best_rc
  dsimp only
  split
  · exact h1
  · dsimp only
    apply iter_down_inv (wl_reset_ok ngs0 (bp + 1))
    · intro rc s _ _ hs
      dsimp only
      split
      · exact hs
      · exact hs
    · exact h1

theorem wl_reset_root (ngs0 : ngram_search_t) (i fi thresh j : Int) (d : decoder_t)
    (hd : wl_reset_ok ngs0 i d) : wl_reset_ok ngs0 i (wt_root fi thresh j d) := by
  unfold wt_root
  dsimp only
  split
  · split
    · exact hd
    · exact hd
  · exact hd

theorem wl_reset_ltrans (env : env_t) (ngs0 : ngram_search_t) (i bp : Int) (d : decoder_t)
    (hd : wl_reset_ok ngs0 i d) : wl_reset_ok ngs0 i (wt_ltrans env bp d) := by
  unfold wt_ltrans
  dsimp only
  split
  · exact hd
  · apply iter_up_inv (wl_reset_ok ngs0 i)
    · intro k s _ _ hs
      dsimp only
      split
      · exact hs
      · exact hs
    · exact hd

theorem wl_reset_single (ngs0 : ngram_search_t) (i fi thresh k : Int) (d d1 : decoder_t)
    (hd : wl_reset_ok ngs0 i d) (hr : wt_single fi thresh k d = Except.ok d1) :
    wl_reset_ok ngs0 i d1 := by
  unfold wt_single at hr
  dsimp only at hr
  split at hr
  · split at hr
    · simp at hr
    · split at hr
      · simp only [Except.ok.injEq] at hr
        subst hr
        exact hd
      · simp only [Except.ok.injEq] at hr
        subst hr
        exact hd
  · simp only [Except.ok.injEq] at hr
    subst hr
    exact hd

theorem wl_reset_filler (ngs0 : ngram_search_t) (i fi newscore w : Int) (d : decoder_t)
    (hd : wl_reset_ok ngs0 i d) : wl_reset_ok ngs0 i (wt_filler fi newscore w d) := by
  unfold wt_filler
  dsimp only
  split
  · exact hd
  · exact hd

/-- When `word_transition` returns, only `word_lat_idx` has changed in the
backpointer part, and every lattice index that named an entry of the frame is
`NO_BP`. -/
theorem word_transition_wl (env : env_t) (d d1 : decoder_t) (f : Int)
    (hlo : d.ngs.bp_table_idx f ≤ d.ngs.bpidx)
    (ht : wl_reset_ok d.ngs (d.ngs.bp_table_idx f) d)
    (hr : word_transition env d f = Except.ok d1) : wl_reset_ok d.ngs d.ngs.bpidx d1 := by
  unfold word_transition at hr
  dsimp only at hr
  generalize hD : iter_down _ d.ngs.n_ciphone.toNat (d.ngs.n_ciphone - 1) d = D at hr
  have hD1 : wl_reset_ok d.ngs (d.ngs.bp_table_idx f) D := by
    rw [← hD]
    apply iter_down_inv (wl_reset_ok d.ngs (d.ngs.bp_table_idx f))
    · intro rc s _ _ hs
      exact hs
    · exact ht
  clear hD
  rw [hD1.2.1, hD1.2.2.1] at hr
  generalize hR : iter_up wt_best_rc (d.ngs.bpidx - d.ngs.bp_table_idx f).toNat
    (d.ngs.bp_table_idx f) (D, 0) = R at hr
  have hR1 : wl_reset_ok d.ngs d.ngs.bpidx R.1 := by
    rw [← hR]
    have h := iter_up_ind (fun i (sk : decoder_t × Int) => wl_reset_ok d.ngs i sk.1) wt_best_rc
      (d.ngs.bpidx - d.ngs.bp_table_idx f).toNat (d.ngs.bp_table_idx f) (D, 0)
      (fun i sk _ _ hs => wl_reset_best_rc d.ngs i sk hs) hD1
    have e : d.ngs.bp_table_idx f + ((d.ngs.bpidx - d.ngs.bp_table_idx f).toNat : Int)
        = d.ngs.bpidx := by
      omega
    rw [e] at h
    exact h
  clear hR
  split at hr
  · simp only [Except.ok.injEq] at hr
    subst hr
    exact hR1
  · split at hr
    · simp at hr
    · rename_i d6 h6
      have hs6 : wl_reset_ok d.ngs d.ngs.bpidx d6 := by
        refine for_up_inv (wl_reset_ok d.ngs d.ngs.bpidx) _ _ _ _ _ ?_ ?_ h6
        · intro k s s1 _ _ hs hb
          exact wl_reset_single d.ngs _ f _ k s s1 hs hb
        · apply iter_up_inv (wl_reset_ok d.ngs d.ngs.bpidx)
          · intro bp s _ _ hs
            exact wl_reset_ltrans env d.ngs _ bp s hs
          · apply iter_up_inv (wl_reset_ok d.ngs d.ngs.bpidx)
            · intro k s _ _ hs
              exact hs
            · apply iter_up_inv (wl_reset_ok d.ngs d.ngs.bpidx)
              · intro k s _ _ hs
                exact wl_reset_root d.ngs _ f _ k s hs
              · exact hR1
      clear h6
      simp only [Except.ok.injEq] at hr
      subst hr
      generalize hX : (ite ((d6.bestbp_rc d6.sil).score + d6.silpen + d6.pip >
        R.1.best_score + R.1.dynamic_beam) _ d6) = X
      have hX1 : wl_reset_ok d.ngs d.ngs.bpidx X := by
        rw [← hX]
        split
        · exact wl_reset_filler d.ngs _ f _ _ d6 hs6
        · exact hs6
      clear hX
      split
      · apply iter_up_inv (wl_reset_ok d.ngs d.ngs.bpidx)
        · intro w s _ _ hs
          exact wl_reset_filler d.ngs _ f _ w s hs
        · exact hX1
      · exact hX1

theorem for_up_never_fails {σ : Type} (P : σ → Prop) (body : Int → σ → Except Fault σ)
    (n : Nat) (lo : Int) (s : σ) (e : Fault)
    (hb : ∀ i s, lo ≤ i → i < lo + n → P s → ∃ s1, body i s = Except.ok s1 ∧ P s1)
    (hs : P s) : for_up body n lo s ≠ Except.error e := by
  obtain ⟨s1, h1, _⟩ := for_up_total P body n lo s hb hs
  rw [h1]
  intro h
  cases h

theorem wt_single_returns (mk : Int → Int) (fi thresh k : Int) (d : decoder_t)
    (hp : d.ngs.bp_table_idx = mk ∧ ∀ w, 0 ≤ (d.last_ltrans w).bp) :
    ∃ d1, wt_single fi thresh k d = Except.ok d1 ∧
      (d1.ngs.bp_table_idx = mk ∧ ∀ w, 0 ≤ (d1.last_ltrans w).bp) := by
  unfold wt_single
  dsimp only
  split
  · have hb : ¬ (d.last_ltrans (d.single_phone_wid k)).bp < 0 := by
      have := hp.2 (d.single_phone_wid k)
      omega
    simp only [bp_deref, if_neg hb]
    split
    · exact ⟨_, rfl, hp⟩
    · exact ⟨_, rfl, hp⟩
  · exact ⟨_, rfl, hp⟩

theorem wt_best_rc_keeps (mk : Int → Int) (bp : Int) (sk : decoder_t × Int)
    (hp : sk.1.ngs.bp_table_idx = mk ∧ ∀ w, 0 ≤ (sk.1.last_ltrans w).bp) :
    (wt_best_rc bp sk).1.ngs.bp_table_idx = mk ∧
      ∀ w, 0 ≤ ((wt_best_rc bp sk).1.last_ltrans w).bp := by
  unfold wt_best_rc
  dsimp only
  split
  · exact hp
  · dsimp only
    apply iter_down_inv
      (fun s : decoder_t => s.ngs.bp_table_idx = mk ∧ ∀ w, 0 ≤ (s.last_ltrans w).bp)
    · intro rc s _ _ hs
      dsimp only
      split
      · exact hs
      · exact hs
    · exact hp

theorem wt_root_keeps (mk : Int → Int) (fi thresh j : Int) (d : decoder_t)
    (hp : d.ngs.bp_table_idx = mk ∧ ∀ w, 0 ≤ (d.last_ltrans w).bp) :
    (wt_root fi thresh j d).ngs.bp_table_idx = mk ∧
      ∀ w, 0 ≤ ((wt_root fi thresh j d).last_ltrans w).bp := by
  unfold wt_root
  dsimp only
  split
  · split
    · exact hp
    · exact hp
  · exact hp

theorem ltrans_nonneg_set (mk : Int → Int) (d : decoder_t) (w : Int) (v : last_ltrans_t)
    (hv : 0 ≤ v.bp) (hp : d.ngs.bp_table_idx = mk ∧ ∀ w, 0 ≤ (d.last_ltrans w).bp) :
    (set_ltrans d w v).ngs.bp_table_idx = mk ∧ ∀ u, 0 ≤ ((set_ltrans d w v).last_ltrans u).bp := by
  refine ⟨hp.1, ?_⟩
  intro u
  show 0 ≤ (store d.last_ltrans w v u).bp
  by_cases hu : u = w
  · subst hu
    rw [store_same]
    exact hv
  · rw [store_ne _ _ _ _ hu]
    exact hp.2 u

theorem wt_ltrans_keeps (env : env_t) (mk : Int → Int) (bp : Int) (d : decoder_t)
    (hbp : 0 ≤ bp) (hp : d.ngs.bp_table_idx = mk ∧ ∀ w, 0 ≤ (d.last_ltrans w).bp) :
    (wt_ltrans env bp d).ngs.bp_table_idx = mk ∧
      ∀ w, 0 ≤ ((wt_ltrans env bp d).last_ltrans w).bp := by
  unfold wt_ltrans
  dsimp only
  split
  · exact hp
  · apply iter_up_inv
      (fun s : decoder_t => s.ngs.bp_table_idx = mk ∧ ∀ w, 0 ≤ (s.last_ltrans w).bp)
    · intro k s _ _ hs
      dsimp only
      split
      · apply ltrans_nonneg_set
        · exact hbp
        · apply ltrans_nonneg_set
          · exact hs.2 _
          · exact hs
      · exact hs
    · exact hp

/-- `word_transition` returns when the frame's first index and the
predecessor indices kept in `last_ltrans` are not negative. -/
theorem word_transition_returns (env : env_t) (d : decoder_t) (f : Int)
    (h0 : 0 ≤ d.ngs.bp_table_idx f) (hp : ∀ w, 0 ≤ (d.last_ltrans w).bp) :
    ∃ d1, word_transition env d f = Except.ok d1 := by
  unfold word_transition
  dsimp only
  generalize hD : iter_down _ d.ngs.n_ciphone.toNat (d.ngs.n_ciphone - 1) d = D
  have hD1 : D.ngs.bp_table_idx = d.ngs.bp_table_idx ∧ ∀ w, 0 ≤ (D.last_ltrans w).bp := by
    rw [← hD]
    apply iter_down_inv (fun s : decoder_t =>
      s.ngs.bp_table_idx = d.ngs.bp_table_idx ∧ ∀ w, 0 ≤ (s.last_ltrans w).bp)
    · intro rc s _ _ hs
      exact hs
    · exact ⟨rfl, hp⟩
  clear hD
  rw [hD1.1]
  generalize hR : iter_up wt_best_rc (D.ngs.bpidx - d.ngs.bp_table_idx f).toNat
    (d.ngs.bp_table_idx f) (D, 0) = R
  have hR1 : R.1.ngs.bp_table_idx = d.ngs.bp_table_idx ∧ ∀ w, 0 ≤ (R.1.last_ltrans w).bp := by
    rw [← hR]
    apply iter_up_inv (fun sk : decoder_t × Int =>
      sk.1.ngs.bp_table_idx = d.ngs.bp_table_idx ∧ ∀ w, 0 ≤ (sk.1.last_ltrans w).bp)
    · intro i sk _ _ hs
      exact wt_best_rc_keeps _ i sk hs
    · exact hD1
  clear hR
  split
  · exact ⟨_, rfl⟩
  · split
    · rename_i e heq
      exfalso
      refine for_up_never_fails
        (fun s : decoder_t =>
          s.ngs.bp_table_idx = d.ngs.bp_table_idx ∧ ∀ w, 0 ≤ (s.last_ltrans w).bp)
        _ _ _ _ e (fun k s _ _ hs => wt_single_returns _ f _ k s hs) ?_ heq
      apply iter_up_inv (fun s : decoder_t =>
        s.ngs.bp_table_idx = d.ngs.bp_table_idx ∧ ∀ w, 0 ≤ (s.last_ltrans w).bp)
      · intro bp s hb0 _ hs
        exact wt_ltrans_keeps env _ bp s (by omega) hs
      · apply iter_up_inv (fun s : decoder_t =>
          s.ngs.bp_table_idx = d.ngs.bp_table_idx ∧ ∀ w, 0 ≤ (s.last_ltrans w).bp)
        · intro k s _ _ hs
          exact ltrans_nonneg_set _ s _ _ (hs.2 _) hs
        · apply iter_up_inv (fun s : decoder_t =>
            s.ngs.bp_table_idx = d.ngs.bp_table_idx ∧ ∀ w, 0 ≤ (s.last_ltrans w).bp)
          · intro k s _ _ hs
            exact wt_root_keeps _ f _ k s hs
          · exact hR1
    · exact ⟨_, rfl⟩

/-! ### The lattice index within a frame -/

theorem wl_reset_of_tracks (d : decoder_t) (lo : Int) (ht : wl_tracks lo d.ngs) :
    wl_reset_ok d.ngs lo d :=
  ⟨rfl, rfl, rfl, ht.1⟩

/-- C11: starting a frame `f` (marked at the current end of the table) with
every `word_lat_idx[w]` equal to `NO_BP`, after any sequence of `save_bwd_ptr`
calls `word_lat_idx[w] != NO_BP` exactly when the segment
`[bp_table_idx[f], bpidx)` holds an entry with `wid = w`; such an entry is the
one `word_lat_idx[w]` names, so it is unique.  A `word_transition(f)` run on a
decoder in that state leaves every `word_lat_idx[w]` at `NO_BP`, and it does
return when the predecessor indices kept in `last_ltrans` are not negative. -/
theorem word_lat_idx_tracks_exits (env : env_t) (fuel : Nat) (ngs0 s1 : ngram_search_t)
    (g0 g1 : Int → Int) (calls : List bwd_call) (f : Int)
    (h0 : 0 ≤ ngs0.bpidx) (hm : ngs0.bp_table_idx f = ngs0.bpidx)
    (hw : ∀ w, ngs0.word_lat_idx w = NO_BP)
    (hr : save_bwd_ptr_seq fuel ngs0 g0 calls = Except.ok (s1, g1)) :
    (∀ w, s1.word_lat_idx w ≠ NO_BP ↔
      ∃ i, s1.bp_table_idx f ≤ i ∧ i < s1.bpidx ∧ (s1.bp_table i).wid = w) ∧
    (∀ w i, s1.bp_table_idx f ≤ i → i < s1.bpidx → (s1.bp_table i).wid = w →
      i = s1.word_lat_idx w) ∧
    (∀ d : decoder_t, d.ngs = s1 →
      (∀ d1, word_transition env d f = Except.ok d1 → ∀ w, d1.ngs.word_lat_idx w = NO_BP) ∧
      ((∀ w, 0 ≤ (d.last_ltrans w).bp) → ∃ d1, word_transition env d f = Except.ok d1)) := by
  have hinit : wl_tracks ngs0.bpidx ngs0 :=
    ⟨fun w => Or.inl (hw w), fun i h1 h2 => absurd h2 (by omega)⟩
  obtain ⟨⟨hwl, hen⟩, hle, hidx⟩ :=
    save_bwd_ptr_seq_wl_tracks fuel ngs0.bpidx h0 calls ngs0 g0 s1 g1 (le_refl _) hinit hr
  have hlo : s1.bp_table_idx f = ngs0.bpidx := by rw [hidx, hm]
  refine ⟨?_, ?_, ?_⟩
  · intro w
    constructor
    · intro hne
      rcases hwl w with h | ⟨a, b, c⟩
      · exact absurd h hne
      · exact ⟨s1.word_lat_idx w, by omega, b, c⟩
    · rintro ⟨i, a, b, c⟩ hno
      have hi := hen i (by omega) b
      rw [c, hno] at hi
      simp only [NO_BP] at hi
      omega
  · intro w i a b c
    have hi := hen i (by omega) b
    rw [c] at hi
    exact hi.symm
  · intro d hd
    subst hd
    constructor
    · intro d1 hrun w
      have ht : wl_reset_ok d.ngs (d.ngs.bp_table_idx f) d := by
        rw [hlo]
        exact wl_reset_of_tracks d _ ⟨hwl, hen⟩
      have hres := word_transition_wl env d d1 f (by omega) ht hrun
      rcases hres.2.2.2 w with h | ⟨a, b, _⟩
      · exact h
      · omega
    · intro hp
      exact word_transition_returns env d f (by omega) hp

/-- Exits of words 2, 1 and 2 again in frame 7 of the test chain: entries 4
and 5 are those of words 2 and 1, and the lattice index names them. -/
theorem word_lat_idx_tracks_exits_witness :
    ∃ s1 g1, save_bwd_ptr_seq 10 ex_frame_ngs (fun _ => 0) ex_calls_frame = Except.ok (s1, g1) ∧
      s1.bpidx = 6 ∧ s1.word_lat_idx 2 = 4 ∧ s1.word_lat_idx 1 = 5 ∧
      (∀ w, s1.word_lat_idx w ≠ NO_BP ↔
        ∃ i, s1.bp_table_idx 7 ≤ i ∧ i < s1.bpidx ∧ (s1.bp_table i).wid = w) ∧
      (∀ w i, s1.bp_table_idx 7 ≤ i → i < s1.bpidx → (s1.bp_table i).wid = w →
        i = s1.word_lat_idx w) ∧
      (∀ d : decoder_t, d.ngs = s1 →
        (∀ d1, word_transition ex_env d 7 = Except.ok d1 →
          ∀ w, d1.ngs.word_lat_idx w = NO_BP) ∧
        ((∀ w, 0 ≤ (d.last_ltrans w).bp) → ∃ d1, word_transition ex_env d 7 = Except.ok d1)) :=
  have hrun : ∃ s1 g1,
      save_bwd_ptr_seq 10 ex_frame_ngs (fun _ => 0) ex_calls_frame = Except.ok (s1, g1) ∧
      s1.bpidx = 6 ∧ s1.word_lat_idx 2 = 4 ∧ s1.word_lat_idx 1 = 5 :=
    ⟨_, _, rfl, by decide, by decide, by decide⟩
  match hrun with
  | ⟨s1, g1, h, a, b, c⟩ =>
    ⟨s1, g1, h, a, b, c,
      word_lat_idx_tracks_exits ex_env 10 ex_frame_ngs s1 (fun _ => 0) g1 ex_calls_frame 7
        (by decide) (by decide) (fun _ => rfl) h⟩

/-! ### The dynamic beam through the pruning passes -/

theorem emit_cands_beam (fuel : Nat) (d d1 : decoder_t) (w0 score bp c : Int)
    (hd : d.dynamic_beam = c) (hr : emit_cands fuel d w0 score bp = Except.ok d1) :
    d1.dynamic_beam = c := by
  unfold emit_cands at hr
  refine for_list_inv (fun s : decoder_t => s.dynamic_beam = c) _ _ _ ?_ _ _ _ _ hd hr
  intro w s s1 _ hs hb
  simp only [Except.ok.injEq] at hb
  subst hb
  exact hs

/-- Pruning the roots leaves the dynamic beam alone. -/
theorem prune_root_chan_beam (fuel : Nat) (d d1 : decoder_t) (fi c : Int)
    (hd : d.dynamic_beam = c) (hr : prune_root_chan fuel d fi = Except.ok d1) :
    d1.dynamic_beam = c := by
  unfold prune_root_chan at hr
  dsimp only at hr
  split at hr
  · simp at hr
  · rename_i d2 n h2
    simp only [Except.ok.injEq] at hr
    subst hr
    have h3 := for_up_inv (fun sn : decoder_t × Int => sn.1.dynamic_beam = c)
      _ _ _ _ _ ?_ hd h2
    · exact h3
    · intro i sn sn1 _ _ hs hb
      split at hb
      · simp only [Except.ok.injEq] at hb
        subst hb
        exact hs
      · split at hb
        · have hs1 : (set_root_hmm sn.1 i
              (hmm_set_frame (sn.1.root_chan i).hmm (fi + 1))).dynamic_beam = c := hs
          split at hb
          · split at hb
            · simp at hb
            · rename_i s2 n2 hl
              have hs2 := for_list_inv
                (fun t : decoder_t × Int => t.1.dynamic_beam = c) _ _ _ ?_ _ _ _ _
                ?_ hl
              · split at hb
                · split at hb
                  · simp at hb
                  · rename_i s3 he
                    simp only [Except.ok.injEq] at hb
                    subst hb
                    exact emit_cands_beam fuel s2 s3 _ _ _ c hs2 he
                · simp only [Except.ok.injEq] at hb
                  subst hb
                  exact hs2
              · intro a t t1 _ ht hb1
                split at hb1
                · simp only [Except.ok.injEq] at hb1
                  subst hb1
                  exact ht
                · simp only [Except.ok.injEq] at hb1
                  subst hb1
                  exact ht
              · exact hs1
          · simp only [Except.ok.injEq] at hb
            subst hb
            exact hs1
        · simp only [Except.ok.injEq] at hb
          subst hb
          exact hs

/-- Pruning the tree nodes leaves the dynamic beam alone. -/
theorem prune_nonroot_chan_beam (fuel : Nat) (d d1 : decoder_t) (fi c : Int)
    (hd : d.dynamic_beam = c) (hr : prune_nonroot_chan fuel d fi = Except.ok d1) :
    d1.dynamic_beam = c := by
  unfold prune_nonroot_chan at hr
  dsimp only at hr
  split at hr
  · simp at hr
  · rename_i d2 n h2
    simp only [Except.ok.injEq] at hr
    subst hr
    have h3 := for_up_inv (fun sn : decoder_t × Int => sn.1.dynamic_beam = c)
      _ _ _ _ _ ?_ hd h2
    · exact h3
    · clear h2
      intro k sn sn1 _ _ hs hb
      split at hb
      · simp at hb
      · split at hb
        · generalize hX : (ite ((sn.1.chan (sn.1.active_chan_list (parity fi) k)).hmm.frame
            ≠ fi + 1) _ sn) = x at hb
          have hx : x.1.dynamic_beam = c := by
            rw [← hX]
            split
            · exact hs
            · exact hs
          clear hX
          split at hb
          · split at hb
            · simp at hb
            · rename_i s2 n2 hl
              have hs2 := for_list_inv
                (fun t : decoder_t × Int => t.1.dynamic_beam = c) _ _ _ ?_ _ _ _ _
                ?_ hl
              · split at hb
                · split at hb
                  · simp at hb
                  · rename_i s3 he
                    simp only [Except.ok.injEq] at hb
                    subst hb
                    exact emit_cands_beam fuel s2 s3 _ _ _ c hs2 he
                · simp only [Except.ok.injEq] at hb
                  subst hb
                  exact hs2
              · clear hl hb
                intro a t t1 _ ht hb1
                split at hb1
                · simp only [Except.ok.injEq] at hb1
                  subst hb1
                  generalize hY : (ite ((t.1.chan a).hmm.frame ≠ fi + 1) _ t) = y
                  have hy : y.1.dynamic_beam = c := by
                    rw [← hY]
                    split
                    · exact ht
                    · exact ht
                  exact hy
                · simp only [Except.ok.injEq] at hb1
                  subst hb1
                  exact ht
              · exact hx
          · simp only [Except.ok.injEq] at hb
            subst hb
            exact hx
        · split at hb
          · simp only [Except.ok.injEq] at hb
            subst hb
            exact hs
          · simp only [Except.ok.injEq] at hb
            subst hb
            exact hs

theorem alloc_rc_loop_beam (c : Int) (sseq_rc : Int → Int) (ciphone : Int) (fuel : Nat) :
    ∀ (i hmm : Int) (d d1 : decoder_t), d.dynamic_beam = c →
      alloc_rc_loop sseq_rc ciphone fuel i hmm d = Except.ok d1 → d1.dynamic_beam = c := by
  induction fuel with
  | zero =>
    intro i hmm d d1 _ hr
    simp [alloc_rc_loop] at hr
  | succ n ih =>
    intro i hmm d d1 hd hr
    simp only [alloc_rc_loop] at hr
    split at hr
    · split at hr
      · refine ih _ _ _ _ ?_ hr
        exact hd
      · exact ih _ _ _ _ hd hr
    · simp only [Except.ok.injEq] at hr
      subst hr
      exact hd

theorem alloc_all_rc_beam (c : Int) (fuel : Nat) (d d1 : decoder_t) (w : Int)
    (hd : d.dynamic_beam = c) (hr : alloc_all_rc fuel d w = Except.ok d1) :
    d1.dynamic_beam = c := by
  unfold alloc_all_rc at hr
  dsimp only at hr
  split at hr
  · simp at hr
  · split at hr
    · refine alloc_rc_loop_beam c _ _ fuel _ _ _ _ ?_ hr
      exact hd
    · exact alloc_rc_loop_beam c _ _ fuel _ _ _ _ hd hr

theorem set_ltrans_beam (d : decoder_t) (w : Int) (v : last_ltrans_t) :
    (set_ltrans d w v).dynamic_beam = d.dynamic_beam := rfl

theorem set_bucket_beam (d : decoder_t) (j : Int) (v : cand_sf_t) :
    (set_bucket d j v).dynamic_beam = d.dynamic_beam := rfl

theorem set_cand_beam (d : decoder_t) (i : Int) (v : lastphn_cand_t) :
    (set_cand d i v).dynamic_beam = d.dynamic_beam := rfl

theorem lpt_find_bucket_beam (d : decoder_t) (i n ef : Int) :
    (lpt_find_bucket d i n ef).1.dynamic_beam = d.dynamic_beam := by
  unfold lpt_find_bucket
  dsimp only
  split
  · rfl
  · show (grow_cand_sf d n).dynamic_beam = d.dynamic_beam
    unfold grow_cand_sf
    split
    · split
      · rfl
      · rfl
    · rfl

theorem lpt_bucket_beam (c i : Int) (sn sn1 : decoder_t × Int) (hd : sn.1.dynamic_beam = c)
    (hr : lpt_bucket i sn = Except.ok sn1) : sn1.1.dynamic_beam = c := by
  unfold lpt_bucket at hr
  dsimp only at hr
  split at hr
  · simp at hr
  · split at hr
    · simp only [Except.ok.injEq] at hr
      subst hr
      simp only [set_ltrans_beam, set_bucket_beam, lpt_find_bucket_beam, set_cand_beam]
      exact hd
    · simp only [Except.ok.injEq] at hr
      subst hr
      exact hd

theorem lpt_score_beam (env : env_t) (fuel : Nat) (c bp j0 : Int) (d d1 : decoder_t)
    (hd : d.dynamic_beam = c) (hr : lpt_score env fuel bp j0 d = Except.ok d1) :
    d1.dynamic_beam = c := by
  unfold lpt_score at hr
  dsimp only at hr
  split at hr
  · simp only [Except.ok.injEq] at hr
    subst hr
    exact hd
  · refine for_list_inv (fun s : decoder_t => s.dynamic_beam = c) _ _ _ ?_ _ _ _ _ hd hr
    intro j s s1 _ hs hb
    split at hb
    · simp only [Except.ok.injEq] at hb
      subst hb
      exact hs
    · simp only [Except.ok.injEq] at hb
      subst hb
      exact hs

theorem lpt_enter_beam (fuel : Nat) (c fi thresh i : Int) (sn sn1 : decoder_t × Int)
    (hd : sn.1.dynamic_beam = c) (hr : lpt_enter fuel fi thresh i sn = Except.ok sn1) :
    sn1.1.dynamic_beam = c := by
  unfold lpt_enter at hr
  dsimp only at hr
  split at hr
  · split at hr
    · simp at hr
    · rename_i d1 ha
      have h1 := alloc_all_rc_beam c fuel _ _ _ hd ha
      split at hr
      · simp at hr
      · rename_i d2 k hl
        have h2 := for_list_inv
          (fun t : decoder_t × Int => t.1.dynamic_beam = c) _ _ _ ?_ _ _ _ _ ?_ hl
        · split at hr
          · split at hr
            · simp at hr
            · split at hr
              · simp at hr
              · simp only [Except.ok.injEq] at hr
                subst hr
                exact h2
          · simp only [Except.ok.injEq] at hr
            subst hr
            exact h2
        · clear hl hr
          intro a t t1 _ ht hb
          split at hb
          · split at hb
            · simp at hb
            · simp only [Except.ok.injEq] at hb
              subst hb
              exact ht
          · simp only [Except.ok.injEq] at hb
            subst hb
            exact ht
        · exact h1
  · simp only [Except.ok.injEq] at hr
    subst hr
    exact hd

/-- The last-phone transition leaves the dynamic beam alone. -/
theorem last_phone_transition_beam (env : env_t) (fuel : Nat) (d d1 : decoder_t) (fi c : Int)
    (hd : d.dynamic_beam = c) (hr : last_phone_transition env fuel d fi = Except.ok d1) :
    d1.dynamic_beam = c := by
  unfold last_phone_transition at hr
  dsimp only at hr
  split at hr
  · simp at hr
  · rename_i d2 ncs h1
    have hs1 : d2.dynamic_beam = c := by
      refine for_up_inv (fun sn : decoder_t × Int => sn.1.dynamic_beam = c)
        _ _ _ _ _ ?_ ?_ h1
      · intro i sn sn1 _ _ hs hb
        exact lpt_bucket_beam c i sn sn1 hs hb
      · exact hd
    clear h1
    split at hr
    · simp at hr
    · rename_i d3 h2
      have hs2 : d3.dynamic_beam = c := by
        refine for_up_inv (fun s : decoder_t => s.dynamic_beam = c) _ _ _ _ _ ?_ hs1 h2
        intro i s s1 _ _ hs hb
        refine for_up_inv (fun s : decoder_t => s.dynamic_beam = c) _ _ _ _ _ ?_ hs hb
        intro bp t t1 _ _ ht hbt
        exact lpt_score_beam env fuel c bp _ t t1 ht hbt
      clear h2 hs1
      generalize hR : iter_up _ d3.n_lastphn_cand.toNat 0 (d3, d3.last_phone_best_score) = R
        at hr
      have hR1 : R.1.dynamic_beam = c := by
        rw [← hR]
        apply iter_up_inv (fun sb : decoder_t × Int => sb.1.dynamic_beam = c)
        · intro i sb _ _ hsb
          exact hsb
        · exact hs2
      clear hR
      split at hr
      · simp at hr
      · rename_i d4 n h4
        simp only [Except.ok.injEq] at hr
        subst hr
        have h5 := for_up_inv (fun sn : decoder_t × Int => sn.1.dynamic_beam = c)
          _ _ _ _ _ ?_ ?_ h4
        · exact h5
        · intro i sn sn1 _ _ hs hb
          exact lpt_enter_beam fuel c fi _ i sn sn1 hs hb
        · exact hR1

theorem save_exit_beam (fuel : Nat) (d d1 : decoder_t) (c fi w score path rc : Int)
    (hd : d.dynamic_beam = c) (hr : save_exit fuel d fi w score path rc = Except.ok d1) :
    d1.dynamic_beam = c := by
  unfold save_exit at hr
  split at hr
  · simp at hr
  · simp only [Except.ok.injEq] at hr
    subst hr
    exact hd

theorem write_link_beam (d : decoder_t) (l : link_t) (v : Int) :
    (write_link d l v).dynamic_beam = d.dynamic_beam := by
  cases l
  · rfl
  · rfl

theorem prune_leaves_beam (sfuel : Nat) (c fi w t1 t2 : Int) (fuel : Nat) :
    ∀ (hmm : Int) (l : link_t) (k : Int) (d : decoder_t) (r : decoder_t × Int),
      d.dynamic_beam = c →
      prune_leaves sfuel fi w t1 t2 fuel hmm l k d = Except.ok r → r.1.dynamic_beam = c := by
  induction fuel with
  | zero =>
    intro hmm l k d r _ hr
    simp [prune_leaves] at hr
  | succ n ih =>
    intro hmm l k d r hd hr
    simp only [prune_leaves] at hr
    split at hr
    · simp only [Except.ok.injEq] at hr
      subst hr
      exact hd
    · split at hr
      · simp at hr
      · split at hr
        · split at hr
          · split at hr
            · simp at hr
            · rename_i d2 hs
              refine ih _ _ _ _ _ ?_ hr
              refine save_exit_beam sfuel _ d2 c _ _ _ _ _ ?_ hs
              exact hd
          · refine ih _ _ _ _ _ ?_ hr
            exact hd
        · split at hr
          · exact ih _ _ _ _ _ hd hr
          · refine ih _ _ _ _ _ ?_ hr
            rw [write_link_beam]
            exact hd

/-- Pruning the leaves and the single-phone words leaves the dynamic beam
alone. -/
theorem prune_word_chan_beam (fuel : Nat) (d d1 : decoder_t) (fi c : Int)
    (hd : d.dynamic_beam = c) (hr : prune_word_chan fuel d fi = Except.ok d1) :
    d1.dynamic_beam = c := by
  unfold prune_word_chan at hr
  dsimp only at hr
  split at hr
  · simp at hr
  · rename_i d2 n h2
    have hs2 : d2.dynamic_beam = c := by
      refine for_up_inv (fun sn : decoder_t × Int => sn.1.dynamic_beam = c)
        _ _ _ _ _ ?_ ?_ h2
      · intro i sn sn1 _ _ hs hb
        split at hb
        · simp at hb
        · rename_i s1 k hl
          have h1 := prune_leaves_beam fuel c fi _ _ _ fuel _ _ _ _ _ hs hl
          split at hb
          · split at hb
            · simp at hb
            · simp only [Except.ok.injEq] at hb
              subst hb
              exact h1
          · simp only [Except.ok.injEq] at hb
            subst hb
            exact h1
      · exact hd
    clear h2
    refine for_up_inv (fun s : decoder_t => s.dynamic_beam = c) _ _ _ _ _ ?_ ?_ hr
    · intro i s s1 _ _ hs hb
      split at hb
      · simp only [Except.ok.injEq] at hb
        subst hb
        exact hs
      · split at hb
        · split at hb
          · refine save_exit_beam fuel _ s1 c _ _ _ _ _ ?_ hb
            exact hs
          · simp only [Except.ok.injEq] at hb
            subst hb
            exact hs
        · simp only [Except.ok.injEq] at hb
          subst hb
          exact hs
    · exact hs2

/-! ### The histogram beam -/

/-- The walk down the bins stops at the first bin from `i` on whose
cumulative count exceeds `m`, or after the `k` bins walked. -/
theorem beam_bin_spec (bins : Int → Int) (m : Int) (k : Nat) :
    ∀ i : Nat, ∃ n : Nat, beam_bin bins m k i (cum_bins bins i) = n ∧ i ≤ n ∧ n ≤ i + k ∧
      (∀ j, i ≤ j → j < n → cum_bins bins (j + 1) ≤ m) ∧
      (n < i + k → cum_bins bins (n + 1) > m) := by
  induction k with
  | zero =>
    intro i
    exact ⟨i, rfl, le_refl _, le_refl _, fun j h1 h2 => absurd h2 (by omega),
      fun h => absurd h (by omega)⟩
  | succ k ih =>
    intro i
    by_cases h : cum_bins bins i + bins i > m
    · refine ⟨i, ?_, le_refl _, by omega, fun j h1 h2 => absurd h2 (by omega), fun _ => h⟩
      simp only [beam_bin, if_pos h]
    · obtain ⟨n, h1, h2, h3, h4, h5⟩ := ih (i + 1)
      refine ⟨n, ?_, by omega, by omega, ?_, ?_⟩
      · simp only [beam_bin, if_neg h]
        rw [← h1]
        simp only [cum_bins, Nat.cast_add, Nat.cast_one]
      · intro j hj1 hj2
        by_cases hji : j = i
        · subst hji
          show cum_bins bins j + bins j ≤ m
          omega
        · exact h4 j (by omega) hj2
      · intro hn
        exact h5 (by omega)

/-- The head of `prune_channels` with `maxhmmpf` exceeded and a bin width
other than zero. -/
theorem set_dynamic_beam_hist (d : decoder_t) (f : Int)
    (hc : d.maxhmmpf ≠ -1 ∧ d.n_root_chan_eval + d.n_nonroot_chan_eval > d.maxhmmpf)
    (hbw : (-d.beam).tdiv 256 ≠ 0) :
    ∃ d3, set_dynamic_beam d f = Except.ok d3 ∧
      d3.dynamic_beam =
        -(beam_bin (beam_hist d f ((-d.beam).tdiv 256)) d.maxhmmpf 256 0 0
          * (-d.beam).tdiv 256) := by
  unfold set_dynamic_beam
  dsimp only
  rw [if_pos hc, if_neg hbw]
  exact ⟨_, rfl, rfl⟩

/-- The head of `prune_channels` when `maxhmmpf` is off or not exceeded. -/
theorem set_dynamic_beam_plain (d : decoder_t) (f : Int)
    (hc : ¬ (d.maxhmmpf ≠ -1 ∧ d.n_root_chan_eval + d.n_nonroot_chan_eval > d.maxhmmpf)) :
    ∃ d3, set_dynamic_beam d f = Except.ok d3 ∧ d3.dynamic_beam = d.beam := by
  unfold set_dynamic_beam
  dsimp only
  rw [if_neg hc]
  exact ⟨_, rfl, rfl⟩

/-- The four passes of `prune_channels` leave the dynamic beam as its head set
it. -/
theorem prune_channels_beam (env : env_t) (fuel : Nat) (d d3 d1 : decoder_t) (f : Int)
    (h3 : set_dynamic_beam d f = Except.ok d3)
    (hr : prune_channels env fuel d f = Except.ok d1) :
    d1.dynamic_beam = d3.dynamic_beam := by
  unfold prune_channels at hr
  rw [h3] at hr
  dsimp only at hr
  split at hr
  · simp at hr
  · rename_i d4 h4
    have hs4 := prune_root_chan_beam fuel d3 d4 f _ rfl h4
    split at hr
    · simp at hr
    · rename_i d5 h5
      have hs5 := prune_nonroot_chan_beam fuel d4 d5 f _ hs4 h5
      split at hr
      · simp at hr
      · rename_i d6 h6
        have hs6 := last_phone_transition_beam env fuel d5 d6 f _ hs5 h6
        exact prune_word_chan_beam fuel d6 d1 f _ hs6 hr

/-- C20: when `maxhmmpf != -1` and `n_root_chan_eval + n_nonroot_chan_eval >
maxhmmpf`, with a bin width `bw = -beam / 256` (truncating) other than zero,
the head of `prune_channels` returns and every returning `prune_channels`
leaves `dynamic_beam = -(i * bw)`, where `i` is the smallest bin index in
0..255 at which the cumulative count of the histogram exceeds `maxhmmpf`, and
256 if no bin does; otherwise `dynamic_beam == beam`. -/
theorem prune_channels_dynamic_beam (env : env_t) (fuel : Nat) (d : decoder_t) (f : Int) :
    ((d.maxhmmpf ≠ -1 ∧ d.n_root_chan_eval + d.n_nonroot_chan_eval > d.maxhmmpf) →
      (-d.beam).tdiv 256 ≠ 0 →
      ∃ i : Nat, i ≤ 256 ∧
        (∀ j, j < i → cum_bins (beam_hist d f ((-d.beam).tdiv 256)) (j + 1) ≤ d.maxhmmpf) ∧
        (i < 256 → cum_bins (beam_hist d f ((-d.beam).tdiv 256)) (i + 1) > d.maxhmmpf) ∧
        (∃ d3, set_dynamic_beam d f = Except.ok d3 ∧
          d3.dynamic_beam = -((i : Int) * (-d.beam).tdiv 256)) ∧
        ∀ d1, prune_channels env fuel d f = Except.ok d1 →
          d1.dynamic_beam = -((i : Int) * (-d.beam).tdiv 256)) ∧
    (¬ (d.maxhmmpf ≠ -1 ∧ d.n_root_chan_eval + d.n_nonroot_chan_eval > d.maxhmmpf) →
      (∃ d3, set_dynamic_beam d f = Except.ok d3 ∧ d3.dynamic_beam = d.beam) ∧
      ∀ d1, prune_channels env fuel d f = Except.ok d1 → d1.dynamic_beam = d.beam) := by
  constructor
  · intro hc hbw
    obtain ⟨d3, h3, hb⟩ := set_dynamic_beam_hist d f hc hbw
    obtain ⟨n, h1, _, h2, h4, h5⟩ :=
      beam_bin_spec (beam_hist d f ((-d.beam).tdiv 256)) d.maxhmmpf 256 0
    have e0 : beam_bin (beam_hist d f ((-d.beam).tdiv 256)) d.maxhmmpf 256 0 0 = (n : Int) := h1
    rw [e0] at hb
    refine ⟨n, by omega, fun j hj => h4 j (Nat.zero_le _) hj, fun hn => h5 (by omega),
      ⟨d3, h3, hb⟩, ?_⟩
    intro d1 hr
    rw [prune_channels_beam env fuel d d3 d1 f h3 hr, hb]
  · intro hc
    obtain ⟨d3, h3, hb⟩ := set_dynamic_beam_plain d f hc
    refine ⟨⟨d3, h3, hb⟩, ?_⟩
    intro d1 hr
    rw [prune_channels_beam env fuel d d3 d1 f h3 hr, hb]

/-- Three roots of best scores 0, -10 and -500 with a beam of -1000 and
`maxhmmpf = 1`: the bin width is 3, the counts fall in bins 0, 3 and 166, the
cumulative count first exceeds 1 at bin 3, and `prune_channels` returns with
a dynamic beam of -9. -/
theorem prune_channels_dynamic_beam_witness :
    (-ex_beam_dec.beam).tdiv 256 = 3 ∧
    cum_bins (beam_hist ex_beam_dec 0 3) 3 = 1 ∧
    cum_bins (beam_hist ex_beam_dec 0 3) 4 = 2 ∧
    (∃ d1, prune_channels ex_env 10 ex_beam_dec 0 = Except.ok d1 ∧ d1.dynamic_beam = -9) ∧
    ∃ i : Nat, i ≤ 256 ∧
      (∀ j, j < i →
        cum_bins (beam_hist ex_beam_dec 0 ((-ex_beam_dec.beam).tdiv 256)) (j + 1)
          ≤ ex_beam_dec.maxhmmpf) ∧
      (i < 256 →
        cum_bins (beam_hist ex_beam_dec 0 ((-ex_beam_dec.beam).tdiv 256)) (i + 1)
          > ex_beam_dec.maxhmmpf) ∧
      (∃ d3, set_dynamic_beam ex_beam_dec 0 = Except.ok d3 ∧
        d3.dynamic_beam = -((i : Int) * (-ex_beam_dec.beam).tdiv 256)) ∧
      ∀ d1, prune_channels ex_env 10 ex_beam_dec 0 = Except.ok d1 →
        d1.dynamic_beam = -((i : Int) * (-ex_beam_dec.beam).tdiv 256) :=
  ⟨by decide, by decide!, by decide!, ⟨_, rfl, by decide!⟩,
    (prune_channels_dynamic_beam ex_env 10 ex_beam_dec 0).1 (by decide) (by decide)⟩

/-! ### Sibling chains -/

theorem sib_list_unique (chan : Int → chan_t) (l : List Int) :
    ∀ (a : Int) (l1 : List Int), sib_list chan a l → sib_list chan a l1 → l = l1 := by
  induction l with
  | nil =>
    intro a l1 h h1
    cases l1 with
    | nil => rfl
    | cons b l1 =>
      simp only [sib_list] at h h1
      exact absurd h h1.1
  | cons b l ih =>
    intro a l1 h h1
    cases l1 with
    | nil =>
      simp only [sib_list] at h h1
      exact absurd h1 h.1
    | cons c l1 =>
      simp only [sib_list] at h h1
      obtain ⟨_, e1, h2⟩ := h
      obtain ⟨_, e2, h3⟩ := h1
      have hbc : b = c := by rw [← e1, ← e2]
      subst hbc
      rw [ih _ _ h2 h3]

theorem sib_list_congr (chan chan1 : Int → chan_t) (l : List Int) :
    ∀ a, (∀ b ∈ l, (chan1 b).alt = (chan b).alt) → sib_list chan a l → sib_list chan1 a l := by
  induction l with
  | nil =>
    intro a _ h
    exact h
  | cons b l ih =>
    intro a hc h
    simp only [sib_list] at h ⊢
    refine ⟨h.1, h.2.1, ?_⟩
    rw [hc b (List.mem_cons_self _ _)]
    exact ih _ (fun c hcl => hc c (List.mem_cons_of_mem _ hcl)) h.2.2

theorem sib_list_ne_zero (chan : Int → chan_t) (l : List Int) :
    ∀ a, sib_list chan a l → ∀ b ∈ l, b ≠ 0 := by
  induction l with
  | nil =>
    intro a _ b hb
    cases hb
  | cons c l ih =>
    intro a h b hb
    simp only [sib_list] at h
    rcases List.mem_cons.mp hb with e | hbl
    · rw [e, ← h.2.1]
      exact h.1
    · exact ih _ h.2.2 b hbl

/-- Linking a fresh cell `t` after the last sibling extends the chain by
`t`. -/
theorem sib_list_snoc (chan chan1 : Int → chan_t) (t : Int) (l : List Int) :
    ∀ a, l ≠ [] → t ≠ 0 → t ∉ l → l.Nodup →
      (∀ b ∈ l, b ≠ l.getLast?.getD 0 → (chan1 b).alt = (chan b).alt) →
      (chan1 (l.getLast?.getD 0)).alt = t → (chan1 t).alt = 0 →
      sib_list chan a l → sib_list chan1 a (l ++ [t]) := by
  induction l with
  | nil =>
    intro a h
    exact absurd rfl h
  | cons b l ih =>
    intro a _ ht htl hnd hc hlast hta h
    simp only [sib_list] at h
    obtain ⟨ha, hab, hl⟩ := h
    cases l with
    | nil =>
      simp only [List.getLast?_singleton, Option.getD_some] at hlast
      simp only [sib_list] at hl
      show a ≠ 0 ∧ a = b ∧ (chan1 b).alt ≠ 0 ∧ (chan1 b).alt = t ∧ (chan1 t).alt = 0
      rw [hlast]
      exact ⟨ha, hab, ht, rfl, hta⟩
    | cons c l =>
      have hbl : b ≠ (b :: c :: l).getLast?.getD 0 := by
        intro e
        rw [List.getLast?_cons_cons] at e
        have hm : (c :: l).getLast?.getD 0 ∈ c :: l := by
          rw [List.getLast?_eq_getLast _ (List.cons_ne_nil _ _)]
          exact List.getLast_mem _
        rw [← e] at hm
        exact (List.nodup_cons.mp hnd).1 hm
      simp only [List.cons_append, sib_list]
      refine ⟨ha, hab, ?_⟩
      rw [hc b (List.mem_cons_self _ _) hbl]
      apply ih _ (List.cons_ne_nil _ _) ht
      · intro hm
        exact htl (List.mem_cons_of_mem _ hm)
      · exact (List.nodup_cons.mp hnd).2
      · intro x hx hxl
        apply hc x (List.mem_cons_of_mem _ hx)
        rw [List.getLast?_cons_cons]
        exact hxl
      · rw [List.getLast?_cons_cons] at hlast
        exact hlast
      · exact hta
      · exact hl

/-- The sibling search with enough fuel: it stops at the first sibling of
ssid `ph`, or it runs off the chain with `prev_hmm` at the last sibling. -/
theorem find_sib_spec (chan : Int → chan_t) (ph : Int) (l : List Int) :
    ∀ (fuel : Nat) (a prev : Int), sib_list chan a l → l.length < fuel →
      (∃ b, b ∈ l ∧ (chan b).hmm.ssid = ph ∧ ∃ pv, find_sib chan ph fuel a prev = Except.ok (b, pv)) ∨
      ((∀ b ∈ l, (chan b).hmm.ssid ≠ ph) ∧
        find_sib chan ph fuel a prev = Except.ok (0, l.getLast?.getD prev)) := by
  induction l with
  | nil =>
    intro fuel a prev h hf
    simp only [sib_list] at h
    right
    refine ⟨fun b hb => absurd hb (List.not_mem_nil _), ?_⟩
    cases fuel with
    | zero => exact absurd hf (by simp)
    | succ n =>
      simp [find_sib, h]
  | cons c l ih =>
    intro fuel a prev h hf
    simp only [sib_list] at h
    obtain ⟨ha, hac, hl⟩ := h
    subst hac
    cases fuel with
    | zero => exact absurd hf (by simp)
    | succ n =>
      have hn : l.length < n := by
        simp only [List.length_cons] at hf
        omega
      by_cases hs : (chan a).hmm.ssid = ph
      · left
        refine ⟨a, List.mem_cons_self _ _, hs, prev, ?_⟩
        simp [find_sib, hs]
      · rcases ih n (chan a).alt a hl hn with ⟨b, hb, hbs, pv, hr⟩ | ⟨hno, hr⟩
        · left
          refine ⟨b, List.mem_cons_of_mem _ hb, hbs, pv, ?_⟩
          simp only [find_sib]
          rw [if_pos ⟨ha, hs⟩]
          exact hr
        · right
          refine ⟨?_, ?_⟩
          · intro b hb
            rcases List.mem_cons.mp hb with e | hbl
            · rw [e]
              exact hs
            · exact hno b hbl
          · simp only [find_sib]
            rw [if_pos ⟨ha, hs⟩, hr]
            cases l with
            | nil => rfl
            | cons x l =>
              rw [List.getLast?_cons_cons, List.getLast?_eq_getLast _ (List.cons_ne_nil _ _)]
              rfl

/-! ### The tree invariant under the insertion of a node -/

theorem ppath_len (d : decoder_t) (nodes : List Int) (path : Int → List Int)
    (hi : tree_inv d nodes path) (p : parent_t) (hp : is_parent d nodes p) :
    1 ≤ (ppath d path p).length := by
  cases p with
  | root i => exact le_refl _
  | node a =>
    have := hi.len a hp
    show 1 ≤ (path a).length
    omega

/-- Parents in use with the same path are the same. -/
theorem ppath_inj (d : decoder_t) (nodes : List Int) (path : Int → List Int)
    (hi : tree_inv d nodes path) (p p1 : parent_t) (hp : is_parent d nodes p)
    (hp1 : is_parent d nodes p1) (he : ppath d path p = ppath d path p1) : p = p1 := by
  cases p with
  | root i =>
    cases p1 with
    | root j =>
      have e : (d.root_chan i).diphone = (d.root_chan j).diphone := by
        have := List.cons.inj he
        exact this.1
      rw [hi.roots_inj i j hp.1 hp.2 hp1.1 hp1.2 e]
    | node b =>
      have h2 := hi.len b hp1
      have e := congrArg List.length he
      change 1 = (path b).length at e
      omega
  | node a =>
    cases p1 with
    | root j =>
      have h2 := hi.len a hp
      have e := congrArg List.length he
      change (path a).length = 1 at e
      omega
    | node b =>
      rw [hi.inj a hp b hp1 he]

theorem mem_kids_of (nodes : List Int) (path : Int → List Int) (q : List Int) (a : Int) :
    a ∈ kids_of nodes path q ↔ a ∈ nodes ∧ (path a).dropLast = q := by
  simp [kids_of]

theorem kids_of_nodup (nodes : List Int) (path : Int → List Int) (q : List Int)
    (h : nodes.Nodup) : (kids_of nodes path q).Nodup :=
  h.filter _

/-- A node with the path of a parent and one phone more is among the
children of that parent and has that phone as its ssid. -/
theorem path_last (d : decoder_t) (nodes : List Int) (path : Int → List Int)
    (hi : tree_inv d nodes path) (a : Int) (ha : a ∈ nodes) (q : List Int) (ph : Int)
    (he : path a = q ++ [ph]) : (path a).dropLast = q ∧ (d.chan a).hmm.ssid = ph := by
  have h1 : (path a).dropLast = q := by rw [he, List.dropLast_concat]
  refine ⟨h1, ?_⟩
  have h2 := hi.ssid a ha
  rw [h1, he] at h2
  have h3 := List.append_cancel_left h2
  have h4 := List.cons.inj h3
  exact h4.1.symm

theorem kids_of_add (nodes : List Int) (path : Int → List Int) (t : Int) (q q1 : List Int)
    (ph : Int) (ht : ∀ a ∈ nodes, a ≠ t) :
    kids_of (nodes ++ [t]) (store path t (q ++ [ph])) q1
      = kids_of nodes path q1 ++ (if q = q1 then [t] else []) := by
  unfold kids_of
  rw [List.filter_append]
  congr 1
  · apply List.filter_congr
    intro a ha
    rw [store_ne _ _ _ _ (ht a ha)]
  · simp only [List.filter_cons, List.filter_nil, store_same, List.dropLast_concat]
    by_cases h : q = q1
    · simp [h]
    · simp [h]

/-- A fresh cell `t` linked as a new child of the parent `p` for a phone
`ph` none of its children has: the tree stays well formed, `t` being the last
node with the path of `p` and `ph`. -/
theorem tree_inv_add (d d1 : decoder_t) (nodes : List Int) (path : Int → List Int)
    (p : parent_t) (ph t : Int)
    (hi : tree_inv d nodes path) (hp : is_parent d nodes p)
    (ht : t = d.heap_top + 1) (hh : d1.heap_top = t)
    (hno : ∀ b ∈ kids_of nodes path (ppath d path p), (d.chan b).hmm.ssid ≠ ph)
    (hnr : d1.n_root_chan = d.n_root_chan) (hna : d1.n_root_chan_alloc = d.n_root_chan_alloc)
    (hmap : d1.first_phone_rchan_map = d.first_phone_rchan_map)
    (hr : ∀ i, (d1.root_chan i).diphone = (d.root_chan i).diphone ∧
      (d1.root_chan i).penult_phn_wid = (d.root_chan i).penult_phn_wid)
    (hs : ∀ b, b ≠ t → (d1.chan b).hmm.ssid = (d.chan b).hmm.ssid)
    (hn : (d1.chan t).hmm.ssid = ph ∧ (d1.chan t).next = 0 ∧ (d1.chan t).alt = 0)
    (hk : ∀ p1, p1 ≠ parent_t.node t →
      (kids_of nodes path (ppath d path p) = [] → p1 ≠ p) → kids d1 p1 = kids d p1)
    (hk0 : kids_of nodes path (ppath d path p) = [] → kids d1 p = t)
    (ha : ∀ b, b ≠ t →
      (kids_of nodes path (ppath d path p) = [] ∨
        b ≠ (kids_of nodes path (ppath d path p)).getLast?.getD 0) →
      (d1.chan b).alt = (d.chan b).alt)
    (ha1 : kids_of nodes path (ppath d path p) ≠ [] →
      (d1.chan ((kids_of nodes path (ppath d path p)).getLast?.getD 0)).alt = t) :
    tree_inv d1 (nodes ++ [t]) (store path t (ppath d path p ++ [ph])) := by
  have f1 : ∀ a ∈ nodes, a ≠ t := by
    intro a ha e
    have := (hi.mem a ha).2
    omega
  have f2 : ∀ a ∈ nodes, store path t (ppath d path p ++ [ph]) a = path a :=
    fun a ha => store_ne _ _ _ _ (f1 a ha)
  have f3 : store path t (ppath d path p ++ [ph]) t = ppath d path p ++ [ph] := store_same _ _ _
  have f4 : ∀ a ∈ nodes, path a ≠ ppath d path p ++ [ph] := by
    intro a ha e
    obtain ⟨e1, e2⟩ := path_last d nodes path hi a ha _ _ e
    exact hno a ((mem_kids_of _ _ _ _).mpr ⟨ha, e1⟩) e2
  have hq := ppath_len d nodes path hi p hp
  have ht0 : 0 < t := by
    have := hi.heap
    omega
  have f5 : ∀ p1, is_parent d nodes p1 →
      is_parent d1 (nodes ++ [t]) p1 ∧
      ppath d1 (store path t (ppath d path p ++ [ph])) p1 = ppath d path p1 ∧
      p1 ≠ parent_t.node t := by
    intro p1 h1
    cases p1 with
    | root i =>
      refine ⟨?_, ?_, fun e => by cases e⟩
      · show 0 ≤ i ∧ i < d1.n_root_chan
        rw [hnr]
        exact h1
      · show [(d1.root_chan i).diphone] = [(d.root_chan i).diphone]
        rw [(hr i).1]
    | node b =>
      refine ⟨List.mem_append_left _ h1, f2 b h1, ?_⟩
      intro e
      have e1 : b = t := by
        cases e
        rfl
      exact f1 b h1 e1
  have f6 : ∀ p1, is_parent d1 (nodes ++ [t]) p1 →
      is_parent d nodes p1 ∨ p1 = parent_t.node t := by
    intro p1 h1
    cases p1 with
    | root i =>
      left
      have h2 : 0 ≤ i ∧ i < d1.n_root_chan := h1
      rw [hnr] at h2
      exact h2
    | node b =>
      have h2 : b ∈ nodes ++ [t] := h1
      rcases List.mem_append.mp h2 with h3 | h3
      · left
        exact h3
      · right
        rw [List.mem_singleton.mp h3]
  have f7 : ∀ a ∈ nodes, (path a).dropLast ≠ ppath d path p ++ [ph] := by
    intro a ha e
    obtain ⟨p1, hp1, e1⟩ := hi.par a ha
    rw [e] at e1
    cases p1 with
    | root i =>
      have e2 := congrArg List.length e1
      simp only [List.length_append, List.length_singleton] at e2
      change (ppath d path p).length + 1 = 1 at e2
      omega
    | node b => exact f4 b hp1 e1.symm
  have hlast : kids_of nodes path (ppath d path p) ≠ [] →
      (kids_of nodes path (ppath d path p)).getLast?.getD 0
        ∈ kids_of nodes path (ppath d path p) := by
    intro hne
    rw [List.getLast?_eq_getLast _ hne]
    exact List.getLast_mem _
  exact
    { heap := by
        rw [hh]
        omega
      mem := by
        intro a ha
        rw [hh]
        rcases List.mem_append.mp ha with h | h
        · have := hi.mem a h
          omega
        · rw [List.mem_singleton.mp h]
          omega
      nodup := by
        apply List.Nodup.append hi.nodup (List.nodup_singleton _)
        intro a h1 h2
        exact f1 a h1 (List.mem_singleton.mp h2)
      ssid := by
        intro a ha
        rcases List.mem_append.mp ha with h | h
        · rw [f2 a h, hs a (f1 a h)]
          exact hi.ssid a h
        · rw [List.mem_singleton.mp h, f3, List.dropLast_concat, hn.1]
      len := by
        intro a ha
        rcases List.mem_append.mp ha with h | h
        · rw [f2 a h]
          exact hi.len a h
        · rw [List.mem_singleton.mp h, f3]
          simp only [List.length_append, List.length_singleton]
          omega
      inj := by
        intro a ha b hb e
        rcases List.mem_append.mp ha with h | h
        · rcases List.mem_append.mp hb with h1 | h1
          · rw [f2 a h, f2 b h1] at e
            exact hi.inj a h b h1 e
          · rw [List.mem_singleton.mp h1, f2 a h, f3] at e
            exact absurd e (f4 a h)
        · rcases List.mem_append.mp hb with h1 | h1
          · rw [List.mem_singleton.mp h, f2 b h1, f3] at e
            exact absurd e.symm (f4 b h1)
          · rw [List.mem_singleton.mp h, List.mem_singleton.mp h1]
      par := by
        intro a ha
        rcases List.mem_append.mp ha with h | h
        · obtain ⟨p1, hp1, e1⟩ := hi.par a h
          obtain ⟨g1, g2, _⟩ := f5 p1 hp1
          exact ⟨p1, g1, by rw [f2 a h, g2]; exact e1⟩
        · obtain ⟨g1, g2, _⟩ := f5 p hp
          refine ⟨p, g1, ?_⟩
          rw [List.mem_singleton.mp h, f3, List.dropLast_concat, g2]
      chain := by
        intro p1 hp1
        rcases f6 p1 hp1 with h | h
        · obtain ⟨_, g2, g3⟩ := f5 p1 h
          rw [g2, kids_of_add nodes path t _ _ ph f1]
          by_cases hqq : ppath d path p = ppath d path p1
          · have hpp : p = p1 := ppath_inj d nodes path hi p p1 hp h hqq
            subst hpp
            rw [if_pos rfl]
            by_cases hL : kids_of nodes path (ppath d path p) = []
            · rw [hL, hk0 hL]
              show t ≠ 0 ∧ t = t ∧ (d1.chan t).alt = 0
              exact ⟨by omega, rfl, hn.2.2⟩
            · rw [hk p g3 (fun e => absurd e hL)]
              apply sib_list_snoc d.chan d1.chan t _ _ hL (by omega)
              · intro hm
                exact f1 t ((mem_kids_of _ _ _ _).mp hm).1 rfl
              · exact kids_of_nodup _ _ _ hi.nodup
              · intro b hb hbl
                exact ha b (f1 b ((mem_kids_of _ _ _ _).mp hb).1) (Or.inr hbl)
              · exact ha1 hL
              · exact hn.2.2
              · exact hi.chain p hp
          · rw [if_neg hqq, List.append_nil]
            have hne : p1 ≠ p := by
              intro e
              rw [e] at hqq
              exact hqq rfl
            rw [hk p1 g3 (fun _ => hne)]
            apply sib_list_congr d.chan d1.chan _ _ _ (hi.chain p1 h)
            intro b hb
            obtain ⟨hb1, hb2⟩ := (mem_kids_of _ _ _ _).mp hb
            apply ha b (f1 b hb1)
            by_cases hL : kids_of nodes path (ppath d path p) = []
            · exact Or.inl hL
            · right
              intro e
              have hm := hlast hL
              rw [← e] at hm
              have hb3 := ((mem_kids_of _ _ _ _).mp hm).2
              rw [hb2] at hb3
              exact hqq hb3.symm
        · subst h
          show sib_list d1.chan (d1.chan t).next
            (kids_of (nodes ++ [t]) (store path t (ppath d path p ++ [ph]))
              (store path t (ppath d path p ++ [ph]) t))
          rw [f3, kids_of_add nodes path t _ _ ph f1, hn.2.1]
          have e1 : kids_of nodes path (ppath d path p ++ [ph]) = [] := by
            apply List.eq_nil_iff_forall_not_mem.mpr
            intro a ham
            obtain ⟨h1, h2⟩ := (mem_kids_of _ _ _ _).mp ham
            exact f7 a h1 h2
          have e2 : ppath d path p ≠ ppath d path p ++ [ph] := by
            intro e
            have := congrArg List.length e
            simp only [List.length_append, List.length_singleton] at this
            omega
          rw [e1, if_neg e2]
          rfl
      n_root := by
        rw [hnr]
        exact hi.n_root
      roots_inj := by
        intro i j hi0 hi1 hj0 hj1 e
        rw [hnr] at hi1 hj1
        rw [(hr i).1, (hr j).1] at e
        exact hi.roots_inj i j hi0 hi1 hj0 hj1 e
      root_range := by
        intro i hi0 hi1
        rw [hnr] at hi1
        rw [(hr i).1, hna]
        exact hi.root_range i hi0 hi1
      map_root := by
        intro i hi0 hi1
        rw [hnr] at hi1
        rw [(hr i).1, hmap]
        exact hi.map_root i hi0 hi1
      map_ok := by
        intro p0 h0 h1 h2
        rw [hna] at h1
        rw [hmap] at h2 ⊢
        rw [hnr, (hr _).1]
        exact hi.map_ok p0 h0 h1 h2
      map_unset := by
        intro p0 h0 h1 h2
        rw [hna] at h1
        rw [hmap] at h2 ⊢
        exact hi.map_unset p0 h0 h1 h2
      pool := by
        intro i h0 h1
        rw [hnr] at h0
        rw [hna] at h1
        have hne : parent_t.root i ≠ p := by
          intro e
          subst e
          have : 0 ≤ i ∧ i < d.n_root_chan := hp
          omega
        have e := hk (parent_t.root i) (fun e => by cases e) (fun _ => hne)
        change (d1.root_chan i).next = (d.root_chan i).next at e
        rw [e, (hr i).2]
        exact hi.pool i h0 h1
      up_next := by
        intro a ham
        rcases List.mem_append.mp ham with h | h
        · by_cases hc : kids_of nodes path (ppath d path p) = [] ∧ parent_t.node a = p
          · obtain ⟨hL, e⟩ := hc
            subst e
            right
            have e1 := hk0 hL
            change (d1.chan a).next = t at e1
            rw [e1]
            have := (hi.mem a h).2
            exact ⟨List.mem_append_right _ (List.mem_singleton_self _), by omega⟩
          · have e := hk (parent_t.node a)
              (fun e => f1 a h (by cases e; rfl))
              (fun hL e => hc ⟨hL, e⟩)
            change (d1.chan a).next = (d.chan a).next at e
            rw [e]
            rcases hi.up_next a h with h1 | h1
            · exact Or.inl h1
            · exact Or.inr ⟨List.mem_append_left _ h1.1, h1.2⟩
        · rw [List.mem_singleton.mp h]
          exact Or.inl hn.2.1
      up_alt := by
        intro a ham
        rcases List.mem_append.mp ham with h | h
        · by_cases hc : kids_of nodes path (ppath d path p) ≠ [] ∧
              a = (kids_of nodes path (ppath d path p)).getLast?.getD 0
          · obtain ⟨hL, e⟩ := hc
            right
            rw [e, ha1 hL]
            refine ⟨List.mem_append_right _ (List.mem_singleton_self _), ?_⟩
            rw [← e]
            have := (hi.mem a h).2
            omega
          · have e : (d1.chan a).alt = (d.chan a).alt := by
              apply ha a (f1 a h)
              by_cases hL : kids_of nodes path (ppath d path p) = []
              · exact Or.inl hL
              · exact Or.inr (fun e => hc ⟨hL, e⟩)
            rw [e]
            rcases hi.up_alt a h with h1 | h1
            · exact Or.inl h1
            · exact Or.inr ⟨List.mem_append_left _ h1.1, h1.2⟩
        · rw [List.mem_singleton.mp h]
          exact Or.inl hn.2.2
      root_next := by
        intro i h0 h1
        rw [hnr] at h1
        by_cases hc : kids_of nodes path (ppath d path p) = [] ∧ parent_t.root i = p
        · obtain ⟨hL, e⟩ := hc
          subst e
          right
          have e1 := hk0 hL
          change (d1.root_chan i).next = t at e1
          rw [e1]
          exact List.mem_append_right _ (List.mem_singleton_self _)
        · have e := hk (parent_t.root i) (fun e => by cases e) (fun hL e => hc ⟨hL, e⟩)
          change (d1.root_chan i).next = (d.root_chan i).next at e
          rw [e]
          rcases hi.root_next i h0 h1 with h2 | h2
          · exact Or.inl h2
          · exact Or.inr (List.mem_append_left _ h2) }

/-! ### One level of the descent -/

theorem set_kids_chan (s : decoder_t) (p : parent_t) (v b : Int) :
    ((set_kids s p v).chan b).alt = (s.chan b).alt ∧
    ((set_kids s p v).chan b).hmm = (s.chan b).hmm ∧
    ((set_kids s p v).chan b).info = (s.chan b).info := by
  cases p with
  | root i => exact ⟨rfl, rfl, rfl⟩
  | node a =>
    show ((store s.chan a _ b).alt = _) ∧ ((store s.chan a _ b).hmm = _) ∧
      ((store s.chan a _ b).info = _)
    by_cases h : b = a
    · subst h
      rw [store_same]
      exact ⟨rfl, rfl, rfl⟩
    · rw [store_ne _ _ _ _ h]
      exact ⟨rfl, rfl, rfl⟩

theorem set_kids_root (s : decoder_t) (p : parent_t) (v i : Int) :
    ((set_kids s p v).root_chan i).diphone = (s.root_chan i).diphone ∧
    ((set_kids s p v).root_chan i).penult_phn_wid = (s.root_chan i).penult_phn_wid ∧
    ((set_kids s p v).root_chan i).ciphone = (s.root_chan i).ciphone ∧
    ((set_kids s p v).root_chan i).hmm = (s.root_chan i).hmm := by
  cases p with
  | node a => exact ⟨rfl, rfl, rfl, rfl⟩
  | root j =>
    show ((store s.root_chan j _ i).diphone = _) ∧ ((store s.root_chan j _ i).penult_phn_wid = _) ∧
      ((store s.root_chan j _ i).ciphone = _) ∧ ((store s.root_chan j _ i).hmm = _)
    by_cases h : i = j
    · subst h
      rw [store_same]
      exact ⟨rfl, rfl, rfl, rfl⟩
    · rw [store_ne _ _ _ _ h]
      exact ⟨rfl, rfl, rfl, rfl⟩

theorem kids_set_kids_same (s : decoder_t) (p : parent_t) (v : Int) :
    kids (set_kids s p v) p = v := by
  cases p with
  | root i =>
    show (store s.root_chan i _ i).next = v
    rw [store_same]
  | node a =>
    show (store s.chan a _ a).next = v
    rw [store_same]

theorem kids_set_kids_ne (s : decoder_t) (p p1 : parent_t) (v : Int) (h : p1 ≠ p) :
    kids (set_kids s p v) p1 = kids s p1 := by
  cases p with
  | root i =>
    cases p1 with
    | node b => rfl
    | root j =>
      show (store s.root_chan i _ j).next = _
      rw [store_ne]
      · rfl
      · intro e
        exact h (by rw [e])
  | node a =>
    cases p1 with
    | root j => rfl
    | node b =>
      show (store s.chan a _ b).next = _
      rw [store_ne]
      · rfl
      · intro e
        exact h (by rw [e])

theorem set_kids_rest (s : decoder_t) (p : parent_t) (v : Int) :
    set_kids s p v =
      { s with chan := (set_kids s p v).chan, root_chan := (set_kids s p v).root_chan } := by
  cases p with
  | root i => rfl
  | node a => rfl

theorem set_kids_scalars (s : decoder_t) (p : parent_t) (v : Int) :
    (set_kids s p v).heap_top = s.heap_top ∧ (set_kids s p v).n_root_chan = s.n_root_chan ∧
    (set_kids s p v).n_root_chan_alloc = s.n_root_chan_alloc ∧
    (set_kids s p v).first_phone_rchan_map = s.first_phone_rchan_map ∧
    (set_kids s p v).n_inner = s.n_inner := by
  cases p with
  | root i => exact ⟨rfl, rfl, rfl, rfl, rfl⟩
  | node a => exact ⟨rfl, rfl, rfl, rfl, rfl⟩

theorem sib_list_zero (chan : Int → chan_t) (l : List Int) (h : sib_list chan 0 l) : l = [] := by
  cases l with
  | nil => rfl
  | cons b l =>
    simp only [sib_list] at h
    exact absurd rfl h.1

theorem sib_list_nonzero (chan : Int → chan_t) (a : Int) (l : List Int) (ha : a ≠ 0)
    (h : sib_list chan a l) : l ≠ [] := by
  intro e
  subst e
  exact ha h

/-- No node has the path of the parent `p` and the phone `ph` when no child
of `p` has the ssid `ph`. -/
theorem no_path (d : decoder_t) (nodes : List Int) (path : Int → List Int)
    (p : parent_t) (ph : Int) (hi : tree_inv d nodes path)
    (hno : ∀ b ∈ kids_of nodes path (ppath d path p), (d.chan b).hmm.ssid ≠ ph) :
    ∀ a ∈ nodes, path a ≠ ppath d path p ++ [ph] := by
  intro a ha e
  obtain ⟨e1, e2⟩ := path_last d nodes path hi a ha _ _ e
  exact hno a ((mem_kids_of _ _ _ _).mpr ⟨ha, e1⟩) e2

/-- The step made by linking a fresh cell as a new child. -/
theorem tree_step_add (d d1 : decoder_t) (nodes : List Int) (path : Int → List Int)
    (p : parent_t) (ph t : Int)
    (hi : tree_inv d nodes path) (hp : is_parent d nodes p) (ht : t = d.heap_top + 1)
    (hno : ∀ b ∈ kids_of nodes path (ppath d path p), (d.chan b).hmm.ssid ≠ ph)
    (hrest : d1 =
      { d with chan := d1.chan, root_chan := d1.root_chan, heap_top := d1.heap_top,
               n_nonroot_chan := d1.n_nonroot_chan })
    (hr : ∀ i, (d1.root_chan i).diphone = (d.root_chan i).diphone ∧
      (d1.root_chan i).penult_phn_wid = (d.root_chan i).penult_phn_wid ∧
      (d1.root_chan i).ciphone = (d.root_chan i).ciphone ∧
      (d1.root_chan i).hmm = (d.root_chan i).hmm)
    (hinfo : ∀ b, b ≠ t → (d1.chan b).info = (d.chan b).info)
    (hnew : (d1.chan t).info = -1) :
    tree_step d d1 nodes (nodes ++ [t]) path (store path t (ppath d path p ++ [ph])) := by
  have f1 : ∀ a ∈ nodes, a ≠ t := by
    intro a ha e
    have := (hi.mem a ha).2
    omega
  exact
    { rest := hrest
      roots := hr
      info := fun b hb => hinfo b (f1 b hb)
      paths := fun b hb => store_ne _ _ _ _ (f1 b hb)
      sub := fun b hb => List.mem_append_left _ hb
      fresh := by
        intro b hb hnb
        have hbt : b = t := by
          rcases List.mem_append.mp hb with h | h
          · exact absurd h hnb
          · exact List.mem_singleton.mp h
        subst hbt
        refine ⟨hnew, ?_⟩
        intro p1 hp1
        rw [store_same]
        cases p1 with
        | root i =>
          intro e
          have e2 := congrArg List.length e
          have := ppath_len d nodes path hi p hp
          simp only [List.length_append, List.length_singleton] at e2
          change 1 = (ppath d path p).length + 1 at e2
          omega
        | node a => exact no_path d nodes path p ph hi hno a hp1 }

theorem tree_step_refl (d : decoder_t) (nodes : List Int) (path : Int → List Int) :
    tree_step d d nodes nodes path path :=
  { rest := rfl
    roots := fun _ => ⟨rfl, rfl, rfl, rfl⟩
    info := fun _ _ => rfl
    paths := fun _ _ => rfl
    sub := fun _ h => h
    fresh := fun _ hb hnb => absurd hb hnb }

theorem spec_add_new (nodes : List Int) (path : Int → List Int) (t : Int) (x : List Int)
    (ht : ∀ a ∈ nodes, a ≠ t) (hx : ∀ a ∈ nodes, path a ≠ x) :
    (nodes ++ [t]).map (store path t x) = spec_add (nodes.map path) x := by
  unfold spec_add
  rw [if_neg]
  · rw [List.map_append]
    congr 1
    · apply List.map_congr_left
      intro a ha
      exact store_ne _ _ _ _ (ht a ha)
    · simp [store_same]
  · intro hm
    obtain ⟨a, ha, e⟩ := List.mem_map.mp hm
    exact hx a ha e

theorem spec_add_old (nodes : List Int) (path : Int → List Int) (a : Int) (ha : a ∈ nodes) :
    nodes.map path = spec_add (nodes.map path) (path a) := by
  unfold spec_add
  rw [if_pos (List.mem_map_of_mem _ ha)]

theorem new_nonroot_chan_new (d : decoder_t) (link : decoder_t → Int → decoder_t)
    (ph ci : Int) :
    ((new_nonroot_chan d link ph ci).1.chan (d.heap_top + 1)).hmm.ssid = ph ∧
    ((new_nonroot_chan d link ph ci).1.chan (d.heap_top + 1)).next = 0 ∧
    ((new_nonroot_chan d link ph ci).1.chan (d.heap_top + 1)).alt = 0 ∧
    ((new_nonroot_chan d link ph ci).1.chan (d.heap_top + 1)).info = -1 := by
  have h : (new_nonroot_chan d link ph ci).1.chan (d.heap_top + 1)
      = store (link (listelem_alloc d).1 (d.heap_top + 1)).chan (d.heap_top + 1)
          { (link (listelem_alloc d).1 (d.heap_top + 1)).chan (d.heap_top + 1) with
            next := 0, alt := 0, info := -1, ciphone := ci,
            hmm := hmm_init (link (listelem_alloc d).1 (d.heap_top + 1)).n_inner false ph ci }
          (d.heap_top + 1) := rfl
  rw [h, store_same]
  exact ⟨rfl, rfl, rfl, rfl⟩

theorem new_nonroot_chan_old (d : decoder_t) (link : decoder_t → Int → decoder_t)
    (ph ci b : Int) (hb : b ≠ d.heap_top + 1) :
    (new_nonroot_chan d link ph ci).1.chan b
      = (link (listelem_alloc d).1 (d.heap_top + 1)).chan b := by
  show store (link (listelem_alloc d).1 (d.heap_top + 1)).chan (d.heap_top + 1) _ b = _
  rw [store_ne _ _ _ _ hb]

theorem new_nonroot_chan_fields (d : decoder_t) (link : decoder_t → Int → decoder_t)
    (ph ci : Int) :
    (new_nonroot_chan d link ph ci).1.root_chan
      = (link (listelem_alloc d).1 (d.heap_top + 1)).root_chan ∧
    (new_nonroot_chan d link ph ci).1.heap_top
      = (link (listelem_alloc d).1 (d.heap_top + 1)).heap_top ∧
    (new_nonroot_chan d link ph ci).1.n_root_chan
      = (link (listelem_alloc d).1 (d.heap_top + 1)).n_root_chan ∧
    (new_nonroot_chan d link ph ci).1.n_root_chan_alloc
      = (link (listelem_alloc d).1 (d.heap_top + 1)).n_root_chan_alloc ∧
    (new_nonroot_chan d link ph ci).1.first_phone_rchan_map
      = (link (listelem_alloc d).1 (d.heap_top + 1)).first_phone_rchan_map ∧
    (new_nonroot_chan d link ph ci).2 = d.heap_top + 1 :=
  ⟨rfl, rfl, rfl, rfl, rfl, rfl⟩

theorem set_chan_alt_chan (s : decoder_t) (a v b : Int) :
    ((set_chan_alt s a v).chan b).hmm = (s.chan b).hmm ∧
    ((set_chan_alt s a v).chan b).info = (s.chan b).info ∧
    ((set_chan_alt s a v).chan b).next = (s.chan b).next ∧
    (b ≠ a → ((set_chan_alt s a v).chan b).alt = (s.chan b).alt) ∧
    ((set_chan_alt s a v).chan a).alt = v := by
  have h2 : ((set_chan_alt s a v).chan a).alt = v := by
    show (store s.chan a _ a).alt = v
    rw [store_same]
  show ((store s.chan a _ b).hmm = _) ∧ ((store s.chan a _ b).info = _) ∧
    ((store s.chan a _ b).next = _) ∧ (b ≠ a → (store s.chan a _ b).alt = _) ∧ _
  by_cases h : b = a
  · subst h
    rw [store_same]
    exact ⟨rfl, rfl, rfl, fun e => absurd rfl e, h2⟩
  · rw [store_ne _ _ _ _ h]
    exact ⟨rfl, rfl, rfl, fun _ => rfl, h2⟩

theorem kids_new_nonroot_chan (d : decoder_t) (link : decoder_t → Int → decoder_t)
    (ph ci : Int) (p1 : parent_t) (h : p1 ≠ parent_t.node (d.heap_top + 1)) :
    kids (new_nonroot_chan d link ph ci).1 p1
      = kids (link (listelem_alloc d).1 (d.heap_top + 1)) p1 := by
  cases p1 with
  | root j => rfl
  | node b =>
    have hb : b ≠ d.heap_top + 1 := fun e => h (by rw [e])
    show ((new_nonroot_chan d link ph ci).1.chan b).next = _
    rw [new_nonroot_chan_old d link ph ci b hb]
    rfl

theorem parent_ne_fresh (d : decoder_t) (nodes : List Int) (path : Int → List Int)
    (hi : tree_inv d nodes path) (p : parent_t) (hp : is_parent d nodes p) :
    p ≠ parent_t.node (d.heap_top + 1) := by
  intro e
  subst e
  have := (hi.mem _ hp).2
  omega

/-- A first child is allocated for a parent without children. -/
theorem add_first_kid_ok (d : decoder_t) (nodes : List Int) (path : Int → List Int)
    (p : parent_t) (ph ci : Int) (hi : tree_inv d nodes path) (hp : is_parent d nodes p)
    (hk : kids d p = 0) :
    tree_inv (new_nonroot_chan d (fun s v => set_kids s p v) ph ci).1
      (nodes ++ [d.heap_top + 1]) (store path (d.heap_top + 1) (ppath d path p ++ [ph])) ∧
    tree_step d (new_nonroot_chan d (fun s v => set_kids s p v) ph ci).1 nodes
      (nodes ++ [d.heap_top + 1]) path (store path (d.heap_top + 1) (ppath d path p ++ [ph])) ∧
    ∀ a ∈ nodes, path a ≠ ppath d path p ++ [ph] := by
  have hL : kids_of nodes path (ppath d path p) = [] := by
    have h := hi.chain p hp
    rw [hk] at h
    exact sib_list_zero _ _ h
  have hno : ∀ b ∈ kids_of nodes path (ppath d path p), (d.chan b).hmm.ssid ≠ ph := by
    rw [hL]
    intro b hb
    exact absurd hb (List.not_mem_nil _)
  obtain ⟨n1, n2, n3, n4⟩ :=
    new_nonroot_chan_new d (fun s v => set_kids s p v) ph ci
  obtain ⟨g1, g2, g3, g4, g5, _⟩ :=
    new_nonroot_chan_fields d (fun s v => set_kids s p v) ph ci
  obtain ⟨s1, s2, s3, s4, _⟩ := set_kids_scalars (listelem_alloc d).1 p (d.heap_top + 1)
  have hold := new_nonroot_chan_old d (fun s v => set_kids s p v) ph ci
  have hkS := kids_new_nonroot_chan d (fun s v => set_kids s p v) ph ci
  have hpt := parent_ne_fresh d nodes path hi p hp
  have hr : ∀ i,
      ((new_nonroot_chan d (fun s v => set_kids s p v) ph ci).1.root_chan i).diphone
        = (d.root_chan i).diphone ∧
      ((new_nonroot_chan d (fun s v => set_kids s p v) ph ci).1.root_chan i).penult_phn_wid
        = (d.root_chan i).penult_phn_wid ∧
      ((new_nonroot_chan d (fun s v => set_kids s p v) ph ci).1.root_chan i).ciphone
        = (d.root_chan i).ciphone ∧
      ((new_nonroot_chan d (fun s v => set_kids s p v) ph ci).1.root_chan i).hmm
        = (d.root_chan i).hmm := by
    intro i
    rw [g1]
    exact set_kids_root (listelem_alloc d).1 p (d.heap_top + 1) i
  refine ⟨?_, ?_, no_path d nodes path p ph hi hno⟩
  · apply tree_inv_add d _ nodes path p ph (d.heap_top + 1) hi hp rfl
    · rw [g2]
      exact s1
    · exact hno
    · rw [g3]
      exact s2
    · rw [g4]
      exact s3
    · rw [g5]
      exact s4
    · exact fun i => ⟨(hr i).1, (hr i).2.1⟩
    · intro b hb
      rw [hold b hb]
      have h := (set_kids_chan (listelem_alloc d).1 p (d.heap_top + 1) b).2.1
      rw [h]
      rfl
    · exact ⟨n1, n2, n3⟩
    · intro p1 h1 h2
      rw [hkS p1 h1]
      exact kids_set_kids_ne (listelem_alloc d).1 p p1 (d.heap_top + 1) (h2 hL)
    · intro _
      rw [hkS p hpt]
      exact kids_set_kids_same (listelem_alloc d).1 p (d.heap_top + 1)
    · intro b hb _
      rw [hold b hb]
      exact (set_kids_chan (listelem_alloc d).1 p (d.heap_top + 1) b).1
    · intro h
      exact absurd hL h
  · apply tree_step_add d _ nodes path p ph (d.heap_top + 1) hi hp rfl hno
    · cases p with
      | root i => rfl
      | node a => rfl
    · exact hr
    · intro b hb
      rw [hold b hb]
      exact (set_kids_chan (listelem_alloc d).1 p (d.heap_top + 1) b).2.2
    · exact n4

/-- A child is allocated after the last sibling `prev` when no sibling has
the ssid `ph`. -/
theorem add_next_kid_ok (d : decoder_t) (nodes : List Int) (path : Int → List Int)
    (p : parent_t) (ph ci : Int) (hi : tree_inv d nodes path) (hp : is_parent d nodes p)
    (hL : kids_of nodes path (ppath d path p) ≠ [])
    (hno : ∀ b ∈ kids_of nodes path (ppath d path p), (d.chan b).hmm.ssid ≠ ph) :
    tree_inv
      (new_nonroot_chan d
        (fun s v => set_chan_alt s ((kids_of nodes path (ppath d path p)).getLast?.getD 0) v)
        ph ci).1
      (nodes ++ [d.heap_top + 1]) (store path (d.heap_top + 1) (ppath d path p ++ [ph])) ∧
    tree_step d
      (new_nonroot_chan d
        (fun s v => set_chan_alt s ((kids_of nodes path (ppath d path p)).getLast?.getD 0) v)
        ph ci).1
      nodes (nodes ++ [d.heap_top + 1]) path
      (store path (d.heap_top + 1) (ppath d path p ++ [ph])) ∧
    ∀ a ∈ nodes, path a ≠ ppath d path p ++ [ph] := by
  generalize hpv : (kids_of nodes path (ppath d path p)).getLast?.getD 0 = prev
  have hprev : prev ∈ nodes := by
    rw [← hpv, List.getLast?_eq_getLast _ hL]
    exact ((mem_kids_of _ _ _ _).mp (List.getLast_mem _)).1
  have hpt : prev ≠ d.heap_top + 1 := by
    intro e
    have := (hi.mem prev hprev).2
    omega
  obtain ⟨n1, n2, n3, n4⟩ :=
    new_nonroot_chan_new d (fun s v => set_chan_alt s prev v) ph ci
  have hold := new_nonroot_chan_old d (fun s v => set_chan_alt s prev v) ph ci
  have hkS := kids_new_nonroot_chan d (fun s v => set_chan_alt s prev v) ph ci
  refine ⟨?_, ?_, no_path d nodes path p ph hi hno⟩
  · apply tree_inv_add d _ nodes path p ph (d.heap_top + 1) hi hp rfl
    · rfl
    · exact hno
    · rfl
    · rfl
    · rfl
    · exact fun i => ⟨rfl, rfl⟩
    · intro b hb
      rw [hold b hb]
      have h := (set_chan_alt_chan (listelem_alloc d).1 prev (d.heap_top + 1) b).1
      rw [h]
      rfl
    · exact ⟨n1, n2, n3⟩
    · intro p1 h1 _
      rw [hkS p1 h1]
      cases p1 with
      | root j => rfl
      | node b => exact (set_chan_alt_chan (listelem_alloc d).1 prev (d.heap_top + 1) b).2.2.1
    · intro h
      exact absurd h hL
    · intro b hb h
      rw [hold b hb]
      rcases h with h | h
      · exact absurd h hL
      · rw [hpv] at h
        exact (set_chan_alt_chan (listelem_alloc d).1 prev (d.heap_top + 1) b).2.2.2.1 h
    · intro _
      rw [hpv, hold prev hpt]
      exact (set_chan_alt_chan (listelem_alloc d).1 prev (d.heap_top + 1) prev).2.2.2.2
  · apply tree_step_add d _ nodes path p ph (d.heap_top + 1) hi hp rfl hno
    · rfl
    · exact fun i => ⟨rfl, rfl, rfl, rfl⟩
    · intro b hb
      rw [hold b hb]
      exact (set_chan_alt_chan (listelem_alloc d).1 prev (d.heap_top + 1) b).2.1
    · exact n4

theorem nodes_ne_fresh (d : decoder_t) (nodes : List Int) (path : Int → List Int)
    (hi : tree_inv d nodes path) : ∀ a ∈ nodes, a ≠ d.heap_top + 1 := by
  intro a ha e
  have := (hi.mem a ha).2
  omega

/-- One level of the descent with enough fuel: the child of `p` for `ph` is
found or allocated, the tree stays well formed and its paths are those there
were with the path of the child added. -/
theorem find_or_add_child_ok (fuel : Nat) (d : decoder_t) (nodes : List Int)
    (path : Int → List Int) (p : parent_t) (ph ci : Int)
    (hi : tree_inv d nodes path) (hp : is_parent d nodes p) (hf : nodes.length < fuel) :
    ∃ d1 a nodes1 path1, find_or_add_child fuel d p ph ci = Except.ok (d1, a) ∧
      tree_inv d1 nodes1 path1 ∧ tree_step d d1 nodes nodes1 path path1 ∧
      a ∈ nodes1 ∧ path1 a = ppath d path p ++ [ph] ∧
      nodes1.map path1 = spec_add (nodes.map path) (ppath d path p ++ [ph]) ∧
      nodes1.length ≤ nodes.length + 1 := by
  unfold find_or_add_child
  by_cases hk : kids d p = 0
  · rw [if_pos hk]
    obtain ⟨h1, h2, h3⟩ := add_first_kid_ok d nodes path p ph ci hi hp hk
    refine ⟨(new_nonroot_chan d (fun s v => set_kids s p v) ph ci).1, d.heap_top + 1,
      _, _, rfl, h1, h2, ?_, ?_, ?_, ?_⟩
    · exact List.mem_append_right _ (List.mem_singleton_self _)
    · exact store_same _ _ _
    · exact spec_add_new nodes path _ _ (nodes_ne_fresh d nodes path hi) h3
    · simp
  · rw [if_neg hk]
    have hch := hi.chain p hp
    have hlen : (kids_of nodes path (ppath d path p)).length < fuel :=
      lt_of_le_of_lt (List.length_filter_le _ _) hf
    rcases find_sib_spec d.chan ph _ fuel (kids d p) 0 hch hlen with
      ⟨b, hb, hbs, pv, hr⟩ | ⟨hno, hr⟩
    · rw [hr]
      dsimp only
      have hb0 : b ≠ 0 := sib_list_ne_zero _ _ _ hch b hb
      rw [if_neg hb0]
      obtain ⟨hbn, hbd⟩ := (mem_kids_of _ _ _ _).mp hb
      have hpb : path b = ppath d path p ++ [ph] := by
        rw [hi.ssid b hbn, hbd, hbs]
      refine ⟨d, b, nodes, path, rfl, hi, tree_step_refl _ _ _, hbn, hpb, ?_, by omega⟩
      rw [← hpb]
      exact spec_add_old nodes path b hbn
    · rw [hr]
      dsimp only
      rw [if_pos rfl]
      have hL := sib_list_nonzero _ _ _ hk hch
      obtain ⟨h1, h2, h3⟩ := add_next_kid_ok d nodes path p ph ci hi hp hL hno
      refine ⟨_, d.heap_top + 1, _, _, rfl, h1, h2, ?_, ?_, ?_, ?_⟩
      · exact List.mem_append_right _ (List.mem_singleton_self _)
      · exact store_same _ _ _
      · exact spec_add_new nodes path _ _ (nodes_ne_fresh d nodes path hi) h3
      · simp

/-! ### The root of a word -/

/-- A first phone without a root leaves room in the pool of roots. -/
theorem roots_lt_alloc (d : decoder_t) (nodes : List Int) (path : Int → List Int)
    (hi : tree_inv d nodes path) (p0 : Int) (h0 : 0 ≤ p0) (h1 : p0 < d.n_root_chan_alloc)
    (hm : d.first_phone_rchan_map p0 < 0) : d.n_root_chan < d.n_root_chan_alloc := by
  have hn := hi.n_root
  have hc := Finset.card_le_card_of_injOn
    (s := Finset.range d.n_root_chan.toNat)
    (t := (Finset.range d.n_root_chan_alloc.toNat).erase p0.toNat)
    (fun k : Nat => ((d.root_chan (k : Int)).diphone).toNat) ?_ ?_
  · rw [Finset.card_range, Finset.card_erase_of_mem, Finset.card_range] at hc
    · omega
    · rw [Finset.mem_range]
      omega
  · intro k hk
    have hk1 : k < d.n_root_chan.toNat := by
      have := Finset.mem_coe.mp hk
      exact Finset.mem_range.mp this
    have hk2 : (k : Int) < d.n_root_chan := by omega
    have hr := hi.root_range k (by omega) hk2
    apply Finset.mem_coe.mpr
    rw [Finset.mem_erase, Finset.mem_range]
    beta_reduce
    refine ⟨?_, by omega⟩
    intro e
    have e1 : (d.root_chan (k : Int)).diphone = p0 := by omega
    have := hi.map_root k (by omega) hk2
    rw [e1] at this
    omega
  · intro k hk k1 hk1 e
    have hk2 : k < d.n_root_chan.toNat := Finset.mem_range.mp (Finset.mem_coe.mp hk)
    have hk3 : k1 < d.n_root_chan.toNat := Finset.mem_range.mp (Finset.mem_coe.mp hk1)
    have hr := hi.root_range k (by omega) (by omega)
    have hr1 := hi.root_range k1 (by omega) (by omega)
    have e1 : (d.root_chan (k : Int)).diphone = (d.root_chan (k1 : Int)).diphone := by
      simp only at e
      omega
    have := hi.roots_inj k k1 (by omega) (by omega) (by omega) (by omega) e1
    omega

theorem find_or_add_root_old (d : decoder_t) (de : dict_entry_t)
    (hm : ¬ d.first_phone_rchan_map (de.phone_ids 0) < 0) :
    find_or_add_root d de = (d, d.first_phone_rchan_map (de.phone_ids 0)) := by
  unfold find_or_add_root
  dsimp only
  rw [if_neg hm]

/-- The fields of the state after a root has been taken from the pool. -/
theorem find_or_add_root_new (d : decoder_t) (de : dict_entry_t)
    (hm : d.first_phone_rchan_map (de.phone_ids 0) < 0) :
    (find_or_add_root d de).2 = d.n_root_chan ∧
    (find_or_add_root d de).1 =
      { d with root_chan := (find_or_add_root d de).1.root_chan,
               first_phone_rchan_map := store d.first_phone_rchan_map (de.phone_ids 0)
                 d.n_root_chan,
               n_root_chan := d.n_root_chan + 1 } ∧
    (∀ j, j ≠ d.n_root_chan → (find_or_add_root d de).1.root_chan j = d.root_chan j) ∧
    ((find_or_add_root d de).1.root_chan d.n_root_chan).next
      = (d.root_chan d.n_root_chan).next ∧
    ((find_or_add_root d de).1.root_chan d.n_root_chan).penult_phn_wid
      = (d.root_chan d.n_root_chan).penult_phn_wid ∧
    ((find_or_add_root d de).1.root_chan d.n_root_chan).diphone = de.phone_ids 0 ∧
    ((find_or_add_root d de).1.root_chan d.n_root_chan).ciphone = de.ci_phone_ids 0 := by
  unfold find_or_add_root
  dsimp only
  rw [if_pos hm]
  refine ⟨rfl, rfl, ?_, ?_, ?_, ?_, ?_⟩
  · intro j hj
    simp only [set_root_hmm, store_ne _ _ _ _ hj]
  · simp only [set_root_hmm, store_same]
  · simp only [set_root_hmm, store_same]
  · simp only [set_root_hmm, store_same]
  · simp only [set_root_hmm, store_same]

/-- No root in use has a first phone that is not mapped. -/
theorem root_phone_ne (d : decoder_t) (nodes : List Int) (path : Int → List Int)
    (hi : tree_inv d nodes path) (p0 : Int) (hm : d.first_phone_rchan_map p0 < 0) :
    ∀ j, 0 ≤ j → j < d.n_root_chan → (d.root_chan j).diphone ≠ p0 := by
  intro j h0 h1 e
  have := hi.map_root j h0 h1
  rw [e] at this
  omega

/-- No parent in use has the path of a first phone that is not mapped. -/
theorem no_parent_path (d : decoder_t) (nodes : List Int) (path : Int → List Int)
    (hi : tree_inv d nodes path) (p0 : Int) (hm : d.first_phone_rchan_map p0 < 0) :
    ∀ p1, is_parent d nodes p1 → ppath d path p1 ≠ [p0] := by
  intro p1 hp1 e
  cases p1 with
  | root j =>
    have e1 : (d.root_chan j).diphone = p0 := (List.cons.inj e).1
    exact root_phone_ne d nodes path hi p0 hm j hp1.1 hp1.2 e1
  | node b =>
    have h2 := hi.len b hp1
    have e2 := congrArg List.length e
    change (path b).length = 1 at e2
    omega

/-- A root taken from the pool for a first phone that had none keeps the tree
well formed. -/
theorem tree_inv_new_root (d d1 : decoder_t) (nodes : List Int) (path : Int → List Int)
    (p0 : Int) (hi : tree_inv d nodes path) (h0 : 0 ≤ p0) (h1 : p0 < d.n_root_chan_alloc)
    (hm : d.first_phone_rchan_map p0 < 0)
    (hrest : d1 =
      { d with root_chan := d1.root_chan,
               first_phone_rchan_map := store d.first_phone_rchan_map p0 d.n_root_chan,
               n_root_chan := d.n_root_chan + 1 })
    (hold : ∀ j, j ≠ d.n_root_chan → d1.root_chan j = d.root_chan j)
    (hnext : (d1.root_chan d.n_root_chan).next = (d.root_chan d.n_root_chan).next)
    (hdi : (d1.root_chan d.n_root_chan).diphone = p0) :
    tree_inv d1 nodes path := by
  have hc : d1.chan = d.chan := by
    have e := congrArg decoder_t.chan hrest
    exact e
  have hh : d1.heap_top = d.heap_top := by
    have e := congrArg decoder_t.heap_top hrest
    exact e
  have hn : d1.n_root_chan = d.n_root_chan + 1 := by
    have e := congrArg decoder_t.n_root_chan hrest
    exact e
  have hna : d1.n_root_chan_alloc = d.n_root_chan_alloc := by
    have e := congrArg decoder_t.n_root_chan_alloc hrest
    exact e
  have hmap : d1.first_phone_rchan_map = store d.first_phone_rchan_map p0 d.n_root_chan := by
    have e := congrArg decoder_t.first_phone_rchan_map hrest
    exact e
  have hlt := roots_lt_alloc d nodes path hi p0 h0 h1 hm
  have hpool := hi.pool d.n_root_chan (le_refl _) hlt
  have hne := root_phone_ne d nodes path hi p0 hm
  have hnr := hi.n_root
  have f1 : ∀ p1, is_parent d nodes p1 →
      is_parent d1 nodes p1 ∧ ppath d1 path p1 = ppath d path p1 ∧ kids d1 p1 = kids d p1 := by
    intro p1 hp1
    cases p1 with
    | root j =>
      have hj : j ≠ d.n_root_chan := by
        have : 0 ≤ j ∧ j < d.n_root_chan := hp1
        omega
      refine ⟨?_, ?_, ?_⟩
      · show 0 ≤ j ∧ j < d1.n_root_chan
        have : 0 ≤ j ∧ j < d.n_root_chan := hp1
        omega
      · show [(d1.root_chan j).diphone] = [(d.root_chan j).diphone]
        rw [hold j hj]
      · show (d1.root_chan j).next = (d.root_chan j).next
        rw [hold j hj]
    | node b =>
      refine ⟨hp1, rfl, ?_⟩
      show (d1.chan b).next = (d.chan b).next
      rw [hc]
  have f2 : ∀ p1, is_parent d1 nodes p1 →
      is_parent d nodes p1 ∨ p1 = parent_t.root d.n_root_chan := by
    intro p1 hp1
    cases p1 with
    | root j =>
      have h2 : 0 ≤ j ∧ j < d1.n_root_chan := hp1
      by_cases hj : j = d.n_root_chan
      · right
        rw [hj]
      · left
        show 0 ≤ j ∧ j < d.n_root_chan
        omega
    | node b =>
      left
      exact hp1
  have f3 : kids_of nodes path [p0] = [] := by
    apply List.eq_nil_iff_forall_not_mem.mpr
    intro a ham
    obtain ⟨ha1, ha2⟩ := (mem_kids_of _ _ _ _).mp ham
    obtain ⟨p1, hp1, e1⟩ := hi.par a ha1
    rw [ha2] at e1
    exact no_parent_path d nodes path hi p0 hm p1 hp1 e1.symm
  exact
    { heap := by
        rw [hh]
        exact hi.heap
      mem := by
        rw [hh]
        exact hi.mem
      nodup := hi.nodup
      ssid := by
        rw [hc]
        exact hi.ssid
      len := hi.len
      inj := hi.inj
      par := by
        intro a ha
        obtain ⟨p1, hp1, e1⟩ := hi.par a ha
        obtain ⟨g1, g2, _⟩ := f1 p1 hp1
        exact ⟨p1, g1, by rw [g2]; exact e1⟩
      chain := by
        intro p1 hp1
        rcases f2 p1 hp1 with h | h
        · obtain ⟨_, g2, g3⟩ := f1 p1 h
          rw [g2, g3, hc]
          exact hi.chain p1 h
        · subst h
          show sib_list d1.chan (d1.root_chan d.n_root_chan).next
            (kids_of nodes path [(d1.root_chan d.n_root_chan).diphone])
          rw [hnext, hpool.1, hdi, f3]
          rfl
      n_root := by
        rw [hn]
        omega
      roots_inj := by
        intro i j hi0 hi1 hj0 hj1 e
        rw [hn] at hi1 hj1
        by_cases hin : i = d.n_root_chan
        · by_cases hjn : j = d.n_root_chan
          · rw [hin, hjn]
          · rw [hin, hdi, hold j hjn] at e
            exact absurd e.symm (hne j hj0 (by omega))
        · by_cases hjn : j = d.n_root_chan
          · rw [hjn, hdi, hold i hin] at e
            exact absurd e (hne i hi0 (by omega))
          · rw [hold i hin, hold j hjn] at e
            exact hi.roots_inj i j hi0 (by omega) hj0 (by omega) e
      root_range := by
        intro i hi0 hi1
        rw [hn] at hi1
        rw [hna]
        by_cases hin : i = d.n_root_chan
        · rw [hin, hdi]
          exact ⟨h0, h1⟩
        · rw [hold i hin]
          exact hi.root_range i hi0 (by omega)
      map_root := by
        intro i hi0 hi1
        rw [hn] at hi1
        rw [hmap]
        by_cases hin : i = d.n_root_chan
        · rw [hin, hdi, store_same]
        · rw [hold i hin, store_ne _ _ _ _ (hne i hi0 (by omega))]
          exact hi.map_root i hi0 (by omega)
      map_ok := by
        intro q hq0 hq1 hq2
        rw [hna] at hq1
        rw [hmap] at hq2 ⊢
        rw [hn]
        by_cases hqp : q = p0
        · rw [hqp, store_same, hdi]
          exact ⟨by omega, rfl⟩
        · rw [store_ne _ _ _ _ hqp] at hq2 ⊢
          have := hi.map_ok q hq0 hq1 hq2
          rw [hold _ (by omega)]
          exact ⟨by omega, this.2⟩
      map_unset := by
        intro q hq0 hq1 hq2
        rw [hna] at hq1
        rw [hmap] at hq2 ⊢
        by_cases hqp : q = p0
        · rw [hqp, store_same] at hq2
          omega
        · rw [store_ne _ _ _ _ hqp] at hq2 ⊢
          exact hi.map_unset q hq0 hq1 hq2
      pool := by
        intro i hi0 hi1
        rw [hn] at hi0
        rw [hna] at hi1
        rw [hold i (by omega)]
        exact hi.pool i (by omega) hi1
      up_next := by
        rw [hc]
        exact hi.up_next
      up_alt := by
        rw [hc]
        exact hi.up_alt
      root_next := by
        intro i hi0 hi1
        rw [hn] at hi1
        by_cases hin : i = d.n_root_chan
        · left
          rw [hin, hnext]
          exact hpool.1
        · rw [hold i hin]
          exact hi.root_next i hi0 (by omega) }

/-- The root of a word is found or taken from the pool: the tree stays well
formed, and the root is in use with the first phone of the word as its
path. -/
theorem find_or_add_root_ok (d : decoder_t) (nodes : List Int) (path : Int → List Int)
    (de : dict_entry_t) (hi : tree_inv d nodes path) (h0 : 0 ≤ de.phone_ids 0)
    (h1 : de.phone_ids 0 < d.n_root_chan_alloc) :
    tree_inv (find_or_add_root d de).1 nodes path ∧
    is_parent (find_or_add_root d de).1 nodes (parent_t.root (find_or_add_root d de).2) ∧
    ppath (find_or_add_root d de).1 path (parent_t.root (find_or_add_root d de).2)
      = [de.phone_ids 0] := by
  by_cases hm : d.first_phone_rchan_map (de.phone_ids 0) < 0
  · obtain ⟨e1, e2, e3, e4, _, e6, _⟩ := find_or_add_root_new d de hm
    have hinv := tree_inv_new_root d _ nodes path (de.phone_ids 0) hi h0 h1 hm e2 e3 e4 e6
    refine ⟨hinv, ?_, ?_⟩
    · rw [e1]
      have hn : (find_or_add_root d de).1.n_root_chan = d.n_root_chan + 1 := by
        have e := congrArg decoder_t.n_root_chan e2
        exact e
      show 0 ≤ d.n_root_chan ∧ d.n_root_chan < (find_or_add_root d de).1.n_root_chan
      have := hi.n_root
      omega
    · rw [e1]
      show [((find_or_add_root d de).1.root_chan d.n_root_chan).diphone] = _
      rw [e6]
  · rw [find_or_add_root_old d de hm]
    have h2 := hi.map_ok _ h0 h1 (by omega)
    refine ⟨hi, ⟨by omega, h2.1⟩, ?_⟩
    show [(d.root_chan (d.first_phone_rchan_map (de.phone_ids 0))).diphone] = _
    rw [h2.2]

/-! ### Homophone chains -/

theorem hom_list_neg (hs : Int → Int) (j : Int) (l : List Int) (hj : j < 0)
    (h : hom_list hs j l) : l = [] := by
  cases l with
  | nil => rfl
  | cons b l =>
    simp only [hom_list] at h
    omega

theorem hom_list_nonneg (hs : Int → Int) (j : Int) (l : List Int) (hj : ¬ j < 0)
    (h : hom_list hs j l) : l ≠ [] := by
  intro e
  subst e
  exact hj h

theorem hom_list_congr (hs hs1 : Int → Int) (l : List Int) :
    ∀ j, (∀ b ∈ l, hs1 b = hs b) → hom_list hs j l → hom_list hs1 j l := by
  induction l with
  | nil =>
    intro j _ h
    exact h
  | cons b l ih =>
    intro j hc h
    simp only [hom_list] at h ⊢
    refine ⟨h.1, h.2.1, ?_⟩
    rw [hc b (List.mem_cons_self _ _)]
    exact ih _ (fun c hcl => hc c (List.mem_cons_of_mem _ hcl)) h.2.2

/-- Storing `w` at the last word of a chain extends the chain by `w`. -/
theorem hom_list_snoc (hs hs1 : Int → Int) (w : Int) (l : List Int) :
    ∀ j, l ≠ [] → 0 ≤ w → w ∉ l → l.Nodup →
      (∀ b ∈ l, b ≠ l.getLast?.getD 0 → hs1 b = hs b) →
      hs1 (l.getLast?.getD 0) = w → hs1 w < 0 →
      hom_list hs j l → hom_list hs1 j (l ++ [w]) := by
  induction l with
  | nil =>
    intro j h
    exact absurd rfl h
  | cons b l ih =>
    intro j _ hw hwl hnd hc hlast hww h
    simp only [hom_list] at h
    obtain ⟨hj, hjb, hl⟩ := h
    cases l with
    | nil =>
      simp only [List.getLast?_singleton, Option.getD_some] at hlast
      show 0 ≤ j ∧ j = b ∧ 0 ≤ hs1 b ∧ hs1 b = w ∧ hs1 w < 0
      rw [hlast]
      exact ⟨hj, hjb, hw, rfl, hww⟩
    | cons c l =>
      have hbl : b ≠ (b :: c :: l).getLast?.getD 0 := by
        intro e
        rw [List.getLast?_cons_cons] at e
        have hm : (c :: l).getLast?.getD 0 ∈ c :: l := by
          rw [List.getLast?_eq_getLast _ (List.cons_ne_nil _ _)]
          exact List.getLast_mem _
        rw [← e] at hm
        exact (List.nodup_cons.mp hnd).1 hm
      simp only [List.cons_append, hom_list]
      refine ⟨hj, hjb, ?_⟩
      rw [hc b (List.mem_cons_self _ _) hbl]
      apply ih _ (List.cons_ne_nil _ _) hw
      · intro hm
        exact hwl (List.mem_cons_of_mem _ hm)
      · exact (List.nodup_cons.mp hnd).2
      · intro x hx hxl
        apply hc x (List.mem_cons_of_mem _ hx)
        rw [List.getLast?_cons_cons]
        exact hxl
      · rw [List.getLast?_cons_cons] at hlast
        exact hlast
      · exact hww
      · exact hl

/-- The walk to the end of a chain with enough fuel stops at its last word. -/
theorem chain_last_spec (hs : Int → Int) (l : List Int) :
    ∀ (fuel : Nat) (j : Int), l ≠ [] → hom_list hs j l → l.length ≤ fuel →
      chain_last hs fuel j = Except.ok (l.getLast?.getD 0) := by
  induction l with
  | nil =>
    intro fuel j h
    exact absurd rfl h
  | cons b l ih =>
    intro fuel j _ h hf
    simp only [hom_list] at h
    obtain ⟨hj, hjb, hl⟩ := h
    subst hjb
    cases fuel with
    | zero => exact absurd hf (by simp)
    | succ n =>
      cases l with
      | nil =>
        have hl1 : hs j < 0 := hl
        simp only [chain_last]
        rw [if_neg (by omega)]
        rfl
      | cons c l =>
        simp only [hom_list] at hl
        simp only [chain_last]
        rw [if_pos (by omega : hs j ≥ 0), List.getLast?_cons_cons]
        apply ih n (hs j) (List.cons_ne_nil _ _)
        · simp only [hom_list]
          exact hl
        · simp only [List.length_cons] at hf ⊢
          omega

theorem mem_word_range (n : Nat) (v : Int) : v ∈ word_range n ↔ 0 ≤ v ∧ v < n := by
  unfold word_range
  constructor
  · intro h
    obtain ⟨k, hk, e⟩ := List.mem_map.mp h
    have := List.mem_range.mp hk
    have e1 : (k : Int) = v := e
    omega
  · intro h
    apply List.mem_map.mpr
    refine ⟨v.toNat, List.mem_range.mpr (by omega), ?_⟩
    show ((v.toNat : Nat) : Int) = v
    omega

theorem word_range_nodup (n : Nat) : (word_range n).Nodup := by
  unfold word_range
  apply List.Nodup.map
  · intro a b e
    exact Int.ofNat.inj e
  · exact List.nodup_range n

theorem word_range_succ (n : Nat) : word_range (n + 1) = word_range n ++ [(n : Int)] := by
  unfold word_range
  rw [List.range_succ, List.map_append]
  rfl

theorem word_range_length (n : Nat) : (word_range n).length = n := by
  unfold word_range
  rw [List.length_map, List.length_range]

theorem mem_hom_of (env : env_t) (dict : dict_t) (w : Nat) (q : List Int) (v : Int) :
    v ∈ hom_of env dict w q ↔
      (0 ≤ v ∧ v < w) ∧ in_tree env dict v = true ∧ penult_path dict v = q := by
  unfold hom_of
  rw [List.mem_filter, mem_word_range]
  simp

theorem hom_of_nodup (env : env_t) (dict : dict_t) (w : Nat) (q : List Int) :
    (hom_of env dict w q).Nodup :=
  (word_range_nodup w).filter _

theorem hom_of_length (env : env_t) (dict : dict_t) (w : Nat) (q : List Int) :
    (hom_of env dict w q).length ≤ w := by
  unfold hom_of
  refine le_trans (List.length_filter_le _ _) ?_
  rw [word_range_length]

theorem hom_of_succ (env : env_t) (dict : dict_t) (w : Nat) (q : List Int) :
    hom_of env dict (w + 1) q
      = hom_of env dict w q ++
        (if in_tree env dict w = true ∧ penult_path dict w = q then [(w : Int)] else []) := by
  unfold hom_of
  rw [word_range_succ, List.filter_append]
  congr 1
  by_cases h : in_tree env dict w = true ∧ penult_path dict w = q
  · rw [if_pos h]
    simp [List.filter_cons, h.1, h.2]
  · rw [if_neg h]
    rw [not_and] at h
    by_cases h1 : in_tree env dict w = true
    · simp [List.filter_cons, h1, h h1]
    · simp [List.filter_cons, h1]

/-- The tree invariant reads the links and ssids of the cells, the first
phones and links of the roots, the chain heads of the roots not in use, the
heap top, the root counts and the root map only. -/
theorem tree_inv_congr (d d1 : decoder_t) (nodes : List Int) (path : Int → List Int)
    (hc : ∀ b, (d1.chan b).hmm.ssid = (d.chan b).hmm.ssid ∧
      (d1.chan b).next = (d.chan b).next ∧ (d1.chan b).alt = (d.chan b).alt)
    (hr : ∀ i, (d1.root_chan i).diphone = (d.root_chan i).diphone ∧
      (d1.root_chan i).next = (d.root_chan i).next ∧
      (d.n_root_chan ≤ i →
        (d1.root_chan i).penult_phn_wid = (d.root_chan i).penult_phn_wid))
    (hh : d1.heap_top = d.heap_top) (hn : d1.n_root_chan = d.n_root_chan)
    (hna : d1.n_root_chan_alloc = d.n_root_chan_alloc)
    (hmap : d1.first_phone_rchan_map = d.first_phone_rchan_map)
    (hi : tree_inv d nodes path) : tree_inv d1 nodes path := by
  have f1 : ∀ p1, (is_parent d1 nodes p1 ↔ is_parent d nodes p1) ∧
      ppath d1 path p1 = ppath d path p1 ∧ kids d1 p1 = kids d p1 := by
    intro p1
    cases p1 with
    | root j =>
      refine ⟨?_, ?_, (hr j).2.1⟩
      · show (0 ≤ j ∧ j < d1.n_root_chan) ↔ (0 ≤ j ∧ j < d.n_root_chan)
        rw [hn]
      · show [(d1.root_chan j).diphone] = [(d.root_chan j).diphone]
        rw [(hr j).1]
    | node b => exact ⟨Iff.rfl, rfl, (hc b).2.1⟩
  exact
    { heap := by
        rw [hh]
        exact hi.heap
      mem := by
        rw [hh]
        exact hi.mem
      nodup := hi.nodup
      ssid := by
        intro a ha
        rw [(hc a).1]
        exact hi.ssid a ha
      len := hi.len
      inj := hi.inj
      par := by
        intro a ha
        obtain ⟨p1, hp1, e1⟩ := hi.par a ha
        exact ⟨p1, (f1 p1).1.mpr hp1, by rw [(f1 p1).2.1]; exact e1⟩
      chain := by
        intro p1 hp1
        rw [(f1 p1).2.1, (f1 p1).2.2]
        exact sib_list_congr d.chan d1.chan _ _ (fun b _ => (hc b).2.2)
          (hi.chain p1 ((f1 p1).1.mp hp1))
      n_root := by
        rw [hn]
        exact hi.n_root
      roots_inj := by
        intro i j hi0 hi1 hj0 hj1 e
        rw [hn] at hi1 hj1
        rw [(hr i).1, (hr j).1] at e
        exact hi.roots_inj i j hi0 hi1 hj0 hj1 e
      root_range := by
        intro i hi0 hi1
        rw [hn] at hi1
        rw [(hr i).1, hna]
        exact hi.root_range i hi0 hi1
      map_root := by
        intro i hi0 hi1
        rw [hn] at hi1
        rw [(hr i).1, hmap]
        exact hi.map_root i hi0 hi1
      map_ok := by
        intro q hq0 hq1 hq2
        rw [hna] at hq1
        rw [hmap] at hq2 ⊢
        rw [hn, (hr _).1]
        exact hi.map_ok q hq0 hq1 hq2
      map_unset := by
        intro q hq0 hq1 hq2
        rw [hna] at hq1
        rw [hmap] at hq2 ⊢
        exact hi.map_unset q hq0 hq1 hq2
      pool := by
        intro i hi0 hi1
        rw [hn] at hi0
        rw [hna] at hi1
        rw [(hr i).2.1, (hr i).2.2 hi0]
        exact hi.pool i hi0 hi1
      up_next := by
        intro a ha
        rw [(hc a).2.1]
        exact hi.up_next a ha
      up_alt := by
        intro a ha
        rw [(hc a).2.2]
        exact hi.up_alt a ha
      root_next := by
        intro i hi0 hi1
        rw [hn] at hi1
        rw [(hr i).2.1]
        exact hi.root_next i hi0 hi1 }

/-- The homophone chains are kept by a step of the tree construction. -/
theorem hom_inv_step (env : env_t) (d d1 : decoder_t) (nodes nodes1 : List Int)
    (path path1 : Int → List Int) (w : Nat)
    (hs : tree_step d d1 nodes nodes1 path path1) (hh : hom_inv env d nodes path w) :
    hom_inv env d1 nodes1 path1 w := by
  have hhs : d1.homophone_set = d.homophone_set := by
    have e := congrArg decoder_t.homophone_set hs.rest
    exact e
  have hngs : d1.ngs = d.ngs := by
    have e := congrArg decoder_t.ngs hs.rest
    exact e
  have hn : d1.n_root_chan = d.n_root_chan := by
    have e := congrArg decoder_t.n_root_chan hs.rest
    exact e
  have f1 : ∀ p1, is_parent d nodes p1 →
      is_parent d1 nodes1 p1 ∧ ppath d1 path1 p1 = ppath d path p1 ∧
      penult d1 p1 = penult d p1 := by
    intro p1 hp1
    cases p1 with
    | root j =>
      refine ⟨?_, ?_, (hs.roots j).2.1⟩
      · show 0 ≤ j ∧ j < d1.n_root_chan
        rw [hn]
        exact hp1
      · show [(d1.root_chan j).diphone] = [(d.root_chan j).diphone]
        rw [(hs.roots j).1]
    | node b => exact ⟨hs.sub b hp1, hs.paths b hp1, hs.info b hp1⟩
  exact
    { chains := by
        intro p1 hp1
        rw [hhs, hngs]
        by_cases hold : is_parent d nodes p1
        · obtain ⟨_, g2, g3⟩ := f1 p1 hold
          rw [g2, g3]
          exact hh.chains p1 hold
        · cases p1 with
          | root j =>
            have h2 : 0 ≤ j ∧ j < d1.n_root_chan := hp1
            rw [hn] at h2
            exact absurd h2 hold
          | node b =>
            obtain ⟨g1, g2⟩ := hs.fresh b hp1 hold
            have he : hom_of env d.ngs.dict w (path1 b) = [] := by
              apply List.eq_nil_iff_forall_not_mem.mpr
              intro v hv
              obtain ⟨hv1, hv2, hv3⟩ := (mem_hom_of _ _ _ _ _).mp hv
              obtain ⟨p2, hp2, e2⟩ := hh.has_parent v ((mem_word_range _ _).mpr hv1) hv2
              exact g2 p2 hp2 (by rw [e2, hv3])
            show hom_list d.homophone_set (d1.chan b).info
              (hom_of env d.ngs.dict w (path1 b))
            rw [he, g1]
            show (-1 : Int) < 0
            omega
      has_parent := by
        intro v hv hin
        rw [hngs] at hin ⊢
        obtain ⟨p1, hp1, e1⟩ := hh.has_parent v hv hin
        obtain ⟨g1, g2, _⟩ := f1 p1 hp1
        exact ⟨p1, g1, by rw [g2]; exact e1⟩
      tail := by
        rw [hhs, hngs]
        exact hh.tail }

theorem set_penult_chan (s : decoder_t) (p : parent_t) (v b : Int) :
    ((set_penult s p v).chan b).hmm = (s.chan b).hmm ∧
    ((set_penult s p v).chan b).next = (s.chan b).next ∧
    ((set_penult s p v).chan b).alt = (s.chan b).alt := by
  cases p with
  | root i => exact ⟨rfl, rfl, rfl⟩
  | node a =>
    show ((store s.chan a _ b).hmm = _) ∧ ((store s.chan a _ b).next = _) ∧
      ((store s.chan a _ b).alt = _)
    by_cases h : b = a
    · subst h
      rw [store_same]
      exact ⟨rfl, rfl, rfl⟩
    · rw [store_ne _ _ _ _ h]
      exact ⟨rfl, rfl, rfl⟩

theorem set_penult_root (s : decoder_t) (p : parent_t) (v i : Int) :
    ((set_penult s p v).root_chan i).diphone = (s.root_chan i).diphone ∧
    ((set_penult s p v).root_chan i).next = (s.root_chan i).next ∧
    ((set_penult s p v).root_chan i).ciphone = (s.root_chan i).ciphone ∧
    ((set_penult s p v).root_chan i).hmm = (s.root_chan i).hmm ∧
    (p ≠ parent_t.root i →
      ((set_penult s p v).root_chan i).penult_phn_wid = (s.root_chan i).penult_phn_wid) := by
  cases p with
  | node a => exact ⟨rfl, rfl, rfl, rfl, fun _ => rfl⟩
  | root j =>
    show ((store s.root_chan j _ i).diphone = _) ∧ ((store s.root_chan j _ i).next = _) ∧
      ((store s.root_chan j _ i).ciphone = _) ∧ ((store s.root_chan j _ i).hmm = _) ∧
      (_ → (store s.root_chan j _ i).penult_phn_wid = _)
    by_cases h : i = j
    · subst h
      rw [store_same]
      exact ⟨rfl, rfl, rfl, rfl, fun e => absurd rfl e⟩
    · rw [store_ne _ _ _ _ h]
      exact ⟨rfl, rfl, rfl, rfl, fun _ => rfl⟩

theorem penult_set_penult_same (s : decoder_t) (p : parent_t) (v : Int) :
    penult (set_penult s p v) p = v := by
  cases p with
  | root i =>
    show (store s.root_chan i _ i).penult_phn_wid = v
    rw [store_same]
  | node a =>
    show (store s.chan a _ a).info = v
    rw [store_same]

theorem penult_set_penult_ne (s : decoder_t) (p p1 : parent_t) (v : Int) (h : p1 ≠ p) :
    penult (set_penult s p v) p1 = penult s p1 := by
  cases p with
  | root i =>
    cases p1 with
    | node b => rfl
    | root j =>
      show (store s.root_chan i _ j).penult_phn_wid = _
      rw [store_ne]
      · rfl
      · intro e
        exact h (by rw [e])
  | node a =>
    cases p1 with
    | root j => rfl
    | node b =>
      show (store s.chan a _ b).info = _
      rw [store_ne]
      · rfl
      · intro e
        exact h (by rw [e])

theorem set_penult_rest (s : decoder_t) (p : parent_t) (v : Int) :
    set_penult s p v =
      { s with chan := (set_penult s p v).chan, root_chan := (set_penult s p v).root_chan } := by
  cases p with
  | root i => rfl
  | node a => rfl

/-- Writing the head of the chain of a parent in use keeps the tree well
formed. -/
theorem tree_inv_set_penult (d : decoder_t) (nodes : List Int) (path : Int → List Int)
    (p : parent_t) (v : Int) (hp : is_parent d nodes p) (hi : tree_inv d nodes path) :
    tree_inv (set_penult d p v) nodes path := by
  have hr := set_penult_rest d p v
  apply tree_inv_congr d _ nodes path _ _ _ _ _ _ hi
  · intro b
    have h := set_penult_chan d p v b
    exact ⟨by rw [h.1], h.2.1, h.2.2⟩
  · intro i
    have h := set_penult_root d p v i
    refine ⟨h.1, h.2.1, ?_⟩
    intro hn
    apply h.2.2.2.2
    intro e
    subst e
    have : 0 ≤ i ∧ i < d.n_root_chan := hp
    omega
  · have e := congrArg decoder_t.heap_top hr
    exact e
  · have e := congrArg decoder_t.n_root_chan hr
    exact e
  · have e := congrArg decoder_t.n_root_chan_alloc hr
    exact e
  · have e := congrArg decoder_t.first_phone_rchan_map hr
    exact e

theorem ppath_set_penult (d : decoder_t) (path : Int → List Int) (p p1 : parent_t) (v : Int) :
    ppath (set_penult d p v) path p1 = ppath d path p1 := by
  cases p1 with
  | root j =>
    show [((set_penult d p v).root_chan j).diphone] = [(d.root_chan j).diphone]
    rw [(set_penult_root d p v j).1]
  | node b => rfl

theorem is_parent_set_penult (d : decoder_t) (nodes : List Int) (p p1 : parent_t) (v : Int) :
    is_parent (set_penult d p v) nodes p1 ↔ is_parent d nodes p1 := by
  have hr := set_penult_rest d p v
  have hn : (set_penult d p v).n_root_chan = d.n_root_chan := by
    have e := congrArg decoder_t.n_root_chan hr
    exact e
  cases p1 with
  | root j =>
    show (0 ≤ j ∧ j < (set_penult d p v).n_root_chan) ↔ (0 ≤ j ∧ j < d.n_root_chan)
    rw [hn]
  | node b => exact Iff.rfl

/-- Word `w`, next to be run through, is put on the chain of the parent that
has its phones without the last as path: the chains are those of the words
below `w + 1`. -/
theorem add_homophone_ok (env : env_t) (fuel : Nat) (d : decoder_t) (nodes : List Int)
    (path : Int → List Int) (w : Nat) (p : parent_t)
    (hi : tree_inv d nodes path) (hh : hom_inv env d nodes path w)
    (hp : is_parent d nodes p) (hpp : ppath d path p = penult_path d.ngs.dict w)
    (hin : in_tree env d.ngs.dict w = true) (hw : (w : Int) < d.ngs.dict.n_main_words)
    (hf : w ≤ fuel) :
    ∃ d1, add_homophone fuel d p w = Except.ok d1 ∧ tree_inv d1 nodes path ∧
      hom_inv env d1 nodes path (w + 1) ∧
      d1 =
        { d with chan := d1.chan, root_chan := d1.root_chan,
                 homophone_set := d1.homophone_set } ∧
      (∀ i, (d1.root_chan i).diphone = (d.root_chan i).diphone ∧
        (d1.root_chan i).ciphone = (d.root_chan i).ciphone ∧
        (d1.root_chan i).hmm = (d.root_chan i).hmm ∧
        (d1.root_chan i).next = (d.root_chan i).next) ∧
      (∀ b, (d1.chan b).hmm = (d.chan b).hmm ∧ (d1.chan b).next = (d.chan b).next ∧
        (d1.chan b).alt = (d.chan b).alt) := by
  unfold add_homophone
  have hch := hh.chains p hp
  have hww : d.homophone_set w = -1 := hh.tail w (le_refl _) hw
  have hcond : ∀ p1, is_parent d nodes p1 →
      ((in_tree env d.ngs.dict w = true ∧ penult_path d.ngs.dict w = ppath d path p1) ↔
        p1 = p) := by
    intro p1 hp1
    constructor
    · intro h
      exact ppath_inj d nodes path hi p1 p hp1 hp (by rw [hpp, h.2])
    · intro h
      rw [h]
      exact ⟨hin, hpp.symm⟩
  by_cases hneg : penult d p < 0
  · rw [if_pos hneg]
    have hL : hom_of env d.ngs.dict w (ppath d path p) = [] := hom_list_neg _ _ _ hneg hch
    have hhs : (set_penult d p w).homophone_set = d.homophone_set := by
      cases p with
      | root i => rfl
      | node a => rfl
    have hngs : (set_penult d p w).ngs = d.ngs := by
      cases p with
      | root i => rfl
      | node a => rfl
    refine ⟨_, rfl, tree_inv_set_penult d nodes path p w hp hi, ?_, ?_, ?_, ?_⟩
    · exact
        { chains := by
            intro p1 hp1
            have hp2 := (is_parent_set_penult d nodes p p1 w).mp hp1
            rw [hhs, hngs, ppath_set_penult, hom_of_succ]
            by_cases hq : p1 = p
            · subst hq
              rw [if_pos ((hcond p1 hp2).mpr rfl), hL, penult_set_penult_same]
              show (0 : Int) ≤ w ∧ (w : Int) = w ∧ d.homophone_set w < 0
              rw [hww]
              exact ⟨by omega, rfl, by omega⟩
            · rw [if_neg (fun h => hq ((hcond p1 hp2).mp h)), List.append_nil,
                penult_set_penult_ne d p p1 w hq]
              exact hh.chains p1 hp2
          has_parent := by
            intro v hv hvin
            rw [hngs] at hvin ⊢
            have hv1 := (mem_word_range _ _).mp hv
            by_cases hvw : v = w
            · refine ⟨p, (is_parent_set_penult d nodes p p w).mpr hp, ?_⟩
              rw [ppath_set_penult, hvw]
              exact hpp
            · obtain ⟨p1, hp1, e1⟩ := hh.has_parent v
                ((mem_word_range _ _).mpr ⟨hv1.1, by omega⟩) hvin
              exact ⟨p1, (is_parent_set_penult d nodes p p1 w).mpr hp1,
                by rw [ppath_set_penult]; exact e1⟩
          tail := by
            intro v hv1 hv2
            rw [hhs]
            rw [hngs] at hv2
            exact hh.tail v (by omega) hv2 }
    · cases p with
      | root i => rfl
      | node a => rfl
    · intro i
      have h := set_penult_root d p w i
      exact ⟨h.1, h.2.2.1, h.2.2.2.1, h.2.1⟩
    · intro b
      exact set_penult_chan d p w b
  · rw [if_neg hneg]
    have hL := hom_list_nonneg _ _ _ hneg hch
    rw [chain_last_spec d.homophone_set _ fuel _ hL hch
      (le_trans (hom_of_length _ _ _ _) hf)]
    dsimp only
    generalize hj : (hom_of env d.ngs.dict w (ppath d path p)).getLast?.getD 0 = j
    have hjm : j ∈ hom_of env d.ngs.dict w (ppath d path p) := by
      rw [← hj, List.getLast?_eq_getLast _ hL]
      exact List.getLast_mem _
    obtain ⟨hj1, _, hj3⟩ := (mem_hom_of _ _ _ _ _).mp hjm
    refine ⟨_, rfl, ?_, ?_, rfl, fun i => ⟨rfl, rfl, rfl, rfl⟩, fun b => ⟨rfl, rfl, rfl⟩⟩
    · exact tree_inv_congr d _ nodes path (fun b => ⟨rfl, rfl, rfl⟩)
        (fun i => ⟨rfl, rfl, fun _ => rfl⟩) rfl rfl rfl rfl hi
    · have hpar : ∀ p1,
          is_parent { d with homophone_set := store d.homophone_set j w } nodes p1 →
          is_parent d nodes p1 := by
        intro p1 h
        cases p1 with
        | root i => exact h
        | node b => exact h
      have hpath : ∀ p1,
          ppath { d with homophone_set := store d.homophone_set j w } path p1
            = ppath d path p1 := by
        intro p1
        cases p1 with
        | root i => rfl
        | node b => rfl
      have hpen : ∀ p1,
          penult { d with homophone_set := store d.homophone_set j w } p1 = penult d p1 := by
        intro p1
        cases p1 with
        | root i => rfl
        | node b => rfl
      exact
        { chains := by
            intro p1 hp1
            have hp2 := hpar p1 hp1
            rw [hpath, hpen]
            show hom_list (store d.homophone_set j w) (penult d p1)
              (hom_of env d.ngs.dict (w + 1) (ppath d path p1))
            rw [hom_of_succ]
            by_cases hq : p1 = p
            · subst hq
              rw [if_pos ((hcond p1 hp2).mpr rfl)]
              apply hom_list_snoc d.homophone_set _ w _ _ hL (by omega) _
                (hom_of_nodup _ _ _ _) _ _ _ hch
              · intro hm
                have := ((mem_hom_of _ _ _ _ _).mp hm).1
                omega
              · intro b _ hbl
                rw [hj] at hbl
                exact store_ne _ _ _ _ hbl
              · rw [hj, store_same]
              · rw [store_ne _ _ _ _ (by omega), hww]
                omega
            · rw [if_neg (fun h => hq ((hcond p1 hp2).mp h)), List.append_nil]
              apply hom_list_congr d.homophone_set _ _ _ _ (hh.chains p1 hp2)
              intro b hb
              apply store_ne
              intro e
              have hb3 := ((mem_hom_of _ _ _ _ _).mp hb).2.2
              rw [e, hj3] at hb3
              exact hq (ppath_inj d nodes path hi p1 p hp2 hp hb3.symm)
          has_parent := by
            intro v hv hvin
            have hv1 := (mem_word_range _ _).mp hv
            by_cases hvw : v = w
            · refine ⟨p, hp, ?_⟩
              rw [hpath, hvw]
              exact hpp
            · obtain ⟨p1, hp1, e1⟩ := hh.has_parent v
                ((mem_word_range _ _).mpr ⟨hv1.1, by omega⟩) hvin
              exact ⟨p1, hp1, by rw [hpath]; exact e1⟩
          tail := by
            intro v hv1 hv2
            show store d.homophone_set j w v = -1
            rw [store_ne _ _ _ _ (by omega)]
            exact hh.tail v (by omega) hv2 }

/-- A word that is not put in the tree leaves the chains as they are. -/
theorem hom_inv_skip (env : env_t) (d : decoder_t) (nodes : List Int) (path : Int → List Int)
    (w : Nat) (hin : in_tree env d.ngs.dict w = false) (hh : hom_inv env d nodes path w) :
    hom_inv env d nodes path (w + 1) :=
  { chains := by
      intro p1 hp1
      rw [hom_of_succ, if_neg, List.append_nil]
      · exact hh.chains p1 hp1
      · intro h
        rw [hin] at h
        exact absurd h.1 (by simp)
    has_parent := by
      intro v hv hvin
      have hv1 := (mem_word_range _ _).mp hv
      by_cases hvw : v = w
      · rw [hvw, hin] at hvin
        exact absurd hvin (by simp)
      · exact hh.has_parent v ((mem_word_range _ _).mpr ⟨hv1.1, by omega⟩) hvin
    tail := by
      intro v hv1 hv2
      exact hh.tail v (by omega) hv2 }

/-- Finding or taking the root of a word keeps the homophone chains. -/
theorem hom_inv_find_or_add_root (env : env_t) (d : decoder_t) (nodes : List Int)
    (path : Int → List Int) (w : Nat) (de : dict_entry_t)
    (hi : tree_inv d nodes path) (hh : hom_inv env d nodes path w)
    (h0 : 0 ≤ de.phone_ids 0) (h1 : de.phone_ids 0 < d.n_root_chan_alloc) :
    hom_inv env (find_or_add_root d de).1 nodes path w := by
  by_cases hm : d.first_phone_rchan_map (de.phone_ids 0) < 0
  · obtain ⟨_, e2, e3, _, e5, e6, _⟩ := find_or_add_root_new d de hm
    generalize (find_or_add_root d de).1 = d1 at e2 e3 e5 e6
    have hc : d1.chan = d.chan := by
      have e := congrArg decoder_t.chan e2
      exact e
    have hhs : d1.homophone_set = d.homophone_set := by
      have e := congrArg decoder_t.homophone_set e2
      exact e
    have hngs : d1.ngs = d.ngs := by
      have e := congrArg decoder_t.ngs e2
      exact e
    have hn : d1.n_root_chan = d.n_root_chan + 1 := by
      have e := congrArg decoder_t.n_root_chan e2
      exact e
    have hlt := roots_lt_alloc d nodes path hi _ h0 h1 hm
    have hpool := hi.pool d.n_root_chan (le_refl _) hlt
    have f1 : ∀ p1, is_parent d nodes p1 →
        is_parent d1 nodes p1 ∧ ppath d1 path p1 = ppath d path p1 ∧
        penult d1 p1 = penult d p1 := by
      intro p1 hp1
      cases p1 with
      | root j =>
        have hjr : 0 ≤ j ∧ j < d.n_root_chan := hp1
        have hj : j ≠ d.n_root_chan := by omega
        refine ⟨?_, ?_, ?_⟩
        · show 0 ≤ j ∧ j < d1.n_root_chan
          omega
        · show [(d1.root_chan j).diphone] = [(d.root_chan j).diphone]
          rw [e3 j hj]
        · show (d1.root_chan j).penult_phn_wid = (d.root_chan j).penult_phn_wid
          rw [e3 j hj]
      | node b =>
        refine ⟨hp1, rfl, ?_⟩
        show (d1.chan b).info = (d.chan b).info
        rw [hc]
    exact
      { chains := by
          intro p1 hp1
          rw [hhs, hngs]
          by_cases hold : is_parent d nodes p1
          · obtain ⟨_, g2, g3⟩ := f1 p1 hold
            rw [g2, g3]
            exact hh.chains p1 hold
          · cases p1 with
            | node b => exact absurd hp1 hold
            | root j =>
              have h2 : 0 ≤ j ∧ j < d1.n_root_chan := hp1
              have hj : j = d.n_root_chan := by
                by_contra hne
                apply hold
                show 0 ≤ j ∧ j < d.n_root_chan
                omega
              subst hj
              show hom_list d.homophone_set (d1.root_chan d.n_root_chan).penult_phn_wid
                (hom_of env d.ngs.dict w [(d1.root_chan d.n_root_chan).diphone])
              have he : hom_of env d.ngs.dict w [de.phone_ids 0] = [] := by
                apply List.eq_nil_iff_forall_not_mem.mpr
                intro v hv
                obtain ⟨hv1, hv2, hv3⟩ := (mem_hom_of _ _ _ _ _).mp hv
                obtain ⟨p2, hp2, e2⟩ := hh.has_parent v ((mem_word_range _ _).mpr hv1) hv2
                exact no_parent_path d nodes path hi _ hm p2 hp2 (by rw [e2, hv3])
              rw [e5, e6, he, hpool.2]
              show (-1 : Int) < 0
              omega
        has_parent := by
          intro v hv hin
          rw [hngs] at hin ⊢
          obtain ⟨p1, hp1, e1⟩ := hh.has_parent v hv hin
          obtain ⟨g1, g2, _⟩ := f1 p1 hp1
          exact ⟨p1, g1, by rw [g2]; exact e1⟩
        tail := by
          rw [hhs, hngs]
          exact hh.tail }
  · rw [find_or_add_root_old d de hm]
    exact hh

/-! ### The main loop of `create_search_tree` -/

/-- A loop whose body returns and carries an invariant from each index to the
next returns with the invariant at the last index. -/
theorem for_up_total_ind {σ : Type} (P : Int → σ → Prop) (body : Int → σ → Except Fault σ)
    (n : Nat) :
    ∀ (lo : Int) (s : σ),
      (∀ i s, lo ≤ i → i < lo + n → P i s → ∃ s1, body i s = Except.ok s1 ∧ P (i + 1) s1) →
      P lo s → ∃ s1, for_up body n lo s = Except.ok s1 ∧ P (lo + n) s1 := by
  induction n with
  | zero =>
    intro lo s _ h0
    refine ⟨s, rfl, ?_⟩
    simpa using h0
  | succ n ih =>
    intro lo s hb h0
    obtain ⟨s1, h1, h2⟩ := hb lo s (le_refl _) (by push_cast; omega) h0
    obtain ⟨s2, h3, h4⟩ := ih (lo + 1) s1
      (fun i t hi0 hi1 ht => hb i t (by omega) (by push_cast at hi1 ⊢; omega) ht) h2
    refine ⟨s2, ?_, ?_⟩
    · simp only [for_up, h1]
      exact h3
    · have e : lo + ((n + 1 : Nat) : Int) = lo + 1 + (n : Int) := by
        push_cast
        omega
      rw [e]
      exact h4

theorem word_path_succ (de : dict_entry_t) (k : Nat) :
    word_path de (k + 1) = word_path de k ++ [de.phone_ids k] := by
  unfold word_path
  rw [List.range_succ, List.map_append]
  rfl

theorem spec_add_length {α : Type} [DecidableEq α] (ps : List α) (x : α) :
    (spec_add ps x).length ≤ ps.length + 1 := by
  unfold spec_add
  split
  · omega
  · simp

theorem spec_word_nodes_length (ps : List (List Int)) (de : dict_entry_t) (j : Nat) :
    (spec_word_nodes ps de j).length ≤ ps.length + j := by
  induction j with
  | zero => exact le_refl _
  | succ j ih =>
    have := spec_add_length (spec_word_nodes ps de j) (word_path de (j + 2))
    show (spec_add (spec_word_nodes ps de j) (word_path de (j + 2))).length ≤ _
    omega

theorem spec_nodes_length (env : env_t) (dict : dict_t) (w : Nat) :
    (spec_nodes env dict w).length ≤ node_bound dict w := by
  induction w with
  | zero => exact le_refl _
  | succ w ih =>
    simp only [spec_nodes, node_bound]
    split
    · have := spec_word_nodes_length (spec_nodes env dict w) (dict.dict_list w)
        ((dict.dict_list w).len - 2).toNat
      omega
    · omega

theorem node_bound_mono (dict : dict_t) (w n : Nat) (h : w ≤ n) :
    node_bound dict w ≤ node_bound dict n := by
  induction n with
  | zero =>
    have : w = 0 := by omega
    rw [this]
  | succ n ih =>
    by_cases hw : w = n + 1
    · rw [hw]
    · have := ih (by omega)
      simp only [node_bound]
      omega

theorem single_phone_list_succ (d : decoder_t) (n : Int) (hn : 0 ≤ n) :
    single_phone_list d (n + 1) = single_phone_list d n ++ [d.single_phone_wid n] := by
  unfold single_phone_list
  have e : (n + 1).toNat = n.toNat + 1 := by omega
  rw [e, List.range_succ, List.map_append]
  have e2 : Int.ofNat n.toNat = n := by
    show ((n.toNat : Nat) : Int) = n
    omega
  simp only [List.map_cons, List.map_nil, e2]

theorem single_phone_list_congr (d d1 : decoder_t) (n : Int)
    (h : ∀ i, 0 ≤ i → i < n → d1.single_phone_wid i = d.single_phone_wid i) :
    single_phone_list d1 n = single_phone_list d n := by
  unfold single_phone_list
  apply List.map_congr_left
  intro k hk
  have := List.mem_range.mp hk
  apply h
  · show (0 : Int) ≤ ((k : Nat) : Int)
    omega
  · show ((k : Nat) : Int) < n
    omega

theorem lm_1ph_succ (env : env_t) (dict : dict_t) (w : Nat) :
    lm_1ph env dict (w + 1)
      = lm_1ph env dict w ++
        (if env.known_wid (dict.dict_list w).wid = true ∧ (dict.dict_list w).len = 1
          then [(w : Int)] else []) := by
  unfold lm_1ph
  rw [word_range_succ, List.filter_append]
  congr 1
  by_cases h : env.known_wid (dict.dict_list w).wid = true ∧ (dict.dict_list w).len = 1
  · rw [if_pos h]
    simp [List.filter_cons, h.1, h.2]
  · rw [if_neg h]
    rw [not_and] at h
    by_cases h1 : env.known_wid (dict.dict_list w).wid = true
    · simp [List.filter_cons, h1, h h1]
    · simp [List.filter_cons, h1]

theorem mem_root_list (d : decoder_t) (x : Int) :
    x ∈ root_list d ↔ ∃ i, 0 ≤ i ∧ i < d.n_root_chan ∧ (d.root_chan i).diphone = x := by
  unfold root_list
  constructor
  · intro h
    obtain ⟨k, hk, e⟩ := List.mem_map.mp h
    have := List.mem_range.mp hk
    refine ⟨(k : Int), by omega, by omega, e⟩
  · rintro ⟨i, h0, h1, e⟩
    apply List.mem_map.mpr
    refine ⟨i.toNat, List.mem_range.mpr (by omega), ?_⟩
    have e2 : Int.ofNat i.toNat = i := by
      show ((i.toNat : Nat) : Int) = i
      omega
    simp only [e2]
    exact e

theorem root_list_congr (d d1 : decoder_t) (hn : d1.n_root_chan = d.n_root_chan)
    (hr : ∀ i, 0 ≤ i → i < d.n_root_chan →
      (d1.root_chan i).diphone = (d.root_chan i).diphone) :
    root_list d1 = root_list d := by
  unfold root_list
  rw [hn]
  apply List.map_congr_left
  intro k hk
  have := List.mem_range.mp hk
  apply hr
  · show (0 : Int) ≤ ((k : Nat) : Int)
    omega
  · show ((k : Nat) : Int) < d.n_root_chan
    omega

/-- The first phones of the roots after the root of a word has been found or
taken from the pool. -/
theorem root_list_find_or_add_root (d : decoder_t) (nodes : List Int)
    (path : Int → List Int) (de : dict_entry_t) (hi : tree_inv d nodes path)
    (h0 : 0 ≤ de.phone_ids 0) (h1 : de.phone_ids 0 < d.n_root_chan_alloc) :
    root_list (find_or_add_root d de).1 = spec_add (root_list d) (de.phone_ids 0) := by
  unfold spec_add
  by_cases hm : d.first_phone_rchan_map (de.phone_ids 0) < 0
  · obtain ⟨_, e2, e3, _, _, e6, _⟩ := find_or_add_root_new d de hm
    generalize (find_or_add_root d de).1 = d1 at e2 e3 e6
    have hn : d1.n_root_chan = d.n_root_chan + 1 := by
      have e := congrArg decoder_t.n_root_chan e2
      exact e
    have hnr := hi.n_root
    rw [if_neg]
    · unfold root_list
      have e : d1.n_root_chan.toNat = d.n_root_chan.toNat + 1 := by omega
      rw [e, List.range_succ, List.map_append]
      congr 1
      · apply List.map_congr_left
        intro k hk
        have := List.mem_range.mp hk
        rw [e3]
        show ((k : Nat) : Int) ≠ d.n_root_chan
        omega
      · have e4 : Int.ofNat d.n_root_chan.toNat = d.n_root_chan := by
          show ((d.n_root_chan.toNat : Nat) : Int) = d.n_root_chan
          omega
        simp only [List.map_cons, List.map_nil, e4, e6]
    · intro hmem
      obtain ⟨i, hi0, hi1, e⟩ := (mem_root_list d _).mp hmem
      exact root_phone_ne d nodes path hi _ hm i hi0 hi1 e
  · rw [find_or_add_root_old d de hm, if_pos]
    have h2 := hi.map_ok _ h0 h1 (by omega)
    exact (mem_root_list d _).mpr ⟨_, by omega, h2.1, h2.2⟩

theorem side_same_refl (d : decoder_t) : side_same d d :=
  ⟨rfl, rfl, rfl, rfl, rfl, rfl⟩

theorem side_same_step (dr d d1 : decoder_t) (nodes nodes1 : List Int)
    (path path1 : Int → List Int) (hs : tree_step d d1 nodes nodes1 path path1)
    (h : side_same dr d) : side_same dr d1 := by
  obtain ⟨a1, a2, a3, a4, a5, a6⟩ := h
  have e1 : d1.ngs = d.ngs := by
    have e := congrArg decoder_t.ngs hs.rest
    exact e
  have e2 : d1.finish_wid = d.finish_wid := by
    have e := congrArg decoder_t.finish_wid hs.rest
    exact e
  have e3 : d1.n_root_chan_alloc = d.n_root_chan_alloc := by
    have e := congrArg decoder_t.n_root_chan_alloc hs.rest
    exact e
  have e4 : d1.n_1ph_LMwords = d.n_1ph_LMwords := by
    have e := congrArg decoder_t.n_1ph_LMwords hs.rest
    exact e
  have e5 : d1.single_phone_wid = d.single_phone_wid := by
    have e := congrArg decoder_t.single_phone_wid hs.rest
    exact e
  have e6 : d1.n_root_chan = d.n_root_chan := by
    have e := congrArg decoder_t.n_root_chan hs.rest
    exact e
  refine ⟨by rw [e1, a1], by rw [e2, a2], by rw [e3, a3], by rw [e4, a4], by rw [e5, a5], ?_⟩
  rw [← a6]
  exact root_list_congr d d1 e6 (fun i _ _ => (hs.roots i).1)

/-- One level of the descent for a word keeps the state of the descent. -/
theorem desc_inv_step (env : env_t) (fuel : Nat) (dr : decoder_t) (ps0 : List (List Int))
    (de : dict_entry_t) (w j : Nat) (s : decoder_t × Int)
    (hd : desc_inv env dr ps0 de w j s) (hf : ps0.length + j < fuel) :
    ∃ s1, find_or_add_child fuel s.1 (parent_t.node s.2) (de.phone_ids ((j : Int) + 1))
        (de.ci_phone_ids ((j : Int) + 1)) = Except.ok s1 ∧
      desc_inv env dr ps0 de w (j + 1) s1 := by
  obtain ⟨nodes, path, hi, hh, hm, hp, hsp, hss⟩ := hd
  have hlen : nodes.length < fuel := by
    have e := congrArg List.length hsp
    rw [List.length_map] at e
    have := spec_word_nodes_length ps0 de j
    omega
  obtain ⟨d1, a, nodes1, path1, hr, hi1, hst, ha, hpa, hsp1, _⟩ :=
    find_or_add_child_ok fuel s.1 nodes path (parent_t.node s.2) _
      (de.ci_phone_ids ((j : Int) + 1)) hi hm hlen
  refine ⟨(d1, a), hr, nodes1, path1, hi1, hom_inv_step env _ _ _ _ _ _ w hst hh, ha, ?_, ?_,
    side_same_step dr _ _ _ _ _ _ hst hss⟩
  · rw [hpa]
    show path s.2 ++ [de.phone_ids ((j : Int) + 1)] = word_path de (j + 1 + 1)
    rw [hp, word_path_succ de (j + 1)]
    rfl
  · rw [hsp1, hsp]
    show spec_add (spec_word_nodes ps0 de j) (path s.2 ++ [de.phone_ids ((j : Int) + 1)]) =
      spec_add (spec_word_nodes ps0 de j) (word_path de (j + 2))
    rw [hp, word_path_succ de (j + 1)]
    rfl

/-- The homophone invariant reads the chain array, the chain heads, the first
phones of the roots, the root count and the dictionary only. -/
theorem hom_inv_congr (env : env_t) (d d1 : decoder_t) (nodes : List Int)
    (path : Int → List Int) (w : Nat)
    (hhs : d1.homophone_set = d.homophone_set) (hngs : d1.ngs = d.ngs)
    (hn : d1.n_root_chan = d.n_root_chan)
    (hr : ∀ i, (d1.root_chan i).diphone = (d.root_chan i).diphone ∧
      (d1.root_chan i).penult_phn_wid = (d.root_chan i).penult_phn_wid)
    (hc : ∀ b, (d1.chan b).info = (d.chan b).info)
    (hh : hom_inv env d nodes path w) : hom_inv env d1 nodes path w := by
  have f1 : ∀ p1, (is_parent d1 nodes p1 ↔ is_parent d nodes p1) ∧
      ppath d1 path p1 = ppath d path p1 ∧ penult d1 p1 = penult d p1 := by
    intro p1
    cases p1 with
    | root j =>
      refine ⟨?_, ?_, (hr j).2⟩
      · show (0 ≤ j ∧ j < d1.n_root_chan) ↔ (0 ≤ j ∧ j < d.n_root_chan)
        rw [hn]
      · show [(d1.root_chan j).diphone] = [(d.root_chan j).diphone]
        rw [(hr j).1]
    | node b => exact ⟨Iff.rfl, rfl, hc b⟩
  exact
    { chains := by
        intro p1 hp1
        rw [hhs, hngs, (f1 p1).2.1, (f1 p1).2.2]
        exact hh.chains p1 ((f1 p1).1.mp hp1)
      has_parent := by
        intro v hv hin
        rw [hngs] at hin ⊢
        obtain ⟨p1, hp1, e1⟩ := hh.has_parent v hv hin
        exact ⟨p1, (f1 p1).1.mpr hp1, by rw [(f1 p1).2.1]; exact e1⟩
      tail := by
        rw [hhs, hngs]
        exact hh.tail }

theorem find_or_add_root_side (d : decoder_t) (de : dict_entry_t) :
    (find_or_add_root d de).1.ngs = d.ngs ∧
    (find_or_add_root d de).1.finish_wid = d.finish_wid ∧
    (find_or_add_root d de).1.n_root_chan_alloc = d.n_root_chan_alloc ∧
    (find_or_add_root d de).1.n_1ph_LMwords = d.n_1ph_LMwords ∧
    (find_or_add_root d de).1.single_phone_wid = d.single_phone_wid := by
  unfold find_or_add_root
  dsimp only
  split
  · exact ⟨rfl, rfl, rfl, rfl, rfl⟩
  · exact ⟨rfl, rfl, rfl, rfl, rfl⟩

/-- The end of the insertion of word `w`: the word is put on the chain of the
parent reached, which has the phones of the word without the last as path. -/
theorem cst_finish_word (env : env_t) (fuel : Nat) (d0 d s : decoder_t) (nodes0 nodes : List Int)
    (path0 path : Int → List Int) (w : Nat) (p : parent_t)
    (hc : cst_inv env d0 d nodes0 path0 w)
    (hi : tree_inv s nodes path) (hh : hom_inv env s nodes path w)
    (hp : is_parent s nodes p) (hpp : ppath s path p = penult_path d0.ngs.dict w)
    (hin : in_tree env d0.ngs.dict w = true) (hw : (w : Int) < d0.ngs.dict.n_main_words)
    (hf : w ≤ fuel)
    (hsp : nodes.map path = spec_nodes env d0.ngs.dict (w + 1))
    (hngs : s.ngs = d.ngs) (hfin : s.finish_wid = d.finish_wid)
    (hal : s.n_root_chan_alloc = d.n_root_chan_alloc)
    (hlm : s.n_1ph_LMwords = d.n_1ph_LMwords)
    (hsw : s.single_phone_wid = d.single_phone_wid)
    (hrl : root_list s = spec_roots env d0.ngs.dict (w + 1)) :
    ∃ d1, add_homophone fuel s p w = Except.ok d1 ∧ cst_inv env d0 d1 nodes path (w + 1) := by
  have hn0 : s.ngs = d0.ngs := by rw [hngs, hc.ngs]
  obtain ⟨d1, hr, hi1, hh1, hrest, hroots, _⟩ :=
    add_homophone_ok env fuel s nodes path w p hi hh hp (by rw [hn0]; exact hpp)
      (by rw [hn0]; exact hin) (by rw [hn0]; exact hw) hf
  have e1 : d1.ngs = s.ngs := by
    have e := congrArg decoder_t.ngs hrest
    exact e
  have e2 : d1.finish_wid = s.finish_wid := by
    have e := congrArg decoder_t.finish_wid hrest
    exact e
  have e3 : d1.n_root_chan_alloc = s.n_root_chan_alloc := by
    have e := congrArg decoder_t.n_root_chan_alloc hrest
    exact e
  have e4 : d1.n_1ph_LMwords = s.n_1ph_LMwords := by
    have e := congrArg decoder_t.n_1ph_LMwords hrest
    exact e
  have e5 : d1.single_phone_wid = s.single_phone_wid := by
    have e := congrArg decoder_t.single_phone_wid hrest
    exact e
  have e6 : d1.n_root_chan = s.n_root_chan := by
    have e := congrArg decoder_t.n_root_chan hrest
    exact e
  refine ⟨d1, hr, ?_⟩
  exact
    { tree := hi1
      hom := hh1
      ngs := by rw [e1, hn0]
      fin := by rw [e2, hfin, hc.fin]
      alloc := by rw [e3, hal, hc.alloc]
      spec := hsp
      roots := by
        rw [← hrl]
        exact root_list_congr s d1 e6 (fun i _ _ => (hroots i).1)
      lmw := by
        rw [e4, hlm]
        refine ⟨hc.lmw.1, ?_⟩
        have e7 : single_phone_list d1 d.n_1ph_LMwords = single_phone_list d d.n_1ph_LMwords :=
          single_phone_list_congr d d1 _ (fun i _ _ => by rw [e5, hsw])
        rw [e7, hc.lmw.2, lm_1ph_succ, if_neg, List.append_nil]
        intro h
        have h2 : in_tree env d0.ngs.dict w = true := hin
        unfold in_tree at h2
        rw [h.2] at h2
        simp at h2 }

/-- The body of the main loop of `create_search_tree` for word `w`, with
enough fuel, returns and takes the state of the loop from `w` to `w + 1`. -/
theorem cst_word_ok (env : env_t) (fuel : Nat) (d0 d : decoder_t) (nodes : List Int)
    (path : Int → List Int) (w : Nat)
    (hc : cst_inv env d0 d nodes path w) (hdict : dict_ok d0)
    (hw : (w : Int) < d0.ngs.dict.n_main_words)
    (hf : node_bound d0.ngs.dict (w + 1) < fuel) (hfw : w ≤ fuel) :
    ∃ d1 nodes1 path1, cst_word env fuel w d = Except.ok d1 ∧
      cst_inv env d0 d1 nodes1 path1 (w + 1) := by
  obtain ⟨hlen1, hph⟩ := hdict w (by omega) hw
  unfold cst_word
  dsimp only
  rw [hc.ngs]
  by_cases hk : env.known_wid (d0.ngs.dict.dict_list w).wid = false
  · rw [if_pos hk]
    have hin : in_tree env d0.ngs.dict w = false := by
      unfold in_tree
      rw [hk]
      rfl
    refine ⟨d, nodes, path, rfl, ?_⟩
    exact
      { tree := hc.tree
        hom := hom_inv_skip env d nodes path w (by rw [hc.ngs]; exact hin) hc.hom
        ngs := hc.ngs
        fin := hc.fin
        alloc := hc.alloc
        spec := by
          rw [hc.spec]
          simp [spec_nodes, hin]
        roots := by
          rw [hc.roots]
          simp [spec_roots, hin]
        lmw := by
          refine ⟨hc.lmw.1, ?_⟩
          rw [hc.lmw.2, lm_1ph_succ, if_neg, List.append_nil]
          intro h
          rw [hk] at h
          exact absurd h.1 (by simp) }
  · rw [if_neg hk]
    have hk1 : env.known_wid (d0.ngs.dict.dict_list w).wid = true := by
      simpa using hk
    by_cases h1 : (d0.ngs.dict.dict_list w).len = 1
    · rw [if_pos h1]
      have hin : in_tree env d0.ngs.dict w = false := by
        unfold in_tree
        rw [hk1, h1]
        rfl
      refine ⟨push_1ph_LMword d w, nodes, path, rfl, ?_⟩
      exact
        { tree := tree_inv_congr d _ nodes path (fun b => ⟨rfl, rfl, rfl⟩)
            (fun i => ⟨rfl, rfl, fun _ => rfl⟩) rfl rfl rfl rfl hc.tree
          hom := hom_inv_congr env d _ nodes path (w + 1) rfl rfl rfl (fun i => ⟨rfl, rfl⟩)
            (fun b => rfl) (hom_inv_skip env d nodes path w (by rw [hc.ngs]; exact hin) hc.hom)
          ngs := hc.ngs
          fin := hc.fin
          alloc := hc.alloc
          spec := by
            rw [hc.spec]
            simp [spec_nodes, hin]
          roots := by
            have e : root_list (push_1ph_LMword d w) = root_list d :=
              root_list_congr d _ rfl (fun i _ _ => rfl)
            rw [e, hc.roots]
            simp [spec_roots, hin]
          lmw := by
            have hn := hc.lmw.1
            refine ⟨?_, ?_⟩
            · show 0 ≤ d.n_1ph_LMwords + 1
              omega
            · show single_phone_list (push_1ph_LMword d w) (d.n_1ph_LMwords + 1) = _
              rw [single_phone_list_succ _ _ hn, lm_1ph_succ, if_pos ⟨hk1, h1⟩]
              congr 1
              · rw [← hc.lmw.2]
                apply single_phone_list_congr
                intro i _ hi1
                show store d.single_phone_wid d.n_1ph_LMwords _ i = _
                rw [store_ne _ _ _ _ (by omega)]
              · show [store d.single_phone_wid d.n_1ph_LMwords (w : Int) d.n_1ph_LMwords] = _
                rw [store_same] }
    · rw [if_neg h1]
      have hin : in_tree env d0.ngs.dict w = true := by
        unfold in_tree
        rw [hk1]
        simp [h1]
      obtain ⟨hp0, hp1⟩ := hph h1
      rw [← hc.alloc] at hp1
      obtain ⟨hir, hpr, hppr⟩ :=
        find_or_add_root_ok d nodes path (d0.ngs.dict.dict_list w) hc.tree hp0 hp1
      have hhr := hom_inv_find_or_add_root env d nodes path w (d0.ngs.dict.dict_list w)
        hc.tree hc.hom hp0 hp1
      obtain ⟨r1, r2, r3, r4, r5⟩ := find_or_add_root_side d (d0.ngs.dict.dict_list w)
      have hrl : root_list (find_or_add_root d (d0.ngs.dict.dict_list w)).1
          = spec_roots env d0.ngs.dict (w + 1) := by
        rw [root_list_find_or_add_root d nodes path _ hc.tree hp0 hp1, hc.roots]
        simp [spec_roots, hin]
      have hps0 : (nodes.map path).length ≤ node_bound d0.ngs.dict w := by
        rw [hc.spec]
        exact spec_nodes_length _ _ _
      have hnb : node_bound d0.ngs.dict (w + 1)
          = node_bound d0.ngs.dict w + ((d0.ngs.dict.dict_list w).len - 2).toNat := rfl
      by_cases h2 : (d0.ngs.dict.dict_list w).len = 2
      · rw [if_pos h2]
        obtain ⟨d1, hr, hinv⟩ := cst_finish_word env fuel d0 d _ nodes nodes path path w _ hc
          hir hhr hpr
          (by
            rw [hppr]
            unfold penult_path
            rw [h2]
            rfl)
          hin hw hfw
          (by
            rw [hc.spec]
            simp [spec_nodes, hin, h2, spec_word_nodes])
          r1 r2 r3 r4 r5 hrl
        exact ⟨d1, nodes, path, hr, hinv⟩
      · rw [if_neg h2]
        have hl3 : 3 ≤ (d0.ngs.dict.dict_list w).len := by omega
        have hlenf : nodes.length < fuel := by
          rw [List.length_map] at hps0
          omega
        obtain ⟨d1, a, nodes1, path1, hr1, hi1, hst1, ha1, hpa1, hsp1, _⟩ :=
          find_or_add_child_ok fuel _ nodes path
            (parent_t.root (find_or_add_root d (d0.ngs.dict.dict_list w)).2)
            ((d0.ngs.dict.dict_list w).phone_ids 1) ((d0.ngs.dict.dict_list w).ci_phone_ids 1)
            hir hpr hlenf
        rw [hr1]
        dsimp only
        have hP0 : desc_inv env (find_or_add_root d (d0.ngs.dict.dict_list w)).1
            (nodes.map path) (d0.ngs.dict.dict_list w) w ((2 : Int) - 1).toNat (d1, a) := by
          refine ⟨nodes1, path1, hi1, hom_inv_step env _ _ _ _ _ _ w hst1 hhr, ha1, ?_, ?_,
            side_same_step _ _ _ _ _ _ _ hst1 (side_same_refl _)⟩
          · rw [hpa1, hppr]
            rfl
          · rw [hsp1, hppr]
            rfl
        obtain ⟨s2, hrun, hP⟩ := for_up_total_ind
          (fun i s => desc_inv env (find_or_add_root d (d0.ngs.dict.dict_list w)).1
            (nodes.map path) (d0.ngs.dict.dict_list w) w (i - 1).toNat s)
          (fun p (s : decoder_t × Int) =>
            find_or_add_child fuel s.1 (parent_t.node s.2)
              ((d0.ngs.dict.dict_list w).phone_ids p) ((d0.ngs.dict.dict_list w).ci_phone_ids p))
          ((d0.ngs.dict.dict_list w).len - 1 - 2).toNat 2 (d1, a)
          (by
            intro i s hi0 hi1 hs
            have hfj : (nodes.map path).length + (i - 1).toNat < fuel := by omega
            obtain ⟨s1, hs1, hd1⟩ := desc_inv_step env fuel _ _ _ w _ s hs hfj
            have e : (((i - 1).toNat : Nat) : Int) + 1 = i := by omega
            rw [e] at hs1
            have e2 : (i + 1 - 1).toNat = (i - 1).toNat + 1 := by omega
            refine ⟨s1, hs1, ?_⟩
            show desc_inv _ _ _ _ _ (i + 1 - 1).toNat s1
            rw [e2]
            exact hd1)
          hP0
        rw [hrun]
        dsimp only
        have e3 : ((2 : Int) + (((d0.ngs.dict.dict_list w).len - 1 - 2).toNat : Int) - 1).toNat
            = ((d0.ngs.dict.dict_list w).len - 2).toNat := by omega
        have hP2 : desc_inv env (find_or_add_root d (d0.ngs.dict.dict_list w)).1
            (nodes.map path) (d0.ngs.dict.dict_list w) w
            ((d0.ngs.dict.dict_list w).len - 2).toNat s2 := by
          rw [← e3]
          exact hP
        obtain ⟨nodes2, path2, hi2, hh2, hm2, hp2, hsp2, q1, q2, q3, q4, q5, q6⟩ := hP2
        obtain ⟨d3, hr3, hinv3⟩ := cst_finish_word env fuel d0 d s2.1 nodes nodes2 path path2 w
          (parent_t.node s2.2) hc hi2 hh2 hm2
          (by
            show path2 s2.2 = penult_path d0.ngs.dict w
            rw [hp2]
            unfold penult_path
            have e4 : ((d0.ngs.dict.dict_list w).len - 2).toNat + 1
                = ((d0.ngs.dict.dict_list w).len - 1).toNat := by omega
            rw [e4])
          hin hw hfw
          (by
            rw [hsp2, hc.spec]
            simp [spec_nodes, hin])
          (by rw [q1, r1]) (by rw [q2, r2]) (by rw [q3, r3]) (by rw [q4, r4])
          (by rw [q5, r5]) (by rw [q6, hrl])
        exact ⟨d3, nodes2, path2, hr3, hinv3⟩

/-- Filling the first `n` slots of an array with `c`. -/
theorem fill_const (c : Int) (n : Nat) (a : Int → Int) (w : Int) :
    iter_up (fun i (a : Int → Int) => store a i c) n 0 a w
      = if 0 ≤ w ∧ w < n then c else a w := by
  have h := iter_up_ind
    (fun i (b : Int → Int) => ∀ w, b w = if 0 ≤ w ∧ w < i then c else a w)
    (fun i (a : Int → Int) => store a i c) n 0 a
    (by
      intro i b hi0 _ hb v
      dsimp only
      by_cases hv : v = i
      · subst hv
        rw [store_same, if_pos ⟨hi0, by omega⟩]
      · rw [store_ne _ _ _ _ hv, hb v]
        by_cases hc : 0 ≤ v ∧ v < i
        · rw [if_pos hc, if_pos ⟨hc.1, by omega⟩]
        · rw [if_neg hc, if_neg (by omega)])
    (by
      intro v
      rw [if_neg (by omega)])
  have h2 := h w
  simp only [zero_add] at h2
  exact h2

theorem tree_same_refl (d : decoder_t) : tree_same d d :=
  ⟨rfl, rfl, rfl, rfl, rfl, rfl, rfl, rfl, rfl⟩

theorem tree_inv_same (d d1 : decoder_t) (nodes : List Int) (path : Int → List Int)
    (hs : tree_same d d1) (hi : tree_inv d nodes path) : tree_inv d1 nodes path := by
  obtain ⟨a1, a2, a3, a4, a5, a6, _, _, _⟩ := hs
  apply tree_inv_congr d d1 nodes path _ _ a3 a4 a5 a6 hi
  · intro b
    rw [a1]
    exact ⟨rfl, rfl, rfl⟩
  · intro i
    rw [a2]
    exact ⟨rfl, rfl, fun _ => rfl⟩

theorem hom_inv_same (env : env_t) (d d1 : decoder_t) (nodes : List Int)
    (path : Int → List Int) (w : Nat) (hs : tree_same d d1)
    (hh : hom_inv env d nodes path w) : hom_inv env d1 nodes path w := by
  obtain ⟨a1, a2, _, a4, _, _, a7, a8, _⟩ := hs
  apply hom_inv_congr env d d1 nodes path w a7 a8 a4 _ _ hh
  · intro i
    rw [a2]
    exact ⟨rfl, rfl⟩
  · intro b
    rw [a1]

theorem root_list_same (d d1 : decoder_t) (hs : tree_same d d1) :
    root_list d1 = root_list d := by
  obtain ⟨_, a2, _, a4, _, _, _, _, _⟩ := hs
  apply root_list_congr d d1 a4
  intro i _ _
  rw [a2]

/-- The state of the main loop of `create_search_tree` at its start. -/
theorem cst_inv_reset (env : env_t) (d : decoder_t) (hr : tree_ready d) :
    cst_inv env d (cst_reset d) [] (fun _ => []) 0 := by
  obtain ⟨hheap, _, hpool⟩ := hr
  have hmap : ∀ p0, 0 ≤ p0 → p0 < d.n_root_chan_alloc →
      (cst_reset d).first_phone_rchan_map p0 = -1 := by
    intro p0 h0 h1
    show iter_up (fun i (a : Int → Int) => store a i (-1)) d.n_root_chan_alloc.toNat 0
      d.first_phone_rchan_map p0 = -1
    rw [fill_const, if_pos]
    omega
  have hhs : ∀ v, 0 ≤ v → v < d.ngs.dict.n_main_words →
      (cst_reset d).homophone_set v = -1 := by
    intro v h0 h1
    show iter_up (fun i (a : Int → Int) => store a i (-1)) d.ngs.dict.n_main_words.toNat 0
      d.homophone_set v = -1
    rw [fill_const, if_pos]
    omega
  have hnp : ∀ p1, ¬ is_parent (cst_reset d) [] p1 := by
    intro p1 h
    cases p1 with
    | root i =>
      have h2 : 0 ≤ i ∧ i < (0 : Int) := h
      omega
    | node b => exact absurd h (List.not_mem_nil _)
  exact
    { tree :=
        { heap := hheap
          mem := fun a ha => absurd ha (List.not_mem_nil _)
          nodup := List.nodup_nil
          ssid := fun a ha => absurd ha (List.not_mem_nil _)
          len := fun a ha => absurd ha (List.not_mem_nil _)
          inj := fun a ha => absurd ha (List.not_mem_nil _)
          par := fun a ha => absurd ha (List.not_mem_nil _)
          chain := fun p1 h => absurd h (hnp p1)
          n_root := le_refl _
          roots_inj := by
            intro i j hi0 hi1
            have h2 : i < (0 : Int) := hi1
            omega
          root_range := by
            intro i hi0 hi1
            have h2 : i < (0 : Int) := hi1
            omega
          map_root := by
            intro i hi0 hi1
            have h2 : i < (0 : Int) := hi1
            omega
          map_ok := by
            intro p0 h0 h1 h2
            have h3 := hmap p0 h0 h1
            omega
          map_unset := fun p0 h0 h1 _ => hmap p0 h0 h1
          pool := by
            intro i hi0 hi1
            exact hpool i hi0 hi1
          up_next := fun a ha => absurd ha (List.not_mem_nil _)
          up_alt := fun a ha => absurd ha (List.not_mem_nil _)
          root_next := by
            intro i hi0 hi1
            have h2 : i < (0 : Int) := hi1
            omega }
      hom :=
        { chains := fun p1 h => absurd h (hnp p1)
          has_parent := by
            intro v hv
            have := (mem_word_range _ _).mp hv
            omega
          tail := by
            intro v h0 h1
            exact hhs v (by omega) h1 }
      ngs := rfl
      fin := rfl
      alloc := rfl
      spec := rfl
      roots := rfl
      lmw := ⟨le_refl _, rfl⟩ }

/-- The main loop of `create_search_tree` with enough fuel returns in the
state described by `cst_inv` for all the main-vocabulary words. -/
theorem cst_loop_ok (env : env_t) (fuel : Nat) (d : decoder_t) (hr : tree_ready d)
    (hf : node_bound d.ngs.dict d.ngs.dict.n_main_words.toNat < fuel)
    (hfw : d.ngs.dict.n_main_words.toNat ≤ fuel) :
    ∃ d1 nodes path,
      for_up (cst_word env fuel) d.ngs.dict.n_main_words.toNat 0 (cst_reset d) = Except.ok d1 ∧
      cst_inv env d d1 nodes path d.ngs.dict.n_main_words.toNat := by
  obtain ⟨d1, hrun, nodes, path, hinv⟩ := for_up_total_ind
    (fun i s => ∃ nodes path, cst_inv env d s nodes path i.toNat)
    (cst_word env fuel) d.ngs.dict.n_main_words.toNat 0 (cst_reset d)
    (by
      intro i s hi0 hi1 hs
      obtain ⟨nodes, path, hc⟩ := hs
      have hw : ((i.toNat : Nat) : Int) < d.ngs.dict.n_main_words := by omega
      have hb := node_bound_mono d.ngs.dict (i.toNat + 1) d.ngs.dict.n_main_words.toNat
        (by omega)
      obtain ⟨s1, nodes1, path1, hr1, hc1⟩ :=
        cst_word_ok env fuel d s nodes path i.toNat hc hr.2.1 hw (by omega) (by omega)
      have e : ((i.toNat : Nat) : Int) = i := by omega
      rw [e] at hr1
      have e2 : (i + 1).toNat = i.toNat + 1 := by omega
      refine ⟨s1, hr1, nodes1, path1, ?_⟩
      rw [e2]
      exact hc1)
    ⟨[], fun _ => [], cst_inv_reset env d hr⟩
  refine ⟨d1, nodes, path, hrun, ?_⟩
  have e : ((0 : Int) + (d.ngs.dict.n_main_words.toNat : Int)).toNat
      = d.ngs.dict.n_main_words.toNat := by omega
  rw [e] at hinv
  exact hinv

theorem post_1ph_succ (env : env_t) (d : decoder_t) (k : Nat) :
    post_1ph env d (k + 1)
      = post_1ph env d k ++
        (if lnot (d.finish_wid + k) ≥ d.ngs.silence_wid ∧
            env.known_wid (d.ngs.dict.dict_list (d.finish_wid + k)).wid = false
          then [] else [d.finish_wid + (k : Int)]) := by
  unfold post_1ph
  rw [List.range_succ, List.map_append, List.filter_append]
  congr 1
  by_cases h : lnot (d.finish_wid + k) ≥ d.ngs.silence_wid ∧
      env.known_wid (d.ngs.dict.dict_list (d.finish_wid + k)).wid = false
  · rw [if_pos h]
    simp only [List.map_cons, List.map_nil, List.filter_cons, List.filter_nil]
    have e : Int.ofNat k = (k : Int) := rfl
    rw [e]
    simp [h.1, h.2]
  · rw [if_neg h]
    simp only [List.map_cons, List.map_nil, List.filter_cons, List.filter_nil]
    have e : Int.ofNat k = (k : Int) := rfl
    rw [e]
    rw [not_and] at h
    by_cases h1 : lnot (d.finish_wid + k) ≥ d.ngs.silence_wid
    · have h2 := h h1
      simp [h1, h2]
    · simp [h1]

/-- The end of the enumeration of the single-phone words: the list of the
main loop is followed by the words from `finish_wid` on that pass the test of
the last loop; the tree is left alone. -/
theorem cst_post_ok (env : env_t) (d1 : decoder_t) (hn : 0 ≤ d1.n_1ph_LMwords) :
    tree_same d1 (cst_post env d1) ∧
    (cst_post env d1).n_1ph_LMwords = d1.n_1ph_LMwords + 1 ∧
    0 ≤ (cst_post env d1).n_1ph_words ∧
    single_phone_list (cst_post env d1) (cst_post env d1).n_1ph_words
      = single_phone_list d1 d1.n_1ph_LMwords ++
        post_1ph env d1 (d1.ngs.dict.dict_entry_count - d1.finish_wid).toNat := by
  unfold cst_post
  dsimp only
  have h := iter_up_ind
    (fun i (s : decoder_t) => tree_same d1 s ∧ s.n_1ph_LMwords = d1.n_1ph_LMwords + 1 ∧
      0 ≤ s.n_1ph_words ∧
      single_phone_list s s.n_1ph_words
        = single_phone_list d1 d1.n_1ph_LMwords ++ post_1ph env d1 (i - d1.finish_wid).toNat)
    (cst_post_word env) (d1.ngs.dict.dict_entry_count - d1.finish_wid).toNat d1.finish_wid
    { d1 with n_1ph_words := d1.n_1ph_LMwords, n_1ph_LMwords := d1.n_1ph_LMwords + 1 }
    (by
      intro i s hi0 hi1 hs
      obtain ⟨hs1, hs2, hs3, hs4⟩ := hs
      have hngs : s.ngs = d1.ngs := hs1.2.2.2.2.2.2.2.1
      have ek : (i + 1 - d1.finish_wid).toNat = (i - d1.finish_wid).toNat + 1 := by omega
      have ei : d1.finish_wid + (((i - d1.finish_wid).toNat : Nat) : Int) = i := by omega
      unfold cst_post_word
      rw [hngs, ek, post_1ph_succ, ei]
      by_cases hc : lnot i ≥ d1.ngs.silence_wid ∧
          env.known_wid (d1.ngs.dict.dict_list i).wid = false
      · rw [if_pos hc, if_pos hc, List.append_nil]
        exact ⟨hs1, hs2, hs3, hs4⟩
      · rw [if_neg hc, if_neg hc]
        refine ⟨hs1, hs2, ?_, ?_⟩
        · show 0 ≤ s.n_1ph_words + 1
          omega
        · show single_phone_list (push_1ph_word s i) (s.n_1ph_words + 1) = _
          rw [single_phone_list_succ _ _ hs3, ← List.append_assoc, ← hs4]
          congr 1
          · apply single_phone_list_congr
            intro j _ hj1
            show store s.single_phone_wid s.n_1ph_words _ j = _
            rw [store_ne _ _ _ _ (by omega)]
          · show [store s.single_phone_wid s.n_1ph_words i s.n_1ph_words] = _
            rw [store_same])
    (by
      refine ⟨tree_same_refl d1, rfl, hn, ?_⟩
      have e : (d1.finish_wid - d1.finish_wid).toNat = 0 := by omega
      rw [e]
      show single_phone_list _ d1.n_1ph_LMwords = _ ++ []
      rw [List.append_nil]
      exact single_phone_list_congr d1 _ _ (fun _ _ _ => rfl))
  obtain ⟨h1, h2, h3, h4⟩ := h
  have e : (d1.finish_wid + ((d1.ngs.dict.dict_entry_count - d1.finish_wid).toNat : Int)
      - d1.finish_wid).toNat = (d1.ngs.dict.dict_entry_count - d1.finish_wid).toNat := by omega
  rw [e] at h4
  exact ⟨h1, h2, h3, h4⟩

theorem cst_resize_ok (d : decoder_t) :
    tree_same d (cst_resize d) ∧ (cst_resize d).n_1ph_LMwords = d.n_1ph_LMwords ∧
    (cst_resize d).n_1ph_words = d.n_1ph_words ∧
    (cst_resize d).single_phone_wid = d.single_phone_wid := by
  unfold cst_resize
  split
  · exact ⟨⟨rfl, rfl, rfl, rfl, rfl, rfl, rfl, rfl, rfl⟩, rfl, rfl, rfl⟩
  · exact ⟨⟨rfl, rfl, rfl, rfl, rfl, rfl, rfl, rfl, rfl⟩, rfl, rfl, rfl⟩

theorem tree_same_trans (d d1 d2 : decoder_t) (h1 : tree_same d d1) (h2 : tree_same d1 d2) :
    tree_same d d2 := by
  obtain ⟨a1, a2, a3, a4, a5, a6, a7, a8, a9⟩ := h1
  obtain ⟨b1, b2, b3, b4, b5, b6, b7, b8, b9⟩ := h2
  exact ⟨by rw [b1, a1], by rw [b2, a2], by rw [b3, a3], by rw [b4, a4], by rw [b5, a5],
    by rw [b6, a6], by rw [b7, a7], by rw [b8, a8], by rw [b9, a9]⟩

theorem post_1ph_congr (env : env_t) (d d1 : decoder_t) (k : Nat) (h1 : d1.ngs = d.ngs)
    (h2 : d1.finish_wid = d.finish_wid) : post_1ph env d1 k = post_1ph env d k := by
  unfold post_1ph
  rw [h1, h2]

theorem single_phone_list_length (d : decoder_t) (n : Int) :
    (single_phone_list d n).length = n.toNat := by
  unfold single_phone_list
  rw [List.length_map, List.length_range]

/-- From a state left by `init_search_tree` or `reinit_search_tree`, with
enough fuel, `create_search_tree` returns: the tree is well formed, its nodes
and roots are those the words in the tree need, in the order of first need,
the homophone chains hold those words, and `single_phone_wid` lists the
single-phone words of the main vocabulary that the language model knows,
then the words from `finish_wid` on that pass the test of the last loop. -/
theorem create_search_tree_ok (env : env_t) (fuel : Nat) (d : decoder_t) (hr : tree_ready d)
    (hf : node_bound d.ngs.dict d.ngs.dict.n_main_words.toNat < fuel)
    (hfw : d.ngs.dict.n_main_words.toNat ≤ fuel) :
    ∃ d1 nodes path, create_search_tree env fuel d = Except.ok d1 ∧
      tree_inv d1 nodes path ∧
      hom_inv env d1 nodes path d.ngs.dict.n_main_words.toNat ∧
      nodes.map path = spec_nodes env d.ngs.dict d.ngs.dict.n_main_words.toNat ∧
      root_list d1 = spec_roots env d.ngs.dict d.ngs.dict.n_main_words.toNat ∧
      d1.ngs = d.ngs ∧ d1.finish_wid = d.finish_wid ∧
      d1.n_root_chan_alloc = d.n_root_chan_alloc ∧
      d1.n_1ph_LMwords = (lm_1ph env d.ngs.dict d.ngs.dict.n_main_words.toNat).length + 1 ∧
      0 ≤ d1.n_1ph_words ∧
      single_phone_list d1 d1.n_1ph_words
        = lm_1ph env d.ngs.dict d.ngs.dict.n_main_words.toNat ++
          post_1ph env d (d.ngs.dict.dict_entry_count - d.finish_wid).toNat := by
  obtain ⟨d1, nodes, path, hrun, hc⟩ := cst_loop_ok env fuel d hr hf hfw
  unfold create_search_tree
  rw [hrun]
  dsimp only
  obtain ⟨p1, p2, p3, p4⟩ := cst_post_ok env d1 hc.lmw.1
  obtain ⟨q1, q2, q3, q4⟩ := cst_resize_ok (cst_post env d1)
  have hs := tree_same_trans _ _ _ p1 q1
  have hlen : d1.n_1ph_LMwords
      = (lm_1ph env d.ngs.dict d.ngs.dict.n_main_words.toNat).length := by
    have e := congrArg List.length hc.lmw.2
    rw [single_phone_list_length] at e
    have := hc.lmw.1
    omega
  refine ⟨_, nodes, path, rfl, tree_inv_same _ _ _ _ hs hc.tree,
    hom_inv_same env _ _ _ _ _ hs hc.hom, hc.spec, ?_, ?_, ?_, ?_, ?_, ?_, ?_⟩
  · rw [root_list_same _ _ hs]
    exact hc.roots
  · rw [hs.2.2.2.2.2.2.2.1]
    exact hc.ngs
  · rw [hs.2.2.2.2.2.2.2.2]
    exact hc.fin
  · rw [hs.2.2.2.2.1]
    exact hc.alloc
  · rw [q2, p2, hlen]
  · rw [q3]
    exact p3
  · rw [q3]
    have e : single_phone_list (cst_resize (cst_post env d1)) (cst_post env d1).n_1ph_words
        = single_phone_list (cst_post env d1) (cst_post env d1).n_1ph_words :=
      single_phone_list_congr _ _ _ (fun _ _ _ => by rw [q4])
    rw [e, p4, hc.lmw.2, hc.ngs, hc.fin, post_1ph_congr env d d1 _ hc.ngs hc.fin]

/-! ### The tree after `create_search_tree` -/

/-- A root in use or a node reached from one is a parent of the tree. -/
theorem tree_parent_is_parent (d : decoder_t) (nodes : List Int) (path : Int → List Int)
    (hi : tree_inv d nodes path) (p : parent_t) (h : tree_parent d p) :
    is_parent d nodes p := by
  induction h with
  | root i h0 h1 => exact ⟨h0, h1⟩
  | node q l a _ hl ha ih =>
    have e := sib_list_unique d.chan _ _ _ hl (hi.chain q ih)
    rw [e] at ha
    exact ((mem_kids_of _ _ _ _).mp ha).1

/-- The children of a parent have pairwise distinct ssids. -/
theorem kids_ssid_nodup (d : decoder_t) (nodes : List Int) (path : Int → List Int)
    (hi : tree_inv d nodes path) (q : List Int) :
    ((kids_of nodes path q).map (fun a => (d.chan a).hmm.ssid)).Nodup := by
  apply List.Nodup.map_on _ (kids_of_nodup _ _ _ hi.nodup)
  intro a ha b hb e
  obtain ⟨ha1, ha2⟩ := (mem_kids_of _ _ _ _).mp ha
  obtain ⟨hb1, hb2⟩ := (mem_kids_of _ _ _ _).mp hb
  apply hi.inj a ha1 b hb1
  rw [hi.ssid a ha1, hi.ssid b hb1, ha2, hb2]
  simp only at e
  rw [e]

/-- A returning `create_search_tree` returns `tree_out`. -/
theorem tree_out_eq (env : env_t) (fuel : Nat) (d : decoder_t)
    (h : tree_returns env fuel d = true) :
    create_search_tree env fuel d = Except.ok (tree_out env fuel d) := by
  unfold tree_returns at h
  unfold tree_out
  split at h
  · rename_i x hx
    rw [hx]
  · simp at h

theorem ex_tree_ready : tree_ready ex_tree_dec := by
  refine ⟨by decide, ?_, ?_⟩
  · intro w h0 h1
    have h2 : w < 7 := h1
    interval_cases w <;> simp [ex_tree_dec, ex_tree_dict, ex_entry]
  · intro i _ _
    exact ⟨rfl, rfl⟩

/-- C12: from a state left by `init_search_tree` or `reinit_search_tree`, with
enough fuel, `create_search_tree` returns, and for every root in use and every
tree node reached from one, the children found along `next` and then `alt`
form a finite chain with pairwise distinct ssids. -/
theorem create_search_tree_siblings (env : env_t) (fuel : Nat) (d : decoder_t)
    (hr : tree_ready d)
    (hf : node_bound d.ngs.dict d.ngs.dict.n_main_words.toNat < fuel)
    (hfw : d.ngs.dict.n_main_words.toNat ≤ fuel) :
    ∃ d1, create_search_tree env fuel d = Except.ok d1 ∧
      ∀ p, tree_parent d1 p →
        ∃ l, sib_list d1.chan (kids d1 p) l ∧
          (l.map (fun a => (d1.chan a).hmm.ssid)).Nodup := by
  obtain ⟨d1, nodes, path, hrun, hi, _⟩ := create_search_tree_ok env fuel d hr hf hfw
  refine ⟨d1, hrun, ?_⟩
  intro p hp
  have hp1 := tree_parent_is_parent d1 nodes path hi p hp
  exact ⟨_, hi.chain p hp1, kids_ssid_nodup d1 nodes path hi _⟩

set_option maxRecDepth 100000 in
/-- The tree of the test dictionary: two roots and three nodes; the children
of root 0 are the cells 1 and 2 with ssids 12 and 15; the chain of the first
child of every root and node has distinct ssids. -/
theorem create_search_tree_siblings_witness :
    tree_ready ex_tree_dec ∧
    create_search_tree ex_tree_env 20 ex_tree_dec
      = Except.ok (tree_out ex_tree_env 20 ex_tree_dec) ∧
    (tree_out ex_tree_env 20 ex_tree_dec).n_root_chan = 2 ∧
    (tree_out ex_tree_env 20 ex_tree_dec).n_nonroot_chan = 3 ∧
    ((tree_out ex_tree_env 20 ex_tree_dec).root_chan 0).next = 1 ∧
    ((tree_out ex_tree_env 20 ex_tree_dec).chan 1).hmm.ssid = 12 ∧
    ((tree_out ex_tree_env 20 ex_tree_dec).chan 1).alt = 2 ∧
    ((tree_out ex_tree_env 20 ex_tree_dec).chan 2).hmm.ssid = 15 ∧
    ((tree_out ex_tree_env 20 ex_tree_dec).chan 2).alt = 0 ∧
    ∃ d1, create_search_tree ex_tree_env 20 ex_tree_dec = Except.ok d1 ∧
      ∀ p, tree_parent d1 p →
        ∃ l, sib_list d1.chan (kids d1 p) l ∧
          (l.map (fun a => (d1.chan a).hmm.ssid)).Nodup :=
  ⟨ex_tree_ready, tree_out_eq ex_tree_env 20 ex_tree_dec (by decide!), by decide!, by decide!,
    by decide!, by decide!, by decide!, by decide!, by decide!,
    create_search_tree_siblings ex_tree_env 20 ex_tree_dec ex_tree_ready (by decide)
      (by decide)⟩

/-! ### The single-phone words after `create_search_tree` -/

theorem lnot_le_one (w : Int) : lnot w ≤ 1 := by
  unfold lnot
  split
  · exact le_refl _
  · omega

/-- With `silence_wid` at least 2 the test of the last loop of
`create_search_tree` never holds: every word from `finish_wid` on is
listed. -/
theorem post_1ph_all (env : env_t) (d : decoder_t) (k : Nat) (hs : 2 ≤ d.ngs.silence_wid) :
    post_1ph env d k = (List.range k).map (fun j : Nat => d.finish_wid + Int.ofNat j) := by
  unfold post_1ph
  apply List.filter_eq_self.mpr
  intro w _
  have h1 := lnot_le_one w
  have h2 : ¬ lnot w ≥ d.ngs.silence_wid := by omega
  simp [h2]

/-- C15: from a state left by `init_search_tree` or `reinit_search_tree`, with
enough fuel and `silence_wid` at least 2, `create_search_tree` returns and
`single_phone_wid[0 .. n_1ph_words)` lists first the single-phone words of the
main vocabulary that the language model knows, in increasing word id, then
every word id from `finish_wid`, the id of `</s>`, to `dict_entry_count - 1`,
each once, whether the language model knows it or not. -/
theorem create_search_tree_single_phone (env : env_t) (fuel : Nat) (d : decoder_t)
    (hr : tree_ready d)
    (hf : node_bound d.ngs.dict d.ngs.dict.n_main_words.toNat < fuel)
    (hfw : d.ngs.dict.n_main_words.toNat ≤ fuel) (hs : 2 ≤ d.ngs.silence_wid) :
    ∃ d1, create_search_tree env fuel d = Except.ok d1 ∧ 0 ≤ d1.n_1ph_words ∧
      single_phone_list d1 d1.n_1ph_words
        = (word_range d.ngs.dict.n_main_words.toNat).filter
            (fun v => env.known_wid (d.ngs.dict.dict_list v).wid &&
              decide ((d.ngs.dict.dict_list v).len = 1)) ++
          (List.range (d.ngs.dict.dict_entry_count - d.finish_wid).toNat).map
            (fun j : Nat => d.finish_wid + Int.ofNat j) := by
  obtain ⟨d1, nodes, path, hrun, _, _, _, _, _, _, _, _, hn, hl⟩ :=
    create_search_tree_ok env fuel d hr hf hfw
  refine ⟨d1, hrun, hn, ?_⟩
  rw [hl, post_1ph_all env d _ hs]
  rfl

set_option maxRecDepth 100000 in
/-- The test dictionary, whose language model knows neither word 6 nor `<s>`
(8), silence (9) and the noise word (10): the list is word 0, then 7, 8, 9
and 10. -/
theorem create_search_tree_single_phone_witness :
    tree_ready ex_tree_dec ∧ (2 : Int) ≤ ex_tree_dec.ngs.silence_wid ∧
    single_phone_list (tree_out ex_tree_env 20 ex_tree_dec)
      (tree_out ex_tree_env 20 ex_tree_dec).n_1ph_words = [0, 7, 8, 9, 10] ∧
    ∃ d1, create_search_tree ex_tree_env 20 ex_tree_dec = Except.ok d1 ∧ 0 ≤ d1.n_1ph_words ∧
      single_phone_list d1 d1.n_1ph_words
        = (word_range ex_tree_dec.ngs.dict.n_main_words.toNat).filter
            (fun v => ex_tree_env.known_wid (ex_tree_dec.ngs.dict.dict_list v).wid &&
              decide ((ex_tree_dec.ngs.dict.dict_list v).len = 1)) ++
          (List.range (ex_tree_dec.ngs.dict.dict_entry_count - ex_tree_dec.finish_wid).toNat).map
            (fun j : Nat => ex_tree_dec.finish_wid + Int.ofNat j) :=
  ⟨ex_tree_ready, by decide, by decide!,
    create_search_tree_single_phone ex_tree_env 20 ex_tree_dec ex_tree_ready (by decide)
      (by decide) (by decide)⟩

set_option maxRecDepth 100000 in
/-- C16, the code at the failing input: in the test dictionary `<s>` (8) is
below `silence_wid` (9) and the language model does not know it, and
`create_search_tree` lists it in `single_phone_wid` all the same. -/
theorem create_search_tree_lists_unknown :
    create_search_tree ex_tree_env 20 ex_tree_dec
      = Except.ok (tree_out ex_tree_env 20 ex_tree_dec) ∧
    ex_tree_dec.finish_wid ≤ 8 ∧ (8 : Int) < ex_tree_dec.ngs.silence_wid ∧
    ex_tree_env.known_wid (ex_tree_dec.ngs.dict.dict_list 8).wid = false ∧
    (tree_out ex_tree_env 20 ex_tree_dec).n_1ph_words = 5 ∧
    (tree_out ex_tree_env 20 ex_tree_dec).single_phone_wid 2 = 8 :=
  ⟨tree_out_eq ex_tree_env 20 ex_tree_dec (by decide!), by decide, by decide, by decide,
    by decide!, by decide!⟩

/-! ### The homophone chains after `create_search_tree` -/

theorem hom_list_unique (hs : Int → Int) (l : List Int) :
    ∀ (j : Int) (l1 : List Int), hom_list hs j l → hom_list hs j l1 → l = l1 := by
  induction l with
  | nil =>
    intro j l1 h h1
    cases l1 with
    | nil => rfl
    | cons b l1 =>
      simp only [hom_list] at h h1
      omega
  | cons b l ih =>
    intro j l1 h h1
    cases l1 with
    | nil =>
      simp only [hom_list] at h h1
      omega
    | cons c l1 =>
      simp only [hom_list] at h h1
      obtain ⟨_, e1, h2⟩ := h
      obtain ⟨_, e2, h3⟩ := h1
      have hbc : b = c := by rw [← e1, ← e2]
      subst hbc
      rw [ih _ _ h2 h3]

/-- A place reached for a word is a root in use or a node reached from
one. -/
theorem reached_tree_parent (d : decoder_t) (de : dict_entry_t) (k : Nat) :
    ∀ p, reached d de k p → tree_parent d p := by
  induction k with
  | zero =>
    intro p h
    obtain ⟨_, _, h0, h1, e⟩ := h
    rw [e]
    exact tree_parent.root _ h0 h1
  | succ k ih =>
    intro p h
    obtain ⟨q, l, a, hq, hl, ha, _, e⟩ := h
    rw [e]
    exact tree_parent.node q l a (ih q hq) hl ha

/-- The parent whose path is the first `k + 1` phones of a word is the place
reached for the word after `k` levels. -/
theorem reached_of_path (d : decoder_t) (nodes : List Int) (path : Int → List Int)
    (hi : tree_inv d nodes path) (de : dict_entry_t) (k : Nat) :
    ∀ p, is_parent d nodes p → ppath d path p = word_path de (k + 1) → reached d de k p := by
  induction k with
  | zero =>
    intro p hp e
    cases p with
    | root i =>
      have e1 : (d.root_chan i).diphone = de.phone_ids 0 := (List.cons.inj e).1
      have hm := hi.map_root i hp.1 hp.2
      have hrg := hi.root_range i hp.1 hp.2
      rw [e1] at hm hrg
      refine ⟨hrg.1, hrg.2, ?_, ?_, ?_⟩
      · rw [hm]
        exact hp.1
      · rw [hm]
        exact hp.2
      · rw [hm]
    | node b =>
      have h2 := hi.len b hp
      have e2 := congrArg List.length e
      change (path b).length = 1 at e2
      omega
  | succ k ih =>
    intro p hp e
    cases p with
    | root i =>
      have e2 := congrArg List.length e
      unfold word_path at e2
      rw [List.length_map, List.length_range] at e2
      change 1 = k + 1 + 1 at e2
      omega
    | node a =>
      have ha : a ∈ nodes := hp
      have e1 : path a = word_path de (k + 1) ++ [de.phone_ids (Int.ofNat k + 1)] := by
        have e0 : path a = word_path de (k + 1 + 1) := e
        rw [e0, word_path_succ de (k + 1)]
        rfl
      obtain ⟨h1, h2⟩ := path_last d nodes path hi a ha _ _ e1
      obtain ⟨q, hq, eq⟩ := hi.par a ha
      rw [h1] at eq
      refine ⟨q, _, a, ih q hq eq.symm, hi.chain q hq, ?_, h2, rfl⟩
      rw [← eq]
      exact (mem_kids_of _ _ _ _).mpr ⟨ha, h1⟩

/-- C13: from a state left by `init_search_tree` or `reinit_search_tree`, with
enough fuel, `create_search_tree` returns, and every main-vocabulary word the
language model knows that has two phones or more occurs once in the homophone
chain headed at the place reached from the root of its first phone along its
phones up to the one before the last, and in no chain of another root or
node; no other word occurs in the chain of a root in use or of a node reached
from one. -/
theorem create_search_tree_homophones (env : env_t) (fuel : Nat) (d : decoder_t)
    (hr : tree_ready d)
    (hf : node_bound d.ngs.dict d.ngs.dict.n_main_words.toNat < fuel)
    (hfw : d.ngs.dict.n_main_words.toNat ≤ fuel) :
    ∃ d1, create_search_tree env fuel d = Except.ok d1 ∧
      (∀ w, 0 ≤ w → w < d.ngs.dict.n_main_words →
        env.known_wid (d.ngs.dict.dict_list w).wid = true →
        2 ≤ (d.ngs.dict.dict_list w).len →
        ∃ p l, reached d1 (d.ngs.dict.dict_list w) ((d.ngs.dict.dict_list w).len - 2).toNat p ∧
          hom_list d1.homophone_set (penult d1 p) l ∧ l.count w = 1 ∧
          ∀ p1 l1, tree_parent d1 p1 → hom_list d1.homophone_set (penult d1 p1) l1 →
            w ∈ l1 → p1 = p) ∧
      (∀ p l v, tree_parent d1 p → hom_list d1.homophone_set (penult d1 p) l → v ∈ l →
        0 ≤ v ∧ v < d.ngs.dict.n_main_words ∧
        env.known_wid (d.ngs.dict.dict_list v).wid = true ∧
        2 ≤ (d.ngs.dict.dict_list v).len) := by
  obtain ⟨d1, nodes, path, hrun, hi, hh, _, _, hngs, _⟩ :=
    create_search_tree_ok env fuel d hr hf hfw
  refine ⟨d1, hrun, ?_, ?_⟩
  · intro w hw0 hw1 hk hl
    have hin : in_tree env d.ngs.dict w = true := by
      unfold in_tree
      rw [hk]
      simp
      omega
    have hwr : w ∈ word_range d.ngs.dict.n_main_words.toNat :=
      (mem_word_range _ _).mpr ⟨hw0, by omega⟩
    obtain ⟨p, hp, hpp⟩ := hh.has_parent w hwr (by rw [hngs]; exact hin)
    rw [hngs] at hpp
    have hch := hh.chains p hp
    rw [hngs] at hch
    have hmem : w ∈ hom_of env d.ngs.dict d.ngs.dict.n_main_words.toNat (ppath d1 path p) :=
      (mem_hom_of _ _ _ _ _).mpr ⟨⟨hw0, by omega⟩, hin, hpp.symm⟩
    refine ⟨p, _, ?_, hch, ?_, ?_⟩
    · apply reached_of_path d1 nodes path hi _ _ p hp
      rw [hpp]
      unfold penult_path
      have e : ((d.ngs.dict.dict_list w).len - 1).toNat
          = ((d.ngs.dict.dict_list w).len - 2).toNat + 1 := by omega
      rw [e]
    · exact List.count_eq_one_of_mem (hom_of_nodup _ _ _ _) hmem
    · intro p1 l1 hp1 hl1 hw1
      have hp2 := tree_parent_is_parent d1 nodes path hi p1 hp1
      have hch1 := hh.chains p1 hp2
      rw [hngs] at hch1
      have e := hom_list_unique _ _ _ _ hl1 hch1
      rw [e] at hw1
      have h3 := ((mem_hom_of _ _ _ _ _).mp hw1).2.2
      exact ppath_inj d1 nodes path hi p1 p hp2 hp (by rw [← h3, hpp])
  · intro p l v hp hl hv
    have hp2 := tree_parent_is_parent d1 nodes path hi p hp
    have hch := hh.chains p hp2
    rw [hngs] at hch
    have e := hom_list_unique _ _ _ _ hl hch
    rw [e] at hv
    obtain ⟨hv1, hv2, _⟩ := (mem_hom_of _ _ _ _ _).mp hv
    have hv3 : v < d.ngs.dict.n_main_words := by omega
    have hlen := (hr.2.1 v hv1.1 hv3).1
    unfold in_tree at hv2
    simp only [Bool.and_eq_true, decide_eq_true_eq] at hv2
    exact ⟨hv1.1, hv3, hv2.1, by omega⟩

set_option maxRecDepth 100000 in
/-- The tree of the test dictionary: the words 2 and 3, which share their
first two phones, are chained at the node for these (cell 1), word 1 heads
the chain of root 0 and word 4 that of cell 3. -/
theorem create_search_tree_homophones_witness :
    tree_ready ex_tree_dec ∧
    create_search_tree ex_tree_env 20 ex_tree_dec
      = Except.ok (tree_out ex_tree_env 20 ex_tree_dec) ∧
    ((tree_out ex_tree_env 20 ex_tree_dec).root_chan 0).penult_phn_wid = 1 ∧
    ((tree_out ex_tree_env 20 ex_tree_dec).chan 1).info = 2 ∧
    (tree_out ex_tree_env 20 ex_tree_dec).homophone_set 2 = 3 ∧
    (tree_out ex_tree_env 20 ex_tree_dec).homophone_set 3 = -1 ∧
    ((tree_out ex_tree_env 20 ex_tree_dec).chan 3).info = 4 ∧
    ∃ d1, create_search_tree ex_tree_env 20 ex_tree_dec = Except.ok d1 ∧
      (∀ w, 0 ≤ w → w < ex_tree_dec.ngs.dict.n_main_words →
        ex_tree_env.known_wid (ex_tree_dec.ngs.dict.dict_list w).wid = true →
        2 ≤ (ex_tree_dec.ngs.dict.dict_list w).len →
        ∃ p l, reached d1 (ex_tree_dec.ngs.dict.dict_list w)
            ((ex_tree_dec.ngs.dict.dict_list w).len - 2).toNat p ∧
          hom_list d1.homophone_set (penult d1 p) l ∧ l.count w = 1 ∧
          ∀ p1 l1, tree_parent d1 p1 → hom_list d1.homophone_set (penult d1 p1) l1 →
            w ∈ l1 → p1 = p) ∧
      (∀ p l v, tree_parent d1 p → hom_list d1.homophone_set (penult d1 p) l → v ∈ l →
        0 ≤ v ∧ v < ex_tree_dec.ngs.dict.n_main_words ∧
        ex_tree_env.known_wid (ex_tree_dec.ngs.dict.dict_list v).wid = true ∧
        2 ≤ (ex_tree_dec.ngs.dict.dict_list v).len) :=
  ⟨ex_tree_ready, tree_out_eq ex_tree_env 20 ex_tree_dec (by decide!), by decide!, by decide!,
    by decide!, by decide!, by decide!,
    create_search_tree_homophones ex_tree_env 20 ex_tree_dec ex_tree_ready (by decide)
      (by decide)⟩

/-! ### The teardown of the tree -/

/-- The walk over a well-formed tree with enough fuel returns and leaves the
state as it is: the links lead to cells of higher address, so the fuel needed
falls along every link. -/
theorem reinit_walk_ok (d : decoder_t) (nodes : List Int)
    (hm : ∀ a ∈ nodes, 0 < a ∧ a ≤ d.heap_top)
    (hn : ∀ a ∈ nodes, (d.chan a).next = 0 ∨ ((d.chan a).next ∈ nodes ∧ a < (d.chan a).next))
    (ha : ∀ a ∈ nodes, (d.chan a).alt = 0 ∨ ((d.chan a).alt ∈ nodes ∧ a < (d.chan a).alt))
    (fuel : Nat) :
    (∀ a, a ∈ nodes → 2 * (d.heap_top - a + 1).toNat ≤ fuel →
      reinit_search_subtree fuel d a = Except.ok d) ∧
    (∀ a, a = 0 ∨ a ∈ nodes → (a ≠ 0 → 2 * (d.heap_top - a + 1).toNat + 1 ≤ fuel) →
      1 ≤ fuel → reinit_siblings fuel d a = Except.ok d) := by
  induction fuel with
  | zero =>
    constructor
    · intro a h1 h2
      have := hm a h1
      omega
    · intro a _ _ h
      omega
  | succ f ih =>
    obtain ⟨ihs, ihk⟩ := ih
    constructor
    · intro a h1 h2
      have hma := hm a h1
      simp only [reinit_search_subtree]
      have hk : reinit_siblings f d (d.chan a).next = Except.ok d := by
        rcases hn a h1 with h | h
        · rw [h]
          exact ihk 0 (Or.inl rfl) (fun e => absurd rfl e) (by omega)
        · have := hm _ h.1
          exact ihk _ (Or.inr h.1) (fun _ => by omega) (by omega)
      rw [hk]
      rfl
    · intro a h1 h2 _
      simp only [reinit_siblings]
      by_cases h0 : a = 0
      · rw [if_pos h0]
      · rw [if_neg h0]
        have h3 : a ∈ nodes := h1.resolve_left h0
        have hma := hm a h3
        have h4 := h2 h0
        rw [ihs a h3 (by omega)]
        dsimp only
        rcases ha a h3 with h | h
        · rw [h]
          exact ihk 0 (Or.inl rfl) (fun e => absurd rfl e) (by omega)
        · have := hm _ h.1
          exact ihk _ (Or.inr h.1) (fun _ => by omega) (by omega)

/-- With enough fuel `reinit_search_tree` returns on a well-formed tree: every
root of the pool is without children and chain afterwards, as after
`init_search_tree`; the dictionary, the pool size, the heap and the marker ids
are left alone. -/
theorem reinit_search_tree_ok (fuel : Nat) (d : decoder_t) (nodes : List Int)
    (path : Int → List Int) (hi : tree_inv d nodes path)
    (hf : 2 * d.heap_top.toNat + 3 ≤ fuel) :
    ∃ d2, reinit_search_tree fuel d = Except.ok d2 ∧
      d2.ngs = d.ngs ∧ d2.finish_wid = d.finish_wid ∧
      d2.n_root_chan_alloc = d.n_root_chan_alloc ∧ d2.heap_top = d.heap_top ∧
      d2.n_nonroot_chan = 0 ∧
      ∀ i, 0 ≤ i → i < d.n_root_chan_alloc →
        (d2.root_chan i).next = 0 ∧ (d2.root_chan i).penult_phn_wid = -1 := by
  have hloop := for_up_total_ind
    (fun i (s : decoder_t) =>
      s.chan = d.chan ∧ s.heap_top = d.heap_top ∧ s.ngs = d.ngs ∧
      s.finish_wid = d.finish_wid ∧ s.n_root_chan_alloc = d.n_root_chan_alloc ∧
      (∀ j, i ≤ j → s.root_chan j = d.root_chan j) ∧
      (∀ j, 0 ≤ j → j < i →
        (s.root_chan j).next = 0 ∧ (s.root_chan j).penult_phn_wid = -1))
    (reinit_root fuel) d.n_root_chan.toNat 0 d
    (by
      intro i s hi0 hi1 hs
      obtain ⟨s1, s2, s3, s4, s5, s6, s7⟩ := hs
      have hwalk := (reinit_walk_ok s nodes
        (by rw [s2]; exact hi.mem)
        (by rw [s1]; exact hi.up_next)
        (by rw [s1]; exact hi.up_alt) fuel).2
      have hroot := hi.root_next i hi0 (by omega)
      have hk : reinit_siblings fuel s (s.root_chan i).next = Except.ok s := by
        rw [s6 i (le_refl _)]
        apply hwalk
        · rcases hroot with h | h
          · exact Or.inl h
          · exact Or.inr h
        · intro hne
          rcases hroot with h | h
          · exact absurd h hne
          · have := hi.mem _ h
            rw [s2]
            omega
        · omega
      unfold reinit_root
      rw [hk]
      refine ⟨_, rfl, s1, s2, s3, s4, s5, ?_, ?_⟩
      · intro j hj
        show store (store s.root_chan i _) i _ j = d.root_chan j
        rw [store_ne _ _ _ _ (by omega), store_ne _ _ _ _ (by omega)]
        exact s6 j (by omega)
      · intro j hj0 hj1
        show (store (store s.root_chan i _) i _ j).next = 0 ∧
          (store (store s.root_chan i _) i _ j).penult_phn_wid = -1
        by_cases hji : j = i
        · subst hji
          rw [store_same]
          refine ⟨rfl, ?_⟩
          show (store s.root_chan j _ j).penult_phn_wid = -1
          rw [store_same]
        · rw [store_ne _ _ _ _ hji, store_ne _ _ _ _ hji]
          exact s7 j hj0 (by omega))
    ⟨rfl, rfl, rfl, rfl, rfl, fun _ _ => rfl, fun j h0 h1 => absurd h1 (by omega)⟩
  obtain ⟨d1, hrun, s1, s2, s3, s4, s5, s6, s7⟩ := hloop
  unfold reinit_search_tree
  rw [hrun]
  refine ⟨_, rfl, s3, s4, s5, s2, rfl, ?_⟩
  intro i hi0 hi1
  have hnr := hi.n_root
  by_cases hin : i < d.n_root_chan
  · exact s7 i hi0 (by omega)
  · show (d1.root_chan i).next = 0 ∧ (d1.root_chan i).penult_phn_wid = -1
    rw [s6 i (by omega)]
    exact hi.pool i (by omega) hi1

/-! ### Two trees for the same dictionary and language model -/

/-- The place reached for a word after `k` levels is a parent of the tree
whose path is the first `k + 1` phones of the word. -/
theorem path_of_reached (d : decoder_t) (nodes : List Int) (path : Int → List Int)
    (hi : tree_inv d nodes path) (de : dict_entry_t) (k : Nat) :
    ∀ p, reached d de k p → is_parent d nodes p ∧ ppath d path p = word_path de (k + 1) := by
  induction k with
  | zero =>
    intro p h
    obtain ⟨h0, h1, h2, h3, e⟩ := h
    rw [e]
    refine ⟨⟨h2, h3⟩, ?_⟩
    show [(d.root_chan (d.first_phone_rchan_map (de.phone_ids 0))).diphone] = _
    rw [(hi.map_ok _ h0 h1 h2).2]
    rfl
  | succ k ih =>
    intro p h
    obtain ⟨q, l, a, hq, hl, ha, hs, e⟩ := h
    obtain ⟨hq1, hq2⟩ := ih q hq
    have e1 := sib_list_unique d.chan _ _ _ hl (hi.chain q hq1)
    rw [e1] at ha
    obtain ⟨ha1, ha2⟩ := (mem_kids_of _ _ _ _).mp ha
    rw [e]
    refine ⟨ha1, ?_⟩
    show path a = word_path de (k + 1 + 1)
    rw [hi.ssid a ha1, ha2, hq2, hs, word_path_succ de (k + 1)]
    rfl

/-- The ssids of the children of a parent are read off the paths of the
nodes. -/
theorem kids_ssid_spec (d : decoder_t) (nodes : List Int) (path : Int → List Int)
    (hi : tree_inv d nodes path) (q : List Int) :
    (kids_of nodes path q).map (fun a => (d.chan a).hmm.ssid)
      = spec_kids (nodes.map path) q := by
  unfold spec_kids kids_of
  rw [List.filter_map, List.map_map]
  apply List.map_congr_left
  intro a ha
  have ha1 := (List.mem_filter.mp ha).1
  have h := hi.ssid a ha1
  show (d.chan a).hmm.ssid = (path a).getLast?.getD 0
  rw [h, List.getLast?_append]
  rfl

theorem root_list_length (d : decoder_t) : (root_list d).length = d.n_root_chan.toNat := by
  unfold root_list
  rw [List.length_map, List.length_range]

theorem root_list_get (d : decoder_t) (i : Int) (h0 : 0 ≤ i) (h1 : i < d.n_root_chan) :
    (root_list d)[i.toNat]? = some (d.root_chan i).diphone := by
  unfold root_list
  rw [List.getElem?_map, List.getElem?_range (by omega)]
  have e : Int.ofNat i.toNat = i := by
    show ((i.toNat : Nat) : Int) = i
    omega
  simp only [Option.map_some', e]

/-- A place is reached for a run of phones exactly when the first phone has a
root, at level 0, or the run is the path of a node. -/
theorem reached_iff (d : decoder_t) (nodes : List Int) (path : Int → List Int)
    (hi : tree_inv d nodes path) (de : dict_entry_t) (k : Nat) :
    (∃ p, reached d de k p) ↔
      ((k = 0 ∧ de.phone_ids 0 ∈ root_list d) ∨
        (1 ≤ k ∧ word_path de (k + 1) ∈ nodes.map path)) := by
  constructor
  · rintro ⟨p, h⟩
    obtain ⟨hp, hpp⟩ := path_of_reached d nodes path hi de k p h
    cases p with
    | root i =>
      have e2 := congrArg List.length hpp
      unfold word_path at e2
      rw [List.length_map, List.length_range] at e2
      change 1 = k + 1 at e2
      left
      refine ⟨by omega, ?_⟩
      have hk : k = 0 := by omega
      subst hk
      have e1 : (d.root_chan i).diphone = de.phone_ids 0 := (List.cons.inj hpp).1
      exact (mem_root_list d _).mpr ⟨i, hp.1, hp.2, e1⟩
    | node a =>
      have ha : a ∈ nodes := hp
      have h2 := hi.len a ha
      have e2 := congrArg List.length hpp
      unfold word_path at e2
      rw [List.length_map, List.length_range] at e2
      change (path a).length = k + 1 at e2
      right
      refine ⟨by omega, ?_⟩
      rw [← hpp]
      exact List.mem_map_of_mem _ ha
  · rintro (⟨hk, hm⟩ | ⟨_, hm⟩)
    · subst hk
      obtain ⟨i, h0, h1, e⟩ := (mem_root_list d _).mp hm
      refine ⟨parent_t.root i, reached_of_path d nodes path hi de 0 _ ⟨h0, h1⟩ ?_⟩
      show [(d.root_chan i).diphone] = _
      rw [e]
      rfl
    · obtain ⟨a, ha, e⟩ := List.mem_map.mp hm
      exact ⟨parent_t.node a, reached_of_path d nodes path hi de k _ ha e⟩

/-- Two well-formed trees with the same paths of nodes, the same first phones
of roots and the same chains of words are the same tree. -/
theorem same_tree_of_spec (env : env_t) (d1 d3 : decoder_t) (nodes1 nodes3 : List Int)
    (path1 path3 : Int → List Int) (n : Nat)
    (hi1 : tree_inv d1 nodes1 path1) (hi3 : tree_inv d3 nodes3 path3)
    (hh1 : hom_inv env d1 nodes1 path1 n) (hh3 : hom_inv env d3 nodes3 path3 n)
    (hngs : d3.ngs = d1.ngs) (hal : d3.n_root_chan_alloc = d1.n_root_chan_alloc)
    (hsp : nodes3.map path3 = nodes1.map path1) (hrl : root_list d3 = root_list d1)
    (hlm : d3.n_1ph_LMwords = d1.n_1ph_LMwords)
    (h1w : 0 ≤ d1.n_1ph_words) (h3w : 0 ≤ d3.n_1ph_words)
    (hsl : single_phone_list d3 d3.n_1ph_words = single_phone_list d1 d1.n_1ph_words) :
    same_tree d1 d3 := by
  have hn1 := hi1.n_root
  have hn3 := hi3.n_root
  have hn : d3.n_root_chan = d1.n_root_chan := by
    have e := congrArg List.length hrl
    rw [root_list_length, root_list_length] at e
    omega
  have hdi : ∀ i, 0 ≤ i → i < d1.n_root_chan →
      (d3.root_chan i).diphone = (d1.root_chan i).diphone := by
    intro i h0 h1
    have e1 := root_list_get d1 i h0 h1
    have e3 := root_list_get d3 i h0 (by omega)
    rw [hrl, e1] at e3
    exact (Option.some.inj e3).symm
  refine ⟨hn, hdi, ?_, ?_, ?_, ?_, hlm, hsl⟩
  · intro p0 h0 h1
    by_cases hm1 : 0 ≤ d1.first_phone_rchan_map p0
    · obtain ⟨g1, g2⟩ := hi1.map_ok p0 h0 h1 hm1
      have g3 := hi3.map_root _ hm1 (by omega)
      rw [hdi _ hm1 g1, g2] at g3
      exact g3
    · by_cases hm3 : 0 ≤ d3.first_phone_rchan_map p0
      · obtain ⟨g1, g2⟩ := hi3.map_ok p0 h0 (by omega) hm3
        have g3 := hi1.map_root _ hm3 (by omega)
        rw [← hdi _ hm3 (by omega), g2] at g3
        omega
      · rw [hi1.map_unset p0 h0 h1 (by omega), hi3.map_unset p0 h0 (by omega) (by omega)]
  · intro de k
    rw [reached_iff d1 nodes1 path1 hi1, reached_iff d3 nodes3 path3 hi3, hrl, hsp]
  · intro de k p1 p3 hr1 hr3
    obtain ⟨hp1, hpp1⟩ := path_of_reached d1 nodes1 path1 hi1 de k p1 hr1
    obtain ⟨hp3, hpp3⟩ := path_of_reached d3 nodes3 path3 hi3 de k p3 hr3
    refine ⟨⟨_, _, hi1.chain p1 hp1, hi3.chain p3 hp3, ?_⟩, ?_⟩
    · rw [kids_ssid_spec d1 nodes1 path1 hi1, kids_ssid_spec d3 nodes3 path3 hi3, hsp, hpp1,
        hpp3]
    · have c1 := hh1.chains p1 hp1
      have c3 := hh3.chains p3 hp3
      rw [hngs, hpp3] at c3
      rw [hpp1] at c1
      exact ⟨_, c1, c3⟩
  · have e := congrArg List.length hsl
    rw [single_phone_list_length, single_phone_list_length] at e
    omega

/-! ### Rebuilding the tree -/

/-- C14: from a state left by `init_search_tree`, with enough fuel,
`create_search_tree` returns a tree, and then `reinit_search_tree` followed by
`create_search_tree` for the same dictionary and the same language model
return a tree that is the same: the same roots and root map, the same ssids
in the same order along every sibling chain, the same homophone chains, and
the same single-phone words and counts. -/
theorem rebuild_deterministic (env : env_t) (fuel fuel2 : Nat) (d : decoder_t)
    (hr : tree_ready d)
    (hf : node_bound d.ngs.dict d.ngs.dict.n_main_words.toNat < fuel)
    (hfw : d.ngs.dict.n_main_words.toNat ≤ fuel) :
    ∃ d1, create_search_tree env fuel d = Except.ok d1 ∧
      (2 * d1.heap_top.toNat + 3 ≤ fuel2 →
        ∃ d2 d3, reinit_search_tree fuel2 d1 = Except.ok d2 ∧
          create_search_tree env fuel d2 = Except.ok d3 ∧ same_tree d1 d3) := by
  obtain ⟨d1, nodes1, path1, hrun1, hi1, hh1, hsp1, hrl1, hngs1, hfin1, hal1, hlm1, hw1, hsl1⟩ :=
    create_search_tree_ok env fuel d hr hf hfw
  refine ⟨d1, hrun1, ?_⟩
  intro hf2
  obtain ⟨d2, hrun2, hngs2, hfin2, hal2, hheap2, _, hroots2⟩ :=
    reinit_search_tree_ok fuel2 d1 nodes1 path1 hi1 hf2
  have hngs : d2.ngs = d.ngs := hngs2.trans hngs1
  have hal : d2.n_root_chan_alloc = d.n_root_chan_alloc := hal2.trans hal1
  have hr2 : tree_ready d2 := by
    refine ⟨?_, ?_, ?_⟩
    · rw [hheap2]
      exact hi1.heap
    · intro w h0 h1
      rw [hngs] at h1 ⊢
      rw [hal]
      exact hr.2.1 w h0 h1
    · intro i h0 h1
      rw [hal2] at h1
      exact hroots2 i h0 h1
  obtain ⟨d3, nodes3, path3, hrun3, hi3, hh3, hsp3, hrl3, hngs3, hfin3, hal3, hlm3, hw3, hsl3⟩ :=
    create_search_tree_ok env fuel d2 hr2 (by rw [hngs]; exact hf) (by rw [hngs]; exact hfw)
  refine ⟨d2, d3, hrun2, hrun3, ?_⟩
  rw [hngs] at hh3 hsp3 hrl3 hlm3 hsl3
  rw [post_1ph_congr env d d2 _ hngs (hfin2.trans hfin1), hfin2, hfin1] at hsl3
  exact same_tree_of_spec env d1 d3 nodes1 nodes3 path1 path3 _ hi1 hi3 hh1 hh3
    (hngs3.trans hngs2) (hal3.trans hal2) (hsp3.trans hsp1.symm) (hrl3.trans hrl1.symm)
    (hlm3.trans hlm1.symm) hw1 hw3 (hsl3.trans hsl1.symm)

set_option maxRecDepth 100000 in
/-- The tree of the test dictionary is rebuilt in the cells 4, 5 and 6: root 0
has the children 4 and 5 with ssids 12 and 15, as the cells 1 and 2 before,
and the same five single-phone words are listed. -/
theorem rebuild_deterministic_witness :
    tree_ready ex_tree_dec ∧
    (tree_out ex_tree_env 20 ex_tree_dec).heap_top = 3 ∧
    (rebuild_out ex_tree_env 20 20 ex_tree_dec).n_root_chan = 2 ∧
    ((rebuild_out ex_tree_env 20 20 ex_tree_dec).root_chan 0).next = 4 ∧
    ((rebuild_out ex_tree_env 20 20 ex_tree_dec).chan 4).hmm.ssid = 12 ∧
    ((rebuild_out ex_tree_env 20 20 ex_tree_dec).chan 4).alt = 5 ∧
    ((rebuild_out ex_tree_env 20 20 ex_tree_dec).chan 5).hmm.ssid = 15 ∧
    ((rebuild_out ex_tree_env 20 20 ex_tree_dec).chan 5).alt = 0 ∧
    single_phone_list (rebuild_out ex_tree_env 20 20 ex_tree_dec)
      (rebuild_out ex_tree_env 20 20 ex_tree_dec).n_1ph_words = [0, 7, 8, 9, 10] ∧
    ∃ d1, create_search_tree ex_tree_env 20 ex_tree_dec = Except.ok d1 ∧
      (2 * d1.heap_top.toNat + 3 ≤ 20 →
        ∃ d2 d3, reinit_search_tree 20 d1 = Except.ok d2 ∧
          create_search_tree ex_tree_env 20 d2 = Except.ok d3 ∧ same_tree d1 d3) :=
  ⟨ex_tree_ready, by decide!, by decide!, by decide!, by decide!, by decide!, by decide!,
    by decide!, by decide!,
    rebuild_deterministic ex_tree_env 20 20 ex_tree_dec ex_tree_ready (by decide) (by decide)⟩

/-! ### Growth of the backpointer table and the score stack -/

/-- A first exit of a non-filler word whose predecessor is `NO_BP` or a table
index is saved: `save_bwd_ptr` returns. -/
theorem save_bwd_ptr_append_returns (fuel : Nat) (ngs : ngram_search_t)
    (f w score path rc : Int) (hw : ngs.word_lat_idx w = NO_BP)
    (hnf : w < ngs.silence_wid) (hfuel : 1 ≤ fuel) (hpath : path = NO_BP ∨ 0 ≤ path) :
    ∃ s', save_bwd_ptr fuel ngs f w score path rc = Except.ok s' := by
  have hb : ¬ (ngs.word_lat_idx w ≠ NO_BP) := by simp [hw]
  simp only [save_bwd_ptr, if_neg hb, save_bwd_ptr_append]
  have : ∃ s1, cache_bptable_paths fuel
      { ngs with
        bp_table_size :=
          if ngs.bpidx ≥ ngs.bp_table_size then ngs.bp_table_size * 2 else ngs.bp_table_size,
        bscore_stack_size :=
          if ngs.bss_head ≥ ngs.bscore_stack_size - ngs.n_ciphone then
            ngs.bscore_stack_size * 2
          else ngs.bscore_stack_size,
        word_lat_idx := store ngs.word_lat_idx w ngs.bpidx,
        bp_table := store ngs.bp_table ngs.bpidx
          (new_bpe (ngs.bp_table ngs.bpidx) f w path score ngs.bss_head
            (exit_r_diph (ngs.dict.dict_list w))),
        bscore_stack := store
          (fill_worst (exit_rcsize ngs.dict (ngs.dict.dict_list w)).toNat ngs.bss_head
            ngs.bscore_stack) (ngs.bss_head + rc) score }
      ngs.bpidx = Except.ok s1 := by
    apply cache_bptable_paths_total _ _ _ 0 (by omega)
    · refine ⟨fun j hj => absurd hj (by omega), ?_⟩
      dsimp only [bp_chain]
      rw [store_same]
      exact hnf
    · dsimp only [bp_chain]
      rw [store_same]
      show ¬ (path < NO_BP)
      simp only [NO_BP] at hpath ⊢
      omega
  obtain ⟨s1, hs1⟩ := this
  rw [hs1]
  exact ⟨_, rfl⟩

/-- C30 (with the place of the stack head made explicit): when `save_bwd_ptr`
appends with `bpidx == bp_table_size` and a size of at least 1, a returning
call doubles `bp_table_size`, leaves every other entry as it was and writes
the new entry at the old `bpidx`, which is below the new size; when moreover
`rcsize` is at most the number of CI phones, that number at most
`bscore_stack_size`, `rc < rcsize` and the stack head at most
`bscore_stack_size`, every slot the call writes lies below the new
`bscore_stack_size`, no other slot changes, and the new head is again at most
the size.  The call returns for every non-filler word whose `path` is `NO_BP`
or a table index. -/
theorem save_bwd_ptr_growth (fuel : Nat) (ngs : ngram_search_t)
    (f w score path rc : Int) (hw : ngs.word_lat_idx w = NO_BP)
    (hfull : ngs.bpidx = ngs.bp_table_size) (hsz : 1 ≤ ngs.bp_table_size) :
    (∀ s', save_bwd_ptr fuel ngs f w score path rc = Except.ok s' →
      s'.bp_table_size = 2 * ngs.bp_table_size ∧
      (∀ i, i ≠ ngs.bpidx → s'.bp_table i = ngs.bp_table i) ∧
      (s'.bp_table ngs.bpidx).wid = w ∧ (s'.bp_table ngs.bpidx).frame = f ∧
      (s'.bp_table ngs.bpidx).bp = path ∧ (s'.bp_table ngs.bpidx).score = score ∧
      0 ≤ ngs.bpidx ∧ ngs.bpidx < s'.bp_table_size ∧ s'.bpidx = ngs.bpidx + 1 ∧
      (exit_rcsize ngs.dict (ngs.dict.dict_list w) ≤ ngs.n_ciphone →
        ngs.n_ciphone ≤ ngs.bscore_stack_size →
        rc < exit_rcsize ngs.dict (ngs.dict.dict_list w) →
        ngs.bss_head ≤ ngs.bscore_stack_size →
        (∀ j, stack_written ngs w rc j → j < s'.bscore_stack_size) ∧
        (∀ j, ¬ stack_written ngs w rc j → s'.bscore_stack j = ngs.bscore_stack j) ∧
        s'.bss_head ≤ s'.bscore_stack_size)) ∧
    (w < ngs.silence_wid → 1 ≤ fuel → (path = NO_BP ∨ 0 ≤ path) →
      ∃ s', save_bwd_ptr fuel ngs f w score path rc = Except.ok s') := by
  refine ⟨?_, save_bwd_ptr_append_returns fuel ngs f w score path rc hw⟩
  intro s' h
  obtain ⟨rw, prw, he⟩ := save_bwd_ptr_append_eq fuel ngs s' f w score path rc hw h
  have h1 : s'.bp_table_size
      = if ngs.bpidx ≥ ngs.bp_table_size then ngs.bp_table_size * 2 else ngs.bp_table_size := by
    rw [he]
  have h2 : s'.bscore_stack_size
      = if ngs.bss_head ≥ ngs.bscore_stack_size - ngs.n_ciphone then ngs.bscore_stack_size * 2
        else ngs.bscore_stack_size := by
    rw [he]
  have h3 : s'.bp_table = store ngs.bp_table ngs.bpidx
      (set_prev_real_wid (set_real_wid
        (new_bpe (ngs.bp_table ngs.bpidx) f w path score ngs.bss_head
          (exit_r_diph (ngs.dict.dict_list w))) rw) prw) := by
    rw [he]
  have h4 : s'.bscore_stack = store
      (fill_worst (exit_rcsize ngs.dict (ngs.dict.dict_list w)).toNat ngs.bss_head
        ngs.bscore_stack) (ngs.bss_head + rc) score := by
    rw [he]
  have h5 : s'.bpidx = ngs.bpidx + 1 := by rw [he]
  have h6 : s'.bss_head = ngs.bss_head + exit_rcsize ngs.dict (ngs.dict.dict_list w) := by
    rw [he]
  rw [if_pos (by omega)] at h1
  refine ⟨by omega, ?_, ?_, ?_, ?_, ?_, by omega, by omega, h5, ?_⟩
  · intro i hi
    rw [h3, store_ne _ _ _ _ hi]
  · rw [h3, store_same]; rfl
  · rw [h3, store_same]; rfl
  · rw [h3, store_same]; rfl
  · rw [h3, store_same]; rfl
  · intro hr1 hr2 hr3 hr4
    refine ⟨?_, ?_, ?_⟩
    · intro j hj
      rw [h2]
      unfold stack_written at hj
      split <;> omega
    · intro j hj
      unfold stack_written at hj
      rw [h4, store_ne _ _ _ _ (by omega), fill_worst_spec, if_neg]
      omega
    · rw [h2, h6]
      split <;> omega

/-- A first exit of word 2 on the test chain with a full table of four
entries and the stack head at slot 7 of 8: the table grows to eight entries,
the stack to sixteen slots, and the exit is entry 4 with its score in slot
7. -/
theorem save_bwd_ptr_growth_witness :
    ex_full_ngs.word_lat_idx 2 = NO_BP ∧ ex_full_ngs.bpidx = ex_full_ngs.bp_table_size ∧
    1 ≤ ex_full_ngs.bp_table_size ∧
    ∃ s', save_bwd_ptr 10 ex_full_ngs 7 2 (-40) 3 0 = Except.ok s' ∧
      s'.bp_table_size = 8 ∧ (s'.bp_table 4).wid = 2 ∧ s'.bpidx = 5 ∧
      (∀ i, i ≠ 4 → s'.bp_table i = ex_full_ngs.bp_table i) ∧
      (∀ j, stack_written ex_full_ngs 2 0 j → j < s'.bscore_stack_size) ∧
      s'.bss_head ≤ s'.bscore_stack_size :=
  have hw : ex_full_ngs.word_lat_idx 2 = NO_BP := rfl
  have hfull : ex_full_ngs.bpidx = ex_full_ngs.bp_table_size := rfl
  have hsz : 1 ≤ ex_full_ngs.bp_table_size := by decide
  match (save_bwd_ptr_growth 10 ex_full_ngs 7 2 (-40) 3 0 hw hfull hsz).2
      (by decide) (by decide) (Or.inr (by decide)) with
  | ⟨s', h⟩ =>
    match (save_bwd_ptr_growth 10 ex_full_ngs 7 2 (-40) 3 0 hw hfull hsz).1 s' h with
    | ⟨a1, a2, a3, _, _, _, _, _, a9, a10⟩ =>
      ⟨hw, hfull, hsz, s', h, a1, a3, a9, a2,
        (a10 (by decide) (by decide) (by decide) (by decide)).1,
        (a10 (by decide) (by decide) (by decide) (by decide)).2.2⟩

/-! ### A frame without exits other than `</s>` -/

theorem wt_only_set_bestbp_rc (d s : decoder_t) (rc : Int) (v : bestbp_rc_t)
    (h : wt_only d s) : wt_only d (set_bestbp_rc s rc v) := by
  unfold wt_only at h ⊢
  unfold set_bestbp_rc
  rw [h]

theorem wt_only_set_wl (d s : decoder_t) (w : Int) (h : wt_only d s) :
    wt_only d (set_ngs s { s.ngs with word_lat_idx := store s.ngs.word_lat_idx w NO_BP }) := by
  unfold wt_only at h ⊢
  unfold set_ngs
  rw [h]

theorem wt_only_fields (d s : decoder_t) (h : wt_only d s) :
    s.root_chan = d.root_chan ∧ s.all_rhmm = d.all_rhmm ∧ s.chan = d.chan ∧
    s.last_ltrans = d.last_ltrans ∧ s.word_chan = d.word_chan := by
  unfold wt_only at h
  have e1 := congrArg (fun x : decoder_t => x.root_chan) h
  have e2 := congrArg (fun x : decoder_t => x.all_rhmm) h
  have e3 := congrArg (fun x : decoder_t => x.chan) h
  have e4 := congrArg (fun x : decoder_t => x.last_ltrans) h
  have e5 := congrArg (fun x : decoder_t => x.word_chan) h
  exact ⟨e1, e2, e3, e4, e5⟩

/-- The first loop of `word_transition` over a segment of exits of
`finish_wid` counts no exit and changes `word_lat_idx` at most. -/
theorem wt_first_loop_none (d e1 : decoder_t) (f : Int)
    (h : ∀ bp, d.ngs.bp_table_idx f ≤ bp → bp < d.ngs.bpidx →
      (d.ngs.bp_table bp).wid = d.finish_wid)
    (h1 : wt_only d e1) :
    (iter_up wt_best_rc (e1.ngs.bpidx - e1.ngs.bp_table_idx f).toNat (e1.ngs.bp_table_idx f)
      (e1, 0)).2 = 0 ∧
    wt_only d (iter_up wt_best_rc (e1.ngs.bpidx - e1.ngs.bp_table_idx f).toNat
      (e1.ngs.bp_table_idx f) (e1, 0)).1 := by
  have e1a : e1.ngs.bp_table_idx = d.ngs.bp_table_idx := by
    have e := congrArg (fun x : decoder_t => x.ngs.bp_table_idx) h1
    exact e
  have e1b : e1.ngs.bpidx = d.ngs.bpidx := by
    have e := congrArg (fun x : decoder_t => x.ngs.bpidx) h1
    exact e
  have h2 := iter_up_ind (fun _ (sk : decoder_t × Int) => sk.2 = 0 ∧ wt_only d sk.1)
    wt_best_rc (e1.ngs.bpidx - e1.ngs.bp_table_idx f).toNat (e1.ngs.bp_table_idx f) (e1, 0)
    (by
      intro i sk hi1 hi2 hs
      obtain ⟨hk, hw⟩ := hs
      have t1 : sk.1.ngs.bp_table = d.ngs.bp_table := by
        have e := congrArg (fun x : decoder_t => x.ngs.bp_table) hw
        exact e
      have t2 : sk.1.finish_wid = d.finish_wid := by
        have e := congrArg (fun x : decoder_t => x.finish_wid) hw
        exact e
      have hfin : (sk.1.ngs.bp_table i).wid = sk.1.finish_wid := by
        rw [t1, t2]
        apply h i
        · rw [← e1a]; exact hi1
        · rw [← e1b]; omega
      unfold wt_best_rc
      dsimp only
      split
      · exact ⟨hk, wt_only_set_wl d sk.1 _ hw⟩
      · rename_i hne
        exact absurd hfin hne)
    ⟨rfl, h1⟩
  exact h2

/-- C25: if every entry of the segment `[bp_table_idx[f], bpidx)` is an exit
of `finish_wid` (in particular if the segment is empty), `word_transition`
returns a state that differs from the one it was given in `word_lat_idx` and
the scratch table `bestbp_rc` at most: no root, single-phone, silence or
filler channel is entered or changed. -/
theorem word_transition_no_exits (env : env_t) (d : decoder_t) (f : Int)
    (h : ∀ bp, d.ngs.bp_table_idx f ≤ bp → bp < d.ngs.bpidx →
      (d.ngs.bp_table bp).wid = d.finish_wid) :
    ∃ d1, word_transition env d f = Except.ok d1 ∧
      d1 = { d with
        ngs := { d.ngs with word_lat_idx := d1.ngs.word_lat_idx },
        bestbp_rc := d1.bestbp_rc } ∧
      d1.root_chan = d.root_chan ∧ d1.all_rhmm = d.all_rhmm ∧ d1.chan = d.chan ∧
      d1.last_ltrans = d.last_ltrans ∧ d1.word_chan = d.word_chan := by
  have h1 : wt_only d (iter_down
      (fun i (s : decoder_t) => set_bestbp_rc s i { s.bestbp_rc i with score := WORST_SCORE })
      d.ngs.n_ciphone.toNat (d.ngs.n_ciphone - 1) d) := by
    apply iter_down_inv (wt_only d)
    · intro i s _ _ hs
      exact wt_only_set_bestbp_rc d s i _ hs
    · show d = _
      rfl
  obtain ⟨h3, h4⟩ := wt_first_loop_none d _ f h h1
  unfold word_transition
  dsimp only
  split
  · exact ⟨_, rfl, h4, wt_only_fields d _ h4⟩
  · rename_i hne
    exact absurd h3 hne

/-- A frame whose only exit is `</s>`: `word_transition` returns and leaves
the root and the single-phone channels alone. -/
theorem word_transition_no_exits_witness :
    (∀ bp, ex_fin_dec.ngs.bp_table_idx 0 ≤ bp → bp < ex_fin_dec.ngs.bpidx →
      (ex_fin_dec.ngs.bp_table bp).wid = ex_fin_dec.finish_wid) ∧
    ex_fin_dec.ngs.bpidx = 1 ∧
    ∃ d1, word_transition ex_env ex_fin_dec 0 = Except.ok d1 ∧
      d1 = { ex_fin_dec with
        ngs := { ex_fin_dec.ngs with word_lat_idx := d1.ngs.word_lat_idx },
        bestbp_rc := d1.bestbp_rc } ∧
      d1.root_chan = ex_fin_dec.root_chan ∧ d1.all_rhmm = ex_fin_dec.all_rhmm ∧
      d1.chan = ex_fin_dec.chan ∧ d1.last_ltrans = ex_fin_dec.last_ltrans ∧
      d1.word_chan = ex_fin_dec.word_chan :=
  have hyp : ∀ bp, ex_fin_dec.ngs.bp_table_idx 0 ≤ bp → bp < ex_fin_dec.ngs.bpidx →
      (ex_fin_dec.ngs.bp_table bp).wid = ex_fin_dec.finish_wid := by
    intro bp h0 h1
    have h2 : (0 : Int) ≤ bp := h0
    have h3 : bp < 1 := h1
    have e : bp = 0 := by omega
    subst e
    rfl
  ⟨hyp, rfl, word_transition_no_exits ex_env ex_fin_dec 0 hyp⟩

/-! ### Predecessors taken by `word_transition` -/

set_option maxRecDepth 100000 in
/-- C24, the code at a frame with two exits and a cap of one: the cap
invalidates entry 2, the exit of word 1, and `word_transition` then enters
root 1 and the silence word for frame 6 with score -20 and history 2, the
invalidated entry, because its score for right context 1 is the best one;
root 0 is entered from the valid entry 1. -/
theorem word_transition_uses_invalid :
    cap_wt_returns ex_env ex_cap_dec 5 = true ∧
    ((cap_wt_out ex_env ex_cap_dec 5).ngs.bp_table 1).valid = true ∧
    ((cap_wt_out ex_env ex_cap_dec 5).ngs.bp_table 2).valid = false ∧
    ((cap_wt_out ex_env ex_cap_dec 5).root_chan 0).hmm.in_history = 1 ∧
    ((cap_wt_out ex_env ex_cap_dec 5).root_chan 1).hmm.frame = 6 ∧
    ((cap_wt_out ex_env ex_cap_dec 5).root_chan 1).hmm.in_score = -20 ∧
    ((cap_wt_out ex_env ex_cap_dec 5).root_chan 1).hmm.in_history = 2 ∧
    ((cap_wt_out ex_env ex_cap_dec 5).all_rhmm 4).hmm.frame = 6 ∧
    ((cap_wt_out ex_env ex_cap_dec 5).all_rhmm 4).hmm.in_history = 2 :=
  ⟨by decide!, by decide!, by decide!, by decide!, by decide!, by decide!, by decide!,
    by decide!, by decide!⟩

/-! ### The transition into the single-phone words of the language model -/

theorem wt_pre_refl (d : decoder_t) : wt_pre d d := by
  unfold wt_pre
  rfl

theorem wt_pre_set_bestbp_rc (d s : decoder_t) (rc : Int) (v : bestbp_rc_t)
    (h : wt_pre d s) : wt_pre d (set_bestbp_rc s rc v) := by
  unfold wt_pre at h ⊢
  unfold set_bestbp_rc
  rw [h]

theorem wt_pre_set_wl (d s : decoder_t) (w : Int) (h : wt_pre d s) :
    wt_pre d (set_ngs s { s.ngs with word_lat_idx := store s.ngs.word_lat_idx w NO_BP }) := by
  unfold wt_pre at h ⊢
  unfold set_ngs
  rw [h]

theorem wt_pre_set_root_hmm (d s : decoder_t) (i : Int) (v : hmm_t) (h : wt_pre d s) :
    wt_pre d (set_root_hmm s i v) := by
  unfold wt_pre at h ⊢
  unfold set_root_hmm
  rw [h]

theorem wt_pre_set_ltrans (d s : decoder_t) (w : Int) (v : last_ltrans_t) (h : wt_pre d s) :
    wt_pre d (set_ltrans s w v) := by
  unfold wt_pre at h ⊢
  unfold set_ltrans
  rw [h]

theorem wt_pre_best_rc (d : decoder_t) (bp : Int) (sk : decoder_t × Int) (h : wt_pre d sk.1) :
    wt_pre d (wt_best_rc bp sk).1 := by
  unfold wt_best_rc
  dsimp only
  split
  · exact wt_pre_set_wl d sk.1 _ h
  · dsimp only
    apply iter_down_inv (wt_pre d)
    · intro rc s _ _ hs
      dsimp only
      split
      · exact wt_pre_set_bestbp_rc d s rc _ hs
      · exact hs
    · exact wt_pre_set_wl d sk.1 _ h

theorem wt_pre_root (d : decoder_t) (f thresh i : Int) (s : decoder_t) (h : wt_pre d s) :
    wt_pre d (wt_root f thresh i s) := by
  unfold wt_root
  dsimp only
  split
  · split
    · exact wt_pre_set_root_hmm d s i _ h
    · exact h
  · exact h

/-- What `wt_pre` leaves as it was. -/
theorem wt_pre_fields (d s : decoder_t) (h : wt_pre d s) :
    s.all_rhmm = d.all_rhmm ∧ s.ngs.bp_table = d.ngs.bp_table ∧
    s.ngs.bscore_stack = d.ngs.bscore_stack ∧ s.ngs.dict = d.ngs.dict ∧
    s.ngs.bpidx = d.ngs.bpidx ∧ s.ngs.bp_table_idx = d.ngs.bp_table_idx ∧
    s.xwd = d.xwd ∧ s.single_phone_wid = d.single_phone_wid ∧
    s.n_1ph_LMwords = d.n_1ph_LMwords ∧ s.pip = d.pip ∧ s.best_score = d.best_score ∧
    s.dynamic_beam = d.dynamic_beam ∧ s.ngs.silence_wid = d.ngs.silence_wid ∧
    s.n_root_chan = d.n_root_chan := by
  unfold wt_pre at h
  have e1 := congrArg (fun x : decoder_t => x.all_rhmm) h
  have e2 := congrArg (fun x : decoder_t => x.ngs.bp_table) h
  have e3 := congrArg (fun x : decoder_t => x.ngs.bscore_stack) h
  have e4 := congrArg (fun x : decoder_t => x.ngs.dict) h
  have e5 := congrArg (fun x : decoder_t => x.ngs.bpidx) h
  have e6 := congrArg (fun x : decoder_t => x.ngs.bp_table_idx) h
  have e7 := congrArg (fun x : decoder_t => x.xwd) h
  have e8 := congrArg (fun x : decoder_t => x.single_phone_wid) h
  have e9 := congrArg (fun x : decoder_t => x.n_1ph_LMwords) h
  have e10 := congrArg (fun x : decoder_t => x.pip) h
  have e11 := congrArg (fun x : decoder_t => x.best_score) h
  have e12 := congrArg (fun x : decoder_t => x.dynamic_beam) h
  have e13 := congrArg (fun x : decoder_t => x.ngs.silence_wid) h
  have e14 := congrArg (fun x : decoder_t => x.n_root_chan) h
  exact ⟨e1, e2, e3, e4, e5, e6, e7, e8, e9, e10, e11, e12, e13, e14⟩

/-- The transition score the code computes in a state that `wt_pre` relates
to `d` is `lm_cand`. -/
theorem lm_cand_eq (env : env_t) (d s : decoder_t) (h : wt_pre d s) (b w : Int) :
    lm_cand env s b w = lm_cand env d b w := by
  obtain ⟨_, e2, e3, e4, _, _, e7, _⟩ := wt_pre_fields d s h
  unfold lm_cand rcpermtab_of
  rw [e2, e3, e4, e7]

theorem lt_acc_skip (env : env_t) (d : decoder_t) (lo B w bp0 : Int) (lt : last_ltrans_t)
    (hv : (d.ngs.bp_table B).valid = false) (h : lt_acc env d lo B w bp0 lt) :
    lt_acc env d lo (B + 1) w bp0 lt := by
  obtain ⟨h1, h2⟩ := h
  refine ⟨?_, ?_⟩
  · intro b hb1 hb2 hb3
    by_cases e : b = B
    · rw [e, hv] at hb3
      cases hb3
    · exact h1 b hb1 (by omega) hb3
  · rcases h2 with h2 | ⟨a1, a2, a3, a4, a5⟩
    · exact Or.inl h2
    · exact Or.inr ⟨a1, by omega, a3, a4, a5⟩

theorem lt_acc_keep (env : env_t) (d : decoder_t) (lo B w bp0 : Int) (lt : last_ltrans_t)
    (hc : ¬ lt.dscr < lm_cand env d B w) (h : lt_acc env d lo B w bp0 lt) :
    lt_acc env d lo (B + 1) w bp0 lt := by
  obtain ⟨h1, h2⟩ := h
  refine ⟨?_, ?_⟩
  · intro b hb1 hb2 hb3
    by_cases e : b = B
    · rw [e]
      omega
    · exact h1 b hb1 (by omega) hb3
  · rcases h2 with h2 | ⟨a1, a2, a3, a4, a5⟩
    · exact Or.inl h2
    · exact Or.inr ⟨a1, by omega, a3, a4, a5⟩

theorem lt_acc_take (env : env_t) (d : decoder_t) (lo B w bp0 : Int) (lt : last_ltrans_t)
    (hlo : lo ≤ B) (hv : (d.ngs.bp_table B).valid = true)
    (hc : lt.dscr < lm_cand env d B w) (h : lt_acc env d lo B w bp0 lt) (sf : Int) :
    lt_acc env d lo (B + 1) w bp0 { sf := sf, dscr := lm_cand env d B w, bp := B } := by
  obtain ⟨h1, _⟩ := h
  refine ⟨?_, Or.inr ⟨hlo, by show B < B + 1; omega, hv, rfl, ?_⟩⟩
  · intro b hb1 hb2 hb3
    show lm_cand env d b w ≤ lm_cand env d B w
    by_cases e : b = B
    · rw [e]
    · have := h1 b hb1 (by omega) hb3
      omega
  · intro b hb1 hb2 hb3
    show lm_cand env d b w < lm_cand env d B w
    have := h1 b hb1 hb2 hb3
    omega

/-- The second loop of `word_transition` at entry `bp`: the records of the
single-phone words of the language model account for one more entry. -/
theorem wt_ltrans_acc (env : env_t) (d s : decoder_t) (lo bp : Int) (hlo : lo ≤ bp)
    (hpre : wt_pre d s)
    (hacc : ∀ w, is_lm d w → lt_acc env d lo bp w (d.last_ltrans w).bp (s.last_ltrans w)) :
    wt_pre d (wt_ltrans env bp s) ∧
    ∀ w, is_lm d w →
      lt_acc env d lo (bp + 1) w (d.last_ltrans w).bp ((wt_ltrans env bp s).last_ltrans w) := by
  obtain ⟨_, e2, e3, e4, _, _, e7, e8, e9, _⟩ := wt_pre_fields d s hpre
  unfold wt_ltrans
  dsimp only
  split
  · rename_i hv
    rw [e2] at hv
    exact ⟨hpre, fun w hw => lt_acc_skip env d lo bp w _ _ hv (hacc w hw)⟩
  · rename_i hv
    rw [e2] at hv
    have hv1 : (d.ngs.bp_table bp).valid = true := by
      cases hb : (d.ngs.bp_table bp).valid
      · exact absurd hb hv
      · rfl
    have hloop := iter_up_ind
      (fun k (t : decoder_t) => wt_pre d t ∧ ∀ w, is_lm d w →
        ((∃ j, 0 ≤ j ∧ j < k ∧ d.single_phone_wid j = w) →
          lt_acc env d lo (bp + 1) w (d.last_ltrans w).bp (t.last_ltrans w)) ∧
        (¬ (∃ j, 0 ≤ j ∧ j < k ∧ d.single_phone_wid j = w) →
          lt_acc env d lo bp w (d.last_ltrans w).bp (t.last_ltrans w)))
      (fun i (t : decoder_t) =>
        if (t.last_ltrans (t.single_phone_wid i)).dscr <
            t.ngs.bscore_stack ((s.ngs.bp_table bp).s_idx +
              rcpermtab_of s (s.ngs.bp_table bp)
                ((t.ngs.dict.dict_list (t.single_phone_wid i)).ci_phone_ids 0)) +
            env.tg_score (t.ngs.dict.dict_list (t.single_phone_wid i)).wid
              (s.ngs.bp_table bp).real_wid (s.ngs.bp_table bp).prev_real_wid then
          set_ltrans
            (set_ltrans t (t.single_phone_wid i)
              { t.last_ltrans (t.single_phone_wid i) with
                dscr := t.ngs.bscore_stack ((s.ngs.bp_table bp).s_idx +
                    rcpermtab_of s (s.ngs.bp_table bp)
                      ((t.ngs.dict.dict_list (t.single_phone_wid i)).ci_phone_ids 0)) +
                  env.tg_score (t.ngs.dict.dict_list (t.single_phone_wid i)).wid
                    (s.ngs.bp_table bp).real_wid (s.ngs.bp_table bp).prev_real_wid })
            (t.single_phone_wid i)
            { (set_ltrans t (t.single_phone_wid i)
                { t.last_ltrans (t.single_phone_wid i) with
                  dscr := t.ngs.bscore_stack ((s.ngs.bp_table bp).s_idx +
                      rcpermtab_of s (s.ngs.bp_table bp)
                        ((t.ngs.dict.dict_list (t.single_phone_wid i)).ci_phone_ids 0)) +
                    env.tg_score (t.ngs.dict.dict_list (t.single_phone_wid i)).wid
                      (s.ngs.bp_table bp).real_wid
                      (s.ngs.bp_table bp).prev_real_wid }).last_ltrans
                (t.single_phone_wid i) with bp := bp }
        else t)
      s.n_1ph_LMwords.toNat 0 s
      (by
        intro i t hi1 hi2 ht
        obtain ⟨tp, tacc⟩ := ht
        obtain ⟨_, f2, f3, f4, _, _, f7, f8, _⟩ := wt_pre_fields d t tp
        have hcand : t.ngs.bscore_stack ((s.ngs.bp_table bp).s_idx +
              rcpermtab_of s (s.ngs.bp_table bp)
                ((t.ngs.dict.dict_list (t.single_phone_wid i)).ci_phone_ids 0)) +
            env.tg_score (t.ngs.dict.dict_list (t.single_phone_wid i)).wid
              (s.ngs.bp_table bp).real_wid (s.ngs.bp_table bp).prev_real_wid
            = lm_cand env d bp (d.single_phone_wid i) := by
          unfold lm_cand rcpermtab_of
          rw [f3, f4, f8, e2, e7]
        have hlm : is_lm d (d.single_phone_wid i) := by
          refine ⟨i, hi1, ?_, rfl⟩
          rw [e9] at hi2
          omega
        dsimp only
        rw [hcand, f8]
        by_cases hdone : ∃ j, 0 ≤ j ∧ j < i ∧ d.single_phone_wid j = d.single_phone_wid i
        · have hacc1 := (tacc _ hlm).1 hdone
          have hle := hacc1.1 bp hlo (by omega) hv1
          rw [if_neg (by omega)]
          refine ⟨tp, ?_⟩
          intro w hw
          refine ⟨fun _ => ?_, fun hn => ?_⟩
          · by_cases hww : w = d.single_phone_wid i
            · rw [hww]
              exact hacc1
            · apply (tacc w hw).1
              rename_i hj
              obtain ⟨j, j0, j1, j2⟩ := hj
              refine ⟨j, j0, ?_, j2⟩
              by_cases hji : j = i
              · rw [hji] at j2
                exact absurd j2.symm hww
              · omega
          · apply (tacc w hw).2
            intro ⟨j, j0, j1, j2⟩
            exact hn ⟨j, j0, by omega, j2⟩
        · have hacc0 := (tacc _ hlm).2 hdone
          split
          · rename_i hlt
            refine ⟨wt_pre_set_ltrans d _ _ _ (wt_pre_set_ltrans d _ _ _ tp), ?_⟩
            intro w hw
            by_cases hww : w = d.single_phone_wid i
            · rw [hww]
              refine ⟨fun _ => ?_, fun hn => absurd ⟨i, hi1, by omega, rfl⟩ hn⟩
              have key := lt_acc_take env d lo bp _ _ _ hlo hv1 hlt hacc0
                (t.last_ltrans (d.single_phone_wid i)).sf
              simp only [set_ltrans, store_same]
              exact key
            · have hs : (set_ltrans (set_ltrans t (d.single_phone_wid i)
                  { t.last_ltrans (d.single_phone_wid i) with
                    dscr := lm_cand env d bp (d.single_phone_wid i) })
                  (d.single_phone_wid i)
                  { (set_ltrans t (d.single_phone_wid i)
                      { t.last_ltrans (d.single_phone_wid i) with
                        dscr := lm_cand env d bp (d.single_phone_wid i) }).last_ltrans
                      (d.single_phone_wid i) with bp := bp }).last_ltrans w
                  = t.last_ltrans w := by
                show store (store t.last_ltrans _ _) _ _ w = _
                rw [store_ne _ _ _ _ hww, store_ne _ _ _ _ hww]
              rw [hs]
              refine ⟨fun hj => ?_, fun hn => ?_⟩
              · apply (tacc w hw).1
                obtain ⟨j, j0, j1, j2⟩ := hj
                refine ⟨j, j0, ?_, j2⟩
                by_cases hji : j = i
                · rw [hji] at j2
                  exact absurd j2.symm hww
                · omega
              · apply (tacc w hw).2
                intro ⟨j, j0, j1, j2⟩
                exact hn ⟨j, j0, by omega, j2⟩
          · rename_i hlt
            refine ⟨tp, ?_⟩
            intro w hw
            by_cases hww : w = d.single_phone_wid i
            · rw [hww]
              refine ⟨fun _ => ?_, fun hn => absurd ⟨i, hi1, by omega, rfl⟩ hn⟩
              exact lt_acc_keep env d lo bp _ _ _ hlt hacc0
            · refine ⟨fun hj => ?_, fun hn => ?_⟩
              · apply (tacc w hw).1
                obtain ⟨j, j0, j1, j2⟩ := hj
                refine ⟨j, j0, ?_, j2⟩
                by_cases hji : j = i
                · rw [hji] at j2
                  exact absurd j2.symm hww
                · omega
              · apply (tacc w hw).2
                intro ⟨j, j0, j1, j2⟩
                exact hn ⟨j, j0, by omega, j2⟩)
      ⟨hpre, fun w hw => ⟨fun ⟨j, j0, j1, _⟩ => absurd j1 (by omega), fun _ => hacc w hw⟩⟩
    refine ⟨hloop.1, ?_⟩
    intro w hw
    apply (hloop.2 w hw).1
    obtain ⟨j, j0, j1, j2⟩ := hw
    refine ⟨j, j0, ?_, j2⟩
    rw [e9]
    omega

theorem wt_pre_finish (d s : decoder_t) (h : wt_pre d s) :
    s.finish_wid = d.finish_wid ∧ s.sil = d.sil ∧ s.silpen = d.silpen ∧
    s.fillpen = d.fillpen ∧ s.nwpen = d.nwpen := by
  unfold wt_pre at h
  have e1 := congrArg (fun x : decoder_t => x.finish_wid) h
  have e2 := congrArg (fun x : decoder_t => x.sil) h
  have e3 := congrArg (fun x : decoder_t => x.silpen) h
  have e4 := congrArg (fun x : decoder_t => x.fillpen) h
  have e5 := congrArg (fun x : decoder_t => x.nwpen) h
  exact ⟨e1, e2, e3, e4, e5⟩

theorem wt_best_rc_ltrans (bp : Int) (sk : decoder_t × Int) :
    (wt_best_rc bp sk).1.last_ltrans = sk.1.last_ltrans := by
  unfold wt_best_rc
  dsimp only
  split
  · rfl
  · dsimp only
    apply iter_down_inv (fun s : decoder_t => s.last_ltrans = sk.1.last_ltrans)
    · intro rc s _ _ hs
      dsimp only
      split
      · exact hs
      · exact hs
    · rfl

theorem wt_root_ltrans (f thresh i : Int) (s : decoder_t) :
    (wt_root f thresh i s).last_ltrans = s.last_ltrans := by
  unfold wt_root
  dsimp only
  split
  · split
    · rfl
    · rfl
  · rfl

/-- The count of the first loop of `word_transition`: not negative, and
positive once an exit of a word other than `finish_wid` has been met. -/
theorem wt_best_rc_count (d : decoder_t) (lo : Int) (i : Int) (sk : decoder_t × Int)
    (hpre : wt_pre d sk.1)
    (h : 0 ≤ sk.2 ∧ ((∃ b, lo ≤ b ∧ b < i ∧ (d.ngs.bp_table b).wid ≠ d.finish_wid) → 0 < sk.2)) :
    0 ≤ (wt_best_rc i sk).2 ∧
    ((∃ b, lo ≤ b ∧ b < i + 1 ∧ (d.ngs.bp_table b).wid ≠ d.finish_wid) →
      0 < (wt_best_rc i sk).2) := by
  obtain ⟨_, e2, _⟩ := wt_pre_fields d sk.1 hpre
  obtain ⟨e1, _⟩ := wt_pre_finish d sk.1 hpre
  unfold wt_best_rc
  dsimp only
  split
  · rename_i hfin
    have hfin1 : (d.ngs.bp_table i).wid = d.finish_wid := by
      rw [← e2, ← e1]
      exact hfin
    refine ⟨h.1, ?_⟩
    intro ⟨b, b1, b2, b3⟩
    apply h.2
    refine ⟨b, b1, ?_, b3⟩
    by_cases hb : b = i
    · rw [hb] at b3
      exact absurd hfin1 b3
    · omega
  · dsimp only
    exact ⟨by omega, fun _ => by omega⟩

/-- The reset of `last_ltrans[w].dscr` for the single-phone words of the
language model: every record accounts for no entry yet. -/
theorem wt_reset_acc (env : env_t) (d s : decoder_t) (lo : Int) (hpre : wt_pre d s)
    (hl : s.last_ltrans = d.last_ltrans) :
    wt_pre d (iter_up
      (fun i (t : decoder_t) =>
        set_ltrans t (t.single_phone_wid i)
          { t.last_ltrans (t.single_phone_wid i) with dscr := INT32_MIN })
      s.n_1ph_LMwords.toNat 0 s) ∧
    ∀ w, is_lm d w → lt_acc env d lo lo w (d.last_ltrans w).bp
      ((iter_up
        (fun i (t : decoder_t) =>
          set_ltrans t (t.single_phone_wid i)
            { t.last_ltrans (t.single_phone_wid i) with dscr := INT32_MIN })
        s.n_1ph_LMwords.toNat 0 s).last_ltrans w) := by
  obtain ⟨_, _, _, _, _, _, _, _, e9, _⟩ := wt_pre_fields d s hpre
  have hloop := iter_up_ind
    (fun k (t : decoder_t) => wt_pre d t ∧
      (∀ w, (t.last_ltrans w).bp = (d.last_ltrans w).bp) ∧
      ∀ w, (∃ j, 0 ≤ j ∧ j < k ∧ d.single_phone_wid j = w) →
        (t.last_ltrans w).dscr = INT32_MIN)
    (fun i (t : decoder_t) =>
      set_ltrans t (t.single_phone_wid i)
        { t.last_ltrans (t.single_phone_wid i) with dscr := INT32_MIN })
    s.n_1ph_LMwords.toNat 0 s
    (by
      intro i t hi1 hi2 ht
      obtain ⟨tp, tb, td⟩ := ht
      obtain ⟨_, _, _, _, _, _, _, f8, _⟩ := wt_pre_fields d t tp
      dsimp only
      rw [f8]
      refine ⟨wt_pre_set_ltrans d t _ _ tp, ?_, ?_⟩
      · intro w
        show (store t.last_ltrans _ _ w).bp = _
        by_cases hw : w = d.single_phone_wid i
        · rw [hw, store_same]
          exact tb _
        · rw [store_ne _ _ _ _ hw]
          exact tb w
      · intro w hj
        show (store t.last_ltrans _ _ w).dscr = _
        by_cases hw : w = d.single_phone_wid i
        · rw [hw, store_same]
        · rw [store_ne _ _ _ _ hw]
          apply td
          obtain ⟨j, j0, j1, j2⟩ := hj
          refine ⟨j, j0, ?_, j2⟩
          by_cases hji : j = i
          · rw [hji] at j2
            exact absurd j2.symm hw
          · omega)
    ⟨hpre, fun w => by rw [hl], fun w ⟨j, j0, j1, _⟩ => absurd j1 (by omega)⟩
  refine ⟨hloop.1, ?_⟩
  intro w hw
  refine ⟨fun b b1 b2 _ => absurd b2 (by omega), Or.inl ⟨?_, hloop.2.1 w⟩⟩
  apply hloop.2.2 w
  obtain ⟨j, j0, j1, j2⟩ := hw
  refine ⟨j, j0, ?_, j2⟩
  rw [e9]
  omega

/-- The second loop of `word_transition` over the entries `[lo, lo + cnt)`:
the records of the single-phone words of the language model account for all
of them. -/
theorem wt_ltrans_loop_acc (env : env_t) (d s : decoder_t) (lo : Int) (cnt : Nat)
    (hpre : wt_pre d s)
    (hacc : ∀ w, is_lm d w → lt_acc env d lo lo w (d.last_ltrans w).bp (s.last_ltrans w)) :
    wt_pre d (iter_up (wt_ltrans env) cnt lo s) ∧
    ∀ w, is_lm d w → lt_acc env d lo (lo + cnt) w (d.last_ltrans w).bp
      ((iter_up (wt_ltrans env) cnt lo s).last_ltrans w) :=
  iter_up_ind
    (fun B (t : decoder_t) => wt_pre d t ∧
      ∀ w, is_lm d w → lt_acc env d lo B w (d.last_ltrans w).bp (t.last_ltrans w))
    (wt_ltrans env) cnt lo s
    (fun i t hi1 _ ht => wt_ltrans_acc env d t lo i hi1 ht.1 ht.2)
    ⟨hpre, hacc⟩

theorem wt_frame_of_pre (d s : decoder_t) (h : wt_pre d s) : wt_frame d s := by
  unfold wt_pre at h
  unfold wt_frame
  have e := congrArg (fun x : decoder_t => x.all_rhmm) h
  rw [h]

theorem wt_frame_set_rhmm_hmm (d s : decoder_t) (w : Int) (v : hmm_t) (h : wt_frame d s) :
    wt_frame d (set_rhmm_hmm s w v) := by
  unfold wt_frame at h ⊢
  unfold set_rhmm_hmm
  rw [h]

/-- What `wt_frame` leaves as it was. -/
theorem wt_frame_fields (d s : decoder_t) (h : wt_frame d s) :
    s.ngs.bp_table = d.ngs.bp_table ∧ s.ngs.dict = d.ngs.dict ∧ s.xwd = d.xwd ∧
    s.single_phone_wid = d.single_phone_wid ∧ s.n_1ph_LMwords = d.n_1ph_LMwords ∧
    s.pip = d.pip ∧ s.best_score = d.best_score ∧ s.dynamic_beam = d.dynamic_beam ∧
    s.ngs.silence_wid = d.ngs.silence_wid ∧ s.sil = d.sil ∧ s.silpen = d.silpen ∧
    s.fillpen = d.fillpen := by
  unfold wt_frame at h
  have e1 := congrArg (fun x : decoder_t => x.ngs.bp_table) h
  have e2 := congrArg (fun x : decoder_t => x.ngs.dict) h
  have e3 := congrArg (fun x : decoder_t => x.xwd) h
  have e4 := congrArg (fun x : decoder_t => x.single_phone_wid) h
  have e5 := congrArg (fun x : decoder_t => x.n_1ph_LMwords) h
  have e6 := congrArg (fun x : decoder_t => x.pip) h
  have e7 := congrArg (fun x : decoder_t => x.best_score) h
  have e8 := congrArg (fun x : decoder_t => x.dynamic_beam) h
  have e9 := congrArg (fun x : decoder_t => x.ngs.silence_wid) h
  have e10 := congrArg (fun x : decoder_t => x.sil) h
  have e11 := congrArg (fun x : decoder_t => x.silpen) h
  have e12 := congrArg (fun x : decoder_t => x.fillpen) h
  exact ⟨e1, e2, e3, e4, e5, e6, e7, e8, e9, e10, e11, e12⟩

/-- A channel that has had its transition is not entered again by the same
transition. -/
theorem single_entered_done (d : decoder_t) (f w dscr bp : Int)
    (ht : dscr + d.pip > d.best_score + d.dynamic_beam) :
    wt_enter_ok (single_entered d f w dscr bp).hmm f (dscr + d.pip) = false := by
  unfold single_entered
  split
  · rename_i hc
    unfold wt_enter_ok
    apply decide_eq_false
    split
    · show ¬ (f + 1 < f ∨ dscr + d.pip < dscr + d.pip)
      omega
    · show ¬ (f + 1 < f ∨ dscr + d.pip < dscr + d.pip)
      omega
  · rename_i hc
    unfold wt_enter_ok
    apply decide_eq_false
    intro hx
    exact hc ⟨ht, hx⟩

/-- One transition into the single-phone word listed at `k`, from a state in
which the words listed before have had theirs. -/
theorem wt_single_step (d s : decoder_t) (f k : Int) (hk : 0 ≤ k)
    (hf : wt_frame d s)
    (hbp : 0 ≤ (s.last_ltrans (d.single_phone_wid k)).bp)
    (hall : ∀ w,
      ((∃ j, 0 ≤ j ∧ j < k ∧ d.single_phone_wid j = w) →
        s.all_rhmm w = single_entered d f w (s.last_ltrans w).dscr (s.last_ltrans w).bp) ∧
      (¬ (∃ j, 0 ≤ j ∧ j < k ∧ d.single_phone_wid j = w) → s.all_rhmm w = d.all_rhmm w)) :
    ∃ s1, wt_single f (d.best_score + d.dynamic_beam) k s = Except.ok s1 ∧
      wt_frame d s1 ∧ s1.last_ltrans = s.last_ltrans ∧
      ∀ w,
        ((∃ j, 0 ≤ j ∧ j < k + 1 ∧ d.single_phone_wid j = w) →
          s1.all_rhmm w
            = single_entered d f w (s.last_ltrans w).dscr (s.last_ltrans w).bp) ∧
        (¬ (∃ j, 0 ≤ j ∧ j < k + 1 ∧ d.single_phone_wid j = w) →
          s1.all_rhmm w = d.all_rhmm w) := by
  obtain ⟨f1, f2, f3, f4, _, f6, _⟩ := wt_frame_fields d s hf
  have hother : ∀ w, w ≠ d.single_phone_wid k →
      ((∃ j, 0 ≤ j ∧ j < k + 1 ∧ d.single_phone_wid j = w) →
        s.all_rhmm w = single_entered d f w (s.last_ltrans w).dscr (s.last_ltrans w).bp) ∧
      (¬ (∃ j, 0 ≤ j ∧ j < k + 1 ∧ d.single_phone_wid j = w) →
        s.all_rhmm w = d.all_rhmm w) := by
    intro w hw
    refine ⟨fun hj => ?_, fun hn => ?_⟩
    · apply (hall w).1
      obtain ⟨j, j0, j1, j2⟩ := hj
      refine ⟨j, j0, ?_, j2⟩
      by_cases hji : j = k
      · rw [hji] at j2
        exact absurd j2.symm hw
      · omega
    · apply (hall w).2
      intro ⟨j, j0, j1, j2⟩
      exact hn ⟨j, j0, by omega, j2⟩
  have hsame : ∀ s1 : decoder_t, s1 = s →
      s.all_rhmm (d.single_phone_wid k)
        = single_entered d f (d.single_phone_wid k)
          (s.last_ltrans (d.single_phone_wid k)).dscr
          (s.last_ltrans (d.single_phone_wid k)).bp →
      wt_frame d s1 ∧ s1.last_ltrans = s.last_ltrans ∧
      ∀ w,
        ((∃ j, 0 ≤ j ∧ j < k + 1 ∧ d.single_phone_wid j = w) →
          s1.all_rhmm w
            = single_entered d f w (s.last_ltrans w).dscr (s.last_ltrans w).bp) ∧
        (¬ (∃ j, 0 ≤ j ∧ j < k + 1 ∧ d.single_phone_wid j = w) →
          s1.all_rhmm w = d.all_rhmm w) := by
    intro s1 e1 he
    rw [e1]
    refine ⟨hf, rfl, ?_⟩
    intro w
    by_cases hw : w = d.single_phone_wid k
    · rw [hw]
      exact ⟨fun _ => he, fun hn => absurd ⟨k, hk, by omega, rfl⟩ hn⟩
    · exact hother w hw
  unfold wt_single
  dsimp only
  rw [f4, f6]
  by_cases hdone : ∃ j, 0 ≤ j ∧ j < k ∧ d.single_phone_wid j = d.single_phone_wid k
  · have hE := (hall _).1 hdone
    split
    · rename_i hth
      have hb : ¬ (s.last_ltrans (d.single_phone_wid k)).bp < 0 := by omega
      simp only [bp_deref, if_neg hb]
      have hno := single_entered_done d f (d.single_phone_wid k) _
        (s.last_ltrans (d.single_phone_wid k)).bp hth
      rw [← hE] at hno
      rw [if_neg (by rw [hno]; simp)]
      exact ⟨s, rfl, hsame s rfl hE⟩
    · exact ⟨s, rfl, hsame s rfl hE⟩
  · have hD := (hall _).2 hdone
    split
    · rename_i hth
      have hb : ¬ (s.last_ltrans (d.single_phone_wid k)).bp < 0 := by omega
      simp only [bp_deref, if_neg hb]
      by_cases hen : wt_enter_ok (s.all_rhmm (d.single_phone_wid k)).hmm f
          ((s.last_ltrans (d.single_phone_wid k)).dscr + d.pip) = true
      · rw [if_pos hen]
        refine ⟨_, rfl, wt_frame_set_rhmm_hmm d s _ _ hf, rfl, ?_⟩
        intro w
        by_cases hw : w = d.single_phone_wid k
        · rw [hw]
          refine ⟨fun _ => ?_, fun hn => absurd ⟨k, hk, by omega, rfl⟩ hn⟩
          show store s.all_rhmm _ _ (d.single_phone_wid k) = _
          rw [store_same]
          unfold wt_enter_ok at hen
          rw [hD] at hen
          have hen1 := of_decide_eq_true hen
          have hc : (s.last_ltrans (d.single_phone_wid k)).dscr + d.pip
                > d.best_score + d.dynamic_beam ∧
              ((d.all_rhmm (d.single_phone_wid k)).hmm.frame < f ∨
                (d.all_rhmm (d.single_phone_wid k)).hmm.in_score
                  < (s.last_ltrans (d.single_phone_wid k)).dscr + d.pip) := ⟨hth, hen1⟩
          unfold single_entered
          rw [if_pos hc, hD, f1, f2, f3]
          rfl
        · refine ⟨fun hj => ?_, fun hn => ?_⟩
          · show store s.all_rhmm _ _ w = _
            rw [store_ne _ _ _ _ hw]
            exact (hother w hw).1 hj
          · show store s.all_rhmm _ _ w = _
            rw [store_ne _ _ _ _ hw]
            exact (hother w hw).2 hn
      · rw [if_neg hen]
        refine ⟨s, rfl, hsame s rfl ?_⟩
        rw [hD]
        unfold single_entered
        rw [if_neg]
        intro hc
        apply hen
        unfold wt_enter_ok
        rw [hD]
        exact decide_eq_true hc.2
    · rename_i hth
      refine ⟨s, rfl, hsame s rfl ?_⟩
      rw [hD]
      unfold single_entered
      rw [if_neg]
      intro hc
      exact hth hc.1

theorem wt_filler_frame (d s : decoder_t) (f ns w : Int) (h : wt_frame d s) :
    wt_frame d (wt_filler f ns w s) ∧ (wt_filler f ns w s).last_ltrans = s.last_ltrans ∧
    ∀ v, v ≠ w → (wt_filler f ns w s).all_rhmm v = s.all_rhmm v := by
  unfold wt_filler
  dsimp only
  split
  · refine ⟨wt_frame_set_rhmm_hmm d s _ _ h, rfl, ?_⟩
    intro v hv
    show store s.all_rhmm _ _ v = _
    rw [store_ne _ _ _ _ hv]
  · exact ⟨h, rfl, fun _ _ => rfl⟩

/-- The transitions of `word_transition` into the single-phone words of the
language model, when the frame has an exit of a word other than `finish_wid`:
the call returns, every record `last_ltrans[w]` accounts for the valid
entries of the frame, and the channel of `w` is `single_entered`. -/
theorem word_transition_single_ok (env : env_t) (d : decoder_t) (f : Int)
    (h0 : 0 ≤ d.ngs.bp_table_idx f) (hp : ∀ w, 0 ≤ (d.last_ltrans w).bp)
    (hex : ∃ b, d.ngs.bp_table_idx f ≤ b ∧ b < d.ngs.bpidx ∧
      (d.ngs.bp_table b).wid ≠ d.finish_wid)
    (hsil : ∀ w, is_lm d w → w < d.ngs.silence_wid) :
    ∃ d1, word_transition env d f = Except.ok d1 ∧
      ∀ w, is_lm d w →
        lt_acc env d (d.ngs.bp_table_idx f) d.ngs.bpidx w (d.last_ltrans w).bp
          (d1.last_ltrans w) ∧
        d1.all_rhmm w = single_entered d f w (d1.last_ltrans w).dscr (d1.last_ltrans w).bp := by
  unfold word_transition
  dsimp only
  generalize hD : iter_down _ d.ngs.n_ciphone.toNat (d.ngs.n_ciphone - 1) d = D
  have hD1 : wt_pre d D ∧ D.last_ltrans = d.last_ltrans := by
    rw [← hD]
    apply iter_down_inv (fun s : decoder_t => wt_pre d s ∧ s.last_ltrans = d.last_ltrans)
    · intro rc s _ _ hs
      exact ⟨wt_pre_set_bestbp_rc d s rc _ hs.1, hs.2⟩
    · exact ⟨wt_pre_refl d, rfl⟩
  clear hD
  obtain ⟨_, _, _, _, eD5, eD6, _⟩ := wt_pre_fields d D hD1.1
  rw [eD5, eD6]
  obtain ⟨b0, hb1, hb2, hb3⟩ := hex
  have hcnt : d.ngs.bp_table_idx f + ((d.ngs.bpidx - d.ngs.bp_table_idx f).toNat : Int)
      = d.ngs.bpidx := by omega
  generalize hR : iter_up wt_best_rc (d.ngs.bpidx - d.ngs.bp_table_idx f).toNat
    (d.ngs.bp_table_idx f) (D, 0) = R
  have hR1 : (0 ≤ R.2 ∧ ((∃ b, d.ngs.bp_table_idx f ≤ b ∧ b < d.ngs.bpidx ∧
        (d.ngs.bp_table b).wid ≠ d.finish_wid) → 0 < R.2)) ∧
      wt_pre d R.1 ∧ R.1.last_ltrans = d.last_ltrans := by
    rw [← hR]
    have hl := iter_up_ind
      (fun i (sk : decoder_t × Int) =>
        (0 ≤ sk.2 ∧ ((∃ b, d.ngs.bp_table_idx f ≤ b ∧ b < i ∧
          (d.ngs.bp_table b).wid ≠ d.finish_wid) → 0 < sk.2)) ∧
        wt_pre d sk.1 ∧ sk.1.last_ltrans = d.last_ltrans)
      wt_best_rc (d.ngs.bpidx - d.ngs.bp_table_idx f).toNat (d.ngs.bp_table_idx f) (D, 0)
      (fun i sk _ _ hs =>
        ⟨wt_best_rc_count d _ i sk hs.2.1 hs.1, wt_pre_best_rc d i sk hs.2.1,
          (wt_best_rc_ltrans i sk).trans hs.2.2⟩)
      ⟨⟨le_refl _, fun ⟨b, c1, c2, _⟩ => absurd c2 (by omega)⟩, hD1⟩
    rw [hcnt] at hl
    exact hl
  clear hR
  have hk : ¬ R.2 = 0 := by
    have := hR1.1.2 ⟨b0, hb1, hb2, hb3⟩
    omega
  rw [if_neg hk]
  obtain ⟨_, _, _, _, _, _, _, _, _, _, eR11, eR12, _, eR14⟩ := wt_pre_fields d R.1 hR1.2.1
  rw [eR11, eR12, eR14]
  generalize hT : iter_up (wt_root f (d.best_score + d.dynamic_beam)) d.n_root_chan.toNat 0 R.1
    = T
  have hT1 : wt_pre d T ∧ T.last_ltrans = d.last_ltrans := by
    rw [← hT]
    apply iter_up_inv (fun s : decoder_t => wt_pre d s ∧ s.last_ltrans = d.last_ltrans)
    · intro i s _ _ hs
      exact ⟨wt_pre_root d f _ i s hs.1, (wt_root_ltrans f _ i s).trans hs.2⟩
    · exact hR1.2
  clear hT
  obtain ⟨hU1, hU2⟩ := wt_reset_acc env d T (d.ngs.bp_table_idx f) hT1.1 hT1.2
  generalize iter_up
    (fun i (t : decoder_t) =>
      set_ltrans t (t.single_phone_wid i)
        { t.last_ltrans (t.single_phone_wid i) with dscr := INT32_MIN })
    T.n_1ph_LMwords.toNat 0 T = U at hU1 hU2 ⊢
  obtain ⟨hV1, hV2⟩ := wt_ltrans_loop_acc env d U (d.ngs.bp_table_idx f)
    (d.ngs.bpidx - d.ngs.bp_table_idx f).toNat hU1 hU2
  rw [hcnt] at hV2
  generalize iter_up (wt_ltrans env) (d.ngs.bpidx - d.ngs.bp_table_idx f).toNat
    (d.ngs.bp_table_idx f) U = V at hV1 hV2 ⊢
  obtain ⟨eV1, _, _, _, _, _, _, _, eV9, _⟩ := wt_pre_fields d V hV1
  have hbpV : ∀ w, is_lm d w → 0 ≤ (V.last_ltrans w).bp := by
    intro w hw
    rcases (hV2 w hw).2 with ⟨_, e⟩ | ⟨e, _⟩
    · rw [e]
      exact hp w
    · omega
  have hloop := for_up_total_ind
    (fun k (s : decoder_t) => wt_frame d s ∧ s.last_ltrans = V.last_ltrans ∧
      ∀ w,
        ((∃ j, 0 ≤ j ∧ j < k ∧ d.single_phone_wid j = w) →
          s.all_rhmm w = single_entered d f w (s.last_ltrans w).dscr (s.last_ltrans w).bp) ∧
        (¬ (∃ j, 0 ≤ j ∧ j < k ∧ d.single_phone_wid j = w) → s.all_rhmm w = d.all_rhmm w))
    (wt_single f (d.best_score + d.dynamic_beam)) V.n_1ph_LMwords.toNat 0 V
    (by
      intro k s hk0 hk1 hs
      obtain ⟨sf, sl, sa⟩ := hs
      have hlm : is_lm d (d.single_phone_wid k) := ⟨k, hk0, by rw [eV9] at hk1; omega, rfl⟩
      obtain ⟨s1, r1, r2, r3, r4⟩ := wt_single_step d s f k hk0 sf
        (by rw [sl]; exact hbpV _ hlm) sa
      refine ⟨s1, r1, r2, r3.trans sl, ?_⟩
      rw [r3]
      exact r4)
    ⟨wt_frame_of_pre d V hV1, rfl,
      fun w => ⟨fun ⟨j, _, j1, _⟩ => absurd j1 (by omega), fun _ => by rw [eV1]⟩⟩
  obtain ⟨W, hW, hWf, hWl, hWa⟩ := hloop
  rw [hW]
  dsimp only
  obtain ⟨_, _, _, _, _, _, eW7, eW8, eW9, _⟩ := wt_frame_fields d W hWf
  have hX : ∀ X : decoder_t,
      (wt_frame d X ∧ X.last_ltrans = V.last_ltrans ∧
        ∀ v, v < d.ngs.silence_wid → X.all_rhmm v = W.all_rhmm v) →
      ∀ w, is_lm d w →
        lt_acc env d (d.ngs.bp_table_idx f) d.ngs.bpidx w (d.last_ltrans w).bp
          (X.last_ltrans w) ∧
        X.all_rhmm w = single_entered d f w (X.last_ltrans w).dscr (X.last_ltrans w).bp := by
    intro X hX w hw
    rw [hX.2.1, hX.2.2 w (hsil w hw)]
    refine ⟨hV2 w hw, ?_⟩
    have := (hWa w).1 (by
      obtain ⟨j, j0, j1, j2⟩ := hw
      exact ⟨j, j0, by rw [eV9]; omega, j2⟩)
    rw [hWl] at this
    exact this
  refine ⟨_, rfl, hX _ ?_⟩
  have h7 : ∀ Y : decoder_t, (wt_frame d Y ∧ Y.last_ltrans = V.last_ltrans ∧
        ∀ v, v < d.ngs.silence_wid → Y.all_rhmm v = W.all_rhmm v) →
      ∀ ns, (wt_frame d (wt_filler f ns Y.ngs.silence_wid Y) ∧
        (wt_filler f ns Y.ngs.silence_wid Y).last_ltrans = V.last_ltrans ∧
        ∀ v, v < d.ngs.silence_wid →
          (wt_filler f ns Y.ngs.silence_wid Y).all_rhmm v = W.all_rhmm v) := by
    intro Y hY ns
    obtain ⟨g1, g2, g3⟩ := wt_filler_frame d Y f ns Y.ngs.silence_wid hY.1
    obtain ⟨_, _, _, _, _, _, _, _, eY9, _⟩ := wt_frame_fields d Y hY.1
    refine ⟨g1, g2.trans hY.2.1, ?_⟩
    intro v hv
    rw [g3 v (by rw [eY9]; omega)]
    exact hY.2.2 v hv
  have hd7 : ∀ Y : decoder_t, (wt_frame d Y ∧ Y.last_ltrans = V.last_ltrans ∧
        ∀ v, v < d.ngs.silence_wid → Y.all_rhmm v = W.all_rhmm v) →
      ∀ (c : Prop) [Decidable c] (ns : Int), (wt_frame d (if c then wt_filler f ns Y.ngs.silence_wid Y else Y) ∧
        (if c then wt_filler f ns Y.ngs.silence_wid Y else Y).last_ltrans = V.last_ltrans ∧
        ∀ v, v < d.ngs.silence_wid →
          (if c then wt_filler f ns Y.ngs.silence_wid Y else Y).all_rhmm v = W.all_rhmm v) := by
    intro Y hY c _ ns
    by_cases hc : c
    · rw [if_pos hc]
      exact h7 Y hY ns
    · rw [if_neg hc]
      exact hY
  have hW0 : wt_frame d W ∧ W.last_ltrans = V.last_ltrans ∧
      ∀ v, v < d.ngs.silence_wid → W.all_rhmm v = W.all_rhmm v := ⟨hWf, hWl, fun _ _ => rfl⟩
  have hY7 := hd7 W hW0
    ((W.bestbp_rc W.sil).score + W.silpen + W.pip > d.best_score + d.dynamic_beam)
    ((W.bestbp_rc W.sil).score + W.silpen + W.pip)
  generalize (if (W.bestbp_rc W.sil).score + W.silpen + W.pip > d.best_score + d.dynamic_beam
    then wt_filler f ((W.bestbp_rc W.sil).score + W.silpen + W.pip) W.ngs.silence_wid W
    else W) = Y at hY7 ⊢
  split
  · obtain ⟨_, _, _, _, _, _, _, _, eY9, _⟩ := wt_frame_fields d Y hY7.1
    have hl := iter_up_ind
      (fun _ (s : decoder_t) => wt_frame d s ∧ s.last_ltrans = V.last_ltrans ∧
        ∀ v, v < d.ngs.silence_wid → s.all_rhmm v = W.all_rhmm v)
      (wt_filler f ((Y.bestbp_rc Y.sil).score + Y.fillpen + Y.pip))
      (Y.ngs.dict.dict_entry_count - (Y.ngs.silence_wid + 1)).toNat (Y.ngs.silence_wid + 1) Y
      (by
        intro i s hi1 _ hs
        obtain ⟨g1, g2, g3⟩ := wt_filler_frame d s f
          ((Y.bestbp_rc Y.sil).score + Y.fillpen + Y.pip) i hs.1
        refine ⟨g1, g2.trans hs.2.1, ?_⟩
        intro v hv
        rw [g3 v (by rw [eY9] at hi1; omega)]
        exact hs.2.2 v hv)
      hY7
    exact hl
  · exact hY7

/-- C26: when the frame `f` has an exit of a word other than `finish_wid`,
`word_transition` returns, and for every single-phone word `w` of the
language model (listed among the first `n_1ph_LMwords` entries of
`single_phone_wid`): `last_ltrans[w].dscr` bounds from above the transition
score `bscore_stack[b.s_idx + perm_b[first CI phone of w]] + tg_score(w |
b.real_wid, b.prev_real_wid)` of every valid entry `b` of the frame; if some
valid entry scores above the initial `INT32_MIN`, `last_ltrans[w].bp` is a
valid entry of the frame attaining `dscr`, the one of lowest index; and the
channel of `w` is entered with `(dscr + pip, bp, f + 1)` when `dscr + pip >
best_score + dynamic_beam` and (its frame stamp is below `f` or its pending
entry score below `dscr + pip`), and is as before otherwise. -/
theorem word_transition_single_lm (env : env_t) (d : decoder_t) (f : Int)
    (h0 : 0 ≤ d.ngs.bp_table_idx f) (hp : ∀ w, 0 ≤ (d.last_ltrans w).bp)
    (hex : ∃ b, d.ngs.bp_table_idx f ≤ b ∧ b < d.ngs.bpidx ∧
      (d.ngs.bp_table b).wid ≠ d.finish_wid)
    (hsil : ∀ w, is_lm d w → w < d.ngs.silence_wid) :
    ∃ d1, word_transition env d f = Except.ok d1 ∧
      ∀ w, is_lm d w →
        (∀ b, d.ngs.bp_table_idx f ≤ b → b < d.ngs.bpidx →
          (d.ngs.bp_table b).valid = true → lm_cand env d b w ≤ (d1.last_ltrans w).dscr) ∧
        ((∃ b, d.ngs.bp_table_idx f ≤ b ∧ b < d.ngs.bpidx ∧
            (d.ngs.bp_table b).valid = true ∧ INT32_MIN < lm_cand env d b w) →
          d.ngs.bp_table_idx f ≤ (d1.last_ltrans w).bp ∧
          (d1.last_ltrans w).bp < d.ngs.bpidx ∧
          (d.ngs.bp_table (d1.last_ltrans w).bp).valid = true ∧
          lm_cand env d (d1.last_ltrans w).bp w = (d1.last_ltrans w).dscr ∧
          ∀ b, d.ngs.bp_table_idx f ≤ b → b < (d1.last_ltrans w).bp →
            (d.ngs.bp_table b).valid = true → lm_cand env d b w < (d1.last_ltrans w).dscr) ∧
        d1.all_rhmm w
          = single_entered d f w (d1.last_ltrans w).dscr (d1.last_ltrans w).bp ∧
        (((d1.last_ltrans w).dscr + d.pip > d.best_score + d.dynamic_beam ∧
            ((d.all_rhmm w).hmm.frame < f ∨
              (d.all_rhmm w).hmm.in_score < (d1.last_ltrans w).dscr + d.pip)) →
          (d1.all_rhmm w).hmm.in_score = (d1.last_ltrans w).dscr + d.pip ∧
          (d1.all_rhmm w).hmm.in_history = (d1.last_ltrans w).bp ∧
          (d1.all_rhmm w).hmm.frame = f + 1) ∧
        (¬ ((d1.last_ltrans w).dscr + d.pip > d.best_score + d.dynamic_beam ∧
            ((d.all_rhmm w).hmm.frame < f ∨
              (d.all_rhmm w).hmm.in_score < (d1.last_ltrans w).dscr + d.pip)) →
          d1.all_rhmm w = d.all_rhmm w) := by
  obtain ⟨d1, hrun, hall⟩ := word_transition_single_ok env d f h0 hp hex hsil
  refine ⟨d1, hrun, ?_⟩
  intro w hw
  obtain ⟨⟨a1, a2⟩, a3⟩ := hall w hw
  refine ⟨a1, ?_, a3, ?_, ?_⟩
  · intro ⟨b, b1, b2, b3, b4⟩
    have hle := a1 b b1 b2 b3
    rcases a2 with ⟨c1, _⟩ | c
    · omega
    · exact c
  · intro hc
    rw [a3]
    unfold single_entered
    rw [if_pos hc]
    dsimp only
    split
    · exact ⟨rfl, rfl, rfl⟩
    · exact ⟨rfl, rfl, rfl⟩
  · intro hc
    rw [a3]
    unfold single_entered
    rw [if_neg hc]

theorem is_lm_ex_open (w : Int) (h : is_lm ex_open_dec w) : w = 2 := by
  obtain ⟨j, j0, j1, j2⟩ := h
  have j3 : j < 1 := j1
  have e : j = 0 := by omega
  rw [e] at j2
  exact j2.symm

set_option maxRecDepth 100000 in
/-- Frame 5 of the test decoder with the exits of words 0 and 1, both valid:
for `</s>`, the only single-phone word of the language model, entry 1 scores
`WORST_SCORE` and entry 2 scores -20, so `last_ltrans` holds -20 from entry
2 and the channel of `</s>` is entered with -20 and history 2 for frame 6. -/
theorem word_transition_single_lm_witness :
    0 ≤ ex_open_dec.ngs.bp_table_idx 5 ∧ (∀ w, 0 ≤ (ex_open_dec.last_ltrans w).bp) ∧
    (∃ b, ex_open_dec.ngs.bp_table_idx 5 ≤ b ∧ b < ex_open_dec.ngs.bpidx ∧
      (ex_open_dec.ngs.bp_table b).wid ≠ ex_open_dec.finish_wid) ∧
    (∀ w, is_lm ex_open_dec w → w < ex_open_dec.ngs.silence_wid) ∧
    is_lm ex_open_dec 2 ∧
    lm_cand ex_env ex_open_dec 1 2 = WORST_SCORE ∧ lm_cand ex_env ex_open_dec 2 2 = -20 ∧
    cap_wt_returns ex_env ex_open_dec 5 = true ∧
    ((cap_wt_out ex_env ex_open_dec 5).last_ltrans 2).dscr = -20 ∧
    ((cap_wt_out ex_env ex_open_dec 5).last_ltrans 2).bp = 2 ∧
    ((cap_wt_out ex_env ex_open_dec 5).all_rhmm 2).hmm.in_score = -20 ∧
    ((cap_wt_out ex_env ex_open_dec 5).all_rhmm 2).hmm.in_history = 2 ∧
    ((cap_wt_out ex_env ex_open_dec 5).all_rhmm 2).hmm.frame = 6 ∧
    ∃ d1, word_transition ex_env ex_open_dec 5 = Except.ok d1 ∧
      ∀ w, is_lm ex_open_dec w →
        (∀ b, ex_open_dec.ngs.bp_table_idx 5 ≤ b → b < ex_open_dec.ngs.bpidx →
          (ex_open_dec.ngs.bp_table b).valid = true →
          lm_cand ex_env ex_open_dec b w ≤ (d1.last_ltrans w).dscr) ∧
        ((∃ b, ex_open_dec.ngs.bp_table_idx 5 ≤ b ∧ b < ex_open_dec.ngs.bpidx ∧
            (ex_open_dec.ngs.bp_table b).valid = true ∧
            INT32_MIN < lm_cand ex_env ex_open_dec b w) →
          ex_open_dec.ngs.bp_table_idx 5 ≤ (d1.last_ltrans w).bp ∧
          (d1.last_ltrans w).bp < ex_open_dec.ngs.bpidx ∧
          (ex_open_dec.ngs.bp_table (d1.last_ltrans w).bp).valid = true ∧
          lm_cand ex_env ex_open_dec (d1.last_ltrans w).bp w = (d1.last_ltrans w).dscr ∧
          ∀ b, ex_open_dec.ngs.bp_table_idx 5 ≤ b → b < (d1.last_ltrans w).bp →
            (ex_open_dec.ngs.bp_table b).valid = true →
            lm_cand ex_env ex_open_dec b w < (d1.last_ltrans w).dscr) ∧
        d1.all_rhmm w
          = single_entered ex_open_dec 5 w (d1.last_ltrans w).dscr (d1.last_ltrans w).bp ∧
        (((d1.last_ltrans w).dscr + ex_open_dec.pip
              > ex_open_dec.best_score + ex_open_dec.dynamic_beam ∧
            ((ex_open_dec.all_rhmm w).hmm.frame < 5 ∨
              (ex_open_dec.all_rhmm w).hmm.in_score
                < (d1.last_ltrans w).dscr + ex_open_dec.pip)) →
          (d1.all_rhmm w).hmm.in_score = (d1.last_ltrans w).dscr + ex_open_dec.pip ∧
          (d1.all_rhmm w).hmm.in_history = (d1.last_ltrans w).bp ∧
          (d1.all_rhmm w).hmm.frame = 5 + 1) ∧
        (¬ ((d1.last_ltrans w).dscr + ex_open_dec.pip
              > ex_open_dec.best_score + ex_open_dec.dynamic_beam ∧
            ((ex_open_dec.all_rhmm w).hmm.frame < 5 ∨
              (ex_open_dec.all_rhmm w).hmm.in_score
                < (d1.last_ltrans w).dscr + ex_open_dec.pip)) →
          d1.all_rhmm w = ex_open_dec.all_rhmm w) :=
  have h0 : 0 ≤ ex_open_dec.ngs.bp_table_idx 5 := by decide
  have hp : ∀ w, 0 ≤ (ex_open_dec.last_ltrans w).bp := fun _ => (by decide : (0 : Int) ≤ 0)
  have hex : ∃ b, ex_open_dec.ngs.bp_table_idx 5 ≤ b ∧ b < ex_open_dec.ngs.bpidx ∧
      (ex_open_dec.ngs.bp_table b).wid ≠ ex_open_dec.finish_wid :=
    ⟨1, by decide, by decide, by decide⟩
  have hsil : ∀ w, is_lm ex_open_dec w → w < ex_open_dec.ngs.silence_wid := by
    intro w hw
    rw [is_lm_ex_open w hw]
    decide
  ⟨h0, hp, hex, hsil, ⟨0, by decide, by decide, rfl⟩, by decide!, by decide!, by decide!,
    by decide!, by decide!, by decide!, by decide!, by decide!,
    word_transition_single_lm ex_env ex_open_dec 5 h0 hp hex hsil⟩

/-! ### Chains of leaves -/

theorem chain_seg_append (nxt : Int → Int) (l1 l2 : List Int) :
    ∀ x z, chain_seg nxt x (l1 ++ l2) z ↔ ∃ y, chain_seg nxt x l1 y ∧ chain_seg nxt y l2 z := by
  induction l1 with
  | nil =>
    intro x z
    constructor
    · intro h
      exact ⟨x, rfl, h⟩
    · intro ⟨y, h1, h2⟩
      have e : x = y := h1
      rw [e]
      exact h2
  | cons a l1 ih =>
    intro x z
    constructor
    · intro h
      obtain ⟨h1, h2, h3⟩ := h
      obtain ⟨y, g1, g2⟩ := (ih _ _).mp h3
      exact ⟨y, ⟨h1, h2, g1⟩, g2⟩
    · intro ⟨y, ⟨h1, h2, h3⟩, g2⟩
      exact ⟨h1, h2, (ih _ _).mpr ⟨y, h3, g2⟩⟩

theorem chain_seg_congr (nxt nxt1 : Int → Int) (l : List Int) :
    ∀ x y, (∀ a ∈ l, nxt1 a = nxt a) → chain_seg nxt x l y → chain_seg nxt1 x l y := by
  induction l with
  | nil =>
    intro x y _ h
    exact h
  | cons a l ih =>
    intro x y hn h
    obtain ⟨h1, h2, h3⟩ := h
    refine ⟨h1, h2, ?_⟩
    rw [hn a (List.mem_cons_self a l)]
    exact ih _ _ (fun b hb => hn b (List.mem_cons_of_mem a hb)) h3

theorem chain_seg_ne_zero (nxt : Int → Int) (l : List Int) :
    ∀ x y, chain_seg nxt x l y → ∀ a ∈ l, a ≠ 0 := by
  induction l with
  | nil =>
    intro x y _ a ha
    exact absurd ha (List.not_mem_nil a)
  | cons b l ih =>
    intro x y h a ha
    obtain ⟨h1, h2, h3⟩ := h
    rcases List.mem_cons.mp ha with e | e
    · rw [e, ← h2]
      exact h1
    · exact ih _ _ h3 a e

/-- A chain ended by `NULL` is determined by its start. -/
theorem chain_seg_unique (nxt : Int → Int) (l1 : List Int) :
    ∀ x l2, chain_seg nxt x l1 0 → chain_seg nxt x l2 0 → l1 = l2 := by
  induction l1 with
  | nil =>
    intro x l2 h1 h2
    have e : x = 0 := h1
    cases l2 with
    | nil => rfl
    | cons b l2 => exact absurd e h2.1
  | cons a l1 ih =>
    intro x l2 h1 h2
    obtain ⟨g1, g2, g3⟩ := h1
    cases l2 with
    | nil =>
      have e : x = 0 := h2
      exact absurd e g1
    | cons b l2 =>
      obtain ⟨k1, k2, k3⟩ := h2
      have e : a = b := by rw [← g2, ← k2]
      subst e
      rw [ih _ l2 g3 k3]

/-- A chain ended by `NULL` meets no address twice. -/
theorem chain_seg_nodup (nxt : Int → Int) (l : List Int) :
    ∀ x, chain_seg nxt x l 0 → l.Nodup := by
  induction l with
  | nil =>
    intro x _
    exact List.nodup_nil
  | cons a l ih =>
    intro x h
    obtain ⟨h1, h2, h3⟩ := h
    refine List.nodup_cons.mpr ⟨?_, ih _ h3⟩
    intro ha
    obtain ⟨l1, l2, e⟩ := List.append_of_mem ha
    rw [e] at h3
    obtain ⟨y, g1, g2⟩ := (chain_seg_append nxt l1 (a :: l2) _ _).mp h3
    have hy : y = a := g2.2.1
    have k1 : chain_seg nxt a (a :: l2) 0 := by
      rw [hy] at g2
      exact g2
    have k2 : chain_seg nxt a (a :: (l1 ++ a :: l2)) 0 := by
      rw [e] at ha
      exact ⟨by rw [← h2]; exact h1, rfl, h3⟩
    have e2 := chain_seg_unique nxt _ a _ k1 k2
    have e3 := congrArg List.length e2
    simp only [List.length_cons, List.length_append] at e3
    omega

theorem leaf_list_nil (chan : Int → chan_t) (a : Int) : leaf_list chan a [] ↔ a = 0 :=
  Iff.rfl

theorem leaf_list_cons (chan : Int → chan_t) (a b : Int) (l : List Int) :
    leaf_list chan a (b :: l) ↔ a ≠ 0 ∧ a = b ∧ leaf_list chan (chan b).next l :=
  Iff.rfl

theorem leaf_list_unique (chan : Int → chan_t) (a : Int) (l1 l2 : List Int)
    (h1 : leaf_list chan a l1) (h2 : leaf_list chan a l2) : l1 = l2 :=
  chain_seg_unique _ l1 a l2 h1 h2

theorem leaf_list_nodup (chan : Int → chan_t) (a : Int) (l : List Int)
    (h : leaf_list chan a l) : l.Nodup :=
  chain_seg_nodup _ l a h

theorem leaf_list_ne_zero (chan : Int → chan_t) (a : Int) (l : List Int)
    (h : leaf_list chan a l) : ∀ b ∈ l, b ≠ 0 :=
  chain_seg_ne_zero _ l a 0 h

theorem leaf_list_congr (chan chan1 : Int → chan_t) (a : Int) (l : List Int)
    (hn : ∀ b ∈ l, (chan1 b).next = (chan b).next) (h : leaf_list chan a l) :
    leaf_list chan1 a l :=
  chain_seg_congr _ _ l a 0 hn h

/-! ### The leaves of a word for all right contexts -/

theorem alloc_rc_loop_alloc (sseq : Int → Int) (ciphone : Int) (fuel : Nat) (i hmm : Int)
    (d : decoder_t) (h1 : sseq i ≥ 0)
    (h2 : (d.chan hmm).next = 0 ∨ (d.chan (d.chan hmm).next).hmm.ssid ≠ sseq i) :
    alloc_rc_loop sseq ciphone (fuel + 1) i hmm d
      = alloc_rc_loop sseq ciphone fuel (i + 1) (d.heap_top + 1)
          (link_leaf d hmm i ciphone (sseq i)) := by
  simp only [alloc_rc_loop, if_pos h1, if_pos h2]
  rfl

theorem alloc_rc_loop_reuse (sseq : Int → Int) (ciphone : Int) (fuel : Nat) (i hmm : Int)
    (d : decoder_t) (h1 : sseq i ≥ 0)
    (h2 : ¬ ((d.chan hmm).next = 0 ∨ (d.chan (d.chan hmm).next).hmm.ssid ≠ sseq i)) :
    alloc_rc_loop sseq ciphone (fuel + 1) i hmm d
      = alloc_rc_loop sseq ciphone fuel (i + 1) (d.chan hmm).next d := by
  simp only [alloc_rc_loop, if_pos h1, if_neg h2]

theorem alloc_rc_loop_done (sseq : Int → Int) (ciphone : Int) (fuel : Nat) (i hmm : Int)
    (d : decoder_t) (h1 : sseq i < 0) :
    alloc_rc_loop sseq ciphone (fuel + 1) i hmm d = Except.ok d := by
  have h : ¬ sseq i ≥ 0 := by omega
  simp only [alloc_rc_loop, if_neg h]

/-- The cells after a leaf has been linked behind `hmm`. -/
theorem link_leaf_chan (d : decoder_t) (hmm rc_id ciphone ssid : Int)
    (hh : hmm ≠ d.heap_top + 1) :
    (link_leaf d hmm rc_id ciphone ssid).chan (d.heap_top + 1)
      = { d.chan (d.heap_top + 1) with
          next := (d.chan hmm).next, info := rc_id, ciphone := ciphone,
          hmm := hmm_init d.n_inner false ssid ciphone } ∧
    (link_leaf d hmm rc_id ciphone ssid).chan hmm
      = { d.chan hmm with next := d.heap_top + 1 } ∧
    (∀ a, a ≠ hmm → a ≠ d.heap_top + 1 →
      (link_leaf d hmm rc_id ciphone ssid).chan a = d.chan a) ∧
    link_leaf d hmm rc_id ciphone ssid
      = { d with
          chan := (link_leaf d hmm rc_id ciphone ssid).chan, heap_top := d.heap_top + 1 } := by
  refine ⟨?_, ?_, ?_, rfl⟩
  · unfold link_leaf set_chan_next init_leaf listelem_alloc
    dsimp only
    rw [store_ne _ _ _ _ (Ne.symm hh), store_same]
  · unfold link_leaf set_chan_next init_leaf listelem_alloc
    dsimp only
    rw [store_same, store_ne _ _ _ _ hh]
  · intro a h1 h2
    unfold link_leaf set_chan_next init_leaf listelem_alloc
    dsimp only
    rw [store_ne _ _ _ _ h1, store_ne _ _ _ _ h2]

theorem keeps_leaf_refl (c : chan_t) : keeps_leaf c c := ⟨rfl, rfl, rfl, rfl⟩

theorem keeps_leaf_trans (c c1 c2 : chan_t) (h1 : keeps_leaf c c1) (h2 : keeps_leaf c1 c2) :
    keeps_leaf c c2 :=
  ⟨h2.1.trans h1.1, h2.2.1.trans h1.2.1, h2.2.2.1.trans h1.2.2.1, h2.2.2.2.trans h1.2.2.2⟩

/-- The cells after a leaf has been made the head of the chain of `w`. -/
theorem link_head_chan (d : decoder_t) (w ciphone ssid : Int) :
    (link_head d w ciphone ssid).chan (d.heap_top + 1)
      = { d.chan (d.heap_top + 1) with
          next := d.word_chan w, info := 0, ciphone := ciphone,
          hmm := hmm_init d.n_inner false ssid ciphone } ∧
    (∀ a, a ≠ d.heap_top + 1 → (link_head d w ciphone ssid).chan a = d.chan a) ∧
    (link_head d w ciphone ssid).word_chan w = d.heap_top + 1 ∧
    (∀ v, v ≠ w → (link_head d w ciphone ssid).word_chan v = d.word_chan v) ∧
    link_head d w ciphone ssid
      = { d with
          chan := (link_head d w ciphone ssid).chan, heap_top := d.heap_top + 1,
          word_chan := (link_head d w ciphone ssid).word_chan } := by
  refine ⟨?_, ?_, ?_, ?_, rfl⟩
  · unfold link_head set_word_chan init_leaf listelem_alloc
    dsimp only
    rw [store_same]
  · intro a h1
    unfold link_head set_word_chan init_leaf listelem_alloc
    dsimp only
    rw [store_ne _ _ _ _ h1]
  · unfold link_head set_word_chan init_leaf listelem_alloc
    dsimp only
    rw [store_same]
  · intro v hv
    unfold link_head set_word_chan init_leaf listelem_alloc
    dsimp only
    rw [store_ne _ _ _ _ hv]

theorem leaves_frame_refl (d : decoder_t) : leaves_frame d d := by
  unfold leaves_frame
  rfl

theorem leaves_frame_trans (d s t : decoder_t) (h1 : leaves_frame d s) (h2 : leaves_frame s t) :
    leaves_frame d t := by
  unfold leaves_frame at h1 h2 ⊢
  rw [h2, h1]

theorem leaves_frame_set_chan_hmm (d : decoder_t) (a : Int) (h : hmm_t) :
    leaves_frame d (set_chan_hmm d a h) := by
  unfold leaves_frame
  rfl

theorem leaves_frame_write_link (d : decoder_t) (l : link_t) (v : Int) :
    leaves_frame d (write_link d l v) := by
  unfold leaves_frame
  cases l with
  | head w => rfl
  | next_of a => rfl

theorem leaves_frame_save_exit (sfuel : Nat) (d d1 : decoder_t) (f w score path rc : Int)
    (h : save_exit sfuel d f w score path rc = Except.ok d1) :
    leaves_frame d d1 ∧ d1.chan = d.chan ∧ d1.word_chan = d.word_chan := by
  unfold save_exit at h
  split at h
  · simp at h
  · simp only [Except.ok.injEq] at h
    subst h
    exact ⟨rfl, rfl, rfl⟩

/-- The cells, and what is read through a link, after `*phmmp = v`. -/
theorem write_link_spec (d : decoder_t) (l : link_t) (v : Int) :
    read_link (write_link d l v) l = v ∧
    (∀ a, link_out l [a] → (write_link d l v).chan a = d.chan a) ∧
    (∀ a, keeps_leaf (d.chan a) ((write_link d l v).chan a)) ∧
    (∀ u, l ≠ link_t.head u → (write_link d l v).word_chan u = d.word_chan u) := by
  cases l with
  | head w =>
    refine ⟨?_, fun a _ => rfl, fun a => keeps_leaf_refl _, ?_⟩
    · show store d.word_chan w v w = v
      rw [store_same]
    · intro u hu
      show store d.word_chan w v u = _
      rw [store_ne]
      intro e
      apply hu
      rw [e]
  | next_of p =>
    refine ⟨?_, ?_, ?_, fun u _ => rfl⟩
    · show (store d.chan p _ p).next = v
      rw [store_same]
    · intro a ha
      have hpa : p ≠ a := by
        intro e
        apply ha
        rw [e]
        exact List.mem_singleton.mpr rfl
      show store d.chan p _ a = _
      rw [store_ne _ _ _ _ (Ne.symm hpa)]
    · intro a
      show keeps_leaf (d.chan a) (store d.chan p _ a)
      by_cases e : a = p
      · rw [e, store_same]
        exact ⟨rfl, rfl, rfl, rfl⟩
      · rw [store_ne _ _ _ _ e]
        exact keeps_leaf_refl _

theorem leaf_kept_congr (d d1 : decoder_t) (lpt nf a : Int) (h : (d1.chan a).hmm = (d.chan a).hmm) :
    leaf_kept d1 lpt nf a = leaf_kept d lpt nf a ∧ leaf_wins d1 lpt a = leaf_wins d lpt a ∧
    leaf_hmm d1 lpt nf a = leaf_hmm d lpt nf a := by
  unfold leaf_kept leaf_hmm leaf_wins
  rw [h]
  exact ⟨rfl, rfl, rfl⟩

/-- The loop of `prune_word_chan` over the leaves `l` of a word, read through
`phmmp`: a returning run leaves in the chain the leaves that beat `lpt` or
are stamped for the next frame already, stamps the former for the next frame
and counts them, touches no HMM otherwise, and changes nothing but chain
links, frame stamps and the backpointer part. -/
theorem prune_leaves_spec (sfuel : Nat) (f w nwt lpt : Int) (fuel : Nat) :
    ∀ (l : List Int) (hmm : Int) (phmmp : link_t) (k : Int) (d : decoder_t)
      (r : decoder_t × Int),
      leaf_list d.chan hmm l → link_out phmmp l → read_link d phmmp = hmm →
      prune_leaves sfuel f w nwt lpt fuel hmm phmmp k d = Except.ok r →
      leaf_list r.1.chan (read_link r.1 phmmp) (l.filter (leaf_kept d lpt (f + 1))) ∧
      (∀ a ∈ l, (r.1.chan a).hmm = leaf_hmm d lpt (f + 1) a) ∧
      (∀ a, keeps_leaf (d.chan a) (r.1.chan a) ∨ a ∈ l) ∧
      (∀ a ∈ l, (r.1.chan a).alt = (d.chan a).alt ∧ (r.1.chan a).ciphone = (d.chan a).ciphone ∧
        (r.1.chan a).info = (d.chan a).info) ∧
      (∀ a, a ∉ l → link_out phmmp [a] → r.1.chan a = d.chan a) ∧
      (∀ u, phmmp ≠ link_t.head u → r.1.word_chan u = d.word_chan u) ∧
      r.2 = k + ((l.filter (leaf_wins d lpt)).length : Int) ∧
      leaves_frame d r.1 ∧
      (∀ a ∈ l, f ≤ (d.chan a).hmm.frame) := by
  induction fuel with
  | zero =>
    intro l hmm phmmp k d r _ _ _ hr
    simp [prune_leaves] at hr
  | succ n ih =>
    intro l hmm phmmp k d r hl hout hread hr
    simp only [prune_leaves] at hr
    split at hr
    · -- the end of the chain
      rename_i h0
      simp only [Except.ok.injEq] at hr
      subst hr
      have hl0 : l = [] := by
        cases l with
        | nil => rfl
        | cons b l => exact absurd h0 hl.1
      subst hl0
      refine ⟨?_, fun a ha => absurd ha (List.not_mem_nil a), fun a => Or.inl (keeps_leaf_refl _),
        fun a ha => absurd ha (List.not_mem_nil a), fun a _ _ => rfl, fun u _ => rfl, ?_,
        leaves_frame_refl d, fun a ha => absurd ha (List.not_mem_nil a)⟩
      · show leaf_list d.chan (read_link d phmmp) []
        rw [hread]
        exact hl
      · show k = k + ((([] : List Int).filter (leaf_wins d lpt)).length : Int)
        simp
    · rename_i h0
      cases l with
      | nil => exact absurd hl h0
      | cons b l =>
        obtain ⟨_, hb, hl1⟩ := hl
        subst hb
        have hnd := leaf_list_nodup d.chan hmm (hmm :: l) ⟨h0, rfl, hl1⟩
        have hnotin : hmm ∉ l := (List.nodup_cons.mp hnd).1
        split at hr
        · simp at hr
        · rename_i hfr
          have hfr1 : f ≤ (d.chan hmm).hmm.frame := by omega
          -- the common part of the two branches that keep the leaf
          have keep : ∀ (d2 : decoder_t) (k2 : Int),
              leaves_frame d d2 → d2.word_chan = d.word_chan →
              (∀ a, a ≠ hmm → d2.chan a = d.chan a) →
              (d2.chan hmm).next = (d.chan hmm).next →
              keeps_leaf (d.chan hmm) ({ d2.chan hmm with hmm := (d.chan hmm).hmm }) →
              (d2.chan hmm).hmm = leaf_hmm d lpt (f + 1) hmm →
              leaf_kept d lpt (f + 1) hmm = true →
              k2 = k + (((hmm :: l).filter (leaf_wins d lpt)).length : Int)
                - ((l.filter (leaf_wins d lpt)).length : Int) →
              prune_leaves sfuel f w nwt lpt n (d.chan hmm).next (link_t.next_of hmm) k2 d2
                = Except.ok r →
              leaf_list r.1.chan (read_link r.1 phmmp)
                ((hmm :: l).filter (leaf_kept d lpt (f + 1))) ∧
              (∀ a ∈ hmm :: l, (r.1.chan a).hmm = leaf_hmm d lpt (f + 1) a) ∧
              (∀ a, keeps_leaf (d.chan a) (r.1.chan a) ∨ a ∈ hmm :: l) ∧
              (∀ a ∈ hmm :: l, (r.1.chan a).alt = (d.chan a).alt ∧
                (r.1.chan a).ciphone = (d.chan a).ciphone ∧
                (r.1.chan a).info = (d.chan a).info) ∧
              (∀ a, a ∉ hmm :: l → link_out phmmp [a] → r.1.chan a = d.chan a) ∧
              (∀ u, phmmp ≠ link_t.head u → r.1.word_chan u = d.word_chan u) ∧
              r.2 = k + (((hmm :: l).filter (leaf_wins d lpt)).length : Int) ∧
              leaves_frame d r.1 ∧
              (∀ a ∈ hmm :: l, f ≤ (d.chan a).hmm.frame) := by
            intro d2 k2 hf2 hw2 hc2 hn2 hk2 hh2 hkept hk hrun
            have hl2 : leaf_list d2.chan (d.chan hmm).next l := by
              refine leaf_list_congr d.chan d2.chan _ l ?_ hl1
              intro a ha
              rw [hc2 a (fun e => hnotin (e ▸ ha))]
            obtain ⟨g1, g2, g3, g4, g5, g6, g7, g8, g9⟩ :=
              ih l (d.chan hmm).next (link_t.next_of hmm) k2 d2 r hl2 hnotin hn2 hrun
            have hcong : ∀ a ∈ l, (d2.chan a).hmm = (d.chan a).hmm := by
              intro a ha
              rw [hc2 a (fun e => hnotin (e ▸ ha))]
            have hfil : l.filter (leaf_kept d2 lpt (f + 1)) = l.filter (leaf_kept d lpt (f + 1)) :=
              List.filter_congr (fun a ha => (leaf_kept_congr d d2 lpt (f + 1) a (hcong a ha)).1)
            have hfilw : l.filter (leaf_wins d2 lpt) = l.filter (leaf_wins d lpt) :=
              List.filter_congr (fun a ha => (leaf_kept_congr d d2 lpt (f + 1) a (hcong a ha)).2.1)
            have hkh : keeps_leaf (d2.chan hmm) (r.1.chan hmm) := by
              rcases g3 hmm with h | h
              · exact h
              · exact absurd h hnotin
            have hreadp : read_link r.1 phmmp = hmm := by
              rw [← hread]
              cases phmmp with
              | head u =>
                show r.1.word_chan u = d.word_chan u
                rw [g6 u (by intro e; cases e), hw2]
              | next_of p =>
                have hp : p ∉ hmm :: l := hout
                have hp1 : p ≠ hmm := fun e => hp (e ▸ List.mem_cons_self hmm l)
                have hp2 : p ∉ l := fun e => hp (List.mem_cons_of_mem hmm e)
                show (r.1.chan p).next = (d.chan p).next
                rw [g5 p hp2 (by
                  show hmm ∉ [p]
                  intro e
                  exact hp1 (List.mem_singleton.mp e).symm), hc2 p hp1]
            refine ⟨?_, ?_, ?_, ?_, ?_, ?_, ?_, leaves_frame_trans d d2 r.1 hf2 g8, ?_⟩
            · rw [List.filter_cons_of_pos hkept, hreadp]
              refine ⟨h0, rfl, ?_⟩
              rw [← hfil]
              exact g1
            · intro a ha
              rcases List.mem_cons.mp ha with e | e
              · rw [e, hkh.1, hh2]
              · rw [g2 a e, (leaf_kept_congr d d2 lpt (f + 1) a (hcong a e)).2.2]
            · intro a
              by_cases e : a = hmm
              · right
                rw [e]
                exact List.mem_cons_self hmm l
              · rcases g3 a with h | h
                · left
                  rw [← hc2 a e]
                  exact h
                · exact Or.inr (List.mem_cons_of_mem hmm h)
            · intro a ha
              rcases List.mem_cons.mp ha with e | e
              · rw [e, hkh.2.1, hkh.2.2.1, hkh.2.2.2]
                exact ⟨hk2.2.1, hk2.2.2.1, hk2.2.2.2⟩
              · rw [← hc2 a (fun e1 => hnotin (e1 ▸ e))]
                exact g4 a e
            · intro a ha hlo
              have ha1 : a ≠ hmm := fun e => ha (e ▸ List.mem_cons_self hmm l)
              have ha2 : a ∉ l := fun e => ha (List.mem_cons_of_mem hmm e)
              rw [g5 a ha2 (by
                show hmm ∉ [a]
                intro e
                exact ha1 (List.mem_singleton.mp e).symm), hc2 a ha1]
            · intro u hu
              rw [g6 u (by intro e; cases e), hw2]
            · rw [g7, hfilw, hk]
              omega
            · intro a ha
              rcases List.mem_cons.mp ha with e | e
              · rw [e]
                exact hfr1
              · have := g9 a e
                rw [hcong a e] at this
                exact this
          split at hr
          · -- the leaf beats the threshold
            rename_i hwin
            have hwin1 : leaf_wins d lpt hmm = true := decide_eq_true hwin
            have hkept : leaf_kept d lpt (f + 1) hmm = true := by
              unfold leaf_kept
              rw [hwin1]
              rfl
            have hcount : k + 1 = k + (((hmm :: l).filter (leaf_wins d lpt)).length : Int)
                - ((l.filter (leaf_wins d lpt)).length : Int) := by
              rw [List.filter_cons_of_pos hwin1, List.length_cons]
              push_cast
              omega
            have hcell : ∀ a, a ≠ hmm →
                (set_chan_hmm d hmm (hmm_set_frame (d.chan hmm).hmm (f + 1))).chan a
                  = d.chan a := by
              intro a ha
              show store d.chan hmm _ a = _
              rw [store_ne _ _ _ _ ha]
            have hcellh : (set_chan_hmm d hmm (hmm_set_frame (d.chan hmm).hmm (f + 1))).chan hmm
                = { d.chan hmm with hmm := hmm_set_frame (d.chan hmm).hmm (f + 1) } := by
              show store d.chan hmm _ hmm = _
              rw [store_same]
            have hleaf : hmm_set_frame (d.chan hmm).hmm (f + 1) = leaf_hmm d lpt (f + 1) hmm := by
              unfold leaf_hmm
              rw [hwin1]
              rfl
            split at hr
            · split at hr
              · simp at hr
              · rename_i d2 hs
                obtain ⟨s1, s2, s3⟩ := leaves_frame_save_exit sfuel _ d2 _ _ _ _ _ hs
                refine keep d2 (k + 1)
                  (leaves_frame_trans d _ d2 (leaves_frame_set_chan_hmm d _ _) s1)
                  (by rw [s3]; rfl) ?_ ?_ ?_ ?_ hkept hcount ?_
                · intro a ha
                  rw [s2]
                  exact hcell a ha
                · rw [s2, hcellh]
                · rw [s2, hcellh]
                  exact ⟨rfl, rfl, rfl, rfl⟩
                · rw [s2, hcellh]
                  exact hleaf
                · exact hr
            · refine keep _ (k + 1) (leaves_frame_set_chan_hmm d _ _) rfl hcell ?_ ?_ ?_ hkept
                hcount ?_
              · rw [hcellh]
              · rw [hcellh]
                exact ⟨rfl, rfl, rfl, rfl⟩
              · rw [hcellh]
                exact hleaf
              · exact hr
          · rename_i hwin
            have hwin1 : leaf_wins d lpt hmm = false := decide_eq_false hwin
            have hleaf : (d.chan hmm).hmm = leaf_hmm d lpt (f + 1) hmm := by
              unfold leaf_hmm
              rw [hwin1]
              rfl
            split at hr
            · -- the leaf is stamped for the next frame already
              rename_i hnf
              have hkept : leaf_kept d lpt (f + 1) hmm = true := by
                unfold leaf_kept
                rw [hwin1, decide_eq_true hnf]
                rfl
              have hcount : k = k + (((hmm :: l).filter (leaf_wins d lpt)).length : Int)
                  - ((l.filter (leaf_wins d lpt)).length : Int) := by
                rw [List.filter_cons_of_neg (by rw [hwin1]; simp)]
                omega
              exact keep d k (leaves_frame_refl d) rfl (fun a _ => rfl) rfl
                ⟨rfl, rfl, rfl, rfl⟩ hleaf hkept hcount hr
            · -- the leaf is unlinked
              rename_i hnf
              have hkept : leaf_kept d lpt (f + 1) hmm = false := by
                unfold leaf_kept
                rw [hwin1, decide_eq_false hnf]
                rfl
              obtain ⟨w1, w2, w3, w4⟩ := write_link_spec d phmmp (d.chan hmm).next
              have houtl : ∀ a ∈ hmm :: l, link_out phmmp [a] := by
                intro a ha
                cases phmmp with
                | head u => trivial
                | next_of p =>
                  show p ∉ [a]
                  intro e
                  have hp : p ∉ hmm :: l := hout
                  rw [List.mem_singleton.mp e] at hp
                  exact hp ha
              have hcellsame : ∀ a ∈ hmm :: l,
                  (write_link d phmmp (d.chan hmm).next).chan a = d.chan a :=
                fun a ha => w2 a (houtl a ha)
              have hl2 : leaf_list (write_link d phmmp (d.chan hmm).next).chan
                  (d.chan hmm).next l := by
                refine leaf_list_congr d.chan _ _ l ?_ hl1
                intro a ha
                rw [hcellsame a (List.mem_cons_of_mem hmm ha)]
              have hout2 : link_out phmmp l := by
                cases phmmp with
                | head u => trivial
                | next_of p =>
                  have hp : p ∉ hmm :: l := hout
                  exact fun e => hp (List.mem_cons_of_mem hmm e)
              obtain ⟨g1, g2, g3, g4, g5, g6, g7, g8, g9⟩ :=
                ih l (d.chan hmm).next phmmp k _ r hl2 hout2 w1 hr
              have hcong : ∀ a ∈ l,
                  ((write_link d phmmp (d.chan hmm).next).chan a).hmm = (d.chan a).hmm := by
                intro a ha
                rw [hcellsame a (List.mem_cons_of_mem hmm ha)]
              have hfil : l.filter (leaf_kept (write_link d phmmp (d.chan hmm).next) lpt (f + 1))
                  = l.filter (leaf_kept d lpt (f + 1)) :=
                List.filter_congr
                  (fun a ha => (leaf_kept_congr d _ lpt (f + 1) a (hcong a ha)).1)
              have hfilw : l.filter (leaf_wins (write_link d phmmp (d.chan hmm).next) lpt)
                  = l.filter (leaf_wins d lpt) :=
                List.filter_congr
                  (fun a ha => (leaf_kept_congr d _ lpt (f + 1) a (hcong a ha)).2.1)
              have hrh : r.1.chan hmm = d.chan hmm := by
                rw [g5 hmm hnotin (houtl hmm (List.mem_cons_self hmm l)),
                  hcellsame hmm (List.mem_cons_self hmm l)]
              refine ⟨?_, ?_, ?_, ?_, ?_, ?_, ?_,
                leaves_frame_trans d _ r.1 (leaves_frame_write_link d _ _) g8, ?_⟩
              · rw [List.filter_cons_of_neg (by rw [hkept]; simp), ← hfil]
                exact g1
              · intro a ha
                rcases List.mem_cons.mp ha with e | e
                · rw [e, hrh]
                  exact hleaf
                · rw [g2 a e, (leaf_kept_congr d _ lpt (f + 1) a (hcong a e)).2.2]
              · intro a
                rcases g3 a with h | h
                · left
                  exact keeps_leaf_trans _ _ _ (w3 a) h
                · exact Or.inr (List.mem_cons_of_mem hmm h)
              · intro a ha
                rcases List.mem_cons.mp ha with e | e
                · rw [e, hrh]
                  exact ⟨rfl, rfl, rfl⟩
                · rw [← hcellsame a ha]
                  exact g4 a e
              · intro a ha hlo
                have ha2 : a ∉ l := fun e => ha (List.mem_cons_of_mem hmm e)
                rw [g5 a ha2 hlo, w2 a hlo]
              · intro u hu
                rw [g6 u hu, w4 u hu]
              · rw [g7, hfilw, List.filter_cons_of_neg (by rw [hwin1]; simp)]
              · intro a ha
                rcases List.mem_cons.mp ha with e | e
                · rw [e]
                  exact hfr1
                · have := g9 a e
                  rw [hcong a e] at this
                  exact this

/-! ### The word loop of `prune_word_chan` -/

theorem words_frame_refl (d : decoder_t) : words_frame d d := by
  unfold words_frame
  rfl

theorem words_frame_trans (d s t : decoder_t) (h1 : words_frame d s) (h2 : words_frame s t) :
    words_frame d t := by
  unfold words_frame at h1 h2 ⊢
  rw [h2, h1]

theorem words_frame_of_leaves (d s : decoder_t) (h : leaves_frame d s) : words_frame d s := by
  unfold leaves_frame at h
  unfold words_frame
  rw [h]

theorem words_frame_push (d : decoder_t) (par n w : Int) :
    words_frame d { push_word d par n w with
      word_active := store (push_word d par n w).word_active w 1 } := by
  unfold words_frame push_word
  rfl

theorem leaves_frame_fields (d s : decoder_t) (h : leaves_frame d s) :
    s.word_active = d.word_active ∧ s.active_word_list = d.active_word_list ∧
    s.n_active_word = d.n_active_word ∧ s.all_rhmm = d.all_rhmm ∧
    s.single_phone_wid = d.single_phone_wid ∧ s.n_1ph_words = d.n_1ph_words := by
  unfold leaves_frame at h
  have e1 := congrArg (fun x : decoder_t => x.word_active) h
  have e2 := congrArg (fun x : decoder_t => x.active_word_list) h
  have e3 := congrArg (fun x : decoder_t => x.n_active_word) h
  have e4 := congrArg (fun x : decoder_t => x.all_rhmm) h
  have e5 := congrArg (fun x : decoder_t => x.single_phone_wid) h
  have e6 := congrArg (fun x : decoder_t => x.n_1ph_words) h
  exact ⟨e1, e2, e3, e4, e5, e6⟩

theorem words_frame_fields (d s : decoder_t) (h : words_frame d s) :
    s.n_active_word = d.n_active_word ∧ s.all_rhmm = d.all_rhmm ∧
    s.single_phone_wid = d.single_phone_wid ∧ s.n_1ph_words = d.n_1ph_words ∧
    s.root_chan = d.root_chan ∧ s.last_phone_best_score = d.last_phone_best_score ∧
    s.dynamic_beam = d.dynamic_beam ∧ s.lponlybeam = d.lponlybeam ∧ s.wbeam = d.wbeam := by
  unfold words_frame at h
  have e1 := congrArg (fun x : decoder_t => x.n_active_word) h
  have e2 := congrArg (fun x : decoder_t => x.all_rhmm) h
  have e3 := congrArg (fun x : decoder_t => x.single_phone_wid) h
  have e4 := congrArg (fun x : decoder_t => x.n_1ph_words) h
  have e5 := congrArg (fun x : decoder_t => x.root_chan) h
  have e6 := congrArg (fun x : decoder_t => x.last_phone_best_score) h
  have e7 := congrArg (fun x : decoder_t => x.dynamic_beam) h
  have e8 := congrArg (fun x : decoder_t => x.lponlybeam) h
  have e9 := congrArg (fun x : decoder_t => x.wbeam) h
  exact ⟨e1, e2, e3, e4, e5, e6, e7, e8, e9⟩

theorem parity_succ_ne (f : Int) : parity (f + 1) ≠ parity f := by
  unfold parity
  omega
theorem pw_chains (fuel : Nat) (d : decoder_t) (f nwt lpt : Int) (L : Int → List Int) (n0 : Int)
    (hc : word_chains d f L) (i : Int) (s : decoder_t) (m : Int) (s1 : decoder_t) (k : Int)
    (hi0 : 0 ≤ i) (hin : i < d.n_active_word (parity f))
    (hinv : pw_inv d f lpt L n0 i s m)
    (hp : prune_leaves fuel f (d.active_word_list (parity f) i) nwt lpt fuel
      (s.word_chan (d.active_word_list (parity f) i))
      (link_t.head (d.active_word_list (parity f) i)) 0 s = Except.ok (s1, k)) :
    (∀ j, 0 ≤ j → j < d.n_active_word (parity f) → j < i + 1 →
      leaf_list s1.chan (s1.word_chan (d.active_word_list (parity f) j))
        ((L j).filter (leaf_kept d lpt (f + 1))) ∧
      ∀ a ∈ L j, (s1.chan a).hmm = leaf_hmm d lpt (f + 1) a) ∧
    (∀ j, 0 ≤ j → j < d.n_active_word (parity f) → i + 1 ≤ j →
      leaf_list s1.chan (s1.word_chan (d.active_word_list (parity f) j)) (L j) ∧
      ∀ a ∈ L j, s1.chan a = d.chan a) ∧
    (∀ a, (∀ j, 0 ≤ j → j < d.n_active_word (parity f) → a ∉ L j) → s1.chan a = d.chan a) ∧
    (∀ v, (∀ j, 0 ≤ j → j < d.n_active_word (parity f) →
      d.active_word_list (parity f) j ≠ v) → s1.word_chan v = d.word_chan v) ∧
    k = (((L i).filter (leaf_wins d lpt)).length : Int) ∧ leaves_frame s s1 := by
  obtain ⟨htl, htc⟩ := hinv.todo i hi0 hin (le_refl i)
  have sp := prune_leaves_spec fuel f (d.active_word_list (parity f) i) nwt lpt fuel (L i)
    (s.word_chan (d.active_word_list (parity f) i))
    (link_t.head (d.active_word_list (parity f) i)) 0 s (s1, k) htl trivial rfl hp
  obtain ⟨p1, p2, _, _, p5, p6, p7, p8, _⟩ := sp
  have hf : (L i).filter (leaf_kept s lpt (f + 1)) = (L i).filter (leaf_kept d lpt (f + 1)) :=
    List.filter_congr (fun a ha => (leaf_kept_congr d s lpt (f + 1) a (by rw [htc a ha])).1)
  have hw : (L i).filter (leaf_wins s lpt) = (L i).filter (leaf_wins d lpt) :=
    List.filter_congr (fun a ha => (leaf_kept_congr d s lpt (f + 1) a (by rw [htc a ha])).2.1)
  have hother : ∀ j, 0 ≤ j → j < d.n_active_word (parity f) → j ≠ i →
      (∀ a ∈ L j, s1.chan a = s.chan a) ∧
      s1.word_chan (d.active_word_list (parity f) j) =
        s.word_chan (d.active_word_list (parity f) j) := by
    intro j hj0 hjn hji
    refine ⟨fun a ha => p5 a (fun hai => hji (hc.disj j i a hj0 hjn hi0 hin ha hai)) trivial,
      p6 _ ?_⟩
    intro he
    exact hji (hc.inj j i hj0 hjn hi0 hin (link_t.head.inj he).symm)
  refine ⟨?_, ?_, ?_, ?_, ?_, p8⟩
  · intro j hj0 hjn hji
    by_cases he : j = i
    · subst he
      rw [hf] at p1
      refine ⟨p1, fun a ha => ?_⟩
      rw [p2 a ha]
      exact (leaf_kept_congr d s lpt (f + 1) a (by rw [htc a ha])).2.2
    · obtain ⟨o1, o2⟩ := hother j hj0 hjn he
      obtain ⟨q1, q2⟩ := hinv.done j hj0 hjn (by omega)
      rw [o2]
      refine ⟨leaf_list_congr s.chan s1.chan _ _ (fun b hb => ?_) q1, fun a ha => ?_⟩
      · rw [o1 b (List.mem_of_mem_filter hb)]
      · rw [o1 a ha]
        exact q2 a ha
  · intro j hj0 hjn hji
    obtain ⟨o1, o2⟩ := hother j hj0 hjn (by omega)
    obtain ⟨q1, q2⟩ := hinv.todo j hj0 hjn (by omega)
    rw [o2]
    refine ⟨leaf_list_congr s.chan s1.chan _ _ (fun b hb => ?_) q1, fun a ha => ?_⟩
    · rw [o1 b hb]
    · rw [o1 a ha]
      exact q2 a ha
  · intro a ha
    rw [p5 a (ha i hi0 hin) trivial]
    exact hinv.cells a ha
  · intro v hv
    rw [p6 v (fun he => hv i hi0 hin (link_t.head.inj he))]
    exact hinv.heads v hv
  · have p7a : k = 0 + (((L i).filter (leaf_wins s lpt)).length : Int) := p7
    rw [p7a, hw]
    omega

theorem pw_step_skip (fuel : Nat) (d : decoder_t) (f nwt lpt : Int) (L : Int → List Int)
    (n0 : Int) (hc : word_chains d f L) (i : Int) (s : decoder_t) (m : Int) (s1 : decoder_t)
    (k : Int) (hi0 : 0 ≤ i) (hin : i < d.n_active_word (parity f))
    (hinv : pw_inv d f lpt L n0 i s m)
    (hp : prune_leaves fuel f (d.active_word_list (parity f) i) nwt lpt fuel
      (s.word_chan (d.active_word_list (parity f) i))
      (link_t.head (d.active_word_list (parity f) i)) 0 s = Except.ok (s1, k))
    (hk : ¬ (k > 0 ∧ s1.word_active (d.active_word_list (parity f) i) = 0)) :
    pw_inv d f lpt L n0 (i + 1) s1 m := by
  obtain ⟨c1, c2, c3, c4, c5, c6⟩ := pw_chains fuel d f nwt lpt L n0 hc i s m s1 k hi0 hin hinv hp
  obtain ⟨e1, e2, _⟩ := leaves_frame_fields s s1 c6
  have hnot : ¬ word_pushed d f lpt L i := by
    intro hpu
    apply hk
    constructor
    · rw [c5]
      have := List.length_pos.mpr hpu.1
      omega
    · rw [e1]
      rcases hinv.act (d.active_word_list (parity f) i) with ⟨a1, _⟩ | ⟨_, j, hj0, hji, hjn, hje, _⟩
      · rw [a1]
        exact hpu.2
      · have := hc.inj j i hj0 hjn hi0 hin hje
        omega
  refine { frame := words_frame_trans d s s1 hinv.frame (words_frame_of_leaves s s1 c6),
           cur := ?_, done := c1, todo := c2, cells := c3, heads := c4, count := hinv.count,
           old := ?_, new := ?_, all := ?_, act := ?_ }
  · rw [e2]
    exact hinv.cur
  · intro k1 hk1
    rw [e2]
    exact hinv.old k1 hk1
  · intro k1 h1 h2
    obtain ⟨j, hj0, hji, hjn, hjp, hje, hjl⟩ := hinv.new k1 h1 h2
    rw [e2]
    exact ⟨j, hj0, by omega, hjn, hjp, hje, hjl⟩
  · intro j hj0 hji hjn hjp
    have hne : j ≠ i := by
      intro he
      subst he
      exact hnot hjp
    rw [e2]
    exact hinv.all j hj0 (by omega) hjn hjp
  · intro v
    rw [e1]
    rcases hinv.act v with ⟨a1, a2⟩ | ⟨a1, j, hj0, hji, hjn, hje, hjp⟩
    · left
      refine ⟨a1, ?_⟩
      rintro ⟨j, hj0, hji, hjn, hje, hjp⟩
      by_cases he : j = i
      · subst he
        exact hnot hjp
      · exact a2 ⟨j, hj0, by omega, hjn, hje, hjp⟩
    · right
      exact ⟨a1, j, hj0, by omega, hjn, hje, hjp⟩
theorem pw_step_push (fuel : Nat) (d : decoder_t) (f nwt lpt : Int) (L : Int → List Int)
    (n0 : Int) (hc : word_chains d f L) (i : Int) (s : decoder_t) (m : Int) (s1 : decoder_t)
    (k : Int) (hi0 : 0 ≤ i) (hin : i < d.n_active_word (parity f))
    (hinv : pw_inv d f lpt L n0 i s m)
    (hp : prune_leaves fuel f (d.active_word_list (parity f) i) nwt lpt fuel
      (s.word_chan (d.active_word_list (parity f) i))
      (link_t.head (d.active_word_list (parity f) i)) 0 s = Except.ok (s1, k))
    (hk : k > 0 ∧ s1.word_active (d.active_word_list (parity f) i) = 0) :
    pw_inv d f lpt L n0 (i + 1)
      { push_word s1 (parity (f + 1)) m (d.active_word_list (parity f) i) with
        word_active := store (push_word s1 (parity (f + 1)) m
          (d.active_word_list (parity f) i)).word_active (d.active_word_list (parity f) i) 1 }
      (m + 1) := by
  obtain ⟨c1, c2, c3, c4, c5, c6⟩ := pw_chains fuel d f nwt lpt L n0 hc i s m s1 k hi0 hin hinv hp
  obtain ⟨e1, e2, _⟩ := leaves_frame_fields s s1 c6
  have hnew : ∀ j, 0 ≤ j → j < i → j < d.n_active_word (parity f) →
      d.active_word_list (parity f) j ≠ d.active_word_list (parity f) i := by
    intro j hj0 hji hjn he
    have := hc.inj j i hj0 hjn hi0 hin he
    omega
  have hpu : word_pushed d f lpt L i := by
    constructor
    · intro hnil
      rw [c5, hnil] at hk
      simp at hk
    · rcases hinv.act (d.active_word_list (parity f) i) with ⟨a1, _⟩ | ⟨_, j, hj0, hji, hjn, hje, _⟩
      · rw [← a1, ← e1]
        exact hk.2
      · exact absurd hje (hnew j hj0 hji hjn)
  have hm := hinv.count
  have hrow : ∀ k1, ({ push_word s1 (parity (f + 1)) m (d.active_word_list (parity f) i) with
        word_active := store (push_word s1 (parity (f + 1)) m
          (d.active_word_list (parity f) i)).word_active (d.active_word_list (parity f) i)
          1 } : decoder_t).active_word_list (parity (f + 1)) k1 =
      if k1 = m then d.active_word_list (parity f) i
      else s.active_word_list (parity (f + 1)) k1 := by
    intro k1
    show store s1.active_word_list (parity (f + 1))
      (store (s1.active_word_list (parity (f + 1))) m (d.active_word_list (parity f) i))
      (parity (f + 1)) k1 = _
    rw [store_same, e2]
    unfold store
    rfl
  refine { frame := words_frame_trans d s _ hinv.frame
             (words_frame_trans s s1 _ (words_frame_of_leaves s s1 c6) (words_frame_push _ _ _ _)),
           cur := ?_, done := c1, todo := c2, cells := c3, heads := c4, count := by omega,
           old := ?_, new := ?_, all := ?_, act := ?_ }
  · show store s1.active_word_list (parity (f + 1)) _ (parity f) = _
    rw [store_ne _ _ _ _ (parity_succ_ne f).symm, e2]
    exact hinv.cur
  · intro k1 hk1
    rw [hrow k1, if_neg (by omega)]
    exact hinv.old k1 (by omega)
  · intro k1 h1 h2
    by_cases hkm : k1 = m
    · refine ⟨i, hi0, by omega, hin, hpu, ?_, ?_⟩
      · rw [hrow k1, if_pos hkm]
      · intro k2 h3 h4
        rw [hrow k2, if_neg (by omega)]
        obtain ⟨j, hj0, hji, hjn, _, hje, _⟩ := hinv.new k2 h3 (by omega)
        rw [hje]
        exact hnew j hj0 hji hjn
    · obtain ⟨j, hj0, hji, hjn, hjp, hje, hjl⟩ := hinv.new k1 h1 (by omega)
      refine ⟨j, hj0, by omega, hjn, hjp, ?_, ?_⟩
      · rw [hrow k1, if_neg hkm]
        exact hje
      · intro k2 h3 h4
        rw [hrow k2, if_neg (by omega)]
        exact hjl k2 h3 h4
  · intro j hj0 hji hjn hjp
    by_cases he : j = i
    · subst he
      exact ⟨m, hm, by omega, by rw [hrow m, if_pos rfl]⟩
    · obtain ⟨k1, h1, h2, h3⟩ := hinv.all j hj0 (by omega) hjn hjp
      exact ⟨k1, h1, by omega, by rw [hrow k1, if_neg (by omega)]; exact h3⟩
  · intro v
    show (store s1.word_active (d.active_word_list (parity f) i) 1 v = d.word_active v ∧ _) ∨
      (store s1.word_active (d.active_word_list (parity f) i) 1 v = 1 ∧ _)
    by_cases hv : v = d.active_word_list (parity f) i
    · right
      subst hv
      exact ⟨store_same _ _ _, i, hi0, by omega, hin, rfl, hpu⟩
    · rw [store_ne _ _ _ _ hv, e1]
      rcases hinv.act v with ⟨a1, a2⟩ | ⟨a1, j, hj0, hji, hjn, hje, hjp⟩
      · left
        refine ⟨a1, ?_⟩
        rintro ⟨j, hj0, hji, hjn, hje, hjp⟩
        by_cases he : j = i
        · subst he
          exact hv hje.symm
        · exact a2 ⟨j, hj0, by omega, hjn, hje, hjp⟩
      · right
        exact ⟨a1, j, hj0, by omega, hjn, hje, hjp⟩

theorem pw_inv_init (d : decoder_t) (f lpt : Int) (L : Int → List Int) (n0 : Int)
    (hc : word_chains d f L) : pw_inv d f lpt L n0 0 d n0 := by
  refine { frame := words_frame_refl d, cur := rfl, done := ?_, todo := ?_, cells := ?_,
           heads := ?_, count := le_refl n0, old := ?_, new := ?_, all := ?_, act := ?_ }
  · intro j hj0 _ hj
    omega
  · intro j hj0 hjn _
    exact ⟨hc.chain j hj0 hjn, fun _ _ => rfl⟩
  · intro _ _
    rfl
  · intro _ _
    rfl
  · intro _ _
    rfl
  · intro k h1 h2
    omega
  · intro j hj0 hj
    omega
  · intro v
    left
    refine ⟨rfl, ?_⟩
    rintro ⟨j, hj0, hj, _⟩
    omega

/-- The first loop of `prune_word_chan`, over the words listed in frame `f`
whose chains are `L`: when it returns, `pw_inv` holds behind the last word. -/
theorem prune_words_spec (fuel : Nat) (d : decoder_t) (f nwt lpt : Int) (L : Int → List Int)
    (n0 : Int) (hc : word_chains d f L) (r : decoder_t × Int)
    (hr : for_up
      (fun i (sn : decoder_t × Int) =>
        let w := sn.1.active_word_list (parity f) i
        match prune_leaves fuel f w nwt lpt fuel (sn.1.word_chan w) (link_t.head w) 0 sn.1 with
        | Except.error e => Except.error e
        | Except.ok (s1, k) =>
          if k > 0 ∧ s1.word_active w = 0 then
            if ¬ ((s1.ngs.dict.dict_list w).len > 1) then Except.error Fault.assert
            else
              let s2 := push_word s1 (parity (f + 1)) sn.2 w
              Except.ok ({ s2 with word_active := store s2.word_active w 1 }, sn.2 + 1)
          else Except.ok (s1, sn.2))
      (d.n_active_word (parity f)).toNat 0 (d, n0) = Except.ok r) :
    pw_inv d f lpt L n0 ((d.n_active_word (parity f)).toNat : Int) r.1 r.2 := by
  have h := for_up_ind (fun i (sn : decoder_t × Int) => pw_inv d f lpt L n0 i sn.1 sn.2) _
    (d.n_active_word (parity f)).toNat 0 (d, n0) r ?_ (pw_inv_init d f lpt L n0 hc) hr
  · simpa using h
  · intro i sn sn1 hi0 hin hinv hb
    have hin1 : i < d.n_active_word (parity f) := by
      have := Int.toNat_of_nonneg (show 0 ≤ d.n_active_word (parity f) by
        by_contra hneg
        rw [Int.toNat_of_nonpos (by omega)] at hin
        simp at hin
        omega)
      omega
    dsimp only at hb hinv ⊢
    rw [hinv.cur] at hb
    split at hb
    · simp at hb
    · rename_i s1 k hp
      split at hb
      · rename_i hk
        split at hb
        · simp at hb
        · simp only [Except.ok.injEq] at hb
          subst hb
          exact pw_step_push fuel d f nwt lpt L n0 hc i sn.1 sn.2 s1 k hi0 hin1 hinv hp hk
      · rename_i hk
        simp only [Except.ok.injEq] at hb
        subst hb
        exact pw_step_skip fuel d f nwt lpt L n0 hc i sn.1 sn.2 s1 k hi0 hin1 hinv hp hk

/-! ### The single-phone loop of `prune_word_chan` -/

theorem rhmm_frame_fields (d s : decoder_t) (h : rhmm_frame d s) :
    s.single_phone_wid = d.single_phone_wid ∧ s.n_1ph_words = d.n_1ph_words ∧
    s.chan = d.chan ∧ s.word_chan = d.word_chan ∧ s.word_active = d.word_active ∧
    s.active_word_list = d.active_word_list ∧ s.n_active_word = d.n_active_word ∧
    s.root_chan = d.root_chan := by
  unfold rhmm_frame at h
  have e1 := congrArg (fun x : decoder_t => x.single_phone_wid) h
  have e2 := congrArg (fun x : decoder_t => x.n_1ph_words) h
  have e3 := congrArg (fun x : decoder_t => x.chan) h
  have e4 := congrArg (fun x : decoder_t => x.word_chan) h
  have e5 := congrArg (fun x : decoder_t => x.word_active) h
  have e6 := congrArg (fun x : decoder_t => x.active_word_list) h
  have e7 := congrArg (fun x : decoder_t => x.n_active_word) h
  have e8 := congrArg (fun x : decoder_t => x.root_chan) h
  exact ⟨e1, e2, e3, e4, e5, e6, e7, e8⟩

theorem rhmm_frame_save_exit (sfuel : Nat) (d s s1 : decoder_t) (f w score path rc : Int)
    (h0 : rhmm_frame d s) (h : save_exit sfuel s f w score path rc = Except.ok s1) :
    rhmm_frame d s1 ∧ s1.all_rhmm = s.all_rhmm := by
  unfold save_exit at h
  split at h
  · simp at h
  · simp only [Except.ok.injEq] at h
    subst h
    unfold rhmm_frame at h0 ⊢
    refine ⟨?_, rfl⟩
    unfold set_ngs
    dsimp only
    rw [h0]

/-- The second loop of `prune_word_chan`, over the single-phone words: a
channel is left as it was or stamped for the next frame, and the channel of
every listed word that is active with a best score above `lpt` is stamped. -/
theorem prune_single_spec (fuel : Nat) (d : decoder_t) (f nwt lpt : Int) (d1 : decoder_t)
    (hr : for_up
      (fun i (s : decoder_t) =>
        let w := s.single_phone_wid i
        if (s.all_rhmm w).hmm.frame < f then Except.ok s
        else if (s.all_rhmm w).hmm.bestscore > lpt then
          let s1 := set_rhmm_hmm s w (hmm_set_frame (s.all_rhmm w).hmm (f + 1))
          if (s1.all_rhmm w).hmm.out_score > nwt then
            save_exit fuel s1 f w (s1.all_rhmm w).hmm.out_score
              (s1.all_rhmm w).hmm.out_history 0
          else Except.ok s1
        else Except.ok s)
      d.n_1ph_words.toNat 0 d = Except.ok d1) :
    rhmm_frame d d1 ∧
    (∀ w, d1.all_rhmm w = d.all_rhmm w ∨
      (rhmm_wins d f lpt w ∧ d1.all_rhmm w = rhmm_stamped d f w)) ∧
    (∀ j, 0 ≤ j → j < d.n_1ph_words → rhmm_wins d f lpt (d.single_phone_wid j) →
      d1.all_rhmm (d.single_phone_wid j) = rhmm_stamped d f (d.single_phone_wid j)) ∧
    (∀ j, 0 ≤ j → j < d.n_1ph_words → ¬ rhmm_wins d f lpt (d.single_phone_wid j) →
      d1.all_rhmm (d.single_phone_wid j) = d.all_rhmm (d.single_phone_wid j)) := by
  have h := for_up_ind (fun i (s : decoder_t) => rhmm_frame d s ∧
      (∀ w, s.all_rhmm w = d.all_rhmm w ∨
        (rhmm_wins d f lpt w ∧ s.all_rhmm w = rhmm_stamped d f w)) ∧
      (∀ j, 0 ≤ j → j < i → rhmm_wins d f lpt (d.single_phone_wid j) →
        s.all_rhmm (d.single_phone_wid j) = rhmm_stamped d f (d.single_phone_wid j))) _
    d.n_1ph_words.toNat 0 d d1 ?_ ⟨by unfold rhmm_frame; rfl, fun _ => Or.inl rfl, ?_⟩ hr
  · obtain ⟨h1, h2, h3⟩ := h
    refine ⟨h1, h2, fun j hj0 hjn hw => h3 j hj0 (by omega) hw, fun j _ _ hw => ?_⟩
    rcases h2 (d.single_phone_wid j) with e | ⟨e, _⟩
    · exact e
    · exact absurd e hw
  · intro i s s1 hi0 _ ⟨h1, h2, h3⟩ hb
    dsimp only at hb
    obtain ⟨e1, _⟩ := rhmm_frame_fields d s h1
    rw [e1] at hb
    have hstamp : ∀ (t : decoder_t), rhmm_frame d t → t.all_rhmm = (set_rhmm_hmm s
        (d.single_phone_wid i) (hmm_set_frame (s.all_rhmm (d.single_phone_wid i)).hmm
          (f + 1))).all_rhmm →
        ¬ (s.all_rhmm (d.single_phone_wid i)).hmm.frame < f →
        (s.all_rhmm (d.single_phone_wid i)).hmm.bestscore > lpt →
        rhmm_frame d t ∧
        (∀ w, t.all_rhmm w = d.all_rhmm w ∨
          (rhmm_wins d f lpt w ∧ t.all_rhmm w = rhmm_stamped d f w)) ∧
        (∀ j, 0 ≤ j → j < i + 1 → rhmm_wins d f lpt (d.single_phone_wid j) →
          t.all_rhmm (d.single_phone_wid j) = rhmm_stamped d f (d.single_phone_wid j)) := by
      intro t ht hte hfr hbs
      have hcur : rhmm_wins d f lpt (d.single_phone_wid i) ∧
          t.all_rhmm (d.single_phone_wid i) = rhmm_stamped d f (d.single_phone_wid i) := by
        rw [hte]
        unfold set_rhmm_hmm
        dsimp only
        rw [store_same]
        rcases h2 (d.single_phone_wid i) with e | ⟨hw, e⟩
        · rw [e] at hfr hbs ⊢
          exact ⟨⟨by omega, hbs⟩, rfl⟩
        · rw [e]
          exact ⟨hw, rfl⟩
      have hoth : ∀ w, w ≠ d.single_phone_wid i → t.all_rhmm w = s.all_rhmm w := by
        intro w hw
        rw [hte]
        unfold set_rhmm_hmm
        dsimp only
        rw [store_ne _ _ _ _ hw]
      refine ⟨ht, fun w => ?_, fun j hj0 hji hw => ?_⟩
      · by_cases hw : w = d.single_phone_wid i
        · subst hw
          exact Or.inr hcur
        · rw [hoth w hw]
          exact h2 w
      · by_cases hw1 : d.single_phone_wid j = d.single_phone_wid i
        · rw [hw1]
          exact hcur.2
        · rw [hoth _ hw1]
          by_cases hj : j = i
          · subst hj
            exact absurd rfl hw1
          · exact h3 j hj0 (by omega) hw
    have hsame : ¬ rhmm_wins d f lpt (d.single_phone_wid i) ∨
        s.all_rhmm (d.single_phone_wid i) = rhmm_stamped d f (d.single_phone_wid i) →
        rhmm_frame d s ∧
        (∀ w, s.all_rhmm w = d.all_rhmm w ∨
          (rhmm_wins d f lpt w ∧ s.all_rhmm w = rhmm_stamped d f w)) ∧
        (∀ j, 0 ≤ j → j < i + 1 → rhmm_wins d f lpt (d.single_phone_wid j) →
          s.all_rhmm (d.single_phone_wid j) = rhmm_stamped d f (d.single_phone_wid j)) := by
      intro hc
      refine ⟨h1, h2, fun j hj0 hji hw => ?_⟩
      by_cases hj : j = i
      · subst hj
        rcases hc with hc | hc
        · exact absurd hw hc
        · exact hc
      · exact h3 j hj0 (by omega) hw
    have hcase : ¬ ((s.all_rhmm (d.single_phone_wid i)).hmm.frame ≥ f ∧
        (s.all_rhmm (d.single_phone_wid i)).hmm.bestscore > lpt) →
        ¬ rhmm_wins d f lpt (d.single_phone_wid i) ∨
        s.all_rhmm (d.single_phone_wid i) = rhmm_stamped d f (d.single_phone_wid i) := by
      intro hn
      rcases h2 (d.single_phone_wid i) with e | ⟨_, e⟩
      · left
        rw [e] at hn
        intro hw
        exact hn ⟨hw.1, hw.2⟩
      · exact Or.inr e
    split at hb
    · rename_i hfr
      simp only [Except.ok.injEq] at hb
      subst hb
      exact hsame (hcase (fun hn => by omega))
    · rename_i hfr
      split at hb
      · rename_i hbs
        split at hb
        · obtain ⟨g1, g2⟩ := rhmm_frame_save_exit fuel d _ s1 f _ _ _ _ (by
            unfold rhmm_frame at h1 ⊢
            unfold set_rhmm_hmm
            dsimp only
            rw [h1]) hb
          exact hstamp s1 g1 g2 hfr hbs
        · simp only [Except.ok.injEq] at hb
          subst hb
          exact hstamp _ (by
            unfold rhmm_frame at h1 ⊢
            unfold set_rhmm_hmm
            dsimp only
            rw [h1]) rfl hfr hbs
      · rename_i hbs
        simp only [Except.ok.injEq] at hb
        subst hb
        exact hsame (hcase (fun hn => hbs hn.2))
  · intro j hj0 hj
    omega

/-- The two loops of `prune_word_chan` over the words listed in frame `f`
whose chains are `L`: the state behind the word loop satisfies `pw_inv`, and
the single-phone loop stamps channels of the state that the word loop left,
with the count of next words stored. -/
theorem prune_word_chan_spec (fuel : Nat) (d d1 : decoder_t) (f : Int) (L : Int → List Int)
    (hc : word_chains d f L) (hr : prune_word_chan fuel d f = Except.ok d1) :
    ∃ (s : decoder_t) (m : Int),
      pw_inv d f (d.last_phone_best_score + beam_max d.dynamic_beam d.lponlybeam) L
        (d.n_active_word (parity (f + 1))) ((d.n_active_word (parity f)).toNat : Int) s m ∧
      rhmm_frame { s with n_active_word := store s.n_active_word (parity (f + 1)) m } d1 ∧
      (∀ w, d1.all_rhmm w = d.all_rhmm w ∨
        (rhmm_wins d f (d.last_phone_best_score + beam_max d.dynamic_beam d.lponlybeam) w ∧
          d1.all_rhmm w = rhmm_stamped d f w)) ∧
      (∀ j, 0 ≤ j → j < d.n_1ph_words →
        rhmm_wins d f (d.last_phone_best_score + beam_max d.dynamic_beam d.lponlybeam)
          (d.single_phone_wid j) →
        d1.all_rhmm (d.single_phone_wid j) = rhmm_stamped d f (d.single_phone_wid j)) ∧
      (∀ j, 0 ≤ j → j < d.n_1ph_words →
        ¬ rhmm_wins d f (d.last_phone_best_score + beam_max d.dynamic_beam d.lponlybeam)
          (d.single_phone_wid j) →
        d1.all_rhmm (d.single_phone_wid j) = d.all_rhmm (d.single_phone_wid j)) := by
  unfold prune_word_chan at hr
  dsimp only at hr
  split at hr
  · simp at hr
  · rename_i s m heq
    have h1 := prune_words_spec fuel d f _ _ L _ hc (s, m) heq
    have h2 := prune_single_spec fuel
      { s with n_active_word := store s.n_active_word (parity (f + 1)) m } f
      (d.last_phone_best_score + beam_max d.dynamic_beam d.wbeam)
      (d.last_phone_best_score + beam_max d.dynamic_beam d.lponlybeam) d1 hr
    obtain ⟨e1, e2, e3, e4, _⟩ := words_frame_fields d s h1.frame
    obtain ⟨g1, g2, g3, g4⟩ := h2
    unfold rhmm_wins at g2 g3 g4 ⊢
    unfold rhmm_stamped at g2 g3 ⊢
    dsimp only at g2 g3 g4
    rw [e2] at g2
    rw [e2, e3, e4] at g3 g4
    exact ⟨s, m, h1, g1, g2, g3, g4⟩

/-- C23 (amended): in a returning run of `prune_word_chan` for frame `f`, over
active words whose leaf chains `L` are null-terminated and disjoint, the
threshold is `last_phone_best_score + max(dynamic_beam, lponlybeam)`: a leaf
stamped `f` of a listed multi-phone word stays on the chain of its word
exactly when its best score is above that threshold, and exactly then it is
stamped `f + 1`; the channel stamped `f` of a listed single-phone word is
stamped `f + 1` exactly when its best score is above the same threshold.  The
best scores are not changed. -/
theorem prune_word_chan_threshold (fuel : Nat) (d d1 : decoder_t) (f : Int)
    (L : Int → List Int) (hc : word_chains d f L)
    (hr : prune_word_chan fuel d f = Except.ok d1) :
    (∀ j, 0 ≤ j → j < d.n_active_word (parity f) →
      ∃ l1, leaf_list d1.chan (d1.word_chan (d.active_word_list (parity f) j)) l1 ∧
        l1.Sublist (L j) ∧
        ∀ a ∈ L j, (d.chan a).hmm.frame = f →
          (a ∈ l1 ↔ (d.chan a).hmm.bestscore >
            d.last_phone_best_score + beam_max d.dynamic_beam d.lponlybeam) ∧
          ((d1.chan a).hmm.frame = f + 1 ↔ (d.chan a).hmm.bestscore >
            d.last_phone_best_score + beam_max d.dynamic_beam d.lponlybeam) ∧
          (d1.chan a).hmm.bestscore = (d.chan a).hmm.bestscore) ∧
    (∀ j, 0 ≤ j → j < d.n_1ph_words →
      (d.all_rhmm (d.single_phone_wid j)).hmm.frame = f →
      ((d1.all_rhmm (d.single_phone_wid j)).hmm.frame = f + 1 ↔
        (d.all_rhmm (d.single_phone_wid j)).hmm.bestscore >
          d.last_phone_best_score + beam_max d.dynamic_beam d.lponlybeam) ∧
      (d1.all_rhmm (d.single_phone_wid j)).hmm.bestscore =
        (d.all_rhmm (d.single_phone_wid j)).hmm.bestscore) := by
  obtain ⟨s, m, h1, h2, _, h4, h5⟩ := prune_word_chan_spec fuel d d1 f L hc hr
  obtain ⟨_, _, e3, e4, _⟩ := rhmm_frame_fields _ d1 h2
  have ec : d1.chan = s.chan := e3
  have ew : d1.word_chan = s.word_chan := e4
  constructor
  · intro j hj0 hjn
    have hjt : j < ((d.n_active_word (parity f)).toNat : Int) := by
      rw [Int.toNat_of_nonneg (by omega)]
      exact hjn
    obtain ⟨q1, q2⟩ := h1.done j hj0 hjn hjt
    rw [ec, ew]
    refine ⟨_, q1, List.filter_sublist _, fun a ha hfa => ?_⟩
    have hq := q2 a ha
    unfold leaf_hmm leaf_wins at hq
    refine ⟨?_, ?_, ?_⟩
    · rw [List.mem_filter]
      unfold leaf_kept leaf_wins
      have hne : ¬ (d.chan a).hmm.frame = f + 1 := by omega
      simp [ha, hne]
    · rw [hq]
      by_cases hb : (d.chan a).hmm.bestscore >
          d.last_phone_best_score + beam_max d.dynamic_beam d.lponlybeam
      · simp [hb, hmm_set_frame]
      · simp only [hb, decide_False, Bool.false_eq_true, if_false, iff_false]
        omega
    · rw [hq]
      split
      · rfl
      · rfl
  · intro j hj0 hjn hfj
    by_cases hw : rhmm_wins d f (d.last_phone_best_score + beam_max d.dynamic_beam d.lponlybeam)
        (d.single_phone_wid j)
    · rw [h4 j hj0 hjn hw]
      unfold rhmm_stamped hmm_set_frame
      exact ⟨⟨fun _ => hw.2, fun _ => rfl⟩, rfl⟩
    · rw [h5 j hj0 hjn hw]
      refine ⟨⟨fun h => by omega, fun h => absurd ⟨by omega, h⟩ hw⟩, rfl⟩

theorem pwc_out_eq (fuel : Nat) (d : decoder_t) (f : Int) (h : pwc_returns fuel d f = true) :
    prune_word_chan fuel d f = Except.ok (pwc_out fuel d f) := by
  unfold pwc_returns at h
  unfold pwc_out
  split at h
  · rename_i x hx
    rw [hx]
  · simp at h

theorem ex_lp_chains : word_chains ex_lp_dec 6 (fun j => if j = 0 then [1, 2] else []) := by
  have hn : ex_lp_dec.n_active_word (parity 6) = 1 := by decide
  refine { chain := ?_, disj := ?_, inj := ?_ }
  · intro j hj0 hjn
    rw [hn] at hjn
    have hj : j = 0 := by omega
    subst hj
    exact ⟨by decide, rfl, by decide, rfl, rfl⟩
  · intro i j a hi0 hin hj0 hjn _ _
    rw [hn] at hin hjn
    omega
  · intro i j hi0 hin hj0 hjn _
    rw [hn] at hin hjn
    omega

set_option maxRecDepth 100000 in
/-- Witness for C23 (amended): in frame 6 of the test decoder the threshold
is -10 + max(-100, -20) = -30; `prune_word_chan` returns, the leaf in cell 1
(best score -10) stays on the chain of word 0 and is stamped 7, the leaf in
cell 2 (best score -50) is unlinked and keeps stamp 6; of the single-phone
words, word 4 (-10) is stamped 7 and word 3 (-50) keeps stamp 6. -/
theorem prune_word_chan_threshold_witness :
    pwc_returns 5 ex_lp_dec 6 = true ∧
    (pwc_out 5 ex_lp_dec 6).word_chan 0 = 1 ∧
    ((pwc_out 5 ex_lp_dec 6).chan 1).next = 0 ∧
    ((pwc_out 5 ex_lp_dec 6).chan 1).hmm.frame = 7 ∧
    ((pwc_out 5 ex_lp_dec 6).chan 2).hmm.frame = 6 ∧
    ((pwc_out 5 ex_lp_dec 6).all_rhmm 4).hmm.frame = 7 ∧
    ((pwc_out 5 ex_lp_dec 6).all_rhmm 3).hmm.frame = 6 ∧
    ((∀ j, 0 ≤ j → j < ex_lp_dec.n_active_word (parity 6) →
      ∃ l1, leaf_list (pwc_out 5 ex_lp_dec 6).chan
          ((pwc_out 5 ex_lp_dec 6).word_chan (ex_lp_dec.active_word_list (parity 6) j)) l1 ∧
        l1.Sublist ((fun j : Int => if j = 0 then [1, 2] else []) j) ∧
        ∀ a ∈ (fun j : Int => if j = 0 then [1, 2] else []) j,
          (ex_lp_dec.chan a).hmm.frame = 6 →
          (a ∈ l1 ↔ (ex_lp_dec.chan a).hmm.bestscore >
            ex_lp_dec.last_phone_best_score +
              beam_max ex_lp_dec.dynamic_beam ex_lp_dec.lponlybeam) ∧
          (((pwc_out 5 ex_lp_dec 6).chan a).hmm.frame = 6 + 1 ↔
            (ex_lp_dec.chan a).hmm.bestscore >
              ex_lp_dec.last_phone_best_score +
                beam_max ex_lp_dec.dynamic_beam ex_lp_dec.lponlybeam) ∧
          ((pwc_out 5 ex_lp_dec 6).chan a).hmm.bestscore = (ex_lp_dec.chan a).hmm.bestscore) ∧
    (∀ j, 0 ≤ j → j < ex_lp_dec.n_1ph_words →
      (ex_lp_dec.all_rhmm (ex_lp_dec.single_phone_wid j)).hmm.frame = 6 →
      (((pwc_out 5 ex_lp_dec 6).all_rhmm (ex_lp_dec.single_phone_wid j)).hmm.frame = 6 + 1 ↔
        (ex_lp_dec.all_rhmm (ex_lp_dec.single_phone_wid j)).hmm.bestscore >
          ex_lp_dec.last_phone_best_score +
            beam_max ex_lp_dec.dynamic_beam ex_lp_dec.lponlybeam) ∧
      ((pwc_out 5 ex_lp_dec 6).all_rhmm (ex_lp_dec.single_phone_wid j)).hmm.bestscore =
        (ex_lp_dec.all_rhmm (ex_lp_dec.single_phone_wid j)).hmm.bestscore)) :=
  ⟨by decide!, by decide!, by decide!, by decide!, by decide!, by decide!, by decide!,
    prune_word_chan_threshold 5 ex_lp_dec (pwc_out 5 ex_lp_dec 6) 6
      (fun j => if j = 0 then [1, 2] else []) ex_lp_chains
      (pwc_out_eq 5 ex_lp_dec 6 (by decide!))⟩

set_option maxRecDepth 100000 in
/-- Counterexample to C23 as stated: in frame 6 of the test decoder
`best_score + max(dynamic_beam, lpbeam)` is 0 + (-100) = -100.  The leaf in
cell 2 of the active word 0 is stamped 6 and has best score -50, above -100,
and so has the channel of the active single-phone word 3; `prune_word_chan`
unlinks the leaf and promotes neither: the chain of word 0 is cell 1 alone and
both keep stamp 6. -/
theorem prune_word_chan_threshold_counterexample :
    ex_lp_dec.active_word_list (parity 6) 0 = 0 ∧ ex_lp_dec.n_active_word (parity 6) = 1 ∧
    leaf_list ex_lp_dec.chan (ex_lp_dec.word_chan 0) [1, 2] ∧
    (ex_lp_dec.chan 2).hmm.frame = 6 ∧
    (ex_lp_dec.chan 2).hmm.bestscore >
      ex_lp_dec.best_score + beam_max ex_lp_dec.dynamic_beam ex_lp_dec.lpbeam ∧
    ex_lp_dec.single_phone_wid 1 = 3 ∧ (ex_lp_dec.all_rhmm 3).hmm.frame = 6 ∧
    (ex_lp_dec.all_rhmm 3).hmm.bestscore >
      ex_lp_dec.best_score + beam_max ex_lp_dec.dynamic_beam ex_lp_dec.lpbeam ∧
    pwc_returns 5 ex_lp_dec 6 = true ∧
    leaf_list (pwc_out 5 ex_lp_dec 6).chan ((pwc_out 5 ex_lp_dec 6).word_chan 0) [1] ∧
    ((pwc_out 5 ex_lp_dec 6).chan 2).hmm.frame = 6 ∧
    ((pwc_out 5 ex_lp_dec 6).all_rhmm 3).hmm.frame = 6 :=
  ⟨by decide, by decide, ⟨by decide, rfl, by decide, rfl, rfl⟩, by decide, by decide, by decide,
    by decide, by decide, by decide!,
    ⟨by decide!, by decide!, (by decide! : ((pwc_out 5 ex_lp_dec 6).chan 1).next = 0)⟩, by decide!,
    (by decide! : ((pwc_out 5 ex_lp_dec 6).all_rhmm 3).hmm.frame = 6)⟩

/-! ### What every returning `alloc_all_rc` does to a chain -/

/-- A returning `alloc_rc_loop` at the leaf `hmm` of a chain `pre ++ hmm ::
rest`: the leaves behind `hmm` afterwards are those of `rest` in order with
new cells between them; the cells in use keep their HMM, the cells off the
chain are unchanged, and a new cell has frame stamp -1. -/
theorem alloc_rc_loop_grow (sseq : Int → Int) (ciphone : Int) (fuel : Nat) :
    ∀ (i hmm : Int) (d d1 : decoder_t) (x : Int) (pre rest : List Int),
      0 ≤ d.heap_top →
      chain_seg (fun a => (d.chan a).next) x (pre ++ hmm :: rest) 0 →
      (∀ a ∈ pre ++ hmm :: rest, a ≤ d.heap_top) →
      alloc_rc_loop sseq ciphone fuel i hmm d = Except.ok d1 →
      ∃ rest1, chain_seg (fun a => (d1.chan a).next) x (pre ++ hmm :: rest1) 0 ∧
        rest.Sublist rest1 ∧
        (∀ a, a ≤ d.heap_top → keeps_leaf (d.chan a) (d1.chan a)) ∧
        (∀ a, a ≤ d.heap_top → a ∉ pre ++ hmm :: rest → d1.chan a = d.chan a) ∧
        (∀ a ∈ rest1, a ∈ rest ∨ (d.heap_top < a ∧ (d1.chan a).hmm.frame = -1)) ∧
        d.heap_top ≤ d1.heap_top ∧ (∀ a ∈ rest1, a ≤ d1.heap_top) ∧
        d1 = { d with chan := d1.chan, heap_top := d1.heap_top } := by
  induction fuel with
  | zero =>
    intro i hmm d d1 x pre rest _ _ _ hr
    simp [alloc_rc_loop] at hr
  | succ f ih =>
    intro i y d d1 x pre rest hheap hch hbound hr
    by_cases hge0 : sseq i ≥ 0
    · have hnodup := chain_seg_nodup _ _ x hch
      obtain ⟨y1, hpre, hy⟩ := (chain_seg_append _ pre (y :: rest) x 0).mp hch
      obtain ⟨hy0, hyh, hrest⟩ := hy
      subst hyh
      have hpre_ne : ∀ a ∈ pre, a ≠ y1 := by
        intro a ha e
        rw [e] at ha
        have := (List.nodup_append.mp hnodup).2.2
        exact this ha (List.mem_cons_self y1 rest)
      have hrest_ne : ∀ a ∈ rest, a ≠ y1 := by
        intro a ha e
        rw [e] at ha
        have := (List.nodup_cons.mp (List.nodup_append.mp hnodup).2.1).1
        exact this ha
      by_cases h2 : (d.chan y1).next = 0 ∨ (d.chan (d.chan y1).next).hmm.ssid ≠ sseq i
      · have hyt : y1 ≠ d.heap_top + 1 := by
          have := hbound y1 (List.mem_append_right pre (List.mem_cons_self y1 rest))
          omega
        obtain ⟨c1, c2, c3, c4⟩ := link_leaf_chan d y1 i ciphone (sseq i) hyt
        have hmem_ne : ∀ a ∈ pre ++ y1 :: rest, a ≠ d.heap_top + 1 := by
          intro a ha
          have := hbound a ha
          omega
        have hch1 : chain_seg (fun a => ((link_leaf d y1 i ciphone (sseq i)).chan a).next) x
            ((pre ++ [y1]) ++ (d.heap_top + 1) :: rest) 0 := by
          refine (chain_seg_append _ _ _ _ _).mpr ⟨d.heap_top + 1, ?_, ?_⟩
          · refine (chain_seg_append _ _ _ _ _).mpr ⟨y1, ?_, hy0, rfl, ?_⟩
            · refine chain_seg_congr _ _ pre x y1 ?_ hpre
              intro a ha
              show ((link_leaf d y1 i ciphone (sseq i)).chan a).next = (d.chan a).next
              rw [c3 a (hpre_ne a ha) (hmem_ne a (List.mem_append_left _ ha))]
            · show ((link_leaf d y1 i ciphone (sseq i)).chan y1).next = d.heap_top + 1
              rw [c2]
          · refine ⟨by omega, rfl, ?_⟩
            show chain_seg _ ((link_leaf d y1 i ciphone (sseq i)).chan (d.heap_top + 1)).next
              rest 0
            rw [c1]
            refine chain_seg_congr _ _ rest _ 0 ?_ hrest
            intro a ha
            show ((link_leaf d y1 i ciphone (sseq i)).chan a).next = (d.chan a).next
            rw [c3 a (hrest_ne a ha)
              (hmem_ne a (List.mem_append_right _ (List.mem_cons_of_mem _ ha)))]
        have hheap1 : (link_leaf d y1 i ciphone (sseq i)).heap_top = d.heap_top + 1 := by
          rw [c4]
        have hbound1 : ∀ a ∈ (pre ++ [y1]) ++ (d.heap_top + 1) :: rest,
            a ≤ (link_leaf d y1 i ciphone (sseq i)).heap_top := by
          intro a ha
          rw [hheap1]
          rcases List.mem_append.mp ha with h | h
          · rcases List.mem_append.mp h with h | h
            · have := hbound a (List.mem_append_left _ h)
              omega
            · have e := List.mem_singleton.mp h
              have := hbound y1 (List.mem_append_right pre (List.mem_cons_self y1 rest))
              omega
          · rcases List.mem_cons.mp h with h | h
            · omega
            · have := hbound a (List.mem_append_right _ (List.mem_cons_of_mem _ h))
              omega
        rw [alloc_rc_loop_alloc sseq ciphone f i y1 d hge0 h2] at hr
        obtain ⟨rest1, g2, g4, g5, g6, g7, g8, g9, g10⟩ :=
          ih (i + 1) (d.heap_top + 1) (link_leaf d y1 i ciphone (sseq i)) d1 x (pre ++ [y1])
            rest (by rw [hheap1]; omega) hch1 hbound1 hr
        have hk5 : ∀ a, a ≤ d.heap_top → keeps_leaf (d.chan a) (d1.chan a) := by
          intro a ha
          apply keeps_leaf_trans _ _ _ ?_ (g5 a (by rw [hheap1]; omega))
          by_cases e : a = y1
          · rw [e, c2]
            exact ⟨rfl, rfl, rfl, rfl⟩
          · rw [c3 a e (by omega)]
            exact keeps_leaf_refl _
        have hkt := g5 (d.heap_top + 1) (by rw [hheap1])
        rw [c1] at hkt
        refine ⟨(d.heap_top + 1) :: rest1, ?_, ?_, hk5, ?_, ?_, ?_, ?_, ?_⟩
        · have e : pre ++ y1 :: (d.heap_top + 1) :: rest1
              = (pre ++ [y1]) ++ (d.heap_top + 1) :: rest1 := by simp
          rw [e]
          exact g2
        · exact List.Sublist.cons _ g4
        · intro a ha hn
          have hay : a ≠ y1 := by
            intro e
            apply hn
            rw [e]
            exact List.mem_append_right pre (List.mem_cons_self y1 rest)
          rw [g6 a (by rw [hheap1]; omega) ?_, c3 a hay (by omega)]
          intro hm
          rcases List.mem_append.mp hm with h | h
          · rcases List.mem_append.mp h with h | h
            · exact hn (List.mem_append_left _ h)
            · exact hay (List.mem_singleton.mp h)
          · rcases List.mem_cons.mp h with h | h
            · omega
            · exact hn (List.mem_append_right _ (List.mem_cons_of_mem _ h))
        · intro a ha
          rcases List.mem_cons.mp ha with h | h
          · right
            rw [h]
            refine ⟨by omega, ?_⟩
            rw [hkt.1]
            rfl
          · rcases g7 a h with h1 | ⟨h1, h3⟩
            · exact Or.inl h1
            · right
              exact ⟨by rw [hheap1] at h1; omega, h3⟩
        · rw [hheap1] at g8
          omega
        · intro a ha
          rcases List.mem_cons.mp ha with h | h
          · rw [h]
            rw [hheap1] at g8
            exact g8
          · exact g9 a h
        · rw [g10, c4]
      · have h3 : (d.chan y1).next ≠ 0 := by
          intro e
          exact h2 (Or.inl e)
        cases rest with
        | nil =>
          have e : (d.chan y1).next = 0 := hrest
          exact absurd e h3
        | cons r rs =>
          obtain ⟨r0, r1, r2⟩ := hrest
          have r1' : (d.chan y1).next = r := r1
          have hch1 : chain_seg (fun a => (d.chan a).next) x ((pre ++ [y1]) ++ r :: rs) 0 := by
            have e : (pre ++ [y1]) ++ r :: rs = pre ++ y1 :: r :: rs := by simp
            rw [e]
            exact hch
          have hbound1 : ∀ a ∈ (pre ++ [y1]) ++ r :: rs, a ≤ d.heap_top := by
            have e : (pre ++ [y1]) ++ r :: rs = pre ++ y1 :: r :: rs := by simp
            rw [e]
            exact hbound
          rw [alloc_rc_loop_reuse sseq ciphone f i y1 d hge0 h2, r1'] at hr
          obtain ⟨rest1, g2, g4, g5, g6, g7, g8, g9, g10⟩ :=
            ih (i + 1) r d d1 x (pre ++ [y1]) rs hheap hch1 hbound1 hr
          have hr_le : r ≤ d.heap_top :=
            hbound r (List.mem_append_right pre
              (List.mem_cons_of_mem _ (List.mem_cons_self r rs)))
          refine ⟨r :: rest1, ?_, ?_, g5, ?_, ?_, g8, ?_, g10⟩
          · have e : pre ++ y1 :: r :: rest1 = (pre ++ [y1]) ++ r :: rest1 := by simp
            rw [e]
            exact g2
          · exact List.Sublist.cons₂ _ g4
          · intro a ha hn
            apply g6 a ha
            intro hm
            apply hn
            have e : (pre ++ [y1]) ++ r :: rs = pre ++ y1 :: r :: rs := by simp
            rw [← e]
            exact hm
          · intro a ha
            rcases List.mem_cons.mp ha with h | h
            · left
              rw [h]
              exact List.mem_cons_self r rs
            · rcases g7 a h with h1 | h1
              · exact Or.inl (List.mem_cons_of_mem _ h1)
              · exact Or.inr h1
          · intro a ha
            rcases List.mem_cons.mp ha with h | h
            · rw [h]
              omega
            · exact g9 a h
    · rw [alloc_rc_loop_done sseq ciphone f i y d (by omega)] at hr
      simp only [Except.ok.injEq] at hr
      subst hr
      exact ⟨rest, hch, List.Sublist.refl _, fun a _ => keeps_leaf_refl _, fun a _ _ => rfl,
        fun a ha => Or.inl ha, le_refl _,
        fun a ha => hbound a (List.mem_append_right _ (List.mem_cons_of_mem _ ha)), rfl⟩

/-- A returning `alloc_all_rc` for word `w` whose chain is `l0`: the chain
afterwards is not empty and holds the leaves of `l0` in order with new cells
between them; the cells in use keep their HMM, the cells off the chain and
the chain heads of the other words are unchanged, and a new cell has frame
stamp -1. -/
theorem alloc_all_rc_grow (fuel : Nat) (d d1 : decoder_t) (w : Int) (l0 : List Int)
    (hheap : 0 ≤ d.heap_top) (hch : leaf_list d.chan (d.word_chan w) l0)
    (hbound : ∀ a ∈ l0, a ≤ d.heap_top) (hr : alloc_all_rc fuel d w = Except.ok d1) :
    ∃ l1, leaf_list d1.chan (d1.word_chan w) l1 ∧ l0.Sublist l1 ∧ l1 ≠ [] ∧
      (∀ a, a ≤ d.heap_top → keeps_leaf (d.chan a) (d1.chan a)) ∧
      (∀ a, a ≤ d.heap_top → a ∉ l0 → d1.chan a = d.chan a) ∧
      (∀ a ∈ l1, a ∈ l0 ∨ (d.heap_top < a ∧ (d1.chan a).hmm.frame = -1)) ∧
      d.heap_top ≤ d1.heap_top ∧ (∀ a ∈ l1, a ≤ d1.heap_top) ∧
      (∀ v, v ≠ w → d1.word_chan v = d.word_chan v) ∧
      d1 = { d with chan := d1.chan, heap_top := d1.heap_top, word_chan := d1.word_chan } := by
  unfold alloc_all_rc at hr
  dsimp only at hr
  split at hr
  · simp at hr
  · by_cases h2 : d.word_chan w = 0 ∨
        (d.chan (d.word_chan w)).hmm.ssid ≠ d.xwd.rcFwdTable
          ((d.ngs.dict.dict_list w).phone_ids ((d.ngs.dict.dict_list w).len - 1)) 0
    · rw [if_pos h2] at hr
      obtain ⟨c1, c2, c3, c4, c5⟩ := link_head_chan d w
        ((d.ngs.dict.dict_list w).ci_phone_ids ((d.ngs.dict.dict_list w).len - 1))
        (d.xwd.rcFwdTable ((d.ngs.dict.dict_list w).phone_ids
          ((d.ngs.dict.dict_list w).len - 1)) 0)
      have e2 : set_word_chan
          (init_leaf (listelem_alloc d).1 (listelem_alloc d).2
            ((listelem_alloc d).1.word_chan w) 0
            ((d.ngs.dict.dict_list w).ci_phone_ids ((d.ngs.dict.dict_list w).len - 1))
            (d.xwd.rcFwdTable ((d.ngs.dict.dict_list w).phone_ids
              ((d.ngs.dict.dict_list w).len - 1)) 0))
          w (listelem_alloc d).2 = link_head d w
        ((d.ngs.dict.dict_list w).ci_phone_ids ((d.ngs.dict.dict_list w).len - 1))
        (d.xwd.rcFwdTable ((d.ngs.dict.dict_list w).phone_ids
          ((d.ngs.dict.dict_list w).len - 1)) 0) := rfl
      have e3 : (listelem_alloc d).2 = d.heap_top + 1 := rfl
      rw [e2, e3] at hr
      generalize hD : link_head d w
        ((d.ngs.dict.dict_list w).ci_phone_ids ((d.ngs.dict.dict_list w).len - 1))
        (d.xwd.rcFwdTable ((d.ngs.dict.dict_list w).phone_ids
          ((d.ngs.dict.dict_list w).len - 1)) 0) = D at c1 c2 c3 c4 c5 hr
      have hl0ne : ∀ a ∈ l0, a ≠ d.heap_top + 1 := by
        intro a ha
        have := hbound a ha
        omega
      have hheapD : D.heap_top = d.heap_top + 1 := by rw [c5]
      have hchD : chain_seg (fun a => (D.chan a).next) (d.heap_top + 1)
          ([] ++ (d.heap_top + 1) :: l0) 0 := by
        refine ⟨by omega, rfl, ?_⟩
        show chain_seg _ (D.chan (d.heap_top + 1)).next l0 0
        rw [c1]
        refine chain_seg_congr _ _ l0 _ 0 ?_ hch
        intro a ha
        show (D.chan a).next = (d.chan a).next
        rw [c2 a (hl0ne a ha)]
      obtain ⟨rest1, g2, g4, g5, g6, g7, g8, g9, g10⟩ :=
        alloc_rc_loop_grow _ _ fuel 1 (d.heap_top + 1) D d1 (d.heap_top + 1) [] l0
          (by rw [hheapD]; omega) hchD
          (by
            intro a ha
            rw [hheapD]
            rcases List.mem_cons.mp ha with h | h
            · omega
            · have := hbound a h
              omega)
          hr
      have hw1 : d1.word_chan = D.word_chan := by
        have e := congrArg (fun x : decoder_t => x.word_chan) g10
        exact e
      have hkt := g5 (d.heap_top + 1) (by rw [hheapD])
      rw [c1] at hkt
      refine ⟨(d.heap_top + 1) :: rest1, ?_, List.Sublist.cons _ g4, List.cons_ne_nil _ _,
        ?_, ?_, ?_, ?_, ?_, ?_, ?_⟩
      · show chain_seg _ (d1.word_chan w) _ 0
        rw [hw1, c3]
        exact g2
      · intro a ha
        apply keeps_leaf_trans _ _ _ ?_ (g5 a (by rw [hheapD]; omega))
        rw [c2 a (by omega)]
        exact keeps_leaf_refl _
      · intro a ha hn
        rw [g6 a (by rw [hheapD]; omega) ?_, c2 a (by omega)]
        intro hm2
        rcases List.mem_cons.mp hm2 with h | h
        · omega
        · exact hn h
      · intro a ha
        rcases List.mem_cons.mp ha with h | h
        · right
          rw [h]
          refine ⟨by omega, ?_⟩
          rw [hkt.1]
          rfl
        · rcases g7 a h with h1 | ⟨h1, h3⟩
          · exact Or.inl h1
          · exact Or.inr ⟨by rw [hheapD] at h1; omega, h3⟩
      · rw [hheapD] at g8
        omega
      · intro a ha
        rcases List.mem_cons.mp ha with h | h
        · rw [h]
          rw [hheapD] at g8
          exact g8
        · exact g9 a h
      · intro v hv
        rw [hw1, c4 v hv]
      · rw [g10, c5]
    · rw [if_neg h2] at hr
      have h3 : d.word_chan w ≠ 0 := by
        intro e
        exact h2 (Or.inl e)
      cases l0 with
      | nil =>
        have e : d.word_chan w = 0 := hch
        exact absurd e h3
      | cons r rs =>
        obtain ⟨r0, r1, r2⟩ := hch
        have r1' : d.word_chan w = r := r1
        rw [r1'] at hr
        obtain ⟨rest1, g2, g4, g5, g6, g7, g8, g9, g10⟩ :=
          alloc_rc_loop_grow _ _ fuel 1 r d d1 r [] rs hheap ⟨r1' ▸ h3, rfl, r2⟩ hbound hr
        have hw1 : d1.word_chan = d.word_chan := by
          have e := congrArg (fun x : decoder_t => x.word_chan) g10
          exact e
        refine ⟨r :: rest1, ?_, List.Sublist.cons₂ _ g4, List.cons_ne_nil _ _, g5, g6, ?_, g8,
          ?_, ?_, ?_⟩
        · show chain_seg _ (d1.word_chan w) _ 0
          rw [hw1, r1']
          exact g2
        · intro a ha
          rcases List.mem_cons.mp ha with h | h
          · left
            rw [h]
            exact List.mem_cons_self r rs
          · rcases g7 a h with h1 | h1
            · exact Or.inl (List.mem_cons_of_mem _ h1)
            · exact Or.inr h1
        · intro a ha
          rcases List.mem_cons.mp ha with h | h
          · rw [h]
            have := hbound r (List.mem_cons_self r rs)
            omega
          · exact g9 a h
        · intro v _
          rw [hw1]
        · rw [g10]

/-! ### Entering the leaves of a candidate word -/

/-- The loop of `last_phone_transition` over the leaves `l` of a candidate
with score `sc` and history `bp`: when it returns, the leaves that pass the
test are entered for frame `f + 1` and counted, none of them was stamped
`f + 1` before, and nothing else changes. -/
theorem enter_leaves_spec (f i : Int) :
    ∀ (l : List Int) (fuel : Nat) (p : Int) (t t2 : decoder_t × Int),
      leaf_list t.1.chan p l →
      for_list is_null (fun (t : decoder_t × Int) a => (t.1.chan a).next)
        (fun a (t : decoder_t × Int) =>
          if (t.1.chan a).hmm.frame < f ∨
              (t.1.chan a).hmm.in_score < (t.1.lastphn_cand i).score then
            if (t.1.chan a).hmm.frame = f + 1 then Except.error Fault.assert
            else
              Except.ok (set_chan_hmm t.1 a
                (hmm_enter (t.1.chan a).hmm (t.1.lastphn_cand i).score
                  (t.1.lastphn_cand i).bp (f + 1)), t.2 + 1)
          else Except.ok t)
        fuel p t = Except.ok t2 →
      (∀ a, a ∉ l → t2.1.chan a = t.1.chan a) ∧
      (∀ a ∈ l, t2.1.chan a
        = entered t.1 f (t.1.lastphn_cand i).score (t.1.lastphn_cand i).bp a) ∧
      (∀ a ∈ l, enters t.1 f (t.1.lastphn_cand i).score a = true →
        (t.1.chan a).hmm.frame ≠ f + 1) ∧
      t2.2 = t.2 + ((l.filter (enters t.1 f (t.1.lastphn_cand i).score)).length : Int) ∧
      t2.1 = { t.1 with chan := t2.1.chan } := by
  intro l
  induction l with
  | nil =>
    intro fuel p t t2 hl hr
    have hp : p = 0 := hl
    subst hp
    cases fuel with
    | zero => simp [for_list] at hr
    | succ n =>
      simp only [for_list, is_null, decide_True, if_true, Except.ok.injEq] at hr
      subst hr
      exact ⟨fun _ _ => rfl, fun a ha => absurd ha (List.not_mem_nil a),
        fun a ha => absurd ha (List.not_mem_nil a), by simp, rfl⟩
  | cons b l ih =>
    intro fuel p t t2 hl hr
    have hnd := leaf_list_nodup _ _ _ hl
    obtain ⟨hp0, hpb, hrest⟩ := hl
    subst hpb
    have hbl : p ∉ l := (List.nodup_cons.mp hnd).1
    cases fuel with
    | zero => simp [for_list] at hr
    | succ n =>
      have hstop : is_null p = false := by simp [is_null, hp0]
      simp only [for_list, hstop] at hr
      by_cases hen : (t.1.chan p).hmm.frame < f ∨
          (t.1.chan p).hmm.in_score < (t.1.lastphn_cand i).score
      · rw [if_pos hen] at hr
        by_cases hnf : (t.1.chan p).hmm.frame = f + 1
        · rw [if_pos hnf] at hr
          simp at hr
        · rw [if_neg hnf] at hr
          simp only [Bool.false_eq_true, if_false] at hr
          have hn1 : ((set_chan_hmm t.1 p (hmm_enter (t.1.chan p).hmm
              (t.1.lastphn_cand i).score (t.1.lastphn_cand i).bp (f + 1))).chan p).next
              = (t.1.chan p).next := by
            unfold set_chan_hmm
            dsimp only
            rw [store_same]
          have hoth : ∀ a, a ≠ p → (set_chan_hmm t.1 p (hmm_enter (t.1.chan p).hmm
              (t.1.lastphn_cand i).score (t.1.lastphn_cand i).bp (f + 1))).chan a
              = t.1.chan a := by
            intro a ha
            unfold set_chan_hmm
            dsimp only
            rw [store_ne _ _ _ _ ha]
          have hl1 : leaf_list (set_chan_hmm t.1 p (hmm_enter (t.1.chan p).hmm
              (t.1.lastphn_cand i).score (t.1.lastphn_cand i).bp (f + 1))).chan
              (t.1.chan p).next l := by
            refine leaf_list_congr t.1.chan _ _ l (fun c hc => ?_) hrest
            rw [hoth c (fun e => hbl (e ▸ hc))]
          rw [hn1] at hr
          obtain ⟨g1, g2, g3, g4, g5⟩ := ih n _ _ t2 hl1 hr
          have hcand : (set_chan_hmm t.1 p (hmm_enter (t.1.chan p).hmm
              (t.1.lastphn_cand i).score (t.1.lastphn_cand i).bp (f + 1))).lastphn_cand
              = t.1.lastphn_cand := rfl
          dsimp only at g1 g2 g3 g4 g5
          rw [hcand] at g2 g3 g4
          have henp : enters t.1 f (t.1.lastphn_cand i).score p = true := by
            unfold enters
            simp only [decide_eq_true_eq]
            exact hen
          have hcongr : ∀ a ∈ l, enters (set_chan_hmm t.1 p (hmm_enter (t.1.chan p).hmm
              (t.1.lastphn_cand i).score (t.1.lastphn_cand i).bp (f + 1))) f
              (t.1.lastphn_cand i).score a = enters t.1 f (t.1.lastphn_cand i).score a := by
            intro a ha
            unfold enters
            rw [hoth a (fun e => hbl (e ▸ ha))]
          refine ⟨fun a ha => ?_, fun a ha => ?_, fun a ha he => ?_, ?_, ?_⟩
          · have hap : a ≠ p := fun e => ha (e ▸ List.mem_cons_self p l)
            rw [g1 a (fun h => ha (List.mem_cons_of_mem _ h)), hoth a hap]
          · rcases List.mem_cons.mp ha with h | h
            · subst h
              rw [g1 a hbl]
              unfold entered
              rw [if_pos henp]
              unfold set_chan_hmm
              dsimp only
              rw [store_same]
            · rw [g2 a h]
              unfold entered
              rw [hcongr a h, hoth a (fun e => hbl (e ▸ h))]
          · rcases List.mem_cons.mp ha with h | h
            · subst h
              exact hnf
            · have := g3 a h (by rw [hcongr a h]; exact he)
              rw [hoth a (fun e => hbl (e ▸ h))] at this
              exact this
          · rw [g4, List.filter_cons_of_pos henp, List.filter_congr hcongr]
            simp only [List.length_cons]
            push_cast
            omega
          · rw [g5]
            rfl
      · rw [if_neg hen] at hr
        simp only [Bool.false_eq_true, if_false] at hr
        obtain ⟨g1, g2, g3, g4, g5⟩ := ih n _ _ t2 hrest hr
        have henp : ¬ enters t.1 f (t.1.lastphn_cand i).score p = true := by
          unfold enters
          simp only [decide_eq_true_eq]
          exact hen
        refine ⟨fun a ha => g1 a (fun h => ha (List.mem_cons_of_mem _ h)), fun a ha => ?_,
          fun a ha he => ?_, ?_, g5⟩
        · rcases List.mem_cons.mp ha with h | h
          · subst h
            rw [g1 a hbl]
            unfold entered
            rw [if_neg henp]
          · exact g2 a h
        · rcases List.mem_cons.mp ha with h | h
          · subst h
            exact absurd he henp
          · exact g3 a h he
        · rw [g4, List.filter_cons_of_neg henp]

theorem entered_next (d : decoder_t) (f sc bp a : Int) :
    (entered d f sc bp a).next = (d.chan a).next ∧
    ((entered d f sc bp a).hmm.frame = f + 1 ∨ entered d f sc bp a = d.chan a) ∧
    (enters d f sc a = true → (entered d f sc bp a).hmm.frame = f + 1) ∧
    (enters d f sc a = false → entered d f sc bp a = d.chan a) := by
  unfold entered
  by_cases h : enters d f sc a = true
  · rw [if_pos h]
    exact ⟨rfl, Or.inl rfl, fun _ => rfl, fun h1 => by rw [h] at h1; simp at h1⟩
  · rw [if_neg h]
    exact ⟨rfl, Or.inr rfl, fun h1 => absurd h1 h, fun _ => rfl⟩

/-- What `last_phone_transition` does to the leaves for one candidate of word
`w`, in a state whose chains are `C`: `alloc_all_rc` and the loop entering the
leaves leave a chain `l1` for `w` that extends `C w` by new cells, and the
chains of the other words as they were.  `k` counts the leaves entered. -/
theorem lp_cand_spec (fuel : Nat) (f i w : Int) (s d1 d2 : decoder_t) (k : Int)
    (C : Int → List Int) (hf : 0 ≤ f) (hs : leaf_heap s C)
    (ha : alloc_all_rc fuel s w = Except.ok d1)
    (hl : for_list is_null (fun (t : decoder_t × Int) a => (t.1.chan a).next)
        (fun a (t : decoder_t × Int) =>
          if (t.1.chan a).hmm.frame < f ∨
              (t.1.chan a).hmm.in_score < (t.1.lastphn_cand i).score then
            if (t.1.chan a).hmm.frame = f + 1 then Except.error Fault.assert
            else
              Except.ok (set_chan_hmm t.1 a
                (hmm_enter (t.1.chan a).hmm (t.1.lastphn_cand i).score
                  (t.1.lastphn_cand i).bp (f + 1)), t.2 + 1)
          else Except.ok t)
        fuel (d1.word_chan w) (d1, 0) = Except.ok (d2, k)) :
    ∃ l1, leaf_heap d2 (fun v => if v = w then l1 else C v) ∧
      (C w).Sublist l1 ∧ l1 ≠ [] ∧
      (∀ a ∈ l1, a ∈ C w ∨ s.heap_top < a) ∧
      (∀ a, a ≤ s.heap_top → a ∉ C w → d2.chan a = s.chan a) ∧
      (∀ a ∈ l1, (d2.chan a).hmm.frame = f + 1 →
        k > 0 ∨ (a ∈ C w ∧ (s.chan a).hmm.frame = f + 1)) ∧
      (k > 0 → ∃ a ∈ l1, (d2.chan a).hmm.frame = f + 1) ∧
      (¬ k > 0 → ∀ a ∈ l1, a ∈ C w ∧ (d2.chan a).hmm = (s.chan a).hmm) ∧
      s.heap_top ≤ d2.heap_top ∧
      (∀ v, v ≠ w → d2.word_chan v = s.word_chan v) ∧
      d2 = { s with chan := d2.chan, heap_top := d2.heap_top, word_chan := d2.word_chan } := by
  obtain ⟨l1, a1, a2, a3, a4, a5, a6, a7, a8, a9, a10⟩ :=
    alloc_all_rc_grow fuel s d1 w (C w) hs.top (hs.chain w) (hs.bound w) ha
  obtain ⟨e1, e2, e3, e4, e5⟩ := enter_leaves_spec f i l1 fuel (d1.word_chan w) (d1, 0) (d2, k)
    a1 hl
  dsimp only at e1 e2 e3 e4 e5
  have hw2 : d2.word_chan = d1.word_chan := by
    have e := congrArg (fun x : decoder_t => x.word_chan) e5
    exact e
  have hh2 : d2.heap_top = d1.heap_top := by
    have e := congrArg (fun x : decoder_t => x.heap_top) e5
    exact e
  have hold : ∀ a, a ≤ s.heap_top → a ∉ l1 → a ∉ C w := fun a _ hn hc => hn (a2.subset hc)
  have hnot : ∀ a, a ≤ s.heap_top → a ∉ C w → a ∉ l1 := by
    intro a hle hn hm
    rcases a6 a hm with h | ⟨h, _⟩
    · exact hn h
    · omega
  have hout : ∀ a, a ≤ s.heap_top → a ∉ C w → d2.chan a = s.chan a := by
    intro a hle hn
    rw [e1 a (hnot a hle hn), a5 a hle hn]
  have hkeep : ∀ a ∈ l1, a ∈ C w → enters d1 f (d1.lastphn_cand i).score a = false →
      (d2.chan a).hmm = (s.chan a).hmm := by
    intro a ha hc hen
    rw [e2 a ha, (entered_next d1 f _ _ a).2.2.2 hen]
    exact (a4 a (hs.bound w a hc)).1
  have hfresh : ∀ a ∈ l1, a ∉ C w → enters d1 f (d1.lastphn_cand i).score a = true := by
    intro a ha hn
    rcases a6 a ha with h | ⟨_, h⟩
    · exact absurd h hn
    · unfold enters
      simp only [decide_eq_true_eq]
      left
      omega
  have hk : k = (((l1.filter (enters d1 f (d1.lastphn_cand i).score)).length : Nat) : Int) := by
    rw [e4]
    omega
  refine ⟨l1, ?_, a2, a3, fun a ha => ?_, hout, fun a ha hfr => ?_, fun hk0 => ?_,
    fun hk0 a ha => ?_, by omega, fun v hv => by rw [hw2, a9 v hv], by rw [e5, a10]⟩
  · refine { top := by have := hs.top; omega, chain := fun v => ?_, disj := fun u v a hu hv => ?_,
             bound := fun v a hv => ?_ }
    · by_cases hv : v = w
      · subst hv
        rw [if_pos rfl, hw2]
        refine leaf_list_congr d1.chan d2.chan _ l1 (fun b hb => ?_) a1
        rw [e2 b hb]
        exact (entered_next d1 f _ _ b).1
      · rw [if_neg hv, hw2, a9 v hv]
        refine leaf_list_congr s.chan d2.chan _ _ (fun b hb => ?_) (hs.chain v)
        rw [hout b (hs.bound v b hb) (fun hc => hv (hs.disj v w b hb hc))]
    · by_cases hu1 : u = w
      · by_cases hv1 : v = w
        · rw [hu1, hv1]
        · rw [if_pos hu1] at hu
          rw [if_neg hv1] at hv
          rcases a6 a hu with h | ⟨h, _⟩
          · exact absurd (hs.disj v w a hv h) hv1
          · have := hs.bound v a hv
            omega
      · by_cases hv1 : v = w
        · rw [if_neg hu1] at hu
          rw [if_pos hv1] at hv
          rcases a6 a hv with h | ⟨h, _⟩
          · exact absurd (hs.disj u w a hu h) hu1
          · have := hs.bound u a hu
            omega
        · rw [if_neg hu1] at hu
          rw [if_neg hv1] at hv
          exact hs.disj u v a hu hv
    · by_cases hv1 : v = w
      · rw [if_pos hv1] at hv
        rw [hh2]
        exact a8 a hv
      · rw [if_neg hv1] at hv
        have := hs.bound v a hv
        omega
  · rcases a6 a ha with h | ⟨h, _⟩
    · exact Or.inl h
    · exact Or.inr h
  · by_cases hen : enters d1 f (d1.lastphn_cand i).score a = true
    · left
      rw [hk]
      have : 0 < (l1.filter (enters d1 f (d1.lastphn_cand i).score)).length :=
        List.length_pos.mpr (List.ne_nil_of_mem (List.mem_filter.mpr ⟨ha, hen⟩))
      omega
    · right
      have hen1 : enters d1 f (d1.lastphn_cand i).score a = false := by
        simpa using hen
      have hc : a ∈ C w := by
        by_contra hn
        exact hen (hfresh a ha hn)
      rw [hkeep a ha hc hen1] at hfr
      exact ⟨hc, hfr⟩
  · have hne : l1.filter (enters d1 f (d1.lastphn_cand i).score) ≠ [] := by
      intro hnil
      rw [hk, hnil] at hk0
      simp at hk0
    obtain ⟨a, ham⟩ := List.exists_mem_of_ne_nil _ hne
    obtain ⟨ha, hen⟩ := List.mem_filter.mp ham
    refine ⟨a, ha, ?_⟩
    rw [e2 a ha]
    exact (entered_next d1 f _ _ a).2.2.1 hen
  · have hnil : l1.filter (enters d1 f (d1.lastphn_cand i).score) = [] := by
      apply List.eq_nil_of_length_eq_zero
      omega
    have hen1 : enters d1 f (d1.lastphn_cand i).score a = false := by
      by_contra hen
      have hm : a ∈ l1.filter (enters d1 f (d1.lastphn_cand i).score) :=
        List.mem_filter.mpr ⟨ha, by simpa using hen⟩
      rw [hnil] at hm
      exact absurd hm (List.not_mem_nil a)
    have hc : a ∈ C w := by
      by_contra hn
      rw [hfresh a ha hn] at hen1
      simp at hen1
    exact ⟨hc, hkeep a ha hc hen1⟩

/-! ### The last loop of `last_phone_transition` -/

theorem on_list_congr (s t : decoder_t) (f n w : Int)
    (h : t.active_word_list = s.active_word_list) : on_list t f n w ↔ on_list s f n w := by
  unfold on_list
  rw [h]

theorem on_list_push (s t : decoder_t) (f n w v : Int) (hn : 0 ≤ n)
    (h : t.active_word_list (parity f) = store (s.active_word_list (parity f)) n w) :
    on_list t f (n + 1) v ↔ on_list s f n v ∨ v = w := by
  unfold on_list
  rw [h]
  constructor
  · rintro ⟨i, hi0, hin, he⟩
    by_cases hi : i = n
    · subst hi
      rw [store_same] at he
      exact Or.inr he.symm
    · rw [store_ne _ _ _ _ hi] at he
      exact Or.inl ⟨i, hi0, by omega, he⟩
  · rintro (⟨i, hi0, hin, he⟩ | he)
    · exact ⟨i, hi0, by omega, by rw [store_ne _ _ _ _ (by omega)]; exact he⟩
    · exact ⟨n, hn, by omega, by rw [store_same, he]⟩

theorem lp_frame_fields (d s : decoder_t)
    (h : s = { d with chan := s.chan, heap_top := s.heap_top, word_chan := s.word_chan }) :
    s.word_active = d.word_active ∧ s.active_word_list = d.active_word_list ∧
    s.ngs = d.ngs ∧ s.lastphn_cand = d.lastphn_cand := by
  have e1 := congrArg (fun x : decoder_t => x.word_active) h
  have e2 := congrArg (fun x : decoder_t => x.active_word_list) h
  have e3 := congrArg (fun x : decoder_t => x.ngs) h
  have e4 := congrArg (fun x : decoder_t => x.lastphn_cand) h
  exact ⟨e1, e2, e3, e4⟩

theorem lp_step_skip (d : decoder_t) (f w : Int) (C0 C : Int → List Int) (s d2 : decoder_t)
    (n k : Int) (l1 : List Int) (hinv : lp_inv d f C0 s n C)
    (H : leaf_heap d2 (fun v => if v = w then l1 else C v))
    (b2 : (C w).Sublist l1)
    (b4 : ∀ a ∈ l1, a ∈ C w ∨ s.heap_top < a)
    (b5 : ∀ a, a ≤ s.heap_top → a ∉ C w → d2.chan a = s.chan a)
    (b6 : ∀ a ∈ l1, (d2.chan a).hmm.frame = f + 1 →
      k > 0 ∨ (a ∈ C w ∧ (s.chan a).hmm.frame = f + 1))
    (b8 : ¬ k > 0 → ∀ a ∈ l1, a ∈ C w ∧ (d2.chan a).hmm = (s.chan a).hmm)
    (b9 : s.heap_top ≤ d2.heap_top)
    (b11 : d2 = { s with chan := d2.chan, heap_top := d2.heap_top, word_chan := d2.word_chan })
    (hk : ¬ k > 0) :
    lp_inv d f C0 d2 n (fun v => if v = w then l1 else C v) := by
  obtain ⟨e1, e2, _, _⟩ := lp_frame_fields s d2 b11
  have hon : ∀ v, on_list d2 (f + 1) n v ↔ on_list s (f + 1) n v :=
    fun v => on_list_congr s d2 (f + 1) n v e2
  have hoth : ∀ v a, v ≠ w → a ∈ C v → d2.chan a = s.chan a := fun v a hv ha =>
    b5 a (hinv.heap.bound v a ha) (fun hc => hv (hinv.heap.disj v w a ha hc))
  refine { frame := ?_, cur := ?_, heap := H, grow := fun v => ?_, top := ?_,
           fresh := fun v a ha => ?_, cells := fun a ha hn => ?_, count := hinv.count,
           inj := ?_, act := fun v => ?_, stamp := fun v a ha hfr => ?_,
           live := fun v hv => ?_, new := fun v a ha => ?_ }
  · rw [b11, hinv.frame]
  · rw [e2]
    exact hinv.cur
  · by_cases hv : v = w
    · rw [if_pos hv, hv]
      exact (hinv.grow w).trans b2
    · rw [if_neg hv]
      exact hinv.grow v
  · have := hinv.top
    omega
  · by_cases hv : v = w
    · rw [if_pos hv] at ha
      rcases b4 a ha with h | h
      · rw [hv]
        exact hinv.fresh w a h
      · have := hinv.top
        exact Or.inr (by omega)
    · rw [if_neg hv] at ha
      exact hinv.fresh v a ha
  · have hc : a ∉ C w := by
      intro hc
      rcases hinv.fresh w a hc with h | h
      · exact hn w h
      · omega
    have := hinv.top
    rw [b5 a (by omega) hc]
    exact hinv.cells a ha hn
  · rw [e2]
    exact hinv.inj
  · rw [e1, hon v]
    exact hinv.act v
  · rw [hon v]
    by_cases hv : v = w
    · rw [if_pos hv] at ha
      rcases b6 a ha hfr with h | ⟨h1, h2⟩
      · exact absurd h hk
      · rw [hv]
        exact hinv.stamp w a h1 h2
    · rw [if_neg hv] at ha
      rw [hoth v a hv ha] at hfr
      exact hinv.stamp v a ha hfr
  · rw [hon v] at hv
    obtain ⟨a, ha, hfr⟩ := hinv.live v hv
    by_cases hvw : v = w
    · subst hvw
      refine ⟨a, by rw [if_pos rfl]; exact b2.subset ha, ?_⟩
      rw [(b8 hk a (b2.subset ha)).2]
      exact hfr
    · refine ⟨a, by rw [if_neg hvw]; exact ha, ?_⟩
      rw [hoth v a hvw ha]
      exact hfr
  · rw [hon v]
    by_cases hv : v = w
    · rw [if_pos hv] at ha
      rw [hv]
      exact hinv.new w a (b8 hk a ha).1
    · rw [if_neg hv] at ha
      exact hinv.new v a ha

theorem lp_step_push (d : decoder_t) (f w : Int) (C0 C : Int → List Int) (s d2 : decoder_t)
    (n k : Int) (l1 : List Int) (hinv : lp_inv d f C0 s n C)
    (H : leaf_heap d2 (fun v => if v = w then l1 else C v))
    (b2 : (C w).Sublist l1)
    (b4 : ∀ a ∈ l1, a ∈ C w ∨ s.heap_top < a)
    (b5 : ∀ a, a ≤ s.heap_top → a ∉ C w → d2.chan a = s.chan a)
    (b7 : k > 0 → ∃ a ∈ l1, (d2.chan a).hmm.frame = f + 1)
    (b9 : s.heap_top ≤ d2.heap_top)
    (b11 : d2 = { s with chan := d2.chan, heap_top := d2.heap_top, word_chan := d2.word_chan })
    (hk : k > 0) (hwa : ¬ d2.word_active w ≠ 0) :
    lp_inv d f C0
      { push_word d2 (parity (f + 1)) n w with
        word_active := store (push_word d2 (parity (f + 1)) n w).word_active w 1 }
      (n + 1) (fun v => if v = w then l1 else C v) := by
  obtain ⟨e1, e2, _, _⟩ := lp_frame_fields s d2 b11
  have hn0 := hinv.count
  have hrow : ({ push_word d2 (parity (f + 1)) n w with
        word_active := store (push_word d2 (parity (f + 1)) n w).word_active w
          1 } : decoder_t).active_word_list (parity (f + 1))
      = store (s.active_word_list (parity (f + 1))) n w := by
    show store d2.active_word_list (parity (f + 1))
      (store (d2.active_word_list (parity (f + 1))) n w) (parity (f + 1)) = _
    rw [store_same, e2]
  have hon : ∀ v, on_list ({ push_word d2 (parity (f + 1)) n w with
        word_active := store (push_word d2 (parity (f + 1)) n w).word_active w
          1 } : decoder_t) (f + 1) (n + 1) v ↔ on_list s (f + 1) n v ∨ v = w :=
    fun v => on_list_push s _ (f + 1) n w v hn0 hrow
  have hoff : ¬ on_list s (f + 1) n w := by
    rcases hinv.act w with ⟨h1, _⟩ | ⟨_, h2⟩
    · rw [e1] at hwa
      rw [h1] at hwa
      exact absurd (by decide : (1 : Int) ≠ 0) hwa
    · exact h2
  have hoth : ∀ v a, v ≠ w → a ∈ C v → d2.chan a = s.chan a := fun v a hv ha =>
    b5 a (hinv.heap.bound v a ha) (fun hc => hv (hinv.heap.disj v w a ha hc))
  refine { frame := ?_, cur := ?_, heap := ⟨H.top, H.chain, H.disj, H.bound⟩,
           grow := fun v => ?_, top := ?_,
           fresh := fun v a ha => ?_, cells := fun a ha hn => ?_, count := by omega,
           inj := ?_, act := fun v => ?_, stamp := fun v a ha hfr => ?_,
           live := fun v hv => ?_, new := fun v a ha => ?_ }
  · unfold push_word
    dsimp only
    rw [b11, hinv.frame]
  · show store d2.active_word_list (parity (f + 1)) _ (parity f) = _
    rw [store_ne _ _ _ _ (parity_succ_ne f).symm, e2]
    exact hinv.cur
  · by_cases hv : v = w
    · rw [if_pos hv, hv]
      exact (hinv.grow w).trans b2
    · rw [if_neg hv]
      exact hinv.grow v
  · have := hinv.top
    show d.heap_top ≤ d2.heap_top
    omega
  · by_cases hv : v = w
    · rw [if_pos hv] at ha
      rcases b4 a ha with h | h
      · rw [hv]
        exact hinv.fresh w a h
      · have := hinv.top
        exact Or.inr (by omega)
    · rw [if_neg hv] at ha
      exact hinv.fresh v a ha
  · have hc : a ∉ C w := by
      intro hc
      rcases hinv.fresh w a hc with h | h
      · exact hn w h
      · omega
    have := hinv.top
    show d2.chan a = d.chan a
    rw [b5 a (by omega) hc]
    exact hinv.cells a ha hn
  · intro i j hi0 hin hj0 hjn he
    rw [hrow] at he
    by_cases hi : i = n
    · by_cases hj : j = n
      · omega
      · exfalso
        rw [hi, store_same, store_ne _ _ _ _ hj] at he
        exact hoff ⟨j, hj0, by omega, he.symm⟩
    · by_cases hj : j = n
      · exfalso
        rw [hj, store_same, store_ne _ _ _ _ hi] at he
        exact hoff ⟨i, hi0, by omega, he⟩
      · rw [store_ne _ _ _ _ hi, store_ne _ _ _ _ hj] at he
        exact hinv.inj i j hi0 (by omega) hj0 (by omega) he
  · rw [hon v]
    show (store d2.word_active w 1 v = 1 ∧ _) ∨ (store d2.word_active w 1 v = 0 ∧ _)
    by_cases hv : v = w
    · left
      rw [hv, store_same]
      exact ⟨rfl, Or.inr rfl⟩
    · rw [store_ne _ _ _ _ hv, e1]
      rcases hinv.act v with ⟨h1, h2⟩ | ⟨h1, h2⟩
      · exact Or.inl ⟨h1, Or.inl h2⟩
      · right
        refine ⟨h1, ?_⟩
        rintro (h | h)
        · exact h2 h
        · exact hv h
  · rw [hon v]
    by_cases hv : v = w
    · exact Or.inr hv
    · rw [if_neg hv] at ha
      have hfr1 : (d2.chan a).hmm.frame = f + 1 := hfr
      rw [hoth v a hv ha] at hfr1
      exact Or.inl (hinv.stamp v a ha hfr1)
  · rw [hon v] at hv
    by_cases hvw : v = w
    · obtain ⟨a, ha, hfr⟩ := b7 hk
      exact ⟨a, by rw [if_pos hvw]; exact ha, hfr⟩
    · rcases hv with hv | hv
      · obtain ⟨a, ha, hfr⟩ := hinv.live v hv
        refine ⟨a, by rw [if_neg hvw]; exact ha, ?_⟩
        show (d2.chan a).hmm.frame = f + 1
        rw [hoth v a hvw ha]
        exact hfr
      · exact absurd hv hvw
  · rw [hon v]
    by_cases hv : v = w
    · exact Or.inr (Or.inr hv)
    · rw [if_neg hv] at ha
      rcases hinv.new v a ha with h | h
      · exact Or.inl h
      · exact Or.inr (Or.inl h)

theorem lp_step (fuel : Nat) (f thresh i : Int) (sn r : decoder_t × Int) (d : decoder_t)
    (C0 C : Int → List Int) (hf : 0 ≤ f) (hinv : lp_inv d f C0 sn.1 sn.2 C)
    (hr : lpt_enter fuel f thresh i sn = Except.ok r) :
    ∃ C1, lp_inv d f C0 r.1 r.2 C1 := by
  unfold lpt_enter at hr
  dsimp only at hr
  split at hr
  · split at hr
    · simp at hr
    · rename_i d1 ha
      split at hr
      · simp at hr
      · rename_i d2 k hl
        obtain ⟨l1, H, b2, _, b4, b5, b6, b7, b8, b9, _, b11⟩ :=
          lp_cand_spec fuel f i _ sn.1 d1 d2 k C hf hinv.heap ha hl
        split at hr
        · rename_i hk
          split at hr
          · simp at hr
          · rename_i hwa
            split at hr
            · simp at hr
            · simp only [Except.ok.injEq] at hr
              subst hr
              exact ⟨_, lp_step_push d f _ C0 C sn.1 d2 sn.2 k l1 hinv H b2 b4 b5 b7 b9 b11
                hk hwa⟩
        · rename_i hk
          simp only [Except.ok.injEq] at hr
          subst hr
          exact ⟨_, lp_step_skip d f _ C0 C sn.1 d2 sn.2 k l1 hinv H b2 b4 b5 b6 b8 b9 b11 hk⟩
  · simp only [Except.ok.injEq] at hr
    subst hr
    exact ⟨C, hinv⟩

theorem lp_inv_init (d : decoder_t) (f : Int) (C0 : Int → List Int) (hh : leaf_heap d C0)
    (hact : ∀ w, d.word_active w = 0)
    (hst : ∀ w a, a ∈ C0 w → (d.chan a).hmm.frame ≠ f + 1) : lp_inv d f C0 d 0 C0 := by
  refine { frame := rfl, cur := rfl, heap := hh, grow := fun w => List.Sublist.refl _,
           top := le_refl _, fresh := fun w a ha => Or.inl ha, cells := fun _ _ _ => rfl,
           count := le_refl _, inj := ?_, act := fun w => ?_, stamp := fun w a ha hfr => ?_,
           live := ?_, new := fun w a ha => Or.inl ha }
  · intro i j hi0 hin
    omega
  · right
    refine ⟨hact w, ?_⟩
    rintro ⟨i, hi0, hin, _⟩
    omega
  · exact absurd hfr (hst w a ha)
  · rintro w ⟨i, hi0, hin, _⟩
    omega

theorem cand_frame_refl (d : decoder_t) : cand_frame d d := by
  unfold cand_frame
  rfl

theorem cand_frame_trans (d s t : decoder_t) (h1 : cand_frame d s) (h2 : cand_frame s t) :
    cand_frame d t := by
  unfold cand_frame at h1 h2 ⊢
  rw [h2, h1]

theorem cand_frame_set_cand (d : decoder_t) (i : Int) (v : lastphn_cand_t) :
    cand_frame d (set_cand d i v) := by
  unfold cand_frame
  rfl

theorem cand_frame_set_bucket (d : decoder_t) (i : Int) (v : cand_sf_t) :
    cand_frame d (set_bucket d i v) := by
  unfold cand_frame
  rfl

theorem cand_frame_set_ltrans (d : decoder_t) (i : Int) (v : last_ltrans_t) :
    cand_frame d (set_ltrans d i v) := by
  unfold cand_frame
  rfl

theorem cand_frame_grow (d : decoder_t) (n : Int) : cand_frame d (grow_cand_sf d n) := by
  unfold cand_frame grow_cand_sf
  split
  · split
    · rfl
    · rfl
  · rfl

theorem cand_frame_find_bucket (d : decoder_t) (i n ef : Int) :
    cand_frame d (lpt_find_bucket d i n ef).1 := by
  unfold lpt_find_bucket
  dsimp only
  split
  · exact cand_frame_set_cand _ _ _
  · refine cand_frame_trans d _ _ ?_ (cand_frame_set_bucket _ _ _)
    exact cand_frame_trans d _ _ (cand_frame_grow d n) (cand_frame_set_cand _ _ _)

theorem cand_frame_bucket (d : decoder_t) (i : Int) (sn sn1 : decoder_t × Int)
    (hd : cand_frame d sn.1) (hr : lpt_bucket i sn = Except.ok sn1) : cand_frame d sn1.1 := by
  unfold lpt_bucket at hr
  dsimp only at hr
  split at hr
  · simp at hr
  · split at hr
    · simp only [Except.ok.injEq] at hr
      subst hr
      refine cand_frame_trans d _ _ ?_ (cand_frame_set_ltrans _ _ _)
      refine cand_frame_trans d _ _ ?_ (cand_frame_set_ltrans _ _ _)
      refine cand_frame_trans d _ _ ?_ (cand_frame_set_bucket _ _ _)
      refine cand_frame_trans d _ _ ?_ (cand_frame_find_bucket _ _ _ _)
      exact cand_frame_trans d _ _ hd (cand_frame_set_cand _ _ _)
    · simp only [Except.ok.injEq] at hr
      subst hr
      refine cand_frame_trans d sn.1 _ hd ?_
      exact cand_frame_set_cand _ _ _

theorem cand_frame_score (env : env_t) (fuel : Nat) (d : decoder_t) (bp j0 : Int)
    (s s1 : decoder_t) (hd : cand_frame d s) (hr : lpt_score env fuel bp j0 s = Except.ok s1) :
    cand_frame d s1 := by
  unfold lpt_score at hr
  dsimp only at hr
  split at hr
  · simp only [Except.ok.injEq] at hr
    subst hr
    exact hd
  · refine for_list_inv (fun t : decoder_t => cand_frame d t) _ _ _ ?_ _ _ _ _ hd hr
    intro j t t1 _ ht hb
    split at hb
    · simp only [Except.ok.injEq] at hb
      subst hb
      refine cand_frame_trans d _ _ ?_ (cand_frame_set_ltrans _ _ _)
      exact cand_frame_trans d _ _ ht (cand_frame_set_ltrans _ _ _)
    · simp only [Except.ok.injEq] at hb
      subst hb
      exact ht

theorem cand_frame_fields (d s : decoder_t) (h : cand_frame d s) :
    s.chan = d.chan ∧ s.word_chan = d.word_chan ∧ s.heap_top = d.heap_top ∧
    s.word_active = d.word_active ∧ s.active_word_list = d.active_word_list ∧
    s.n_active_word = d.n_active_word ∧ s.ngs = d.ngs ∧ s.all_rhmm = d.all_rhmm ∧
    s.root_chan = d.root_chan ∧ s.n_lastphn_cand = d.n_lastphn_cand := by
  unfold cand_frame at h
  have e1 := congrArg (fun x : decoder_t => x.chan) h
  have e2 := congrArg (fun x : decoder_t => x.word_chan) h
  have e3 := congrArg (fun x : decoder_t => x.heap_top) h
  have e4 := congrArg (fun x : decoder_t => x.word_active) h
  have e5 := congrArg (fun x : decoder_t => x.active_word_list) h
  have e6 := congrArg (fun x : decoder_t => x.n_active_word) h
  have e7 := congrArg (fun x : decoder_t => x.ngs) h
  have e8 := congrArg (fun x : decoder_t => x.all_rhmm) h
  have e9 := congrArg (fun x : decoder_t => x.root_chan) h
  have e10 := congrArg (fun x : decoder_t => x.n_lastphn_cand) h
  exact ⟨e1, e2, e3, e4, e5, e6, e7, e8, e9, e10⟩

/-- A returning `last_phone_transition` in frame `f`, from a state whose
leaf chains are `C0`, where no word is marked active and no leaf is stamped
`f + 1`: the first three steps change the candidate tables only, giving `d3`;
the last loop takes `d3` to a state `d4` with `n` words on the next list that
satisfies `lp_inv`, and the count `n` is stored. -/
theorem last_phone_transition_spec (env : env_t) (fuel : Nat) (d d1 : decoder_t) (f : Int)
    (C0 : Int → List Int) (hf : 0 ≤ f) (hh : leaf_heap d C0)
    (hact : ∀ w, d.word_active w = 0)
    (hst : ∀ w a, a ∈ C0 w → (d.chan a).hmm.frame ≠ f + 1)
    (hr : last_phone_transition env fuel d f = Except.ok d1) :
    ∃ d3 d4 n C, cand_frame d d3 ∧ lp_inv d3 f C0 d4 n C ∧
      d1 = { d4 with n_active_word := store d4.n_active_word (parity (f + 1)) n } := by
  unfold last_phone_transition at hr
  dsimp only at hr
  split at hr
  · simp at hr
  · rename_i d2 ncs h1
    have hs1 : cand_frame d d2 := by
      refine for_up_inv (fun sn : decoder_t × Int => cand_frame d sn.1) _ _ _ _ _ ?_ ?_ h1
      · intro i sn sn1 _ _ hs hb
        exact cand_frame_bucket d i sn sn1 hs hb
      · unfold cand_frame
        rfl
    clear h1
    split at hr
    · simp at hr
    · rename_i d3 h2
      have hs2 : cand_frame d d3 := by
        refine for_up_inv (fun s : decoder_t => cand_frame d s) _ _ _ _ _ ?_ hs1 h2
        intro i s s1 _ _ hs hb
        refine for_up_inv (fun s : decoder_t => cand_frame d s) _ _ _ _ _ ?_ hs hb
        intro bp t t1 _ _ ht hbt
        exact cand_frame_score env fuel d bp _ t t1 ht hbt
      clear h2 hs1
      generalize hR : iter_up _ d3.n_lastphn_cand.toNat 0 (d3, d3.last_phone_best_score) = R
        at hr
      have hR1 : cand_frame d R.1 := by
        rw [← hR]
        apply iter_up_inv (fun sb : decoder_t × Int => cand_frame d sb.1)
        · intro i sb _ _ hsb
          refine cand_frame_trans d _ _ ?_ (cand_frame_set_cand _ _ _)
          exact cand_frame_trans d _ _ hsb (cand_frame_set_cand _ _ _)
        · exact hs2
      clear hR
      have hR2 : cand_frame d { R.1 with last_phone_best_score := R.2 } := by
        unfold cand_frame at hR1 ⊢
        dsimp only
        rw [hR1]
      obtain ⟨c1, c2, c3, c4, _⟩ := cand_frame_fields d _ hR2
      split at hr
      · simp at hr
      · rename_i d4 n h4
        simp only [Except.ok.injEq] at hr
        have h5 := for_up_inv
          (fun sn : decoder_t × Int =>
            ∃ C, lp_inv { R.1 with last_phone_best_score := R.2 } f C0 sn.1 sn.2 C)
          _ _ _ _ _ ?_ ?_ h4
        · obtain ⟨C, hC⟩ := h5
          exact ⟨_, d4, n, C, hR2, hC, hr.symm⟩
        · intro i sn sn1 _ _ ⟨C, hC⟩ hb
          exact lp_step fuel f _ i sn sn1 _ C0 C hf hC hb
        · refine ⟨C0, lp_inv_init _ f C0 ?_ ?_ ?_⟩
          · refine { top := ?_, chain := ?_, disj := hh.disj, bound := ?_ }
            · rw [c3]
              exact hh.top
            · rw [c1, c2]
              exact hh.chain
            · rw [c3]
              exact hh.bound
          · rw [c4]
            exact hact
          · rw [c1]
            exact hst

/-! ### The next active word list -/

theorem leaf_list_head_ne (chan : Int → chan_t) (a : Int) (l : List Int)
    (h : leaf_list chan a l) : a ≠ 0 ↔ l ≠ [] := by
  cases l with
  | nil =>
    have e : a = 0 := h
    simp [e]
  | cons b l =>
    obtain ⟨h0, _, _⟩ := h
    simp [h0]

/-- The state after `last_phone_transition` and `prune_word_chan` in frame
`f`, started in `d` with the leaf chains `C0` where no word is marked active,
no leaf is stamped `f + 1` and no word is twice on the list of frame `f`: the
chains after `last_phone_transition` are `C`, with `n` words on the next list
in state `d4`; `prune_word_chan` prunes the chains of the words listed in
frame `f` and puts `m - n` further words on the next list. -/
theorem word_passes_spec (env : env_t) (fuel : Nat) (d d1 d2 : decoder_t) (f : Int)
    (C0 : Int → List Int) (hf : 0 ≤ f) (hh : leaf_heap d C0)
    (hact : ∀ w, d.word_active w = 0)
    (hinj : ∀ i j, 0 ≤ i → i < d.n_active_word (parity f) → 0 ≤ j →
      j < d.n_active_word (parity f) →
      d.active_word_list (parity f) i = d.active_word_list (parity f) j → i = j)
    (hst : ∀ w a, a ∈ C0 w → (d.chan a).hmm.frame ≠ f + 1)
    (hr1 : last_phone_transition env fuel d f = Except.ok d1)
    (hr2 : prune_word_chan fuel d1 f = Except.ok d2) :
    ∃ d3 d4 n C s m, cand_frame d d3 ∧ lp_inv d3 f C0 d4 n C ∧
      d1 = { d4 with n_active_word := store d4.n_active_word (parity (f + 1)) n } ∧
      d1.active_word_list (parity f) = d.active_word_list (parity f) ∧
      d1.n_active_word (parity f) = d.n_active_word (parity f) ∧
      pw_inv d1 f (d1.last_phone_best_score + beam_max d1.dynamic_beam d1.lponlybeam)
        (fun j => C (d1.active_word_list (parity f) j)) n
        ((d1.n_active_word (parity f)).toNat : Int) s m ∧
      rhmm_frame { s with n_active_word := store s.n_active_word (parity (f + 1)) m } d2 := by
  obtain ⟨d3, d4, n, C, h3, h4, h5⟩ :=
    last_phone_transition_spec env fuel d d1 f C0 hf hh hact hst hr1
  obtain ⟨_, _, _, _, c5, c6, _⟩ := cand_frame_fields d d3 h3
  have e4n : d4.n_active_word = d3.n_active_word := by
    have e := congrArg (fun x : decoder_t => x.n_active_word) h4.frame
    exact e
  have e1c : d1.chan = d4.chan := by rw [h5]
  have e1w : d1.word_chan = d4.word_chan := by rw [h5]
  have e1l : d1.active_word_list = d4.active_word_list := by rw [h5]
  have e1n : d1.n_active_word = store d4.n_active_word (parity (f + 1)) n := by rw [h5]
  have hW : d1.active_word_list (parity f) = d.active_word_list (parity f) := by
    rw [e1l, h4.cur, c5]
  have hN : d1.n_active_word (parity f) = d.n_active_word (parity f) := by
    rw [e1n, store_ne _ _ _ _ (parity_succ_ne f).symm, e4n, c6]
  have hN1 : d1.n_active_word (parity (f + 1)) = n := by
    rw [e1n, store_same]
  have hc : word_chains d1 f (fun j => C (d1.active_word_list (parity f) j)) := by
    refine { chain := fun j _ _ => ?_, disj := fun i j a hi0 hin hj0 hjn hi hj => ?_,
             inj := fun i j hi0 hin hj0 hjn he => ?_ }
    · rw [e1c, e1w]
      exact h4.heap.chain _
    · have he := h4.heap.disj _ _ a hi hj
      rw [hW] at he
      rw [hN] at hin hjn
      exact hinj i j hi0 hin hj0 hjn he
    · rw [hW] at he
      rw [hN] at hin hjn
      exact hinj i j hi0 hin hj0 hjn he
  obtain ⟨s, m, g1, g2, _⟩ := prune_word_chan_spec fuel d1 d2 f _ hc hr2
  rw [hN1] at g1
  exact ⟨d3, d4, n, C, s, m, h3, h4, h5, hW, hN, g1, g2⟩

theorem hc_inj (d d1 : decoder_t) (f : Int)
    (hW : d1.active_word_list (parity f) = d.active_word_list (parity f))
    (hN : d1.n_active_word (parity f) = d.n_active_word (parity f))
    (hinj : ∀ i j, 0 ≤ i → i < d.n_active_word (parity f) → 0 ≤ j →
      j < d.n_active_word (parity f) →
      d.active_word_list (parity f) i = d.active_word_list (parity f) j → i = j)
    (i j : Int) (hi0 : 0 ≤ i) (hin : i < d1.n_active_word (parity f)) (hj0 : 0 ≤ j)
    (hjn : j < d1.n_active_word (parity f))
    (he : d1.active_word_list (parity f) i = d1.active_word_list (parity f) j) : i = j := by
  rw [hW] at he
  rw [hN] at hin hjn
  exact hinj i j hi0 hin hj0 hjn he

/-- C22: in frame `f ≥ 0`, from a state with well-formed disjoint
leaf chains `C0` where no word is marked active, the word list of frame `f`
has no duplicates, every multi-phone word with a non-empty chain is on that
list and no leaf is stamped `f + 1`: after returning runs of
`last_phone_transition` and `prune_word_chan` the word list of frame `f + 1`
has no word twice, `word_active[w] = 1` exactly for the words on it, and a
multi-phone word is on it exactly when its chain `word_chan[w]` is not
empty. -/
theorem next_word_list (env : env_t) (fuel : Nat) (d d1 d2 : decoder_t) (f : Int)
    (C0 : Int → List Int) (hf : 0 ≤ f) (hh : leaf_heap d C0)
    (hact : ∀ w, d.word_active w = 0)
    (hinj : ∀ i j, 0 ≤ i → i < d.n_active_word (parity f) → 0 ≤ j →
      j < d.n_active_word (parity f) →
      d.active_word_list (parity f) i = d.active_word_list (parity f) j → i = j)
    (hon : ∀ w, (d.ngs.dict.dict_list w).len > 1 → C0 w ≠ [] →
      on_list d f (d.n_active_word (parity f)) w)
    (hst : ∀ w a, a ∈ C0 w → (d.chan a).hmm.frame ≠ f + 1)
    (hr1 : last_phone_transition env fuel d f = Except.ok d1)
    (hr2 : prune_word_chan fuel d1 f = Except.ok d2) :
    (∀ i j, 0 ≤ i → i < d2.n_active_word (parity (f + 1)) → 0 ≤ j →
      j < d2.n_active_word (parity (f + 1)) →
      d2.active_word_list (parity (f + 1)) i = d2.active_word_list (parity (f + 1)) j →
      i = j) ∧
    (∀ w, d2.word_active w = 1 ↔ on_list d2 (f + 1) (d2.n_active_word (parity (f + 1))) w) ∧
    (∀ w, (d.ngs.dict.dict_list w).len > 1 →
      (on_list d2 (f + 1) (d2.n_active_word (parity (f + 1))) w ↔ d2.word_chan w ≠ 0)) := by
  obtain ⟨d3, d4, n, C, s, m, h3, h4, h5, hW, hN, g1, g2⟩ :=
    word_passes_spec env fuel d d1 d2 f C0 hf hh hact hinj hst hr1 hr2
  obtain ⟨_, _, _, r4, r5, r6, r7, _⟩ := rhmm_frame_fields _ d2 g2
  have r4a : d2.word_chan = s.word_chan := r4
  have r5a : d2.word_active = s.word_active := r5
  have r6a : d2.active_word_list = s.active_word_list := r6
  have r7a : d2.n_active_word (parity (f + 1)) = m := by
    rw [r7]
    exact store_same _ _ _
  have e1c : d1.chan = d4.chan := by rw [h5]
  have e1w : d1.word_chan = d4.word_chan := by rw [h5]
  have e1l : d1.active_word_list = d4.active_word_list := by rw [h5]
  have e1a : d1.word_active = d4.word_active := by rw [h5]
  have hnm := g1.count
  have hn0 := h4.count
  have hold : ∀ k, k < n → s.active_word_list (parity (f + 1)) k
      = d4.active_word_list (parity (f + 1)) k := by
    intro k hk
    rw [g1.old k (Or.inl hk), e1l]
  have htn : ∀ j, 0 ≤ j → j < d1.n_active_word (parity f) →
      j < ((d1.n_active_word (parity f)).toNat : Int) := by
    intro j hj0 hjn
    rw [Int.toNat_of_nonneg (by omega)]
    exact hjn
  have hon4 : ∀ w, on_list d4 (f + 1) n w → on_list d2 (f + 1) m w := by
    rintro w ⟨i, hi0, hin, he⟩
    exact ⟨i, hi0, by omega, by rw [r6a, hold i hin]; exact he⟩
  have hact4 : ∀ w, on_list d4 (f + 1) n w → d4.word_active w = 1 := by
    intro w hw
    rcases h4.act w with ⟨a1, _⟩ | ⟨_, a2⟩
    · exact a1
    · exact absurd hw a2
  have hpush : ∀ j, 0 ≤ j → j < d1.n_active_word (parity f) →
      word_pushed d1 f (d1.last_phone_best_score + beam_max d1.dynamic_beam d1.lponlybeam)
        (fun j => C (d1.active_word_list (parity f) j)) j →
      on_list d2 (f + 1) m (d1.active_word_list (parity f) j) := by
    intro j hj0 hjn hp
    obtain ⟨k, hk1, hk2, hk3⟩ := g1.all j hj0 (htn j hj0 hjn) hjn hp
    exact ⟨k, by omega, hk2, by rw [r6a]; exact hk3⟩
  rw [r7a]
  refine ⟨?_, ?_, ?_⟩
  · intro i j hi0 him hj0 hjm he
    rw [r6a] at he
    by_cases hi : i < n
    · by_cases hj : j < n
      · rw [hold i hi, hold j hj] at he
        exact h4.inj i j hi0 hi hj0 hj he
      · exfalso
        obtain ⟨j1, _, _, _, hp, hje, _⟩ := g1.new j (by omega) hjm
        have h1 := hact4 _ ⟨i, hi0, hi, (hold i hi).symm.trans (he.trans hje)⟩
        rw [← e1a, hp.2] at h1
        exact absurd h1 (by decide)
    · by_cases hj : j < n
      · exfalso
        obtain ⟨i1, _, _, _, hp, hie, _⟩ := g1.new i (by omega) him
        have h1 := hact4 _ ⟨j, hj0, hj, (hold j hj).symm.trans (he.symm.trans hie)⟩
        rw [← e1a, hp.2] at h1
        exact absurd h1 (by decide)
      · obtain ⟨i1, _, _, _, _, hie, hil⟩ := g1.new i (by omega) him
        obtain ⟨j1, _, _, _, _, hje, hjl⟩ := g1.new j (by omega) hjm
        by_contra hne
        rcases lt_or_gt_of_ne hne with h | h
        · exact hjl i (by omega) h (he.trans hje)
        · exact hil j (by omega) h (he.symm.trans hie)
  · intro w
    rw [r5a]
    constructor
    · intro hw
      rcases g1.act w with ⟨a1, _⟩ | ⟨_, j, hj0, _, hjn, hje, hp⟩
      · rw [hw, e1a] at a1
        rcases h4.act w with ⟨_, b2⟩ | ⟨b1, _⟩
        · exact hon4 w b2
        · rw [b1] at a1
          exact absurd a1 (by decide)
      · rw [← hje]
        exact hpush j hj0 hjn hp
    · rintro ⟨i, hi0, him, he⟩
      rw [r6a] at he
      by_cases hi : i < n
      · rw [hold i hi] at he
        have h1 := hact4 w ⟨i, hi0, hi, he⟩
        rcases g1.act w with ⟨a1, _⟩ | ⟨a1, _⟩
        · rw [a1, e1a]
          exact h1
        · exact a1
      · obtain ⟨j, hj0, hjt, hjn, hp, hje, _⟩ := g1.new i (by omega) him
        rcases g1.act w with ⟨_, a2⟩ | ⟨a1, _⟩
        · exact absurd ⟨j, hj0, hjt, hjn, hje.symm.trans he, hp⟩ a2
        · exact a1
  · intro w hlen
    rw [r4a]
    by_cases hl : ∃ j, 0 ≤ j ∧ j < d1.n_active_word (parity f) ∧
        d1.active_word_list (parity f) j = w
    · obtain ⟨j, hj0, hjn, hjw⟩ := hl
      obtain ⟨q1, _⟩ := g1.done j hj0 hjn (htn j hj0 hjn)
      rw [hjw] at q1
      rw [leaf_list_head_ne _ _ _ q1]
      constructor
      · rintro ⟨i, hi0, him, he⟩
        rw [r6a] at he
        by_cases hi : i < n
        · rw [hold i hi] at he
          obtain ⟨a, ha, hfr⟩ := h4.live w ⟨i, hi0, hi, he⟩
          refine List.ne_nil_of_mem (List.mem_filter.mpr ⟨ha, ?_⟩)
          unfold leaf_kept
          rw [e1c]
          simp [hfr]
        · obtain ⟨j1, hj10, _, hj1n, hp, hje, _⟩ := g1.new i (by omega) him
          have hjj : j1 = j := hc_inj d d1 f hW hN hinj j1 j hj10 hj1n hj0 hjn
            (hje.symm.trans (he.trans hjw.symm))
          subst hjj
          obtain ⟨a, ham⟩ := List.exists_mem_of_ne_nil _ hp.1
          dsimp only at ham
          rw [hjw] at ham
          obtain ⟨ha, hwin⟩ := List.mem_filter.mp ham
          refine List.ne_nil_of_mem (List.mem_filter.mpr ⟨ha, ?_⟩)
          unfold leaf_kept
          rw [hwin]
          rfl
      · intro hne
        obtain ⟨a, ham⟩ := List.exists_mem_of_ne_nil _ hne
        obtain ⟨ha, hk⟩ := List.mem_filter.mp ham
        unfold leaf_kept at hk
        rw [Bool.or_eq_true] at hk
        rcases hk with hk | hk
        · by_cases hwa : d1.word_active w = 0
          · rw [← hjw]
            refine hpush j hj0 hjn ⟨?_, ?_⟩
            · dsimp only
              rw [hjw]
              exact List.ne_nil_of_mem (List.mem_filter.mpr ⟨ha, hk⟩)
            · rw [hjw]
              exact hwa
          · rcases h4.act w with ⟨_, b2⟩ | ⟨b1, _⟩
            · exact hon4 w b2
            · rw [e1a] at hwa
              exact absurd b1 hwa
        · have hfr : (d4.chan a).hmm.frame = f + 1 := by
            rw [← e1c]
            simpa using hk
          exact hon4 w (h4.stamp w a ha hfr)
    · have hhead : s.word_chan w = d4.word_chan w := by
        rw [g1.heads w (fun j hj0 hjn he => hl ⟨j, hj0, hjn, he⟩), e1w]
      rw [hhead, leaf_list_head_ne _ _ _ (h4.heap.chain w)]
      constructor
      · rintro ⟨i, hi0, him, he⟩
        rw [r6a] at he
        by_cases hi : i < n
        · rw [hold i hi] at he
          obtain ⟨a, ha, _⟩ := h4.live w ⟨i, hi0, hi, he⟩
          exact List.ne_nil_of_mem ha
        · exfalso
          obtain ⟨j1, hj10, _, hj1n, _, hje, _⟩ := g1.new i (by omega) him
          exact hl ⟨j1, hj10, hj1n, hje.symm.trans he⟩
      · intro hne
        obtain ⟨a, ha⟩ := List.exists_mem_of_ne_nil _ hne
        rcases h4.new w a ha with h | h
        · exfalso
          obtain ⟨j, hj0, hjn, hje⟩ := hon w hlen (List.ne_nil_of_mem h)
          exact hl ⟨j, hj0, by rw [hN]; exact hjn, by rw [hW]; exact hje⟩
        · exact hon4 w h

theorem lpt_out_eq (env : env_t) (fuel : Nat) (d : decoder_t) (f : Int)
    (h : lpt_returns env fuel d f = true) :
    last_phone_transition env fuel d f = Except.ok (lpt_out env fuel d f) := by
  unfold lpt_returns at h
  unfold lpt_out
  split at h
  · rename_i x hx
    rw [hx]
  · simp at h

theorem ex_wl_heap : leaf_heap ex_wl_dec (fun w => if w = 0 then [1, 2] else []) := by
  refine { top := by decide, chain := fun w => ?_, disj := fun v w a hv hw => ?_,
           bound := fun w a ha => ?_ }
  · by_cases h : w = 0
    · subst h
      exact ⟨by decide, rfl, by decide, rfl, rfl⟩
    · rw [if_neg h]
      show ex_wl_dec.word_chan w = 0
      show (if w = 0 then (1 : Int) else 0) = 0
      rw [if_neg h]
  · by_cases h1 : v = 0
    · by_cases h2 : w = 0
      · rw [h1, h2]
      · rw [if_neg h2] at hw
        exact absurd hw (List.not_mem_nil a)
    · rw [if_neg h1] at hv
      exact absurd hv (List.not_mem_nil a)
  · by_cases h : w = 0
    · rw [if_pos h] at ha
      have h2 : ex_wl_dec.heap_top = 2 := rfl
      rw [h2]
      simp at ha
      omega
    · rw [if_neg h] at ha
      exact absurd ha (List.not_mem_nil a)

set_option maxRecDepth 100000 in
/-- Witness for C22: frame 6 of the test decoder with word 0 on the
word list (leaves in cells 1 and 2) and a candidate for word 1.  Both passes
return; `last_phone_transition` gives word 1 a leaf in cell 3 and lists it,
`prune_word_chan` keeps the leaf in cell 1 of word 0 and lists word 0: the
next list is 1, 0, both words are marked active and have a chain. -/
theorem next_word_list_witness :
    lpt_returns ex_env 5 ex_wl_dec 6 = true ∧
    pwc_returns 5 (lpt_out ex_env 5 ex_wl_dec 6) 6 = true ∧
    (pwc_out 5 (lpt_out ex_env 5 ex_wl_dec 6) 6).n_active_word (parity 7) = 2 ∧
    (pwc_out 5 (lpt_out ex_env 5 ex_wl_dec 6) 6).active_word_list (parity 7) 0 = 1 ∧
    (pwc_out 5 (lpt_out ex_env 5 ex_wl_dec 6) 6).active_word_list (parity 7) 1 = 0 ∧
    (pwc_out 5 (lpt_out ex_env 5 ex_wl_dec 6) 6).word_chan 0 = 1 ∧
    (pwc_out 5 (lpt_out ex_env 5 ex_wl_dec 6) 6).word_chan 1 = 3 ∧
    ((∀ i j, 0 ≤ i →
      i < (pwc_out 5 (lpt_out ex_env 5 ex_wl_dec 6) 6).n_active_word (parity (6 + 1)) →
      0 ≤ j →
      j < (pwc_out 5 (lpt_out ex_env 5 ex_wl_dec 6) 6).n_active_word (parity (6 + 1)) →
      (pwc_out 5 (lpt_out ex_env 5 ex_wl_dec 6) 6).active_word_list (parity (6 + 1)) i
        = (pwc_out 5 (lpt_out ex_env 5 ex_wl_dec 6) 6).active_word_list (parity (6 + 1)) j →
      i = j) ∧
    (∀ w, (pwc_out 5 (lpt_out ex_env 5 ex_wl_dec 6) 6).word_active w = 1 ↔
      on_list (pwc_out 5 (lpt_out ex_env 5 ex_wl_dec 6) 6) (6 + 1)
        ((pwc_out 5 (lpt_out ex_env 5 ex_wl_dec 6) 6).n_active_word (parity (6 + 1))) w) ∧
    (∀ w, (ex_wl_dec.ngs.dict.dict_list w).len > 1 →
      (on_list (pwc_out 5 (lpt_out ex_env 5 ex_wl_dec 6) 6) (6 + 1)
        ((pwc_out 5 (lpt_out ex_env 5 ex_wl_dec 6) 6).n_active_word (parity (6 + 1))) w ↔
        (pwc_out 5 (lpt_out ex_env 5 ex_wl_dec 6) 6).word_chan w ≠ 0))) :=
  ⟨by decide!, by decide!, by decide!, by decide!, by decide!, by decide!, by decide!,
    next_word_list ex_env 5 ex_wl_dec (lpt_out ex_env 5 ex_wl_dec 6)
      (pwc_out 5 (lpt_out ex_env 5 ex_wl_dec 6) 6) 6 (fun w => if w = 0 then [1, 2] else [])
      (by decide) ex_wl_heap (fun _ => rfl)
      (fun i j hi0 hin hj0 hjn _ => by
        have hn : ex_wl_dec.n_active_word (parity 6) = 1 := by decide
        rw [hn] at hin hjn
        omega)
      (fun w _ hne => by
        have hne1 : (if w = 0 then [1, 2] else ([] : List Int)) ≠ [] := hne
        by_cases h : w = 0
        · subst h
          exact ⟨0, le_refl 0, by decide, by decide⟩
        · rw [if_neg h] at hne1
          exact absurd rfl hne1)
      (fun w a ha => by
        have ha1 : a ∈ (if w = 0 then [1, 2] else ([] : List Int)) := ha
        by_cases h : w = 0
        · rw [if_pos h] at ha1
          simp at ha1
          rcases ha1 with ha1 | ha1
          · rw [ha1]
            decide
          · rw [ha1]
            decide
        · rw [if_neg h] at ha1
          exact absurd ha1 (List.not_mem_nil a))
      (lpt_out_eq ex_env 5 ex_wl_dec 6 (by decide!))
      (pwc_out_eq 5 (lpt_out ex_env 5 ex_wl_dec 6) 6 (by decide!))⟩

/-! ### The next active list of tree nodes -/

theorem on_chan_list_push (s t : decoder_t) (f n c a : Int) (hn : 0 ≤ n)
    (h : t.active_chan_list (parity f) = store (s.active_chan_list (parity f)) n c) :
    on_chan_list t f (n + 1) a ↔ on_chan_list s f n a ∨ a = c := by
  unfold on_chan_list
  rw [h]
  constructor
  · rintro ⟨i, hi0, hin, he⟩
    by_cases hi : i = n
    · subst hi
      rw [store_same] at he
      exact Or.inr he.symm
    · rw [store_ne _ _ _ _ hi] at he
      exact Or.inl ⟨i, hi0, by omega, he⟩
  · rintro (⟨i, hi0, hin, he⟩ | he)
    · exact ⟨i, hi0, by omega, by rw [store_ne _ _ _ _ (by omega)]; exact he⟩
    · exact ⟨n, hn, by omega, by rw [store_same, he]⟩

/-- A node that is not stamped `f + 1` gets an HMM stamped `f + 1` and is put
on the next list. -/
theorem nl_push (d : decoder_t) (f : Int) (N : Int → Prop) (s : decoder_t) (n c : Int)
    (h1 : hmm_t) (hinv : nl_inv d f N s n) (hc : N c)
    (hfr : (s.chan c).hmm.frame ≠ f + 1) (h1f : h1.frame = f + 1) :
    nl_inv d f N (push_chan (set_chan_hmm s c h1) (parity (f + 1)) n c) (n + 1) := by
  have hn0 := hinv.count
  have hrow : (push_chan (set_chan_hmm s c h1) (parity (f + 1)) n c).active_chan_list
      (parity (f + 1)) = store (s.active_chan_list (parity (f + 1))) n c := by
    show store s.active_chan_list (parity (f + 1))
      (store (s.active_chan_list (parity (f + 1))) n c) (parity (f + 1)) = _
    rw [store_same]
  have hon : ∀ a, on_chan_list (push_chan (set_chan_hmm s c h1) (parity (f + 1)) n c) (f + 1)
      (n + 1) a ↔ on_chan_list s (f + 1) n a ∨ a = c :=
    fun a => on_chan_list_push s _ (f + 1) n c a hn0 hrow
  have hoff : ¬ on_chan_list s (f + 1) n c := fun h => hfr ((hinv.stamp c hc).mpr h)
  have hsame : (push_chan (set_chan_hmm s c h1) (parity (f + 1)) n c).chan c
      = { s.chan c with hmm := h1 } := by
    show store s.chan c _ c = _
    rw [store_same]
  have hoth : ∀ a, a ≠ c →
      (push_chan (set_chan_hmm s c h1) (parity (f + 1)) n c).chan a = s.chan a := by
    intro a ha
    show store s.chan c _ a = _
    rw [store_ne _ _ _ _ ha]
  refine { frame := ?_, links := fun a => ?_, roots := hinv.roots, off := fun a ha => ?_,
           cur := ?_, ncur := hinv.ncur, count := by omega, inj := ?_,
           mem := fun k hk0 hkn => ?_, stamp := fun a ha => ?_, keep := fun a => ?_ }
  · unfold push_chan set_chan_hmm
    dsimp only
    rw [hinv.frame]
  · by_cases ha : a = c
    · rw [ha, hsame]
      exact hinv.links c
    · rw [hoth a ha]
      exact hinv.links a
  · rw [hoth a (fun e => ha (e ▸ hc))]
    exact hinv.off a ha
  · show store s.active_chan_list (parity (f + 1)) _ (parity f) = _
    rw [store_ne _ _ _ _ (parity_succ_ne f).symm]
    exact hinv.cur
  · intro i j hi0 hin hj0 hjn he
    rw [hrow] at he
    by_cases hi : i = n
    · by_cases hj : j = n
      · omega
      · exfalso
        rw [hi, store_same, store_ne _ _ _ _ hj] at he
        exact hoff ⟨j, hj0, by omega, he.symm⟩
    · by_cases hj : j = n
      · exfalso
        rw [hj, store_same, store_ne _ _ _ _ hi] at he
        exact hoff ⟨i, hi0, by omega, he⟩
      · rw [store_ne _ _ _ _ hi, store_ne _ _ _ _ hj] at he
        exact hinv.inj i j hi0 (by omega) hj0 (by omega) he
  · rw [hrow]
    by_cases hk : k = n
    · rw [hk, store_same]
      exact hc
    · rw [store_ne _ _ _ _ hk]
      exact hinv.mem k hk0 (by omega)
  · rw [hon a]
    by_cases hac : a = c
    · rw [hac, hsame]
      exact ⟨fun _ => Or.inr rfl, fun _ => h1f⟩
    · rw [hoth a hac]
      constructor
      · intro h
        exact Or.inl ((hinv.stamp a ha).mp h)
      · rintro (h | h)
        · exact (hinv.stamp a ha).mpr h
        · exact absurd h hac
  · by_cases hac : a = c
    · rw [hac, hsame]
      exact Or.inl h1f
    · rw [hoth a hac]
      exact hinv.keep a

/-- The HMM of a node is replaced by one with the same stamp. -/
theorem nl_set_hmm (d : decoder_t) (f : Int) (N : Int → Prop) (s : decoder_t) (n c : Int)
    (h1 : hmm_t) (hinv : nl_inv d f N s n) (hc : N c)
    (h1f : h1.frame = (s.chan c).hmm.frame) :
    nl_inv d f N (set_chan_hmm s c h1) n := by
  have hsame : (set_chan_hmm s c h1).chan c = { s.chan c with hmm := h1 } := by
    show store s.chan c _ c = _
    rw [store_same]
  have hoth : ∀ a, a ≠ c → (set_chan_hmm s c h1).chan a = s.chan a := by
    intro a ha
    show store s.chan c _ a = _
    rw [store_ne _ _ _ _ ha]
  have hfr : ∀ a, ((set_chan_hmm s c h1).chan a).hmm.frame = (s.chan a).hmm.frame := by
    intro a
    by_cases ha : a = c
    · rw [ha, hsame]
      exact h1f
    · rw [hoth a ha]
  refine { frame := ?_, links := fun a => ?_, roots := hinv.roots, off := fun a ha => ?_,
           cur := hinv.cur, ncur := hinv.ncur, count := hinv.count, inj := hinv.inj,
           mem := hinv.mem, stamp := fun a ha => ?_, keep := fun a => ?_ }
  · unfold set_chan_hmm
    dsimp only
    rw [hinv.frame]
  · by_cases ha : a = c
    · rw [ha, hsame]
      exact hinv.links c
    · rw [hoth a ha]
      exact hinv.links a
  · rw [hoth a (fun e => ha (e ▸ hc))]
    exact hinv.off a ha
  · rw [hfr a]
    exact hinv.stamp a ha
  · rw [hfr a]
    exact hinv.keep a

theorem nl_set_root_hmm (d : decoder_t) (f : Int) (N : Int → Prop) (s : decoder_t) (n i : Int)
    (h1 : hmm_t) (hinv : nl_inv d f N s n) : nl_inv d f N (set_root_hmm s i h1) n := by
  refine { frame := ?_, links := hinv.links, roots := fun j => ?_, off := hinv.off,
           cur := hinv.cur, ncur := hinv.ncur, count := hinv.count, inj := hinv.inj,
           mem := hinv.mem, stamp := hinv.stamp, keep := hinv.keep }
  · unfold set_root_hmm
    dsimp only
    rw [hinv.frame]
  · show (store s.root_chan i _ j).next = _
    by_cases hj : j = i
    · rw [hj, store_same]
      exact hinv.roots i
    · rw [store_ne _ _ _ _ hj]
      exact hinv.roots j

theorem nl_emit_cands (fuel : Nat) (d : decoder_t) (f : Int) (N : Int → Prop)
    (s s1 : decoder_t) (n w0 sc bp : Int) (hinv : nl_inv d f N s n)
    (hr : emit_cands fuel s w0 sc bp = Except.ok s1) : nl_inv d f N s1 n ∧
      s1.chan = s.chan ∧ s1.root_chan = s.root_chan := by
  unfold emit_cands at hr
  refine for_list_inv (fun t : decoder_t => nl_inv d f N t n ∧ t.chan = s.chan ∧
    t.root_chan = s.root_chan) _ _ _ ?_ _ _ _ _ ⟨hinv, rfl, rfl⟩ hr
  intro w t t1 _ ⟨ht, hc1, hc2⟩ hb
  simp only [Except.ok.injEq] at hb
  subst hb
  refine ⟨?_, hc1, hc2⟩
  refine { frame := ?_, links := ht.links, roots := ht.roots, off := ht.off,
           cur := ht.cur, ncur := ht.ncur, count := ht.count, inj := ht.inj, mem := ht.mem,
           stamp := ht.stamp, keep := ht.keep }
  unfold add_cand
  dsimp only
  rw [ht.frame]

/-- The loop of `prune_root_chan` over the children `l` of root `i`, none of
which is stamped `f + 1`: the children that pass the test are entered and put
on the next list; the invariant is kept and the cells off `l` are
unchanged. -/
theorem kids_root_loop (d : decoder_t) (f : Int) (N : Int → Prop) (i sc : Int) :
    ∀ (l : List Int) (fuel : Nat) (p : Int) (t t2 : decoder_t × Int),
      chain_seg (fun x => (t.1.chan x).alt) p l 0 → (∀ c ∈ l, N c) →
      (∀ c ∈ l, (t.1.chan c).hmm.frame ≠ f + 1) → nl_inv d f N t.1 t.2 →
      for_list is_null (fun (t : decoder_t × Int) a => (t.1.chan a).alt)
        (fun a (t : decoder_t × Int) =>
          if (t.1.chan a).hmm.frame < f ∨ (t.1.chan a).hmm.in_score < sc then
            let t1 := set_chan_hmm t.1 a
              (hmm_enter (t.1.chan a).hmm sc (t.1.root_chan i).hmm.out_history (f + 1))
            Except.ok (push_chan t1 (parity (f + 1)) t.2 a, t.2 + 1)
          else Except.ok t)
        fuel p t = Except.ok t2 →
      nl_inv d f N t2.1 t2.2 ∧ (∀ a, a ∉ l → t2.1.chan a = t.1.chan a) ∧
        t2.1.root_chan = t.1.root_chan := by
  intro l
  induction l with
  | nil =>
    intro fuel p t t2 hl _ _ hinv hr
    have hp : p = 0 := hl
    subst hp
    cases fuel with
    | zero => simp [for_list] at hr
    | succ n =>
      simp only [for_list, is_null, decide_True, if_true, Except.ok.injEq] at hr
      subst hr
      exact ⟨hinv, fun _ _ => rfl, rfl⟩
  | cons b l ih =>
    intro fuel p t t2 hl hN hfr hinv hr
    have hnd := chain_seg_nodup _ _ _ hl
    obtain ⟨hp0, hpb, hrest⟩ := hl
    subst hpb
    have hbl : p ∉ l := (List.nodup_cons.mp hnd).1
    cases fuel with
    | zero => simp [for_list] at hr
    | succ n =>
      have hstop : is_null p = false := by simp [is_null, hp0]
      simp only [for_list, hstop] at hr
      by_cases hen : (t.1.chan p).hmm.frame < f ∨ (t.1.chan p).hmm.in_score < sc
      · rw [if_pos hen] at hr
        simp only [Bool.false_eq_true, if_false] at hr
        have hoth : ∀ a, a ≠ p → (push_chan (set_chan_hmm t.1 p
            (hmm_enter (t.1.chan p).hmm sc (t.1.root_chan i).hmm.out_history (f + 1)))
            (parity (f + 1)) t.2 p).chan a = t.1.chan a := by
          intro a ha
          show store t.1.chan p _ a = _
          rw [store_ne _ _ _ _ ha]
        have halt : ((push_chan (set_chan_hmm t.1 p
            (hmm_enter (t.1.chan p).hmm sc (t.1.root_chan i).hmm.out_history (f + 1)))
            (parity (f + 1)) t.2 p).chan p).alt = (t.1.chan p).alt := by
          show (store t.1.chan p _ p).alt = _
          rw [store_same]
        rw [halt] at hr
        have hinv1 := nl_push d f N t.1 t.2 p
          (hmm_enter (t.1.chan p).hmm sc (t.1.root_chan i).hmm.out_history (f + 1)) hinv
          (hN p (List.mem_cons_self p l)) (hfr p (List.mem_cons_self p l)) rfl
        obtain ⟨g1, g2, g3⟩ := ih n _ _ t2
          (chain_seg_congr _ _ l _ 0 (fun c hc => by
            show ((push_chan (set_chan_hmm t.1 p _) (parity (f + 1)) t.2 p).chan c).alt
              = (t.1.chan c).alt
            rw [hoth c (fun e => hbl (e ▸ hc))]) hrest)
          (fun c hc => hN c (List.mem_cons_of_mem _ hc))
          (fun c hc => by
            show ((push_chan (set_chan_hmm t.1 p _) (parity (f + 1)) t.2 p).chan c).hmm.frame
              ≠ f + 1
            rw [hoth c (fun e => hbl (e ▸ hc))]
            exact hfr c (List.mem_cons_of_mem _ hc))
          hinv1 hr
        refine ⟨g1, fun a ha => ?_, g3⟩
        rw [g2 a (fun h => ha (List.mem_cons_of_mem _ h))]
        exact hoth a (fun e => ha (e ▸ List.mem_cons_self p l))
      · rw [if_neg hen] at hr
        simp only [Bool.false_eq_true, if_false] at hr
        obtain ⟨g1, g2, g3⟩ := ih n _ _ t2 hrest
          (fun c hc => hN c (List.mem_cons_of_mem _ hc))
          (fun c hc => hfr c (List.mem_cons_of_mem _ hc)) hinv hr
        exact ⟨g1, fun a ha => g2 a (fun h => ha (List.mem_cons_of_mem _ h)), g3⟩

theorem nl_inv_init (d : decoder_t) (f : Int) (N : Int → Prop)
    (hst : ∀ a, N a → (d.chan a).hmm.frame ≠ f + 1) : nl_inv d f N d 0 := by
  refine { frame := rfl, links := fun _ => ⟨rfl, rfl⟩, roots := fun _ => rfl,
           off := fun _ _ => rfl, cur := rfl, ncur := rfl, count := le_refl 0, inj := ?_,
           mem := ?_,
           stamp := fun a ha => ?_, keep := fun _ => Or.inr rfl }
  · intro i j hi0 hin
    omega
  · intro k hk0 hkn
    omega
  · constructor
    · intro h
      exact absurd h (hst a ha)
    · rintro ⟨k, hk0, hkn, _⟩
      omega

theorem nl_set_count (d : decoder_t) (f : Int) (N : Int → Prop) (s : decoder_t) (n m : Int)
    (hinv : nl_inv d f N s n) :
    nl_inv d f N { s with n_active_chan := store s.n_active_chan (parity (f + 1)) m } n := by
  refine { frame := ?_, links := hinv.links, roots := hinv.roots, off := hinv.off,
           cur := hinv.cur, ncur := ?_, count := hinv.count, inj := hinv.inj,
           mem := hinv.mem, stamp := hinv.stamp, keep := hinv.keep }
  · dsimp only
    rw [hinv.frame]
  · show store s.n_active_chan (parity (f + 1)) m (parity f) = _
    rw [store_ne _ _ _ _ (parity_succ_ne f).symm]
    exact hinv.ncur

/-- A returning `prune_root_chan` in frame `f`, where the children `KR i` of
the roots are nodes, no node is a child of two roots and no node is stamped
`f + 1`: the invariant `nl_inv` holds for the next list it leaves. -/
theorem prune_root_spec (fuel : Nat) (d d1 : decoder_t) (f : Int) (N : Int → Prop)
    (KR : Int → List Int)
    (hk : ∀ i, 0 ≤ i → i < d.n_root_chan →
      chain_seg (fun x => (d.chan x).alt) (d.root_chan i).next (KR i) 0)
    (hkN : ∀ i, 0 ≤ i → i < d.n_root_chan → ∀ c ∈ KR i, N c)
    (hdisj : ∀ i j c, 0 ≤ i → i < d.n_root_chan → 0 ≤ j → j < d.n_root_chan →
      c ∈ KR i → c ∈ KR j → i = j)
    (hst : ∀ a, N a → (d.chan a).hmm.frame ≠ f + 1)
    (hr : prune_root_chan fuel d f = Except.ok d1) :
    nl_inv d f N d1 (d1.n_active_chan (parity (f + 1))) := by
  unfold prune_root_chan at hr
  dsimp only at hr
  split at hr
  · simp at hr
  · rename_i s n heq
    simp only [Except.ok.injEq] at hr
    subst hr
    have h := for_up_ind (fun i (sn : decoder_t × Int) => nl_inv d f N sn.1 sn.2 ∧
        ∀ j, i ≤ j → j < d.n_root_chan → ∀ c ∈ KR j, sn.1.chan c = d.chan c) _
      d.n_root_chan.toNat 0 (d, 0) (s, n) ?_ ⟨nl_inv_init d f N hst, fun _ _ _ _ _ => rfl⟩ heq
    · have e : ({ s with n_active_chan := store s.n_active_chan (parity (f + 1)) n } :
          decoder_t).n_active_chan (parity (f + 1)) = n := store_same _ _ _
      rw [e]
      exact nl_set_count d f N s n n h.1
    · intro i sn sn1 hi0 hin ⟨hinv, hun⟩ hb
      have hin1 : i < d.n_root_chan := by
        have := Int.toNat_of_nonneg (show 0 ≤ d.n_root_chan by
          by_contra hneg
          rw [Int.toNat_of_nonpos (by omega)] at hin
          simp at hin
          omega)
        omega
      split at hb
      · simp only [Except.ok.injEq] at hb
        subst hb
        exact ⟨hinv, fun j hj => hun j (by omega)⟩
      · split at hb
        · have hinv1 := nl_set_root_hmm d f N sn.1 sn.2 i
            (hmm_set_frame (sn.1.root_chan i).hmm (f + 1)) hinv
          split at hb
          · split at hb
            · simp at hb
            · rename_i s2 n2 hl
              have hnext : ((set_root_hmm sn.1 i
                  (hmm_set_frame (sn.1.root_chan i).hmm (f + 1))).root_chan i).next
                  = (d.root_chan i).next := hinv1.roots i
              rw [hnext] at hl
              obtain ⟨g1, g2, g3⟩ := kids_root_loop d f N i _ (KR i) fuel _
                (set_root_hmm sn.1 i (hmm_set_frame (sn.1.root_chan i).hmm (f + 1)), sn.2)
                (s2, n2)
                (chain_seg_congr _ _ (KR i) _ 0 (fun c _ => (hinv1.links c).2)
                  (hk i hi0 hin1))
                (hkN i hi0 hin1)
                (fun c hc => by
                  show (sn.1.chan c).hmm.frame ≠ f + 1
                  rw [hun i (le_refl i) hin1 c hc]
                  exact hst c (hkN i hi0 hin1 c hc))
                hinv1 hl
              have hun2 : ∀ j, i + 1 ≤ j → j < d.n_root_chan → ∀ c ∈ KR j,
                  s2.chan c = d.chan c := by
                intro j hj hjn c hc
                have hci : c ∉ KR i := fun h => by
                  have := hdisj i j c hi0 hin1 (by omega) hjn h hc
                  omega
                rw [g2 c hci]
                exact hun j (by omega) hjn c hc
              split at hb
              · split at hb
                · simp at hb
                · rename_i s3 he
                  simp only [Except.ok.injEq] at hb
                  subst hb
                  obtain ⟨e1, e2, _⟩ := nl_emit_cands fuel d f N s2 s3 n2 _ _ _ g1 he
                  refine ⟨e1, fun j hj hjn c hc => ?_⟩
                  show s3.chan c = d.chan c
                  rw [e2]
                  exact hun2 j hj hjn c hc
              · simp only [Except.ok.injEq] at hb
                subst hb
                exact ⟨g1, hun2⟩
          · simp only [Except.ok.injEq] at hb
            subst hb
            exact ⟨hinv1, fun j hj => hun j (by omega)⟩
        · simp only [Except.ok.injEq] at hb
          subst hb
          exact ⟨hinv, fun j hj => hun j (by omega)⟩

/-- Invariant rule for `for_list` with the place in the list. -/
theorem for_list_ind {σ : Type} (P : Int → σ → Prop) (stop : Int → Bool)
    (next : σ → Int → Int) (body : Int → σ → Except Fault σ)
    (h : ∀ p s s1, stop p = false → P p s → body p s = Except.ok s1 → P (next s1 p) s1)
    (fuel : Nat) :
    ∀ (p : Int) (s s1 : σ), P p s → for_list stop next body fuel p s = Except.ok s1 →
      ∃ q, P q s1 := by
  induction fuel with
  | zero =>
    intro p s s1 _ hr
    simp [for_list] at hr
  | succ n ih =>
    intro p s s1 h0 hr
    simp only [for_list] at hr
    split at hr
    · simp only [Except.ok.injEq] at hr
      subst hr
      exact ⟨p, h0⟩
    · rename_i hs
      split at hr
      · simp at hr
      · rename_i s2 hb
        exact ih _ _ _ (h p s s2 (by simpa using hs) h0 hb) hr

/-- The loop of `prune_nonroot_chan` over the children of the node `a`: a
child that passes the test is put on the next list unless it is stamped
`f + 1` already, and entered. -/
theorem kids_node_loop (d : decoder_t) (f : Int) (N : Int → Prop) (a sc : Int)
    (hcl : ∀ c, N c → (d.chan c).alt ≠ 0 → N (d.chan c).alt) (fuel : Nat) (p : Int)
    (t t2 : decoder_t × Int) (hp : p ≠ 0 → N p) (hinv : nl_inv d f N t.1 t.2)
    (hr : for_list is_null (fun (t : decoder_t × Int) c => (t.1.chan c).alt)
        (fun c (t : decoder_t × Int) =>
          if (t.1.chan c).hmm.frame < f ∨ (t.1.chan c).hmm.in_score < sc then
            let t1 : decoder_t × Int :=
              if (t.1.chan c).hmm.frame ≠ f + 1 then
                (push_chan t.1 (parity (f + 1)) t.2 c, t.2 + 1)
              else t
            Except.ok (set_chan_hmm t1.1 c
              (hmm_enter (t1.1.chan c).hmm sc (t1.1.chan a).hmm.out_history (f + 1)), t1.2)
          else Except.ok t)
        fuel p t = Except.ok t2) :
    nl_inv d f N t2.1 t2.2 := by
  have key := for_list_ind
    (fun c (t : decoder_t × Int) => nl_inv d f N t.1 t.2 ∧ (c ≠ 0 → N c)) _ _ _ ?_ fuel p t t2
    ⟨hinv, hp⟩ hr
  · obtain ⟨q, hq, _⟩ := key
    exact hq
  · intro c s s1 hs ⟨hi, hc⟩ hb
    have hc0 : c ≠ 0 := by
      intro e
      rw [e] at hs
      simp [is_null] at hs
    have hcN := hc hc0
    have hnext : ∀ (u : decoder_t × Int), nl_inv d f N u.1 u.2 →
        nl_inv d f N u.1 u.2 ∧ ((u.1.chan c).alt ≠ 0 → N (u.1.chan c).alt) := by
      intro u hu
      refine ⟨hu, ?_⟩
      rw [(hu.links c).2]
      exact hcl c hcN
    split at hb
    · by_cases hfr : (s.1.chan c).hmm.frame ≠ f + 1
      · rw [if_pos hfr] at hb
        simp only [Except.ok.injEq] at hb
        subst hb
        exact hnext _ (nl_push d f N s.1 s.2 c _ hi hcN hfr rfl)
      · rw [if_neg hfr] at hb
        simp only [Except.ok.injEq] at hb
        subst hb
        refine hnext _ (nl_set_hmm d f N s.1 s.2 c _ hi hcN ?_)
        show f + 1 = (s.1.chan c).hmm.frame
        omega
    · simp only [Except.ok.injEq] at hb
      subst hb
      exact hnext _ hi

/-- A returning `prune_nonroot_chan` in frame `f` keeps the invariant
`nl_inv` that `prune_root_chan` left, when the nodes on the list of frame `f`
are in `N` and `N` is closed under the links to the first child and to the
next sibling. -/
theorem prune_nonroot_spec (fuel : Nat) (d0 d1 d2 : decoder_t) (f : Int) (N : Int → Prop)
    (hinv : nl_inv d0 f N d1 (d1.n_active_chan (parity (f + 1))))
    (hnext : ∀ c, N c → (d0.chan c).next ≠ 0 → N (d0.chan c).next)
    (halt : ∀ c, N c → (d0.chan c).alt ≠ 0 → N (d0.chan c).alt)
    (hlN : ∀ k, 0 ≤ k → k < d1.n_active_chan (parity f) →
      N (d0.active_chan_list (parity f) k))
    (hr : prune_nonroot_chan fuel d1 f = Except.ok d2) :
    nl_inv d0 f N d2 (d2.n_active_chan (parity (f + 1))) := by
  unfold prune_nonroot_chan at hr
  dsimp only at hr
  split at hr
  · simp at hr
  · rename_i s n heq
    simp only [Except.ok.injEq] at hr
    subst hr
    have h := for_up_ind (fun _ (sn : decoder_t × Int) => nl_inv d0 f N sn.1 sn.2) _
      (d1.n_active_chan (parity f)).toNat 0 (d1, d1.n_active_chan (parity (f + 1))) (s, n)
      ?_ hinv heq
    · have e : ({ s with n_active_chan := store s.n_active_chan (parity (f + 1)) n } :
          decoder_t).n_active_chan (parity (f + 1)) = n := store_same _ _ _
      rw [e]
      exact nl_set_count d0 f N s n n h
    · intro k sn sn1 hk0 hkn hi hb
      have hkn1 : k < d1.n_active_chan (parity f) := by
        have := Int.toNat_of_nonneg (show 0 ≤ d1.n_active_chan (parity f) by
          by_contra hneg
          rw [Int.toNat_of_nonpos (by omega)] at hkn
          simp at hkn
          omega)
        omega
      rw [hi.cur] at hb
      have haN := hlN k hk0 hkn1
      generalize d0.active_chan_list (parity f) k = a at hb haN
      split at hb
      · simp at hb
      · split at hb
        · have hsn1 : nl_inv d0 f N
              (if (sn.1.chan a).hmm.frame ≠ f + 1 then
                (push_chan (set_chan_hmm sn.1 a (hmm_set_frame (sn.1.chan a).hmm (f + 1)))
                  (parity (f + 1)) sn.2 a, sn.2 + 1)
              else sn).1
              (if (sn.1.chan a).hmm.frame ≠ f + 1 then
                (push_chan (set_chan_hmm sn.1 a (hmm_set_frame (sn.1.chan a).hmm (f + 1)))
                  (parity (f + 1)) sn.2 a, sn.2 + 1)
              else sn).2 := by
            by_cases hfr : (sn.1.chan a).hmm.frame ≠ f + 1
            · rw [if_pos hfr]
              exact nl_push d0 f N sn.1 sn.2 a _ hi haN hfr rfl
            · rw [if_neg hfr]
              exact hi
          generalize (if (sn.1.chan a).hmm.frame ≠ f + 1 then
                (push_chan (set_chan_hmm sn.1 a (hmm_set_frame (sn.1.chan a).hmm (f + 1)))
                  (parity (f + 1)) sn.2 a, sn.2 + 1)
              else sn) = u at hb hsn1
          split at hb
          · split at hb
            · simp at hb
            · rename_i s2 n2 hl
              have g1 := kids_node_loop d0 f N a _ halt fuel _ u (s2, n2)
                (by
                  rw [(hsn1.links a).1]
                  exact hnext a haN)
                hsn1 hl
              split at hb
              · split at hb
                · simp at hb
                · rename_i s3 he
                  simp only [Except.ok.injEq] at hb
                  subst hb
                  exact (nl_emit_cands fuel d0 f N s2 s3 n2 _ _ _ g1 he).1
              · simp only [Except.ok.injEq] at hb
                subst hb
                exact g1
          · simp only [Except.ok.injEq] at hb
            subst hb
            exact hsn1
        · split at hb
          · simp only [Except.ok.injEq] at hb
            subst hb
            exact nl_set_hmm d0 f N sn.1 sn.2 a _ hi haN rfl
          · simp only [Except.ok.injEq] at hb
            subst hb
            exact hi

/-- C21 (amended): in frame `f`, for a set `N` of non-root nodes closed under
the links to the first child and the next sibling, where the children `KR i`
of the roots are nodes and no node is a child of two roots, the nodes on the
list of frame `f` are in `N` and no node is stamped `f + 1`: after returning
runs of `prune_root_chan` and `prune_nonroot_chan` the list of frame `f + 1`
holds no node twice, every node on it is stamped `f + 1`, and every node
stamped `f + 1` is on it. -/
theorem next_chan_list (fuel : Nat) (d d1 d2 : decoder_t) (f : Int) (N : Int → Prop)
    (KR : Int → List Int)
    (hk : ∀ i, 0 ≤ i → i < d.n_root_chan →
      chain_seg (fun x => (d.chan x).alt) (d.root_chan i).next (KR i) 0)
    (hkN : ∀ i, 0 ≤ i → i < d.n_root_chan → ∀ c ∈ KR i, N c)
    (hdisj : ∀ i j c, 0 ≤ i → i < d.n_root_chan → 0 ≤ j → j < d.n_root_chan →
      c ∈ KR i → c ∈ KR j → i = j)
    (hnext : ∀ c, N c → (d.chan c).next ≠ 0 → N (d.chan c).next)
    (halt : ∀ c, N c → (d.chan c).alt ≠ 0 → N (d.chan c).alt)
    (hlN : ∀ k, 0 ≤ k → k < d.n_active_chan (parity f) →
      N (d.active_chan_list (parity f) k))
    (hst : ∀ a, N a → (d.chan a).hmm.frame ≠ f + 1)
    (hr1 : prune_root_chan fuel d f = Except.ok d1)
    (hr2 : prune_nonroot_chan fuel d1 f = Except.ok d2) :
    (∀ i j, 0 ≤ i → i < d2.n_active_chan (parity (f + 1)) → 0 ≤ j →
      j < d2.n_active_chan (parity (f + 1)) →
      d2.active_chan_list (parity (f + 1)) i = d2.active_chan_list (parity (f + 1)) j →
      i = j) ∧
    (∀ k, 0 ≤ k → k < d2.n_active_chan (parity (f + 1)) →
      N (d2.active_chan_list (parity (f + 1)) k) ∧
      (d2.chan (d2.active_chan_list (parity (f + 1)) k)).hmm.frame = f + 1) ∧
    (∀ a, N a → (d2.chan a).hmm.frame = f + 1 →
      on_chan_list d2 (f + 1) (d2.n_active_chan (parity (f + 1))) a) := by
  have h1 := prune_root_spec fuel d d1 f N KR hk hkN hdisj hst hr1
  have h2 := prune_nonroot_spec fuel d d1 d2 f N h1 hnext halt
    (fun k hk0 hkn => hlN k hk0 (by rw [← h1.ncur]; exact hkn)) hr2
  refine ⟨h2.inj, fun k hk0 hkn => ⟨h2.mem k hk0 hkn, ?_⟩, fun a ha hfr => (h2.stamp a ha).mp hfr⟩
  exact (h2.stamp _ (h2.mem k hk0 hkn)).mpr ⟨k, hk0, hkn, rfl⟩

theorem prc_out_eq (fuel : Nat) (d : decoder_t) (f : Int) (h : prc_returns fuel d f = true) :
    prune_root_chan fuel d f = Except.ok (prc_out fuel d f) := by
  unfold prc_returns at h
  unfold prc_out
  split at h
  · rename_i x hx
    rw [hx]
  · simp at h

theorem pnc_out_eq (fuel : Nat) (d : decoder_t) (f : Int) (h : pnc_returns fuel d f = true) :
    prune_nonroot_chan fuel d f = Except.ok (pnc_out fuel d f) := by
  unfold pnc_returns at h
  unfold pnc_out
  split at h
  · rename_i x hx
    rw [hx]
  · simp at h

theorem ex_nl_chan (a : Int) :
    ex_nl_dec.chan a = if a = 1 then
        { hmm := { frame := 6, bestscore := -5, out_score := -5 }, next := 3, alt := 2 }
      else {} := rfl

set_option maxRecDepth 100000 in
/-- Witness for C21 (amended): frame 6 of the test decoder whose root has
the children 1 and 2 and node 1 the child 3, with node 1 on the active list.
Both passes return; the root enters nodes 1 and 2, node 1 stays and enters
node 3: the list of frame 7 is 1, 2, 3, each once, all stamped 7. -/
theorem next_chan_list_witness :
    prc_returns 5 ex_nl_dec 6 = true ∧
    pnc_returns 5 (prc_out 5 ex_nl_dec 6) 6 = true ∧
    (pnc_out 5 (prc_out 5 ex_nl_dec 6) 6).n_active_chan (parity 7) = 3 ∧
    [0, 1, 2].map (fun k => (pnc_out 5 (prc_out 5 ex_nl_dec 6) 6).active_chan_list (parity 7) k)
      = [1, 2, 3] ∧
    ((∀ i j, 0 ≤ i → i < (pnc_out 5 (prc_out 5 ex_nl_dec 6) 6).n_active_chan (parity (6 + 1)) →
      0 ≤ j → j < (pnc_out 5 (prc_out 5 ex_nl_dec 6) 6).n_active_chan (parity (6 + 1)) →
      (pnc_out 5 (prc_out 5 ex_nl_dec 6) 6).active_chan_list (parity (6 + 1)) i
        = (pnc_out 5 (prc_out 5 ex_nl_dec 6) 6).active_chan_list (parity (6 + 1)) j →
      i = j) ∧
    (∀ k, 0 ≤ k → k < (pnc_out 5 (prc_out 5 ex_nl_dec 6) 6).n_active_chan (parity (6 + 1)) →
      (fun a : Int => a = 1 ∨ a = 2 ∨ a = 3)
        ((pnc_out 5 (prc_out 5 ex_nl_dec 6) 6).active_chan_list (parity (6 + 1)) k) ∧
      ((pnc_out 5 (prc_out 5 ex_nl_dec 6) 6).chan
        ((pnc_out 5 (prc_out 5 ex_nl_dec 6) 6).active_chan_list (parity (6 + 1)) k)).hmm.frame
        = 6 + 1) ∧
    (∀ a, (fun a : Int => a = 1 ∨ a = 2 ∨ a = 3) a →
      ((pnc_out 5 (prc_out 5 ex_nl_dec 6) 6).chan a).hmm.frame = 6 + 1 →
      on_chan_list (pnc_out 5 (prc_out 5 ex_nl_dec 6) 6) (6 + 1)
        ((pnc_out 5 (prc_out 5 ex_nl_dec 6) 6).n_active_chan (parity (6 + 1))) a)) :=
  ⟨by decide!, by decide!, by decide!, by decide!,
    next_chan_list 5 ex_nl_dec (prc_out 5 ex_nl_dec 6) (pnc_out 5 (prc_out 5 ex_nl_dec 6) 6) 6
      (fun a => a = 1 ∨ a = 2 ∨ a = 3) (fun i => if i = 0 then [1, 2] else [])
      (fun i hi0 hin => by
        have hn : ex_nl_dec.n_root_chan = 1 := rfl
        rw [hn] at hin
        have hi : i = 0 := by omega
        subst hi
        exact ⟨by decide, rfl, by decide, rfl, rfl⟩)
      (fun i hi0 hin c hc => by
        have hn : ex_nl_dec.n_root_chan = 1 := rfl
        rw [hn] at hin
        have hi : i = 0 := by omega
        subst hi
        have hc1 : c ∈ [(1 : Int), 2] := hc
        simp at hc1
        rcases hc1 with h | h
        · exact Or.inl h
        · exact Or.inr (Or.inl h))
      (fun i j c hi0 hin hj0 hjn _ _ => by
        have hn : ex_nl_dec.n_root_chan = 1 := rfl
        rw [hn] at hin hjn
        omega)
      (fun c hc hne => by
        rw [ex_nl_chan] at hne ⊢
        by_cases h1 : c = 1
        · rw [if_pos h1]
          exact Or.inr (Or.inr rfl)
        · rw [if_neg h1] at hne
          exact absurd rfl hne)
      (fun c hc hne => by
        rw [ex_nl_chan] at hne ⊢
        by_cases h1 : c = 1
        · rw [if_pos h1]
          exact Or.inr (Or.inl rfl)
        · rw [if_neg h1] at hne
          exact absurd rfl hne)
      (fun k hk0 hkn => by
        have hn : ex_nl_dec.n_active_chan (parity 6) = 1 := by decide
        rw [hn] at hkn
        have hk : k = 0 := by omega
        subst hk
        exact Or.inl (by decide))
      (fun a _ => by
        rw [ex_nl_chan]
        by_cases h1 : a = 1
        · rw [if_pos h1]
          decide
        · rw [if_neg h1]
          decide)
      (prc_out_eq 5 ex_nl_dec 6 (by decide!))
      (pnc_out_eq 5 (prc_out 5 ex_nl_dec 6) 6 (by decide!))⟩

set_option maxRecDepth 100000 in
/-- Counterexample to C21 as stated: in frame 6 of the test decoder
`ex_late_dec` the active list of frame 6 is empty and no node is stamped 6,
but node 2 is stamped 7 with the entry score 0.  Both passes return; the root
enters node 1 with score -10 and leaves node 2 alone: the list of frame 7 is
node 1 alone, and node 2, stamped 7, is not on it. -/
theorem next_chan_list_counterexample :
    ex_late_dec.n_active_chan (parity 6) = 0 ∧
    [1, 2, 3].map (fun a => (ex_late_dec.chan a).hmm.frame) = [-1, 7, -1] ∧
    ex_late_dec.n_root_chan = 1 ∧ (ex_late_dec.root_chan 0).next = 1 ∧
    [1, 2, 3].map (fun a => ((ex_late_dec.chan a).next, (ex_late_dec.chan a).alt))
      = [(3, 2), (0, 0), (0, 0)] ∧
    prc_returns 5 ex_late_dec 6 = true ∧
    pnc_returns 5 (prc_out 5 ex_late_dec 6) 6 = true ∧
    ((pnc_out 5 (prc_out 5 ex_late_dec 6) 6).chan 2).hmm.frame = 6 + 1 ∧
    ¬ on_chan_list (pnc_out 5 (prc_out 5 ex_late_dec 6) 6) (6 + 1)
      ((pnc_out 5 (prc_out 5 ex_late_dec 6) 6).n_active_chan (parity (6 + 1))) 2 := by
  refine ⟨by decide, by decide, rfl, rfl, by decide, by decide!, by decide!, by decide!, ?_⟩
  rintro ⟨i, hi0, hin, he⟩
  have hn : (pnc_out 5 (prc_out 5 ex_late_dec 6) 6).n_active_chan (parity (6 + 1)) = 1 := by
    decide!
  rw [hn] at hin
  have hi : i = 0 := by omega
  subst hi
  have h0 : (pnc_out 5 (prc_out 5 ex_late_dec 6) 6).active_chan_list (parity (6 + 1)) 0
      = 1 := by decide!
  rw [h0] at he
  exact absurd he (by decide)

/-- C33: in a returning run of `prune_word_chan` for frame `f`, over active
words whose leaf chains `L` are null-terminated and disjoint, the chain of
every word on the active word list of frame `f` is afterwards the sub-list,
in the original order, of the leaves whose best score exceeded the leaf
threshold `last_phone_best_score + max(dynamic_beam, lponlybeam)` or whose
frame stamp was `f + 1` already; `word_chan[w]` is null exactly when no such
leaf exists. -/
theorem prune_word_chan_unlinks (fuel : Nat) (d d1 : decoder_t) (f : Int)
    (L : Int → List Int) (hc : word_chains d f L)
    (hr : prune_word_chan fuel d f = Except.ok d1) :
    ∀ j, 0 ≤ j → j < d.n_active_word (parity f) →
      leaf_list d1.chan (d1.word_chan (d.active_word_list (parity f) j))
        ((L j).filter (fun a =>
          decide ((d.chan a).hmm.bestscore >
            d.last_phone_best_score + beam_max d.dynamic_beam d.lponlybeam) ||
          decide ((d.chan a).hmm.frame = f + 1))) ∧
      (d1.word_chan (d.active_word_list (parity f) j) = 0 ↔
        ∀ a ∈ L j, ¬ ((d.chan a).hmm.bestscore >
            d.last_phone_best_score + beam_max d.dynamic_beam d.lponlybeam ∨
          (d.chan a).hmm.frame = f + 1)) := by
  obtain ⟨s, m, h1, h2, _⟩ := prune_word_chan_spec fuel d d1 f L hc hr
  obtain ⟨_, _, e3, e4, _⟩ := rhmm_frame_fields _ d1 h2
  have ec : d1.chan = s.chan := e3
  have ew : d1.word_chan = s.word_chan := e4
  intro j hj0 hjn
  have hjt : j < ((d.n_active_word (parity f)).toNat : Int) := by
    rw [Int.toNat_of_nonneg (by omega)]
    exact hjn
  obtain ⟨q1, _⟩ := h1.done j hj0 hjn hjt
  rw [← ec, ← ew] at q1
  have q2 : leaf_list d1.chan (d1.word_chan (d.active_word_list (parity f) j))
      ((L j).filter (fun a =>
        decide ((d.chan a).hmm.bestscore >
          d.last_phone_best_score + beam_max d.dynamic_beam d.lponlybeam) ||
        decide ((d.chan a).hmm.frame = f + 1))) := q1
  refine ⟨q2, ?_⟩
  have hne := leaf_list_head_ne _ _ _ q2
  constructor
  · intro h0 a ha hk
    have hnil : (L j).filter (fun a =>
        decide ((d.chan a).hmm.bestscore >
          d.last_phone_best_score + beam_max d.dynamic_beam d.lponlybeam) ||
        decide ((d.chan a).hmm.frame = f + 1)) = [] := by
      by_contra hx
      exact (hne.mpr hx) h0
    have hm : a ∈ (L j).filter (fun a =>
        decide ((d.chan a).hmm.bestscore >
          d.last_phone_best_score + beam_max d.dynamic_beam d.lponlybeam) ||
        decide ((d.chan a).hmm.frame = f + 1)) := by
      rw [List.mem_filter]
      refine ⟨ha, ?_⟩
      simpa using hk
    rw [hnil] at hm
    exact absurd hm (List.not_mem_nil a)
  · intro hall
    by_contra h0
    obtain ⟨a, ham⟩ := List.exists_mem_of_ne_nil _ (hne.mp h0)
    obtain ⟨ha, hk⟩ := List.mem_filter.mp ham
    exact hall a ha (by simpa using hk)

set_option maxRecDepth 100000 in
/-- Witness for C33: in frame 6 of the test decoder word 0 is on the active
word list with the leaves 1 (best score -10) and 2 (best score -50), the
threshold being -30: `prune_word_chan` returns and the chain of word 0 is the
leaf 1 alone. -/
theorem prune_word_chan_unlinks_witness :
    pwc_returns 5 ex_lp_dec 6 = true ∧
    [1, 2].filter (fun a =>
      decide ((ex_lp_dec.chan a).hmm.bestscore >
        ex_lp_dec.last_phone_best_score +
          beam_max ex_lp_dec.dynamic_beam ex_lp_dec.lponlybeam) ||
      decide ((ex_lp_dec.chan a).hmm.frame = 6 + 1)) = [1] ∧
    ∀ j, 0 ≤ j → j < ex_lp_dec.n_active_word (parity 6) →
      leaf_list (pwc_out 5 ex_lp_dec 6).chan
        ((pwc_out 5 ex_lp_dec 6).word_chan (ex_lp_dec.active_word_list (parity 6) j))
        (((fun j : Int => if j = 0 then [1, 2] else []) j).filter (fun a =>
          decide ((ex_lp_dec.chan a).hmm.bestscore >
            ex_lp_dec.last_phone_best_score +
              beam_max ex_lp_dec.dynamic_beam ex_lp_dec.lponlybeam) ||
          decide ((ex_lp_dec.chan a).hmm.frame = 6 + 1))) ∧
      ((pwc_out 5 ex_lp_dec 6).word_chan (ex_lp_dec.active_word_list (parity 6) j) = 0 ↔
        ∀ a ∈ (fun j : Int => if j = 0 then [1, 2] else []) j,
          ¬ ((ex_lp_dec.chan a).hmm.bestscore >
            ex_lp_dec.last_phone_best_score +
              beam_max ex_lp_dec.dynamic_beam ex_lp_dec.lponlybeam ∨
          (ex_lp_dec.chan a).hmm.frame = 6 + 1)) :=
  ⟨by decide!, by decide,
    prune_word_chan_unlinks 5 ex_lp_dec (pwc_out 5 ex_lp_dec 6) 6
      (fun j => if j = 0 then [1, 2] else []) ex_lp_chains
      (pwc_out_eq 5 ex_lp_dec 6 (by decide!))⟩

/-! ### The dynamic beam and the histogram bins -/

theorem tdiv_256 (a : Int) (h : 0 ≤ a) : a.tdiv 256 = a / 256 :=
  Int.tdiv_eq_ediv h (by decide)

theorem set_dynamic_beam_zero (d : decoder_t) (f : Int)
    (hc : d.maxhmmpf ≠ -1 ∧ d.n_root_chan_eval + d.n_nonroot_chan_eval > d.maxhmmpf)
    (hbw : (-d.beam).tdiv 256 = 0) :
    set_dynamic_beam d f = Except.error Fault.div_zero := by
  unfold set_dynamic_beam
  dsimp only
  rw [if_pos hc, if_pos hbw]

theorem set_dynamic_beam_range (d d3 : decoder_t) (f : Int) (hb : d.beam ≤ 0)
    (h3 : set_dynamic_beam d f = Except.ok d3) :
    d.beam ≤ d3.dynamic_beam ∧ d3.dynamic_beam ≤ 0 := by
  by_cases hc : d.maxhmmpf ≠ -1 ∧ d.n_root_chan_eval + d.n_nonroot_chan_eval > d.maxhmmpf
  · by_cases hbw : (-d.beam).tdiv 256 = 0
    · rw [set_dynamic_beam_zero d f hc hbw] at h3
      simp at h3
    · obtain ⟨d4, h4, hv⟩ := set_dynamic_beam_hist d f hc hbw
      rw [h3] at h4
      simp only [Except.ok.injEq] at h4
      subst h4
      obtain ⟨n, h1, _, h2, _, _⟩ :=
        beam_bin_spec (beam_hist d f ((-d.beam).tdiv 256)) d.maxhmmpf 256 0
      have e0 : beam_bin (beam_hist d f ((-d.beam).tdiv 256)) d.maxhmmpf 256 0 0 = (n : Int) :=
        h1
      rw [e0] at hv
      rw [hv, tdiv_256 _ (by omega)]
      have hq0 : 0 ≤ (-d.beam) / 256 := by omega
      have hq1 : 256 * ((-d.beam) / 256) ≤ -d.beam := by omega
      have hn : (n : Int) ≤ 256 := by omega
      have hn0 : (0 : Int) ≤ n := by omega
      have h5 : (n : Int) * ((-d.beam) / 256) ≤ 256 * ((-d.beam) / 256) :=
        Int.mul_le_mul_of_nonneg_right hn hq0
      have h6 : 0 ≤ (n : Int) * ((-d.beam) / 256) := Int.mul_nonneg hn0 hq0
      omega
  · obtain ⟨d4, h4, hv⟩ := set_dynamic_beam_plain d f hc
    rw [h3] at h4
    simp only [Except.ok.injEq] at h4
    subst h4
    rw [hv]
    exact ⟨le_refl _, hb⟩

/-- C35: for `beam <= 0`, after every returning `prune_channels` the dynamic
beam lies between `beam` and 0; it is the value the head of `prune_channels`
set, so the threshold `best_score + dynamic_beam` of the pruning passes is at
most their thresholds `best_score + max(dynamic_beam, pbeam)` and
`best_score + max(dynamic_beam, lpbeam)`. -/
theorem dynamic_beam_within (env : env_t) (fuel : Nat) (d d1 : decoder_t) (f : Int)
    (hb : d.beam ≤ 0) (hr : prune_channels env fuel d f = Except.ok d1) :
    d.beam ≤ d1.dynamic_beam ∧ d1.dynamic_beam ≤ 0 ∧
    ∃ d3, set_dynamic_beam d f = Except.ok d3 ∧ d3.dynamic_beam = d1.dynamic_beam ∧
      d3.best_score + d3.dynamic_beam ≤ d3.best_score + beam_max d3.dynamic_beam d3.pbeam ∧
      d3.best_score + d3.dynamic_beam ≤ d3.best_score + beam_max d3.dynamic_beam d3.lpbeam := by
  have hex : ∃ d3, set_dynamic_beam d f = Except.ok d3 := by
    unfold prune_channels at hr
    split at hr
    · simp at hr
    · rename_i d3 h3
      exact ⟨d3, h3⟩
  obtain ⟨d3, h3⟩ := hex
  have he := prune_channels_beam env fuel d d3 d1 f h3 hr
  obtain ⟨g1, g2⟩ := set_dynamic_beam_range d d3 f hb h3
  have hmax : ∀ a b : Int, a ≤ beam_max a b := by
    intro a b
    unfold beam_max
    split
    · exact le_refl a
    · omega
  refine ⟨by rw [he]; exact g1, by rw [he]; exact g2, d3, h3, he.symm, ?_, ?_⟩
  · have := hmax d3.dynamic_beam d3.pbeam
    omega
  · have := hmax d3.dynamic_beam d3.lpbeam
    omega

set_option maxRecDepth 100000 in
/-- Witness for C35: three roots with a beam of -1000 and `maxhmmpf = 1`:
`prune_channels` returns with a dynamic beam of -9. -/
theorem dynamic_beam_within_witness :
    ex_beam_dec.beam = -1000 ∧
    ∃ d1, prune_channels ex_env 10 ex_beam_dec 0 = Except.ok d1 ∧ d1.dynamic_beam = -9 ∧
      ex_beam_dec.beam ≤ d1.dynamic_beam ∧ d1.dynamic_beam ≤ 0 ∧
      ∃ d3, set_dynamic_beam ex_beam_dec 0 = Except.ok d3 ∧
        d3.dynamic_beam = d1.dynamic_beam ∧
        d3.best_score + d3.dynamic_beam
          ≤ d3.best_score + beam_max d3.dynamic_beam d3.pbeam ∧
        d3.best_score + d3.dynamic_beam
          ≤ d3.best_score + beam_max d3.dynamic_beam d3.lpbeam :=
  ⟨rfl, _, rfl, by decide!, dynamic_beam_within ex_env 10 ex_beam_dec _ 0 (by decide) rfl⟩

/-- C36: for `beam <= -256` the bin width `bw = -beam / 256` is at least 1,
the bin of every best score that is at most `best_score` lies in 0..255, and
the head of `prune_channels` returns; for `-256 < beam <= 0` the bin width is
0, and the head of `prune_channels` stops at the division by it when it
builds the histogram. -/
theorem hist_bins_in_range (d : decoder_t) (f : Int) :
    (d.beam ≤ -256 →
      1 ≤ (-d.beam).tdiv 256 ∧
      (∀ b, b ≤ d.best_score →
        0 ≤ bin_of d.best_score b ((-d.beam).tdiv 256) ∧
        bin_of d.best_score b ((-d.beam).tdiv 256) ≤ 255) ∧
      ∃ d3, set_dynamic_beam d f = Except.ok d3) ∧
    (-256 < d.beam → d.beam ≤ 0 →
      (-d.beam).tdiv 256 = 0 ∧
      (d.maxhmmpf ≠ -1 ∧ d.n_root_chan_eval + d.n_nonroot_chan_eval > d.maxhmmpf →
        set_dynamic_beam d f = Except.error Fault.div_zero)) := by
  constructor
  · intro hb
    have hbw : 1 ≤ (-d.beam).tdiv 256 := by
      rw [tdiv_256 _ (by omega)]
      omega
    refine ⟨hbw, fun b hbs => ?_, ?_⟩
    · unfold bin_of
      dsimp only
      have hq : 0 ≤ (d.best_score - b).tdiv ((-d.beam).tdiv 256) := by
        rw [Int.tdiv_eq_ediv (by omega) (by omega)]
        exact Int.ediv_nonneg (by omega) (by omega)
      split
      · exact ⟨by decide, by decide⟩
      · exact ⟨hq, by omega⟩
    · by_cases hc : d.maxhmmpf ≠ -1 ∧
          d.n_root_chan_eval + d.n_nonroot_chan_eval > d.maxhmmpf
      · obtain ⟨d3, h3, _⟩ := set_dynamic_beam_hist d f hc (by omega)
        exact ⟨d3, h3⟩
      · obtain ⟨d3, h3, _⟩ := set_dynamic_beam_plain d f hc
        exact ⟨d3, h3⟩
  · intro h1 h2
    have hbw : (-d.beam).tdiv 256 = 0 := by
      rw [tdiv_256 _ (by omega)]
      omega
    exact ⟨hbw, fun hc => set_dynamic_beam_zero d f hc hbw⟩

/-- Witness for C36: with a beam of -1000 the bin width is 3 and the head of
`prune_channels` returns; with a beam of -100 and `maxhmmpf = 1` exceeded the
bin width is 0 and the head stops at the division. -/
theorem hist_bins_in_range_witness :
    (-ex_beam_dec.beam).tdiv 256 = 3 ∧
    bin_of ex_beam_dec.best_score (-500) 3 = 166 ∧
    (1 ≤ (-ex_beam_dec.beam).tdiv 256 ∧
      (∀ b, b ≤ ex_beam_dec.best_score →
        0 ≤ bin_of ex_beam_dec.best_score b ((-ex_beam_dec.beam).tdiv 256) ∧
        bin_of ex_beam_dec.best_score b ((-ex_beam_dec.beam).tdiv 256) ≤ 255) ∧
      ∃ d3, set_dynamic_beam ex_beam_dec 0 = Except.ok d3) ∧
    ((-({ ex_beam_dec with beam := -100 } : decoder_t).beam).tdiv 256 = 0 ∧
      ((({ ex_beam_dec with beam := -100 } : decoder_t).maxhmmpf ≠ -1 ∧
        ({ ex_beam_dec with beam := -100 } : decoder_t).n_root_chan_eval +
          ({ ex_beam_dec with beam := -100 } : decoder_t).n_nonroot_chan_eval >
          ({ ex_beam_dec with beam := -100 } : decoder_t).maxhmmpf) →
        set_dynamic_beam { ex_beam_dec with beam := -100 } 0
          = Except.error Fault.div_zero)) :=
  ⟨by decide, by decide, (hist_bins_in_range ex_beam_dec 0).1 (by decide),
    (hist_bins_in_range { ex_beam_dec with beam := -100 } 0).2 (by decide) (by decide)⟩

set_option maxRecDepth 100000 in
/-- C34 (evaluation): in frame 6 of the test decoder `ex_hist_dec` root 1 is
not active (stamp -1), yet the histogram of `prune_channels` counts it: with
the bin width 10 it falls in bin 255, so the bins hold two counts for one
active root. -/
theorem beam_hist_counts_idle_root :
    (ex_hist_dec.root_chan 0).hmm.frame = 6 ∧ (ex_hist_dec.root_chan 1).hmm.frame < 6 ∧
    ex_hist_dec.n_root_chan = 2 ∧ ex_hist_dec.n_active_chan (parity 6) = 0 ∧
    (-ex_hist_dec.beam).tdiv 256 = 10 ∧
    bin_of ex_hist_dec.best_score (ex_hist_dec.root_chan 1).hmm.bestscore 10 = 255 ∧
    beam_hist ex_hist_dec 6 10 0 = 1 ∧ beam_hist ex_hist_dec 6 10 255 = 1 ∧
    cum_bins (beam_hist ex_hist_dec 6 10) 256 = 2 :=
  ⟨by decide, by decide, rfl, by decide, by decide, by decide, by decide!, by decide!,
    by decide!⟩

/-! ### The filler walk on a table with decreasing links -/

/-- In a table whose links at the entries up to `e` go down to a lower entry
or are `NO_BP`, the latter at non-fillers only, the chain from `e` reaches a
non-filler after at most `e` links. -/
theorem chain_reaches_real (sil : Int) (tbl : Int → bptbl_t) (n : Nat) :
    ∀ (e : Int), 0 ≤ e → e ≤ n →
      (∀ i, 0 ≤ i → i ≤ e → (tbl i).bp < i ∧ ((tbl i).bp = NO_BP ∨ 0 ≤ (tbl i).bp)) →
      (∀ i, 0 ≤ i → i ≤ e → (tbl i).bp = NO_BP → (tbl i).wid < sil) →
      ∃ k : Nat, (k : Int) ≤ e ∧ first_real_on_chain sil tbl e k ∧
        0 ≤ bp_chain tbl e k ∧ bp_chain tbl e k ≤ e := by
  induction n with
  | zero =>
    intro e he0 hen hdec hend
    have he : e = 0 := by omega
    subst he
    have h0 := hdec 0 (le_refl 0) (le_refl 0)
    have hno : (tbl 0).bp = NO_BP := by
      rcases h0.2 with h | h
      · exact h
      · omega
    exact ⟨0, le_refl _, ⟨fun j hj => absurd hj (by omega), hend 0 (le_refl 0) (le_refl 0) hno⟩,
      le_refl _, le_refl _⟩
  | succ n ih =>
    intro e he0 hen hdec hend
    by_cases hw : (tbl e).wid < sil
    · exact ⟨0, by omega, ⟨fun j hj => absurd hj (by omega), hw⟩, he0, le_refl _⟩
    · have h0 := hdec e he0 (le_refl e)
      have hne : (tbl e).bp ≠ NO_BP := fun h => hw (hend e he0 (le_refl e) h)
      have hp0 : 0 ≤ (tbl e).bp := by
        rcases h0.2 with h | h
        · exact absurd h hne
        · exact h
      obtain ⟨k, hk, hc, hb0, hb1⟩ := ih (tbl e).bp hp0 (by omega)
        (fun i hi0 hie => hdec i hi0 (by omega)) (fun i hi0 hie => hend i hi0 (by omega))
      refine ⟨k + 1, by push_cast; omega, ⟨fun j hj => ?_, ?_⟩, ?_, ?_⟩
      · cases j with
        | zero => exact ⟨by show sil ≤ (tbl e).wid; omega, hp0⟩
        | succ j =>
          rw [bp_chain_succ_left, bp_chain_succ_left]
          exact hc.1 j (by omega)
      · rw [bp_chain_succ_left]
        exact hc.2
      · rw [bp_chain_succ_left]
        exact hb0
      · rw [bp_chain_succ_left]
        omega

/-- C38: in a backpointer table where, up to the entry `bp`, every link goes
to a lower entry or is `NO_BP`, and an entry whose link is `NO_BP` carries a
word id below `silence_wid`, `cache_bptable_paths` returns for every fuel
above `bp`: the filler walk ends and no link `NO_BP` is followed. -/
theorem cache_bptable_paths_safe (fuel : Nat) (ngs : ngram_search_t) (bp : Int)
    (hbp : 0 ≤ bp) (hfuel : bp < fuel)
    (hdec : ∀ i, 0 ≤ i → i ≤ bp →
      (ngs.bp_table i).bp < i ∧ ((ngs.bp_table i).bp = NO_BP ∨ 0 ≤ (ngs.bp_table i).bp))
    (hend : ∀ i, 0 ≤ i → i ≤ bp → (ngs.bp_table i).bp = NO_BP →
      (ngs.bp_table i).wid < ngs.silence_wid) :
    ∃ s', cache_bptable_paths fuel ngs bp = Except.ok s' := by
  obtain ⟨k, hk, hc, hb0, hb1⟩ := chain_reaches_real ngs.silence_wid ngs.bp_table bp.toNat bp
    hbp (by rw [Int.toNat_of_nonneg hbp]) hdec hend
  refine cache_bptable_paths_total fuel ngs bp k (by omega) hc ?_
  have h := (hdec _ hb0 hb1).2
  unfold NO_BP at h ⊢
  omega

/-- Witness for C38: in the test table the entry 3 is a filler whose chain
3, 2, 1 reaches the word 0 at entry 1 and ends at entry 0; the walk from
entry 3 returns. -/
theorem cache_bptable_paths_safe_witness :
    (0 : Int) ≤ 3 ∧ [0, 1, 2, 3].map (fun i => (ex_chain_ngs.bp_table i).bp) = [-1, 0, 1, 2] ∧
    [0, 1, 2, 3].map (fun i => decide ((ex_chain_ngs.bp_table i).wid < ex_chain_ngs.silence_wid))
      = [true, true, false, false] ∧
    ∃ s', cache_bptable_paths 4 ex_chain_ngs 3 = Except.ok s' :=
  ⟨by decide, by decide, by decide,
    cache_bptable_paths_safe 4 ex_chain_ngs 3 (by decide) (by decide)
      (fun i hi0 hi3 => by
        have h : i = 0 ∨ i = 1 ∨ i = 2 ∨ i = 3 := by omega
        rcases h with h | h | h | h <;> subst h <;> decide)
      (fun i hi0 hi3 => by
        have h : i = 0 ∨ i = 1 ∨ i = 2 ∨ i = 3 := by omega
        rcases h with h | h | h | h <;> subst h <;> decide)⟩

/-! ### The best predecessor for each right context -/

theorem wt_reset_loop (n : Nat) :
    ∀ (hi : Int) (s : decoder_t),
      (iter_down
        (fun i (s : decoder_t) =>
          set_bestbp_rc s i { s.bestbp_rc i with score := WORST_SCORE }) n hi s)
        = { s with bestbp_rc := (iter_down
          (fun i (s : decoder_t) =>
            set_bestbp_rc s i { s.bestbp_rc i with score := WORST_SCORE }) n hi s).bestbp_rc } ∧
      ∀ rc, hi - n < rc → rc ≤ hi →
        ((iter_down
          (fun i (s : decoder_t) =>
            set_bestbp_rc s i { s.bestbp_rc i with score := WORST_SCORE }) n hi s).bestbp_rc
          rc).score = WORST_SCORE := by
  induction n with
  | zero =>
    intro hi s
    exact ⟨rfl, fun rc h1 h2 => absurd h2 (by push_cast at h1; omega)⟩
  | succ n ih =>
    intro hi s
    simp only [iter_down]
    obtain ⟨g1, g2⟩ := ih (hi - 1)
      (set_bestbp_rc s hi { s.bestbp_rc hi with score := WORST_SCORE })
    refine ⟨?_, fun rc h1 h2 => ?_⟩
    · rw [g1]
      rfl
    · by_cases hrc : rc = hi
      · have key : ∀ (m : Nat) (lo : Int) (t : decoder_t), lo < rc →
            ((iter_down
              (fun i (s : decoder_t) =>
                set_bestbp_rc s i { s.bestbp_rc i with score := WORST_SCORE }) m lo
              t).bestbp_rc rc) = t.bestbp_rc rc := by
          intro m
          induction m with
          | zero =>
            intro lo t _
            rfl
          | succ m ihm =>
            intro lo t hlo
            simp only [iter_down]
            rw [ihm (lo - 1) _ (by omega)]
            show store t.bestbp_rc lo _ rc = _
            rw [store_ne _ _ _ _ (by omega)]
        rw [key n (hi - 1) _ (by omega), hrc]
        show (store s.bestbp_rc hi _ hi).score = WORST_SCORE
        rw [store_same]
      · exact g2 rc (by push_cast at h1; omega) (by omega)

theorem wt_rc_loop (k : Int) (perm : Int → Int) (bp lc : Int) (n : Nat) :
    ∀ (hi : Int) (s : decoder_t),
      (iter_down
        (fun rc (s : decoder_t) =>
          if s.ngs.bscore_stack (k + perm rc) > (s.bestbp_rc rc).score then
            set_bestbp_rc s rc
              { score := s.ngs.bscore_stack (k + perm rc), path := bp, lc := lc }
          else s) n hi s)
        = { s with bestbp_rc := (iter_down
          (fun rc (s : decoder_t) =>
            if s.ngs.bscore_stack (k + perm rc) > (s.bestbp_rc rc).score then
              set_bestbp_rc s rc
                { score := s.ngs.bscore_stack (k + perm rc), path := bp, lc := lc }
            else s) n hi s).bestbp_rc } ∧
      ∀ rc, (iter_down
        (fun rc (s : decoder_t) =>
          if s.ngs.bscore_stack (k + perm rc) > (s.bestbp_rc rc).score then
            set_bestbp_rc s rc
              { score := s.ngs.bscore_stack (k + perm rc), path := bp, lc := lc }
          else s) n hi s).bestbp_rc rc
        = if hi - n < rc ∧ rc ≤ hi then
            (if s.ngs.bscore_stack (k + perm rc) > (s.bestbp_rc rc).score then
              { score := s.ngs.bscore_stack (k + perm rc), path := bp, lc := lc }
            else s.bestbp_rc rc)
          else s.bestbp_rc rc := by
  induction n with
  | zero =>
    intro hi s
    refine ⟨rfl, fun rc => ?_⟩
    rw [if_neg (by push_cast; omega)]
    rfl
  | succ n ih =>
    intro hi s
    simp only [iter_down]
    generalize hs1 : (if s.ngs.bscore_stack (k + perm hi) > (s.bestbp_rc hi).score then
        set_bestbp_rc s hi
          { score := s.ngs.bscore_stack (k + perm hi), path := bp, lc := lc }
      else s) = s1
    have hn1 : s1.ngs = s.ngs := by
      rw [← hs1]
      split
      · rfl
      · rfl
    have hf1 : s1 = { s with bestbp_rc := s1.bestbp_rc } := by
      rw [← hs1]
      split
      · rfl
      · rfl
    have hb1 : ∀ rc, s1.bestbp_rc rc = if rc = hi then
          (if s.ngs.bscore_stack (k + perm rc) > (s.bestbp_rc rc).score then
            { score := s.ngs.bscore_stack (k + perm rc), path := bp, lc := lc }
          else s.bestbp_rc rc)
        else s.bestbp_rc rc := by
      intro rc
      rw [← hs1]
      by_cases hrc : rc = hi
      · rw [if_pos hrc, hrc]
        split
        · show store s.bestbp_rc hi _ hi = _
          rw [store_same]
        · rfl
      · rw [if_neg hrc]
        split
        · show store s.bestbp_rc hi _ rc = _
          rw [store_ne _ _ _ _ hrc]
        · rfl
    obtain ⟨g1, g2⟩ := ih (hi - 1) s1
    refine ⟨?_, fun rc => ?_⟩
    · rw [g1, hf1]
    · rw [g2 rc, hn1]
      by_cases hrc : rc = hi
      · have h3 : ¬ (hi - 1 - (n : Int) < rc ∧ rc ≤ hi - 1) := by omega
        have h4 : hi - ((n + 1 : Nat) : Int) < rc ∧ rc ≤ hi := by
          push_cast
          omega
        rw [if_neg h3, if_pos h4, hb1 rc, if_pos hrc]
      · rw [hb1 rc, if_neg hrc]
        by_cases h2 : hi - 1 - (n : Int) < rc ∧ rc ≤ hi - 1
        · have h4 : hi - ((n + 1 : Nat) : Int) < rc ∧ rc ≤ hi := by
            push_cast
            omega
          rw [if_pos h2, if_pos h4]
        · have h4 : ¬ (hi - ((n + 1 : Nat) : Int) < rc ∧ rc ≤ hi) := by
            push_cast
            omega
          rw [if_neg h2, if_neg h4]

theorem wt_only_refl (d : decoder_t) : wt_only d d := by
  unfold wt_only
  rfl

theorem wt_only_ngs (d s : decoder_t) (h : wt_only d s) :
    s.ngs.bscore_stack = d.ngs.bscore_stack ∧ s.ngs.bp_table = d.ngs.bp_table ∧
    s.ngs.dict = d.ngs.dict ∧ s.ngs.n_ciphone = d.ngs.n_ciphone ∧
    s.finish_wid = d.finish_wid ∧ s.xwd = d.xwd ∧ s.ngs.bpidx = d.ngs.bpidx ∧
    s.ngs.bp_table_idx = d.ngs.bp_table_idx := by
  unfold wt_only at h
  have e1 := congrArg (fun x : decoder_t => x.ngs.bscore_stack) h
  have e2 := congrArg (fun x : decoder_t => x.ngs.bp_table) h
  have e3 := congrArg (fun x : decoder_t => x.ngs.dict) h
  have e4 := congrArg (fun x : decoder_t => x.ngs.n_ciphone) h
  have e5 := congrArg (fun x : decoder_t => x.finish_wid) h
  have e6 := congrArg (fun x : decoder_t => x.xwd) h
  have e7 := congrArg (fun x : decoder_t => x.ngs.bpidx) h
  have e8 := congrArg (fun x : decoder_t => x.ngs.bp_table_idx) h
  exact ⟨e1, e2, e3, e4, e5, e6, e7, e8⟩

theorem wt_only_form (d s : decoder_t) (h : wt_only d s) :
    ∃ W B, s = { d with ngs := { d.ngs with word_lat_idx := W }, bestbp_rc := B } :=
  ⟨s.ngs.word_lat_idx, s.bestbp_rc, h⟩

theorem wt_best_rc_step (d : decoder_t) (b : Int) (sk : decoder_t × Int)
    (h : wt_only d sk.1) :
    wt_only d (wt_best_rc b sk).1 ∧
    ∀ rc, 0 ≤ rc → rc < d.ngs.n_ciphone →
      (wt_best_rc b sk).1.bestbp_rc rc
        = if (d.ngs.bp_table b).wid = d.finish_wid then sk.1.bestbp_rc rc
          else if rc_score d b rc > (sk.1.bestbp_rc rc).score then
            { score := rc_score d b rc, path := b,
              lc := (d.ngs.dict.dict_list (d.ngs.bp_table b).wid).ci_phone_ids
                ((d.ngs.dict.dict_list (d.ngs.bp_table b).wid).len - 1) }
          else sk.1.bestbp_rc rc := by
  obtain ⟨s, k⟩ := sk
  obtain ⟨W, B, hs⟩ := wt_only_form d s h
  subst hs
  unfold wt_best_rc
  dsimp only [set_ngs]
  by_cases hf : (d.ngs.bp_table b).wid = d.finish_wid
  · rw [if_pos hf]
    refine ⟨?_, fun rc _ _ => ?_⟩
    · unfold wt_only
      rfl
    · rw [if_pos hf]
  · rw [if_neg hf]
    dsimp only
    obtain ⟨g1, g2⟩ := wt_rc_loop (d.ngs.bp_table b).s_idx
      (rcpermtab_of ({ d with
        ngs := { d.ngs with word_lat_idx := store W (d.ngs.bp_table b).wid NO_BP },
        bestbp_rc := B } : decoder_t) (d.ngs.bp_table b)) b
      ((d.ngs.dict.dict_list (d.ngs.bp_table b).wid).ci_phone_ids
        ((d.ngs.dict.dict_list (d.ngs.bp_table b).wid).len - 1))
      d.ngs.n_ciphone.toNat (d.ngs.n_ciphone - 1)
      ({ d with
        ngs := { d.ngs with word_lat_idx := store W (d.ngs.bp_table b).wid NO_BP },
        bestbp_rc := B } : decoder_t)
    refine ⟨?_, fun rc hrc0 hrcn => ?_⟩
    · rw [g1]
      unfold wt_only
      rfl
    · rw [g2 rc, if_neg hf]
      have hin : d.ngs.n_ciphone - 1 - (d.ngs.n_ciphone.toNat : Int) < rc ∧
          rc ≤ d.ngs.n_ciphone - 1 := by
        rw [Int.toNat_of_nonneg (by omega)]
        omega
      rw [if_pos hin]
      rfl

theorem rc_best_step (d : decoder_t) (f rc i : Int) (v : bestbp_rc_t)
    (hlo : d.ngs.bp_table_idx f ≤ i) (hhi : i < d.ngs.bpidx) (h : rc_best d f rc i v) :
    rc_best d f rc (i + 1)
      (if (d.ngs.bp_table i).wid = d.finish_wid then v
        else if rc_score d i rc > v.score then
          { score := rc_score d i rc, path := i,
            lc := (d.ngs.dict.dict_list (d.ngs.bp_table i).wid).ci_phone_ids
              ((d.ngs.dict.dict_list (d.ngs.bp_table i).wid).len - 1) }
        else v) := by
  obtain ⟨h1, h2, h3⟩ := h
  by_cases hf : (d.ngs.bp_table i).wid = d.finish_wid
  · rw [if_pos hf]
    refine ⟨h1, fun b hb hbi => ?_, fun hv => ?_⟩
    · by_cases hbe : b = i
      · rw [hbe] at hb
        exact absurd hf hb.2.2
      · exact h2 b hb (by omega)
    · obtain ⟨g1, g2, g3⟩ := h3 hv
      exact ⟨g1, by omega, g3⟩
  · rw [if_neg hf]
    by_cases hs : rc_score d i rc > v.score
    · rw [if_pos hs]
      refine ⟨?_, fun b hb hbi => ?_, fun _ => ⟨⟨hlo, hhi, hf⟩, ?_, rfl, fun b hb hbi => ?_, rfl⟩⟩
      · show WORST_SCORE ≤ rc_score d i rc
        omega
      · show rc_score d b rc ≤ rc_score d i rc
        by_cases hbe : b = i
        · rw [hbe]
        · have := h2 b hb (by omega)
          omega
      · show i < i + 1
        omega
      · show rc_score d b rc < rc_score d i rc
        have hbi1 : b < i := hbi
        have := h2 b hb hbi1
        omega
    · rw [if_neg hs]
      refine ⟨h1, fun b hb hbi => ?_, fun hv => ?_⟩
      · by_cases hbe : b = i
        · rw [hbe]
          omega
        · exact h2 b hb (by omega)
      · obtain ⟨g1, g2, g3⟩ := h3 hv
        exact ⟨g1, by omega, g3⟩

/-- The first loop of `word_transition` leaves in `bestbp_rc[rc]`, for every
CI phone `rc`, the best over the exits of the frame. -/
theorem wt_first_best (d : decoder_t) (f rc : Int) (h0 : 0 ≤ rc) (hn : rc < d.ngs.n_ciphone) :
    wt_only d (wt_first d f).1 ∧
    ∃ i, (d.ngs.bp_table_idx f ≤ d.ngs.bpidx → i = d.ngs.bpidx) ∧
      (d.ngs.bpidx < d.ngs.bp_table_idx f → i = d.ngs.bp_table_idx f) ∧
      rc_best d f rc i ((wt_first d f).1.bestbp_rc rc) := by
  unfold wt_first
  dsimp only
  obtain ⟨r1, r2⟩ := wt_reset_loop d.ngs.n_ciphone.toNat (d.ngs.n_ciphone - 1) d
  generalize (iter_down
    (fun i (s : decoder_t) => set_bestbp_rc s i { s.bestbp_rc i with score := WORST_SCORE })
    d.ngs.n_ciphone.toNat (d.ngs.n_ciphone - 1) d) = d1 at r1 r2 ⊢
  have hw1 : wt_only d d1 := by
    unfold wt_only
    rw [r1]
  obtain ⟨_, _, _, _, _, _, e7, e8⟩ := wt_only_ngs d d1 hw1
  rw [e7, e8]
  have h := iter_up_ind (fun i (sk : decoder_t × Int) => wt_only d sk.1 ∧
      ∀ rc, 0 ≤ rc → rc < d.ngs.n_ciphone → rc_best d f rc i (sk.1.bestbp_rc rc))
    wt_best_rc (d.ngs.bpidx - d.ngs.bp_table_idx f).toNat (d.ngs.bp_table_idx f) (d1, 0) ?_ ?_
  · refine ⟨h.1, _, ?_, ?_, h.2 rc h0 hn⟩
    · intro hle
      rw [Int.toNat_of_nonneg (by omega)]
      omega
    · intro hlt
      rw [Int.toNat_of_nonpos (by omega)]
      simp
  · intro i sk hlo hhi ⟨hw, hb⟩
    have hhi1 : i < d.ngs.bpidx := by
      by_cases hle : d.ngs.bp_table_idx f ≤ d.ngs.bpidx
      · rw [Int.toNat_of_nonneg (by omega)] at hhi
        omega
      · rw [Int.toNat_of_nonpos (by omega)] at hhi
        simp at hhi
        omega
    obtain ⟨g1, g2⟩ := wt_best_rc_step d i sk hw
    refine ⟨g1, fun rc1 hr0 hrn => ?_⟩
    rw [g2 rc1 hr0 hrn]
    exact rc_best_step d f rc1 i _ hlo hhi1 (hb rc1 hr0 hrn)
  · refine ⟨hw1, fun rc1 hr0 hrn => ?_⟩
    have hsc := r2 rc1 (by rw [Int.toNat_of_nonneg (by omega)]; omega) (by omega)
    refine ⟨by rw [hsc], fun b hb hbi => ?_, fun hv => ?_⟩
    · have := hb.1
      omega
    · rw [hsc] at hv
      exact absurd hv (lt_irrefl _)

/-- C31: after the first loop of `word_transition` in frame `f`, for every CI
phone `rc`: the score of `bestbp_rc[rc]` is the maximum of `WORST_SCORE` and
the scores `bscore_stack[b.s_idx + perm_b[rc]]` of the exits `b` of the frame
other than `finish_wid`; when it exceeds `WORST_SCORE`, the path is the exit
of lowest index attaining it and `lc` is the last CI phone of that exit's
word. -/
theorem word_transition_best_rc (d : decoder_t) (f rc : Int) (h0 : 0 ≤ rc)
    (hn : rc < d.ngs.n_ciphone) :
    WORST_SCORE ≤ ((wt_first d f).1.bestbp_rc rc).score ∧
    (∀ b, rc_exit d f b → rc_score d b rc ≤ ((wt_first d f).1.bestbp_rc rc).score) ∧
    (((wt_first d f).1.bestbp_rc rc).score = WORST_SCORE ∨
      ∃ b, rc_exit d f b ∧ rc_score d b rc = ((wt_first d f).1.bestbp_rc rc).score) ∧
    (((wt_first d f).1.bestbp_rc rc).score > WORST_SCORE →
      rc_exit d f ((wt_first d f).1.bestbp_rc rc).path ∧
      rc_score d ((wt_first d f).1.bestbp_rc rc).path rc
        = ((wt_first d f).1.bestbp_rc rc).score ∧
      (∀ b, rc_exit d f b → b < ((wt_first d f).1.bestbp_rc rc).path →
        rc_score d b rc < ((wt_first d f).1.bestbp_rc rc).score) ∧
      ((wt_first d f).1.bestbp_rc rc).lc
        = (d.ngs.dict.dict_list
            (d.ngs.bp_table ((wt_first d f).1.bestbp_rc rc).path).wid).ci_phone_ids
          ((d.ngs.dict.dict_list
            (d.ngs.bp_table ((wt_first d f).1.bestbp_rc rc).path).wid).len - 1)) := by
  obtain ⟨_, i, hi1, hi2, h1, h2, h3⟩ := wt_first_best d f rc h0 hn
  have hall : ∀ b, rc_exit d f b → b < i := by
    intro b hb
    by_cases hle : d.ngs.bp_table_idx f ≤ d.ngs.bpidx
    · rw [hi1 hle]
      exact hb.2.1
    · have := hb.1
      have := hb.2.1
      omega
  refine ⟨h1, fun b hb => h2 b hb (hall b hb), ?_, fun hv => ?_⟩
  · by_cases hv : ((wt_first d f).1.bestbp_rc rc).score > WORST_SCORE
    · obtain ⟨g1, _, g3, _⟩ := h3 hv
      exact Or.inr ⟨_, g1, g3⟩
    · left
      omega
  · obtain ⟨g1, _, g3, g4, g5⟩ := h3 hv
    exact ⟨g1, g3, g4, g5⟩

/-- When no exit other than `finish_wid` is counted, `word_transition`
returns the state of its first loop. -/
theorem word_transition_first (env : env_t) (d : decoder_t) (f : Int)
    (h : (wt_first d f).2 = 0) : word_transition env d f = Except.ok (wt_first d f).1 := by
  unfold wt_first at h
  unfold word_transition wt_first
  dsimp only at h ⊢
  rw [if_pos h]

set_option maxRecDepth 100000 in
/-- Witness for C31: frame 5 of the test decoder with the exits 1 (scores
-10 and `WORST_SCORE` for the right contexts 0 and 1) and 2 (`WORST_SCORE`
and -20): for the right context 1 the first loop leaves the score -20, the
path 2 and the last CI phone 0 of word 1. -/
theorem word_transition_best_rc_witness :
    ((wt_first ex_cap_dec 5).1.bestbp_rc 1).score = -20 ∧
    ((wt_first ex_cap_dec 5).1.bestbp_rc 1).path = 2 ∧
    ((wt_first ex_cap_dec 5).1.bestbp_rc 1).lc = 0 ∧
    [1, 2].map (fun b => rc_score ex_cap_dec b 1) = [WORST_SCORE, -20] ∧
    (0 : Int) ≤ 1 ∧ (1 : Int) < ex_cap_dec.ngs.n_ciphone ∧
    (WORST_SCORE ≤ ((wt_first ex_cap_dec 5).1.bestbp_rc 1).score ∧
    (∀ b, rc_exit ex_cap_dec 5 b →
      rc_score ex_cap_dec b 1 ≤ ((wt_first ex_cap_dec 5).1.bestbp_rc 1).score) ∧
    (((wt_first ex_cap_dec 5).1.bestbp_rc 1).score = WORST_SCORE ∨
      ∃ b, rc_exit ex_cap_dec 5 b ∧
        rc_score ex_cap_dec b 1 = ((wt_first ex_cap_dec 5).1.bestbp_rc 1).score) ∧
    (((wt_first ex_cap_dec 5).1.bestbp_rc 1).score > WORST_SCORE →
      rc_exit ex_cap_dec 5 ((wt_first ex_cap_dec 5).1.bestbp_rc 1).path ∧
      rc_score ex_cap_dec ((wt_first ex_cap_dec 5).1.bestbp_rc 1).path 1
        = ((wt_first ex_cap_dec 5).1.bestbp_rc 1).score ∧
      (∀ b, rc_exit ex_cap_dec 5 b → b < ((wt_first ex_cap_dec 5).1.bestbp_rc 1).path →
        rc_score ex_cap_dec b 1 < ((wt_first ex_cap_dec 5).1.bestbp_rc 1).score) ∧
      ((wt_first ex_cap_dec 5).1.bestbp_rc 1).lc
        = (ex_cap_dec.ngs.dict.dict_list
            (ex_cap_dec.ngs.bp_table
              ((wt_first ex_cap_dec 5).1.bestbp_rc 1).path).wid).ci_phone_ids
          ((ex_cap_dec.ngs.dict.dict_list
            (ex_cap_dec.ngs.bp_table
              ((wt_first ex_cap_dec 5).1.bestbp_rc 1).path).wid).len - 1))) :=
  ⟨by decide!, by decide!, by decide!, by decide, by decide, by decide,
    word_transition_best_rc ex_cap_dec 5 1 (by decide) (by decide)⟩

/-! ### The best scores of a frame -/

theorem best_of_none (P : Int → Prop) (h : ∀ s, ¬ P s) : best_of P WORST_SCORE :=
  ⟨le_refl _, fun s hs => absurd hs (h s), Or.inl rfl⟩

theorem best_of_congr (P Q : Int → Prop) (m : Int) (h : ∀ s, Q s ↔ P s) (hp : best_of P m) :
    best_of Q m :=
  ⟨hp.1, fun s hs => hp.2.1 s ((h s).1 hs), hp.2.2.imp id (fun x => (h m).2 x)⟩

theorem best_of_step (P Q : Int → Prop) (m x : Int) (h : ∀ s, Q s ↔ P s ∨ s = x)
    (hp : best_of P m) : best_of Q (if m < x then x else m) := by
  obtain ⟨h1, h2, h3⟩ := hp
  split
  · rename_i hlt
    refine ⟨by omega, ?_, Or.inr ((h x).2 (Or.inr rfl))⟩
    intro s hs
    rcases (h s).1 hs with hs1 | hs1
    · have := h2 s hs1
      omega
    · omega
  · rename_i hlt
    refine ⟨h1, ?_, h3.imp id (fun y => (h m).2 (Or.inl y))⟩
    intro s hs
    rcases (h s).1 hs with hs1 | hs1
    · exact h2 s hs1
    · omega

theorem best_of_or (P Q : Int → Prop) (a b : Int) (hp : best_of P a) (hq : best_of Q b) :
    best_of (fun s => P s ∨ Q s) (if b > a then b else a) := by
  obtain ⟨h1, h2, h3⟩ := hp
  obtain ⟨g1, g2, g3⟩ := hq
  split
  · rename_i hlt
    refine ⟨g1, ?_, g3.imp id Or.inr⟩
    intro s hs
    rcases hs with hs | hs
    · have := h2 s hs
      omega
    · exact g2 s hs
  · rename_i hlt
    refine ⟨h1, ?_, h3.imp id Or.inl⟩
    intro s hs
    rcases hs with hs | hs
    · exact h2 s hs
    · have := g2 s hs
      omega

theorem eval_frame_refl (d : decoder_t) : eval_frame d d := by
  unfold eval_frame
  rfl

theorem eval_frame_trans (d s t : decoder_t) (h1 : eval_frame d s) (h2 : eval_frame s t) :
    eval_frame d t := by
  unfold eval_frame at h1 h2 ⊢
  rw [h2, h1]

theorem eval_frame_fields (d s : decoder_t) (h : eval_frame d s) :
    s.n_root_chan = d.n_root_chan ∧ s.active_chan_list = d.active_chan_list ∧
    s.n_active_chan = d.n_active_chan ∧ s.active_word_list = d.active_word_list ∧
    s.n_active_word = d.n_active_word ∧ s.word_chan = d.word_chan ∧
    s.single_phone_wid = d.single_phone_wid ∧ s.n_1ph_words = d.n_1ph_words ∧
    s.finish_wid = d.finish_wid := by
  unfold eval_frame at h
  have e1 := congrArg (fun x : decoder_t => x.n_root_chan) h
  have e2 := congrArg (fun x : decoder_t => x.active_chan_list) h
  have e3 := congrArg (fun x : decoder_t => x.n_active_chan) h
  have e4 := congrArg (fun x : decoder_t => x.active_word_list) h
  have e5 := congrArg (fun x : decoder_t => x.n_active_word) h
  have e6 := congrArg (fun x : decoder_t => x.word_chan) h
  have e7 := congrArg (fun x : decoder_t => x.single_phone_wid) h
  have e8 := congrArg (fun x : decoder_t => x.n_1ph_words) h
  have e9 := congrArg (fun x : decoder_t => x.finish_wid) h
  exact ⟨e1, e2, e3, e4, e5, e6, e7, e8, e9⟩

/-- The Viterbi step of the roots: the score returned is the best over the
active roots; nothing but roots and a counter changes. -/
theorem eval_root_chan_spec (env : env_t) (d : decoder_t) (f : Int) :
    eval_frame d (eval_root_chan env d f).1 ∧ (eval_root_chan env d f).1.chan = d.chan ∧
    (eval_root_chan env d f).1.all_rhmm = d.all_rhmm ∧
    (eval_root_chan env d f).1.word_active = d.word_active ∧
    best_of (root_scores env d f d.n_root_chan) (eval_root_chan env d f).2 := by
  have key := iter_up_ind
    (fun k (sb : decoder_t × Int) => eval_frame d sb.1 ∧ sb.1.chan = d.chan ∧
      sb.1.all_rhmm = d.all_rhmm ∧ sb.1.word_active = d.word_active ∧
      (∀ j, k ≤ j → sb.1.root_chan j = d.root_chan j) ∧
      best_of (root_scores env d f k) sb.2)
    (fun i (sb : decoder_t × Int) =>
      if (sb.1.root_chan i).hmm.frame = f then
        let h := env.vit_eval f (sb.1.root_chan i).hmm
        let score := h.bestscore
        let s1 := set_root_hmm sb.1 i h
        ({ s1 with n_root_chan_eval := s1.n_root_chan_eval + 1 },
          if sb.2 < score then score else sb.2)
      else sb)
    d.n_root_chan.toNat 0 (d, WORST_SCORE) ?_ ?_
  · obtain ⟨k1, k2, k3, k4, _, k6⟩ := key
    refine ⟨k1, k2, k3, k4, ?_⟩
    refine best_of_congr _ _ _ ?_ k6
    intro s
    unfold root_scores
    constructor
    · rintro ⟨i, a1, a2, a3⟩
      exact ⟨i, a1, by omega, a3⟩
    · rintro ⟨i, a1, a2, a3⟩
      exact ⟨i, a1, by omega, a3⟩
  · intro i sb hi1 hi2 ⟨p1, p2, p3, p4, p5, p6⟩
    have e := p5 i (le_refl _)
    dsimp only
    split
    · rename_i hfr
      refine ⟨?_, p2, p3, p4, ?_, ?_⟩
      · unfold eval_frame at p1 ⊢
        unfold set_root_hmm
        dsimp only
        rw [p1]
      · intro j hj
        unfold set_root_hmm
        dsimp only
        rw [store_ne _ _ _ _ (by omega)]
        exact p5 j (by omega)
      · rw [e]
        refine best_of_step _ _ _ _ ?_ p6
        intro s
        unfold root_scores
        rw [e] at hfr
        constructor
        · rintro ⟨j, a1, a2, a3, a4⟩
          by_cases hj : j = i
          · subst hj
            exact Or.inr a4
          · exact Or.inl ⟨j, a1, by omega, a3, a4⟩
        · rintro (⟨j, a1, a2, a3, a4⟩ | hs)
          · exact ⟨j, a1, by omega, a3, a4⟩
          · exact ⟨i, hi1, by omega, hfr, hs⟩
    · rename_i hfr
      refine ⟨p1, p2, p3, p4, fun j hj => p5 j (by omega), ?_⟩
      refine best_of_congr _ _ _ ?_ p6
      intro s
      unfold root_scores
      rw [e] at hfr
      constructor
      · rintro ⟨j, a1, a2, a3, a4⟩
        by_cases hj : j = i
        · subst hj
          exact absurd a3 hfr
        · exact ⟨j, a1, by omega, a3, a4⟩
      · rintro ⟨j, a1, a2, a3, a4⟩
        exact ⟨j, a1, by omega, a3, a4⟩
  · refine ⟨eval_frame_refl d, rfl, rfl, rfl, fun _ _ => rfl, ?_⟩
    apply best_of_none
    rintro s ⟨i, a1, a2, _⟩
    omega

/-- The Viterbi step of the non-root active list, no node being listed twice:
the score returned is the best over the list; nothing but the HMMs of the
listed nodes and a counter changes. -/
theorem eval_nonroot_chan_spec (env : env_t) (d : decoder_t) (f : Int) (r : decoder_t × Int)
    (hinj : ∀ i j, 0 ≤ i → i < d.n_active_chan (parity f) → 0 ≤ j →
      j < d.n_active_chan (parity f) →
      d.active_chan_list (parity f) i = d.active_chan_list (parity f) j → i = j)
    (hr : eval_nonroot_chan env d f = Except.ok r) :
    eval_frame d r.1 ∧ r.1.root_chan = d.root_chan ∧ r.1.all_rhmm = d.all_rhmm ∧
    r.1.word_active = d.word_active ∧
    (∀ a, (∀ k, 0 ≤ k → k < d.n_active_chan (parity f) →
      d.active_chan_list (parity f) k ≠ a) → r.1.chan a = d.chan a) ∧
    (∀ a, (r.1.chan a).next = (d.chan a).next) ∧
    best_of (node_scores env d f (d.n_active_chan (parity f))) r.2 := by
  unfold eval_nonroot_chan at hr
  have key := for_up_ind
    (fun k (sb : decoder_t × Int) => eval_frame d sb.1 ∧ sb.1.root_chan = d.root_chan ∧
      sb.1.all_rhmm = d.all_rhmm ∧ sb.1.word_active = d.word_active ∧
      (∀ a, (∀ j, 0 ≤ j → j < k → d.active_chan_list (parity f) j ≠ a) →
        sb.1.chan a = d.chan a) ∧
      (∀ a, (sb.1.chan a).next = (d.chan a).next) ∧
      best_of (node_scores env d f k) sb.2) _ _ _ _ _ ?_ ?_ hr
  · obtain ⟨k1, k2, k3, k4, k5, k6, k7⟩ := key
    refine ⟨k1, k2, k3, k4, ?_, k6, ?_⟩
    · intro a ha
      exact k5 a (fun j hj1 hj2 => ha j hj1 (by omega))
    · refine best_of_congr _ _ _ ?_ k7
      intro s
      unfold node_scores
      constructor
      · rintro ⟨i, a1, a2, a3⟩
        exact ⟨i, a1, by omega, a3⟩
      · rintro ⟨i, a1, a2, a3⟩
        exact ⟨i, a1, by omega, a3⟩
  · intro k sb sb1 hk1 hk2 ⟨p1, p2, p3, p4, p5, p6, p7⟩ hb
    obtain ⟨_, e2, _⟩ := eval_frame_fields d sb.1 p1
    have hk3 : k < d.n_active_chan (parity f) := by omega
    have ea : sb.1.chan (d.active_chan_list (parity f) k) =
        d.chan (d.active_chan_list (parity f) k) := by
      apply p5
      intro j hj1 hj2 hj3
      have := hinj j k hj1 (by omega) hk1 hk3 hj3
      omega
    dsimp only at hb
    rw [e2, ea] at hb
    split at hb
    · simp only [Except.ok.injEq] at hb
      subst hb
      refine ⟨?_, p2, p3, p4, ?_, ?_, ?_⟩
      · unfold eval_frame at p1 ⊢
        unfold set_chan_hmm
        dsimp only
        rw [p1]
      · intro a ha
        unfold set_chan_hmm
        dsimp only
        rw [store_ne _ _ _ _ (fun h => ha k hk1 (by omega) h.symm)]
        exact p5 a (fun j hj1 hj2 => ha j hj1 (by omega))
      · intro a
        unfold set_chan_hmm
        dsimp only
        by_cases h : a = d.active_chan_list (parity f) k
        · subst h
          rw [store_same]
          dsimp only
          rw [ea]
        · rw [store_ne _ _ _ _ h]
          exact p6 a
      · refine best_of_step _ _ _ _ ?_ p7
        intro s
        unfold node_scores
        constructor
        · rintro ⟨j, a1, a2, a4⟩
          by_cases hj : j = k
          · subst hj
            exact Or.inr a4
          · exact Or.inl ⟨j, a1, by omega, a4⟩
        · rintro (⟨j, a1, a2, a4⟩ | hs)
          · exact ⟨j, a1, by omega, a4⟩
          · exact ⟨k, hk1, by omega, hs⟩
    · simp at hb
  · refine ⟨?_, rfl, rfl, rfl, fun _ _ => rfl, fun _ => rfl, ?_⟩
    · unfold eval_frame
      rfl
    · apply best_of_none
      rintro s ⟨i, a1, a2, _⟩
      omega

/-- The Viterbi step along one leaf chain `l`: the running best takes in the
scores of the leaves of the chain; nothing but their HMMs changes. -/
theorem eval_leaves_spec (env : env_t) (f : Int) :
    ∀ (l : List Int) (fuel : Nat) (p : Int) (t t1 : decoder_t × Int × Int),
      leaf_list t.1.chan p l →
      for_list is_null (fun (t : decoder_t × Int × Int) a => (t.1.chan a).next)
        (fun a (t : decoder_t × Int × Int) =>
          if (t.1.chan a).hmm.frame = f then
            let h := env.vit_eval f (t.1.chan a).hmm
            let score := h.bestscore
            Except.ok (set_chan_hmm t.1 a h,
              (if t.2.1 < score then score else t.2.1), t.2.2 + 1)
          else Except.error Fault.assert)
        fuel p t = Except.ok t1 →
      eval_frame t.1 t1.1 ∧ t1.1.root_chan = t.1.root_chan ∧ t1.1.all_rhmm = t.1.all_rhmm ∧
      t1.1.word_active = t.1.word_active ∧
      (∀ a, a ∉ l → t1.1.chan a = t.1.chan a) ∧
      (∀ a, (t1.1.chan a).next = (t.1.chan a).next) ∧
      (∀ P : Int → Prop, best_of P t.2.1 →
        best_of (fun s => P s ∨ ∃ a ∈ l, s = vit_score env f (t.1.chan a).hmm) t1.2.1) := by
  intro l
  induction l with
  | nil =>
    intro fuel p t t1 hl hr
    rw [leaf_list_nil] at hl
    subst hl
    cases fuel with
    | zero => simp [for_list] at hr
    | succ fuel =>
      simp only [for_list, is_null, decide_True, if_true, Except.ok.injEq] at hr
      subst hr
      refine ⟨eval_frame_refl _, rfl, rfl, rfl, fun _ _ => rfl, fun _ => rfl, ?_⟩
      intro P hP
      refine best_of_congr _ _ _ ?_ hP
      intro s
      simp
  | cons b l ih =>
    intro fuel p t t1 hl hr
    rw [leaf_list_cons] at hl
    obtain ⟨hp0, hpb, hl1⟩ := hl
    subst hpb
    have hnd : (p :: l).Nodup :=
      leaf_list_nodup t.1.chan p (p :: l) ((leaf_list_cons _ _ _ _).2 ⟨hp0, rfl, hl1⟩)
    have hpl : p ∉ l := (List.nodup_cons.1 hnd).1
    cases fuel with
    | zero => simp [for_list] at hr
    | succ fuel =>
      have hn : is_null p = false := by simp [is_null, hp0]
      rw [for_list] at hr
      simp only [hn, Bool.false_eq_true, if_false] at hr
      split at hr
      · simp at hr
      · rename_i s1 hb
        split at hb
        · simp only [Except.ok.injEq] at hb
          subst hb
          have enx : ((set_chan_hmm t.1 p (env.vit_eval f (t.1.chan p).hmm)).chan p).next =
              (t.1.chan p).next := by
            unfold set_chan_hmm
            dsimp only
            rw [store_same]
          have hl2 : leaf_list (set_chan_hmm t.1 p (env.vit_eval f (t.1.chan p).hmm)).chan
              (((set_chan_hmm t.1 p (env.vit_eval f (t.1.chan p).hmm)).chan p).next) l := by
            rw [enx]
            refine leaf_list_congr _ _ _ _ ?_ hl1
            intro c hc
            unfold set_chan_hmm
            dsimp only
            rw [store_ne _ _ _ _ (fun (h : c = p) => hpl (by rw [← h]; exact hc))]
          obtain ⟨q1, q2, q3, q4, q5, q6, q7⟩ := ih fuel _ _ t1 hl2 hr
          refine ⟨?_, ?_, ?_, ?_, ?_, ?_, ?_⟩
          · refine eval_frame_trans _ _ _ ?_ q1
            unfold eval_frame
            rfl
          · rw [q2]
            rfl
          · rw [q3]
            rfl
          · rw [q4]
            rfl
          · intro a ha
            rw [q5 a (fun h => ha (List.mem_cons_of_mem _ h))]
            unfold set_chan_hmm
            dsimp only
            rw [store_ne _ _ _ _ (fun (h : a = p) => ha (by rw [h]; exact List.mem_cons_self _ _))]
          · intro a
            rw [q6 a]
            unfold set_chan_hmm
            dsimp only
            by_cases h : a = p
            · subst h
              rw [store_same]
            · rw [store_ne _ _ _ _ h]
          · intro P hP
            have h1 := best_of_step P (fun s => P s ∨ s = vit_score env f (t.1.chan p).hmm)
              t.2.1 (vit_score env f (t.1.chan p).hmm) (fun _ => Iff.rfl) hP
            have h2 := q7 _ h1
            refine best_of_congr _ _ _ ?_ h2
            intro s
            have e : ∀ a ∈ l,
                ((set_chan_hmm t.1 p (env.vit_eval f (t.1.chan p).hmm)).chan a).hmm =
                  (t.1.chan a).hmm := by
              intro a ha
              unfold set_chan_hmm
              dsimp only
              rw [store_ne _ _ _ _ (fun (h : a = p) => hpl (by rw [← h]; exact ha))]
            constructor
            · rintro (hs | ⟨a, ha, hs⟩)
              · exact Or.inl (Or.inl hs)
              · rcases List.mem_cons.1 ha with h | h
                · subst h
                  exact Or.inl (Or.inr hs)
                · exact Or.inr ⟨a, h, by rw [e a h]; exact hs⟩
            · rintro ((hs | hs) | ⟨a, ha, hs⟩)
              · exact Or.inl hs
              · exact Or.inr ⟨p, List.mem_cons_self _ _, hs⟩
              · exact Or.inr ⟨a, List.mem_cons_of_mem _ ha, by rw [← e a ha]; exact hs⟩
        · simp at hb

/-- The Viterbi step of the single-phone words, none being listed twice: the
running best takes in the scores of the single-phone words evaluated, the
finish word left out; nothing but their HMMs changes. -/
theorem eval_single_spec (env : env_t) (d : decoder_t) (f : Int) (P : Int → Prop) (b0 : Int)
    (hinj : ∀ i j, 0 ≤ i → i < d.n_1ph_words → 0 ≤ j → j < d.n_1ph_words →
      d.single_phone_wid i = d.single_phone_wid j → i = j)
    (hP : best_of P b0) (r : decoder_t × Int × Int)
    (hr : r = iter_up
      (fun i (sbj : decoder_t × Int × Int) =>
        let w := sbj.1.single_phone_wid i
        if (sbj.1.all_rhmm w).hmm.frame < f then sbj
        else
          let h := env.vit_eval f (sbj.1.all_rhmm w).hmm
          let score := h.bestscore
          (set_rhmm_hmm sbj.1 w h,
            (if sbj.2.1 < score ∧ w ≠ sbj.1.finish_wid then score else sbj.2.1),
            sbj.2.2 + 1))
      d.n_1ph_words.toNat 0 (d, b0, 0)) :
    eval_frame d r.1 ∧ r.1.root_chan = d.root_chan ∧
    best_of (fun s => P s ∨ single_scores env d f false d.n_1ph_words s) r.2.1 := by
  subst hr
  have key := iter_up_ind
    (fun k (sb : decoder_t × Int × Int) => eval_frame d sb.1 ∧ sb.1.root_chan = d.root_chan ∧
      (∀ w, (∀ j, 0 ≤ j → j < k → d.single_phone_wid j ≠ w) →
        sb.1.all_rhmm w = d.all_rhmm w) ∧
      best_of (fun s => P s ∨ single_scores env d f false k s) sb.2.1)
    (fun i (sbj : decoder_t × Int × Int) =>
      let w := sbj.1.single_phone_wid i
      if (sbj.1.all_rhmm w).hmm.frame < f then sbj
      else
        let h := env.vit_eval f (sbj.1.all_rhmm w).hmm
        let score := h.bestscore
        (set_rhmm_hmm sbj.1 w h,
          (if sbj.2.1 < score ∧ w ≠ sbj.1.finish_wid then score else sbj.2.1),
          sbj.2.2 + 1))
    d.n_1ph_words.toNat 0 (d, b0, 0) ?_ ?_
  · obtain ⟨k1, k2, _, k4⟩ := key
    refine ⟨k1, k2, ?_⟩
    refine best_of_congr _ _ _ ?_ k4
    intro s
    unfold single_scores
    constructor
    · rintro (hs | ⟨i, a1, a2, a3⟩)
      · exact Or.inl hs
      · exact Or.inr ⟨i, a1, by omega, a3⟩
    · rintro (hs | ⟨i, a1, a2, a3⟩)
      · exact Or.inl hs
      · exact Or.inr ⟨i, a1, by omega, a3⟩
  · intro i sb hi1 hi2 ⟨p1, p2, p3, p4⟩
    obtain ⟨_, _, _, _, _, _, e7, _, e9⟩ := eval_frame_fields d sb.1 p1
    have hi3 : i < d.n_1ph_words := by omega
    have ea : sb.1.all_rhmm (d.single_phone_wid i) = d.all_rhmm (d.single_phone_wid i) := by
      apply p3
      intro j hj1 hj2 hj3
      have := hinj j i hj1 (by omega) hi1 hi3 hj3
      omega
    dsimp only
    rw [e7, e9, ea]
    split
    · rename_i hfr
      refine ⟨p1, p2, fun w hw => p3 w (fun j hj1 hj2 => hw j hj1 (by omega)), ?_⟩
      refine best_of_congr _ _ _ ?_ p4
      intro s
      unfold single_scores
      constructor
      · rintro (hs | ⟨j, a1, a2, a3, a4⟩)
        · exact Or.inl hs
        · by_cases hj : j = i
          · subst hj
            exact absurd hfr a3
          · exact Or.inr ⟨j, a1, by omega, a3, a4⟩
      · rintro (hs | ⟨j, a1, a2, a3⟩)
        · exact Or.inl hs
        · exact Or.inr ⟨j, a1, by omega, a3⟩
    · rename_i hfr
      refine ⟨?_, p2, ?_, ?_⟩
      · unfold eval_frame at p1 ⊢
        unfold set_rhmm_hmm
        dsimp only
        rw [p1]
      · intro w hw
        unfold set_rhmm_hmm
        dsimp only
        rw [store_ne _ _ _ _ (fun h => hw i hi1 (by omega) h.symm)]
        exact p3 w (fun j hj1 hj2 => hw j hj1 (by omega))
      · by_cases hfin : d.single_phone_wid i = d.finish_wid
        · have hn : ¬ (sb.2.1 < (env.vit_eval f (d.all_rhmm (d.single_phone_wid i)).hmm).bestscore ∧
              d.single_phone_wid i ≠ d.finish_wid) := fun h => h.2 hfin
          dsimp only
          rw [if_neg hn]
          refine best_of_congr _ _ _ ?_ p4
          intro s
          unfold single_scores
          constructor
          · rintro (hs | ⟨j, a1, a2, a3, a4, a5⟩)
            · exact Or.inl hs
            · by_cases hj : j = i
              · subst hj
                rcases a4 with a4 | a4
                · simp at a4
                · exact absurd hfin a4
              · exact Or.inr ⟨j, a1, by omega, a3, a4, a5⟩
          · rintro (hs | ⟨j, a1, a2, a3⟩)
            · exact Or.inl hs
            · exact Or.inr ⟨j, a1, by omega, a3⟩
        · have e : (if sb.2.1 < (env.vit_eval f (d.all_rhmm (d.single_phone_wid i)).hmm).bestscore ∧
              d.single_phone_wid i ≠ d.finish_wid then
              (env.vit_eval f (d.all_rhmm (d.single_phone_wid i)).hmm).bestscore else sb.2.1) =
              (if sb.2.1 < vit_score env f (d.all_rhmm (d.single_phone_wid i)).hmm then
                vit_score env f (d.all_rhmm (d.single_phone_wid i)).hmm else sb.2.1) := by
            unfold vit_score
            by_cases ha : sb.2.1 < (env.vit_eval f (d.all_rhmm (d.single_phone_wid i)).hmm).bestscore
            · rw [if_pos ⟨ha, hfin⟩, if_pos ha]
            · rw [if_neg (fun h => ha h.1), if_neg ha]
          dsimp only
          rw [e]
          refine best_of_step _ _ _ _ ?_ p4
          intro s
          unfold single_scores
          constructor
          · rintro (hs | ⟨j, a1, a2, a3, a4, a5⟩)
            · exact Or.inl (Or.inl hs)
            · by_cases hj : j = i
              · subst hj
                exact Or.inr a5
              · exact Or.inl (Or.inr ⟨j, a1, by omega, a3, a4, a5⟩)
          · rintro ((hs | ⟨j, a1, a2, a3⟩) | hs)
            · exact Or.inl hs
            · exact Or.inr ⟨j, a1, by omega, a3⟩
            · exact Or.inr ⟨i, hi1, by omega, hfr, Or.inr hfin, hs⟩
  · refine ⟨eval_frame_refl d, rfl, fun _ _ => rfl, ?_⟩
    refine best_of_congr _ _ _ ?_ hP
    intro s
    unfold single_scores
    constructor
    · rintro (hs | ⟨i, a1, a2, _⟩)
      · exact hs
      · omega
    · exact Or.inl

theorem eval_frame_word_active (s : decoder_t) (v : Int → Int) :
    eval_frame s { s with word_active := v } := by
  unfold eval_frame
  rfl

/-- The Viterbi step of the leaves and the single-phone words, on well-formed
leaf chains and a single-phone list without repetition: the score returned is
the best over the leaves of the active words and the single-phone words
evaluated, the finish word left out. -/
theorem eval_word_chan_spec (env : env_t) (fuel : Nat) (d : decoder_t) (f : Int)
    (L : Int → List Int) (r : decoder_t × Int) (hw : word_chains d f L)
    (hinj : ∀ i j, 0 ≤ i → i < d.n_1ph_words → 0 ≤ j → j < d.n_1ph_words →
      d.single_phone_wid i = d.single_phone_wid j → i = j)
    (hr : eval_word_chan env fuel d f = Except.ok r) :
    eval_frame d r.1 ∧ r.1.root_chan = d.root_chan ∧
    best_of (last_scores env d f L false) r.2 := by
  unfold eval_word_chan at hr
  split at hr
  · simp at hr
  · rename_i d1 best1 k h1
    simp only [Except.ok.injEq] at hr
    subst hr
    have key := for_up_ind
      (fun j (sb : decoder_t × Int × Int) => eval_frame d sb.1 ∧
        sb.1.root_chan = d.root_chan ∧ sb.1.all_rhmm = d.all_rhmm ∧
        (∀ a, (∀ i, 0 ≤ i → i < j → a ∉ L i) → sb.1.chan a = d.chan a) ∧
        (∀ a, (sb.1.chan a).next = (d.chan a).next) ∧
        best_of (leaf_scores env d f L j) sb.2.1) _ _ _ _ _ ?_ ?_ h1
    · obtain ⟨k1, k2, k3, _, _, k6⟩ := key
      obtain ⟨_, _, _, _, e5, _, e7, e8, e9⟩ := eval_frame_fields d d1 k1
      have hinj1 : ∀ i j, 0 ≤ i → i < d1.n_1ph_words → 0 ≤ j → j < d1.n_1ph_words →
          d1.single_phone_wid i = d1.single_phone_wid j → i = j := by
        rw [e7, e8]
        exact hinj
      have k7 : best_of (leaf_scores env d f L (d.n_active_word (parity f))) best1 := by
        refine best_of_congr _ _ _ ?_ k6
        intro s
        unfold leaf_scores
        constructor
        · rintro ⟨j, a, a1, a2, a3⟩
          exact ⟨j, a, a1, by omega, a3⟩
        · rintro ⟨j, a, a1, a2, a3⟩
          exact ⟨j, a, a1, by omega, a3⟩
      obtain ⟨q1, q2, q3⟩ := eval_single_spec env d1 f _ best1 hinj1 k7 _ rfl
      refine ⟨?_, ?_, ?_⟩
      · refine eval_frame_trans _ _ _ (eval_frame_trans _ _ _ k1 q1) ?_
        unfold eval_frame
        rfl
      · show _ = d.root_chan
        rw [← k2, ← q2]
      · refine best_of_congr _ _ _ ?_ q3
        intro s
        unfold last_scores single_scores
        rw [e7, e8, e9, k3]
    · intro j sb sb1 hj1 hj2 ⟨p1, p2, p3, p4, p5, p6⟩ hb
      obtain ⟨_, _, _, e4, _, e6, _⟩ := eval_frame_fields d sb.1 p1
      have hj3 : j < d.n_active_word (parity f) := by omega
      dsimp only at hb
      split at hb
      · simp at hb
      · split at hb
        · simp at hb
        · have hl : leaf_list sb.1.chan (d.word_chan (d.active_word_list (parity f) j)) (L j) :=
            leaf_list_congr _ _ _ _ (fun b _ => p5 b) (hw.chain j hj1 hj3)
          rw [← e4, ← e6] at hl
          have q := eval_leaves_spec env f (L j) fuel _ _ sb1 ?_ hb
          swap
          · exact hl
          obtain ⟨q1, q2, q3, _, q5, q6, q7⟩ := q
          have es : ∀ a ∈ L j, sb.1.chan a = d.chan a := by
            intro a ha
            apply p4
            intro i hi1 hi2 hi3
            have := hw.disj i j a hi1 (by omega) hj1 hj3 hi3 ha
            omega
          refine ⟨?_, ?_, ?_, ?_, ?_, ?_⟩
          · have hs1 := eval_frame_word_active sb.1
              (store sb.1.word_active (sb.1.active_word_list (parity f) j) 0)
            exact eval_frame_trans _ _ _ (eval_frame_trans _ _ _ p1 hs1) q1
          · rw [q2]
            exact p2
          · rw [q3]
            exact p3
          · intro a ha
            rw [q5 a (ha j hj1 (by omega))]
            exact p4 a (fun i hi1 hi2 => ha i hi1 (by omega))
          · intro a
            rw [q6 a]
            exact p5 a
          · refine best_of_congr _ _ _ ?_ (q7 _ p6)
            intro s
            unfold leaf_scores
            constructor
            · rintro ⟨i, a, a1, a2, a3, a4⟩
              by_cases hi : i = j
              · subst hi
                refine Or.inr ⟨a, a3, ?_⟩
                show s = vit_score env f (sb.1.chan a).hmm
                rw [es a a3]
                exact a4
              · exact Or.inl ⟨i, a, a1, by omega, a3, a4⟩
            · rintro (⟨i, a, a1, a2, a3, a4⟩ | ⟨a, a3, a4⟩)
              · exact ⟨i, a, a1, by omega, a3, a4⟩
              · refine ⟨j, a, hj1, by omega, a3, ?_⟩
                have a5 : s = vit_score env f (sb.1.chan a).hmm := a4
                rw [es a a3] at a5
                exact a5
    · refine ⟨eval_frame_refl d, rfl, rfl, fun _ _ => rfl, fun _ => rfl, ?_⟩
      apply best_of_none
      rintro s ⟨i, a, a1, a2, _⟩
      omega

theorem eval_nonroot_chan_best (env : env_t) (d : decoder_t) (f : Int) (r : decoder_t × Int)
    (hr : eval_nonroot_chan env d f = Except.ok r) : r.1.best_score = d.best_score := by
  unfold eval_nonroot_chan at hr
  refine for_up_inv (fun sb : decoder_t × Int => sb.1.best_score = d.best_score)
    _ _ _ _ _ ?_ ?_ hr
  · intro k s s1 _ _ hs hb
    dsimp only at hb
    split at hb
    · simp only [Except.ok.injEq] at hb
      subst hb
      exact hs
    · simp at hb
  · rfl

theorem eval_word_chan_best (env : env_t) (fuel : Nat) (d : decoder_t) (f : Int)
    (r : decoder_t × Int) (hr : eval_word_chan env fuel d f = Except.ok r) :
    r.1.best_score = d.best_score := by
  unfold eval_word_chan at hr
  split at hr
  · simp at hr
  · rename_i d1 best1 k h1
    simp only [Except.ok.injEq] at hr
    subst hr
    refine (?_ : (iter_up _ _ _ (d1, best1, (0 : Int))).1.best_score = d.best_score)
    apply iter_up_inv (fun sb : decoder_t × Int × Int => sb.1.best_score = d.best_score)
    · intro i s _ _ hs
      dsimp only
      split
      · exact hs
      · exact hs
    · have h2 := for_up_inv (fun sb : decoder_t × Int × Int => sb.1.best_score = d.best_score)
        _ _ _ _ _ ?_ rfl h1
      · exact h2
      · intro i s s1 _ _ hs hb
        dsimp only at hb
        split at hb
        · simp at hb
        · split at hb
          · simp at hb
          · refine for_list_inv (fun sb : decoder_t × Int × Int =>
              sb.1.best_score = d.best_score) _ _ _ ?_ _ _ _ _ ?_ hb
            · intro a t t1 _ ht hb1
              split at hb1
              · simp only [Except.ok.injEq] at hb1
                subst hb1
                exact ht
              · simp at hb1
            · exact hs

theorem eval_frame_best_score (s : decoder_t) (x : Int) :
    eval_frame s { s with best_score := x } := by
  unfold eval_frame
  rfl

theorem last_scores_congr (env : env_t) (d s : decoder_t) (f : Int) (L : Int → List Int)
    (fin : Bool) (hf : eval_frame d s) (hr : s.all_rhmm = d.all_rhmm)
    (hc : ∀ j a, 0 ≤ j → j < d.n_active_word (parity f) → a ∈ L j → s.chan a = d.chan a)
    (x : Int) : last_scores env s f L fin x ↔ last_scores env d f L fin x := by
  obtain ⟨_, _, _, _, e5, _, e7, e8, e9⟩ := eval_frame_fields d s hf
  unfold last_scores leaf_scores single_scores
  rw [e5, e7, e8, e9, hr]
  constructor
  · rintro (⟨j, a, a1, a2, a3, a4⟩ | h)
    · exact Or.inl ⟨j, a, a1, a2, a3, by rw [← hc j a a1 a2 a3]; exact a4⟩
    · exact Or.inr h
  · rintro (⟨j, a, a1, a2, a3, a4⟩ | h)
    · exact Or.inl ⟨j, a, a1, a2, a3, by rw [hc j a a1 a2 a3]; exact a4⟩
    · exact Or.inr h

theorem word_chains_congr (d s : decoder_t) (f : Int) (L : Int → List Int)
    (hf : eval_frame d s) (hn : ∀ a, (s.chan a).next = (d.chan a).next)
    (hw : word_chains d f L) : word_chains s f L := by
  obtain ⟨_, _, _, e4, e5, e6, _⟩ := eval_frame_fields d s hf
  refine ⟨?_, ?_, ?_⟩
  · rw [e4, e5, e6]
    intro j hj1 hj2
    exact leaf_list_congr _ _ _ _ (fun b _ => hn b) (hw.chain j hj1 hj2)
  · rw [e5]
    exact hw.disj
  · rw [e4, e5]
    exact hw.inj

theorem eval_frame_ite_best (c : Prop) [Decidable c] (s : decoder_t) (x : Int) :
    eval_frame s (if c then { s with best_score := x } else s) ∧
    (if c then { s with best_score := x } else s).chan = s.chan ∧
    (if c then { s with best_score := x } else s).all_rhmm = s.all_rhmm ∧
    (if c then { s with best_score := x } else s).best_score =
      (if c then x else s.best_score) := by
  split
  · exact ⟨eval_frame_best_score s x, rfl, rfl, rfl⟩
  · exact ⟨eval_frame_refl s, rfl, rfl, rfl⟩

/-- The last part of the Viterbi step of a frame, run in a state `d3` that
differs from the state `d` at the start of the frame in evaluated roots and
listed nodes. -/
theorem evaluate_channels_tail (env : env_t) (fuel : Nat) (d d3 d4 : decoder_t) (f : Int)
    (L : Int → List Int) (b bs4 : Int) (hw : word_chains d f L)
    (h1 : ∀ i j, 0 ≤ i → i < d.n_1ph_words → 0 ≤ j → j < d.n_1ph_words →
      d.single_phone_wid i = d.single_phone_wid j → i = j)
    (g4 : eval_frame d d3) (g5 : ∀ a, (d3.chan a).next = (d.chan a).next)
    (g6 : ∀ j a, 0 ≤ j → j < d.n_active_word (parity f) → a ∈ L j → d3.chan a = d.chan a)
    (g7 : d3.all_rhmm = d.all_rhmm)
    (hb : best_of (fun s => root_scores env d f d.n_root_chan s ∨
      node_scores env d f (d.n_active_chan (parity f)) s) b)
    (g3 : d3.best_score = b)
    (h4 : eval_word_chan env fuel d3 f = Except.ok (d4, bs4)) :
    best_of (all_scores env d f L false) (if bs4 > d4.best_score then bs4 else d4.best_score) ∧
    best_of (last_scores env d f L false) bs4 := by
  obtain ⟨_, _, _, _, _, _, e7, e8, _⟩ := eval_frame_fields d d3 g4
  have h11 := h1
  rw [← e7, ← e8] at h11
  obtain ⟨m1, _, m3⟩ := eval_word_chan_spec env fuel d3 f L _
    (word_chains_congr d d3 f L g4 g5 hw) h11 h4
  have m4 : d4.best_score = d3.best_score := eval_word_chan_best env fuel d3 f _ h4
  have m5 : best_of (last_scores env d f L false) bs4 :=
    best_of_congr _ _ _ (fun s => (last_scores_congr env d d3 f L false g4 g7 g6 s).symm) m3
  refine ⟨?_, m5⟩
  have m6 := best_of_or _ _ _ _ hb m5
  rw [m4, g3]
  refine best_of_congr _ _ _ ?_ m6
  intro s
  unfold all_scores
  constructor
  · rintro (h | h | h)
    · exact Or.inl (Or.inl h)
    · exact Or.inl (Or.inr h)
    · exact Or.inr h
  · rintro ((h | h) | h)
    · exact Or.inl h
    · exact Or.inr (Or.inl h)
    · exact Or.inr (Or.inr h)

/-- The Viterbi step of a frame on a well-formed state (no node twice on the
non-root active list, well-formed leaf chains of the active words that share
no cell with that list, no word twice on the single-phone list): `best_score`
is the best of the scores returned for the active roots, the listed nodes, the
leaves of the active words and the single-phone words evaluated, and
`last_phone_best_score` the best over the leaves and single-phone words; the
finish word counts in neither. -/
theorem evaluate_channels_spec (env : env_t) (fuel : Nat) (d d1 : decoder_t) (f : Int)
    (L : Int → List Int)
    (hacl : ∀ i j, 0 ≤ i → i < d.n_active_chan (parity f) → 0 ≤ j →
      j < d.n_active_chan (parity f) →
      d.active_chan_list (parity f) i = d.active_chan_list (parity f) j → i = j)
    (hw : word_chains d f L)
    (hsep : ∀ k j a, 0 ≤ k → k < d.n_active_chan (parity f) → 0 ≤ j →
      j < d.n_active_word (parity f) → a ∈ L j → d.active_chan_list (parity f) k ≠ a)
    (h1 : ∀ i j, 0 ≤ i → i < d.n_1ph_words → 0 ≤ j → j < d.n_1ph_words →
      d.single_phone_wid i = d.single_phone_wid j → i = j)
    (hr : evaluate_channels env fuel d f = Except.ok d1) :
    best_of (all_scores env d f L false) d1.best_score ∧
    best_of (last_scores env d f L false) d1.last_phone_best_score := by
  unfold evaluate_channels at hr
  dsimp only at hr
  split at hr
  · simp at hr
  · rename_i d2 bs2 h2
    split at hr
    · simp at hr
    · rename_i d4 bs4 h4
      simp only [Except.ok.injEq] at hr
      subst hr
      obtain ⟨k1, k2, k3, _, k5⟩ := eval_root_chan_spec env d f
      generalize eval_root_chan env d f = r1 at h2 k1 k2 k3 k5
      have k6 := eval_frame_trans _ _ _ k1 (eval_frame_best_score r1.1 r1.2)
      obtain ⟨_, e2, e3, _⟩ := eval_frame_fields d _ k1
      have hacl1 := hacl
      rw [← e2, ← e3] at hacl1
      have nn := eval_nonroot_chan_spec env _ f _ ?_ h2
      swap
      · exact hacl1
      obtain ⟨n1, _, n3, _, n5, n6, n7⟩ := nn
      have n8 := eval_nonroot_chan_best env _ f _ h2
      dsimp only at n3 n5 n6 n7 n8
      have n9 : best_of (node_scores env d f (d.n_active_chan (parity f))) bs2 := by
        refine best_of_congr _ _ _ ?_ n7
        intro s
        unfold node_scores
        dsimp only
        rw [e2, e3, k2]
      obtain ⟨g1, g2a, g2b, g3⟩ := eval_frame_ite_best (bs2 > d2.best_score) d2 bs2
      have g3a : (if bs2 > d2.best_score then { d2 with best_score := bs2 } else d2).best_score =
          (if bs2 > r1.2 then bs2 else r1.2) := by
        rw [g3, n8]
      have t := evaluate_channels_tail env fuel d _ d4 f L _ bs4 hw h1
        (eval_frame_trans _ _ _ (eval_frame_trans _ _ _ k6 n1) g1) ?_ ?_ ?_
        (best_of_or _ _ _ _ k5 n9) g3a h4
      · refine ⟨?_, t.2⟩
        have e1 : (if bs4 > d4.best_score then { d4 with best_score := bs4 }
            else d4).best_score = if bs4 > d4.best_score then bs4 else d4.best_score := by
          split
          · rfl
          · rfl
        show best_of _
          (if bs4 > d4.best_score then { d4 with best_score := bs4 } else d4).best_score
        rw [e1]
        exact t.1
      · intro a
        rw [g2a, n6 a, k2]
      · intro j a hj1 hj2 ha
        rw [g2a, n5 a]
        · rw [k2]
        · intro k hk1 hk2
          have hk3 : k < r1.1.n_active_chan (parity f) := hk2
          show r1.1.active_chan_list (parity f) k ≠ a
          rw [e3] at hk3
          rw [e2]
          exact hsep k j a hk1 hk3 hj1 hj2 ha
      · rw [g2b, n3]
        exact k3

/-- C29 (amended): after `evaluate_channels(f)` has returned on a well-formed
state (no node twice on the non-root active list, well-formed leaf chains of
the active words sharing no cell with that list, no word twice on the
single-phone list), `best_score` is the best, never taken below
`WORST_SCORE`, of the Viterbi scores returned for the active roots, the
non-root active list, the leaves of the active words and the single-phone
words evaluated other than the finish word, and `last_phone_best_score` is the
best, never taken below `WORST_SCORE`, over those leaves and single-phone
words only. -/
theorem evaluate_channels_best (env : env_t) (fuel : Nat) (d d1 : decoder_t) (f : Int)
    (L : Int → List Int)
    (hacl : ∀ i j, 0 ≤ i → i < d.n_active_chan (parity f) → 0 ≤ j →
      j < d.n_active_chan (parity f) →
      d.active_chan_list (parity f) i = d.active_chan_list (parity f) j → i = j)
    (hw : word_chains d f L)
    (hsep : ∀ k j a, 0 ≤ k → k < d.n_active_chan (parity f) → 0 ≤ j →
      j < d.n_active_word (parity f) → a ∈ L j → d.active_chan_list (parity f) k ≠ a)
    (h1 : ∀ i j, 0 ≤ i → i < d.n_1ph_words → 0 ≤ j → j < d.n_1ph_words →
      d.single_phone_wid i = d.single_phone_wid j → i = j)
    (hr : evaluate_channels env fuel d f = Except.ok d1) :
    best_of (all_scores env d f L false) d1.best_score ∧
    best_of (last_scores env d f L false) d1.last_phone_best_score :=
  evaluate_channels_spec env fuel d d1 f L hacl hw hsep h1 hr

theorem eval_out_eq (env : env_t) (fuel : Nat) (d : decoder_t) (f : Int)
    (h : eval_returns env fuel d f = true) :
    evaluate_channels env fuel d f = Except.ok (eval_out env fuel d f) := by
  unfold eval_returns at h
  unfold eval_out
  split at h
  · rename_i x hx
    rw [hx]
  · simp at h

theorem ex_eval_chains : word_chains ex_eval_dec 6 (fun j => if j = 0 then [1, 2] else []) := by
  have hn : ex_eval_dec.n_active_word (parity 6) = 1 := by decide
  refine { chain := ?_, disj := ?_, inj := ?_ }
  · intro j hj0 hjn
    rw [hn] at hjn
    have hj : j = 0 := by omega
    subst hj
    exact ⟨by decide, rfl, by decide, rfl, rfl⟩
  · intro i j a hi0 hin hj0 hjn _ _
    rw [hn] at hin hjn
    omega
  · intro i j hi0 hin hj0 hjn _
    rw [hn] at hin hjn
    omega

theorem ex_eval_single (i j : Int) (hi0 : 0 ≤ i) (hi : i < ex_eval_dec.n_1ph_words)
    (hj0 : 0 ≤ j) (hj : j < ex_eval_dec.n_1ph_words)
    (h : ex_eval_dec.single_phone_wid i = ex_eval_dec.single_phone_wid j) : i = j := by
  have hn : ex_eval_dec.n_1ph_words = 3 := rfl
  rw [hn] at hi hj
  have e : ∀ k : Int, ex_eval_dec.single_phone_wid k =
      if k = 0 then 1 else if k = 1 then 2 else 3 := fun _ => rfl
  rw [e i, e j] at h
  have hi1 : i = 0 ∨ i = 1 ∨ i = 2 := by omega
  have hj1 : j = 0 ∨ j = 1 ∨ j = 2 := by omega
  rcases hi1 with hi1 | hi1 | hi1 <;> rcases hj1 with hj1 | hj1 | hj1 <;> subst hi1 <;>
    subst hj1 <;> simp at h <;> rfl

theorem evaluate_channels_best_witness :
    eval_returns ex_env 10 ex_eval_dec 6 = true ∧
    (eval_out ex_env 10 ex_eval_dec 6).best_score = -15 ∧
    best_of (all_scores ex_env ex_eval_dec 6 (fun j => if j = 0 then [1, 2] else []) false)
      (eval_out ex_env 10 ex_eval_dec 6).best_score ∧
    best_of (last_scores ex_env ex_eval_dec 6 (fun j => if j = 0 then [1, 2] else []) false)
      (eval_out ex_env 10 ex_eval_dec 6).last_phone_best_score :=
  ⟨by decide!, by decide!,
    evaluate_channels_best ex_env 10 ex_eval_dec (eval_out ex_env 10 ex_eval_dec 6) 6
      (fun j => if j = 0 then [1, 2] else [])
      (fun i j hi0 hi hj0 hj _ => by
        have hn : ex_eval_dec.n_active_chan (parity 6) = 1 := by decide
        rw [hn] at hi hj
        omega)
      ex_eval_chains
      (fun k j a hk0 hk hj0 hj ha => by
        have hn : ex_eval_dec.n_active_word (parity 6) = 1 := by decide
        rw [hn] at hj
        have hj1 : j = 0 := by omega
        subst hj1
        have ha1 : a ∈ [(1 : Int), 2] := ha
        have e : ex_eval_dec.active_chan_list (parity 6) k = 3 := rfl
        rw [e]
        intro h
        subst h
        simp at ha1)
      ex_eval_single
      (eval_out_eq ex_env 10 ex_eval_dec 6 (by decide!))⟩

/-- C29 as stated fails: the finish word's channel is evaluated in the frame
and returns -5, the best score of all, yet `best_score` and
`last_phone_best_score` come out as -15. -/
theorem evaluate_channels_best_counterexample :
    eval_returns ex_env 10 ex_eval_dec 6 = true ∧
    ex_eval_dec.single_phone_wid 0 = ex_eval_dec.finish_wid ∧
    ¬ (ex_eval_dec.all_rhmm (ex_eval_dec.single_phone_wid 0)).hmm.frame < 6 ∧
    vit_score ex_env 6 (ex_eval_dec.all_rhmm (ex_eval_dec.single_phone_wid 0)).hmm = -5 ∧
    (eval_out ex_env 10 ex_eval_dec 6).best_score = -15 ∧
    (eval_out ex_env 10 ex_eval_dec 6).last_phone_best_score = -15 ∧
    ¬ best_of (all_scores ex_env ex_eval_dec 6 (fun j => if j = 0 then [1, 2] else []) true)
      (eval_out ex_env 10 ex_eval_dec 6).best_score ∧
    ¬ best_of (last_scores ex_env ex_eval_dec 6 (fun j => if j = 0 then [1, 2] else []) true)
      (eval_out ex_env 10 ex_eval_dec 6).last_phone_best_score := by
  have hs : single_scores ex_env ex_eval_dec 6 true ex_eval_dec.n_1ph_words (-5) :=
    ⟨0, le_refl _, by decide, by decide, Or.inl rfl, by decide⟩
  have e1 : (eval_out ex_env 10 ex_eval_dec 6).best_score = -15 := by decide!
  have e2 : (eval_out ex_env 10 ex_eval_dec 6).last_phone_best_score = -15 := by decide!
  refine ⟨by decide!, by decide, by decide, by decide, e1, e2, ?_, ?_⟩
  · intro h
    have := h.2.1 (-5) (Or.inr (Or.inr (Or.inr hs)))
    rw [e1] at this
    omega
  · intro h
    have := h.2.1 (-5) (Or.inr hs)
    rw [e2] at this
    omega

/-! ### Renormalisation -/

/-- The renormalisation of the roots: the roots stamped `f` are normalised,
nothing else changes. -/
theorem renorm_roots_spec (d : decoder_t) (f norm : Int) :
    eval_frame d (iter_up
      (fun i (s : decoder_t) =>
        if (s.root_chan i).hmm.frame = f then
          set_root_hmm s i (hmm_normalize (s.root_chan i).hmm norm)
        else s) d.n_root_chan.toNat 0 d) ∧
    (iter_up
      (fun i (s : decoder_t) =>
        if (s.root_chan i).hmm.frame = f then
          set_root_hmm s i (hmm_normalize (s.root_chan i).hmm norm)
        else s) d.n_root_chan.toNat 0 d).chan = d.chan ∧
    (iter_up
      (fun i (s : decoder_t) =>
        if (s.root_chan i).hmm.frame = f then
          set_root_hmm s i (hmm_normalize (s.root_chan i).hmm norm)
        else s) d.n_root_chan.toNat 0 d).all_rhmm = d.all_rhmm ∧
    ∀ i, ((iter_up
      (fun i (s : decoder_t) =>
        if (s.root_chan i).hmm.frame = f then
          set_root_hmm s i (hmm_normalize (s.root_chan i).hmm norm)
        else s) d.n_root_chan.toNat 0 d).root_chan i).hmm =
      if 0 ≤ i ∧ i < d.n_root_chan ∧ (d.root_chan i).hmm.frame = f then
        hmm_normalize (d.root_chan i).hmm norm
      else (d.root_chan i).hmm := by
  have key := iter_up_ind
    (fun k (s : decoder_t) => eval_frame d s ∧ s.chan = d.chan ∧ s.all_rhmm = d.all_rhmm ∧
      (∀ j, k ≤ j → s.root_chan j = d.root_chan j) ∧
      ∀ i, (s.root_chan i).hmm =
        if 0 ≤ i ∧ i < k ∧ (d.root_chan i).hmm.frame = f then
          hmm_normalize (d.root_chan i).hmm norm
        else (d.root_chan i).hmm)
    (fun i (s : decoder_t) =>
      if (s.root_chan i).hmm.frame = f then
        set_root_hmm s i (hmm_normalize (s.root_chan i).hmm norm)
      else s)
    d.n_root_chan.toNat 0 d ?_ ?_
  · obtain ⟨k1, k2, k3, _, k5⟩ := key
    refine ⟨k1, k2, k3, ?_⟩
    intro i
    rw [k5 i]
    by_cases h : 0 ≤ i ∧ i < d.n_root_chan ∧ (d.root_chan i).hmm.frame = f
    · rw [if_pos h, if_pos ⟨h.1, by omega, h.2.2⟩]
    · rw [if_neg h, if_neg (fun g => h ⟨g.1, by omega, g.2.2⟩)]
  · intro i s hi1 hi2 ⟨p1, p2, p3, p4, p5⟩
    have e := p4 i (le_refl _)
    dsimp only
    rw [e]
    split
    · rename_i hfr
      refine ⟨?_, p2, p3, ?_, ?_⟩
      · unfold eval_frame at p1 ⊢
        unfold set_root_hmm
        dsimp only
        rw [p1]
      · intro j hj
        unfold set_root_hmm
        dsimp only
        rw [store_ne _ _ _ _ (by omega)]
        exact p4 j (by omega)
      · intro j
        unfold set_root_hmm
        dsimp only
        by_cases hj : j = i
        · subst hj
          rw [store_same, if_pos ⟨hi1, by omega, hfr⟩]
        · rw [store_ne _ _ _ _ hj, p5 j]
          by_cases h : 0 ≤ j ∧ j < i ∧ (d.root_chan j).hmm.frame = f
          · rw [if_pos h, if_pos ⟨h.1, by omega, h.2.2⟩]
          · rw [if_neg h, if_neg (fun g => h ⟨g.1, by omega, g.2.2⟩)]
    · rename_i hfr
      refine ⟨p1, p2, p3, fun j hj => p4 j (by omega), ?_⟩
      intro j
      rw [p5 j]
      by_cases h : 0 ≤ j ∧ j < i ∧ (d.root_chan j).hmm.frame = f
      · rw [if_pos h, if_pos ⟨h.1, by omega, h.2.2⟩]
      · rw [if_neg h]
        by_cases hj : j = i
        · subst hj
          rw [if_neg (fun g => hfr g.2.2)]
        · rw [if_neg (fun g => h ⟨g.1, by omega, g.2.2⟩)]
  · refine ⟨eval_frame_refl d, rfl, rfl, fun _ _ => rfl, ?_⟩
    intro i
    rw [if_neg (fun g => by omega)]

/-- The renormalisation of the non-root active list, no node being listed
twice: the HMMs of the listed nodes are normalised, nothing else changes. -/
theorem renorm_nodes_spec (d : decoder_t) (f norm : Int) (s : decoder_t)
    (hinj : ∀ i j, 0 ≤ i → i < d.n_active_chan (parity f) → 0 ≤ j →
      j < d.n_active_chan (parity f) →
      d.active_chan_list (parity f) i = d.active_chan_list (parity f) j → i = j)
    (hs : s = iter_up
      (fun k (s : decoder_t) =>
        let a := s.active_chan_list (parity f) k
        set_chan_hmm s a (hmm_normalize (s.chan a).hmm norm))
      (d.n_active_chan (parity f)).toNat 0 d) :
    eval_frame d s ∧ s.root_chan = d.root_chan ∧ s.all_rhmm = d.all_rhmm ∧
    (∀ a, (s.chan a).next = (d.chan a).next) ∧
    (∀ a, (∀ k, 0 ≤ k → k < d.n_active_chan (parity f) →
      d.active_chan_list (parity f) k ≠ a) → s.chan a = d.chan a) ∧
    (∀ k, 0 ≤ k → k < d.n_active_chan (parity f) →
      (s.chan (d.active_chan_list (parity f) k)).hmm =
        hmm_normalize (d.chan (d.active_chan_list (parity f) k)).hmm norm) := by
  subst hs
  have key := iter_up_ind
    (fun n (s : decoder_t) => eval_frame d s ∧ s.root_chan = d.root_chan ∧
      s.all_rhmm = d.all_rhmm ∧ (∀ a, (s.chan a).next = (d.chan a).next) ∧
      (∀ a, (∀ k, 0 ≤ k → k < n → d.active_chan_list (parity f) k ≠ a) →
        s.chan a = d.chan a) ∧
      (∀ k, 0 ≤ k → k < n →
        (s.chan (d.active_chan_list (parity f) k)).hmm =
          hmm_normalize (d.chan (d.active_chan_list (parity f) k)).hmm norm))
    (fun k (s : decoder_t) =>
      let a := s.active_chan_list (parity f) k
      set_chan_hmm s a (hmm_normalize (s.chan a).hmm norm))
    (d.n_active_chan (parity f)).toNat 0 d ?_ ?_
  · obtain ⟨k1, k2, k3, k4, k5, k6⟩ := key
    exact ⟨k1, k2, k3, k4, fun a ha => k5 a (fun k hk1 hk2 => ha k hk1 (by omega)),
      fun k hk1 hk2 => k6 k hk1 (by omega)⟩
  · intro n s hn1 hn2 ⟨p1, p2, p3, p4, p5, p6⟩
    obtain ⟨_, e2, _⟩ := eval_frame_fields d s p1
    have hn3 : n < d.n_active_chan (parity f) := by omega
    have ea : s.chan (d.active_chan_list (parity f) n) =
        d.chan (d.active_chan_list (parity f) n) := by
      apply p5
      intro j hj1 hj2 hj3
      have := hinj j n hj1 (by omega) hn1 hn3 hj3
      omega
    dsimp only
    rw [e2, ea]
    refine ⟨?_, p2, p3, ?_, ?_, ?_⟩
    · unfold eval_frame at p1 ⊢
      unfold set_chan_hmm
      dsimp only
      rw [p1]
    · intro a
      unfold set_chan_hmm
      dsimp only
      by_cases h : a = d.active_chan_list (parity f) n
      · subst h
        rw [store_same]
        dsimp only
        rw [ea]
      · rw [store_ne _ _ _ _ h]
        exact p4 a
    · intro a ha
      unfold set_chan_hmm
      dsimp only
      rw [store_ne _ _ _ _ (fun h => ha n hn1 (by omega) h.symm)]
      exact p5 a (fun j hj1 hj2 => ha j hj1 (by omega))
    · intro k hk1 hk2
      unfold set_chan_hmm
      dsimp only
      by_cases hk : k = n
      · subst hk
        rw [store_same]
      · have hne : d.active_chan_list (parity f) k ≠ d.active_chan_list (parity f) n := by
          intro h
          have := hinj k n hk1 (by omega) hn1 hn3 h
          exact hk this
        rw [store_ne _ _ _ _ hne]
        exact p6 k hk1 (by omega)
  · exact ⟨eval_frame_refl d, rfl, rfl, fun _ => rfl, fun _ _ => rfl,
      fun k hk1 hk2 => by omega⟩

/-- The renormalisation along one leaf chain `l`: the HMMs of the chain are
normalised, nothing else changes. -/
theorem renorm_leaves_spec (norm : Int) :
    ∀ (l : List Int) (fuel : Nat) (p : Int) (t t1 : decoder_t),
      leaf_list t.chan p l →
      for_list is_null (fun s1 a => (s1.chan a).next)
        (fun a s1 => Except.ok (set_chan_hmm s1 a (hmm_normalize (s1.chan a).hmm norm)))
        fuel p t = Except.ok t1 →
      eval_frame t t1 ∧ t1.root_chan = t.root_chan ∧ t1.all_rhmm = t.all_rhmm ∧
      (∀ a, (t1.chan a).next = (t.chan a).next) ∧
      (∀ a, a ∉ l → t1.chan a = t.chan a) ∧
      (∀ a ∈ l, (t1.chan a).hmm = hmm_normalize (t.chan a).hmm norm) := by
  intro l
  induction l with
  | nil =>
    intro fuel p t t1 hl hr
    rw [leaf_list_nil] at hl
    subst hl
    cases fuel with
    | zero => simp [for_list] at hr
    | succ fuel =>
      simp only [for_list, is_null, decide_True, if_true, Except.ok.injEq] at hr
      subst hr
      exact ⟨eval_frame_refl _, rfl, rfl, fun _ => rfl, fun _ _ => rfl,
        fun a ha => absurd ha (List.not_mem_nil a)⟩
  | cons b l ih =>
    intro fuel p t t1 hl hr
    rw [leaf_list_cons] at hl
    obtain ⟨hp0, hpb, hl1⟩ := hl
    subst hpb
    have hnd : (p :: l).Nodup :=
      leaf_list_nodup t.chan p (p :: l) ((leaf_list_cons _ _ _ _).2 ⟨hp0, rfl, hl1⟩)
    have hpl : p ∉ l := (List.nodup_cons.1 hnd).1
    cases fuel with
    | zero => simp [for_list] at hr
    | succ fuel =>
      have hn : is_null p = false := by simp [is_null, hp0]
      rw [for_list] at hr
      simp only [hn, Bool.false_eq_true, if_false] at hr
      have enx : ((set_chan_hmm t p (hmm_normalize (t.chan p).hmm norm)).chan p).next =
          (t.chan p).next := by
        unfold set_chan_hmm
        dsimp only
        rw [store_same]
      have eo : ∀ c, c ≠ p →
          (set_chan_hmm t p (hmm_normalize (t.chan p).hmm norm)).chan c = t.chan c := by
        intro c hc
        unfold set_chan_hmm
        dsimp only
        rw [store_ne _ _ _ _ hc]
      have hl2 : leaf_list (set_chan_hmm t p (hmm_normalize (t.chan p).hmm norm)).chan
          (((set_chan_hmm t p (hmm_normalize (t.chan p).hmm norm)).chan p).next) l := by
        rw [enx]
        refine leaf_list_congr _ _ _ _ ?_ hl1
        intro c hc
        rw [eo c (fun (h : c = p) => hpl (by rw [← h]; exact hc))]
      obtain ⟨q1, q2, q3, q4, q5, q6⟩ := ih fuel _ _ t1 hl2 hr
      refine ⟨?_, ?_, ?_, ?_, ?_, ?_⟩
      · refine eval_frame_trans _ _ _ ?_ q1
        unfold eval_frame
        rfl
      · rw [q2]
        rfl
      · rw [q3]
        rfl
      · intro a
        rw [q4 a]
        by_cases h : a = p
        · subst h
          exact enx
        · rw [eo a h]
      · intro a ha
        rw [q5 a (fun h => ha (List.mem_cons_of_mem _ h))]
        exact eo a (fun (h : a = p) => ha (by rw [h]; exact List.mem_cons_self _ _))
      · intro a ha
        rcases List.mem_cons.1 ha with h | h
        · subst h
          rw [q5 a hpl]
          unfold set_chan_hmm
          dsimp only
          rw [store_same]
        · rw [q6 a h, eo a (fun (g : a = p) => hpl (by rw [← g]; exact h))]

/-- The renormalisation of the leaves of the listed words, on well-formed
chains: the HMMs of these leaves are normalised, nothing else changes. -/
theorem renorm_words_spec (fuel : Nat) (d : decoder_t) (f norm : Int) (L : Int → List Int)
    (s : decoder_t) (hw : word_chains d f L)
    (hr : for_up
      (fun k (s : decoder_t) =>
        let w := s.active_word_list (parity f) k
        for_list is_null (fun s1 a => (s1.chan a).next)
          (fun a s1 => Except.ok (set_chan_hmm s1 a (hmm_normalize (s1.chan a).hmm norm)))
          fuel (s.word_chan w) s)
      (d.n_active_word (parity f)).toNat 0 d = Except.ok s) :
    eval_frame d s ∧ s.root_chan = d.root_chan ∧ s.all_rhmm = d.all_rhmm ∧
    (∀ a, (s.chan a).next = (d.chan a).next) ∧
    (∀ a, (∀ j, 0 ≤ j → j < d.n_active_word (parity f) → a ∉ L j) → s.chan a = d.chan a) ∧
    (∀ j a, 0 ≤ j → j < d.n_active_word (parity f) → a ∈ L j →
      (s.chan a).hmm = hmm_normalize (d.chan a).hmm norm) := by
  have key := for_up_ind
    (fun n (s : decoder_t) => eval_frame d s ∧ s.root_chan = d.root_chan ∧
      s.all_rhmm = d.all_rhmm ∧ (∀ a, (s.chan a).next = (d.chan a).next) ∧
      (∀ a, (∀ j, 0 ≤ j → j < n → a ∉ L j) → s.chan a = d.chan a) ∧
      (∀ j a, 0 ≤ j → j < n → a ∈ L j →
        (s.chan a).hmm = hmm_normalize (d.chan a).hmm norm)) _ _ _ _ _ ?_ ?_ hr
  · obtain ⟨k1, k2, k3, k4, k5, k6⟩ := key
    exact ⟨k1, k2, k3, k4, fun a ha => k5 a (fun j hj1 hj2 => ha j hj1 (by omega)),
      fun j a hj1 hj2 ha => k6 j a hj1 (by omega) ha⟩
  · intro n t t1 hn1 hn2 ⟨p1, p2, p3, p4, p5, p6⟩ hb
    obtain ⟨_, _, _, e4, _, e6, _⟩ := eval_frame_fields d t p1
    have hn3 : n < d.n_active_word (parity f) := by omega
    have hl : leaf_list t.chan (d.word_chan (d.active_word_list (parity f) n)) (L n) :=
      leaf_list_congr _ _ _ _ (fun b _ => p4 b) (hw.chain n hn1 hn3)
    dsimp only at hb
    rw [e4, e6] at hb
    obtain ⟨q1, q2, q3, q4, q5, q6⟩ := renorm_leaves_spec norm (L n) fuel _ t t1 hl hb
    have es : ∀ a ∈ L n, t.chan a = d.chan a := by
      intro a ha
      apply p5
      intro i hi1 hi2 hi3
      have := hw.disj i n a hi1 (by omega) hn1 hn3 hi3 ha
      omega
    refine ⟨eval_frame_trans _ _ _ p1 q1, ?_, ?_, ?_, ?_, ?_⟩
    · rw [q2]
      exact p2
    · rw [q3]
      exact p3
    · intro a
      rw [q4 a]
      exact p4 a
    · intro a ha
      rw [q5 a (ha n hn1 (by omega))]
      exact p5 a (fun i hi1 hi2 => ha i hi1 (by omega))
    · intro j a hj1 hj2 ha
      by_cases hj : j = n
      · subst hj
        rw [q6 a ha, es a ha]
      · have hna : a ∉ L n := by
          intro h
          exact hj (hw.disj j n a hj1 (by omega) hn1 hn3 ha h)
        rw [q5 a hna]
        exact p6 j a hj1 (by omega) ha
  · exact ⟨eval_frame_refl d, rfl, rfl, fun _ => rfl, fun _ _ => rfl,
      fun j a hj1 hj2 _ => by omega⟩

/-- The renormalisation of the single-phone words, none being listed twice:
the channels stamped `f` are normalised, nothing else changes. -/
theorem renorm_single_spec (d : decoder_t) (f norm : Int) (s : decoder_t)
    (hinj : ∀ i j, 0 ≤ i → i < d.n_1ph_words → 0 ≤ j → j < d.n_1ph_words →
      d.single_phone_wid i = d.single_phone_wid j → i = j)
    (hs : s = iter_up
      (fun i (s : decoder_t) =>
        let w := s.single_phone_wid i
        if (s.all_rhmm w).hmm.frame = f then
          set_rhmm_hmm s w (hmm_normalize (s.all_rhmm w).hmm norm)
        else s)
      d.n_1ph_words.toNat 0 d) :
    eval_frame d s ∧ s.root_chan = d.root_chan ∧ s.chan = d.chan ∧
    (∀ i, 0 ≤ i → i < d.n_1ph_words →
      (s.all_rhmm (d.single_phone_wid i)).hmm =
        if (d.all_rhmm (d.single_phone_wid i)).hmm.frame = f then
          hmm_normalize (d.all_rhmm (d.single_phone_wid i)).hmm norm
        else (d.all_rhmm (d.single_phone_wid i)).hmm) := by
  subst hs
  have key := iter_up_ind
    (fun n (s : decoder_t) => eval_frame d s ∧ s.root_chan = d.root_chan ∧ s.chan = d.chan ∧
      (∀ w, (∀ j, 0 ≤ j → j < n → d.single_phone_wid j ≠ w) →
        s.all_rhmm w = d.all_rhmm w) ∧
      (∀ i, 0 ≤ i → i < n →
        (s.all_rhmm (d.single_phone_wid i)).hmm =
          if (d.all_rhmm (d.single_phone_wid i)).hmm.frame = f then
            hmm_normalize (d.all_rhmm (d.single_phone_wid i)).hmm norm
          else (d.all_rhmm (d.single_phone_wid i)).hmm))
    (fun i (s : decoder_t) =>
      let w := s.single_phone_wid i
      if (s.all_rhmm w).hmm.frame = f then
        set_rhmm_hmm s w (hmm_normalize (s.all_rhmm w).hmm norm)
      else s)
    d.n_1ph_words.toNat 0 d ?_ ?_
  · obtain ⟨k1, k2, k3, _, k5⟩ := key
    exact ⟨k1, k2, k3, fun i hi1 hi2 => k5 i hi1 (by omega)⟩
  · intro n s hn1 hn2 ⟨p1, p2, p3, p4, p5⟩
    obtain ⟨_, _, _, _, _, _, e7, _⟩ := eval_frame_fields d s p1
    have hn3 : n < d.n_1ph_words := by omega
    have ea : s.all_rhmm (d.single_phone_wid n) = d.all_rhmm (d.single_phone_wid n) := by
      apply p4
      intro j hj1 hj2 hj3
      have := hinj j n hj1 (by omega) hn1 hn3 hj3
      omega
    dsimp only
    rw [e7, ea]
    split
    · rename_i hfr
      refine ⟨?_, p2, p3, ?_, ?_⟩
      · unfold eval_frame at p1 ⊢
        unfold set_rhmm_hmm
        dsimp only
        rw [p1]
      · intro w hw
        unfold set_rhmm_hmm
        dsimp only
        rw [store_ne _ _ _ _ (fun h => hw n hn1 (by omega) h.symm)]
        exact p4 w (fun j hj1 hj2 => hw j hj1 (by omega))
      · intro i hi1 hi2
        unfold set_rhmm_hmm
        dsimp only
        by_cases hi : i = n
        · subst hi
          rw [store_same, if_pos hfr]
        · have hne : d.single_phone_wid i ≠ d.single_phone_wid n := by
            intro h
            exact hi (hinj i n hi1 (by omega) hn1 hn3 h)
          rw [store_ne _ _ _ _ hne]
          exact p5 i hi1 (by omega)
    · rename_i hfr
      refine ⟨p1, p2, p3, fun w hw => p4 w (fun j hj1 hj2 => hw j hj1 (by omega)), ?_⟩
      intro i hi1 hi2
      by_cases hi : i = n
      · subst hi
        rw [ea, if_neg hfr]
      · exact p5 i hi1 (by omega)
  · exact ⟨eval_frame_refl d, rfl, rfl, fun _ _ => rfl, fun i hi1 hi2 => by omega⟩

theorem hmm_normalize_scores (h : hmm_t) (norm : Int) :
    state_scores (hmm_normalize h norm) = (state_scores h).map (norm_score norm) := by
  unfold state_scores hmm_normalize norm_score
  simp only [List.map_cons, List.map_append, List.map_map, List.map_nil]
  rfl

/-- The renormalisation pass on a well-formed state: the flag is set, the
HMMs of the roots and single-phone channels stamped `f`, of the listed nodes
and of the leaves of the listed words are normalised, and the lists stay. -/
theorem renormalize_scores_spec (fuel : Nat) (d d1 : decoder_t) (f norm : Int)
    (L : Int → List Int)
    (hacl : ∀ i j, 0 ≤ i → i < d.n_active_chan (parity f) → 0 ≤ j →
      j < d.n_active_chan (parity f) →
      d.active_chan_list (parity f) i = d.active_chan_list (parity f) j → i = j)
    (hw : word_chains d f L)
    (hsep : ∀ k j a, 0 ≤ k → k < d.n_active_chan (parity f) → 0 ≤ j →
      j < d.n_active_word (parity f) → a ∈ L j → d.active_chan_list (parity f) k ≠ a)
    (h1 : ∀ i j, 0 ≤ i → i < d.n_1ph_words → 0 ≤ j → j < d.n_1ph_words →
      d.single_phone_wid i = d.single_phone_wid j → i = j)
    (hr : renormalize_scores fuel d f norm = Except.ok d1) :
    d1.renormalized = true ∧
    (d1.n_root_chan = d.n_root_chan ∧ d1.active_chan_list = d.active_chan_list ∧
      d1.n_active_chan = d.n_active_chan ∧ d1.n_active_word = d.n_active_word ∧
      d1.single_phone_wid = d.single_phone_wid ∧ d1.n_1ph_words = d.n_1ph_words) ∧
    (∀ i, (d1.root_chan i).hmm =
      if 0 ≤ i ∧ i < d.n_root_chan ∧ (d.root_chan i).hmm.frame = f then
        hmm_normalize (d.root_chan i).hmm norm
      else (d.root_chan i).hmm) ∧
    (∀ k, 0 ≤ k → k < d.n_active_chan (parity f) →
      (d1.chan (d.active_chan_list (parity f) k)).hmm =
        hmm_normalize (d.chan (d.active_chan_list (parity f) k)).hmm norm) ∧
    (∀ j a, 0 ≤ j → j < d.n_active_word (parity f) → a ∈ L j →
      (d1.chan a).hmm = hmm_normalize (d.chan a).hmm norm) ∧
    (∀ i, 0 ≤ i → i < d.n_1ph_words →
      (d1.all_rhmm (d.single_phone_wid i)).hmm =
        if (d.all_rhmm (d.single_phone_wid i)).hmm.frame = f then
          hmm_normalize (d.all_rhmm (d.single_phone_wid i)).hmm norm
        else (d.all_rhmm (d.single_phone_wid i)).hmm) := by
  unfold renormalize_scores at hr
  dsimp only at hr
  split at hr
  · simp at hr
  · rename_i d3 h3
    simp only [Except.ok.injEq] at hr
    subst hr
    obtain ⟨a1, a2, a3, a4⟩ := renorm_roots_spec d f norm
    generalize (iter_up
      (fun i (s : decoder_t) =>
        if (s.root_chan i).hmm.frame = f then
          set_root_hmm s i (hmm_normalize (s.root_chan i).hmm norm)
        else s) d.n_root_chan.toNat 0 d) = s1 at h3 a1 a2 a3 a4
    obtain ⟨_, x2, x3, x4, x5, _, _⟩ := eval_frame_fields d s1 a1
    have hacl1 := hacl
    rw [← x2, ← x3] at hacl1
    obtain ⟨b1, b2, b3, b4, b5, b6⟩ := renorm_nodes_spec s1 f norm _ hacl1 rfl
    generalize (iter_up
      (fun k (s : decoder_t) =>
        let a := s.active_chan_list (parity f) k
        set_chan_hmm s a (hmm_normalize (s.chan a).hmm norm))
      (s1.n_active_chan (parity f)).toNat 0 s1) = s2 at h3 b1 b2 b3 b4 b5 b6
    have g2 := eval_frame_trans _ _ _ a1 b1
    have hn2 : ∀ a, (s2.chan a).next = (d.chan a).next := by
      intro a
      rw [b4 a, a2]
    have hw2 := word_chains_congr d s2 f L g2 hn2 hw
    obtain ⟨_, _, _, _, y5, _, y7, y8, _⟩ := eval_frame_fields d s2 g2
    obtain ⟨c1, c2, c3, c4, c5, c6⟩ := renorm_words_spec fuel s2 f norm L d3 hw2 h3
    have g3 := eval_frame_trans _ _ _ g2 c1
    obtain ⟨z1, z2, z3, z4, z5, _, z7, z8, _⟩ := eval_frame_fields d d3 g3
    have h11 := h1
    rw [← z7, ← z8] at h11
    obtain ⟨e1, e2, e3, e4⟩ := renorm_single_spec d3 f norm _ h11 rfl
    generalize (iter_up
      (fun i (s : decoder_t) =>
        let w := s.single_phone_wid i
        if (s.all_rhmm w).hmm.frame = f then
          set_rhmm_hmm s w (hmm_normalize (s.all_rhmm w).hmm norm)
        else s)
      d3.n_1ph_words.toNat 0 d3) = s4 at e1 e2 e3 e4
    have g4 := eval_frame_trans _ _ _ g3 e1
    obtain ⟨w1, w2, w3, _, w5, _, w7, w8, _⟩ := eval_frame_fields d s4 g4
    refine ⟨rfl, ⟨w1, w2, w3, w5, w7, w8⟩, ?_, ?_, ?_, ?_⟩
    · intro i
      show (s4.root_chan i).hmm = _
      rw [e2, c2, b2]
      exact a4 i
    · intro k hk1 hk2
      show (s4.chan (d.active_chan_list (parity f) k)).hmm = _
      rw [e3, c5]
      · have := b6 k hk1 (by rw [x3]; exact hk2)
        rw [x2, a2] at this
        exact this
      · intro j hj1 hj2 hj3
        rw [y5] at hj2
        exact hsep k j _ hk1 hk2 hj1 hj2 hj3 rfl
    · intro j a hj1 hj2 ha
      show (s4.chan a).hmm = _
      rw [e3, c6 j a hj1 (by rw [y5]; exact hj2) ha, b5 a, a2]
      intro k hk1 hk2
      rw [x2]
      rw [x3] at hk2
      exact hsep k j a hk1 hk2 hj1 hj2 ha
    · intro i hi1 hi2
      show (s4.all_rhmm (d.single_phone_wid i)).hmm = _
      have := e4 i hi1 (by rw [z8]; exact hi2)
      rw [z7, c3, b3, a3] at this
      exact this

/-- The HMMs active after the renormalisation pass are the normalised HMMs
active before it. -/
theorem renormalize_scores_active (fuel : Nat) (d d1 : decoder_t) (f norm : Int)
    (L : Int → List Int)
    (hacl : ∀ i j, 0 ≤ i → i < d.n_active_chan (parity f) → 0 ≤ j →
      j < d.n_active_chan (parity f) →
      d.active_chan_list (parity f) i = d.active_chan_list (parity f) j → i = j)
    (hw : word_chains d f L)
    (hsep : ∀ k j a, 0 ≤ k → k < d.n_active_chan (parity f) → 0 ≤ j →
      j < d.n_active_word (parity f) → a ∈ L j → d.active_chan_list (parity f) k ≠ a)
    (h1 : ∀ i j, 0 ≤ i → i < d.n_1ph_words → 0 ≤ j → j < d.n_1ph_words →
      d.single_phone_wid i = d.single_phone_wid j → i = j)
    (hr : renormalize_scores fuel d f norm = Except.ok d1) (h : hmm_t) :
    active_hmm d1 f L h ↔ ∃ h0, active_hmm d f L h0 ∧ h = hmm_normalize h0 norm := by
  obtain ⟨_, ⟨w1, w2, w3, w5, w7, w8⟩, r1, r2, r3, r4⟩ :=
    renormalize_scores_spec fuel d d1 f norm L hacl hw hsep h1 hr
  have hfr : ∀ x : hmm_t, (hmm_normalize x norm).frame = x.frame := fun _ => rfl
  unfold active_hmm
  rw [w1, w2, w3, w5, w7, w8]
  constructor
  · rintro (⟨i, a1, a2, a3, a4⟩ | ⟨k, a1, a2, a4⟩ | ⟨j, a, a1, a2, a3, a4⟩ | ⟨i, a1, a2, a3, a4⟩)
    · by_cases hc : 0 ≤ i ∧ i < d.n_root_chan ∧ (d.root_chan i).hmm.frame = f
      · rw [r1 i, if_pos hc] at a4
        exact ⟨_, Or.inl ⟨i, a1, a2, hc.2.2, rfl⟩, a4⟩
      · rw [r1 i, if_neg hc] at a3
        exact absurd ⟨a1, a2, a3⟩ hc
    · rw [r2 k a1 a2] at a4
      exact ⟨_, Or.inr (Or.inl ⟨k, a1, a2, rfl⟩), a4⟩
    · rw [r3 j a a1 a2 a3] at a4
      exact ⟨_, Or.inr (Or.inr (Or.inl ⟨j, a, a1, a2, a3, rfl⟩)), a4⟩
    · by_cases hc : (d.all_rhmm (d.single_phone_wid i)).hmm.frame = f
      · rw [r4 i a1 a2, if_pos hc] at a4
        exact ⟨_, Or.inr (Or.inr (Or.inr ⟨i, a1, a2, hc, rfl⟩)), a4⟩
      · rw [r4 i a1 a2, if_neg hc] at a3
        exact absurd a3 hc
  · rintro ⟨h0, (⟨i, a1, a2, a3, a4⟩ | ⟨k, a1, a2, a4⟩ | ⟨j, a, a1, a2, a3, a4⟩ |
      ⟨i, a1, a2, a3, a4⟩), rfl⟩
    · subst a4
      have e := r1 i
      rw [if_pos ⟨a1, a2, a3⟩] at e
      exact Or.inl ⟨i, a1, a2, by rw [e, hfr]; exact a3, e.symm⟩
    · subst a4
      exact Or.inr (Or.inl ⟨k, a1, a2, (r2 k a1 a2).symm⟩)
    · subst a4
      exact Or.inr (Or.inr (Or.inl ⟨j, a, a1, a2, a3, (r3 j a a1 a2 a3).symm⟩))
    · subst a4
      have e := r4 i a1 a2
      rw [if_pos a3] at e
      exact Or.inr (Or.inr (Or.inr ⟨i, a1, a2, by rw [e, hfr]; exact a3, e.symm⟩))

/-- C28 (amended): when the renormalisation pass of `step()` (run with
`best_score` as the norm) returns on a well-formed state, the `renormalized`
flag is set and the HMMs active in the frame are the former ones with
`best_score` subtracted from every state score better than `WORST_SCORE`;
hence all active state scores are at most 0 with one exactly 0 whenever,
before the pass, `best_score` was better than `WORST_SCORE` and was the best
state score over the active HMMs. -/
theorem renormalize_scores_result (fuel : Nat) (d d1 : decoder_t) (f : Int)
    (L : Int → List Int)
    (hacl : ∀ i j, 0 ≤ i → i < d.n_active_chan (parity f) → 0 ≤ j →
      j < d.n_active_chan (parity f) →
      d.active_chan_list (parity f) i = d.active_chan_list (parity f) j → i = j)
    (hw : word_chains d f L)
    (hsep : ∀ k j a, 0 ≤ k → k < d.n_active_chan (parity f) → 0 ≤ j →
      j < d.n_active_word (parity f) → a ∈ L j → d.active_chan_list (parity f) k ≠ a)
    (h1 : ∀ i j, 0 ≤ i → i < d.n_1ph_words → 0 ≤ j → j < d.n_1ph_words →
      d.single_phone_wid i = d.single_phone_wid j → i = j)
    (hr : renormalize_scores fuel d f d.best_score = Except.ok d1) :
    d1.renormalized = true ∧
    (∀ h, active_hmm d1 f L h ↔
      ∃ h0, active_hmm d f L h0 ∧ h = hmm_normalize h0 d.best_score) ∧
    (∀ h0, state_scores (hmm_normalize h0 d.best_score) =
      (state_scores h0).map (norm_score d.best_score)) ∧
    (WORST_SCORE < d.best_score →
      (∀ h0, active_hmm d f L h0 → ∀ x ∈ state_scores h0, x ≤ d.best_score) →
      (∃ h0, active_hmm d f L h0 ∧ d.best_score ∈ state_scores h0) →
      (∀ h, active_hmm d1 f L h → ∀ x ∈ state_scores h, x ≤ 0) ∧
      ∃ h, active_hmm d1 f L h ∧ (0 : Int) ∈ state_scores h) := by
  have hact := renormalize_scores_active fuel d d1 f d.best_score L hacl hw hsep h1 hr
  refine ⟨(renormalize_scores_spec fuel d d1 f d.best_score L hacl hw hsep h1 hr).1, hact,
    fun h0 => hmm_normalize_scores h0 d.best_score, ?_⟩
  intro hb hle hex
  constructor
  · intro h hh x hx
    obtain ⟨h0, g1, g2⟩ := (hact h).1 hh
    subst g2
    rw [hmm_normalize_scores, List.mem_map] at hx
    obtain ⟨y, hy, rfl⟩ := hx
    have := hle h0 g1 y hy
    unfold norm_score
    split
    · omega
    · have hW : WORST_SCORE < 0 := by decide
      omega
  · obtain ⟨h0, g1, g2⟩ := hex
    refine ⟨hmm_normalize h0 d.best_score, (hact _).2 ⟨h0, g1, rfl⟩, ?_⟩
    rw [hmm_normalize_scores, List.mem_map]
    refine ⟨d.best_score, g2, ?_⟩
    unfold norm_score
    rw [if_pos hb]
    omega

theorem renorm_out_eq (fuel : Nat) (d : decoder_t) (f norm : Int)
    (h : renorm_returns fuel d f norm = true) :
    renormalize_scores fuel d f norm = Except.ok (renorm_out fuel d f norm) := by
  unfold renorm_returns at h
  unfold renorm_out
  split at h
  · rename_i x hx
    rw [hx]
  · simp at h

theorem ex_rn_single (n : Nat) (i j : Int) (hi0 : 0 ≤ i) (hi : i < (ex_rn_run n).n_1ph_words)
    (hj0 : 0 ≤ j) (hj : j < (ex_rn_run n).n_1ph_words)
    (hn : (ex_rn_run n).n_1ph_words = 3)
    (e0 : (ex_rn_run n).single_phone_wid 0 = 1) (e1 : (ex_rn_run n).single_phone_wid 1 = 2)
    (e2 : (ex_rn_run n).single_phone_wid 2 = 3)
    (h : (ex_rn_run n).single_phone_wid i = (ex_rn_run n).single_phone_wid j) : i = j := by
  rw [hn] at hi hj
  have hi1 : i = 0 ∨ i = 1 ∨ i = 2 := by omega
  have hj1 : j = 0 ∨ j = 1 ∨ j = 2 := by omega
  rcases hi1 with hi1 | hi1 | hi1 <;> rcases hj1 with hj1 | hj1 | hj1 <;> subst hi1 <;>
    subst hj1 <;> first | rfl | (rw [e0, e1] at h; omega) | (rw [e0, e2] at h; omega) |
      (rw [e1, e2] at h; omega)

set_option maxRecDepth 100000 in
theorem ex_rn_active (h0 : hmm_t) (h : active_hmm (ex_rn_run 1) 1 (fun _ => []) h0) :
    h0 = ((ex_rn_run 1).root_chan 0).hmm ∨ h0 = ((ex_rn_run 1).all_rhmm 1).hmm ∨
    h0 = ((ex_rn_run 1).all_rhmm 2).hmm ∨ h0 = ((ex_rn_run 1).all_rhmm 3).hmm := by
  have n1 : (ex_rn_run 1).n_root_chan = 1 := by decide!
  have n2 : (ex_rn_run 1).n_active_chan (parity 1) = 0 := by decide!
  have n3 : (ex_rn_run 1).n_active_word (parity 1) = 0 := by decide!
  have n4 : (ex_rn_run 1).n_1ph_words = 3 := by decide!
  have e0 : (ex_rn_run 1).single_phone_wid 0 = 1 := by decide!
  have e1 : (ex_rn_run 1).single_phone_wid 1 = 2 := by decide!
  have e2 : (ex_rn_run 1).single_phone_wid 2 = 3 := by decide!
  rcases h with ⟨i, a1, a2, _, a4⟩ | ⟨k, a1, a2, _⟩ | ⟨j, a, a1, a2, _⟩ | ⟨i, a1, a2, _, a4⟩
  · rw [n1] at a2
    have hi : i = 0 := by omega
    subst hi
    exact Or.inl a4
  · rw [n2] at a2
    omega
  · rw [n3] at a2
    omega
  · rw [n4] at a2
    have hi : i = 0 ∨ i = 1 ∨ i = 2 := by omega
    rcases hi with hi | hi | hi
    · subst hi
      rw [e0] at a4
      exact Or.inr (Or.inl a4)
    · subst hi
      rw [e1] at a4
      exact Or.inr (Or.inr (Or.inl a4))
    · subst hi
      rw [e2] at a4
      exact Or.inr (Or.inr (Or.inr a4))

set_option maxRecDepth 100000 in
theorem ex_rn_le (h0 : hmm_t) (hh : active_hmm (ex_rn_run 1) 1 (fun _ => []) h0) :
    ∀ x ∈ state_scores h0, x ≤ (ex_rn_run 1).best_score := by
  have q0 : ∀ x ∈ state_scores ((ex_rn_run 1).root_chan 0).hmm,
      x ≤ (ex_rn_run 1).best_score := by decide!
  have q1 : ∀ x ∈ state_scores ((ex_rn_run 1).all_rhmm 1).hmm,
      x ≤ (ex_rn_run 1).best_score := by decide!
  have q2 : ∀ x ∈ state_scores ((ex_rn_run 1).all_rhmm 2).hmm,
      x ≤ (ex_rn_run 1).best_score := by decide!
  have q3 : ∀ x ∈ state_scores ((ex_rn_run 1).all_rhmm 3).hmm,
      x ≤ (ex_rn_run 1).best_score := by decide!
  rcases ex_rn_active h0 hh with e | e | e | e
  · rw [e]
    exact q0
  · rw [e]
    exact q1
  · rw [e]
    exact q2
  · rw [e]
    exact q3

set_option maxRecDepth 100000 in
theorem ex_rn_attained : ∃ h0, active_hmm (ex_rn_run 1) 1 (fun _ => []) h0 ∧
    (ex_rn_run 1).best_score ∈ state_scores h0 :=
  ⟨((ex_rn_run 1).root_chan 0).hmm,
    Or.inl ⟨0, le_refl _, by decide!, by decide!, rfl⟩, by decide!⟩

set_option maxRecDepth 100000 in
theorem ex_rn_nodes (i j : Int) (_ : 0 ≤ i) (hi : i < (ex_rn_run 1).n_active_chan (parity 1))
    (_ : 0 ≤ j) (_ : j < (ex_rn_run 1).n_active_chan (parity 1))
    (_ : (ex_rn_run 1).active_chan_list (parity 1) i =
      (ex_rn_run 1).active_chan_list (parity 1) j) : i = j := by
  have hn : (ex_rn_run 1).n_active_chan (parity 1) = 0 := by decide!
  rw [hn] at hi
  omega

set_option maxRecDepth 100000 in
theorem ex_rn_chains : word_chains (ex_rn_run 1) 1 (fun _ => []) := by
  have hm : (ex_rn_run 1).n_active_word (parity 1) = 0 := by decide!
  refine { chain := ?_, disj := ?_, inj := ?_ }
  · intro j hj0 hj
    rw [hm] at hj
    omega
  · intro i j a hi0 hi _ _ _ _
    rw [hm] at hi
    omega
  · intro i j hi0 hi _ _ _
    rw [hm] at hi
    omega

set_option maxRecDepth 100000 in
theorem ex_rn_sep (k j a : Int) (_ : 0 ≤ k) (hk : k < (ex_rn_run 1).n_active_chan (parity 1))
    (_ : 0 ≤ j) (_ : j < (ex_rn_run 1).n_active_word (parity 1))
    (_ : a ∈ (fun _ : Int => ([] : List Int)) j) :
    (ex_rn_run 1).active_chan_list (parity 1) k ≠ a := by
  have hn : (ex_rn_run 1).n_active_chan (parity 1) = 0 := by decide!
  rw [hn] at hk
  omega

set_option maxRecDepth 100000 in
theorem ex_rn_words (i j : Int) (hi0 : 0 ≤ i) (hi : i < (ex_rn_run 1).n_1ph_words)
    (hj0 : 0 ≤ j) (hj : j < (ex_rn_run 1).n_1ph_words)
    (h : (ex_rn_run 1).single_phone_wid i = (ex_rn_run 1).single_phone_wid j) : i = j :=
  ex_rn_single 1 i j hi0 hi hj0 hj (by decide!) (by decide!) (by decide!) (by decide!) h

set_option maxRecDepth 100000 in
theorem ex_rn_returns :
    renormalize_scores 10 (ex_rn_run 1) 1 (ex_rn_run 1).best_score =
      Except.ok (renorm_out 10 (ex_rn_run 1) 1 (ex_rn_run 1).best_score) :=
  renorm_out_eq 10 (ex_rn_run 1) 1 _ (by decide!)

set_option maxRecDepth 100000 in
theorem renormalize_scores_result_witness :
    frames_return ex_rn_env 10 1 (ngram_fwdtree_start ex_rn_dec) = true ∧
    (ex_rn_run 1).best_score + 2 * (ex_rn_run 1).beam < WORST_SCORE ∧
    renorm_returns 10 (ex_rn_run 1) 1 (ex_rn_run 1).best_score = true ∧
    (renorm_out 10 (ex_rn_run 1) 1 (ex_rn_run 1).best_score).renormalized = true ∧
    (∀ h, active_hmm (renorm_out 10 (ex_rn_run 1) 1 (ex_rn_run 1).best_score) 1
      (fun _ => []) h → ∀ x ∈ state_scores h, x ≤ 0) ∧
    ∃ h, active_hmm (renorm_out 10 (ex_rn_run 1) 1 (ex_rn_run 1).best_score) 1
      (fun _ => []) h ∧ (0 : Int) ∈ state_scores h :=
  ⟨by decide!, by decide!, by decide!,
    (renormalize_scores_result 10 (ex_rn_run 1) _ 1 (fun _ => []) ex_rn_nodes ex_rn_chains
      ex_rn_sep ex_rn_words ex_rn_returns).1,
    (renormalize_scores_result 10 (ex_rn_run 1) _ 1 (fun _ => []) ex_rn_nodes ex_rn_chains
      ex_rn_sep ex_rn_words ex_rn_returns).2.2.2 (by decide!) ex_rn_le ex_rn_attained⟩

set_option maxRecDepth 100000 in
/-- C28 as stated fails: after two frames of search on the test decoder the
channel of the finish word is active with the state score 0 while
`best_score`, which leaves the finish word out, is -10; the renormalisation
pass of the third frame sets the flag and lifts that state score to 10. -/
theorem renormalize_scores_result_counterexample :
    frames_return ex_rn_env 10 2 (ngram_fwdtree_start ex_rn_dec) = true ∧
    (ex_rn_run 2).output_frame = 2 ∧
    (ex_rn_run 2).best_score + 2 * (ex_rn_run 2).beam < WORST_SCORE ∧
    renorm_returns 10 (ex_rn_run 2) 2 (ex_rn_run 2).best_score = true ∧
    (renorm_out 10 (ex_rn_run 2) 2 (ex_rn_run 2).best_score).renormalized = true ∧
    (ex_rn_run 2).single_phone_wid 0 = (ex_rn_run 2).finish_wid ∧
    state_scores ((renorm_out 10 (ex_rn_run 2) 2 (ex_rn_run 2).best_score).all_rhmm
      ((renorm_out 10 (ex_rn_run 2) 2 (ex_rn_run 2).best_score).single_phone_wid 0)).hmm =
        [10, 10] ∧
    ¬ (∀ h, active_hmm (renorm_out 10 (ex_rn_run 2) 2 (ex_rn_run 2).best_score) 2
      (fun _ => []) h → ∀ x ∈ state_scores h, x ≤ 0) := by
  refine ⟨by decide!, by decide!, by decide!, by decide!, by decide!, by decide!, by decide!, ?_⟩
  intro h
  have h1 := h _
    (Or.inr (Or.inr (Or.inr ⟨0, le_refl _, by decide!, by decide!, rfl⟩))) 10 (by decide!)
  omega

/-! ### The rescoring of the last-phone candidates -/

theorem lt_step_best (env : env_t) (d : decoder_t) (lo w bp0 : Int) (b : Int)
    (v : last_ltrans_t) (hb : lo ≤ b) (h : lt_best env d lo b w bp0 v) :
    lt_best env d lo (b + 1) w bp0 (lt_step env d w b v) := by
  obtain ⟨h1, h2, h3⟩ := h
  unfold lt_step
  split
  · rename_i hv
    refine ⟨h1, ?_, ?_⟩
    · intro c hc1 hc2 hc3
      by_cases hcb : c = b
      · subst hcb
        rw [hv] at hc3
        exact absurd hc3 (by decide)
      · exact h2 c hc1 (by omega) hc3
    · rcases h3 with h3 | ⟨g1, g2, g3, g4, g5⟩
      · exact Or.inl h3
      · exact Or.inr ⟨g1, by omega, g3, g4, g5⟩
  · rename_i hv
    have hv1 : (d.ngs.bp_table b).valid = true := by
      cases hx : (d.ngs.bp_table b).valid
      · exact absurd hx hv
      · rfl
    split
    · rename_i hlt
      refine ⟨by show WORST_SCORE ≤ lm_cand env d b w; omega, ?_, Or.inr ⟨hb, ?_, hv1, rfl, ?_⟩⟩
      · intro c hc1 hc2 hc3
        show lm_cand env d c w ≤ lm_cand env d b w
        by_cases hcb : c = b
        · subst hcb
          exact le_refl _
        · have := h2 c hc1 (by omega) hc3
          omega
      · show b < b + 1
        omega
      · intro c hc1 hc2 hc3
        show lm_cand env d c w < lm_cand env d b w
        have hc4 : c < b := hc2
        have := h2 c hc1 hc4 hc3
        omega
    · rename_i hlt
      refine ⟨h1, ?_, ?_⟩
      · intro c hc1 hc2 hc3
        by_cases hcb : c = b
        · subst hcb
          omega
        · exact h2 c hc1 (by omega) hc3
      · rcases h3 with h3 | ⟨g1, g2, g3, g4, g5⟩
        · exact Or.inl h3
        · exact Or.inr ⟨g1, by omega, g3, g4, g5⟩

theorem lt_step_sf (env : env_t) (d : decoder_t) (w b : Int) (v : last_ltrans_t) :
    (lt_step env d w b v).sf = v.sf := by
  unfold lt_step
  split
  · rfl
  · split
    · rfl
    · rfl

/-- The updates of step 2 over a range of entries leave the best transition
over the valid ones. -/
theorem lt_run_best (env : env_t) (d : decoder_t) (w : Int) (n : Nat) (lo : Int)
    (v : last_ltrans_t) (hv : v.dscr = WORST_SCORE) :
    lt_best env d lo (lo + n) w v.bp (lt_run env d w n lo v) ∧
    (lt_run env d w n lo v).sf = v.sf := by
  unfold lt_run
  refine iter_up_ind (fun b (x : last_ltrans_t) => lt_best env d lo b w v.bp x ∧ x.sf = v.sf)
    (lt_step env d w) n lo v ?_ ?_
  · intro b x hb1 _ ⟨hx1, hx2⟩
    exact ⟨lt_step_best env d lo w v.bp b x hb1 hx1, by rw [lt_step_sf]; exact hx2⟩
  · refine ⟨⟨by rw [hv], ?_, Or.inl ⟨hv, rfl⟩⟩, rfl⟩
    intro b hb1 hb2
    omega

theorem find_cand_sf_spec (cs : Int → cand_sf_t) (ef : Int) :
    ∀ (k : Nat) (j : Int), j ≤ find_cand_sf cs ef k j ∧ find_cand_sf cs ef k j ≤ j + k ∧
      (find_cand_sf cs ef k j < j + k → (cs (find_cand_sf cs ef k j)).bp_ef = ef) := by
  intro k
  induction k with
  | zero =>
    intro j
    simp [find_cand_sf]
  | succ k ih =>
    intro j
    rw [find_cand_sf]
    split
    · rename_i h
      refine ⟨le_refl _, by push_cast; omega, fun _ => h⟩
    · obtain ⟨h1, h2, h3⟩ := ih (j + 1)
      refine ⟨by omega, by push_cast; omega, ?_⟩
      intro h
      apply h3
      push_cast at h
      omega

theorem grow_cand_sf_fields (d : decoder_t) (n : Int) :
    (grow_cand_sf d n).cand_sf = d.cand_sf ∧ (grow_cand_sf d n).lastphn_cand = d.lastphn_cand ∧
    (grow_cand_sf d n).last_ltrans = d.last_ltrans := by
  unfold grow_cand_sf
  split
  · split
    · exact ⟨rfl, rfl, rfl⟩
    · exact ⟨rfl, rfl, rfl⟩
  · exact ⟨rfl, rfl, rfl⟩

/-- The search for the bucket of an end frame in step 1 of
`last_phone_transition`: the candidate is chained before the head of the
bucket found, or opens a new bucket. -/
theorem lpt_find_bucket_shape (d : decoder_t) (i m ef : Int) (hm : 0 ≤ m) :
    (lpt_find_bucket d i m ef).1.last_ltrans = d.last_ltrans ∧
    (∀ c, c ≠ i → (lpt_find_bucket d i m ef).1.lastphn_cand c = d.lastphn_cand c) ∧
    0 ≤ (lpt_find_bucket d i m ef).2.1 ∧
    (((lpt_find_bucket d i m ef).2.1 < m ∧ (lpt_find_bucket d i m ef).2.2 = m ∧
      (d.cand_sf (lpt_find_bucket d i m ef).2.1).bp_ef = ef ∧
      (lpt_find_bucket d i m ef).1.lastphn_cand i =
        { d.lastphn_cand i with next := (d.cand_sf (lpt_find_bucket d i m ef).2.1).cand } ∧
      (lpt_find_bucket d i m ef).1.cand_sf = d.cand_sf) ∨
     ((lpt_find_bucket d i m ef).2.1 = m ∧ (lpt_find_bucket d i m ef).2.2 = m + 1 ∧
      (lpt_find_bucket d i m ef).1.lastphn_cand i = { d.lastphn_cand i with next := -1 } ∧
      (lpt_find_bucket d i m ef).1.cand_sf =
        store d.cand_sf m { d.cand_sf m with bp_ef := ef })) := by
  obtain ⟨f1, f2, f3⟩ := find_cand_sf_spec d.cand_sf ef m.toNat 0
  obtain ⟨g1, g2, g3⟩ := grow_cand_sf_fields d m
  unfold lpt_find_bucket
  dsimp only
  split
  · rename_i hj
    refine ⟨rfl, ?_, f1, Or.inl ⟨hj, rfl, f3 (by omega), ?_, rfl⟩⟩
    · intro c hc
      unfold set_cand
      dsimp only
      rw [store_ne _ _ _ _ hc]
    · unfold set_cand
      dsimp only
      rw [store_same]
  · rename_i hj
    refine ⟨?_, ?_, hm, Or.inr ⟨rfl, rfl, ?_, ?_⟩⟩
    · unfold set_bucket set_cand
      dsimp only
      exact g3
    · intro c hc
      unfold set_bucket set_cand
      dsimp only
      rw [store_ne _ _ _ _ hc, g2]
    · unfold set_bucket set_cand
      dsimp only
      rw [store_same, g2]
    · unfold set_bucket set_cand
      dsimp only
      rw [g1]

/-- One round of step 1 of `last_phone_transition` for candidate `i`: the
score loses the entry score of the first phone; a candidate without cached
transition is put at the head of the bucket of its end frame, and the entry of
its word is reset. -/
theorem lpt_bucket_shape (i : Int) (sn sn1 : decoder_t × Int) (hm : 0 ≤ sn.2)
    (hr : lpt_bucket i sn = Except.ok sn1) :
    cand_frame sn.1 sn1.1 ∧
    (∀ c, c ≠ i → sn1.1.lastphn_cand c = sn.1.lastphn_cand c) ∧
    (sn1.1.lastphn_cand i).wid = (sn.1.lastphn_cand i).wid ∧
    (sn1.1.lastphn_cand i).bp = (sn.1.lastphn_cand i).bp ∧
    (sn1.1.lastphn_cand i).score = cand_base sn.1 i ∧
    ((¬ cand_fresh sn.1 i ∧ sn1.2 = sn.2 ∧ sn1.1.cand_sf = sn.1.cand_sf ∧
      sn1.1.last_ltrans = sn.1.last_ltrans) ∨
     (cand_fresh sn.1 i ∧
      sn1.1.last_ltrans =
        store sn.1.last_ltrans (sn.1.lastphn_cand i).wid (lt_init sn.1 i) ∧
      ∃ j, 0 ≤ j ∧ (sn1.1.cand_sf j).cand = i ∧ (sn1.1.cand_sf j).bp_ef = cand_ef sn.1 i ∧
        (∀ k, k ≠ j → sn1.1.cand_sf k = sn.1.cand_sf k) ∧
        ((j < sn.2 ∧ sn1.2 = sn.2 ∧ (sn.1.cand_sf j).bp_ef = cand_ef sn.1 i ∧
          (sn1.1.lastphn_cand i).next = (sn.1.cand_sf j).cand) ∨
         (j = sn.2 ∧ sn1.2 = sn.2 + 1 ∧ (sn1.1.lastphn_cand i).next = -1)))) := by
  have hfr := cand_frame_bucket sn.1 i sn sn1 (cand_frame_refl sn.1) hr
  unfold lpt_bucket at hr
  dsimp only at hr
  split at hr
  · simp at hr
  · rename_i bpe hbp
    have ebp : bpe = sn.1.ngs.bp_table (sn.1.lastphn_cand i).bp := by
      unfold bp_deref at hbp
      split at hbp
      · simp at hbp
      · simp only [Except.ok.injEq] at hbp
        exact hbp.symm
    subst ebp
    have hw1 : ∀ X : lastphn_cand_t, (set_cand sn.1 i X).lastphn_cand i = X := by
      intro X
      unfold set_cand
      dsimp only
      rw [store_same]
    simp only [hw1] at hr
    split at hr
    · rename_i hfresh
      simp only [Except.ok.injEq] at hr
      subst hr
      obtain ⟨q1, q2, q3, q4⟩ := lpt_find_bucket_shape
        (set_cand sn.1 i
          { sn.1.lastphn_cand i with
            score := (sn.1.lastphn_cand i).score -
              sn.1.ngs.bscore_stack ((sn.1.ngs.bp_table (sn.1.lastphn_cand i).bp).s_idx +
                rcpermtab_of sn.1 (sn.1.ngs.bp_table (sn.1.lastphn_cand i).bp)
                  ((sn.1.ngs.dict.dict_list (sn.1.lastphn_cand i).wid).ci_phone_ids 0)) })
        i sn.2 (sn.1.ngs.bp_table (sn.1.lastphn_cand i).bp).frame hm
      generalize hR : lpt_find_bucket _ i sn.2 (sn.1.ngs.bp_table (sn.1.lastphn_cand i).bp).frame
        = R at q1 q2 q3 q4 hfr
      have es : ∀ c, (set_cand sn.1 i
          { sn.1.lastphn_cand i with
            score := (sn.1.lastphn_cand i).score -
              sn.1.ngs.bscore_stack ((sn.1.ngs.bp_table (sn.1.lastphn_cand i).bp).s_idx +
                rcpermtab_of sn.1 (sn.1.ngs.bp_table (sn.1.lastphn_cand i).bp)
                  ((sn.1.ngs.dict.dict_list (sn.1.lastphn_cand i).wid).ci_phone_ids 0)) }).lastphn_cand c =
          if c = i then { sn.1.lastphn_cand i with score := cand_base sn.1 i }
          else sn.1.lastphn_cand c := by
        intro c
        unfold set_cand store
        rfl
      have ei : (R.1.lastphn_cand i).wid = (sn.1.lastphn_cand i).wid ∧
          (R.1.lastphn_cand i).bp = (sn.1.lastphn_cand i).bp ∧
          (R.1.lastphn_cand i).score = cand_base sn.1 i := by
        rcases q4 with ⟨_, _, _, g, _⟩ | ⟨_, _, g, _⟩
        · rw [g, es i, if_pos rfl]
          exact ⟨rfl, rfl, rfl⟩
        · rw [g, es i, if_pos rfl]
          exact ⟨rfl, rfl, rfl⟩
      refine ⟨hfr, ?_, ei.1, ei.2.1, ei.2.2, Or.inr ⟨hfresh, ?_, R.2.1, q3, ?_, ?_, ?_, ?_⟩⟩
      · intro c hc
        show R.1.lastphn_cand c = _
        rw [q2 c hc, es c, if_neg hc]
      · unfold set_ltrans set_bucket
        dsimp only
        rw [q1]
        funext w
        by_cases hw : w = (sn.1.lastphn_cand i).wid
        · subst hw
          simp only [store_same]
          rfl
        · rw [store_ne _ _ _ _ hw, store_ne _ _ _ _ hw, store_ne _ _ _ _ hw]
          rfl
      · show (store R.1.cand_sf R.2.1 _ R.2.1).cand = i
        rw [store_same]
      · show (store R.1.cand_sf R.2.1 _ R.2.1).bp_ef = _
        rw [store_same]
        show (R.1.cand_sf R.2.1).bp_ef = _
        rcases q4 with ⟨_, _, g3, _, g5⟩ | ⟨g1, _, _, g4⟩
        · rw [g5]
          exact g3
        · rw [g4, g1, store_same]
          rfl
      · intro k hk
        show store R.1.cand_sf R.2.1 _ k = _
        rw [store_ne _ _ _ _ hk]
        rcases q4 with ⟨_, _, _, _, g5⟩ | ⟨g1, _, _, g4⟩
        · rw [g5]
          rfl
        · rw [g4, store_ne _ _ _ _ (by rw [← g1]; exact hk)]
          rfl
      · rcases q4 with ⟨g1, g2, g3, g4, g5⟩ | ⟨g1, g2, g3, g4⟩
        · refine Or.inl ⟨g1, g2, g3, ?_⟩
          show (R.1.lastphn_cand i).next = _
          rw [g4]
          rfl
        · refine Or.inr ⟨g1, g2, ?_⟩
          show (R.1.lastphn_cand i).next = _
          rw [g3]
    · rename_i hfresh
      simp only [Except.ok.injEq] at hr
      subst hr
      refine ⟨hfr, ?_, ?_, ?_, ?_, Or.inl ⟨hfresh, rfl, rfl, rfl⟩⟩
      · intro c hc
        unfold set_cand
        dsimp only
        rw [store_ne _ _ _ _ hc]
      · unfold set_cand
        dsimp only
        rw [store_same]
      · unfold set_cand
        dsimp only
        rw [store_same]
      · unfold set_cand
        dsimp only
        rw [store_same]
        rfl

theorem cand_terms_congr (d s : decoder_t) (i : Int) (h1 : s.lastphn_cand i = d.lastphn_cand i)
    (h2 : s.ngs = d.ngs) (h3 : s.xwd = d.xwd)
    (h4 : s.last_ltrans (d.lastphn_cand i).wid = d.last_ltrans (d.lastphn_cand i).wid) :
    cand_base s i = cand_base d i ∧ cand_ef s i = cand_ef d i ∧
    (cand_fresh s i ↔ cand_fresh d i) ∧ lt_init s i = lt_init d i := by
  have e : rcpermtab_of s = rcpermtab_of d := by
    funext b
    unfold rcpermtab_of
    rw [h3]
  unfold cand_base cand_fresh lt_init cand_ef
  rw [h1, h2, h4, e]
  exact ⟨rfl, rfl, Iff.rfl, rfl⟩

/-- One round of step 1 of `last_phone_transition` keeps its invariant, no
word being a candidate twice. -/
theorem bk_inv_step (d : decoder_t) (i : Int) (s : decoder_t) (m : Int) (Bk : Int → List Int)
    (sn1 : decoder_t × Int) (hi0 : 0 ≤ i) (hin : i < d.n_lastphn_cand)
    (hd : ∀ c c1, 0 ≤ c → c < d.n_lastphn_cand → 0 ≤ c1 → c1 < d.n_lastphn_cand →
      (d.lastphn_cand c).wid = (d.lastphn_cand c1).wid → c = c1)
    (h : bk_inv d i s m Bk) (hr : lpt_bucket i (s, m) = Except.ok sn1) :
    ∃ Bk1, bk_inv d (i + 1) sn1.1 sn1.2 Bk1 := by
  obtain ⟨p1, p2, p3, p4, p5, p6⟩ := lpt_bucket_shape i (s, m) sn1 h.m0 hr
  dsimp only at p1 p2 p3 p4 p5 p6
  have hfr := cand_frame_trans d s sn1.1 h.frame p1
  have ei := h.todo i (le_refl _)
  have hlt : s.last_ltrans (d.lastphn_cand i).wid = d.last_ltrans (d.lastphn_cand i).wid := by
    apply h.lt_old
    intro c hc0 hci _ hw
    have := hd c i hc0 (by omega) hi0 hin hw
    omega
  obtain ⟨_, _, _, _, _, _, engs, _⟩ := cand_frame_fields d s h.frame
  have exwd : s.xwd = d.xwd := by
    have hf := h.frame
    unfold cand_frame at hf
    have e := congrArg (fun x : decoder_t => x.xwd) hf
    exact e
  obtain ⟨t1, t2, t3, t4⟩ := cand_terms_congr d s i ei engs exwd hlt
  have hsame : ∀ c, (sn1.1.lastphn_cand c).wid = (d.lastphn_cand c).wid ∧
      (sn1.1.lastphn_cand c).bp = (d.lastphn_cand c).bp := by
    intro c
    by_cases hc : c = i
    · subst hc
      rw [p3, p4]
      exact h.same c
    · rw [p2 c hc]
      exact h.same c
  have hdone : ∀ c, 0 ≤ c → c < i + 1 → (sn1.1.lastphn_cand c).score = cand_base d c := by
    intro c hc0 hc1
    by_cases hc : c = i
    · subst hc
      rw [p5]
      exact t1
    · rw [p2 c hc]
      exact h.done c hc0 (by omega)
  have htodo : ∀ c, i + 1 ≤ c → sn1.1.lastphn_cand c = d.lastphn_cand c := by
    intro c hc
    rw [p2 c (by omega)]
    exact h.todo c (by omega)
  have hnx : ∀ j, 0 ≤ j → j < m → ∀ b ∈ Bk j,
      (sn1.1.lastphn_cand b).next = (s.lastphn_cand b).next := by
    intro j hj0 hjm b hb
    have := (h.mem j b hj0 hjm hb).2.1
    rw [p2 b (by omega)]
  rcases p6 with ⟨q1, q2, q3, q4⟩ | ⟨q1, q2, j, q3, q4, q5, q6, q7⟩
  · have hnf : ¬ cand_fresh d i := fun g => q1 (t3.2 g)
    have hlt1 : ∀ c, 0 ≤ c → c < i + 1 → cand_fresh d c → c < i := by
      intro c hc0 hc1 hcf
      by_cases hc : c = i
      · subst hc
        exact absurd hcf hnf
      · omega
    refine ⟨Bk, ?_⟩
    have e2 : sn1.2 = m := q2
    rw [e2]
    refine ⟨hfr, hsame, hdone, htodo, ?_, ?_, h.m0, h.out, ?_, ?_, ?_, h.disj, h.nodup⟩
    · intro c hc0 hc1 hcf
      rw [q4]
      exact h.lt_new c hc0 (hlt1 c hc0 hc1 hcf) hcf
    · intro w hw
      rw [q4]
      exact h.lt_old w (fun c hc0 hc1 hcf => hw c hc0 (by omega) hcf)
    · intro k hk0 hkm
      rw [q3]
      exact hom_list_congr _ _ _ _ (hnx k hk0 hkm) (h.chain k hk0 hkm)
    · intro k c hk0 hkm hc
      rw [q3]
      obtain ⟨a1, a2, a3, a4⟩ := h.mem k c hk0 hkm hc
      exact ⟨a1, by omega, a3, a4⟩
    · intro c hc0 hc1 hcf
      exact h.cover c hc0 (hlt1 c hc0 hc1 hcf) hcf
  · have hf : cand_fresh d i := t3.1 q1
    have hjm : j < sn1.2 := by
      rcases q7 with ⟨g1, g2, _⟩ | ⟨g1, g2, _⟩
      · rw [g2]
        exact g1
      · rw [g2, g1]
        omega
    have hm1 : m ≤ sn1.2 := by
      rcases q7 with ⟨g1, g2, _⟩ | ⟨g1, g2, _⟩
      · rw [g2]
      · rw [g2]
        omega
    have hm2 : ∀ k, k < sn1.2 → k ≠ j → k < m := by
      intro k hk hkj
      rcases q7 with ⟨g1, g2, _⟩ | ⟨g1, g2, _⟩
      · rw [g2] at hk
        exact hk
      · rw [g2] at hk
        omega
    have hBkm : ∀ k c, c ∈ Bk k → 0 ≤ k ∧ k < m := by
      intro k c hc
      by_contra hk
      rw [h.out k hk] at hc
      exact absurd hc (List.not_mem_nil _)
    have hinot : ∀ k, i ∉ Bk k := by
      intro k hik
      obtain ⟨hk0, hkm⟩ := hBkm k i hik
      have := (h.mem k i hk0 hkm hik).2.1
      omega
    have hBk1 : ∀ k c, c ∈ (fun k => if k = j then i :: Bk j else Bk k) k ↔
        (k = j ∧ c = i) ∨ c ∈ Bk k := by
      intro k c
      dsimp only
      by_cases hk : k = j
      · subst hk
        rw [if_pos rfl, List.mem_cons]
        constructor
        · rintro (g | g)
          · exact Or.inl ⟨rfl, g⟩
          · exact Or.inr g
        · rintro (⟨_, g⟩ | g)
          · exact Or.inl g
          · exact Or.inr g
      · rw [if_neg hk]
        constructor
        · exact Or.inr
        · rintro (⟨g, _⟩ | g)
          · exact absurd g hk
          · exact g
    have ewi : (s.lastphn_cand i).wid = (d.lastphn_cand i).wid := by rw [ei]
    rw [ewi, t4] at q2
    rw [t2] at q5
    have hsf : ∀ k, 0 ≤ k → k < m → k ≠ j → sn1.1.cand_sf k = s.cand_sf k :=
      fun k _ _ hk => q6 k hk
    have hjef : j < m → (s.cand_sf j).bp_ef = cand_ef d i := by
      intro hj
      rcases q7 with ⟨_, _, g3, _⟩ | ⟨g1, _, _⟩
      · rw [← t2]
        exact g3
      · omega
    refine ⟨fun k => if k = j then i :: Bk j else Bk k, ?_⟩
    refine ⟨hfr, hsame, hdone, htodo, ?_, ?_, by omega, ?_, ?_, ?_, ?_, ?_, ?_⟩
    · intro c hc0 hc1 hcf
      rw [q2]
      by_cases hc : c = i
      · subst hc
        rw [store_same]
      · have hne : (d.lastphn_cand c).wid ≠ (d.lastphn_cand i).wid := by
          intro hw
          exact hc (hd c i hc0 (by omega) hi0 hin hw)
        rw [store_ne _ _ _ _ hne]
        exact h.lt_new c hc0 (by omega) hcf
    · intro w hw
      rw [q2, store_ne _ _ _ _ (fun g => hw i hi0 (by omega) hf g.symm)]
      exact h.lt_old w (fun c hc0 hc1 hcf => hw c hc0 (by omega) hcf)
    · intro k hk
      have hkj : k ≠ j := by
        intro g
        subst g
        exact hk ⟨q3, hjm⟩
      rw [if_neg hkj]
      exact h.out k (fun g => hk ⟨g.1, by omega⟩)
    · intro k hk0 hk1
      by_cases hk : k = j
      · subst hk
        rw [if_pos rfl, q4]
        refine ⟨hi0, rfl, ?_⟩
        rcases q7 with ⟨g1, _, _, g4⟩ | ⟨g1, _, g4⟩
        · dsimp only
          rw [g4]
          exact hom_list_congr _ _ _ _ (hnx k hk0 g1) (h.chain k hk0 g1)
        · dsimp only
          rw [g4, h.out k (fun g => by omega)]
          show (-1 : Int) < 0
          omega
      · rw [if_neg hk, hsf k hk0 (hm2 k hk1 hk) hk]
        exact hom_list_congr _ _ _ _ (hnx k hk0 (hm2 k hk1 hk))
          (h.chain k hk0 (hm2 k hk1 hk))
    · intro k c hk0 hk1 hc
      rcases (hBk1 k c).1 hc with ⟨g1, g2⟩ | g
      · subst g1
        subst g2
        exact ⟨hi0, by omega, hf, q5.symm⟩
      · obtain ⟨b0, b1⟩ := hBkm k c g
        obtain ⟨a1, a2, a3, a4⟩ := h.mem k c b0 b1 g
        refine ⟨a1, by omega, a3, ?_⟩
        by_cases hk : k = j
        · subst hk
          rw [a4, q5]
          exact hjef b1
        · rw [hsf k b0 b1 hk]
          exact a4
    · intro c hc0 hc1 hcf
      by_cases hc : c = i
      · subst hc
        exact ⟨j, q3, hjm, (hBk1 j c).2 (Or.inl ⟨rfl, rfl⟩)⟩
      · obtain ⟨k, a1, a2, a3⟩ := h.cover c hc0 (by omega) hcf
        exact ⟨k, a1, by omega, (hBk1 k c).2 (Or.inr a3)⟩
    · intro k1 k2 c _ _ _ _ hc1 hc2
      rcases (hBk1 k1 c).1 hc1 with ⟨g1, g2⟩ | g
      · rcases (hBk1 k2 c).1 hc2 with ⟨g3, _⟩ | g4
        · rw [g1, g3]
        · subst g2
          exact absurd g4 (hinot k2)
      · rcases (hBk1 k2 c).1 hc2 with ⟨_, g3⟩ | g4
        · subst g3
          exact absurd g (hinot k1)
        · obtain ⟨b0, b1⟩ := hBkm k1 c g
          obtain ⟨b2, b3⟩ := hBkm k2 c g4
          exact h.disj k1 k2 c b0 b1 b2 b3 g g4
    · intro k hk0 hk1
      by_cases hk : k = j
      · subst hk
        rw [if_pos rfl, List.nodup_cons]
        refine ⟨hinot k, ?_⟩
        by_cases hkm : k < m
        · exact h.nodup k hk0 hkm
        · rw [h.out k (fun g => hkm g.2)]
          exact List.nodup_nil
      · rw [if_neg hk]
        exact h.nodup k hk0 (hm2 k hk1 hk)

/-- Step 1 of `last_phone_transition`, no word being a candidate twice. -/
theorem lpt_buckets_spec (d : decoder_t) (r : decoder_t × Int)
    (hd : ∀ c c1, 0 ≤ c → c < d.n_lastphn_cand → 0 ≤ c1 → c1 < d.n_lastphn_cand →
      (d.lastphn_cand c).wid = (d.lastphn_cand c1).wid → c = c1)
    (hr : for_up lpt_bucket d.n_lastphn_cand.toNat 0 (d, 0) = Except.ok r) :
    ∃ Bk, bk_inv d d.n_lastphn_cand.toNat r.1 r.2 Bk := by
  have key := for_up_ind (fun i (sn : decoder_t × Int) => ∃ Bk, bk_inv d i sn.1 sn.2 Bk)
    lpt_bucket d.n_lastphn_cand.toNat 0 (d, 0) r ?_ ?_ hr
  · obtain ⟨Bk, hb⟩ := key
    rw [zero_add] at hb
    exact ⟨Bk, hb⟩
  · intro i sn sn1 hi0 hi1 ⟨Bk, hb⟩ hstep
    exact bk_inv_step d i sn.1 sn.2 Bk sn1 hi0 (by omega) hd hb hstep
  · refine ⟨fun _ => [], cand_frame_refl d, fun _ => ⟨rfl, rfl⟩, ?_, fun _ _ => rfl, ?_,
      fun _ _ => rfl, le_refl _, fun _ _ => rfl, ?_, ?_, ?_, ?_, ?_⟩
    · intro c hc0 hc1
      omega
    · intro c hc0 hc1
      omega
    · intro j hj0 hj1
      omega
    · intro j c hj0 hj1
      omega
    · intro c hc0 hc1
      omega
    · intro j k c hj0 hj1
      omega
    · intro j hj0 hj1
      omega

theorem lt_only_refl (d : decoder_t) : lt_only d d := by
  unfold lt_only
  rfl

theorem lt_only_trans (d s t : decoder_t) (h1 : lt_only d s) (h2 : lt_only s t) :
    lt_only d t := by
  unfold lt_only at h1 h2 ⊢
  rw [h2, h1]

theorem lt_only_set_ltrans (d : decoder_t) (w : Int) (v : last_ltrans_t) :
    lt_only d (set_ltrans d w v) := by
  unfold lt_only
  rfl

theorem lt_only_fields (d s : decoder_t) (h : lt_only d s) :
    s.ngs = d.ngs ∧ s.xwd = d.xwd ∧ s.lastphn_cand = d.lastphn_cand ∧
    s.cand_sf = d.cand_sf ∧ s.n_lastphn_cand = d.n_lastphn_cand ∧
    s.last_phone_best_score = d.last_phone_best_score ∧ s.lponlybeam = d.lponlybeam := by
  unfold lt_only at h
  have e1 := congrArg (fun x : decoder_t => x.ngs) h
  have e2 := congrArg (fun x : decoder_t => x.xwd) h
  have e3 := congrArg (fun x : decoder_t => x.lastphn_cand) h
  have e4 := congrArg (fun x : decoder_t => x.cand_sf) h
  have e5 := congrArg (fun x : decoder_t => x.n_lastphn_cand) h
  have e6 := congrArg (fun x : decoder_t => x.last_phone_best_score) h
  have e7 := congrArg (fun x : decoder_t => x.lponlybeam) h
  exact ⟨e1, e2, e3, e4, e5, e6, e7⟩

theorem lt_step_congr (env : env_t) (d s : decoder_t) (h2 : s.ngs = d.ngs) (h3 : s.xwd = d.xwd)
    (w bp : Int) (v : last_ltrans_t) : lt_step env s w bp v = lt_step env d w bp v := by
  have e : rcpermtab_of s = rcpermtab_of d := by
    funext b
    unfold rcpermtab_of
    rw [h3]
  unfold lt_step lm_cand
  rw [h2, e]

/-- Step 2 of `last_phone_transition` for one backpointer entry and one
bucket whose chain `l` holds no word twice: the entry of every word of the
chain takes one update. -/
theorem lpt_score_spec (env : env_t) (bp : Int) (d : decoder_t) :
    ∀ (l : List Int) (fuel : Nat) (j0 : Int) (s s1 : decoder_t),
      lt_only d s →
      hom_list (fun x => (d.lastphn_cand x).next) j0 l →
      (∀ c ∈ l, ∀ c1 ∈ l, (d.lastphn_cand c).wid = (d.lastphn_cand c1).wid → c = c1) →
      l.Nodup →
      for_list is_neg (fun (s : decoder_t) j => (s.lastphn_cand j).next)
        (fun j (s : decoder_t) =>
          let wid := (s.lastphn_cand j).wid
          let de := s.ngs.dict.dict_list wid
          let ciph0 := de.ci_phone_ids 0
          let dscr := s.ngs.bscore_stack ((d.ngs.bp_table bp).s_idx +
              rcpermtab_of d (d.ngs.bp_table bp) ciph0)
            + env.tg_score de.wid (d.ngs.bp_table bp).real_wid (d.ngs.bp_table bp).prev_real_wid
          if (s.last_ltrans wid).dscr < dscr then
            let s1 := set_ltrans s wid { s.last_ltrans wid with dscr := dscr }
            Except.ok (set_ltrans s1 wid { s1.last_ltrans wid with bp := bp })
          else Except.ok s)
        fuel j0 s = Except.ok s1 →
      lt_only d s1 ∧
      (∀ c ∈ l, s1.last_ltrans (d.lastphn_cand c).wid =
        if (s.last_ltrans (d.lastphn_cand c).wid).dscr < lm_cand env d bp (d.lastphn_cand c).wid
        then { s.last_ltrans (d.lastphn_cand c).wid with
          dscr := lm_cand env d bp (d.lastphn_cand c).wid, bp := bp }
        else s.last_ltrans (d.lastphn_cand c).wid) ∧
      (∀ w, (∀ c ∈ l, (d.lastphn_cand c).wid ≠ w) → s1.last_ltrans w = s.last_ltrans w) := by
  intro l
  induction l with
  | nil =>
    intro fuel j0 s s1 hs hl _ _ hr
    have hj : j0 < 0 := hl
    cases fuel with
    | zero => simp [for_list] at hr
    | succ fuel =>
      have hn : is_neg j0 = true := by simp [is_neg, hj]
      rw [for_list] at hr
      simp only [hn, if_true, Except.ok.injEq] at hr
      subst hr
      exact ⟨hs, fun c hc => absurd hc (List.not_mem_nil c), fun _ _ => rfl⟩
  | cons b l ih =>
    intro fuel j0 s s1 hs hl hw hnd hr
    obtain ⟨hj0, hjb, hl1⟩ := hl
    subst hjb
    obtain ⟨e1, e2, e3, _⟩ := lt_only_fields d s hs
    have hjl : j0 ∉ l := (List.nodup_cons.1 hnd).1
    have hnd1 : l.Nodup := (List.nodup_cons.1 hnd).2
    have hw1 : ∀ c ∈ l, ∀ c1 ∈ l, (d.lastphn_cand c).wid = (d.lastphn_cand c1).wid → c = c1 :=
      fun c hc c1 hc1 => hw c (List.mem_cons_of_mem _ hc) c1 (List.mem_cons_of_mem _ hc1)
    have hne : ∀ c ∈ l, (d.lastphn_cand c).wid ≠ (d.lastphn_cand j0).wid := by
      intro c hc g
      have := hw c (List.mem_cons_of_mem _ hc) j0 (List.mem_cons_self _ _) g
      subst this
      exact hjl hc
    cases fuel with
    | zero => simp [for_list] at hr
    | succ fuel =>
      have hn : is_neg j0 = false := by simp [is_neg, hj0]
      rw [for_list] at hr
      simp only [hn, Bool.false_eq_true, if_false] at hr
      split at hr
      · simp at hr
      · rename_i s2 hb
        rw [e1, e3] at hb
        have elm : d.ngs.bscore_stack ((d.ngs.bp_table bp).s_idx +
            rcpermtab_of d (d.ngs.bp_table bp)
              ((d.ngs.dict.dict_list (d.lastphn_cand j0).wid).ci_phone_ids 0)) +
            env.tg_score (d.ngs.dict.dict_list (d.lastphn_cand j0).wid).wid
              (d.ngs.bp_table bp).real_wid (d.ngs.bp_table bp).prev_real_wid =
            lm_cand env d bp (d.lastphn_cand j0).wid := rfl
        rw [elm] at hb
        have es : ∀ w, (set_ltrans
              (set_ltrans s (d.lastphn_cand j0).wid
                { s.last_ltrans (d.lastphn_cand j0).wid with
                  dscr := lm_cand env d bp (d.lastphn_cand j0).wid })
              (d.lastphn_cand j0).wid
              { (set_ltrans s (d.lastphn_cand j0).wid
                  { s.last_ltrans (d.lastphn_cand j0).wid with
                    dscr := lm_cand env d bp (d.lastphn_cand j0).wid }).last_ltrans
                  (d.lastphn_cand j0).wid with bp := bp }).last_ltrans w =
            if w = (d.lastphn_cand j0).wid then
              { s.last_ltrans (d.lastphn_cand j0).wid with
                dscr := lm_cand env d bp (d.lastphn_cand j0).wid, bp := bp }
            else s.last_ltrans w := by
          intro w
          unfold set_ltrans
          dsimp only
          by_cases hw0 : w = (d.lastphn_cand j0).wid
          · subst hw0
            simp only [store_same, if_true]
          · rw [store_ne _ _ _ _ hw0, store_ne _ _ _ _ hw0, if_neg hw0]
        split at hb
        · rename_i hlt
          simp only [Except.ok.injEq] at hb
          subst hb
          have hnx : ((set_ltrans
                (set_ltrans s (d.lastphn_cand j0).wid
                  { s.last_ltrans (d.lastphn_cand j0).wid with
                    dscr := lm_cand env d bp (d.lastphn_cand j0).wid })
                (d.lastphn_cand j0).wid
                { (set_ltrans s (d.lastphn_cand j0).wid
                    { s.last_ltrans (d.lastphn_cand j0).wid with
                      dscr := lm_cand env d bp (d.lastphn_cand j0).wid }).last_ltrans
                    (d.lastphn_cand j0).wid with bp := bp }).lastphn_cand j0).next =
              (d.lastphn_cand j0).next := by
            show (s.lastphn_cand j0).next = _
            rw [e3]
          rw [hnx] at hr
          obtain ⟨q1, q2, q3⟩ := ih fuel _ _ s1
            (lt_only_trans _ _ _ (lt_only_trans _ _ _ hs (lt_only_set_ltrans _ _ _))
              (lt_only_set_ltrans _ _ _)) hl1 hw1 hnd1 hr
          refine ⟨q1, ?_, ?_⟩
          · intro c hc
            rcases List.mem_cons.1 hc with g | g
            · subst g
              rw [q3 _ (fun c1 hc1 => hne c1 hc1), es, if_pos rfl, if_pos hlt]
            · rw [q2 c g, es, if_neg (hne c g)]
          · intro w hw2
            rw [q3 w (fun c hc => hw2 c (List.mem_cons_of_mem _ hc)), es,
              if_neg (fun g => hw2 j0 (List.mem_cons_self _ _) g.symm)]
        · rename_i hlt
          simp only [Except.ok.injEq] at hb
          subst hb
          have hnx : (s.lastphn_cand j0).next = (d.lastphn_cand j0).next := by
            rw [e3]
          rw [hnx] at hr
          obtain ⟨q1, q2, q3⟩ := ih fuel _ _ s1 hs hl1 hw1 hnd1 hr
          refine ⟨q1, ?_, ?_⟩
          · intro c hc
            rcases List.mem_cons.1 hc with g | g
            · subst g
              rw [q3 _ (fun c1 hc1 => hne c1 hc1), if_neg hlt]
            · exact q2 c g
          · intro w hw2
            exact q3 w (fun c hc => hw2 c (List.mem_cons_of_mem _ hc))

theorem iter_up_succ_last {σ : Type} (body : Int → σ → σ) (n : Nat) :
    ∀ (lo : Int) (s : σ), iter_up body (n + 1) lo s = body (lo + n) (iter_up body n lo s) := by
  induction n with
  | zero =>
    intro lo s
    simp [iter_up]
  | succ n ih =>
    intro lo s
    rw [iter_up, ih (lo + 1) (body lo s)]
    have e : lo + 1 + (n : Int) = lo + ((n + 1 : Nat) : Int) := by
      push_cast
      omega
    rw [e]
    rfl

/-- Step 2 of `last_phone_transition` for one backpointer entry and one
bucket, as `lt_step` on the entries of the words of the chain. -/
theorem lpt_score_step (env : env_t) (fuel : Nat) (bp j0 : Int) (d t t1 : decoder_t)
    (l : List Int) (ht : lt_only d t)
    (hl : hom_list (fun x => (d.lastphn_cand x).next) j0 l)
    (hw : ∀ c ∈ l, ∀ c1 ∈ l, (d.lastphn_cand c).wid = (d.lastphn_cand c1).wid → c = c1)
    (hnd : l.Nodup) (hr : lpt_score env fuel bp j0 t = Except.ok t1) :
    lt_only d t1 ∧
    (∀ c ∈ l, t1.last_ltrans (d.lastphn_cand c).wid =
      lt_step env d (d.lastphn_cand c).wid bp (t.last_ltrans (d.lastphn_cand c).wid)) ∧
    (∀ w, (∀ c ∈ l, (d.lastphn_cand c).wid ≠ w) → t1.last_ltrans w = t.last_ltrans w) := by
  obtain ⟨e1, e2, _⟩ := lt_only_fields d t ht
  have e : rcpermtab_of t = rcpermtab_of d := by
    funext b
    unfold rcpermtab_of
    rw [e2]
  unfold lpt_score at hr
  dsimp only at hr
  rw [e1, e] at hr
  split at hr
  · rename_i hv
    simp only [Except.ok.injEq] at hr
    subst hr
    refine ⟨ht, ?_, fun _ _ => rfl⟩
    intro c _
    unfold lt_step
    rw [if_pos hv]
  · rename_i hv
    obtain ⟨q1, q2, q3⟩ := lpt_score_spec env bp d l fuel j0 t t1 ht hl hw hnd hr
    refine ⟨q1, ?_, q3⟩
    intro c hc
    rw [q2 c hc]
    unfold lt_step
    rw [if_neg hv]

/-- Step 2 of `last_phone_transition` for one bucket over `n` backpointer
entries from `lo`: the entries of the words of its chain take the updates of
`lt_run`. -/
theorem lpt_bucket_run (env : env_t) (fuel : Nat) (d t t1 : decoder_t) (j : Int)
    (l : List Int) (n : Nat) (lo : Int) (ht : lt_only d t)
    (hl : hom_list (fun x => (d.lastphn_cand x).next) (d.cand_sf j).cand l)
    (hw : ∀ c ∈ l, ∀ c1 ∈ l, (d.lastphn_cand c).wid = (d.lastphn_cand c1).wid → c = c1)
    (hnd : l.Nodup)
    (hr : for_up (fun bp (s1 : decoder_t) => lpt_score env fuel bp (s1.cand_sf j).cand s1)
      n lo t = Except.ok t1) :
    lt_only d t1 ∧
    (∀ c ∈ l, t1.last_ltrans (d.lastphn_cand c).wid =
      lt_run env d (d.lastphn_cand c).wid n lo (t.last_ltrans (d.lastphn_cand c).wid)) ∧
    (∀ w, (∀ c ∈ l, (d.lastphn_cand c).wid ≠ w) → t1.last_ltrans w = t.last_ltrans w) := by
  have key := for_up_ind
    (fun b (s : decoder_t) => lt_only d s ∧
      (∀ c ∈ l, ∃ k : Nat, lo + k = b ∧ s.last_ltrans (d.lastphn_cand c).wid =
        lt_run env d (d.lastphn_cand c).wid k lo (t.last_ltrans (d.lastphn_cand c).wid)) ∧
      (∀ w, (∀ c ∈ l, (d.lastphn_cand c).wid ≠ w) → s.last_ltrans w = t.last_ltrans w))
    _ n lo t t1 ?_ ?_ hr
  · obtain ⟨k1, k2, k3⟩ := key
    refine ⟨k1, ?_, k3⟩
    intro c hc
    obtain ⟨k, hk, e⟩ := k2 c hc
    have hkn : k = n := by omega
    subst hkn
    exact e
  · intro b s s1 hb1 hb2 ⟨p1, p2, p3⟩ hstep
    obtain ⟨_, _, _, e4, _⟩ := lt_only_fields d s p1
    rw [e4] at hstep
    obtain ⟨q1, q2, q3⟩ := lpt_score_step env fuel b _ d s s1 l p1 hl hw hnd hstep
    refine ⟨q1, ?_, ?_⟩
    · intro c hc
      obtain ⟨k, hk, e⟩ := p2 c hc
      refine ⟨k + 1, by push_cast; omega, ?_⟩
      rw [q2 c hc, e]
      unfold lt_run
      rw [iter_up_succ_last, hk]
    · intro w hw2
      rw [q3 w hw2]
      exact p3 w hw2
  · exact ⟨ht, fun c _ => ⟨0, by simp, rfl⟩, fun _ _ => rfl⟩

/-- Step 2 of `last_phone_transition` over `m` buckets with the chains `Bk`,
no word being in two chains or twice in one: the entry of every chained word
takes the updates for the backpointer entries of the end frame of its bucket,
the other entries stay. -/
theorem lpt_scores_spec (env : env_t) (fuel : Nat) (d d2 : decoder_t) (m : Int)
    (Bk : Int → List Int)
    (hch : ∀ j, 0 ≤ j → j < m →
      hom_list (fun x => (d.lastphn_cand x).next) (d.cand_sf j).cand (Bk j))
    (hnd : ∀ j, 0 ≤ j → j < m → (Bk j).Nodup)
    (hdisj : ∀ j k c, 0 ≤ j → j < m → 0 ≤ k → k < m → c ∈ Bk j → c ∈ Bk k → j = k)
    (hwid : ∀ j k c c1, 0 ≤ j → j < m → 0 ≤ k → k < m → c ∈ Bk j → c1 ∈ Bk k →
      (d.lastphn_cand c).wid = (d.lastphn_cand c1).wid → c = c1)
    (hr : for_up
      (fun i (s : decoder_t) =>
        let bp0 := s.ngs.bp_table_idx (s.cand_sf i).bp_ef
        let bplast := s.ngs.bp_table_idx ((s.cand_sf i).bp_ef + 1) - 1
        for_up (fun bp (s1 : decoder_t) => lpt_score env fuel bp (s1.cand_sf i).cand s1)
          (bplast - bp0 + 1).toNat bp0 s)
      m.toNat 0 d = Except.ok d2) :
    lt_only d d2 ∧
    (∀ j c, 0 ≤ j → j < m → c ∈ Bk j →
      d2.last_ltrans (d.lastphn_cand c).wid =
        lt_run env d (d.lastphn_cand c).wid
          (d.ngs.bp_table_idx ((d.cand_sf j).bp_ef + 1) - 1 -
            d.ngs.bp_table_idx (d.cand_sf j).bp_ef + 1).toNat
          (d.ngs.bp_table_idx (d.cand_sf j).bp_ef) (d.last_ltrans (d.lastphn_cand c).wid)) ∧
    (∀ w, (∀ j c, 0 ≤ j → j < m → c ∈ Bk j → (d.lastphn_cand c).wid ≠ w) →
      d2.last_ltrans w = d.last_ltrans w) := by
  have key := for_up_ind
    (fun i (s : decoder_t) => lt_only d s ∧
      (∀ j c, 0 ≤ j → j < m → j < i → c ∈ Bk j →
        s.last_ltrans (d.lastphn_cand c).wid =
          lt_run env d (d.lastphn_cand c).wid
            (d.ngs.bp_table_idx ((d.cand_sf j).bp_ef + 1) - 1 -
              d.ngs.bp_table_idx (d.cand_sf j).bp_ef + 1).toNat
            (d.ngs.bp_table_idx (d.cand_sf j).bp_ef)
            (d.last_ltrans (d.lastphn_cand c).wid)) ∧
      (∀ w, (∀ j c, 0 ≤ j → j < m → j < i → c ∈ Bk j → (d.lastphn_cand c).wid ≠ w) →
        s.last_ltrans w = d.last_ltrans w))
    _ m.toNat 0 d d2 ?_ ?_ hr
  · obtain ⟨k1, k2, k3⟩ := key
    exact ⟨k1, fun j c hj0 hjm hc => k2 j c hj0 hjm (by omega) hc,
      fun w hw => k3 w (fun j c hj0 hjm _ hc => hw j c hj0 hjm hc)⟩
  · intro i s s1 hi0 hi1 ⟨p1, p2, p3⟩ hstep
    have him : i < m := by omega
    obtain ⟨e1, _, _, e4, _⟩ := lt_only_fields d s p1
    dsimp only at hstep
    rw [e1, e4] at hstep
    obtain ⟨q1, q2, q3⟩ := lpt_bucket_run env fuel d s s1 i (Bk i) _ _ p1 (hch i hi0 him)
      (fun c hc c1 hc1 => hwid i i c c1 hi0 him hi0 him hc hc1) (hnd i hi0 him) hstep
    refine ⟨q1, ?_, ?_⟩
    · intro j c hj0 hjm hji hc
      by_cases hj : j = i
      · subst hj
        rw [q2 c hc, p3]
        intro k c1 hk0 hkm hkj hc1 hw
        have := hwid k j c1 c hk0 hkm hj0 hjm hc1 hc hw
        subst this
        have := hdisj k j c1 hk0 hkm hj0 hjm hc1 hc
        omega
      · rw [q3]
        · exact p2 j c hj0 hjm (by omega) hc
        · intro c1 hc1 hw
          have := hwid i j c1 c hi0 him hj0 hjm hc1 hc hw
          subst this
          exact hj (hdisj i j c1 hi0 him hj0 hjm hc1 hc).symm
    · intro w hw
      rw [q3 w (fun c hc => hw i c hi0 him (by omega) hc)]
      exact p3 w (fun j c hj0 hjm hji hc => hw j c hj0 hjm (by omega) hc)
  · exact ⟨lt_only_refl d, fun j c hj0 _ hji _ => by omega, fun _ _ => rfl⟩

/-- Step 3 of `last_phone_transition`: every candidate takes the score and
the backpointer of the entry of its word. -/
theorem lpt_apply_spec (d : decoder_t) (n : Nat) (b0 : Int) :
    (iter_up
      (fun i (sb : decoder_t × Int) =>
        let wid := (sb.1.lastphn_cand i).wid
        let s1 := set_cand sb.1 i
          { sb.1.lastphn_cand i with
            score := (sb.1.lastphn_cand i).score + (sb.1.last_ltrans wid).dscr }
        let s2 := set_cand s1 i
          { s1.lastphn_cand i with bp := (s1.last_ltrans (s1.lastphn_cand i).wid).bp }
        (s2, if sb.2 < (s2.lastphn_cand i).score then (s2.lastphn_cand i).score else sb.2))
      n 0 (d, b0)).1.n_lastphn_cand = d.n_lastphn_cand ∧
    ∀ c : Int, 0 ≤ c → c < n →
      ((iter_up
        (fun i (sb : decoder_t × Int) =>
          let wid := (sb.1.lastphn_cand i).wid
          let s1 := set_cand sb.1 i
            { sb.1.lastphn_cand i with
              score := (sb.1.lastphn_cand i).score + (sb.1.last_ltrans wid).dscr }
          let s2 := set_cand s1 i
            { s1.lastphn_cand i with bp := (s1.last_ltrans (s1.lastphn_cand i).wid).bp }
          (s2, if sb.2 < (s2.lastphn_cand i).score then (s2.lastphn_cand i).score else sb.2))
        n 0 (d, b0)).1.lastphn_cand c).wid = (d.lastphn_cand c).wid ∧
      ((iter_up
        (fun i (sb : decoder_t × Int) =>
          let wid := (sb.1.lastphn_cand i).wid
          let s1 := set_cand sb.1 i
            { sb.1.lastphn_cand i with
              score := (sb.1.lastphn_cand i).score + (sb.1.last_ltrans wid).dscr }
          let s2 := set_cand s1 i
            { s1.lastphn_cand i with bp := (s1.last_ltrans (s1.lastphn_cand i).wid).bp }
          (s2, if sb.2 < (s2.lastphn_cand i).score then (s2.lastphn_cand i).score else sb.2))
        n 0 (d, b0)).1.lastphn_cand c).score =
        (d.lastphn_cand c).score + (d.last_ltrans (d.lastphn_cand c).wid).dscr ∧
      ((iter_up
        (fun i (sb : decoder_t × Int) =>
          let wid := (sb.1.lastphn_cand i).wid
          let s1 := set_cand sb.1 i
            { sb.1.lastphn_cand i with
              score := (sb.1.lastphn_cand i).score + (sb.1.last_ltrans wid).dscr }
          let s2 := set_cand s1 i
            { s1.lastphn_cand i with bp := (s1.last_ltrans (s1.lastphn_cand i).wid).bp }
          (s2, if sb.2 < (s2.lastphn_cand i).score then (s2.lastphn_cand i).score else sb.2))
        n 0 (d, b0)).1.lastphn_cand c).bp = (d.last_ltrans (d.lastphn_cand c).wid).bp := by
  have key := iter_up_ind
    (fun i (sb : decoder_t × Int) => sb.1.n_lastphn_cand = d.n_lastphn_cand ∧
      sb.1.last_ltrans = d.last_ltrans ∧
      (∀ c, i ≤ c → sb.1.lastphn_cand c = d.lastphn_cand c) ∧
      (∀ c, 0 ≤ c → c < i →
        (sb.1.lastphn_cand c).wid = (d.lastphn_cand c).wid ∧
        (sb.1.lastphn_cand c).score =
          (d.lastphn_cand c).score + (d.last_ltrans (d.lastphn_cand c).wid).dscr ∧
        (sb.1.lastphn_cand c).bp = (d.last_ltrans (d.lastphn_cand c).wid).bp))
    (fun i (sb : decoder_t × Int) =>
      let wid := (sb.1.lastphn_cand i).wid
      let s1 := set_cand sb.1 i
        { sb.1.lastphn_cand i with
          score := (sb.1.lastphn_cand i).score + (sb.1.last_ltrans wid).dscr }
      let s2 := set_cand s1 i
        { s1.lastphn_cand i with bp := (s1.last_ltrans (s1.lastphn_cand i).wid).bp }
      (s2, if sb.2 < (s2.lastphn_cand i).score then (s2.lastphn_cand i).score else sb.2))
    n 0 (d, b0) ?_ ?_
  · obtain ⟨k1, _, _, k4⟩ := key
    exact ⟨k1, fun c hc0 hc1 => k4 c hc0 (by omega)⟩
  · intro i sb hi0 hi1 ⟨p1, p2, p3, p4⟩
    have ei := p3 i (le_refl _)
    have es : ∀ (X : lastphn_cand_t) (c : Int), (set_cand sb.1 i X).lastphn_cand c =
        if c = i then X else sb.1.lastphn_cand c := fun _ _ => rfl
    have es2 : ∀ (t : decoder_t) (X : lastphn_cand_t) (c : Int),
        (set_cand t i X).lastphn_cand c = if c = i then X else t.lastphn_cand c :=
      fun _ _ _ => rfl
    dsimp only
    refine ⟨p1, p2, ?_, ?_⟩
    · intro c hc
      rw [es2, if_neg (by omega), es2, if_neg (by omega)]
      exact p3 c (by omega)
    · intro c hc0 hc1
      by_cases hc : c = i
      · subst hc
        rw [es2, if_pos rfl]
        dsimp only
        rw [es2, if_pos rfl]
        dsimp only
        rw [ei]
        refine ⟨rfl, ?_, ?_⟩
        · show _ + (sb.1.last_ltrans _).dscr = _
          rw [p2]
        · show (sb.1.last_ltrans _).bp = _
          rw [p2]
      · rw [es2, if_neg hc, es2, if_neg hc]
        exact p4 c hc0 (by omega)
  · exact ⟨rfl, rfl, fun _ _ => rfl, fun c hc0 hc1 => by omega⟩

theorem alloc_rc_loop_cands (sseq_rc : Int → Int) (ciphone : Int) (fuel : Nat) :
    ∀ (i hmm : Int) (d d1 : decoder_t),
      alloc_rc_loop sseq_rc ciphone fuel i hmm d = Except.ok d1 →
      d1.lastphn_cand = d.lastphn_cand := by
  induction fuel with
  | zero =>
    intro i hmm d d1 hr
    simp [alloc_rc_loop] at hr
  | succ n ih =>
    intro i hmm d d1 hr
    simp only [alloc_rc_loop] at hr
    split at hr
    · split at hr
      · rw [ih _ _ _ _ hr]
        rfl
      · exact ih _ _ _ _ hr
    · simp only [Except.ok.injEq] at hr
      subst hr
      rfl

theorem alloc_all_rc_cands (fuel : Nat) (d d1 : decoder_t) (w : Int)
    (hr : alloc_all_rc fuel d w = Except.ok d1) : d1.lastphn_cand = d.lastphn_cand := by
  unfold alloc_all_rc at hr
  dsimp only at hr
  split at hr
  · simp at hr
  · split at hr
    · rw [alloc_rc_loop_cands _ _ fuel _ _ _ _ hr]
      rfl
    · exact alloc_rc_loop_cands _ _ fuel _ _ _ _ hr

theorem lpt_enter_cands (fuel : Nat) (fi thresh i : Int) (sn sn1 : decoder_t × Int)
    (X : Int → lastphn_cand_t) (hd : sn.1.lastphn_cand = X)
    (hr : lpt_enter fuel fi thresh i sn = Except.ok sn1) : sn1.1.lastphn_cand = X := by
  unfold lpt_enter at hr
  dsimp only at hr
  split at hr
  · split at hr
    · simp at hr
    · rename_i d1 ha
      have h1 : d1.lastphn_cand = X := by
        rw [alloc_all_rc_cands fuel _ _ _ ha]
        exact hd
      split at hr
      · simp at hr
      · rename_i d2 k hl
        have h2 := for_list_inv
          (fun t : decoder_t × Int => t.1.lastphn_cand = X) _ _ _ ?_ _ _ _ _ ?_ hl
        · split at hr
          · split at hr
            · simp at hr
            · split at hr
              · simp at hr
              · simp only [Except.ok.injEq] at hr
                subst hr
                exact h2
          · simp only [Except.ok.injEq] at hr
            subst hr
            exact h2
        · clear hl hr
          intro a t t1 _ ht hb
          split at hb
          · split at hb
            · simp at hb
            · simp only [Except.ok.injEq] at hb
              subst hb
              exact ht
          · simp only [Except.ok.injEq] at hb
            subst hb
            exact ht
        · exact h1
  · simp only [Except.ok.injEq] at hr
    subst hr
    exact hd

theorem lt_run_congr (env : env_t) (d s : decoder_t) (h2 : s.ngs = d.ngs) (h3 : s.xwd = d.xwd)
    (w : Int) (n : Nat) (lo : Int) (v : last_ltrans_t) :
    lt_run env s w n lo v = lt_run env d w n lo v := by
  have e : lt_step env s w = lt_step env d w := by
    funext b x
    exact lt_step_congr env d s h2 h3 w b x
  unfold lt_run
  rw [e]

/-- The entry of a candidate's word after steps 1 and 2 of
`last_phone_transition`, no word being a candidate twice, is `lt_final`. -/
theorem lpt_entry_final (env : env_t) (fuel : Nat) (d0 d1 d2 : decoder_t) (m : Int)
    (Bk : Int → List Int)
    (hd : ∀ c c1, 0 ≤ c → c < d0.n_lastphn_cand → 0 ≤ c1 → c1 < d0.n_lastphn_cand →
      (d0.lastphn_cand c).wid = (d0.lastphn_cand c1).wid → c = c1)
    (hb : bk_inv d0 d0.n_lastphn_cand.toNat d1 m Bk)
    (h2 : for_up
      (fun i (s : decoder_t) =>
        let bp0 := s.ngs.bp_table_idx (s.cand_sf i).bp_ef
        let bplast := s.ngs.bp_table_idx ((s.cand_sf i).bp_ef + 1) - 1
        for_up (fun bp (s1 : decoder_t) => lpt_score env fuel bp (s1.cand_sf i).cand s1)
          (bplast - bp0 + 1).toNat bp0 s)
      m.toNat 0 d1 = Except.ok d2) :
    lt_only d1 d2 ∧
    ∀ c, 0 ≤ c → c < d0.n_lastphn_cand →
      d2.last_ltrans (d0.lastphn_cand c).wid = lt_final env d0 c := by
  have hw1 : ∀ c, (d1.lastphn_cand c).wid = (d0.lastphn_cand c).wid := fun c => (hb.same c).1
  have hnx : (fun x => (d1.lastphn_cand x).next) = fun x => (d1.lastphn_cand x).next := rfl
  obtain ⟨q1, q2, q3⟩ := lpt_scores_spec env fuel d1 d2 m Bk hb.chain hb.nodup hb.disj
    (by
      intro j k c c1 hj0 hjm hk0 hkm hc hc1 hw
      rw [hw1 c, hw1 c1] at hw
      obtain ⟨a1, a2, _⟩ := hb.mem j c hj0 hjm hc
      obtain ⟨b1, b2, _⟩ := hb.mem k c1 hk0 hkm hc1
      exact hd c c1 a1 (by omega) b1 (by omega) hw) h2
  obtain ⟨_, _, _, _, _, _, engs, _⟩ := cand_frame_fields d0 d1 hb.frame
  have exwd : d1.xwd = d0.xwd := by
    have hf := hb.frame
    unfold cand_frame at hf
    have e := congrArg (fun x : decoder_t => x.xwd) hf
    exact e
  refine ⟨q1, ?_⟩
  intro c hc0 hc1
  by_cases hf : cand_fresh d0 c
  · obtain ⟨j, hj0, hjm, hcj⟩ := hb.cover c hc0 (by omega) hf
    have e1 := q2 j c hj0 hjm hcj
    rw [hw1 c, hb.lt_new c hc0 (by omega) hf, ← (hb.mem j c hj0 hjm hcj).2.2.2, engs,
      lt_run_congr env d0 d1 engs exwd] at e1
    rw [e1]
    unfold lt_final
    unfold cand_fresh at hf
    rw [if_pos hf]
  · have hne : ∀ c1, 0 ≤ c1 → c1 < d0.n_lastphn_cand → cand_fresh d0 c1 →
        (d0.lastphn_cand c1).wid ≠ (d0.lastphn_cand c).wid := by
      intro c1 h0 h1 hf1 hw
      have := hd c1 c h0 h1 hc0 hc1 hw
      subst this
      exact hf hf1
    rw [q3, hb.lt_old]
    · unfold lt_final
      unfold cand_fresh at hf
      rw [if_neg hf]
    · intro c1 h0 h1 hf1
      exact hne c1 h0 (by omega) hf1
    · intro j c1 hj0 hjm hc1
      obtain ⟨a1, a2, a3, _⟩ := hb.mem j c1 hj0 hjm hc1
      rw [hw1 c1]
      exact hne c1 a1 (by omega) a3

/-- The candidates after `last_phone_transition`, no word being a candidate
twice: each has lost the entry score of its first phone and gained the score
of the entry `lt_final` of its word, whose backpointer it carries. -/
theorem lpt_cands_spec (env : env_t) (fuel : Nat) (d dl : decoder_t) (f : Int)
    (hd : ∀ c c1, 0 ≤ c → c < d.n_lastphn_cand → 0 ≤ c1 → c1 < d.n_lastphn_cand →
      (d.lastphn_cand c).wid = (d.lastphn_cand c1).wid → c = c1)
    (hr : last_phone_transition env fuel d f = Except.ok dl) :
    ∀ c, 0 ≤ c → c < d.n_lastphn_cand →
      (dl.lastphn_cand c).wid = (d.lastphn_cand c).wid ∧
      (dl.lastphn_cand c).score = cand_base d c + (lt_final env d c).dscr ∧
      (dl.lastphn_cand c).bp = (lt_final env d c).bp := by
  unfold last_phone_transition at hr
  dsimp only at hr
  split at hr
  · simp at hr
  · rename_i d1 ncs h1
    have hbk := lpt_buckets_spec
      { d with n_lastphn_cand_utt := d.n_lastphn_cand_utt + d.n_lastphn_cand }
      _ hd h1
    obtain ⟨Bk, hb⟩ := hbk
    split at hr
    · simp at hr
    · rename_i d2 h2
      have hg := lpt_entry_final env fuel
        { d with n_lastphn_cand_utt := d.n_lastphn_cand_utt + d.n_lastphn_cand }
        d1 d2 ncs Bk hd hb h2
      obtain ⟨g1, g2⟩ := hg
      obtain ⟨_, _, e3, _, e5, _⟩ := lt_only_fields d1 d2 g1
      obtain ⟨a1, a2⟩ := lpt_apply_spec d2 d2.n_lastphn_cand.toNat d2.last_phone_best_score
      generalize hR : iter_up _ d2.n_lastphn_cand.toNat 0 (d2, d2.last_phone_best_score) = R
        at hr a1 a2
      split at hr
      · simp at hr
      · rename_i d4 n h4
        simp only [Except.ok.injEq] at hr
        subst hr
        have h5 : d4.lastphn_cand = R.1.lastphn_cand := by
          have := for_up_inv (fun sn : decoder_t × Int => sn.1.lastphn_cand = R.1.lastphn_cand)
            _ _ _ _ _ ?_ ?_ h4
          · exact this
          · intro i sn sn1 _ _ hs hb1
            exact lpt_enter_cands fuel f _ i sn sn1 _ hs hb1
          · rfl
        obtain ⟨_, _, _, _, _, _, _, _, _, en⟩ := cand_frame_fields _ d1 hb.frame
        intro c hc0 hc1
        have hc2 : c < (d2.n_lastphn_cand.toNat : Int) := by
          rw [e5, en]
          show c < ((d.n_lastphn_cand).toNat : Int)
          omega
        obtain ⟨b1, b2, b3⟩ := a2 c hc0 hc2
        have ew : (d2.lastphn_cand c).wid = (d.lastphn_cand c).wid := by
          rw [e3]
          exact (hb.same c).1
        have eg := g2 c hc0 hc1
        have eg1 : d2.last_ltrans (d.lastphn_cand c).wid = lt_final env d c := eg
        show (d4.lastphn_cand c).wid = _ ∧ (d4.lastphn_cand c).score = _ ∧
          (d4.lastphn_cand c).bp = _
        rw [h5, b1, b2, b3, ew, eg1, e3]
        refine ⟨rfl, ?_, rfl⟩
        have := hb.done c hc0 (by omega)
        rw [this]
        rfl

theorem lt_best_range (env : env_t) (d : decoder_t) (lo hi hi1 w bp0 : Int)
    (v : last_ltrans_t) (hh : ∀ b, lo ≤ b → (b < hi ↔ b < hi1))
    (h : lt_best env d lo hi w bp0 v) : lt_best env d lo hi1 w bp0 v := by
  obtain ⟨h1, h2, h3⟩ := h
  refine ⟨h1, fun b hb1 hb2 hb3 => h2 b hb1 ((hh b hb1).2 hb2) hb3, ?_⟩
  rcases h3 with h3 | ⟨g1, g2, g3, g4, g5⟩
  · exact Or.inl h3
  · exact Or.inr ⟨g1, (hh _ g1).1 g2, g3, g4, g5⟩

/-! ### The candidates of a frame -/

theorem cd_mono (d : decoder_t) (f : Int) (S S1 : Int → Prop) (s : decoder_t)
    (h : ∀ w, S w → S1 w) (hc : cd_inv d f S s) : cd_inv d f S1 s :=
  ⟨hc.hs, hc.pen, hc.info, hc.cur, hc.nroot, hc.n0, hc.inj,
    fun c hc0 hc1 => h _ (hc.src c hc0 hc1)⟩

theorem cd_set_chan_hmm (d : decoder_t) (f : Int) (S : Int → Prop) (s : decoder_t) (a : Int)
    (h : hmm_t) (hc : cd_inv d f S s) : cd_inv d f S (set_chan_hmm s a h) := by
  refine ⟨hc.hs, hc.pen, ?_, hc.cur, hc.nroot, hc.n0, hc.inj, hc.src⟩
  intro b
  unfold set_chan_hmm
  dsimp only
  by_cases hb : b = a
  · subst hb
    rw [store_same]
    exact hc.info b
  · rw [store_ne _ _ _ _ hb]
    exact hc.info b

theorem cd_set_root_hmm (d : decoder_t) (f : Int) (S : Int → Prop) (s : decoder_t) (i : Int)
    (h : hmm_t) (hc : cd_inv d f S s) : cd_inv d f S (set_root_hmm s i h) := by
  refine ⟨hc.hs, ?_, hc.info, hc.cur, hc.nroot, hc.n0, hc.inj, hc.src⟩
  intro j
  unfold set_root_hmm
  dsimp only
  by_cases hj : j = i
  · subst hj
    rw [store_same]
    exact hc.pen j
  · rw [store_ne _ _ _ _ hj]
    exact hc.pen j

theorem cd_push_chan (d : decoder_t) (f : Int) (S : Int → Prop) (s : decoder_t) (n a : Int)
    (hc : cd_inv d f S s) : cd_inv d f S (push_chan s (parity (f + 1)) n a) := by
  refine ⟨hc.hs, hc.pen, hc.info, ?_, hc.nroot, hc.n0, hc.inj, hc.src⟩
  unfold push_chan
  dsimp only
  rw [store_ne _ _ _ _ (parity_succ_ne f).symm]
  exact hc.cur

theorem cd_set_count (d : decoder_t) (f : Int) (S : Int → Prop) (s : decoder_t) (n : Int)
    (hc : cd_inv d f S s) :
    cd_inv d f S { s with n_active_chan := store s.n_active_chan (parity (f + 1)) n } :=
  ⟨hc.hs, hc.pen, hc.info, hc.cur, hc.nroot, hc.n0, hc.inj, hc.src⟩

/-- The emission of the candidates of one parent, whose homophone chain `l`
holds no word twice and no word emitted before. -/
theorem cd_emit (d : decoder_t) (f sc bp : Int) :
    ∀ (l : List Int) (fuel : Nat) (w0 : Int) (S : Int → Prop) (s s1 : decoder_t),
      cd_inv d f S s → hom_list d.homophone_set w0 l → l.Nodup → (∀ w ∈ l, ¬ S w) →
      emit_cands fuel s w0 sc bp = Except.ok s1 →
      cd_inv d f (fun w => S w ∨ w ∈ l) s1 ∧ s1.chan = s.chan ∧ s1.root_chan = s.root_chan ∧
      s1.active_chan_list = s.active_chan_list := by
  intro l
  induction l with
  | nil =>
    intro fuel w0 S s s1 hc hl _ _ hr
    have hw : w0 < 0 := hl
    unfold emit_cands at hr
    cases fuel with
    | zero => simp [for_list] at hr
    | succ fuel =>
      have hn : is_neg w0 = true := by simp [is_neg, hw]
      rw [for_list] at hr
      simp only [hn, if_true, Except.ok.injEq] at hr
      subst hr
      exact ⟨cd_mono d f _ _ s (fun w h => Or.inl h) hc, rfl, rfl, rfl⟩
  | cons b l ih =>
    intro fuel w0 S s s1 hc hl hnd hS hr
    obtain ⟨hw0, hwb, hl1⟩ := hl
    subst hwb
    unfold emit_cands at hr
    cases fuel with
    | zero => simp [for_list] at hr
    | succ fuel =>
      have hn : is_neg w0 = false := by simp [is_neg, hw0]
      rw [for_list] at hr
      simp only [hn, Bool.false_eq_true, if_false] at hr
      have hc1 : cd_inv d f (fun w => S w ∨ w = w0) (add_cand s w0 (sc - s.nwpen) bp) := by
        have es : ∀ c, (add_cand s w0 (sc - s.nwpen) bp).lastphn_cand c =
            if c = s.n_lastphn_cand then
              { s.lastphn_cand s.n_lastphn_cand with wid := w0, score := sc - s.nwpen, bp := bp }
            else s.lastphn_cand c := fun _ => rfl
        have en : (add_cand s w0 (sc - s.nwpen) bp).n_lastphn_cand = s.n_lastphn_cand + 1 := rfl
        have hn0 := hc.n0
        refine ⟨hc.hs, hc.pen, hc.info, hc.cur, hc.nroot, by rw [en]; omega, ?_, ?_⟩
        · intro c c1 h0 h1 h2 h3 hw
          rw [en] at h1 h3
          rw [es c, es c1] at hw
          by_cases e1 : c = s.n_lastphn_cand
          · by_cases e2 : c1 = s.n_lastphn_cand
            · rw [e1, e2]
            · rw [if_pos e1, if_neg e2] at hw
              have := hc.src c1 h2 (by omega)
              rw [← hw] at this
              exact absurd this (hS w0 (List.mem_cons_self _ _))
          · by_cases e2 : c1 = s.n_lastphn_cand
            · rw [if_neg e1, if_pos e2] at hw
              have := hc.src c h0 (by omega)
              rw [hw] at this
              exact absurd this (hS w0 (List.mem_cons_self _ _))
            · rw [if_neg e1, if_neg e2] at hw
              exact hc.inj c c1 h0 (by omega) h2 (by omega) hw
        · intro c h0 h1
          rw [en] at h1
          rw [es c]
          by_cases e1 : c = s.n_lastphn_cand
          · rw [if_pos e1]
            exact Or.inr rfl
          · rw [if_neg e1]
            exact Or.inl (hc.src c h0 (by omega))
      have hnx : (add_cand s w0 (sc - s.nwpen) bp).homophone_set w0 = d.homophone_set w0 := by
        show s.homophone_set w0 = _
        rw [hc.hs]
      rw [hnx] at hr
      have hw0l : w0 ∉ l := (List.nodup_cons.1 hnd).1
      obtain ⟨q1, q2, q3, q4⟩ := ih fuel _ _ _ s1 hc1 hl1 (List.nodup_cons.1 hnd).2
        (by
          intro w hw hSw
          rcases hSw with h | h
          · exact hS w (List.mem_cons_of_mem _ hw) h
          · subst h
            exact hw0l hw)
        (by
          unfold emit_cands
          exact hr)
      refine ⟨cd_mono d f _ _ s1 ?_ q1, ?_, ?_, ?_⟩
      · intro w hw
        rcases hw with (h | h) | h
        · exact Or.inl h
        · exact Or.inr (by rw [h]; exact List.mem_cons_self _ _)
        · exact Or.inr (List.mem_cons_of_mem _ h)
      · rw [q2]
        rfl
      · rw [q3]
        rfl
      · rw [q4]
        rfl
/-- The candidates `prune_root_chan` emits: words of the homophone chains of
the roots, none twice. -/
theorem prune_root_cands (fuel : Nat) (d d1 : decoder_t) (f : Int) (N : Int → Prop)
    (H : parent_t → List Int)
    (hch : ∀ p, is_par d N p → hom_list d.homophone_set (penult d p) (H p))
    (hnd : ∀ p, is_par d N p → (H p).Nodup)
    (hdj : ∀ p q w, is_par d N p → is_par d N q → w ∈ H p → w ∈ H q → p = q)
    (h0 : d.n_lastphn_cand = 0)
    (hr : prune_root_chan fuel d f = Except.ok d1) :
    cd_inv d f (fun w => ∃ j, 0 ≤ j ∧ j < d.n_root_chan ∧ w ∈ H (parent_t.root j)) d1 := by
  unfold prune_root_chan at hr
  dsimp only at hr
  split at hr
  · simp at hr
  · rename_i s n heq
    simp only [Except.ok.injEq] at hr
    subst hr
    apply cd_set_count
    have h := for_up_ind (fun i (sn : decoder_t × Int) =>
        cd_inv d f (fun w => ∃ j, 0 ≤ j ∧ j < i ∧ j < d.n_root_chan ∧
          w ∈ H (parent_t.root j)) sn.1) _
      d.n_root_chan.toNat 0 (d, 0) (s, n) ?_ ?_ heq
    · exact cd_mono d f _ _ s (fun w ⟨j, a1, _, a3, a4⟩ => ⟨j, a1, a3, a4⟩) h
    · intro i sn sn1 hi0 hin hinv hb
      have hin1 : i < d.n_root_chan := by omega
      have hmono : ∀ t, cd_inv d f (fun w => ∃ j, 0 ≤ j ∧ j < i ∧ j < d.n_root_chan ∧
          w ∈ H (parent_t.root j)) t →
          cd_inv d f (fun w => ∃ j, 0 ≤ j ∧ j < i + 1 ∧ j < d.n_root_chan ∧
            w ∈ H (parent_t.root j)) t :=
        fun t ht => cd_mono d f _ _ t
          (fun w ⟨j, a1, a2, a3, a4⟩ => ⟨j, a1, by omega, a3, a4⟩) ht
      split at hb
      · simp only [Except.ok.injEq] at hb
        subst hb
        exact hmono _ hinv
      · split at hb
        · have hinv1 := cd_set_root_hmm d f _ sn.1 i
            (hmm_set_frame (sn.1.root_chan i).hmm (f + 1)) hinv
          split at hb
          · split at hb
            · simp at hb
            · rename_i s2 n2 hl
              have g := for_list_inv (fun t : decoder_t × Int =>
                  cd_inv d f (fun w => ∃ j, 0 ≤ j ∧ j < i ∧ j < d.n_root_chan ∧
                    w ∈ H (parent_t.root j)) t.1) _ _ _ ?_ _ _ _ _ hinv1 hl
              · split at hb
                · split at hb
                  · simp at hb
                  · rename_i s3 he
                    simp only [Except.ok.injEq] at hb
                    subst hb
                    have hp : is_par d N (parent_t.root i) := ⟨hi0, hin1⟩
                    have hc := hch _ hp
                    have epen : (s2.root_chan i).penult_phn_wid = penult d (parent_t.root i) :=
                      g.pen i
                    rw [epen] at he
                    obtain ⟨q1, _⟩ := cd_emit d f _ _ (H (parent_t.root i)) fuel _ _ s2 s3
                      g hc (hnd _ hp)
                      (by
                        intro w hw ⟨j, a1, a2, a3, a4⟩
                        have := hdj (parent_t.root i) (parent_t.root j) w hp ⟨a1, a3⟩ hw a4
                        simp only [parent_t.root.injEq] at this
                        omega)
                      he
                    refine cd_mono d f _ _ s3 ?_ q1
                    intro w hw
                    rcases hw with ⟨j, a1, a2, a3, a4⟩ | hw
                    · exact ⟨j, a1, by omega, a3, a4⟩
                    · exact ⟨i, hi0, by omega, hin1, hw⟩
                · simp only [Except.ok.injEq] at hb
                  subst hb
                  exact hmono _ g
              · intro a t t1 _ ht hb1
                split at hb1
                · simp only [Except.ok.injEq] at hb1
                  subst hb1
                  exact cd_push_chan d f _ _ _ _ (cd_set_chan_hmm d f _ _ _ _ ht)
                · simp only [Except.ok.injEq] at hb1
                  subst hb1
                  exact ht
          · simp only [Except.ok.injEq] at hb
            subst hb
            exact hmono _ hinv1
        · simp only [Except.ok.injEq] at hb
          subst hb
          exact hmono _ hinv
    · refine ⟨rfl, fun _ => rfl, fun _ => rfl, rfl, rfl, by rw [h0], ?_, ?_⟩
      · intro c c1 hc0 hc1
        rw [h0] at hc1
        omega
      · intro c hc0 hc1
        rw [h0] at hc1
        omega
/-- The candidates `prune_nonroot_chan` adds: words of the homophone chains of
the listed nodes, none twice and none emitted by a root, the list of the frame
holding no node twice. -/
theorem prune_nonroot_cands (fuel : Nat) (d d1 d2 : decoder_t) (f : Int) (N : Int → Prop)
    (H : parent_t → List Int)
    (hch : ∀ p, is_par d N p → hom_list d.homophone_set (penult d p) (H p))
    (hnd : ∀ p, is_par d N p → (H p).Nodup)
    (hdj : ∀ p q w, is_par d N p → is_par d N q → w ∈ H p → w ∈ H q → p = q)
    (hlN : ∀ k, 0 ≤ k → k < d1.n_active_chan (parity f) →
      N (d.active_chan_list (parity f) k))
    (hinj : ∀ i j, 0 ≤ i → i < d1.n_active_chan (parity f) → 0 ≤ j →
      j < d1.n_active_chan (parity f) →
      d.active_chan_list (parity f) i = d.active_chan_list (parity f) j → i = j)
    (hinv : cd_inv d f (fun w => ∃ j, 0 ≤ j ∧ j < d.n_root_chan ∧ w ∈ H (parent_t.root j)) d1)
    (hr : prune_nonroot_chan fuel d1 f = Except.ok d2) :
    cd_inv d f (fun w => ∃ p, is_par d N p ∧ w ∈ H p) d2 := by
  unfold prune_nonroot_chan at hr
  dsimp only at hr
  split at hr
  · simp at hr
  · rename_i s n heq
    simp only [Except.ok.injEq] at hr
    subst hr
    apply cd_set_count
    have h := for_up_ind (fun k (sn : decoder_t × Int) =>
        cd_inv d f (fun w => (∃ j, 0 ≤ j ∧ j < d.n_root_chan ∧ w ∈ H (parent_t.root j)) ∨
          ∃ k1, 0 ≤ k1 ∧ k1 < k ∧ k1 < d1.n_active_chan (parity f) ∧
            w ∈ H (parent_t.node (d.active_chan_list (parity f) k1))) sn.1) _
      (d1.n_active_chan (parity f)).toNat 0 (d1, d1.n_active_chan (parity (f + 1))) (s, n)
      ?_ ?_ heq
    · refine cd_mono d f _ _ s ?_ h
      intro w hw
      rcases hw with ⟨j, a1, a2, a3⟩ | ⟨k1, a1, _, a3, a4⟩
      · exact ⟨parent_t.root j, ⟨a1, a2⟩, a3⟩
      · exact ⟨parent_t.node _, hlN k1 a1 a3, a4⟩
    · intro k sn sn1 hk0 hkn hi hb
      have hkn1 : k < d1.n_active_chan (parity f) := by omega
      have hmono : ∀ t, cd_inv d f
          (fun w => (∃ j, 0 ≤ j ∧ j < d.n_root_chan ∧ w ∈ H (parent_t.root j)) ∨
            ∃ k1, 0 ≤ k1 ∧ k1 < k ∧ k1 < d1.n_active_chan (parity f) ∧
              w ∈ H (parent_t.node (d.active_chan_list (parity f) k1))) t →
          cd_inv d f
            (fun w => (∃ j, 0 ≤ j ∧ j < d.n_root_chan ∧ w ∈ H (parent_t.root j)) ∨
              ∃ k1, 0 ≤ k1 ∧ k1 < k + 1 ∧ k1 < d1.n_active_chan (parity f) ∧
                w ∈ H (parent_t.node (d.active_chan_list (parity f) k1))) t :=
        fun t ht => cd_mono d f _ _ t
          (fun w hw => hw.imp id (fun ⟨k1, a1, a2, a3, a4⟩ => ⟨k1, a1, by omega, a3, a4⟩)) ht
      rw [hi.cur] at hb
      have haN := hlN k hk0 hkn1
      have hak : ∀ k1, 0 ≤ k1 → k1 < k → k1 < d1.n_active_chan (parity f) →
          d.active_chan_list (parity f) k1 ≠ d.active_chan_list (parity f) k := by
        intro k1 a1 a2 a3 e
        have := hinj k1 k a1 a3 hk0 hkn1 e
        omega
      generalize ha : d.active_chan_list (parity f) k = a at hb haN hak
      split at hb
      · simp at hb
      · split at hb
        · have hsn1 : cd_inv d f
              (fun w => (∃ j, 0 ≤ j ∧ j < d.n_root_chan ∧ w ∈ H (parent_t.root j)) ∨
                ∃ k1, 0 ≤ k1 ∧ k1 < k ∧ k1 < d1.n_active_chan (parity f) ∧
                  w ∈ H (parent_t.node (d.active_chan_list (parity f) k1)))
              (if (sn.1.chan a).hmm.frame ≠ f + 1 then
                (push_chan (set_chan_hmm sn.1 a (hmm_set_frame (sn.1.chan a).hmm (f + 1)))
                  (parity (f + 1)) sn.2 a, sn.2 + 1)
              else sn).1 := by
            by_cases hfr : (sn.1.chan a).hmm.frame ≠ f + 1
            · rw [if_pos hfr]
              exact cd_push_chan d f _ _ _ _ (cd_set_chan_hmm d f _ _ _ _ hi)
            · rw [if_neg hfr]
              exact hi
          generalize (if (sn.1.chan a).hmm.frame ≠ f + 1 then
                (push_chan (set_chan_hmm sn.1 a (hmm_set_frame (sn.1.chan a).hmm (f + 1)))
                  (parity (f + 1)) sn.2 a, sn.2 + 1)
              else sn) = u at hb hsn1
          split at hb
          · split at hb
            · simp at hb
            · rename_i s2 n2 hl
              have g := for_list_inv (fun t : decoder_t × Int =>
                  cd_inv d f
                    (fun w => (∃ j, 0 ≤ j ∧ j < d.n_root_chan ∧ w ∈ H (parent_t.root j)) ∨
                      ∃ k1, 0 ≤ k1 ∧ k1 < k ∧ k1 < d1.n_active_chan (parity f) ∧
                        w ∈ H (parent_t.node (d.active_chan_list (parity f) k1))) t.1)
                _ _ _ ?_ _ _ _ _ hsn1 hl
              · split at hb
                · split at hb
                  · simp at hb
                  · rename_i s3 he
                    simp only [Except.ok.injEq] at hb
                    subst hb
                    have hp : is_par d N (parent_t.node a) := haN
                    have hc := hch _ hp
                    have epen : (s2.chan a).info = penult d (parent_t.node a) := g.info a
                    rw [epen] at he
                    obtain ⟨q1, _⟩ := cd_emit d f _ _ (H (parent_t.node a)) fuel _ _ s2 s3
                      g hc (hnd _ hp)
                      (by
                        intro w hw hS
                        rcases hS with ⟨j, a1, a2, a3⟩ | ⟨k1, a1, a2, a3, a4⟩
                        · have := hdj (parent_t.node a) (parent_t.root j) w hp ⟨a1, a2⟩ hw a3
                          simp at this
                        · have := hdj (parent_t.node a) (parent_t.node _) w hp
                            (hlN k1 a1 a3) hw a4
                          simp only [parent_t.node.injEq] at this
                          exact hak k1 a1 a2 a3 this.symm)
                      he
                    refine cd_mono d f _ _ s3 ?_ q1
                    intro w hw
                    rcases hw with (hw | ⟨k1, a1, a2, a3, a4⟩) | hw
                    · exact Or.inl hw
                    · exact Or.inr ⟨k1, a1, by omega, a3, a4⟩
                    · exact Or.inr ⟨k, hk0, by omega, hkn1, by rw [ha]; exact hw⟩
                · simp only [Except.ok.injEq] at hb
                  subst hb
                  exact hmono _ g
              · intro c t t1 _ ht hb1
                split at hb1
                · simp only [Except.ok.injEq] at hb1
                  subst hb1
                  apply cd_set_chan_hmm
                  split
                  · exact cd_push_chan d f _ _ _ _ ht
                  · exact ht
                · simp only [Except.ok.injEq] at hb1
                  subst hb1
                  exact ht
          · simp only [Except.ok.injEq] at hb
            subst hb
            exact hmono _ hsn1
        · split at hb
          · simp only [Except.ok.injEq] at hb
            subst hb
            exact hmono _ (cd_set_chan_hmm d f _ _ _ _ hi)
          · simp only [Except.ok.injEq] at hb
            subst hb
            exact hmono _ hi
    · refine cd_mono d f _ _ d1 (fun w hw => Or.inl hw) hinv

/-! ### Passes that leave the tree, the lists and the leaves alone -/

theorem quiet_refl (d : decoder_t) : quiet d d :=
  ⟨rfl, rfl, rfl, rfl, rfl, rfl, rfl, rfl, rfl, fun _ => ⟨rfl, rfl, rfl, rfl⟩,
    fun _ => ⟨rfl, rfl⟩⟩

theorem quiet_trans (a b c : decoder_t) (h1 : quiet a b) (h2 : quiet b c) : quiet a c := by
  refine ⟨h2.hs.trans h1.hs, h2.nroot.trans h1.nroot, h2.dict.trans h1.dict,
    h2.top.trans h1.top, h2.wc.trans h1.wc, h2.acl.trans h1.acl, h2.nac.trans h1.nac,
    h2.awl.trans h1.awl, h2.naw.trans h1.naw, fun x => ?_, fun i => ?_⟩
  · obtain ⟨p1, p2, p3, p4⟩ := h1.cells x
    obtain ⟨q1, q2, q3, q4⟩ := h2.cells x
    exact ⟨q1.trans p1, q2.trans p2, q3.trans p3, q4.trans p4⟩
  · obtain ⟨p1, p2⟩ := h1.roots i
    obtain ⟨q1, q2⟩ := h2.roots i
    exact ⟨q1.trans p1, q2.trans p2⟩

theorem quiet_set_root_hmm (d : decoder_t) (i : Int) (h : hmm_t) :
    quiet d (set_root_hmm d i h) := by
  refine ⟨rfl, rfl, rfl, rfl, rfl, rfl, rfl, rfl, rfl, fun _ => ⟨rfl, rfl, rfl, rfl⟩,
    fun j => ?_⟩
  unfold set_root_hmm store
  dsimp only
  by_cases hj : j = i
  · rw [if_pos hj, hj]
    exact ⟨rfl, rfl⟩
  · rw [if_neg hj]
    exact ⟨rfl, rfl⟩

theorem quiet_set_rhmm_hmm (d : decoder_t) (w : Int) (h : hmm_t) :
    quiet d (set_rhmm_hmm d w h) :=
  ⟨rfl, rfl, rfl, rfl, rfl, rfl, rfl, rfl, rfl, fun _ => ⟨rfl, rfl, rfl, rfl⟩,
    fun _ => ⟨rfl, rfl⟩⟩

theorem quiet_set_chan_hmm (d : decoder_t) (a : Int) (h : hmm_t)
    (hf : h.frame = (d.chan a).hmm.frame) : quiet d (set_chan_hmm d a h) := by
  refine ⟨rfl, rfl, rfl, rfl, rfl, rfl, rfl, rfl, rfl, fun x => ?_, fun _ => ⟨rfl, rfl⟩⟩
  unfold set_chan_hmm store
  dsimp only
  by_cases hx : x = a
  · rw [if_pos hx, hx]
    exact ⟨rfl, rfl, rfl, hf⟩
  · rw [if_neg hx]
    exact ⟨rfl, rfl, rfl, rfl⟩

theorem quiet_set_ngs (d : decoder_t) (ngs : ngram_search_t) (h : ngs.dict = d.ngs.dict) :
    quiet d (set_ngs d ngs) :=
  ⟨rfl, rfl, h, rfl, rfl, rfl, rfl, rfl, rfl, fun _ => ⟨rfl, rfl, rfl, rfl⟩,
    fun _ => ⟨rfl, rfl⟩⟩

theorem is_par_congr (d s : decoder_t) (N : Int → Prop) (h : s.n_root_chan = d.n_root_chan)
    (p : parent_t) : is_par s N p ↔ is_par d N p := by
  cases p with
  | root i =>
    unfold is_par
    rw [h]
  | node a => exact Iff.rfl

/-- The tree stays well formed when the links of roots and cells, the
homophone chains and the dictionary stay. -/
theorem tree_ok_congr (d s : decoder_t) (N : Int → Prop) (KR : Int → List Int)
    (H : parent_t → List Int) (ht : tree_ok d N KR H)
    (hs : s.homophone_set = d.homophone_set) (hn : s.n_root_chan = d.n_root_chan)
    (hd : s.ngs.dict = d.ngs.dict)
    (hc : ∀ a, N a → (s.chan a).next = (d.chan a).next ∧ (s.chan a).alt = (d.chan a).alt ∧
      (s.chan a).info = (d.chan a).info)
    (hr : ∀ i, (s.root_chan i).next = (d.root_chan i).next ∧
      (s.root_chan i).penult_phn_wid = (d.root_chan i).penult_phn_wid) :
    tree_ok s N KR H := by
  have hp := is_par_congr d s N hn
  have hpen : ∀ p, is_par d N p → penult s p = penult d p := by
    intro p hq
    cases p with
    | root i => exact (hr i).2
    | node a => exact (hc a hq).2.2
  refine { kr := ?_, krN := ?_, krd := ?_, nnext := ?_, nalt := ?_, hch := ?_, hnd := ?_,
           hdj := ?_, hmp := ?_ }
  · intro i hi0 hin
    rw [hn] at hin
    rw [(hr i).1]
    exact chain_seg_congr _ _ _ _ _ (fun a ha => (hc a (ht.krN i hi0 hin a ha)).2.1)
      (ht.kr i hi0 hin)
  · intro i hi0 hin
    rw [hn] at hin
    exact ht.krN i hi0 hin
  · intro i j c hi0 hin hj0 hjn
    rw [hn] at hin hjn
    exact ht.krd i j c hi0 hin hj0 hjn
  · intro c hc1
    rw [(hc c hc1).1]
    exact ht.nnext c hc1
  · intro c hc1
    rw [(hc c hc1).2.1]
    exact ht.nalt c hc1
  · intro p hq
    rw [hs, hpen p ((hp p).mp hq)]
    exact ht.hch p ((hp p).mp hq)
  · intro p hq
    exact ht.hnd p ((hp p).mp hq)
  · intro p q w h1 h2
    exact ht.hdj p q w ((hp p).mp h1) ((hp q).mp h2)
  · intro p w hq hw
    rw [hd]
    exact ht.hmp p w ((hp p).mp hq) hw

theorem is_par_quiet (d s : decoder_t) (N : Int → Prop) (h : quiet d s) (p : parent_t) :
    is_par s N p ↔ is_par d N p := is_par_congr d s N h.nroot p

theorem penult_quiet (d s : decoder_t) (h : quiet d s) (p : parent_t) :
    penult s p = penult d p := by
  cases p with
  | root i => exact (h.roots i).2
  | node a => exact (h.cells a).2.2.1

theorem tree_ok_quiet (d s : decoder_t) (N : Int → Prop) (KR : Int → List Int)
    (H : parent_t → List Int) (ht : tree_ok d N KR H) (h : quiet d s) : tree_ok s N KR H := by
  have hp := is_par_quiet d s N h
  refine { kr := ?_, krN := ?_, krd := ?_, nnext := ?_, nalt := ?_, hch := ?_, hnd := ?_,
           hdj := ?_, hmp := ?_ }
  · intro i hi0 hin
    rw [h.nroot] at hin
    rw [(h.roots i).1]
    exact chain_seg_congr _ _ _ _ _ (fun a _ => (h.cells a).2.1) (ht.kr i hi0 hin)
  · intro i hi0 hin
    rw [h.nroot] at hin
    exact ht.krN i hi0 hin
  · intro i j c hi0 hin hj0 hjn
    rw [h.nroot] at hin hjn
    exact ht.krd i j c hi0 hin hj0 hjn
  · intro c hc
    rw [(h.cells c).1]
    exact ht.nnext c hc
  · intro c hc
    rw [(h.cells c).2.1]
    exact ht.nalt c hc
  · intro p hq
    rw [h.hs, penult_quiet d s h p]
    exact ht.hch p ((hp p).mp hq)
  · intro p hq
    exact ht.hnd p ((hp p).mp hq)
  · intro p q w h1 h2
    exact ht.hdj p q w ((hp p).mp h1) ((hp q).mp h2)
  · intro p w hq hw
    rw [h.dict]
    exact ht.hmp p w ((hp p).mp hq) hw

theorem leaf_heap_quiet (d s : decoder_t) (C : Int → List Int) (hh : leaf_heap d C)
    (h : quiet d s) : leaf_heap s C := by
  refine { top := ?_, chain := fun w => ?_, disj := hh.disj, bound := ?_ }
  · rw [h.top]
    exact hh.top
  · rw [h.wc]
    exact chain_seg_congr _ _ _ _ _ (fun a _ => (h.cells a).1) (hh.chain w)
  · rw [h.top]
    exact hh.bound

theorem on_list_quiet (d s : decoder_t) (h : quiet d s) (f n w : Int) :
    on_list s f n w ↔ on_list d f n w := by
  unfold on_list
  rw [h.awl]

theorem run_inv_quiet (N : Int → Prop) (KR : Int → List Int) (H : parent_t → List Int)
    (f : Int) (d s : decoder_t) (C : Int → List Int) (hi : run_inv N KR H f d C)
    (h : quiet d s) : run_inv N KR H f s C := by
  refine { tree := tree_ok_quiet d s N KR H hi.tree h, f0 := hi.f0,
           heap := leaf_heap_quiet d s C hi.heap h, nbound := ?_, nleaf := hi.nleaf,
           cinj := ?_, cmem := ?_, cst := ?_, winj := ?_, wst := ?_,
           wlive := ?_ }
  · rw [h.top]
    exact hi.nbound
  · rw [h.acl, h.nac]
    exact hi.cinj
  · rw [h.acl, h.nac]
    exact hi.cmem
  · intro a ha1
    rw [(h.cells a).2.2.2]
    exact hi.cst a ha1
  · rw [h.awl, h.naw]
    exact hi.winj
  · intro w a ha1
    rw [(h.cells a).2.2.2]
    exact hi.wst w a ha1
  · intro w hw
    rw [h.naw, on_list_quiet d s h]
    exact hi.wlive w hw
theorem calm_refl (d : decoder_t) : calm d d := ⟨quiet_refl d, rfl, rfl⟩

theorem calm_trans (a b c : decoder_t) (h1 : calm a b) (h2 : calm b c) : calm a c :=
  ⟨quiet_trans a b c h1.1 h2.1, h2.2.1.trans h1.2.1, h2.2.2.trans h1.2.2⟩

theorem calm_congr (d s s1 : decoder_t) (h : calm d s)
    (e1 : s1.homophone_set = s.homophone_set) (e2 : s1.n_root_chan = s.n_root_chan)
    (e3 : s1.ngs.dict = s.ngs.dict) (e4 : s1.heap_top = s.heap_top)
    (e5 : s1.word_chan = s.word_chan) (e6 : s1.active_chan_list = s.active_chan_list)
    (e7 : s1.n_active_chan = s.n_active_chan) (e8 : s1.active_word_list = s.active_word_list)
    (e9 : s1.n_active_word = s.n_active_word) (e10 : s1.chan = s.chan)
    (e11 : s1.root_chan = s.root_chan) (e12 : s1.word_active = s.word_active)
    (e13 : s1.output_frame = s.output_frame) : calm d s1 := by
  refine calm_trans d s s1 h ⟨⟨e1, e2, e3, e4, e5, e6, e7, e8, e9, fun a => ?_, fun i => ?_⟩,
    e12, e13⟩
  · rw [e10]
    exact ⟨rfl, rfl, rfl, rfl⟩
  · rw [e11]
    exact ⟨rfl, rfl⟩

theorem calm_set_root_hmm (d : decoder_t) (i : Int) (h : hmm_t) :
    calm d (set_root_hmm d i h) := ⟨quiet_set_root_hmm d i h, rfl, rfl⟩

theorem calm_set_rhmm_hmm (d : decoder_t) (w : Int) (h : hmm_t) :
    calm d (set_rhmm_hmm d w h) := ⟨quiet_set_rhmm_hmm d w h, rfl, rfl⟩

theorem calm_set_chan_hmm (d : decoder_t) (a : Int) (h : hmm_t)
    (hf : h.frame = (d.chan a).hmm.frame) : calm d (set_chan_hmm d a h) :=
  ⟨quiet_set_chan_hmm d a h hf, rfl, rfl⟩

theorem calm_set_ngs (d : decoder_t) (ngs : ngram_search_t) (h : ngs.dict = d.ngs.dict) :
    calm d (set_ngs d ngs) := ⟨quiet_set_ngs d ngs h, rfl, rfl⟩

theorem calm_set_bestbp_rc (d : decoder_t) (rc : Int) (v : bestbp_rc_t) :
    calm d (set_bestbp_rc d rc v) :=
  ⟨⟨rfl, rfl, rfl, rfl, rfl, rfl, rfl, rfl, rfl, fun _ => ⟨rfl, rfl, rfl, rfl⟩,
    fun _ => ⟨rfl, rfl⟩⟩, rfl, rfl⟩

theorem calm_set_ltrans (d : decoder_t) (w : Int) (v : last_ltrans_t) :
    calm d (set_ltrans d w v) :=
  ⟨⟨rfl, rfl, rfl, rfl, rfl, rfl, rfl, rfl, rfl, fun _ => ⟨rfl, rfl, rfl, rfl⟩,
    fun _ => ⟨rfl, rfl⟩⟩, rfl, rfl⟩

/-- The mark of the frame in the backpointer table is calm. -/
theorem calm_mark (d : decoder_t) (f : Int) : calm d (ngram_search_mark_bptable d f) :=
  ⟨⟨rfl, rfl, rfl, rfl, rfl, rfl, rfl, rfl, rfl, fun _ => ⟨rfl, rfl, rfl, rfl⟩,
    fun _ => ⟨rfl, rfl⟩⟩, rfl, rfl⟩

/-- The renormalisation pass is calm. -/
theorem calm_renormalize (fuel : Nat) (d d1 : decoder_t) (f norm : Int)
    (hr : renormalize_scores fuel d f norm = Except.ok d1) : calm d d1 := by
  unfold renormalize_scores at hr
  dsimp only at hr
  split at hr
  · simp at hr
  · rename_i d3 h3
    simp only [Except.ok.injEq] at hr
    subst hr
    have k1 : calm d (iter_up
        (fun i (s : decoder_t) =>
          if (s.root_chan i).hmm.frame = f then
            set_root_hmm s i (hmm_normalize (s.root_chan i).hmm norm)
          else s)
        d.n_root_chan.toNat 0 d) := by
      apply iter_up_inv (fun s : decoder_t => calm d s)
      · intro i s _ _ hs
        dsimp only
        split
        · exact calm_trans d s _ hs (calm_set_root_hmm s i _)
        · exact hs
      · exact calm_refl d
    generalize iter_up _ d.n_root_chan.toNat 0 d = e1 at h3 k1
    have k2 : calm d (iter_up
        (fun k (s : decoder_t) =>
          set_chan_hmm s (s.active_chan_list (parity f) k)
            (hmm_normalize (s.chan (s.active_chan_list (parity f) k)).hmm norm))
        (e1.n_active_chan (parity f)).toNat 0 e1) := by
      apply iter_up_inv (fun s : decoder_t => calm d s)
      · intro i s _ _ hs
        exact calm_trans d s _ hs (calm_set_chan_hmm s _ _ rfl)
      · exact k1
    generalize iter_up _ (e1.n_active_chan (parity f)).toNat 0 e1 = e2 at h3 k2
    have k3 : calm d d3 := by
      refine for_up_inv (fun s : decoder_t => calm d s) _ _ _ _ _ ?_ k2 h3
      intro i s s1 _ _ hs hb
      refine for_list_inv (fun s : decoder_t => calm d s) _ _ _ ?_ _ _ _ _ hs hb
      intro p t t1 _ ht hb1
      simp only [Except.ok.injEq] at hb1
      subst hb1
      exact calm_trans d t _ ht (calm_set_chan_hmm t _ _ rfl)
    have k4 : calm d (iter_up
        (fun i (s : decoder_t) =>
          if (s.all_rhmm (s.single_phone_wid i)).hmm.frame = f then
            set_rhmm_hmm s (s.single_phone_wid i)
              (hmm_normalize (s.all_rhmm (s.single_phone_wid i)).hmm norm)
          else s)
        d3.n_1ph_words.toNat 0 d3) := by
      apply iter_up_inv (fun s : decoder_t => calm d s)
      · intro i s _ _ hs
        dsimp only
        split
        · exact calm_trans d s _ hs (calm_set_rhmm_hmm s _ _)
        · exact hs
      · exact k3
    exact calm_congr d _ _ k4 rfl rfl rfl rfl rfl rfl rfl rfl rfl rfl rfl rfl rfl

/-- Setting the dynamic beam is calm and empties the candidate list. -/
theorem calm_set_dynamic_beam (d d1 : decoder_t) (f : Int)
    (hr : set_dynamic_beam d f = Except.ok d1) : calm d d1 ∧ d1.n_lastphn_cand = 0 := by
  unfold set_dynamic_beam at hr
  dsimp only at hr
  split at hr
  · split at hr
    · simp at hr
    · simp only [Except.ok.injEq] at hr
      subst hr
      exact ⟨calm_congr d d _ (calm_refl d) rfl rfl rfl rfl rfl rfl rfl rfl rfl rfl rfl rfl rfl,
        rfl⟩
  · simp only [Except.ok.injEq] at hr
    subst hr
    exact ⟨calm_congr d d _ (calm_refl d) rfl rfl rfl rfl rfl rfl rfl rfl rfl rfl rfl rfl rfl,
      rfl⟩

/-- The cap on word exits is calm. -/
theorem calm_cap_exits (d d1 : decoder_t) (f : Int) (hr : cap_exits d f = Except.ok d1) :
    calm d d1 := by
  unfold cap_exits at hr
  split at hr
  · simp at hr
  · rename_i ngs1 h1
    simp only [Except.ok.injEq] at hr
    subst hr
    obtain ⟨e, _, _⟩ := bptable_maxwpf_frame d.ngs ngs1 f h1
    refine calm_set_ngs d ngs1 ?_
    rw [e]

/-- Clearing the channels that fell out of the beam is calm. -/
theorem calm_deactivate (d : decoder_t) (f : Int) : calm d (deactivate_channels d f) := by
  unfold deactivate_channels
  dsimp only
  apply iter_up_inv (fun s : decoder_t => calm d s)
  · intro i s _ _ hs
    dsimp only
    split
    · exact calm_trans d s _ hs (calm_set_rhmm_hmm s _ _)
    · exact hs
  · apply iter_up_inv (fun s : decoder_t => calm d s)
    · intro i s _ _ hs
      dsimp only
      split
      · exact calm_trans d s _ hs (calm_set_root_hmm s _ _)
      · exact hs
    · exact calm_refl d
theorem calm_wt_best_rc (d : decoder_t) (bp : Int) (sk : decoder_t × Int)
    (h : calm d sk.1) : calm d (wt_best_rc bp sk).1 := by
  unfold wt_best_rc
  dsimp only
  have h1 : calm d (set_ngs sk.1 { sk.1.ngs with
      word_lat_idx := store sk.1.ngs.word_lat_idx (sk.1.ngs.bp_table bp).wid NO_BP }) :=
    calm_trans d _ _ h (calm_set_ngs sk.1 _ rfl)
  split
  · exact h1
  · dsimp only
    apply iter_down_inv (fun s : decoder_t => calm d s)
    · intro rc s _ _ hs
      dsimp only
      split
      · exact calm_trans d s _ hs (calm_set_bestbp_rc s _ _)
      · exact hs
    · exact h1

theorem calm_wt_root (d s : decoder_t) (f thresh i : Int) (h : calm d s) :
    calm d (wt_root f thresh i s) := by
  unfold wt_root
  dsimp only
  split
  · split
    · exact calm_trans d s _ h (calm_set_root_hmm s i _)
    · exact h
  · exact h

theorem calm_wt_ltrans (env : env_t) (d s : decoder_t) (bp : Int) (h : calm d s) :
    calm d (wt_ltrans env bp s) := by
  unfold wt_ltrans
  dsimp only
  split
  · exact h
  · apply iter_up_inv (fun s : decoder_t => calm d s)
    · intro i t _ _ ht
      dsimp only
      split
      · exact calm_trans d _ _ (calm_trans d t _ ht (calm_set_ltrans t _ _))
          (calm_set_ltrans _ _ _)
      · exact ht
    · exact h

theorem calm_wt_single (d s s1 : decoder_t) (f thresh i : Int) (h : calm d s)
    (hr : wt_single f thresh i s = Except.ok s1) : calm d s1 := by
  unfold wt_single at hr
  dsimp only at hr
  split at hr
  · split at hr
    · simp at hr
    · split at hr
      · simp only [Except.ok.injEq] at hr
        subst hr
        exact calm_trans d s _ h (calm_set_rhmm_hmm s _ _)
      · simp only [Except.ok.injEq] at hr
        subst hr
        exact h
  · simp only [Except.ok.injEq] at hr
    subst hr
    exact h

theorem calm_wt_filler (d s : decoder_t) (f ns w : Int) (h : calm d s) :
    calm d (wt_filler f ns w s) := by
  unfold wt_filler
  dsimp only
  split
  · exact calm_trans d s _ h (calm_set_rhmm_hmm s _ _)
  · exact h

/-- The transitions into new words are calm. -/
theorem calm_word_transition (env : env_t) (d d1 : decoder_t) (f : Int)
    (hr : word_transition env d f = Except.ok d1) : calm d d1 := by
  unfold word_transition at hr
  dsimp only at hr
  have k1 : calm d (iter_down
      (fun i (s : decoder_t) => set_bestbp_rc s i { s.bestbp_rc i with score := WORST_SCORE })
      d.ngs.n_ciphone.toNat (d.ngs.n_ciphone - 1) d) := by
    apply iter_down_inv (fun s : decoder_t => calm d s)
    · intro i s _ _ hs
      exact calm_trans d s _ hs (calm_set_bestbp_rc s _ _)
    · exact calm_refl d
  generalize iter_down _ d.ngs.n_ciphone.toNat (d.ngs.n_ciphone - 1) d = e1 at hr k1
  have k2 : calm d (iter_up wt_best_rc (e1.ngs.bpidx - e1.ngs.bp_table_idx f).toNat
      (e1.ngs.bp_table_idx f) (e1, 0)).1 := by
    apply iter_up_inv (fun sk : decoder_t × Int => calm d sk.1)
    · intro bp sk _ _ hs
      exact calm_wt_best_rc d bp sk hs
    · exact k1
  generalize iter_up wt_best_rc (e1.ngs.bpidx - e1.ngs.bp_table_idx f).toNat
      (e1.ngs.bp_table_idx f) (e1, 0) = r at hr k2
  split at hr
  · simp only [Except.ok.injEq] at hr
    subst hr
    exact k2
  · have k3 : calm d (iter_up (wt_root f (r.1.best_score + r.1.dynamic_beam))
        r.1.n_root_chan.toNat 0 r.1) := by
      apply iter_up_inv (fun s : decoder_t => calm d s)
      · intro i s _ _ hs
        exact calm_wt_root d s _ _ i hs
      · exact k2
    generalize iter_up (wt_root f (r.1.best_score + r.1.dynamic_beam))
        r.1.n_root_chan.toNat 0 r.1 = e3 at hr k3
    have k4 : calm d (iter_up
        (fun i (s : decoder_t) =>
          set_ltrans s (s.single_phone_wid i)
            { s.last_ltrans (s.single_phone_wid i) with dscr := INT32_MIN })
        e3.n_1ph_LMwords.toNat 0 e3) := by
      apply iter_up_inv (fun s : decoder_t => calm d s)
      · intro i s _ _ hs
        exact calm_trans d s _ hs (calm_set_ltrans s _ _)
      · exact k3
    generalize iter_up _ e3.n_1ph_LMwords.toNat 0 e3 = e4 at hr k4
    have k5 : calm d (iter_up (wt_ltrans env) (e1.ngs.bpidx - e1.ngs.bp_table_idx f).toNat
        (e1.ngs.bp_table_idx f) e4) := by
      apply iter_up_inv (fun s : decoder_t => calm d s)
      · intro i s _ _ hs
        exact calm_wt_ltrans env d s i hs
      · exact k4
    generalize iter_up (wt_ltrans env) (e1.ngs.bpidx - e1.ngs.bp_table_idx f).toNat
        (e1.ngs.bp_table_idx f) e4 = e5 at hr k5
    split at hr
    · simp at hr
    · rename_i d6 h6
      simp only [Except.ok.injEq] at hr
      subst hr
      have k6 : calm d d6 := by
        refine for_up_inv (fun s : decoder_t => calm d s) _ _ _ _ _ ?_ k5 h6
        intro i s s1 _ _ hs hb
        exact calm_wt_single d s s1 _ _ i hs hb
      have k7 : calm d (if (d6.bestbp_rc d6.sil).score + d6.silpen + d6.pip >
            r.1.best_score + r.1.dynamic_beam then
          wt_filler f ((d6.bestbp_rc d6.sil).score + d6.silpen + d6.pip) d6.ngs.silence_wid d6
          else d6) := by
        split
        · exact calm_wt_filler d d6 _ _ _ k6
        · exact k6
      generalize (if (d6.bestbp_rc d6.sil).score + d6.silpen + d6.pip >
            r.1.best_score + r.1.dynamic_beam then
          wt_filler f ((d6.bestbp_rc d6.sil).score + d6.silpen + d6.pip) d6.ngs.silence_wid d6
          else d6) = e7 at k7 ⊢
      split
      · apply iter_up_inv (fun s : decoder_t => calm d s)
        · intro i s _ _ hs
          exact calm_wt_filler d s _ _ i hs
        · exact k7
      · exact k7

theorem quiet_congr (d s s1 : decoder_t) (h : quiet d s)
    (e1 : s1.homophone_set = s.homophone_set) (e2 : s1.n_root_chan = s.n_root_chan)
    (e3 : s1.ngs.dict = s.ngs.dict) (e4 : s1.heap_top = s.heap_top)
    (e5 : s1.word_chan = s.word_chan) (e6 : s1.active_chan_list = s.active_chan_list)
    (e7 : s1.n_active_chan = s.n_active_chan) (e8 : s1.active_word_list = s.active_word_list)
    (e9 : s1.n_active_word = s.n_active_word) (e10 : s1.chan = s.chan)
    (e11 : s1.root_chan = s.root_chan) : quiet d s1 := by
  refine quiet_trans d s s1 h ⟨e1, e2, e3, e4, e5, e6, e7, e8, e9, fun a => ?_, fun i => ?_⟩
  · rw [e10]
    exact ⟨rfl, rfl, rfl, rfl⟩
  · rw [e11]
    exact ⟨rfl, rfl⟩

theorem eval_root_chan_calm (env : env_t) (d : decoder_t) (f : Int) :
    calm d (eval_root_chan env d f).1 := by
  unfold eval_root_chan
  apply iter_up_inv (fun sb : decoder_t × Int => calm d sb.1)
  · intro i sb _ _ hs
    dsimp only
    split
    · exact calm_congr d _ _ (calm_trans d _ _ hs (calm_set_root_hmm sb.1 i _))
        rfl rfl rfl rfl rfl rfl rfl rfl rfl rfl rfl rfl rfl
    · exact hs
  · exact calm_refl d

theorem eval_nonroot_chan_calm (env : env_t) (hv : vit_frame env) (d : decoder_t) (f : Int)
    (r : decoder_t × Int) (hr : eval_nonroot_chan env d f = Except.ok r) : calm d r.1 := by
  unfold eval_nonroot_chan at hr
  dsimp only at hr
  refine for_up_inv (fun sb : decoder_t × Int => calm d sb.1) _ _ _ _ _ ?_ ?_ hr
  · intro k sb sb1 _ _ hs hb
    split at hb
    · simp only [Except.ok.injEq] at hb
      subst hb
      exact calm_trans d _ _ hs (calm_set_chan_hmm sb.1 _ _ (hv _ _))
    · simp at hb
  · exact calm_congr d d _ (calm_refl d) rfl rfl rfl rfl rfl rfl rfl rfl rfl rfl rfl rfl rfl

/-- The evaluation of the leaves and single-phone channels changes HMM
scores and clears the mark of every word on the active word list. -/
theorem eval_word_chan_quiet (env : env_t) (hv : vit_frame env) (fuel : Nat) (d : decoder_t)
    (f : Int) (r : decoder_t × Int) (hr : eval_word_chan env fuel d f = Except.ok r) :
    quiet d r.1 ∧ r.1.output_frame = d.output_frame ∧ ∀ w, r.1.word_active w = 0 ∨
      (r.1.word_active w = d.word_active w ∧ ¬ on_list d f (d.n_active_word (parity f)) w) := by
  unfold eval_word_chan at hr
  dsimp only at hr
  split at hr
  · simp at hr
  · rename_i d1 best1 k h1
    simp only [Except.ok.injEq] at hr
    subst hr
    have g := for_up_ind (fun i (s : decoder_t × Int × Int) =>
        quiet d s.1 ∧ s.1.output_frame = d.output_frame ∧ ∀ w, s.1.word_active w = 0 ∨
          (s.1.word_active w = d.word_active w ∧
            ∀ j, 0 ≤ j → j < i → d.active_word_list (parity f) j ≠ w)) _ _ _ _ _ ?_ ?_ h1
    · obtain ⟨g1, g0, g2⟩ := g
      dsimp only at g1 g0 g2
      have g3 : calm d1 (iter_up
          (fun i (sbj : decoder_t × Int × Int) =>
            if (sbj.1.all_rhmm (sbj.1.single_phone_wid i)).hmm.frame < f then sbj
            else
              (set_rhmm_hmm sbj.1 (sbj.1.single_phone_wid i)
                  (env.vit_eval f (sbj.1.all_rhmm (sbj.1.single_phone_wid i)).hmm),
                (if sbj.2.1 <
                      (env.vit_eval f
                        (sbj.1.all_rhmm (sbj.1.single_phone_wid i)).hmm).bestscore ∧
                    sbj.1.single_phone_wid i ≠ sbj.1.finish_wid then
                  (env.vit_eval f (sbj.1.all_rhmm (sbj.1.single_phone_wid i)).hmm).bestscore
                else sbj.2.1),
                sbj.2.2 + 1))
          d1.n_1ph_words.toNat 0 (d1, best1, 0)).1 := by
        apply iter_up_inv (fun sbj : decoder_t × Int × Int => calm d1 sbj.1)
        · intro i sbj _ _ hs
          dsimp only
          split
          · exact hs
          · exact calm_trans d1 _ _ hs (calm_set_rhmm_hmm sbj.1 _ _)
        · exact calm_refl d1
      generalize iter_up _ d1.n_1ph_words.toNat 0 (d1, best1, (0 : Int)) = R at g3 ⊢
      dsimp only
      refine ⟨quiet_congr d R.1 _ (quiet_trans d d1 R.1 g1 g3.1)
        rfl rfl rfl rfl rfl rfl rfl rfl rfl rfl rfl, g3.2.2.trans g0, fun w => ?_⟩
      have e : R.1.word_active = d1.word_active := g3.2.1
      refine (?_ : R.1.word_active w = 0 ∨ (R.1.word_active w = d.word_active w ∧ _))
      rw [e]
      rcases g2 w with h | ⟨h, hn⟩
      · exact Or.inl h
      · refine Or.inr ⟨h, ?_⟩
        rintro ⟨j, hj0, hjn, hje⟩
        refine hn j hj0 ?_ hje
        rw [Int.toNat_of_nonneg (by omega)]
        omega
    · intro i s s1 hi0 _ ⟨q, hof, ha⟩ hb
      split at hb
      · simp at hb
      · split at hb
        · simp at hb
        · have e0 : s.1.active_word_list (parity f) i = d.active_word_list (parity f) i := by
            rw [q.awl]
          generalize s.1.active_word_list (parity f) i = w0 at hb e0
          have q1 : quiet d { s.1 with word_active := store s.1.word_active w0 0 } :=
            quiet_congr d s.1 _ q rfl rfl rfl rfl rfl rfl rfl rfl rfl rfl rfl
          have g := for_list_inv (fun t : decoder_t × Int × Int =>
              quiet d t.1 ∧ t.1.output_frame = d.output_frame ∧
                t.1.word_active = store s.1.word_active w0 0) _ _ _ ?_ _ _ _ _
            ?_ hb
          · refine ⟨g.1, g.2.1, fun w => ?_⟩
            rw [g.2.2]
            unfold store
            by_cases hw : w = w0
            · rw [if_pos hw]
              exact Or.inl rfl
            · rw [if_neg hw]
              rcases ha w with h | ⟨h, hn⟩
              · exact Or.inl h
              · refine Or.inr ⟨h, fun j hj0 hjn => ?_⟩
                by_cases hj : j = i
                · rw [hj, ← e0]
                  exact fun h => hw h.symm
                · exact hn j hj0 (by omega)
          · intro p t t1 _ ⟨ht, hto, hta⟩ hb1
            split at hb1
            · simp only [Except.ok.injEq] at hb1
              subst hb1
              exact ⟨quiet_trans d _ _ ht (quiet_set_chan_hmm t.1 _ _ (hv _ _)), hto, hta⟩
            · simp at hb1
          · exact ⟨q1, hof, rfl⟩
    · exact ⟨quiet_refl d, rfl,
        fun w => Or.inr ⟨rfl, fun j hj0 hjn => absurd hjn (by omega)⟩⟩

/-- The evaluation of every active HMM changes HMM scores and clears the mark
of every word on the active word list. -/
theorem evaluate_channels_quiet (env : env_t) (hv : vit_frame env) (fuel : Nat)
    (d d1 : decoder_t) (f : Int) (hr : evaluate_channels env fuel d f = Except.ok d1) :
    quiet d d1 ∧ d1.output_frame = d.output_frame ∧ ∀ w, d1.word_active w = 0 ∨
      (d1.word_active w = d.word_active w ∧ ¬ on_list d f (d.n_active_word (parity f)) w) := by
  unfold evaluate_channels at hr
  dsimp only at hr
  split at hr
  · simp at hr
  · rename_i d2 bs2 h2
    split at hr
    · simp at hr
    · rename_i d4 bs4 h4
      simp only [Except.ok.injEq] at hr
      subst hr
      have k1 := eval_root_chan_calm env d f
      generalize eval_root_chan env d f = r1 at h2 k1
      have k2 := eval_nonroot_chan_calm env hv _ f _ h2
      have k2a : calm d d2 := by
        refine calm_trans d _ d2 ?_ k2
        exact calm_congr d r1.1 _ k1 rfl rfl rfl rfl rfl rfl rfl rfl rfl rfl rfl rfl rfl
      have k3 : calm d (if bs2 > d2.best_score then { d2 with best_score := bs2 } else d2) := by
        split
        · exact calm_congr d d2 _ k2a rfl rfl rfl rfl rfl rfl rfl rfl rfl rfl rfl rfl rfl
        · exact k2a
      generalize (if bs2 > d2.best_score then { d2 with best_score := bs2 } else d2) = d3
        at h4 k3
      obtain ⟨k4, k40, k5⟩ := eval_word_chan_quiet env hv fuel d3 f _ h4
      have k4a : quiet d3 d4 := k4
      have k4b : d4.output_frame = d3.output_frame := k40
      have k5a : ∀ w, d4.word_active w = 0 ∨
          (d4.word_active w = d3.word_active w ∧
            ¬ on_list d3 f (d3.n_active_word (parity f)) w) := k5
      have k6 : quiet d (if bs4 > d4.best_score then { d4 with best_score := bs4 } else d4) ∧
          (if bs4 > d4.best_score then { d4 with best_score := bs4 } else d4).word_active =
            d4.word_active ∧
          (if bs4 > d4.best_score then { d4 with best_score := bs4 } else d4).output_frame =
            d4.output_frame := by
        split
        · exact ⟨quiet_congr d d4 _ (quiet_trans d d3 d4 k3.1 k4a)
            rfl rfl rfl rfl rfl rfl rfl rfl rfl rfl rfl, rfl, rfl⟩
        · exact ⟨quiet_trans d d3 d4 k3.1 k4a, rfl, rfl⟩
      generalize (if bs4 > d4.best_score then { d4 with best_score := bs4 } else d4) = d5
        at k6 ⊢
      refine ⟨quiet_congr d d5 _ k6.1 rfl rfl rfl rfl rfl rfl rfl rfl rfl rfl rfl,
        k6.2.2.trans (k4b.trans k3.2.2), fun w => ?_⟩
      refine (?_ : d5.word_active w = 0 ∨ (d5.word_active w = d.word_active w ∧ _))
      rw [k6.2.1]
      rcases k5a w with h | ⟨h, hn⟩
      · exact Or.inl h
      · refine Or.inr ⟨?_, ?_⟩
        · rw [h, k3.2.1]
        · rw [k3.1.naw, on_list_quiet d d3 k3.1] at hn
          exact hn

/-- The two tree-pruning passes take a state between frames in which no word
is marked active and no candidate is listed to the state before
`last_phone_transition`. -/
theorem prune_tree_inv (N : Int → Prop) (KR : Int → List Int) (H : parent_t → List Int)
    (fuel : Nat) (f : Int) (d d1 d2 : decoder_t) (C : Int → List Int)
    (hi : run_inv N KR H f d C) (ha : ∀ w, d.word_active w = 0) (h0 : d.n_lastphn_cand = 0)
    (h1 : prune_root_chan fuel d f = Except.ok d1)
    (h2 : prune_nonroot_chan fuel d1 f = Except.ok d2) :
    cand_inv N KR H f d2 C ∧ d2.output_frame = d.output_frame := by
  have ht := hi.tree
  have n1 := prune_root_spec fuel d d1 f N KR ht.kr ht.krN ht.krd
    (fun a hN => by have := hi.cst a hN; omega) h1
  have e1 : d1.n_active_chan (parity f) = d.n_active_chan (parity f) := n1.ncur
  have hlN : ∀ k, 0 ≤ k → k < d1.n_active_chan (parity f) →
      N (d.active_chan_list (parity f) k) := by
    intro k hk0 hkn
    rw [e1] at hkn
    exact hi.cmem k hk0 hkn
  have n2 := prune_nonroot_spec fuel d d1 d2 f N n1 ht.nnext ht.nalt hlN h2
  have c1 := prune_root_cands fuel d d1 f N H ht.hch ht.hnd ht.hdj h0 h1
  have c2 := prune_nonroot_cands fuel d d1 d2 f N H ht.hch ht.hnd ht.hdj hlN
    (by
      intro i j hi0 hin hj0 hjn he
      rw [e1] at hin hjn
      exact hi.cinj i j hi0 hin hj0 hjn he) c1 h2
  have hfr := n2.frame
  have f1 : d2.heap_top = d.heap_top := by
    have e := congrArg (fun x : decoder_t => x.heap_top) hfr
    exact e
  have f2 : d2.word_chan = d.word_chan := by
    have e := congrArg (fun x : decoder_t => x.word_chan) hfr
    exact e
  have f3 : d2.word_active = d.word_active := by
    have e := congrArg (fun x : decoder_t => x.word_active) hfr
    exact e
  have f4 : d2.active_word_list = d.active_word_list := by
    have e := congrArg (fun x : decoder_t => x.active_word_list) hfr
    exact e
  have f5 : d2.n_active_word = d.n_active_word := by
    have e := congrArg (fun x : decoder_t => x.n_active_word) hfr
    exact e
  have f6 : d2.ngs = d.ngs := by
    have e := congrArg (fun x : decoder_t => x.ngs) hfr
    exact e
  have f7 : d2.n_root_chan = d.n_root_chan := by
    have e := congrArg (fun x : decoder_t => x.n_root_chan) hfr
    exact e
  have f8 : d2.output_frame = d.output_frame := by
    have e := congrArg (fun x : decoder_t => x.output_frame) hfr
    exact e
  have hleaf : ∀ w a, a ∈ C w → d2.chan a = d.chan a :=
    fun w a ha1 => n2.off a (fun hN => hi.nleaf a w hN ha1)
  have hon : ∀ w, on_list d2 f (d2.n_active_word (parity f)) w ↔
      on_list d f (d.n_active_word (parity f)) w := by
    intro w
    unfold on_list
    rw [f4, f5]
  refine ⟨{ tree := ?_, f0 := hi.f0, heap := ?_, nbound := ?_, nleaf := hi.nleaf,
            ninj := n2.inj, nmem := n2.mem, nst := ?_, winj := ?_, wact := ?_, wst := ?_,
            wlive := ?_, cinj := c2.inj, csrc := ?_ }, f8⟩
  · refine tree_ok_congr d d2 N KR H ht c2.hs f7 (by rw [f6]) (fun a _ => ?_) (fun i => ?_)
    · exact ⟨(n2.links a).1, (n2.links a).2, c2.info a⟩
    · exact ⟨n2.roots i, c2.pen i⟩
  · refine { top := ?_, chain := fun w => ?_, disj := hi.heap.disj, bound := ?_ }
    · rw [f1]
      exact hi.heap.top
    · rw [f2]
      exact chain_seg_congr _ _ _ _ _ (fun a _ => (n2.links a).1) (hi.heap.chain w)
    · rw [f1]
      exact hi.heap.bound
  · rw [f1]
    exact hi.nbound
  · intro a hN
    rcases n2.keep a with h | h
    · omega
    · rw [h]
      have := hi.cst a hN
      omega
  · rw [f4, f5]
    exact hi.winj
  · intro w
    rw [f3]
    exact ha w
  · intro w a ha1
    rw [hleaf w a ha1]
    exact hi.wst w a ha1
  · intro w hw
    exact (hon w).mpr (hi.wlive w hw)
  · intro c hc0 hcn
    obtain ⟨p, hp, hw⟩ := c2.src c hc0 hcn
    exact ⟨p, (is_par_congr d d2 N f7 p).mpr hp, hw⟩
/-- The part of a frame before `last_phone_transition` takes the state
between frames to the state `cand_inv` describes. -/
theorem search_cands_inv (env : env_t) (hv : vit_frame env) (N : Int → Prop)
    (KR : Int → List Int) (H : parent_t → List Int) (fuel : Nat) (d s : decoder_t)
    (C : Int → List Int) (hi : run_inv N KR H d.output_frame d C)
    (hm : marks_ok d.output_frame d) (hr : search_cands env fuel d = Except.ok s) :
    cand_inv N KR H d.output_frame s C ∧ s.output_frame = d.output_frame + 1 := by
  unfold search_cands at hr
  dsimp only at hr
  have q1 : quiet d (ngram_search_mark_bptable
      { d with output_frame := d.output_frame + 1, n_feat_frame := d.n_feat_frame - 1 }
      d.output_frame) :=
    ⟨rfl, rfl, rfl, rfl, rfl, rfl, rfl, rfl, rfl, fun _ => ⟨rfl, rfl, rfl, rfl⟩,
      fun _ => ⟨rfl, rfl⟩⟩
  have w1 : (ngram_search_mark_bptable
      { d with output_frame := d.output_frame + 1, n_feat_frame := d.n_feat_frame - 1 }
      d.output_frame).word_active = d.word_active := rfl
  have o1 : (ngram_search_mark_bptable
      { d with output_frame := d.output_frame + 1, n_feat_frame := d.n_feat_frame - 1 }
      d.output_frame).output_frame = d.output_frame + 1 := rfl
  generalize ngram_search_mark_bptable
      { d with output_frame := d.output_frame + 1, n_feat_frame := d.n_feat_frame - 1 }
      d.output_frame = d2 at hr q1 w1 o1
  generalize d.output_frame = f at hr hi hm o1
  split at hr
  · simp at hr
  · rename_i d3 h3
    have k3 : calm d2 d3 := by
      split at h3
      · exact calm_renormalize fuel d2 d3 f _ h3
      · simp only [Except.ok.injEq] at h3
        subst h3
        exact calm_refl d2
    clear h3
    split at hr
    · simp at hr
    · rename_i d4 h4
      obtain ⟨k4, o4, a4⟩ := evaluate_channels_quiet env hv fuel d3 d4 f h4
      split at hr
      · simp at hr
      · rename_i d5 h5
        obtain ⟨k5, c5⟩ := calm_set_dynamic_beam d4 d5 f h5
        split at hr
        · simp at hr
        · rename_i d6 h6
          have q3 : quiet d d3 := quiet_trans d d2 d3 q1 k3.1
          have q5 : quiet d d5 := quiet_trans d d4 d5 (quiet_trans d d3 d4 q3 k4) k5.1
          have hi5 := run_inv_quiet N KR H f d d5 C hi q5
          have ha5 : ∀ w, d5.word_active w = 0 := by
            intro w
            rw [k5.2.1]
            rcases a4 w with h | ⟨h, hn⟩
            · exact h
            · rw [h, k3.2.1, w1]
              rw [q3.naw, on_list_quiet d d3 q3] at hn
              rcases hm w with ⟨_, m2⟩ | ⟨m1, _⟩
              · exact absurd m2 hn
              · exact m1
          obtain ⟨r1, r2⟩ := prune_tree_inv N KR H fuel f d5 d6 s C hi5 ha5 c5 h6 hr
          refine ⟨r1, ?_⟩
          rw [r2, k5.2.2, o4, k3.2.2, o1]

theorem stamps_to_refl (nf : Int) (d : decoder_t) : stamps_to nf d d :=
  fun _ h => Or.inr (Or.inl ⟨h, rfl⟩)

theorem stamps_to_trans (nf : Int) (a b c : decoder_t) (h1 : stamps_to nf a b)
    (h2 : stamps_to nf b c) : stamps_to nf a c := by
  intro x hx
  rcases h2 x hx with h | ⟨hb, h⟩ | h
  · exact Or.inl h
  · rw [h]
    exact h1 x hb
  · exact Or.inr (Or.inr h)

theorem stamps_to_chan (nf : Int) (d s s1 : decoder_t) (h : stamps_to nf d s)
    (e : s1.chan = s.chan) (e1 : s1.heap_top = s.heap_top) : stamps_to nf d s1 := by
  intro x hx
  rw [e]
  rw [e1] at hx
  exact h x hx

theorem stamps_to_init_leaf (nf : Int) (d s : decoder_t) (next rc_id ciphone ssid : Int)
    (h : stamps_to nf d s) :
    stamps_to nf d
      (init_leaf (listelem_alloc s).1 (listelem_alloc s).2 next rc_id ciphone ssid) := by
  intro x hx
  have hx1 : x ≤ s.heap_top + 1 := hx
  unfold init_leaf store listelem_alloc
  dsimp only
  by_cases hxa : x = s.heap_top + 1
  · rw [if_pos hxa]
    exact Or.inr (Or.inr rfl)
  · rw [if_neg hxa]
    exact h x (by omega)

theorem stamps_to_set_chan_next (nf : Int) (d s : decoder_t) (a v : Int)
    (h : stamps_to nf d s) : stamps_to nf d (set_chan_next s a v) := by
  intro x hx0
  have hx1 : x ≤ s.heap_top := hx0
  unfold set_chan_next store
  dsimp only
  by_cases hx : x = a
  · rw [if_pos hx, ← hx]
    exact h x hx1
  · rw [if_neg hx]
    exact h x hx1

theorem stamps_to_enter (nf : Int) (d s : decoder_t) (a sc bp : Int)
    (h : stamps_to nf d s) :
    stamps_to nf d (set_chan_hmm s a (hmm_enter (s.chan a).hmm sc bp nf)) := by
  intro x hx0
  have hx1 : x ≤ s.heap_top := hx0
  unfold set_chan_hmm store
  dsimp only
  by_cases hx : x = a
  · rw [if_pos hx]
    exact Or.inl rfl
  · rw [if_neg hx]
    exact h x hx1

theorem alloc_rc_loop_stamps (nf : Int) (d0 : decoder_t) (sseq_rc : Int → Int)
    (ciphone : Int) (fuel : Nat) :
    ∀ (i hmm : Int) (d d1 : decoder_t), stamps_to nf d0 d →
      alloc_rc_loop sseq_rc ciphone fuel i hmm d = Except.ok d1 → stamps_to nf d0 d1 := by
  induction fuel with
  | zero =>
    intro i hmm d d1 _ hr
    simp [alloc_rc_loop] at hr
  | succ n ih =>
    intro i hmm d d1 hd hr
    simp only [alloc_rc_loop] at hr
    split at hr
    · split at hr
      · refine ih _ _ _ _ ?_ hr
        apply stamps_to_set_chan_next
        exact stamps_to_init_leaf nf d0 d _ _ _ _ hd
      · exact ih _ _ _ _ hd hr
    · simp only [Except.ok.injEq] at hr
      subst hr
      exact hd

theorem alloc_all_rc_stamps (nf : Int) (d0 : decoder_t) (fuel : Nat) (d d1 : decoder_t)
    (w : Int) (hd : stamps_to nf d0 d) (hr : alloc_all_rc fuel d w = Except.ok d1) :
    stamps_to nf d0 d1 := by
  unfold alloc_all_rc at hr
  dsimp only at hr
  split at hr
  · simp at hr
  · split at hr
    · refine alloc_rc_loop_stamps nf d0 _ _ fuel _ _ _ d1 ?_ hr
      exact stamps_to_chan nf d0 _ _ (stamps_to_init_leaf nf d0 d _ _ _ _ hd) rfl rfl
    · exact alloc_rc_loop_stamps nf d0 _ _ fuel _ _ _ d1 hd hr

theorem lpt_enter_stamps (d0 : decoder_t) (fuel : Nat) (f thresh i : Int)
    (sn sn1 : decoder_t × Int) (hs : stamps_to (f + 1) d0 sn.1)
    (hr : lpt_enter fuel f thresh i sn = Except.ok sn1) : stamps_to (f + 1) d0 sn1.1 := by
  unfold lpt_enter at hr
  dsimp only at hr
  split at hr
  · split at hr
    · simp at hr
    · rename_i d1 ha
      have h1 := alloc_all_rc_stamps (f + 1) d0 fuel sn.1 d1 _ hs ha
      split at hr
      · simp at hr
      · rename_i d2 k hl
        have h2 := for_list_inv (fun t : decoder_t × Int => stamps_to (f + 1) d0 t.1)
          _ _ _ ?_ _ _ _ _ h1 hl
        · split at hr
          · split at hr
            · simp at hr
            · split at hr
              · simp at hr
              · simp only [Except.ok.injEq] at hr
                subst hr
                exact stamps_to_chan (f + 1) d0 d2 _ h2 rfl rfl
          · simp only [Except.ok.injEq] at hr
            subst hr
            exact h2
        · intro a t t1 _ ht hb
          split at hb
          · split at hb
            · simp at hb
            · simp only [Except.ok.injEq] at hb
              subst hb
              exact stamps_to_enter (f + 1) d0 t.1 a _ _ ht
          · simp only [Except.ok.injEq] at hb
            subst hb
            exact ht
  · simp only [Except.ok.injEq] at hr
    subst hr
    exact hs

/-- After `last_phone_transition` in frame `f` every cell carries the stamp
`f + 1`, the stamp it had, or the stamp -1 of a new leaf. -/
theorem last_phone_transition_stamps (env : env_t) (fuel : Nat) (d d1 : decoder_t) (f : Int)
    (hr : last_phone_transition env fuel d f = Except.ok d1) : stamps_to (f + 1) d d1 := by
  unfold last_phone_transition at hr
  dsimp only at hr
  split at hr
  · simp at hr
  · rename_i d2 ncs h1
    have hs1 : cand_frame d d2 := by
      refine for_up_inv (fun sn : decoder_t × Int => cand_frame d sn.1) _ _ _ _ _ ?_ ?_ h1
      · intro i sn sn1 _ _ hs hb
        exact cand_frame_bucket d i sn sn1 hs hb
      · unfold cand_frame
        rfl
    clear h1
    split at hr
    · simp at hr
    · rename_i d3 h2
      have hs2 : cand_frame d d3 := by
        refine for_up_inv (fun s : decoder_t => cand_frame d s) _ _ _ _ _ ?_ hs1 h2
        intro i s s1 _ _ hs hb
        refine for_up_inv (fun s : decoder_t => cand_frame d s) _ _ _ _ _ ?_ hs hb
        intro bp t t1 _ _ ht hbt
        exact cand_frame_score env fuel d bp _ t t1 ht hbt
      clear h2 hs1
      generalize hR : iter_up _ d3.n_lastphn_cand.toNat 0 (d3, d3.last_phone_best_score) = R
        at hr
      have hR1 : cand_frame d R.1 := by
        rw [← hR]
        apply iter_up_inv (fun sb : decoder_t × Int => cand_frame d sb.1)
        · intro i sb _ _ hsb
          refine cand_frame_trans d _ _ ?_ (cand_frame_set_cand _ _ _)
          exact cand_frame_trans d _ _ hsb (cand_frame_set_cand _ _ _)
        · exact hs2
      clear hR
      obtain ⟨c1, _, c3, _⟩ := cand_frame_fields d _ hR1
      split at hr
      · simp at hr
      · rename_i d4 n h4
        simp only [Except.ok.injEq] at hr
        subst hr
        have h5 := for_up_inv (fun sn : decoder_t × Int => stamps_to (f + 1) d sn.1)
          _ _ _ _ _ ?_ ?_ h4
        · exact stamps_to_chan (f + 1) d d4 _ h5 rfl rfl
        · intro i sn sn1 _ _ hs hb
          exact lpt_enter_stamps d fuel f _ i sn sn1 hs hb
        · exact stamps_to_chan (f + 1) d d _ (stamps_to_refl (f + 1) d) c1 c3
theorem save_bwd_ptr_dict (fuel : Nat) (ngs s1 : ngram_search_t) (f w score path rc : Int)
    (h : save_bwd_ptr fuel ngs f w score path rc = Except.ok s1) : s1.dict = ngs.dict := by
  by_cases hw : ngs.word_lat_idx w = NO_BP
  · obtain ⟨rw1, prw, e⟩ := save_bwd_ptr_append_eq fuel ngs s1 f w score path rc hw h
    have e1 := congrArg (fun x : ngram_search_t => x.dict) e
    exact e1
  · obtain ⟨e1, ⟨e, _⟩⟩ := save_bwd_ptr_update_eq fuel ngs s1 f w score path rc hw h
    have e2 := congrArg (fun x : ngram_search_t => x.dict) e
    exact e2

theorem save_exit_dict (fuel : Nat) (d d1 : decoder_t) (fi w score path rc : Int)
    (hr : save_exit fuel d fi w score path rc = Except.ok d1) :
    d1.ngs.dict = d.ngs.dict := by
  unfold save_exit at hr
  split at hr
  · simp at hr
  · rename_i ngs1 hs
    simp only [Except.ok.injEq] at hr
    subst hr
    exact save_bwd_ptr_dict fuel d.ngs ngs1 fi w score path rc hs

theorem write_link_dict (d : decoder_t) (l : link_t) (v : Int) :
    (write_link d l v).ngs.dict = d.ngs.dict := by
  cases l
  · rfl
  · rfl

theorem prune_leaves_dict (sfuel : Nat) (c : dict_t) (fi w t1 t2 : Int) (fuel : Nat) :
    ∀ (hmm : Int) (l : link_t) (k : Int) (d : decoder_t) (r : decoder_t × Int),
      d.ngs.dict = c →
      prune_leaves sfuel fi w t1 t2 fuel hmm l k d = Except.ok r → r.1.ngs.dict = c := by
  induction fuel with
  | zero =>
    intro hmm l k d r _ hr
    simp [prune_leaves] at hr
  | succ n ih =>
    intro hmm l k d r hd hr
    simp only [prune_leaves] at hr
    split at hr
    · simp only [Except.ok.injEq] at hr
      subst hr
      exact hd
    · split at hr
      · simp at hr
      · split at hr
        · split at hr
          · split at hr
            · simp at hr
            · rename_i d2 hs
              refine ih _ _ _ _ _ ?_ hr
              rw [save_exit_dict sfuel _ d2 _ _ _ _ _ hs]
              exact hd
          · refine ih _ _ _ _ _ ?_ hr
            exact hd
        · split at hr
          · exact ih _ _ _ _ _ hd hr
          · refine ih _ _ _ _ _ ?_ hr
            rw [write_link_dict]
            exact hd

/-- Pruning the leaves and the single-phone words leaves the dictionary
alone. -/
theorem prune_word_chan_dict (fuel : Nat) (d d1 : decoder_t) (fi : Int)
    (hr : prune_word_chan fuel d fi = Except.ok d1) : d1.ngs.dict = d.ngs.dict := by
  unfold prune_word_chan at hr
  dsimp only at hr
  split at hr
  · simp at hr
  · rename_i d2 n h2
    have hs2 : d2.ngs.dict = d.ngs.dict := by
      refine for_up_inv (fun sn : decoder_t × Int => sn.1.ngs.dict = d.ngs.dict)
        _ _ _ _ _ ?_ rfl h2
      intro i sn sn1 _ _ hs hb
      split at hb
      · simp at hb
      · rename_i s1 k hl
        have h1 := prune_leaves_dict fuel d.ngs.dict fi _ _ _ fuel _ _ _ _ _ hs hl
        split at hb
        · split at hb
          · simp at hb
          · simp only [Except.ok.injEq] at hb
            subst hb
            exact h1
        · simp only [Except.ok.injEq] at hb
          subst hb
          exact h1
    clear h2
    refine for_up_inv (fun s : decoder_t => s.ngs.dict = d.ngs.dict) _ _ _ _ _ ?_ ?_ hr
    · intro i s s1 _ _ hs hb
      split at hb
      · simp only [Except.ok.injEq] at hb
        subst hb
        exact hs
      · split at hb
        · split at hb
          · rw [save_exit_dict fuel _ s1 _ _ _ _ _ hb]
            exact hs
          · simp only [Except.ok.injEq] at hb
            subst hb
            exact hs
        · simp only [Except.ok.injEq] at hb
          subst hb
          exact hs
    · exact hs2

theorem word_passes_fields (s d3 d4 s1 t s2 : decoder_t) (f n m : Int)
    (h3 : cand_frame s d3)
    (h4 : d4 = { d3 with
      chan := d4.chan, word_chan := d4.word_chan, heap_top := d4.heap_top,
      word_active := d4.word_active, active_word_list := d4.active_word_list })
    (h5 : s1 = { d4 with n_active_word := store d4.n_active_word (parity (f + 1)) n })
    (g1 : words_frame s1 t)
    (g2 : rhmm_frame { t with n_active_word := store t.n_active_word (parity (f + 1)) m } s2) :
    s2.homophone_set = s.homophone_set ∧ s2.n_root_chan = s.n_root_chan ∧
    s2.active_chan_list = s.active_chan_list ∧ s2.n_active_chan = s.n_active_chan ∧
    s2.root_chan = s.root_chan ∧ s2.output_frame = s.output_frame ∧
    s2.heap_top = d4.heap_top := by
  unfold cand_frame at h3
  unfold words_frame at g1
  unfold rhmm_frame at g2
  refine ⟨?_, ?_, ?_, ?_, ?_, ?_, ?_⟩
  · have a1 := congrArg (fun x : decoder_t => x.homophone_set) g2
    have a2 := congrArg (fun x : decoder_t => x.homophone_set) g1
    have a3 := congrArg (fun x : decoder_t => x.homophone_set) h5
    have a4 := congrArg (fun x : decoder_t => x.homophone_set) h4
    have a5 := congrArg (fun x : decoder_t => x.homophone_set) h3
    exact a1.trans (a2.trans (a3.trans (a4.trans a5)))
  · have a1 := congrArg (fun x : decoder_t => x.n_root_chan) g2
    have a2 := congrArg (fun x : decoder_t => x.n_root_chan) g1
    have a3 := congrArg (fun x : decoder_t => x.n_root_chan) h5
    have a4 := congrArg (fun x : decoder_t => x.n_root_chan) h4
    have a5 := congrArg (fun x : decoder_t => x.n_root_chan) h3
    exact a1.trans (a2.trans (a3.trans (a4.trans a5)))
  · have a1 := congrArg (fun x : decoder_t => x.active_chan_list) g2
    have a2 := congrArg (fun x : decoder_t => x.active_chan_list) g1
    have a3 := congrArg (fun x : decoder_t => x.active_chan_list) h5
    have a4 := congrArg (fun x : decoder_t => x.active_chan_list) h4
    have a5 := congrArg (fun x : decoder_t => x.active_chan_list) h3
    exact a1.trans (a2.trans (a3.trans (a4.trans a5)))
  · have a1 := congrArg (fun x : decoder_t => x.n_active_chan) g2
    have a2 := congrArg (fun x : decoder_t => x.n_active_chan) g1
    have a3 := congrArg (fun x : decoder_t => x.n_active_chan) h5
    have a4 := congrArg (fun x : decoder_t => x.n_active_chan) h4
    have a5 := congrArg (fun x : decoder_t => x.n_active_chan) h3
    exact a1.trans (a2.trans (a3.trans (a4.trans a5)))
  · have a1 := congrArg (fun x : decoder_t => x.root_chan) g2
    have a2 := congrArg (fun x : decoder_t => x.root_chan) g1
    have a3 := congrArg (fun x : decoder_t => x.root_chan) h5
    have a4 := congrArg (fun x : decoder_t => x.root_chan) h4
    have a5 := congrArg (fun x : decoder_t => x.root_chan) h3
    exact a1.trans (a2.trans (a3.trans (a4.trans a5)))
  · have a1 := congrArg (fun x : decoder_t => x.output_frame) g2
    have a2 := congrArg (fun x : decoder_t => x.output_frame) g1
    have a3 := congrArg (fun x : decoder_t => x.output_frame) h5
    have a4 := congrArg (fun x : decoder_t => x.output_frame) h4
    have a5 := congrArg (fun x : decoder_t => x.output_frame) h3
    exact a1.trans (a2.trans (a3.trans (a4.trans a5)))
  · have a1 := congrArg (fun x : decoder_t => x.heap_top) g2
    have a2 := congrArg (fun x : decoder_t => x.heap_top) g1
    have a3 := congrArg (fun x : decoder_t => x.heap_top) h5
    exact a1.trans (a2.trans a3)
/-- The two word passes take the state before `last_phone_transition` in
frame `f` to a state between frames, before frame `f + 1`. -/
theorem word_passes_next (env : env_t) (fuel : Nat) (N : Int → Prop) (KR : Int → List Int)
    (H : parent_t → List Int) (f : Int) (s s1 s2 : decoder_t) (C : Int → List Int)
    (hi : cand_inv N KR H f s C)
    (hr1 : last_phone_transition env fuel s f = Except.ok s1)
    (hr2 : prune_word_chan fuel s1 f = Except.ok s2) :
    ∃ C2, run_inv N KR H (f + 1) s2 C2 ∧ marks_ok (f + 1) s2 ∧
      s2.output_frame = s.output_frame := by
  classical
  have hf := hi.f0
  have hst0 : ∀ w a, a ∈ C w → (s.chan a).hmm.frame ≠ f + 1 := fun w a ha => by
    have := hi.wst w a ha
    omega
  obtain ⟨d3, d4, n, C1, t, m, h3, h4, h5, hW, hN, g1, g2⟩ :=
    word_passes_spec env fuel s s1 s2 f C hf hi.heap hi.wact hi.winj hst0 hr1 hr2
  have hstamp := last_phone_transition_stamps env fuel s s1 f hr1
  have hdict := prune_word_chan_dict fuel s1 s2 f hr2
  obtain ⟨x1, x2, x3, x4, x5, x6, x7⟩ :=
    word_passes_fields s d3 d4 s1 t s2 f n m h3 h4.frame h5 g1.frame g2
  obtain ⟨_, _, r3, r4, r5, r6, r7, _⟩ := rhmm_frame_fields _ s2 g2
  have r3a : s2.chan = t.chan := r3
  have r4a : s2.word_chan = t.word_chan := r4
  have r5a : s2.word_active = t.word_active := r5
  have r6a : s2.active_word_list = t.active_word_list := r6
  have r7a : s2.n_active_word (parity (f + 1)) = m := by
    rw [r7]
    exact store_same _ _ _
  obtain ⟨c1, c2, c3, c4, c5, c6, c7, _, _, _⟩ := cand_frame_fields s d3 h3
  have e1c : s1.chan = d4.chan := by rw [h5]
  have e1w : s1.word_chan = d4.word_chan := by rw [h5]
  have e1l : s1.active_word_list = d4.active_word_list := by rw [h5]
  have e1a : s1.word_active = d4.word_active := by rw [h5]
  have e1g : s1.ngs = d4.ngs := by rw [h5]
  have e1h : s1.heap_top = d4.heap_top := by rw [h5]
  have e4g : d4.ngs = d3.ngs := by
    have e := congrArg (fun x : decoder_t => x.ngs) h4.frame
    exact e
  have hnm := g1.count
  have hn0 := h4.count
  have hold : ∀ k, k < n → s.active_word_list (parity f) = s.active_word_list (parity f) →
      t.active_word_list (parity (f + 1)) k = d4.active_word_list (parity (f + 1)) k := by
    intro k hk _
    rw [g1.old k (Or.inl hk), e1l]
  have htn : ∀ j, 0 ≤ j → j < s1.n_active_word (parity f) →
      j < ((s1.n_active_word (parity f)).toNat : Int) := by
    intro j hj0 hjn
    rw [Int.toNat_of_nonneg (by omega)]
    exact hjn
  have hon4 : ∀ w, on_list d4 (f + 1) n w → on_list s2 (f + 1) m w := by
    rintro w ⟨i, hi0, hin, he⟩
    exact ⟨i, hi0, by omega, by rw [r6a, hold i hin rfl]; exact he⟩
  have hact4 : ∀ w, on_list d4 (f + 1) n w → d4.word_active w = 1 := by
    intro w hw
    rcases h4.act w with ⟨a1, _⟩ | ⟨_, a2⟩
    · exact a1
    · exact absurd hw a2
  have hpush : ∀ j, 0 ≤ j → j < s1.n_active_word (parity f) →
      word_pushed s1 f (s1.last_phone_best_score + beam_max s1.dynamic_beam s1.lponlybeam)
        (fun j => C1 (s1.active_word_list (parity f) j)) j →
      on_list s2 (f + 1) m (s1.active_word_list (parity f) j) := by
    intro j hj0 hjn hp
    obtain ⟨k, hk1, hk2, hk3⟩ := g1.all j hj0 (htn j hj0 hjn) hjn hp
    exact ⟨k, by omega, hk2, by rw [r6a]; exact hk3⟩
  obtain ⟨C2, hCp, hCn⟩ : ∃ C2 : Int → List Int,
      (∀ w, (∃ j, 0 ≤ j ∧ j < s1.n_active_word (parity f) ∧
          s1.active_word_list (parity f) j = w) →
        C2 w = (C1 w).filter (leaf_kept s1
          (s1.last_phone_best_score + beam_max s1.dynamic_beam s1.lponlybeam) (f + 1))) ∧
      (∀ w, ¬ (∃ j, 0 ≤ j ∧ j < s1.n_active_word (parity f) ∧
          s1.active_word_list (parity f) j = w) → C2 w = C1 w) :=
    ⟨fun w => if (∃ j, 0 ≤ j ∧ j < s1.n_active_word (parity f) ∧
          s1.active_word_list (parity f) j = w) then
        (C1 w).filter (leaf_kept s1
          (s1.last_phone_best_score + beam_max s1.dynamic_beam s1.lponlybeam) (f + 1))
      else C1 w, fun w h => if_pos h, fun w h => if_neg h⟩
  have hsub : ∀ w a, a ∈ C2 w → a ∈ C1 w := by
    intro w a ha
    by_cases hl : ∃ j, 0 ≤ j ∧ j < s1.n_active_word (parity f) ∧
        s1.active_word_list (parity f) j = w
    · rw [hCp w hl] at ha
      exact (List.mem_filter.mp ha).1
    · rw [hCn w hl] at ha
      exact ha
  have hNC1 : ∀ a w, N a → a ∉ C1 w := by
    intro a w hNa hA
    rcases h4.fresh w a hA with h | h
    · exact hi.nleaf a w hNa h
    · have := hi.nbound a hNa
      rw [c3] at h
      omega
  have hNc : ∀ a, N a → s2.chan a = s.chan a := by
    intro a hNa
    rw [r3a, g1.cells a (fun j _ _ => hNC1 a _ hNa), e1c,
      h4.cells a (by rw [c3]; exact hi.nbound a hNa) (fun w => hi.nleaf a w hNa), c1]
  have hother : ∀ w a, ¬ (∃ j, 0 ≤ j ∧ j < s1.n_active_word (parity f) ∧
      s1.active_word_list (parity f) j = w) → a ∈ C1 w → t.chan a = s1.chan a := by
    intro w a hl ha
    refine g1.cells a (fun j hj0 hjn hA => hl ⟨j, hj0, hjn, ?_⟩)
    exact h4.heap.disj _ _ a hA ha
  have hs1 : ∀ w a, a ∈ C1 w → (s1.chan a).hmm.frame ≤ f + 1 := by
    intro w a ha
    have hb := h4.heap.bound w a ha
    rcases hstamp a (by rw [e1h]; exact hb) with h | ⟨hb1, h⟩ | h
    · omega
    · rw [h]
      rcases h4.fresh w a ha with h1 | h1
      · have := hi.wst w a h1
        omega
      · rw [c3] at h1
        omega
    · omega
  refine ⟨C2, { tree := ?_, f0 := by omega, heap := ?_, nbound := ?_, nleaf := ?_,
                cinj := ?_, cmem := ?_, cst := ?_, winj := ?_, wst := ?_, wlive := ?_ },
    ?_, x6⟩
  · refine tree_ok_congr s s2 N KR H hi.tree x1 x2 ?_ (fun a hNa => ?_) (fun i => ?_)
    · rw [hdict, e1g, e4g, c7]
    · rw [hNc a hNa]
      exact ⟨rfl, rfl, rfl⟩
    · rw [x5]
      exact ⟨rfl, rfl⟩
  · refine { top := ?_, chain := fun w => ?_, disj := ?_, bound := ?_ }
    · rw [x7]
      exact h4.heap.top
    · rw [r3a, r4a]
      by_cases hl : ∃ j, 0 ≤ j ∧ j < s1.n_active_word (parity f) ∧
          s1.active_word_list (parity f) j = w
      · rw [hCp w hl]
        obtain ⟨j, hj0, hjn, hjw⟩ := hl
        obtain ⟨q1, _⟩ := g1.done j hj0 hjn (htn j hj0 hjn)
        rw [hjw] at q1
        exact q1
      · rw [hCn w hl]
        have hh : t.word_chan w = d4.word_chan w := by
          rw [g1.heads w (fun j hj0 hjn he => hl ⟨j, hj0, hjn, he⟩), e1w]
        rw [hh]
        refine leaf_list_congr d4.chan t.chan _ _ (fun b hb => ?_) (h4.heap.chain w)
        rw [hother w b hl hb, e1c]
    · intro v w a hv hw
      exact h4.heap.disj v w a (hsub v a hv) (hsub w a hw)
    · intro w a ha
      rw [x7]
      exact h4.heap.bound w a (hsub w a ha)
  · intro a hNa
    have := hi.nbound a hNa
    have := h4.top
    rw [x7]
    rw [c3] at this
    omega
  · intro a w hNa ha
    exact hNC1 a w hNa (hsub w a ha)
  · rw [x3, x4]
    exact hi.ninj
  · rw [x3, x4]
    exact hi.nmem
  · intro a hNa
    rw [hNc a hNa]
    exact hi.nst a hNa
  · rw [r7a]
    intro i j hi0 him hj0 hjm he
    rw [r6a] at he
    by_cases hi1 : i < n
    · by_cases hj : j < n
      · rw [hold i hi1 rfl, hold j hj rfl] at he
        exact h4.inj i j hi0 hi1 hj0 hj he
      · exfalso
        obtain ⟨j1, _, _, _, hp, hje, _⟩ := g1.new j (by omega) hjm
        have h1 := hact4 _ ⟨i, hi0, hi1, (hold i hi1 rfl).symm.trans (he.trans hje)⟩
        rw [← e1a, hp.2] at h1
        exact absurd h1 (by decide)
    · by_cases hj : j < n
      · exfalso
        obtain ⟨i1, _, _, _, hp, hie, _⟩ := g1.new i (by omega) him
        have h1 := hact4 _ ⟨j, hj0, hj, (hold j hj rfl).symm.trans (he.symm.trans hie)⟩
        rw [← e1a, hp.2] at h1
        exact absurd h1 (by decide)
      · obtain ⟨i1, _, _, _, _, hie, hil⟩ := g1.new i (by omega) him
        obtain ⟨j1, _, _, _, _, hje, hjl⟩ := g1.new j (by omega) hjm
        by_contra hne
        rcases lt_or_gt_of_ne hne with h | h
        · exact hjl i (by omega) h (he.trans hje)
        · exact hil j (by omega) h (he.symm.trans hie)
  · intro w a ha
    have ha1 := hsub w a ha
    rw [r3a]
    by_cases hl : ∃ j, 0 ≤ j ∧ j < s1.n_active_word (parity f) ∧
        s1.active_word_list (parity f) j = w
    · obtain ⟨j, hj0, hjn, hjw⟩ := hl
      obtain ⟨_, q2⟩ := g1.done j hj0 hjn (htn j hj0 hjn)
      have q3 := q2 a (by rw [hjw]; exact ha1)
      rw [q3]
      unfold leaf_hmm
      split
      · exact le_of_eq rfl
      · exact hs1 w a ha1
    · rw [hother w a hl ha1]
      exact hs1 w a ha1
  · intro w hne
    rw [r7a]
    obtain ⟨a, ham⟩ := List.exists_mem_of_ne_nil _ hne
    by_cases hl : ∃ j, 0 ≤ j ∧ j < s1.n_active_word (parity f) ∧
        s1.active_word_list (parity f) j = w
    · rw [hCp w hl] at ham
      obtain ⟨j, hj0, hjn, hjw⟩ := hl
      obtain ⟨ha, hk⟩ := List.mem_filter.mp ham
      unfold leaf_kept at hk
      rw [Bool.or_eq_true] at hk
      rcases hk with hk | hk
      · by_cases hwa : s1.word_active w = 0
        · rw [← hjw]
          refine hpush j hj0 hjn ⟨?_, ?_⟩
          · dsimp only
            rw [hjw]
            exact List.ne_nil_of_mem (List.mem_filter.mpr ⟨ha, hk⟩)
          · rw [hjw]
            exact hwa
        · rcases h4.act w with ⟨_, b2⟩ | ⟨b1, _⟩
          · exact hon4 w b2
          · rw [e1a] at hwa
            exact absurd b1 hwa
      · have hfr : (d4.chan a).hmm.frame = f + 1 := by
          rw [← e1c]
          simpa using hk
        exact hon4 w (h4.stamp w a ha hfr)
    · rw [hCn w hl] at ham
      rcases h4.new w a ham with h | h
      · exfalso
        obtain ⟨j, hj0, hjn, hje⟩ := hi.wlive w (List.ne_nil_of_mem h)
        refine hl ⟨j, hj0, ?_, ?_⟩
        · rw [hN]
          exact hjn
        · rw [hW]
          exact hje
      · exact hon4 w h
  · intro w
    rw [r7a, r5a]
    rcases g1.act w with ⟨a1, a2⟩ | ⟨a1, j, hj0, _, hjn, hje, hp⟩
    · rw [a1, e1a]
      rcases h4.act w with ⟨b1, b2⟩ | ⟨b1, b2⟩
      · exact Or.inl ⟨b1, hon4 w b2⟩
      · refine Or.inr ⟨b1, ?_⟩
        rintro ⟨i, hi0, him, he⟩
        rw [r6a] at he
        by_cases hi1 : i < n
        · rw [hold i hi1 rfl] at he
          exact b2 ⟨i, hi0, hi1, he⟩
        · obtain ⟨j, hj0, hjt, hjn, hp, hje, _⟩ := g1.new i (by omega) him
          exact a2 ⟨j, hj0, hjt, hjn, hje.symm.trans he, hp⟩
    · refine Or.inl ⟨a1, ?_⟩
      rw [← hje]
      exact hpush j hj0 hjn hp

/-- A frame of the search that is processed runs the part before
`last_phone_transition`, the two word passes, the cap on word exits, the
transitions into new words and the clearing of the channels left behind. -/
theorem search_factors (env : env_t) (fuel : Nat) (d d1 : decoder_t) (r : Int)
    (h0 : d.n_feat_frame ≠ 0) (hr : ngram_fwdtree_search env fuel d = Except.ok (d1, r)) :
    ∃ s s1 s2 s3 s4, search_cands env fuel d = Except.ok s ∧
      last_phone_transition env fuel s d.output_frame = Except.ok s1 ∧
      prune_word_chan fuel s1 d.output_frame = Except.ok s2 ∧
      cap_exits s2 d.output_frame = Except.ok s3 ∧
      word_transition env s3 d.output_frame = Except.ok s4 ∧
      d1 = deactivate_channels s4 d.output_frame := by
  unfold ngram_fwdtree_search at hr
  rw [if_neg h0] at hr
  unfold search_cands
  dsimp only at hr ⊢
  generalize ngram_search_mark_bptable
      { d with output_frame := d.output_frame + 1, n_feat_frame := d.n_feat_frame - 1 }
      d.output_frame = d2 at hr ⊢
  generalize (if d2.best_score + 2 * d2.beam < WORST_SCORE then
      renormalize_scores fuel d2 d.output_frame d2.best_score
    else Except.ok d2) = r3 at hr ⊢
  cases r3 with
  | error e => simp at hr
  | ok d3 =>
    dsimp only at hr ⊢
    cases h4 : evaluate_channels env fuel d3 d.output_frame with
    | error e =>
      rw [h4] at hr
      simp at hr
    | ok d4 =>
      rw [h4] at hr
      dsimp only at hr ⊢
      unfold prune_channels at hr
      cases h5 : set_dynamic_beam d4 d.output_frame with
      | error e =>
        rw [h5] at hr
        simp at hr
      | ok d5 =>
        rw [h5] at hr
        dsimp only at hr ⊢
        cases h6 : prune_root_chan fuel d5 d.output_frame with
        | error e =>
          rw [h6] at hr
          simp at hr
        | ok d6 =>
          rw [h6] at hr
          dsimp only at hr ⊢
          cases h7 : prune_nonroot_chan fuel d6 d.output_frame with
          | error e =>
            rw [h7] at hr
            simp at hr
          | ok d7 =>
            rw [h7] at hr
            dsimp only at hr
            cases h8 : last_phone_transition env fuel d7 d.output_frame with
            | error e =>
              rw [h8] at hr
              simp at hr
            | ok d8 =>
              rw [h8] at hr
              dsimp only at hr
              cases h9 : prune_word_chan fuel d8 d.output_frame with
              | error e =>
                rw [h9] at hr
                simp at hr
              | ok d9 =>
                rw [h9] at hr
                dsimp only at hr
                cases h10 : cap_exits d9 d.output_frame with
                | error e =>
                  rw [h10] at hr
                  simp at hr
                | ok d10 =>
                  rw [h10] at hr
                  dsimp only at hr
                  cases h11 : word_transition env d10 d.output_frame with
                  | error e =>
                    rw [h11] at hr
                    simp at hr
                  | ok d11 =>
                    rw [h11] at hr
                    simp only [Except.ok.injEq, Prod.mk.injEq] at hr
                    exact ⟨d7, d8, d9, d10, d11, rfl, h8, h9, h10, h11, hr.1.symm⟩
theorem marks_ok_calm (f : Int) (d s : decoder_t) (h : marks_ok f d) (hc : calm d s) :
    marks_ok f s := by
  intro w
  rw [hc.2.1, hc.1.naw, on_list_quiet d s hc.1]
  exact h w

theorem parity_cases (f : Int) : parity f = 0 ∨ parity f = 1 := by
  unfold parity
  omega

/-- What `ngram_fwdtree_start` leaves alone, and the counts it resets. -/
theorem ngram_fwdtree_start_keeps (d : decoder_t) :
    (ngram_fwdtree_start d).homophone_set = d.homophone_set ∧
    (ngram_fwdtree_start d).n_root_chan = d.n_root_chan ∧
    (ngram_fwdtree_start d).ngs.dict = d.ngs.dict ∧
    (ngram_fwdtree_start d).heap_top = d.heap_top ∧
    (ngram_fwdtree_start d).word_chan = d.word_chan ∧
    (ngram_fwdtree_start d).word_active = d.word_active ∧
    (ngram_fwdtree_start d).chan = d.chan ∧
    (ngram_fwdtree_start d).root_chan = d.root_chan ∧
    (ngram_fwdtree_start d).output_frame = d.output_frame ∧
    (∀ p, p = 0 ∨ p = 1 → (ngram_fwdtree_start d).n_active_chan p = 0) ∧
    (∀ p, p = 0 ∨ p = 1 → (ngram_fwdtree_start d).n_active_word p = 0) := by
  have h : (start_clear_1ph (start_reset d)).homophone_set = d.homophone_set ∧
      (start_clear_1ph (start_reset d)).n_root_chan = d.n_root_chan ∧
      (start_clear_1ph (start_reset d)).ngs.dict = d.ngs.dict ∧
      (start_clear_1ph (start_reset d)).heap_top = d.heap_top ∧
      (start_clear_1ph (start_reset d)).word_chan = d.word_chan ∧
      (start_clear_1ph (start_reset d)).word_active = d.word_active ∧
      (start_clear_1ph (start_reset d)).chan = d.chan ∧
      (start_clear_1ph (start_reset d)).root_chan = d.root_chan ∧
      (start_clear_1ph (start_reset d)).output_frame = d.output_frame ∧
      (∀ p, p = 0 ∨ p = 1 → (start_clear_1ph (start_reset d)).n_active_chan p = 0) ∧
      (∀ p, p = 0 ∨ p = 1 → (start_clear_1ph (start_reset d)).n_active_word p = 0) := by
    unfold start_clear_1ph
    apply iter_up_inv (fun s : decoder_t => s.homophone_set = d.homophone_set ∧
      s.n_root_chan = d.n_root_chan ∧ s.ngs.dict = d.ngs.dict ∧ s.heap_top = d.heap_top ∧
      s.word_chan = d.word_chan ∧ s.word_active = d.word_active ∧ s.chan = d.chan ∧
      s.root_chan = d.root_chan ∧ s.output_frame = d.output_frame ∧
      (∀ p, p = 0 ∨ p = 1 → s.n_active_chan p = 0) ∧
      (∀ p, p = 0 ∨ p = 1 → s.n_active_word p = 0))
    · intro i s _ _ hs
      exact hs
    · refine ⟨rfl, rfl, rfl, rfl, rfl, rfl, rfl, rfl, rfl, ?_, ?_⟩
      · intro p hp
        rcases hp with hp | hp
        · rw [hp]
          rfl
        · rw [hp]
          rfl
      · intro p hp
        rcases hp with hp | hp
        · rw [hp]
          rfl
        · rw [hp]
          rfl
  exact h

/-- A ready decoder is, after `ngram_fwdtree_start`, in a state between
frames, with no leaf and no active word. -/
theorem run_inv_start (N : Int → Prop) (KR : Int → List Int) (H : parent_t → List Int)
    (d : decoder_t) (hd : ready N KR H d) :
    run_inv N KR H (ngram_fwdtree_start d).output_frame (ngram_fwdtree_start d)
      (fun _ => []) ∧
    marks_ok (ngram_fwdtree_start d).output_frame (ngram_fwdtree_start d) := by
  obtain ⟨ht, h0, hb, hf, hst, hwc, hwa⟩ := hd
  obtain ⟨k1, k2, k3, k4, k5, k6, k7, k8, k9, k10, k11⟩ := ngram_fwdtree_start_keeps d
  generalize ngram_fwdtree_start d = s at k1 k2 k3 k4 k5 k6 k7 k8 k9 k10 k11 ⊢
  rw [k9]
  have hnw : s.n_active_word (parity d.output_frame) = 0 := k11 _ (parity_cases _)
  have hnc : s.n_active_chan (parity d.output_frame) = 0 := k10 _ (parity_cases _)
  have hno : ∀ w, ¬ on_list s d.output_frame (s.n_active_word (parity d.output_frame)) w := by
    rintro w ⟨i, hi0, hin, _⟩
    rw [hnw] at hin
    omega
  refine ⟨{ tree := ?_, f0 := hf, heap := ?_, nbound := ?_, nleaf := ?_, cinj := ?_,
            cmem := ?_, cst := ?_, winj := ?_, wst := ?_, wlive := ?_ }, ?_⟩
  · refine tree_ok_congr d s N KR H ht k1 k2 k3 (fun a _ => ?_) (fun i => ?_)
    · rw [k7]
      exact ⟨rfl, rfl, rfl⟩
    · rw [k8]
      exact ⟨rfl, rfl⟩
  · refine { top := ?_, chain := fun w => ?_, disj := ?_, bound := ?_ }
    · rw [k4]
      exact h0
    · rw [k5, hwc w]
      exact rfl
    · intro v w a hv
      exact absurd hv (List.not_mem_nil a)
    · intro w a ha
      exact absurd ha (List.not_mem_nil a)
  · rw [k4]
    exact hb
  · intro a w _ ha
    exact absurd ha (List.not_mem_nil a)
  · intro i j hi0 hin
    rw [hnc] at hin
    omega
  · intro k hk0 hkn
    rw [hnc] at hkn
    omega
  · intro a hNa
    rw [k7]
    have := hst a hNa
    omega
  · intro i j hi0 hin
    rw [hnw] at hin
    omega
  · intro w a ha
    exact absurd ha (List.not_mem_nil a)
  · intro w hw
    exact absurd rfl hw
  · intro w
    refine Or.inr ⟨?_, hno w⟩
    rw [k6]
    exact hwa w

/-- A frame of the search takes a state between frames to a state between
frames. -/
theorem run_inv_step (env : env_t) (hv : vit_frame env) (N : Int → Prop)
    (KR : Int → List Int) (H : parent_t → List Int) (fuel : Nat) (d d1 : decoder_t) (r : Int)
    (C : Int → List Int) (hi : run_inv N KR H d.output_frame d C)
    (hm : marks_ok d.output_frame d)
    (hr : ngram_fwdtree_search env fuel d = Except.ok (d1, r)) :
    ∃ C1, run_inv N KR H d1.output_frame d1 C1 ∧ marks_ok d1.output_frame d1 := by
  by_cases h0 : d.n_feat_frame = 0
  · unfold ngram_fwdtree_search at hr
    rw [if_pos h0] at hr
    simp only [Except.ok.injEq, Prod.mk.injEq] at hr
    rw [← hr.1]
    exact ⟨C, hi, hm⟩
  · obtain ⟨s, s1, s2, s3, s4, g1, g2, g3, g4, g5, g6⟩ := search_factors env fuel d d1 r h0 hr
    obtain ⟨a1, a2⟩ := search_cands_inv env hv N KR H fuel d s C hi hm g1
    obtain ⟨C2, b1, b2, b3⟩ := word_passes_next env fuel N KR H _ s s1 s2 C a1 g2 g3
    have c1 := calm_cap_exits s2 s3 _ g4
    have c2 := calm_word_transition env s3 s4 _ g5
    have c3 := calm_deactivate s4 d.output_frame
    rw [← g6] at c3
    have c4 : calm s2 d1 := calm_trans s2 s3 d1 c1 (calm_trans s3 s4 d1 c2 c3)
    have e : d1.output_frame = d.output_frame + 1 := by
      rw [c4.2.2, b3, a2]
    rw [e]
    exact ⟨C2, run_inv_quiet N KR H _ s2 d1 C2 b1 c4.1, marks_ok_calm _ s2 d1 b2 c4⟩

/-- Every state reached from a ready decoder is a state between frames. -/
theorem reachable_run_inv (env : env_t) (hv : vit_frame env) (N : Int → Prop)
    (KR : Int → List Int) (H : parent_t → List Int) (d : decoder_t)
    (hd : reachable env (ready N KR H) d) :
    ∃ C, run_inv N KR H d.output_frame d C ∧ marks_ok d.output_frame d := by
  induction hd with
  | start d0 h0 => exact ⟨_, run_inv_start N KR H d0 h0⟩
  | step fuel d d1 r _ hs ih =>
    obtain ⟨C, h1, h2⟩ := ih
    exact run_inv_step env hv N KR H fuel d d1 r C h1 h2 hs

/-! ### Which faults a loop can raise -/

theorem for_up_err {σ : Type} (P : Int → σ → Prop) (Q : Fault → Prop)
    (body : Int → σ → Except Fault σ) (n : Nat) :
    ∀ (lo : Int) (s : σ) (e : Fault),
      (∀ i s s1, lo ≤ i → i < lo + n → P i s → body i s = Except.ok s1 → P (i + 1) s1) →
      (∀ i s e, lo ≤ i → i < lo + n → P i s → body i s = Except.error e → Q e) →
      P lo s → for_up body n lo s = Except.error e → Q e := by
  induction n with
  | zero =>
    intro lo s e _ _ _ hr
    simp [for_up] at hr
  | succ n ih =>
    intro lo s e hstep herr h0 hr
    simp only [for_up] at hr
    split at hr
    · rename_i e1 hb
      simp only [Except.error.injEq] at hr
      rw [← hr]
      exact herr lo s e1 (le_refl _) (by push_cast; omega) h0 hb
    · rename_i s1 hb
      refine ih (lo + 1) s1 e ?_ ?_ ?_ hr
      · intro i t t1 hi1 hi2 ht hbt
        exact hstep i t t1 (by omega) (by push_cast; omega) ht hbt
      · intro i t e2 hi1 hi2 ht hbt
        exact herr i t e2 (by omega) (by push_cast; omega) ht hbt
      · exact hstep lo s s1 (le_refl _) (by push_cast; omega) h0 hb

theorem for_list_err {σ : Type} (P : σ → Prop) (Q : Fault → Prop) (stop : Int → Bool)
    (next : σ → Int → Int) (body : Int → σ → Except Fault σ) (hq : Q Fault.fuel)
    (hstep : ∀ p s s1, stop p = false → P s → body p s = Except.ok s1 → P s1)
    (herr : ∀ p s e, stop p = false → P s → body p s = Except.error e → Q e) (fuel : Nat) :
    ∀ (p : Int) (s : σ) (e : Fault), P s →
      for_list stop next body fuel p s = Except.error e → Q e := by
  induction fuel with
  | zero =>
    intro p s e _ hr
    simp only [for_list, Except.error.injEq] at hr
    rw [← hr]
    exact hq
  | succ n ih =>
    intro p s e h0 hr
    simp only [for_list] at hr
    split at hr
    · simp at hr
    · rename_i hp
      have hp1 : stop p = false := by simpa using hp
      split at hr
      · rename_i e1 hb
        simp only [Except.error.injEq] at hr
        rw [← hr]
        exact herr p s e1 hp1 h0 hb
      · rename_i s1 hb
        exact ih _ s1 e (hstep p s s1 hp1 h0 hb) hr

theorem lpt_bucket_err (i : Int) (sn : decoder_t × Int) (e : Fault)
    (hr : lpt_bucket i sn = Except.error e) : e ≠ Fault.assert := by
  unfold lpt_bucket bp_deref at hr
  dsimp only at hr
  split at hr
  · rename_i e1 hb
    split at hb
    · simp only [Except.error.injEq] at hb hr
      rw [← hr, ← hb]
      exact fun h => Fault.noConfusion h
    · simp at hb
  · split at hr
    · simp at hr
    · simp at hr

theorem lpt_score_err (env : env_t) (fuel : Nat) (bp j0 : Int) (d : decoder_t) (e : Fault)
    (hr : lpt_score env fuel bp j0 d = Except.error e) : e ≠ Fault.assert := by
  unfold lpt_score at hr
  dsimp only at hr
  split at hr
  · simp at hr
  · refine for_list_err (fun _ : decoder_t => True) (fun e => e ≠ Fault.assert) _ _ _
      (fun h => Fault.noConfusion h) (fun _ _ _ _ _ _ => trivial) ?_ fuel _ _ e trivial hr
    intro p s e1 _ _ hb
    split at hb
    · simp at hb
    · simp at hb

theorem alloc_rc_loop_err (sseq_rc : Int → Int) (ciphone : Int) (fuel : Nat) :
    ∀ (i hmm : Int) (d : decoder_t) (e : Fault),
      alloc_rc_loop sseq_rc ciphone fuel i hmm d = Except.error e → e ≠ Fault.assert := by
  induction fuel with
  | zero =>
    intro i hmm d e hr
    simp only [alloc_rc_loop, Except.error.injEq] at hr
    rw [← hr]
    exact fun h => Fault.noConfusion h
  | succ n ih =>
    intro i hmm d e hr
    simp only [alloc_rc_loop] at hr
    split at hr
    · split at hr
      · exact ih _ _ _ e hr
      · exact ih _ _ _ e hr
    · simp at hr

theorem alloc_all_rc_err (fuel : Nat) (d : decoder_t) (w : Int) (e : Fault)
    (hm : (d.ngs.dict.dict_list w).mpx = true)
    (hr : alloc_all_rc fuel d w = Except.error e) : e ≠ Fault.assert := by
  unfold alloc_all_rc at hr
  dsimp only at hr
  split at hr
  · rename_i h
    rw [hm] at h
    exact absurd h (by decide)
  · split at hr
    · exact alloc_rc_loop_err _ _ fuel _ _ _ e hr
    · exact alloc_rc_loop_err _ _ fuel _ _ _ e hr
/-- Entering the leaves of a chain none of which is stamped `f + 1` raises no
assertion. -/
theorem enter_leaves_err (f i : Int) :
    ∀ (l : List Int) (fuel : Nat) (p : Int) (t : decoder_t × Int) (e : Fault),
      leaf_list t.1.chan p l →
      (∀ a ∈ l, (t.1.chan a).hmm.frame ≠ f + 1) →
      for_list is_null (fun (t : decoder_t × Int) a => (t.1.chan a).next)
        (fun a (t : decoder_t × Int) =>
          if (t.1.chan a).hmm.frame < f ∨
              (t.1.chan a).hmm.in_score < (t.1.lastphn_cand i).score then
            if (t.1.chan a).hmm.frame = f + 1 then Except.error Fault.assert
            else
              Except.ok (set_chan_hmm t.1 a
                (hmm_enter (t.1.chan a).hmm (t.1.lastphn_cand i).score
                  (t.1.lastphn_cand i).bp (f + 1)), t.2 + 1)
          else Except.ok t)
        fuel p t = Except.error e → e ≠ Fault.assert := by
  intro l
  induction l with
  | nil =>
    intro fuel p t e hl _ hr
    have hp : p = 0 := hl
    subst hp
    cases fuel with
    | zero =>
      simp only [for_list, Except.error.injEq] at hr
      rw [← hr]
      exact fun h => Fault.noConfusion h
    | succ n => simp [for_list, is_null] at hr
  | cons b l ih =>
    intro fuel p t e hl hfr hr
    have hnd := leaf_list_nodup _ _ _ hl
    obtain ⟨hp0, hpb, hrest⟩ := hl
    subst hpb
    have hbl : p ∉ l := (List.nodup_cons.mp hnd).1
    cases fuel with
    | zero =>
      simp only [for_list, Except.error.injEq] at hr
      rw [← hr]
      exact fun h => Fault.noConfusion h
    | succ n =>
      have hstop : is_null p = false := by simp [is_null, hp0]
      simp only [for_list, hstop] at hr
      have hnf : (t.1.chan p).hmm.frame ≠ f + 1 := hfr p (List.mem_cons_self p l)
      by_cases hen : (t.1.chan p).hmm.frame < f ∨
          (t.1.chan p).hmm.in_score < (t.1.lastphn_cand i).score
      · rw [if_pos hen, if_neg hnf] at hr
        simp only [Bool.false_eq_true, if_false] at hr
        have hn1 : ((set_chan_hmm t.1 p (hmm_enter (t.1.chan p).hmm
            (t.1.lastphn_cand i).score (t.1.lastphn_cand i).bp (f + 1))).chan p).next
            = (t.1.chan p).next := by
          unfold set_chan_hmm
          dsimp only
          rw [store_same]
        have hoth : ∀ a, a ≠ p → (set_chan_hmm t.1 p (hmm_enter (t.1.chan p).hmm
            (t.1.lastphn_cand i).score (t.1.lastphn_cand i).bp (f + 1))).chan a
            = t.1.chan a := by
          intro a ha
          unfold set_chan_hmm
          dsimp only
          rw [store_ne _ _ _ _ ha]
        rw [hn1] at hr
        refine ih n _ _ e ?_ ?_ hr
        · refine leaf_list_congr t.1.chan _ _ l (fun c hc => ?_) hrest
          rw [hoth c (fun e => hbl (e ▸ hc))]
        · intro a ha
          dsimp only
          rw [hoth a (fun e => hbl (e ▸ ha))]
          exact hfr a (List.mem_cons_of_mem _ ha)
      · rw [if_neg hen] at hr
        simp only [Bool.false_eq_true, if_false] at hr
        exact ih n _ _ e hrest (fun a ha => hfr a (List.mem_cons_of_mem _ ha)) hr
/-- The words `lpt_enter` puts on the next active word list are candidates
already gone over. -/
theorem lpt_enter_listed (fuel : Nat) (f thresh i : Int) (sn sn1 : decoder_t × Int)
    (d : decoder_t) (C0 C : Int → List Int) (hf : 0 ≤ f) (hinv : lp_inv d f C0 sn.1 sn.2 C)
    (hx : ∀ k, 0 ≤ k → k < sn.2 → ∃ c, 0 ≤ c ∧ c < i ∧
      sn.1.active_word_list (parity (f + 1)) k = (d.lastphn_cand c).wid)
    (hi0 : 0 ≤ i) (hr : lpt_enter fuel f thresh i sn = Except.ok sn1) :
    ∀ k, 0 ≤ k → k < sn1.2 → ∃ c, 0 ≤ c ∧ c < i + 1 ∧
      sn1.1.active_word_list (parity (f + 1)) k = (d.lastphn_cand c).wid := by
  have hold : ∀ k, 0 ≤ k → k < sn.2 → ∃ c, 0 ≤ c ∧ c < i + 1 ∧
      sn.1.active_word_list (parity (f + 1)) k = (d.lastphn_cand c).wid := by
    intro k hk0 hkn
    obtain ⟨c, h1, h2, h3⟩ := hx k hk0 hkn
    exact ⟨c, h1, by omega, h3⟩
  have ecand : sn.1.lastphn_cand = d.lastphn_cand := by
    have e := congrArg (fun x : decoder_t => x.lastphn_cand) hinv.frame
    exact e
  unfold lpt_enter at hr
  dsimp only at hr
  split at hr
  · split at hr
    · simp at hr
    · rename_i d1 ha
      split at hr
      · simp at hr
      · rename_i d2 k hl
        obtain ⟨l1, _, _, _, _, _, _, _, _, _, _, b11⟩ :=
          lp_cand_spec fuel f i _ sn.1 d1 d2 k C hf hinv.heap ha hl
        obtain ⟨_, e2, _, _⟩ := lp_frame_fields sn.1 d2 b11
        split at hr
        · split at hr
          · simp at hr
          · split at hr
            · simp at hr
            · simp only [Except.ok.injEq] at hr
              subst hr
              intro k1 hk0 hkn
              have hkn1 : k1 < sn.2 + 1 := hkn
              have eawl : (push_word d2 (parity (f + 1)) sn.2
                  (sn.1.lastphn_cand i).wid).active_word_list (parity (f + 1)) =
                  store (d2.active_word_list (parity (f + 1))) sn.2
                    (sn.1.lastphn_cand i).wid := store_same _ _ _
              show ∃ c, 0 ≤ c ∧ c < i + 1 ∧
                (push_word d2 (parity (f + 1)) sn.2
                  (sn.1.lastphn_cand i).wid).active_word_list (parity (f + 1)) k1
                  = (d.lastphn_cand c).wid
              rw [eawl]
              unfold store
              by_cases hk : k1 = sn.2
              · rw [if_pos hk, ecand]
                exact ⟨i, hi0, by omega, rfl⟩
              · rw [if_neg hk, e2]
                exact hold k1 hk0 (by omega)
        · simp only [Except.ok.injEq] at hr
          subst hr
          intro k1 hk0 hkn
          rw [e2]
          exact hold k1 hk0 hkn
  · simp only [Except.ok.injEq] at hr
    subst hr
    exact hold

/-- Entering the leaves of a candidate whose word is no candidate gone over
before raises no assertion. -/
theorem lpt_enter_err (fuel : Nat) (f thresh i : Int) (sn : decoder_t × Int) (e : Fault)
    (d : decoder_t) (C0 C : Int → List Int) (hf : 0 ≤ f) (hinv : lp_inv d f C0 sn.1 sn.2 C)
    (hx : ∀ k, 0 ≤ k → k < sn.2 → ∃ c, 0 ≤ c ∧ c < i ∧
      sn.1.active_word_list (parity (f + 1)) k = (d.lastphn_cand c).wid)
    (hi0 : 0 ≤ i) (hin : i < d.n_lastphn_cand)
    (hd : ∀ c c1, 0 ≤ c → c < d.n_lastphn_cand → 0 ≤ c1 → c1 < d.n_lastphn_cand →
      (d.lastphn_cand c).wid = (d.lastphn_cand c1).wid → c = c1)
    (hmp : (d.ngs.dict.dict_list (d.lastphn_cand i).wid).mpx = true ∧
      (d.ngs.dict.dict_list (d.lastphn_cand i).wid).len > 1)
    (hr : lpt_enter fuel f thresh i sn = Except.error e) : e ≠ Fault.assert := by
  have ecand : sn.1.lastphn_cand = d.lastphn_cand := by
    have e := congrArg (fun x : decoder_t => x.lastphn_cand) hinv.frame
    exact e
  have engs : sn.1.ngs = d.ngs := by
    have e := congrArg (fun x : decoder_t => x.ngs) hinv.frame
    exact e
  have hnot : ¬ on_list sn.1 (f + 1) sn.2 (d.lastphn_cand i).wid := by
    rintro ⟨k, hk0, hkn, hke⟩
    obtain ⟨c, h1, h2, h3⟩ := hx k hk0 hkn
    have := hd c i h1 (by omega) hi0 hin (h3.symm.trans hke)
    omega
  unfold lpt_enter at hr
  dsimp only at hr
  rw [ecand] at hr
  split at hr
  · split at hr
    · rename_i e1 ha
      simp only [Except.error.injEq] at hr
      rw [← hr]
      exact alloc_all_rc_err fuel sn.1 _ e1 (by rw [engs]; exact hmp.1) ha
    · rename_i d1 ha
      obtain ⟨l1, q1, _, _, q4, _, q6, _, _, _, q10⟩ :=
        alloc_all_rc_grow fuel sn.1 d1 _ (C (d.lastphn_cand i).wid) hinv.heap.top
          (hinv.heap.chain _) (hinv.heap.bound _) ha
      have hc1 : d1.lastphn_cand = d.lastphn_cand := by
        have e := congrArg (fun x : decoder_t => x.lastphn_cand) q10
        exact e.trans ecand
      split at hr
      · rename_i e1 hl
        simp only [Except.error.injEq] at hr
        rw [← hr]
        refine enter_leaves_err f i l1 fuel _ _ e1 q1 ?_ hl
        intro a ha1
        rcases q6 a ha1 with h | ⟨_, h⟩
        · have hk := (q4 a (hinv.heap.bound _ a h)).1
          show (d1.chan a).hmm.frame ≠ f + 1
          rw [hk]
          intro hfr
          exact hnot (hinv.stamp _ a h hfr)
        · show (d1.chan a).hmm.frame ≠ f + 1
          rw [h]
          omega
      · rename_i d2 k hl
        obtain ⟨l2, _, _, _, _, _, _, _, _, _, _, b11⟩ :=
          lp_cand_spec fuel f i _ sn.1 d1 d2 k C hf hinv.heap ha hl
        obtain ⟨e1, _, e3, _⟩ := lp_frame_fields sn.1 d2 b11
        split at hr
        · split at hr
          · rename_i hwa
            exfalso
            rw [e1] at hwa
            rcases hinv.act (d.lastphn_cand i).wid with ⟨_, h2⟩ | ⟨h1, _⟩
            · exact hnot h2
            · exact hwa h1
          · split at hr
            · rename_i hlen
              exfalso
              rw [e3, engs] at hlen
              exact hlen hmp.2
            · simp at hr
        · simp at hr
  · simp at hr
/-- In the state `cand_inv` describes, `last_phone_transition` raises no
assertion: the word of a candidate is not marked active, none of its leaves
is stamped for the next frame, and it is a multi-phone word. -/
theorem last_phone_transition_no_assert (env : env_t) (fuel : Nat) (N : Int → Prop)
    (KR : Int → List Int) (H : parent_t → List Int) (f : Int) (s : decoder_t)
    (C : Int → List Int) (hi : cand_inv N KR H f s C) :
    last_phone_transition env fuel s f ≠ Except.error Fault.assert := by
  intro hr
  have hf := hi.f0
  have hd0 : ∀ c c1, 0 ≤ c →
      c < ({ s with n_lastphn_cand_utt := s.n_lastphn_cand_utt + s.n_lastphn_cand } :
        decoder_t).n_lastphn_cand → 0 ≤ c1 →
      c1 < ({ s with n_lastphn_cand_utt := s.n_lastphn_cand_utt + s.n_lastphn_cand } :
        decoder_t).n_lastphn_cand →
      (({ s with n_lastphn_cand_utt := s.n_lastphn_cand_utt + s.n_lastphn_cand } :
        decoder_t).lastphn_cand c).wid =
      (({ s with n_lastphn_cand_utt := s.n_lastphn_cand_utt + s.n_lastphn_cand } :
        decoder_t).lastphn_cand c1).wid → c = c1 := hi.cinj
  unfold last_phone_transition at hr
  dsimp only at hr
  split at hr
  · rename_i e h1
    simp only [Except.error.injEq] at hr
    refine for_up_err (fun _ (_ : decoder_t × Int) => True) (fun e => e ≠ Fault.assert)
      _ _ _ _ e (fun _ _ _ _ _ _ _ => trivial) ?_ trivial h1 hr
    intro i sn e1 _ _ _ hb
    exact lpt_bucket_err i sn e1 hb
  · rename_i d1 ncs h1
    have hs1 : cand_frame s d1 := by
      refine for_up_inv (fun sn : decoder_t × Int => cand_frame s sn.1) _ _ _ _ _ ?_ ?_ h1
      · intro i sn sn1 _ _ hs hb
        exact cand_frame_bucket s i sn sn1 hs hb
      · unfold cand_frame
        rfl
    obtain ⟨Bk, hb⟩ := lpt_buckets_spec
      { s with n_lastphn_cand_utt := s.n_lastphn_cand_utt + s.n_lastphn_cand } _ hd0 h1
    clear h1
    split at hr
    · rename_i e h2
      simp only [Except.error.injEq] at hr
      refine for_up_err (fun _ (_ : decoder_t) => True) (fun e => e ≠ Fault.assert)
        _ _ _ _ e (fun _ _ _ _ _ _ _ => trivial) ?_ trivial h2 hr
      intro i t e1 _ _ _ hb1
      refine for_up_err (fun _ (_ : decoder_t) => True) (fun e => e ≠ Fault.assert)
        _ _ _ _ e1 (fun _ _ _ _ _ _ _ => trivial) ?_ trivial hb1
      intro bp t1 e2 _ _ _ hb2
      exact lpt_score_err env fuel bp _ t1 e2 hb2
    · rename_i d2 h2
      have hs2 : cand_frame s d2 := by
        refine for_up_inv (fun t : decoder_t => cand_frame s t) _ _ _ _ _ ?_ hs1 h2
        intro i t t1 _ _ hs hb1
        refine for_up_inv (fun t : decoder_t => cand_frame s t) _ _ _ _ _ ?_ hs hb1
        intro bp t2 t3 _ _ ht hbt
        exact cand_frame_score env fuel s bp _ t2 t3 ht hbt
      obtain ⟨g1, _⟩ := lpt_entry_final env fuel
        { s with n_lastphn_cand_utt := s.n_lastphn_cand_utt + s.n_lastphn_cand }
        d1 d2 ncs Bk hd0 hb h2
      clear h2
      obtain ⟨_, _, e3, _, e5, _⟩ := lt_only_fields d1 d2 g1
      obtain ⟨a1, a2⟩ := lpt_apply_spec d2 d2.n_lastphn_cand.toNat d2.last_phone_best_score
      generalize hR : iter_up _ d2.n_lastphn_cand.toNat 0 (d2, d2.last_phone_best_score) = R
        at hr a1 a2
      have hR1 : cand_frame s R.1 := by
        rw [← hR]
        apply iter_up_inv (fun sb : decoder_t × Int => cand_frame s sb.1)
        · intro i sb _ _ hsb
          refine cand_frame_trans s _ _ ?_ (cand_frame_set_cand _ _ _)
          exact cand_frame_trans s _ _ hsb (cand_frame_set_cand _ _ _)
        · exact hs2
      clear hR
      have hR2 : cand_frame s { R.1 with last_phone_best_score := R.2 } := by
        unfold cand_frame at hR1 ⊢
        dsimp only
        rw [hR1]
      obtain ⟨c1, c2, c3, c4, _, _, c7, _, _, c10⟩ := cand_frame_fields s _ hR2
      obtain ⟨_, _, _, _, _, _, _, _, _, en⟩ := cand_frame_fields s d2 hs2
      have hwid : ∀ c, 0 ≤ c → c < s.n_lastphn_cand →
          (R.1.lastphn_cand c).wid = (s.lastphn_cand c).wid := by
        intro c hc0 hc1
        have hc2 : c < (d2.n_lastphn_cand.toNat : Int) := by
          rw [en]
          omega
        obtain ⟨b1, _, _⟩ := a2 c hc0 hc2
        rw [b1, e3]
        exact (hb.same c).1
      split at hr
      · rename_i e h4
        simp only [Except.error.injEq] at hr
        have hn : ({ R.1 with last_phone_best_score := R.2 } : decoder_t).n_lastphn_cand =
            s.n_lastphn_cand := c10
        refine for_up_err
          (fun i (sn : decoder_t × Int) =>
            (∃ C1, lp_inv { R.1 with last_phone_best_score := R.2 } f C sn.1 sn.2 C1) ∧
            ∀ k, 0 ≤ k → k < sn.2 → ∃ c, 0 ≤ c ∧ c < i ∧
              sn.1.active_word_list (parity (f + 1)) k =
                (({ R.1 with last_phone_best_score := R.2 } : decoder_t).lastphn_cand c).wid)
          (fun e => e ≠ Fault.assert) _ _ _ _ e ?_ ?_ ?_ h4 hr
        · intro i sn sn1 hi0 _ ⟨⟨C1, hC⟩, hx⟩ hb1
          exact ⟨lp_step fuel f _ i sn sn1 _ C C1 hf hC hb1,
            lpt_enter_listed fuel f _ i sn sn1 _ C C1 hf hC hx hi0 hb1⟩
        · intro i sn e1 hi0 hin ⟨⟨C1, hC⟩, hx⟩ hb1
          have hin1 : i < s.n_lastphn_cand := by
            rw [hn] at hin
            omega
          refine lpt_enter_err fuel f _ i sn e1 _ C C1 hf hC hx hi0 (by rw [hn]; exact hin1)
            ?_ ?_ hb1
          · intro c c1 h1 h2 h3 h4 he
            rw [hn] at h2 h4
            refine hi.cinj c c1 h1 h2 h3 h4 ?_
            rw [← hwid c h1 h2, ← hwid c1 h3 h4]
            exact he
          · obtain ⟨p, hp, hw⟩ := hi.csrc i hi0 hin1
            have hm := hi.tree.hmp p _ hp hw
            rw [← hwid i hi0 hin1, ← c7] at hm
            exact hm
        · refine ⟨⟨C, lp_inv_init _ f C ?_ ?_ ?_⟩, fun k hk0 hkn => absurd hkn (by omega)⟩
          · refine { top := ?_, chain := ?_, disj := hi.heap.disj, bound := ?_ }
            · rw [c3]
              exact hi.heap.top
            · rw [c1, c2]
              exact hi.heap.chain
            · rw [c3]
              exact hi.heap.bound
          · rw [c4]
            exact hi.wact
          · rw [c1]
            intro w a ha
            have := hi.wst w a ha
            omega
      · simp at hr

theorem cands_out_eq (env : env_t) (fuel : Nat) (d : decoder_t)
    (h : cands_returns env fuel d = true) :
    search_cands env fuel d = Except.ok (cands_out env fuel d) := by
  unfold cands_returns at h
  unfold cands_out
  split at h
  · rename_i s hs
    rw [hs]
  · simp at h

theorem vit_frame_ex_env : vit_frame ex_env := fun _ _ => rfl

theorem ex_fresh_tree : tree_ok ex_fresh_dec ex_fresh_nodes ex_fresh_kids ex_fresh_hom := by
  have hroot : ∀ p, is_par ex_fresh_dec ex_fresh_nodes p → ∃ i, p = parent_t.root i := by
    intro p hp
    cases p with
    | root i => exact ⟨i, rfl⟩
    | node a => exact absurd hp (fun h => h)
  have hone : ∀ i, is_par ex_fresh_dec ex_fresh_nodes (parent_t.root i) → i = 0 := by
    intro i hp
    have h1 : 0 ≤ i ∧ i < 1 := hp
    omega
  refine { kr := ?_, krN := ?_, krd := ?_, nnext := ?_, nalt := ?_, hch := ?_, hnd := ?_,
           hdj := ?_, hmp := ?_ }
  · intro i _ _
    exact rfl
  · intro i _ _ c hc
    exact absurd hc (List.not_mem_nil c)
  · intro i j c _ _ _ _ hc
    exact absurd hc (List.not_mem_nil c)
  · intro c hc
    exact absurd hc (fun h => h)
  · intro c hc
    exact absurd hc (fun h => h)
  · intro p hp
    obtain ⟨i, rfl⟩ := hroot p hp
    exact ⟨le_refl _, rfl, (by decide : (-1 : Int) < 0)⟩
  · intro p hp
    obtain ⟨i, rfl⟩ := hroot p hp
    exact List.nodup_singleton 0
  · intro p q w hp hq _ _
    obtain ⟨i, rfl⟩ := hroot p hp
    obtain ⟨j, rfl⟩ := hroot q hq
    rw [hone i hp, hone j hq]
  · intro p w hp hw
    obtain ⟨i, rfl⟩ := hroot p hp
    have e : w = 0 := List.mem_singleton.mp hw
    rw [e]
    exact ⟨rfl, by decide⟩

theorem ex_fresh_ready : ready ex_fresh_nodes ex_fresh_kids ex_fresh_hom ex_fresh_dec :=
  ⟨ex_fresh_tree, le_refl _, fun _ ha => absurd ha (fun h => h), le_refl _,
    fun _ ha => absurd ha (fun h => h), fun _ => rfl, fun _ => rfl⟩

set_option maxRecDepth 100000 in
theorem ex_fresh_reach :
    reachable ex_env (ready ex_fresh_nodes ex_fresh_kids ex_fresh_hom)
      (frames ex_env 10 1 (ngram_fwdtree_start ex_fresh_dec)) :=
  reachable_frames ex_env _ 10 1 _ (reachable.start ex_fresh_dec ex_fresh_ready) (by decide!)

set_option maxRecDepth 100000 in
theorem ex_fresh_cands :
    search_cands ex_env 10 (frames ex_env 10 1 (ngram_fwdtree_start ex_fresh_dec)) =
      Except.ok (cands_out ex_env 10 (frames ex_env 10 1 (ngram_fwdtree_start ex_fresh_dec))) :=
  cands_out_eq ex_env 10 _ (by decide!)

/-- C37: in every state reached by `ngram_fwdtree_search` calls
from `ngram_fwdtree_start` on a ready decoder -- the lexicon tree well formed
with homophone chains of multi-phone words that share no word, its nodes
idle, no word with a leaf and no word marked active -- and for a Viterbi
step that keeps frame stamps: after the part of the frame up to
`prune_root_chan` and `prune_nonroot_chan` no word id occurs twice in
`lastphn_cand[0 .. n_lastphn_cand)`, and `last_phone_transition` fails no
assertion, whatever its fuel. -/
theorem candidates_once (env : env_t) (hv : vit_frame env) (N : Int → Prop)
    (KR : Int → List Int) (H : parent_t → List Int) (d : decoder_t)
    (hd : reachable env (ready N KR H) d) (fuel : Nat) (s : decoder_t)
    (hs : search_cands env fuel d = Except.ok s) :
    (∀ c c1, 0 ≤ c → c < s.n_lastphn_cand → 0 ≤ c1 → c1 < s.n_lastphn_cand →
      (s.lastphn_cand c).wid = (s.lastphn_cand c1).wid → c = c1) ∧
    ∀ fuel1, last_phone_transition env fuel1 s d.output_frame ≠ Except.error Fault.assert := by
  obtain ⟨C, h1, h2⟩ := reachable_run_inv env hv N KR H d hd
  obtain ⟨h3, _⟩ := search_cands_inv env hv N KR H fuel d s C h1 h2 hs
  exact ⟨h3.cinj, fun fuel1 =>
    last_phone_transition_no_assert env fuel1 N KR H d.output_frame s C h3⟩

set_option maxRecDepth 100000 in
/-- Witness for C37: after one frame on the fresh test decoder the second
frame has one candidate, word 0, and `last_phone_transition` fails no
assertion. -/
theorem candidates_once_witness :
    vit_frame ex_env ∧
    reachable ex_env (ready ex_fresh_nodes ex_fresh_kids ex_fresh_hom)
      (frames ex_env 10 1 (ngram_fwdtree_start ex_fresh_dec)) ∧
    search_cands ex_env 10 (frames ex_env 10 1 (ngram_fwdtree_start ex_fresh_dec)) =
      Except.ok (cands_out ex_env 10 (frames ex_env 10 1 (ngram_fwdtree_start ex_fresh_dec))) ∧
    (cands_out ex_env 10
      (frames ex_env 10 1 (ngram_fwdtree_start ex_fresh_dec))).n_lastphn_cand = 1 ∧
    ((∀ c c1, 0 ≤ c →
        c < (cands_out ex_env 10
          (frames ex_env 10 1 (ngram_fwdtree_start ex_fresh_dec))).n_lastphn_cand →
        0 ≤ c1 →
        c1 < (cands_out ex_env 10
          (frames ex_env 10 1 (ngram_fwdtree_start ex_fresh_dec))).n_lastphn_cand →
        ((cands_out ex_env 10
          (frames ex_env 10 1 (ngram_fwdtree_start ex_fresh_dec))).lastphn_cand c).wid =
        ((cands_out ex_env 10
          (frames ex_env 10 1 (ngram_fwdtree_start ex_fresh_dec))).lastphn_cand c1).wid →
        c = c1) ∧
      ∀ fuel1, last_phone_transition ex_env fuel1
        (cands_out ex_env 10 (frames ex_env 10 1 (ngram_fwdtree_start ex_fresh_dec)))
        (frames ex_env 10 1 (ngram_fwdtree_start ex_fresh_dec)).output_frame ≠
          Except.error Fault.assert) :=
  ⟨vit_frame_ex_env, ex_fresh_reach, ex_fresh_cands, by decide!,
    candidates_once ex_env vit_frame_ex_env ex_fresh_nodes ex_fresh_kids ex_fresh_hom _
      ex_fresh_reach 10 _ ex_fresh_cands⟩

theorem for_list_id {σ : Type} (stop : Int → Bool) (next : σ → Int → Int) (fuel : Nat)
    (p : Int) (s s1 : σ)
    (h : for_list stop next (fun _ (s : σ) => Except.ok s) fuel p s = Except.ok s1) : s1 = s := by
  refine for_list_inv (fun t : σ => t = s) stop next _ ?_ fuel p s s1 rfl h
  intro q t t1 _ ht hb
  simp only [Except.ok.injEq] at hb
  rw [← hb]
  exact ht

/-- The walk along a chain that ends returns when the fuel exceeds its
length. -/
theorem for_list_walk (s : decoder_t) :
    ∀ (l : List Int) (fuel : Nat) (p : Int), leaf_list s.chan p l → l.length < fuel →
      for_list is_null (fun (s : decoder_t) a => (s.chan a).next)
        (fun _ (s : decoder_t) => Except.ok s) fuel p s = Except.ok s := by
  intro l
  induction l with
  | nil =>
    intro fuel p hl hf
    have hp : p = 0 := hl
    subst hp
    cases fuel with
    | zero => exact absurd hf (by simp)
    | succ n => simp [for_list, is_null]
  | cons b l ih =>
    intro fuel p hl hf
    obtain ⟨hp0, hpb, hrest⟩ := hl
    subst hpb
    cases fuel with
    | zero => exact absurd hf (by simp)
    | succ n =>
      have hstop : is_null p = false := by simp [is_null, hp0]
      simp only [for_list, hstop]
      simp only [Bool.false_eq_true, if_false]
      refine ih n _ hrest ?_
      simp only [List.length_cons] at hf
      omega

theorem free_all_rc_spec (fuel : Nat) (d d1 : decoder_t) (w : Int)
    (h : free_all_rc fuel d w = Except.ok d1) : d1 = set_word_chan d w 0 := by
  unfold free_all_rc at h
  split at h
  · simp at h
  · rename_i d2 h2
    simp only [Except.ok.injEq] at h
    rw [← h, for_list_id _ _ fuel _ d d2 h2]

theorem free_all_rc_returns (fuel : Nat) (d : decoder_t) (w : Int) (l : List Int)
    (hl : leaf_list d.chan (d.word_chan w) l) (hf : l.length < fuel) :
    free_all_rc fuel d w = Except.ok (set_word_chan d w 0) := by
  unfold free_all_rc
  rw [for_list_walk d l fuel _ hl hf]

theorem fin_inv_step (fuel : Nat) (d : decoder_t) (f i : Int) (s s1 : decoder_t)
    (hi : fin_inv d f i s) (hr : finish_word fuel f i s = Except.ok s1) :
    fin_inv d f (i + 1) s1 := by
  have hold : ∀ j, 0 ≤ j → j < i →
      (d.ngs.dict.dict_list (d.active_word_list (parity f) j)).len ≠ 1 →
      (s.word_chan (d.active_word_list (parity f) j) = 0 ∧
        s.word_active (d.active_word_list (parity f) j) = 0) := hi.done
  unfold finish_word at hr
  dsimp only at hr
  have hw0 : s.active_word_list (parity f) i = d.active_word_list (parity f) i := by
    rw [hi.awl]
  generalize s.active_word_list (parity f) i = w at hr hw0
  have hdl : (s.ngs.dict.dict_list w).len = (d.ngs.dict.dict_list w).len := by
    rw [hi.dict]
  split at hr
  · rename_i h1
    simp only [Except.ok.injEq] at hr
    subst hr
    refine { awl := hi.awl, dict := hi.dict, rhmm := hi.rhmm, links := hi.links, wc := hi.wc,
             wa := hi.wa, one := hi.one, done := ?_ }
    intro j hj0 hj1 hlen
    by_cases hj : j = i
    · rw [hj, ← hw0, ← hdl] at hlen
      exact absurd h1 hlen
    · exact hold j hj0 (by omega) hlen
  · rename_i h1
    have key : ∀ t : decoder_t, t.active_word_list = s.active_word_list →
        t.ngs.dict = s.ngs.dict → t.all_rhmm = s.all_rhmm → t.chan = s.chan →
        (∀ v, t.word_chan v = 0 ∨ t.word_chan v = s.word_chan v) →
        (∀ v, v ≠ w → t.word_chan v = s.word_chan v) →
        t.word_chan w = 0 → t.word_active = store s.word_active w 0 →
        fin_inv d f (i + 1) t := by
      intro t e1 e2 e3 e4 e5 e6 e7 e8
      refine { awl := e1.trans hi.awl, dict := e2.trans hi.dict, rhmm := e3.trans hi.rhmm,
               links := fun a => by rw [e4]; exact hi.links a, wc := fun v => ?_,
               wa := fun v => ?_, one := fun v hv => ?_, done := ?_ }
      · rcases e5 v with h | h
        · exact Or.inl h
        · rw [h]
          exact hi.wc v
      · rw [e8]
        unfold store
        by_cases hv : v = w
        · rw [if_pos hv]
          exact Or.inl rfl
        · rw [if_neg hv]
          exact hi.wa v
      · have hvw : v ≠ w := by
          intro e
          rw [e, ← hdl] at hv
          exact h1 hv
        rw [e6 v hvw]
        exact hi.one v hv
      · intro j hj0 hj1 hlen
        by_cases hj : j = i
        · rw [hj, ← hw0]
          refine ⟨e7, ?_⟩
          rw [e8]
          exact store_same _ _ _
        · obtain ⟨g1, g2⟩ := hold j hj0 (by omega) hlen
          refine ⟨?_, ?_⟩
          · rcases e5 (d.active_word_list (parity f) j) with h | h
            · exact h
            · rw [h]
              exact g1
          · rw [e8]
            unfold store
            split
            · rfl
            · exact g2
    split at hr
    · rename_i h2
      simp only [Except.ok.injEq] at hr
      subst hr
      exact key _ rfl rfl rfl rfl (fun v => Or.inr rfl) (fun v _ => rfl) h2 rfl
    · have e := free_all_rc_spec fuel _ s1 w hr
      rw [e]
      refine key _ rfl rfl rfl rfl (fun v => ?_) (fun v hv => ?_) ?_ rfl
      · show store s.word_chan w 0 v = 0 ∨ store s.word_chan w 0 v = s.word_chan v
        unfold store
        by_cases hv : v = w
        · rw [if_pos hv]
          exact Or.inl rfl
        · rw [if_neg hv]
          exact Or.inr rfl
      · show store s.word_chan w 0 v = s.word_chan v
        exact store_ne _ _ _ _ hv
      · show store s.word_chan w 0 w = 0
        exact store_same _ _ _
/-- The state before the last loop of `ngram_fwdtree_finish`. -/
theorem fin_inv_init (d : decoder_t) :
    fin_inv d d.output_frame 0 (iter_up
      (fun k (s : decoder_t) =>
        set_chan_hmm s (s.active_chan_list (parity d.output_frame) k)
          (hmm_clear (s.chan (s.active_chan_list (parity d.output_frame) k)).hmm))
      ((iter_up
        (fun i (s : decoder_t) => set_root_hmm s i (hmm_clear (s.root_chan i).hmm))
        (ngram_search_mark_bptable d d.output_frame).n_root_chan.toNat 0
        (ngram_search_mark_bptable d d.output_frame)).n_active_chan
          (parity d.output_frame)).toNat 0
      (iter_up
        (fun i (s : decoder_t) => set_root_hmm s i (hmm_clear (s.root_chan i).hmm))
        (ngram_search_mark_bptable d d.output_frame).n_root_chan.toNat 0
        (ngram_search_mark_bptable d d.output_frame))) ∧
    (iter_up
      (fun k (s : decoder_t) =>
        set_chan_hmm s (s.active_chan_list (parity d.output_frame) k)
          (hmm_clear (s.chan (s.active_chan_list (parity d.output_frame) k)).hmm))
      ((iter_up
        (fun i (s : decoder_t) => set_root_hmm s i (hmm_clear (s.root_chan i).hmm))
        (ngram_search_mark_bptable d d.output_frame).n_root_chan.toNat 0
        (ngram_search_mark_bptable d d.output_frame)).n_active_chan
          (parity d.output_frame)).toNat 0
      (iter_up
        (fun i (s : decoder_t) => set_root_hmm s i (hmm_clear (s.root_chan i).hmm))
        (ngram_search_mark_bptable d d.output_frame).n_root_chan.toNat 0
        (ngram_search_mark_bptable d d.output_frame))).n_active_word = d.n_active_word := by
  have k2 : (fun s : decoder_t => s.active_word_list = d.active_word_list ∧
      s.ngs.dict = d.ngs.dict ∧ s.all_rhmm = d.all_rhmm ∧
      (∀ a, (s.chan a).next = (d.chan a).next) ∧ s.word_chan = d.word_chan ∧
      s.word_active = d.word_active ∧ s.n_active_word = d.n_active_word)
      (iter_up
        (fun i (s : decoder_t) => set_root_hmm s i (hmm_clear (s.root_chan i).hmm))
        (ngram_search_mark_bptable d d.output_frame).n_root_chan.toNat 0
        (ngram_search_mark_bptable d d.output_frame)) := by
    apply iter_up_inv (fun s : decoder_t => s.active_word_list = d.active_word_list ∧
      s.ngs.dict = d.ngs.dict ∧ s.all_rhmm = d.all_rhmm ∧
      (∀ a, (s.chan a).next = (d.chan a).next) ∧ s.word_chan = d.word_chan ∧
      s.word_active = d.word_active ∧ s.n_active_word = d.n_active_word)
    · intro i s _ _ hs
      exact hs
    · exact ⟨rfl, rfl, rfl, fun _ => rfl, rfl, rfl, rfl⟩
  generalize iter_up
    (fun i (s : decoder_t) => set_root_hmm s i (hmm_clear (s.root_chan i).hmm))
    (ngram_search_mark_bptable d d.output_frame).n_root_chan.toNat 0
    (ngram_search_mark_bptable d d.output_frame) = d2 at k2 ⊢
  have k3 : (fun s : decoder_t => s.active_word_list = d.active_word_list ∧
      s.ngs.dict = d.ngs.dict ∧ s.all_rhmm = d.all_rhmm ∧
      (∀ a, (s.chan a).next = (d.chan a).next) ∧ s.word_chan = d.word_chan ∧
      s.word_active = d.word_active ∧ s.n_active_word = d.n_active_word)
      (iter_up
        (fun k (s : decoder_t) =>
          set_chan_hmm s (s.active_chan_list (parity d.output_frame) k)
            (hmm_clear (s.chan (s.active_chan_list (parity d.output_frame) k)).hmm))
        (d2.n_active_chan (parity d.output_frame)).toNat 0 d2) := by
    apply iter_up_inv (fun s : decoder_t => s.active_word_list = d.active_word_list ∧
      s.ngs.dict = d.ngs.dict ∧ s.all_rhmm = d.all_rhmm ∧
      (∀ a, (s.chan a).next = (d.chan a).next) ∧ s.word_chan = d.word_chan ∧
      s.word_active = d.word_active ∧ s.n_active_word = d.n_active_word)
    · intro i s _ _ ⟨h1, h2, h3, h4, h5, h6, h7⟩
      refine ⟨h1, h2, h3, fun a => ?_, h5, h6, h7⟩
      rw [← h4 a]
      unfold set_chan_hmm store
      dsimp only
      split
      · rename_i e
        rw [e]
      · rfl
    · exact k2
  generalize iter_up _ (d2.n_active_chan (parity d.output_frame)).toNat 0 d2 = d3 at k3 ⊢
  obtain ⟨h1, h2, h3, h4, h5, h6, h7⟩ := k3
  refine ⟨{ awl := h1, dict := h2, rhmm := h3, links := h4, wc := fun v => Or.inr (by rw [h5]),
            wa := fun v => Or.inr (by rw [h6]), one := fun v _ => by rw [h5],
            done := fun j hj0 hj1 => absurd hj1 (by omega) }, h7⟩

theorem finish_word_returns (fuel : Nat) (d : decoder_t) (f i : Int) (s : decoder_t)
    (l : List Int) (hi : fin_inv d f i s)
    (hl : leaf_list d.chan (d.word_chan (d.active_word_list (parity f) i)) l)
    (hf : l.length < fuel) : ∃ s1, finish_word fuel f i s = Except.ok s1 := by
  unfold finish_word
  dsimp only
  have hw0 : s.active_word_list (parity f) i = d.active_word_list (parity f) i := by
    rw [hi.awl]
  generalize s.active_word_list (parity f) i = w at hw0 ⊢
  split
  · exact ⟨_, rfl⟩
  · split
    · exact ⟨_, rfl⟩
    · rename_i h2
      have h3 : s.word_chan w ≠ 0 := h2
      have e : s.word_chan w = d.word_chan w := by
        rcases hi.wc w with h | h
        · exact absurd h h3
        · exact h
      refine ⟨_, free_all_rc_returns fuel _ w l ?_ hf⟩
      show leaf_list s.chan (s.word_chan w) l
      rw [e, hw0]
      exact leaf_list_congr d.chan s.chan _ l (fun b _ => hi.links b) hl

theorem bound_exists (g : Int → Nat) (n : Nat) :
    ∃ F : Nat, ∀ j : Int, 0 ≤ j → j < n → g j < F := by
  induction n with
  | zero => exact ⟨0, fun j h0 h1 => absurd h1 (by simp; omega)⟩
  | succ n ih =>
    obtain ⟨F, hF⟩ := ih
    refine ⟨max F (g n + 1), fun j h0 h1 => ?_⟩
    by_cases hj : j = n
    · rw [hj]
      exact lt_of_lt_of_le (Nat.lt_succ_self _) (le_max_right _ _)
    · have h2 : j < (n : Int) := by
        push_cast at h1
        omega
      exact lt_of_lt_of_le (hF j h0 h2) (le_max_left _ _)

/-- From a state between frames `ngram_fwdtree_finish` returns with enough
fuel, and whenever it returns no multi-phone word keeps a leaf chain or its
mark, while the single-phone words keep what they hold. -/
theorem finish_spec (N : Int → Prop) (KR : Int → List Int) (H : parent_t → List Int)
    (d : decoder_t) (C : Int → List Int) (hi : run_inv N KR H d.output_frame d C)
    (hm : marks_ok d.output_frame d) :
    (∀ fuel d1, ngram_fwdtree_finish fuel d = Except.ok d1 →
      (∀ w, (d.ngs.dict.dict_list w).len ≠ 1 → d1.word_chan w = 0 ∧ d1.word_active w = 0) ∧
      (∀ w, (d.ngs.dict.dict_list w).len = 1 → d1.word_chan w = d.word_chan w) ∧
      d1.all_rhmm = d.all_rhmm) ∧
    ∃ F : Nat, ∀ fuel, F ≤ fuel → ∃ d1, ngram_fwdtree_finish fuel d = Except.ok d1 := by
  obtain ⟨k1, k2⟩ := fin_inv_init d
  refine ⟨?_, ?_⟩
  · intro fuel d1 hr
    unfold ngram_fwdtree_finish at hr
    dsimp only at hr
    generalize iter_up _ ((iter_up _ _ 0 (ngram_search_mark_bptable d d.output_frame)
      ).n_active_chan (parity d.output_frame)).toNat 0 _ = d3 at hr k1 k2
    have g := for_up_ind (fun i (s : decoder_t) => fin_inv d d.output_frame i s) _ _ _ _ _
      (fun i s s1 _ _ hs hb => fin_inv_step fuel d d.output_frame i s s1 hs hb) k1 hr
    rw [k2] at g
    refine ⟨fun w hlen => ?_, g.one, g.rhmm⟩
    by_cases hl : on_list d d.output_frame (d.n_active_word (parity d.output_frame)) w
    · obtain ⟨j, hj0, hj1, hje⟩ := hl
      have := g.done j hj0 (by
        rw [Int.toNat_of_nonneg (by omega)]
        omega) (by rw [hje]; exact hlen)
      rw [hje] at this
      exact this
    · have hc : C w = [] := by
        by_contra hne
        exact hl (hi.wlive w hne)
      have hch := hi.heap.chain w
      rw [hc] at hch
      have e0 : d.word_chan w = 0 := hch
      have a0 : d.word_active w = 0 := by
        rcases hm w with ⟨_, h2⟩ | ⟨h1, _⟩
        · exact absurd h2 hl
        · exact h1
      refine ⟨?_, ?_⟩
      · rcases g.wc w with h | h
        · exact h
        · rw [h, e0]
      · rcases g.wa w with h | h
        · exact h
        · rw [h, a0]
  · obtain ⟨F, hF⟩ := bound_exists
      (fun j => (C (d.active_word_list (parity d.output_frame) j)).length)
      (d.n_active_word (parity d.output_frame)).toNat
    refine ⟨F, fun fuel hfu => ?_⟩
    unfold ngram_fwdtree_finish
    dsimp only
    generalize iter_up _ ((iter_up _ _ 0 (ngram_search_mark_bptable d d.output_frame)
      ).n_active_chan (parity d.output_frame)).toNat 0 _ = d3 at k1 k2
    rw [k2]
    obtain ⟨s1, h1, _⟩ := for_up_total_ind
      (fun i (s : decoder_t) => fin_inv d d.output_frame i s) (finish_word fuel d.output_frame)
      (d.n_active_word (parity d.output_frame)).toNat 0 d3
      (fun i s hi0 hi1 hs => by
        have hlen := hF i hi0 (by omega)
        obtain ⟨s1, h1⟩ := finish_word_returns fuel d d.output_frame i s _ hs
          (hi.heap.chain _) (lt_of_lt_of_le hlen hfu)
        exact ⟨s1, h1, fin_inv_step fuel d d.output_frame i s s1 hs h1⟩) k1
    exact ⟨s1, h1⟩
theorem finish_out_eq (fuel : Nat) (d : decoder_t) (h : finish_returns fuel d = true) :
    ngram_fwdtree_finish fuel d = Except.ok (finish_out fuel d) := by
  unfold finish_returns at h
  unfold finish_out
  split at h
  · rename_i s hs
    rw [hs]
  · simp at h

/-- C19: in every state reached by `ngram_fwdtree_search` calls
from `ngram_fwdtree_start` on a ready decoder -- the lexicon tree well
formed, no word with a leaf and no word marked active -- and for a Viterbi
step that keeps frame stamps: whenever `ngram_fwdtree_finish` returns, every
word that is no single-phone word has `word_chan[w] == NULL` and
`word_active[w] == 0`, while for every single-phone word `word_chan[w]` and
the permanently allocated channels are what they were; and with enough fuel
for the leaf chains `ngram_fwdtree_finish` returns. -/
theorem finish_leaves_none (env : env_t) (hv : vit_frame env) (N : Int → Prop)
    (KR : Int → List Int) (H : parent_t → List Int) (d : decoder_t)
    (hd : reachable env (ready N KR H) d) :
    (∀ fuel d1, ngram_fwdtree_finish fuel d = Except.ok d1 →
      (∀ w, (d.ngs.dict.dict_list w).len ≠ 1 → d1.word_chan w = 0 ∧ d1.word_active w = 0) ∧
      (∀ w, (d.ngs.dict.dict_list w).len = 1 → d1.word_chan w = d.word_chan w) ∧
      d1.all_rhmm = d.all_rhmm) ∧
    ∃ F : Nat, ∀ fuel, F ≤ fuel → ∃ d1, ngram_fwdtree_finish fuel d = Except.ok d1 := by
  obtain ⟨C, h1, h2⟩ := reachable_run_inv env hv N KR H d hd
  exact finish_spec N KR H d C h1 h2

set_option maxRecDepth 100000 in
theorem ex_fresh_reach2 :
    reachable ex_env (ready ex_fresh_nodes ex_fresh_kids ex_fresh_hom)
      (frames ex_env 10 2 (ngram_fwdtree_start ex_fresh_dec)) :=
  reachable_frames ex_env _ 10 2 _ (reachable.start ex_fresh_dec ex_fresh_ready) (by decide!)

set_option maxRecDepth 100000 in
theorem ex_fresh_finish :
    ngram_fwdtree_finish 10 (frames ex_env 10 2 (ngram_fwdtree_start ex_fresh_dec)) =
      Except.ok (finish_out 10 (frames ex_env 10 2 (ngram_fwdtree_start ex_fresh_dec))) :=
  finish_out_eq 10 _ (by decide!)

set_option maxRecDepth 100000 in
/-- Witness for C19: after two frames on the fresh test decoder word 0 has a
leaf and is marked active; `ngram_fwdtree_finish` returns and leaves it
neither. -/
theorem finish_leaves_none_witness :
    vit_frame ex_env ∧
    reachable ex_env (ready ex_fresh_nodes ex_fresh_kids ex_fresh_hom)
      (frames ex_env 10 2 (ngram_fwdtree_start ex_fresh_dec)) ∧
    (frames ex_env 10 2 (ngram_fwdtree_start ex_fresh_dec)).word_chan 0 = 1 ∧
    (frames ex_env 10 2 (ngram_fwdtree_start ex_fresh_dec)).word_active 0 = 1 ∧
    ngram_fwdtree_finish 10 (frames ex_env 10 2 (ngram_fwdtree_start ex_fresh_dec)) =
      Except.ok (finish_out 10 (frames ex_env 10 2 (ngram_fwdtree_start ex_fresh_dec))) ∧
    (finish_out 10 (frames ex_env 10 2 (ngram_fwdtree_start ex_fresh_dec))).word_chan 0 = 0 ∧
    ((∀ fuel d1,
        ngram_fwdtree_finish fuel (frames ex_env 10 2 (ngram_fwdtree_start ex_fresh_dec)) =
          Except.ok d1 →
        (∀ w, ((frames ex_env 10 2 (ngram_fwdtree_start ex_fresh_dec)).ngs.dict.dict_list w).len
            ≠ 1 → d1.word_chan w = 0 ∧ d1.word_active w = 0) ∧
        (∀ w, ((frames ex_env 10 2 (ngram_fwdtree_start ex_fresh_dec)).ngs.dict.dict_list w).len
            = 1 →
          d1.word_chan w = (frames ex_env 10 2 (ngram_fwdtree_start ex_fresh_dec)).word_chan w) ∧
        d1.all_rhmm = (frames ex_env 10 2 (ngram_fwdtree_start ex_fresh_dec)).all_rhmm) ∧
      ∃ F : Nat, ∀ fuel, F ≤ fuel → ∃ d1,
        ngram_fwdtree_finish fuel (frames ex_env 10 2 (ngram_fwdtree_start ex_fresh_dec)) =
          Except.ok d1) :=
  ⟨vit_frame_ex_env, ex_fresh_reach2, by decide!, by decide!, ex_fresh_finish, by decide!,
    finish_leaves_none ex_env vit_frame_ex_env ex_fresh_nodes ex_fresh_kids ex_fresh_hom _
      ex_fresh_reach2⟩

/-! ### The cache of language-model transitions over an utterance -/

theorem ltrans_eq (a b : last_ltrans_t) (h1 : a.sf = b.sf) (h2 : a.dscr = b.dscr)
    (h3 : a.bp = b.bp) : a = b := by
  cases a
  cases b
  simp_all

theorem lt_run_sf (env : env_t) (d : decoder_t) (w : Int) (n : Nat) :
    ∀ (lo : Int) (v : last_ltrans_t), (lt_run env d w n lo v).sf = v.sf := by
  induction n with
  | zero =>
    intro lo v
    rfl
  | succ n ih =>
    intro lo v
    have e : lt_run env d w (n + 1) lo v = lt_run env d w n (lo + 1) (lt_step env d w lo v) := rfl
    rw [e, ih, lt_step_sf]

/-- Two runs of the maximisation from records with the same score end with
the same score, and with the same entry unless neither record was touched. -/
theorem lt_run_pair (env : env_t) (d : decoder_t) (w : Int) (n : Nat) :
    ∀ (lo : Int) (v v1 : last_ltrans_t), v.dscr = v1.dscr →
      (lt_run env d w n lo v).dscr = (lt_run env d w n lo v1).dscr ∧
      ((lt_run env d w n lo v).bp = (lt_run env d w n lo v1).bp ∨
        (lt_run env d w n lo v = v ∧ lt_run env d w n lo v1 = v1)) := by
  induction n with
  | zero =>
    intro lo v v1 h1
    exact ⟨h1, Or.inr ⟨rfl, rfl⟩⟩
  | succ n ih =>
    intro lo v v1 h1
    have e : ∀ x, lt_run env d w (n + 1) lo x = lt_run env d w n (lo + 1) (lt_step env d w lo x) :=
      fun _ => rfl
    rw [e v, e v1]
    by_cases hv : (d.ngs.bp_table lo).valid = false
    · have e1 : ∀ x, lt_step env d w lo x = x := by
        intro x
        unfold lt_step
        rw [if_pos hv]
      rw [e1 v, e1 v1]
      exact ih (lo + 1) v v1 h1
    · by_cases hc : v.dscr < lm_cand env d lo w
      · have e1 : lt_step env d w lo v = { v with dscr := lm_cand env d lo w, bp := lo } := by
          unfold lt_step
          rw [if_neg hv, if_pos hc]
        have hc1 : v1.dscr < lm_cand env d lo w := by
          rw [← h1]
          exact hc
        have e2 : lt_step env d w lo v1 = { v1 with dscr := lm_cand env d lo w, bp := lo } := by
          unfold lt_step
          rw [if_neg hv, if_pos hc1]
        rw [e1, e2]
        obtain ⟨a, c⟩ := ih (lo + 1) { v with dscr := lm_cand env d lo w, bp := lo }
          { v1 with dscr := lm_cand env d lo w, bp := lo } rfl
        refine ⟨a, Or.inl ?_⟩
        rcases c with c | ⟨c1, c2⟩
        · exact c
        · rw [c1, c2]
      · have e1 : lt_step env d w lo v = v := by
          unfold lt_step
          rw [if_neg hv, if_neg hc]
        have hc1 : ¬ v1.dscr < lm_cand env d lo w := by
          rw [← h1]
          exact hc
        have e2 : lt_step env d w lo v1 = v1 := by
          unfold lt_step
          rw [if_neg hv, if_neg hc1]
        rw [e1, e2]
        exact ih (lo + 1) v v1 h1

/-- The maximisation run again from its own result, the score reset to
`WORST_SCORE`, gives that result again. -/
theorem lt_run_idem (env : env_t) (d : decoder_t) (w : Int) (n : Nat) (lo : Int)
    (v : last_ltrans_t) (hv : v.dscr = WORST_SCORE) :
    lt_run env d w n lo { lt_run env d w n lo v with dscr := WORST_SCORE } =
      lt_run env d w n lo v := by
  have hsf := lt_run_sf env d w n lo v
  generalize hr : lt_run env d w n lo v = r at hsf
  obtain ⟨a, c⟩ := lt_run_pair env d w n lo v { r with dscr := WORST_SCORE } hv
  rw [hr] at a c
  have hsf1 := lt_run_sf env d w n lo { r with dscr := WORST_SCORE }
  rcases c with c | ⟨c1, c2⟩
  · exact ltrans_eq _ _ hsf1 a.symm c.symm
  · rw [c2]
    refine ltrans_eq _ _ rfl ?_ rfl
    show WORST_SCORE = r.dscr
    rw [c1, hv]

theorem lt_step_frozen (env : env_t) (d s : decoder_t) (w b : Int) (v : last_ltrans_t)
    (he : s.ngs.bp_table b = d.ngs.bp_table b)
    (hs : s.ngs.bscore_stack ((d.ngs.bp_table b).s_idx +
        rcpermtab_of d (d.ngs.bp_table b) ((d.ngs.dict.dict_list w).ci_phone_ids 0)) =
      d.ngs.bscore_stack ((d.ngs.bp_table b).s_idx +
        rcpermtab_of d (d.ngs.bp_table b) ((d.ngs.dict.dict_list w).ci_phone_ids 0)))
    (hd : s.ngs.dict = d.ngs.dict) (hx : s.xwd = d.xwd) :
    lt_step env s w b v = lt_step env d w b v := by
  have e : lm_cand env s b w = lm_cand env d b w := by
    unfold lm_cand rcpermtab_of at *
    rw [he, hd, hx, hs]
  unfold lt_step
  rw [he, e]

theorem lt_run_frozen (env : env_t) (d s : decoder_t) (w : Int) (n : Nat) :
    ∀ (lo : Int) (v : last_ltrans_t),
      (∀ b x, lo ≤ b → b < lo + n → lt_step env s w b x = lt_step env d w b x) →
      lt_run env s w n lo v = lt_run env d w n lo v := by
  induction n with
  | zero =>
    intro lo v _
    rfl
  | succ n ih =>
    intro lo v h
    have e : ∀ (y : decoder_t) x,
        lt_run env y w (n + 1) lo x = lt_run env y w n (lo + 1) (lt_step env y w lo x) :=
      fun _ _ => rfl
    rw [e s, e d, h lo v (le_refl _) (by push_cast; omega)]
    apply ih
    intro b x hb1 hb2
    exact h b x (by omega) (by push_cast; omega)

/-- A cache entry that is in order stays in order while the entries below
`B`, the stack slots below `S` and the entry itself are left alone. -/
theorem cache_ok_point (env : env_t) (d s : decoder_t) (B S w : Int)
    (f1 : ∀ b, 0 ≤ b → b < B → s.ngs.bp_table b = d.ngs.bp_table b)
    (f2 : ∀ j, j < S → s.ngs.bscore_stack j = d.ngs.bscore_stack j)
    (f3 : s.ngs.bp_table_idx = d.ngs.bp_table_idx) (f4 : s.ngs.dict = d.ngs.dict)
    (f5 : s.xwd = d.xwd) (f6 : s.last_ltrans w = d.last_ltrans w)
    (f7 : s.output_frame = d.output_frame)
    (hr : ∀ i, 0 ≤ i → i < B → ∀ ci,
      (d.ngs.bp_table i).s_idx + rcpermtab_of d (d.ngs.bp_table i) ci < S)
    (h : cache_ok env d B w) : cache_ok env s B w := by
  unfold cache_ok at h ⊢
  rw [f6, f3, f7]
  rcases h with h | ⟨e, h1, h2, h3, h4, h5⟩
  · exact Or.inl h
  · refine Or.inr ⟨e, h1, h2, h3, h4, ?_⟩
    rw [lt_run_frozen env d s w _ _ _ ?_]
    · exact h5
    · intro b x hb1 hb2
      have hbB : b < B := by omega
      have hb0 : 0 ≤ b := by omega
      exact lt_step_frozen env d s w b x (f1 b hb0 hbB) (f2 _ (hr b hb0 hbB _)) f4 f5

theorem cache_ok_frozen (env : env_t) (d s : decoder_t) (B S w : Int)
    (hf : bt_frozen B S d s)
    (hr : ∀ i, 0 ≤ i → i < B → ∀ ci,
      (d.ngs.bp_table i).s_idx + rcpermtab_of d (d.ngs.bp_table i) ci < S)
    (h : cache_ok env d B w) : cache_ok env s B w := by
  obtain ⟨f1, f2, f3, f4, f5, f6, f7, _⟩ := hf
  exact cache_ok_point env d s B S w f1 f2 f3 f4 f5 (by rw [f6]) f7 hr h

theorem rcpermtab_of_congr (d s : decoder_t) (h : s.xwd = d.xwd) :
    rcpermtab_of s = rcpermtab_of d := by
  funext b
  unfold rcpermtab_of
  rw [h]

theorem bt_frozen_refl (B S : Int) (d : decoder_t) : bt_frozen B S d d :=
  ⟨fun _ _ _ => rfl, fun _ _ => rfl, rfl, rfl, rfl, rfl, rfl, rfl, rfl, rfl⟩

theorem bt_frozen_trans (B S : Int) (a b c : decoder_t) (h1 : bt_frozen B S a b)
    (h2 : bt_frozen B S b c) : bt_frozen B S a c := by
  obtain ⟨a1, a2, a3, a4, a5, a6, a7, a8, a9, a10⟩ := h1
  obtain ⟨b1, b2, b3, b4, b5, b6, b7, b8, b9, b10⟩ := h2
  exact ⟨fun b hb0 hb1 => (b1 b hb0 hb1).trans (a1 b hb0 hb1),
    fun j hj => (b2 j hj).trans (a2 j hj), b3.trans a3, b4.trans a4, b5.trans a5,
    b6.trans a6, b7.trans a7, b8.trans a8, b9.trans a9, b10.trans a10⟩

/-- A state with the same backpointer part and tables has a cache entry in
order when the entry is the same. -/
theorem cache_ok_congr (env : env_t) (d s : decoder_t) (B w : Int)
    (e1 : s.ngs = d.ngs) (e2 : s.xwd = d.xwd) (e3 : s.output_frame = d.output_frame)
    (e4 : s.last_ltrans w = d.last_ltrans w) (h : cache_ok env d B w) :
    cache_ok env s B w := by
  unfold cache_ok at h ⊢
  rw [e4, e1, e3]
  rcases h with h | ⟨e, h1, h2, h3, h4, h5⟩
  · exact Or.inl h
  · refine Or.inr ⟨e, h1, h2, h3, h4, ?_⟩
    rw [lt_run_congr env d s e1 e2]
    exact h5

/-- The table part of the invariant depends on the entries, the stack, the
frame marks and the permutation tables only. -/
theorem seg_ok_frozen (f B : Int) (d s : decoder_t)
    (h1 : ∀ b, 0 ≤ b → b < B → s.ngs.bp_table b = d.ngs.bp_table b)
    (h2 : s.ngs.bp_table_idx = d.ngs.bp_table_idx)
    (hl : ∀ i, 0 ≤ i → i < B → 0 ≤ d.ngs.bp_table_idx (d.ngs.bp_table i).frame)
    (h : seg_ok f B d) : seg_ok f B s := by
  intro i hi0 hi1
  have ef : ∀ e, frame_end s f B e = frame_end d f B e := fun e => by
    unfold frame_end
    rw [h2]
  obtain ⟨s1, s2, s3, s4⟩ := h i hi0 hi1
  have hl0 := hl i hi0 hi1
  rw [h1 i hi0 hi1, h2, ef]
  refine ⟨s1, s2, s3, ?_⟩
  intro j hj0 hj1
  rw [h1 j (by omega) (by omega)]
  exact s4 j hj0 hj1

theorem lm_inv_of (env : env_t) (W W1 : Int → Prop) (f B S : Int) (d s : decoder_t)
    (h : lm_inv env W f B S d)
    (e1 : s.ngs.bp_table = d.ngs.bp_table) (e2 : s.ngs.bp_table_idx = d.ngs.bp_table_idx)
    (e3 : s.ngs.bpidx = d.ngs.bpidx) (e4 : s.ngs.bss_head = d.ngs.bss_head)
    (e5 : s.xwd = d.xwd) (hc : ∀ w, W1 w → cache_ok env s B w) :
    lm_inv env W1 f B S s := by
  have ep := rcpermtab_of_congr d s e5
  refine { head := ?_, live := ?_, reads := ?_, cur := ?_, cache := hc,
           seg := seg_ok_frozen f B d s (fun b _ _ => by rw [e1]) e2
             (fun i a b => (h.live i a b).2.2) h.seg }
  · rw [e4]
    exact h.head
  · rw [e1, e2]
    exact h.live
  · rw [e1, ep]
    exact h.reads
  · rw [e1, e3, e4, ep]
    exact h.cur

theorem lm_same_refl (d : decoder_t) : lm_same d d :=
  ⟨rfl, rfl, rfl, rfl, rfl, rfl, rfl, rfl, rfl, rfl, fun _ => ⟨rfl, rfl⟩⟩

theorem lm_same_trans (a b c : decoder_t) (h1 : lm_same a b) (h2 : lm_same b c) :
    lm_same a c := by
  obtain ⟨a1, a2, a3, a4, a5, a6, a7, a8, a9, a10, a11⟩ := h1
  obtain ⟨b1, b2, b3, b4, b5, b6, b7, b8, b9, b10, b11⟩ := h2
  exact ⟨b1.trans a1, b2.trans a2, b3.trans a3, b4.trans a4, b5.trans a5, b6.trans a6,
    b7.trans a7, b8.trans a8, b9.trans a9, b10.trans a10,
    fun x => ⟨(b11 x).1.trans (a11 x).1, (b11 x).2.trans (a11 x).2⟩⟩

theorem lm_inv_same (env : env_t) (W : Int → Prop) (f B S : Int) (d s : decoder_t)
    (hs : lm_same d s) (h : lm_inv env W f B S d) : lm_inv env W f B S s := by
  obtain ⟨a1, a2, a3, a4, _⟩ := hs
  refine lm_inv_of env W W f B S d s h (by rw [a1]) (by rw [a1]) (by rw [a1]) (by rw [a1]) a3 ?_
  intro w hw
  exact cache_ok_congr env d s B w a1 a3 a4 (by rw [a2]) (h.cache w hw)

theorem leaves_ok_same (T : Int) (d s : decoder_t) (hs : lm_same d s) (h : leaves_ok T d) :
    leaves_ok T s := by
  obtain ⟨_, _, _, _, _, _, _, _, a9, a10, a11⟩ := hs
  obtain ⟨h0, h1, h2⟩ := h
  unfold leaves_ok
  rw [a9, a10]
  refine ⟨h0, ?_, h2⟩
  intro a ha1 ha2
  rw [(a11 a).1, (a11 a).2]
  exact h1 a ha1 ha2

theorem lm_word_congr (d s : decoder_t) (N : Int → Prop) (H : parent_t → List Int)
    (h : s.n_root_chan = d.n_root_chan) (w : Int) : lm_word s N H w ↔ lm_word d N H w := by
  unfold lm_word
  constructor
  · rintro ⟨p, hp, hw⟩
    exact ⟨p, (is_par_congr d s N h p).mp hp, hw⟩
  · rintro ⟨p, hp, hw⟩
    exact ⟨p, (is_par_congr d s N h p).mpr hp, hw⟩

theorem lm_static_congr (N : Int → Prop) (H : parent_t → List Int) (d s : decoder_t)
    (e1 : s.n_root_chan = d.n_root_chan) (e2 : s.ngs.dict = d.ngs.dict)
    (e3 : s.n_1ph_LMwords = d.n_1ph_LMwords) (e4 : s.single_phone_wid = d.single_phone_wid)
    (e5 : s.xwd = d.xwd) (h : lm_static N H d) : lm_static N H s := by
  refine { wdict := ?_, one := ?_, size := ?_, perm := ?_ }
  · intro w hw
    rw [e2]
    exact h.wdict w ((lm_word_congr d s N H e1 w).mp hw)
  · rw [e2, e3, e4]
    exact h.one
  · rw [e2]
    exact h.size
  · rw [e2, e5]
    exact h.perm

theorem lm_static_same (N : Int → Prop) (H : parent_t → List Int) (d s : decoder_t)
    (hs : lm_same d s) (h : lm_static N H d) : lm_static N H s := by
  obtain ⟨a1, _, a3, _, _, a6, a7, a8, _⟩ := hs
  exact lm_static_congr N H d s a8 (by rw [a1]) a6 a7 a3 h

/-- Marking the frame keeps the invariant of the table and the cache. -/
theorem lm_inv_mark (env : env_t) (W : Int → Prop) (d : decoder_t) (n : Int)
    (h : lm_inv env W d.output_frame d.ngs.bpidx d.ngs.bss_head d) :
    lm_inv env W d.output_frame d.ngs.bpidx d.ngs.bss_head
      (ngram_search_mark_bptable
        { d with output_frame := d.output_frame + 1, n_feat_frame := n } d.output_frame) := by
  refine { head := h.head, live := ?_, reads := h.reads, cur := h.cur, cache := ?_, seg := ?_ }
  rotate_left 2
  · intro i hi0 hi1
    obtain ⟨a1, a2, a3⟩ := h.live i hi0 hi1
    obtain ⟨s1, s2, s3, s4⟩ := h.seg i hi0 hi1
    have ef : frame_end (ngram_search_mark_bptable
          { d with output_frame := d.output_frame + 1, n_feat_frame := n } d.output_frame)
        d.output_frame d.ngs.bpidx (d.ngs.bp_table i).frame =
        frame_end d d.output_frame d.ngs.bpidx (d.ngs.bp_table i).frame := by
      unfold frame_end
      split
      · rfl
      · rename_i hne
        show store d.ngs.bp_table_idx d.output_frame d.ngs.bpidx
          ((d.ngs.bp_table i).frame + 1) = _
        rw [store_ne _ _ _ _ hne]
    have ei : (ngram_search_mark_bptable
          { d with output_frame := d.output_frame + 1, n_feat_frame := n }
          d.output_frame).ngs.bp_table_idx (d.ngs.bp_table i).frame =
        d.ngs.bp_table_idx (d.ngs.bp_table i).frame := by
      show store d.ngs.bp_table_idx d.output_frame d.ngs.bpidx (d.ngs.bp_table i).frame = _
      rw [store_ne _ _ _ _ (by omega)]
    show (ngram_search_mark_bptable
          { d with output_frame := d.output_frame + 1, n_feat_frame := n }
          d.output_frame).ngs.bp_table_idx (d.ngs.bp_table i).frame ≤ i ∧
      i < frame_end (ngram_search_mark_bptable
          { d with output_frame := d.output_frame + 1, n_feat_frame := n } d.output_frame)
        d.output_frame d.ngs.bpidx (d.ngs.bp_table i).frame ∧
      frame_end (ngram_search_mark_bptable
          { d with output_frame := d.output_frame + 1, n_feat_frame := n } d.output_frame)
        d.output_frame d.ngs.bpidx (d.ngs.bp_table i).frame ≤ d.ngs.bpidx ∧
      ∀ j, (ngram_search_mark_bptable
          { d with output_frame := d.output_frame + 1, n_feat_frame := n }
          d.output_frame).ngs.bp_table_idx (d.ngs.bp_table i).frame ≤ j →
        j < frame_end (ngram_search_mark_bptable
          { d with output_frame := d.output_frame + 1, n_feat_frame := n } d.output_frame)
          d.output_frame d.ngs.bpidx (d.ngs.bp_table i).frame →
        (d.ngs.bp_table j).frame = (d.ngs.bp_table i).frame
    rw [ef, ei]
    exact ⟨s1, s2, s3, s4⟩
  · intro i hi0 hi1
    obtain ⟨a1, a2, a3⟩ := h.live i hi0 hi1
    refine ⟨a1, a2, ?_⟩
    show 0 ≤ store d.ngs.bp_table_idx d.output_frame d.ngs.bpidx (d.ngs.bp_table i).frame
    rw [store_ne _ _ _ _ (by omega)]
    exact a3
  · intro w hw
    have hc := h.cache w hw
    unfold cache_ok at hc ⊢
    rcases hc with hc | ⟨e, h1, h2, h3, h4, h5⟩
    · exact Or.inl hc
    · refine Or.inr ⟨e, h1, ?_, ?_, ?_, ?_⟩
      · show 0 ≤ store d.ngs.bp_table_idx d.output_frame d.ngs.bpidx e
        rw [store_ne _ _ _ _ (by omega)]
        exact h2
      · show store d.ngs.bp_table_idx d.output_frame d.ngs.bpidx (e + 1) ≤ d.ngs.bpidx
        rw [store_ne _ _ _ _ (by omega)]
        exact h3
      · show e + 1 < d.output_frame + 1
        omega
      · show d.last_ltrans w = lt_run env _ w
          (store d.ngs.bp_table_idx d.output_frame d.ngs.bpidx (e + 1) - 1 -
            store d.ngs.bp_table_idx d.output_frame d.ngs.bpidx e + 1).toNat
          (store d.ngs.bp_table_idx d.output_frame d.ngs.bpidx e)
          { d.last_ltrans w with dscr := WORST_SCORE }
        rw [store_ne _ _ _ _ (by omega : e + 1 ≠ d.output_frame),
          store_ne _ _ _ _ (by omega : e ≠ d.output_frame)]
        refine h5.trans (Eq.symm (lt_run_frozen env d _ w _ _ _ ?_))
        intro b x _ _
        exact lt_step_frozen env d _ w b x rfl rfl rfl rfl

/-- At the end of frame `f` the entries of the frame join the earlier ones. -/
theorem lm_inv_close (env : env_t) (W : Int → Prop) (f B S : Int) (d : decoder_t)
    (hf : 0 ≤ f) (hb : bt_ok f B d.ngs) (h : lm_inv env W f B S d) :
    lm_inv env W (f + 1) d.ngs.bpidx d.ngs.bss_head d := by
  obtain ⟨b0, b1, b2, b3, b4, _⟩ := hb
  refine { head := le_refl _, live := ?_, reads := ?_, cur := ?_, cache := ?_, seg := ?_ }
  rotate_left 4
  · intro i hi0 hi1
    by_cases hi : i < B
    · obtain ⟨a1, a2, a3⟩ := h.live i hi0 hi
      obtain ⟨s1, s2, s3, s4⟩ := h.seg i hi0 hi
      have ef : frame_end d (f + 1) d.ngs.bpidx (d.ngs.bp_table i).frame =
          frame_end d f B (d.ngs.bp_table i).frame := by
        unfold frame_end
        rw [if_neg (by omega)]
        split
        · rename_i he
          rw [he, b2]
        · rfl
      rw [ef]
      exact ⟨s1, s2, by omega, s4⟩
    · have hfr := (b4 i (by omega) hi1).2
      have ef : frame_end d (f + 1) d.ngs.bpidx f = d.ngs.bpidx := by
        unfold frame_end
        rw [if_pos rfl]
      rw [hfr, ef, b2]
      refine ⟨by omega, hi1, le_refl _, ?_⟩
      intro j hj0 hj1
      exact (b4 j hj0 hj1).2
  · intro i hi0 hi1
    by_cases hi : i < B
    · obtain ⟨a1, a2, a3⟩ := h.live i hi0 hi
      exact ⟨a1, by omega, a3⟩
    · have hfr := (b4 i (by omega) hi1).2
      rw [hfr, b2]
      exact ⟨hf, by omega, b0⟩
  · intro i hi0 hi1 ci
    by_cases hi : i < B
    · have := h.reads i hi0 hi ci
      have := h.head
      omega
    · exact (h.cur i (by omega) hi1).2 ci
  · intro i hi0 hi1
    omega
  · intro w hw
    have hc := h.cache w hw
    unfold cache_ok at hc ⊢
    rcases hc with hc | ⟨e, h1, h2, h3, h4, h5⟩
    · exact Or.inl hc
    · exact Or.inr ⟨e, h1, h2, by omega, h4, h5⟩

theorem lm_keep_refl (d : decoder_t) : lm_keep d d := ⟨rfl, rfl, rfl, rfl, rfl, rfl, rfl⟩

theorem lm_keep_trans (a b c : decoder_t) (h1 : lm_keep a b) (h2 : lm_keep b c) :
    lm_keep a c := by
  obtain ⟨a1, a2, a3, a4, a5, a6, a7⟩ := h1
  obtain ⟨b1, b2, b3, b4, b5, b6, b7⟩ := h2
  exact ⟨b1.trans a1, b2.trans a2, b3.trans a3, b4.trans a4, b5.trans a5, b6.trans a6,
    b7.trans a7⟩

theorem lm_keep_of_same (d s : decoder_t) (h : lm_same d s) : lm_keep d s := by
  obtain ⟨a1, a2, a3, a4, _, a6, a7, a8, _⟩ := h
  exact ⟨a1, a2, a3, a4, a6, a7, a8⟩

theorem bt_frozen_keep (B S : Int) (d s : decoder_t) (h : lm_keep d s) : bt_frozen B S d s := by
  obtain ⟨a1, a2, a3, a4, a5, a6, a7⟩ := h
  exact ⟨fun _ _ _ => by rw [a1], fun _ _ => by rw [a1], by rw [a1], by rw [a1], a3, a2, a4,
    a5, a6, a7⟩

theorem lm_inv_ngs (env : env_t) (f B S : Int) (d s : decoder_t)
    (h : lm_inv env (fun _ => False) f B S d) (e1 : s.ngs = d.ngs) (e2 : s.xwd = d.xwd) :
    lm_inv env (fun _ => False) f B S s :=
  lm_inv_of env _ _ f B S d s h (by rw [e1]) (by rw [e1]) (by rw [e1]) (by rw [e1]) e2
    (fun _ hw => absurd hw (fun x => x))

theorem lm_same_set_root_hmm (d : decoder_t) (i : Int) (h : hmm_t) :
    lm_same d (set_root_hmm d i h) :=
  ⟨rfl, rfl, rfl, rfl, rfl, rfl, rfl, rfl, rfl, rfl, fun _ => ⟨rfl, rfl⟩⟩

theorem lm_same_set_rhmm_hmm (d : decoder_t) (w : Int) (h : hmm_t) :
    lm_same d (set_rhmm_hmm d w h) :=
  ⟨rfl, rfl, rfl, rfl, rfl, rfl, rfl, rfl, rfl, rfl, fun _ => ⟨rfl, rfl⟩⟩

theorem lm_same_set_chan_hmm (d : decoder_t) (a : Int) (h : hmm_t) :
    lm_same d (set_chan_hmm d a h) := by
  refine ⟨rfl, rfl, rfl, rfl, rfl, rfl, rfl, rfl, rfl, rfl, fun b => ?_⟩
  unfold set_chan_hmm
  dsimp only
  by_cases hb : b = a
  · subst hb
    rw [store_same]
    exact ⟨rfl, rfl⟩
  · rw [store_ne _ _ _ _ hb]
    exact ⟨rfl, rfl⟩

/-- The renormalisation pass leaves the backpointer part, the cache and the
leaf links alone. -/
theorem lm_same_renormalize (fuel : Nat) (d d1 : decoder_t) (f norm : Int)
    (hr : renormalize_scores fuel d f norm = Except.ok d1) : lm_same d d1 := by
  unfold renormalize_scores at hr
  dsimp only at hr
  split at hr
  · simp at hr
  · rename_i d3 h3
    simp only [Except.ok.injEq] at hr
    subst hr
    have k1 : lm_same d (iter_up
        (fun i (s : decoder_t) =>
          if (s.root_chan i).hmm.frame = f then
            set_root_hmm s i (hmm_normalize (s.root_chan i).hmm norm)
          else s)
        d.n_root_chan.toNat 0 d) := by
      apply iter_up_inv (fun s : decoder_t => lm_same d s)
      · intro i s _ _ hs
        dsimp only
        split
        · exact lm_same_trans d s _ hs (lm_same_set_root_hmm s i _)
        · exact hs
      · exact lm_same_refl d
    generalize iter_up _ d.n_root_chan.toNat 0 d = e1 at h3 k1
    have k2 : lm_same d (iter_up
        (fun k (s : decoder_t) =>
          set_chan_hmm s (s.active_chan_list (parity f) k)
            (hmm_normalize (s.chan (s.active_chan_list (parity f) k)).hmm norm))
        (e1.n_active_chan (parity f)).toNat 0 e1) := by
      apply iter_up_inv (fun s : decoder_t => lm_same d s)
      · intro i s _ _ hs
        exact lm_same_trans d s _ hs (lm_same_set_chan_hmm s _ _)
      · exact k1
    generalize iter_up _ (e1.n_active_chan (parity f)).toNat 0 e1 = e2 at h3 k2
    have k3 : lm_same d d3 := by
      refine for_up_inv (fun s : decoder_t => lm_same d s) _ _ _ _ _ ?_ k2 h3
      intro i s s1 _ _ hs hb
      refine for_list_inv (fun s : decoder_t => lm_same d s) _ _ _ ?_ _ _ _ _ hs hb
      intro p t t1 _ ht hb1
      simp only [Except.ok.injEq] at hb1
      subst hb1
      exact lm_same_trans d t _ ht (lm_same_set_chan_hmm t _ _)
    have k4 : lm_same d (iter_up
        (fun i (s : decoder_t) =>
          if (s.all_rhmm (s.single_phone_wid i)).hmm.frame = f then
            set_rhmm_hmm s (s.single_phone_wid i)
              (hmm_normalize (s.all_rhmm (s.single_phone_wid i)).hmm norm)
          else s)
        d3.n_1ph_words.toNat 0 d3) := by
      apply iter_up_inv (fun s : decoder_t => lm_same d s)
      · intro i s _ _ hs
        dsimp only
        split
        · exact lm_same_trans d s _ hs (lm_same_set_rhmm_hmm s _ _)
        · exact hs
      · exact k3
    exact k4

theorem lm_same_set_dynamic_beam (d d1 : decoder_t) (f : Int)
    (hr : set_dynamic_beam d f = Except.ok d1) : lm_same d d1 := by
  unfold set_dynamic_beam at hr
  dsimp only at hr
  split at hr
  · split at hr
    · simp at hr
    · simp only [Except.ok.injEq] at hr
      subst hr
      exact lm_same_refl d
  · simp only [Except.ok.injEq] at hr
    subst hr
    exact lm_same_refl d

theorem lm_same_deactivate (d : decoder_t) (f : Int) :
    lm_same d (deactivate_channels d f) := by
  unfold deactivate_channels
  dsimp only
  apply iter_up_inv (fun s : decoder_t => lm_same d s)
  · intro i s _ _ hs
    dsimp only
    split
    · exact lm_same_trans d s _ hs (lm_same_set_rhmm_hmm s _ _)
    · exact hs
  · apply iter_up_inv (fun s : decoder_t => lm_same d s)
    · intro i s _ _ hs
      dsimp only
      split
      · exact lm_same_trans d s _ hs (lm_same_set_root_hmm s _ _)
      · exact hs
    · exact lm_same_refl d

theorem lm_same_eval_root (env : env_t) (d : decoder_t) (f : Int) :
    lm_same d (eval_root_chan env d f).1 := by
  unfold eval_root_chan
  apply iter_up_inv (fun sb : decoder_t × Int => lm_same d sb.1)
  · intro i sb _ _ hs
    dsimp only
    split
    · exact lm_same_trans d _ _ hs
        (lm_same_set_root_hmm sb.1 i (env.vit_eval f (sb.1.root_chan i).hmm))
    · exact hs
  · exact lm_same_refl d

theorem lm_same_eval_nonroot (env : env_t) (d : decoder_t) (f : Int)
    (r : decoder_t × Int) (hr : eval_nonroot_chan env d f = Except.ok r) : lm_same d r.1 := by
  unfold eval_nonroot_chan at hr
  dsimp only at hr
  refine for_up_inv (fun sb : decoder_t × Int => lm_same d sb.1) _ _ _ _ _ ?_ ?_ hr
  · intro k sb sb1 _ _ hs hb
    split at hb
    · simp only [Except.ok.injEq] at hb
      subst hb
      exact lm_same_trans d _ _ hs (lm_same_set_chan_hmm sb.1 _ _)
    · simp at hb
  · exact lm_same_refl d

theorem lm_same_eval_word (env : env_t) (fuel : Nat) (d : decoder_t)
    (f : Int) (r : decoder_t × Int) (hr : eval_word_chan env fuel d f = Except.ok r) :
    lm_same d r.1 := by
  unfold eval_word_chan at hr
  dsimp only at hr
  split at hr
  · simp at hr
  · rename_i d1 best1 k h1
    simp only [Except.ok.injEq] at hr
    subst hr
    have g := for_up_inv (fun s : decoder_t × Int × Int => lm_same d s.1) _ _ _ _ _ ?_ ?_ h1
    · have g3 : lm_same d (iter_up
          (fun i (sbj : decoder_t × Int × Int) =>
            if (sbj.1.all_rhmm (sbj.1.single_phone_wid i)).hmm.frame < f then sbj
            else
              (set_rhmm_hmm sbj.1 (sbj.1.single_phone_wid i)
                  (env.vit_eval f (sbj.1.all_rhmm (sbj.1.single_phone_wid i)).hmm),
                (if sbj.2.1 <
                      (env.vit_eval f
                        (sbj.1.all_rhmm (sbj.1.single_phone_wid i)).hmm).bestscore ∧
                    sbj.1.single_phone_wid i ≠ sbj.1.finish_wid then
                  (env.vit_eval f (sbj.1.all_rhmm (sbj.1.single_phone_wid i)).hmm).bestscore
                else sbj.2.1),
                sbj.2.2 + 1))
          d1.n_1ph_words.toNat 0 (d1, best1, 0)).1 := by
        apply iter_up_inv (fun sbj : decoder_t × Int × Int => lm_same d sbj.1)
        · intro i sbj _ _ hs
          dsimp only
          split
          · exact hs
          · exact lm_same_trans d _ _ hs (lm_same_set_rhmm_hmm sbj.1 _ _)
        · exact g
      exact g3
    · intro i s s1 _ _ q hb
      split at hb
      · simp at hb
      · split at hb
        · simp at hb
        · refine for_list_inv (fun t : decoder_t × Int × Int => lm_same d t.1) _ _ _ ?_ _ _ _ _
            ?_ hb
          · intro p t t1 _ ht hb1
            split at hb1
            · simp only [Except.ok.injEq] at hb1
              subst hb1
              exact lm_same_trans d _ _ ht (lm_same_set_chan_hmm t.1 _ _)
            · simp at hb1
          · exact q
    · exact lm_same_refl d

/-- The evaluation of the active HMMs leaves the backpointer part, the cache
and the leaf links alone. -/
theorem lm_same_evaluate (env : env_t) (fuel : Nat) (d d1 : decoder_t) (f : Int)
    (hr : evaluate_channels env fuel d f = Except.ok d1) : lm_same d d1 := by
  unfold evaluate_channels at hr
  dsimp only at hr
  split at hr
  · simp at hr
  · rename_i d2 bs2 h2
    split at hr
    · simp at hr
    · rename_i d4 bs4 h4
      simp only [Except.ok.injEq] at hr
      subst hr
      have k1 := lm_same_eval_root env d f
      generalize eval_root_chan env d f = r1 at h2 k1
      have k2 := lm_same_eval_nonroot env _ f _ h2
      have k2a : lm_same d d2 := by
        refine lm_same_trans d _ d2 ?_ k2
        exact k1
      have k3 : lm_same d (if bs2 > d2.best_score then { d2 with best_score := bs2 } else d2) := by
        split
        · exact k2a
        · exact k2a
      generalize (if bs2 > d2.best_score then { d2 with best_score := bs2 } else d2) = d3
        at h4 k3
      have k4 := lm_same_eval_word env fuel d3 f _ h4
      have k4a : lm_same d d4 := lm_same_trans d d3 d4 k3 k4
      have k6 : lm_same d (if bs4 > d4.best_score then { d4 with best_score := bs4 } else d4) := by
        split
        · exact k4a
        · exact k4a
      exact k6

/-- The two tree-pruning passes leave the backpointer part, the cache and the
leaf links alone. -/
theorem prune_tree_same (N : Int → Prop) (KR : Int → List Int) (H : parent_t → List Int)
    (fuel : Nat) (f : Int) (d d1 d2 : decoder_t) (C : Int → List Int)
    (hi : run_inv N KR H f d C) (h0 : d.n_lastphn_cand = 0)
    (h1 : prune_root_chan fuel d f = Except.ok d1)
    (h2 : prune_nonroot_chan fuel d1 f = Except.ok d2) : lm_same d d2 := by
  have ht := hi.tree
  have n1 := prune_root_spec fuel d d1 f N KR ht.kr ht.krN ht.krd
    (fun a hN => by have := hi.cst a hN; omega) h1
  have e1 : d1.n_active_chan (parity f) = d.n_active_chan (parity f) := n1.ncur
  have hlN : ∀ k, 0 ≤ k → k < d1.n_active_chan (parity f) →
      N (d.active_chan_list (parity f) k) := by
    intro k hk0 hkn
    rw [e1] at hkn
    exact hi.cmem k hk0 hkn
  have n2 := prune_nonroot_spec fuel d d1 d2 f N n1 ht.nnext ht.nalt hlN h2
  have c1 := prune_root_cands fuel d d1 f N H ht.hch ht.hnd ht.hdj h0 h1
  have c2 := prune_nonroot_cands fuel d d1 d2 f N H ht.hch ht.hnd ht.hdj hlN
    (by
      intro i j hi0 hin hj0 hjn he
      rw [e1] at hin hjn
      exact hi.cinj i j hi0 hin hj0 hjn he) c1 h2
  have hfr := n2.frame
  have f1 : d2.ngs = d.ngs := by
    have e := congrArg (fun x : decoder_t => x.ngs) hfr
    exact e
  have f2 : d2.last_ltrans = d.last_ltrans := by
    have e := congrArg (fun x : decoder_t => x.last_ltrans) hfr
    exact e
  have f3 : d2.xwd = d.xwd := by
    have e := congrArg (fun x : decoder_t => x.xwd) hfr
    exact e
  have f4 : d2.output_frame = d.output_frame := by
    have e := congrArg (fun x : decoder_t => x.output_frame) hfr
    exact e
  have f5 : d2.n_1ph_words = d.n_1ph_words := by
    have e := congrArg (fun x : decoder_t => x.n_1ph_words) hfr
    exact e
  have f6 : d2.n_1ph_LMwords = d.n_1ph_LMwords := by
    have e := congrArg (fun x : decoder_t => x.n_1ph_LMwords) hfr
    exact e
  have f7 : d2.single_phone_wid = d.single_phone_wid := by
    have e := congrArg (fun x : decoder_t => x.single_phone_wid) hfr
    exact e
  have f8 : d2.n_root_chan = d.n_root_chan := by
    have e := congrArg (fun x : decoder_t => x.n_root_chan) hfr
    exact e
  have f9 : d2.heap_top = d.heap_top := by
    have e := congrArg (fun x : decoder_t => x.heap_top) hfr
    exact e
  have f10 : d2.word_chan = d.word_chan := by
    have e := congrArg (fun x : decoder_t => x.word_chan) hfr
    exact e
  exact ⟨f1, f2, f3, f4, f5, f6, f7, f8, f9, f10, fun a => ⟨(n2.links a).1, c2.info a⟩⟩

/-- The part of a frame before `last_phone_transition` keeps the invariant
of the backpointer table and of the cache, with the entries and the stack
head of the earlier frames as bounds. -/
theorem search_cands_lm (env : env_t) (hv : vit_frame env) (hv2 : vit_ok env)
    (N : Int → Prop) (KR : Int → List Int) (H : parent_t → List Int) (fuel : Nat)
    (d s : decoder_t) (C : Int → List Int) (T : Int)
    (hi : run_inv N KR H d.output_frame d C)
    (hl : lm_run env N H T d) (hr : search_cands env fuel d = Except.ok s) :
    frame_ok d.output_frame d.ngs.bpidx s ∧ cands_ok d.ngs.bpidx s ∧
    lm_inv env (lm_word d N H) d.output_frame d.ngs.bpidx d.ngs.bss_head s ∧
    leaves_ok T s ∧ lm_static N H s ∧ s.n_root_chan = d.n_root_chan := by
  unfold search_cands at hr
  dsimp only at hr
  have q1 : quiet d (ngram_search_mark_bptable
      { d with output_frame := d.output_frame + 1, n_feat_frame := d.n_feat_frame - 1 }
      d.output_frame) :=
    ⟨rfl, rfl, rfl, rfl, rfl, rfl, rfl, rfl, rfl, fun _ => ⟨rfl, rfl, rfl, rfl⟩,
      fun _ => ⟨rfl, rfl⟩⟩
  have p1 := frame_ok_mark d (d.n_feat_frame - 1) hl.idle
  have p2 := lm_inv_mark env (lm_word d N H) d (d.n_feat_frame - 1) hl.inv
  have p3 : leaves_ok T (ngram_search_mark_bptable
      { d with output_frame := d.output_frame + 1, n_feat_frame := d.n_feat_frame - 1 }
      d.output_frame) := hl.leaves
  have p4 : lm_static N H (ngram_search_mark_bptable
      { d with output_frame := d.output_frame + 1, n_feat_frame := d.n_feat_frame - 1 }
      d.output_frame) := lm_static_congr N H d _ rfl rfl rfl rfl rfl hl.stat
  have p5 : (ngram_search_mark_bptable
      { d with output_frame := d.output_frame + 1, n_feat_frame := d.n_feat_frame - 1 }
      d.output_frame).n_root_chan = d.n_root_chan := rfl
  generalize ngram_search_mark_bptable
      { d with output_frame := d.output_frame + 1, n_feat_frame := d.n_feat_frame - 1 }
      d.output_frame = d2 at hr q1 p1 p2 p3 p4 p5
  generalize lm_word d N H = W at p2 ⊢
  generalize d.ngs.bpidx = B at p1 p2 ⊢
  generalize d.ngs.bss_head = S at p2 ⊢
  generalize d.output_frame = f at hr hi p1 p2 q1 ⊢
  split at hr
  · simp at hr
  · rename_i d3 h3
    have k3 : calm d2 d3 ∧ frame_ok f B d3 ∧ lm_same d2 d3 := by
      split at h3
      · exact ⟨calm_renormalize fuel d2 d3 f _ h3, renormalize_scores_ok fuel _ d3 _ _ _ _ p1 h3,
          lm_same_renormalize fuel d2 d3 f _ h3⟩
      · simp only [Except.ok.injEq] at h3
        subst h3
        exact ⟨calm_refl d2, p1, lm_same_refl d2⟩
    clear h3
    obtain ⟨k3, p13, s3⟩ := k3
    split at hr
    · simp at hr
    · rename_i d4 h4
      obtain ⟨k4, o4, a4⟩ := evaluate_channels_quiet env hv fuel d3 d4 f h4
      have p14 := evaluate_channels_ok env hv2 fuel d3 d4 _ _ _ p13 h4
      have s4 := lm_same_evaluate env fuel d3 d4 f h4
      split at hr
      · simp at hr
      · rename_i d5 h5
        obtain ⟨k5, c5⟩ := calm_set_dynamic_beam d4 d5 f h5
        have s5 := lm_same_set_dynamic_beam d4 d5 f h5
        have p15 : frame_ok f B d5 ∧ cands_ok B d5 := by
          have hc : ∀ X : decoder_t, X.n_lastphn_cand = 0 → cands_ok B X := by
            intro X hX i h0 hi
            rw [hX] at hi
            omega
          refine ⟨?_, hc d5 c5⟩
          unfold set_dynamic_beam at h5
          dsimp only at h5
          split at h5
          · split at h5
            · simp at h5
            · simp only [Except.ok.injEq] at h5
              subst h5
              exact p14
          · simp only [Except.ok.injEq] at h5
            subst h5
            exact p14
        split at hr
        · simp at hr
        · rename_i d6 h6
          have q3 : quiet d d3 := quiet_trans d d2 d3 q1 k3.1
          have q5 : quiet d d5 := quiet_trans d d4 d5 (quiet_trans d d3 d4 q3 k4) k5.1
          have hi5 := run_inv_quiet N KR H f d d5 C hi q5
          have s7 := prune_tree_same N KR H fuel f d5 d6 s C hi5 c5 h6 hr
          have p16 := prune_root_chan_ok fuel d5 d6 f B f p15 h6
          have p17 := prune_nonroot_chan_ok fuel d6 s f B f p16 hr
          have sall : lm_same d2 s :=
            lm_same_trans d2 d3 s s3 (lm_same_trans d3 d4 s s4 (lm_same_trans d4 d5 s s5 s7))
          exact ⟨p17.1, p17.2, lm_inv_same env W f B S d2 s sall p2, leaves_ok_same T d2 s sall p3,
            lm_static_same N H d2 s sall p4, sall.2.2.2.2.2.2.2.1.trans p5⟩

theorem leaves_ok_chan (T : Int) (d s : decoder_t) (h : leaves_ok T d)
    (e1 : s.heap_top = d.heap_top) (e2 : s.word_chan = d.word_chan)
    (e3 : ∀ a, (s.chan a).next = (d.chan a).next ∧ (s.chan a).info = (d.chan a).info) :
    leaves_ok T s := by
  obtain ⟨h0, h1, h2⟩ := h
  unfold leaves_ok
  rw [e1, e2]
  refine ⟨h0, ?_, h2⟩
  intro a ha1 ha2
  rw [(e3 a).1, (e3 a).2]
  exact h1 a ha1 ha2

/-- A new leaf linked after the leaf `hmm` keeps the leaves in order. -/
theorem leaves_ok_link_leaf (T : Int) (d : decoder_t) (hmm i ciphone ssid : Int)
    (h : leaves_ok T d) (hi : 0 ≤ i) (hh : T < hmm ∧ hmm ≤ d.heap_top) :
    leaves_ok T (set_chan_next
      (init_leaf (listelem_alloc d).1 (listelem_alloc d).2
        ((listelem_alloc d).1.chan hmm).next i ciphone ssid) hmm (listelem_alloc d).2) ∧
    lm_keep d (set_chan_next
      (init_leaf (listelem_alloc d).1 (listelem_alloc d).2
        ((listelem_alloc d).1.chan hmm).next i ciphone ssid) hmm (listelem_alloc d).2) := by
  obtain ⟨h0, h1, h2⟩ := h
  refine ⟨⟨?_, ?_, ?_⟩, ⟨rfl, rfl, rfl, rfl, rfl, rfl, rfl⟩⟩
  · show T ≤ d.heap_top + 1
    omega
  · intro a ha1 ha2
    have ha3 : a ≤ d.heap_top + 1 := ha2
    clear ha2
    unfold set_chan_next init_leaf listelem_alloc
    dsimp only
    by_cases e1 : a = hmm
    · subst e1
      rw [store_same]
      dsimp only
      rw [store_ne _ _ _ _ (by omega : a ≠ d.heap_top + 1)]
      exact ⟨(h1 a hh.1 hh.2).1, Or.inr ⟨by omega, le_refl _⟩⟩
    · rw [store_ne _ _ _ _ e1]
      by_cases e2 : a = d.heap_top + 1
      · rw [e2, store_same]
        dsimp only
        refine ⟨hi, ?_⟩
        rcases (h1 hmm hh.1 hh.2).2 with g | g
        · exact Or.inl g
        · exact Or.inr ⟨g.1, by omega⟩
      · rw [store_ne _ _ _ _ e2]
        obtain ⟨g1, g2⟩ := h1 a ha1 (by omega)
        refine ⟨g1, ?_⟩
        rcases g2 with g | g
        · exact Or.inl g
        · exact Or.inr ⟨g.1, by omega⟩
  · intro w
    show d.word_chan w = 0 ∨ (T < d.word_chan w ∧ d.word_chan w ≤ d.heap_top + 1)
    rcases h2 w with g | g
    · exact Or.inl g
    · exact Or.inr ⟨g.1, by omega⟩

/-- A new leaf put at the head of the chain of `w` keeps the leaves in
order. -/
theorem leaves_ok_link_head (T : Int) (d : decoder_t) (w ciphone ssid : Int)
    (h : leaves_ok T d) :
    leaves_ok T (set_word_chan
      (init_leaf (listelem_alloc d).1 (listelem_alloc d).2
        ((listelem_alloc d).1.word_chan w) 0 ciphone ssid) w (listelem_alloc d).2) ∧
    lm_keep d (set_word_chan
      (init_leaf (listelem_alloc d).1 (listelem_alloc d).2
        ((listelem_alloc d).1.word_chan w) 0 ciphone ssid) w (listelem_alloc d).2) := by
  obtain ⟨h0, h1, h2⟩ := h
  refine ⟨⟨?_, ?_, ?_⟩, ⟨rfl, rfl, rfl, rfl, rfl, rfl, rfl⟩⟩
  · show T ≤ d.heap_top + 1
    omega
  · intro a ha1 ha2
    have ha3 : a ≤ d.heap_top + 1 := ha2
    clear ha2
    unfold set_word_chan init_leaf listelem_alloc
    dsimp only
    by_cases e2 : a = d.heap_top + 1
    · rw [e2, store_same]
      dsimp only
      refine ⟨le_refl _, ?_⟩
      rcases h2 w with g | g
      · exact Or.inl g
      · exact Or.inr ⟨g.1, by omega⟩
    · rw [store_ne _ _ _ _ e2]
      obtain ⟨g1, g2⟩ := h1 a ha1 (by omega)
      refine ⟨g1, ?_⟩
      rcases g2 with g | g
      · exact Or.inl g
      · exact Or.inr ⟨g.1, by omega⟩
  · intro v
    show store d.word_chan w (d.heap_top + 1) v = 0 ∨
      (T < store d.word_chan w (d.heap_top + 1) v ∧
        store d.word_chan w (d.heap_top + 1) v ≤ d.heap_top + 1)
    by_cases e : v = w
    · rw [e, store_same]
      exact Or.inr ⟨by omega, le_refl _⟩
    · rw [store_ne _ _ _ _ e]
      rcases h2 v with g | g
      · exact Or.inl g
      · exact Or.inr ⟨g.1, by omega⟩

theorem alloc_rc_loop_lm (T : Int) (sseq_rc : Int → Int) (ciphone : Int) (fuel : Nat) :
    ∀ (i hmm : Int) (d d1 : decoder_t), 0 ≤ i → leaves_ok T d →
      (T < hmm ∧ hmm ≤ d.heap_top) →
      alloc_rc_loop sseq_rc ciphone fuel i hmm d = Except.ok d1 →
      leaves_ok T d1 ∧ lm_keep d d1 := by
  induction fuel with
  | zero =>
    intro i hmm d d1 _ _ _ hr
    simp [alloc_rc_loop] at hr
  | succ n ih =>
    intro i hmm d d1 hi hl hh hr
    simp only [alloc_rc_loop] at hr
    split at hr
    · split at hr
      · obtain ⟨g1, g2⟩ := leaves_ok_link_leaf T d hmm i ciphone (sseq_rc i) hl hi hh
        obtain ⟨k1, k2⟩ := ih _ _ _ _ (by omega) g1
          ⟨(by have := hh.2; show T < d.heap_top + 1; omega), le_refl _⟩ hr
        exact ⟨k1, lm_keep_trans _ _ _ g2 k2⟩
      · rename_i hc
        have hne : (d.chan hmm).next ≠ 0 := fun e => hc (Or.inl e)
        rcases (hl.2.1 hmm hh.1 hh.2).2 with g | g
        · exact absurd g hne
        · exact ih _ _ _ _ (by omega) hl g hr
    · simp only [Except.ok.injEq] at hr
      subst hr
      exact ⟨hl, lm_keep_refl d⟩

theorem alloc_all_rc_lm (T : Int) (fuel : Nat) (d d1 : decoder_t) (w : Int)
    (hl : leaves_ok T d) (hr : alloc_all_rc fuel d w = Except.ok d1) :
    leaves_ok T d1 ∧ lm_keep d d1 := by
  unfold alloc_all_rc at hr
  dsimp only at hr
  split at hr
  · simp at hr
  · split at hr
    · obtain ⟨g1, g2⟩ := leaves_ok_link_head T d w
        ((d.ngs.dict.dict_list w).ci_phone_ids ((d.ngs.dict.dict_list w).len - 1))
        (d.xwd.rcFwdTable ((d.ngs.dict.dict_list w).phone_ids
          ((d.ngs.dict.dict_list w).len - 1)) 0) hl
      obtain ⟨k1, k2⟩ := alloc_rc_loop_lm T _ _ fuel _ _ _ _ (by omega) g1
        ⟨(by have := hl.1; show T < d.heap_top + 1; omega), le_refl _⟩ hr
      exact ⟨k1, lm_keep_trans _ _ _ g2 k2⟩
    · rename_i hc
      have hne : d.word_chan w ≠ 0 := fun e => hc (Or.inl e)
      rcases hl.2.2 w with g | g
      · exact absurd g hne
      · exact alloc_rc_loop_lm T _ _ fuel _ _ _ _ (by omega) hl g hr

theorem lpt_enter_lm (T : Int) (fuel : Nat) (fi thresh i : Int) (sn sn1 : decoder_t × Int)
    (hl : leaves_ok T sn.1) (hr : lpt_enter fuel fi thresh i sn = Except.ok sn1) :
    leaves_ok T sn1.1 ∧ lm_keep sn.1 sn1.1 := by
  unfold lpt_enter at hr
  dsimp only at hr
  split at hr
  · split at hr
    · simp at hr
    · rename_i d1 ha
      obtain ⟨g1, g2⟩ := alloc_all_rc_lm T fuel _ _ _ hl ha
      split at hr
      · simp at hr
      · rename_i d2 k hlp
        have h2 := for_list_inv
          (fun t : decoder_t × Int => leaves_ok T t.1 ∧ lm_keep sn.1 t.1) _ _ _ ?_ _ _ _ _ ?_ hlp
        · split at hr
          · split at hr
            · simp at hr
            · split at hr
              · simp at hr
              · simp only [Except.ok.injEq] at hr
                subst hr
                exact ⟨leaves_ok_chan T d2 _ h2.1 rfl rfl (fun _ => ⟨rfl, rfl⟩), h2.2⟩
          · simp only [Except.ok.injEq] at hr
            subst hr
            exact h2
        · clear hlp hr
          intro a t t1 _ ht hb
          split at hb
          · split at hb
            · simp at hb
            · simp only [Except.ok.injEq] at hb
              subst hb
              have e := lm_same_set_chan_hmm t.1 a
                (hmm_enter (t.1.chan a).hmm (t.1.lastphn_cand i).score
                  (t.1.lastphn_cand i).bp (fi + 1))
              exact ⟨leaves_ok_same T _ _ e ht.1,
                lm_keep_trans _ _ _ ht.2 (lm_keep_of_same _ _ e)⟩
          · simp only [Except.ok.injEq] at hb
            subst hb
            exact ht
        · exact ⟨g1, g2⟩
  · simp only [Except.ok.injEq] at hr
    subst hr
    exact ⟨hl, lm_keep_refl _⟩

theorem cand_frame_keep (d s : decoder_t) (h : cand_frame d s) :
    s.ngs = d.ngs ∧ s.xwd = d.xwd ∧ s.output_frame = d.output_frame ∧
    s.n_1ph_LMwords = d.n_1ph_LMwords ∧ s.single_phone_wid = d.single_phone_wid ∧
    s.n_root_chan = d.n_root_chan ∧ s.heap_top = d.heap_top ∧
    s.word_chan = d.word_chan ∧ s.chan = d.chan := by
  unfold cand_frame at h
  have e1 := congrArg (fun x : decoder_t => x.ngs) h
  have e2 := congrArg (fun x : decoder_t => x.xwd) h
  have e3 := congrArg (fun x : decoder_t => x.output_frame) h
  have e4 := congrArg (fun x : decoder_t => x.n_1ph_LMwords) h
  have e5 := congrArg (fun x : decoder_t => x.single_phone_wid) h
  have e6 := congrArg (fun x : decoder_t => x.n_root_chan) h
  have e7 := congrArg (fun x : decoder_t => x.heap_top) h
  have e8 := congrArg (fun x : decoder_t => x.word_chan) h
  have e9 := congrArg (fun x : decoder_t => x.chan) h
  exact ⟨e1, e2, e3, e4, e5, e6, e7, e8, e9⟩

theorem lt_only_keep (d s : decoder_t) (h : lt_only d s) :
    s.ngs = d.ngs ∧ s.xwd = d.xwd ∧ s.output_frame = d.output_frame ∧
    s.n_1ph_LMwords = d.n_1ph_LMwords ∧ s.single_phone_wid = d.single_phone_wid ∧
    s.n_root_chan = d.n_root_chan ∧ s.heap_top = d.heap_top ∧
    s.word_chan = d.word_chan ∧ s.chan = d.chan := by
  unfold lt_only at h
  have e1 := congrArg (fun x : decoder_t => x.ngs) h
  have e2 := congrArg (fun x : decoder_t => x.xwd) h
  have e3 := congrArg (fun x : decoder_t => x.output_frame) h
  have e4 := congrArg (fun x : decoder_t => x.n_1ph_LMwords) h
  have e5 := congrArg (fun x : decoder_t => x.single_phone_wid) h
  have e6 := congrArg (fun x : decoder_t => x.n_root_chan) h
  have e7 := congrArg (fun x : decoder_t => x.heap_top) h
  have e8 := congrArg (fun x : decoder_t => x.word_chan) h
  have e9 := congrArg (fun x : decoder_t => x.chan) h
  exact ⟨e1, e2, e3, e4, e5, e6, e7, e8, e9⟩

/-- A returning step 1 of `last_phone_transition` has followed the
backpointer of every candidate, so none is negative. -/
theorem lpt_bucket_bp (d : decoder_t) (r : decoder_t × Int)
    (hd : ∀ c c1, 0 ≤ c → c < d.n_lastphn_cand → 0 ≤ c1 → c1 < d.n_lastphn_cand →
      (d.lastphn_cand c).wid = (d.lastphn_cand c1).wid → c = c1)
    (hr : for_up lpt_bucket d.n_lastphn_cand.toNat 0 (d, 0) = Except.ok r) :
    ∀ c, 0 ≤ c → c < d.n_lastphn_cand → 0 ≤ (d.lastphn_cand c).bp := by
  have key := for_up_ind (fun i (sn : decoder_t × Int) => (∃ Bk, bk_inv d i sn.1 sn.2 Bk) ∧
      ∀ c, 0 ≤ c → c < i → 0 ≤ (d.lastphn_cand c).bp)
    lpt_bucket d.n_lastphn_cand.toNat 0 (d, 0) r ?_ ?_ hr
  · intro c hc0 hc1
    exact key.2 c hc0 (by omega)
  · intro i sn sn1 hi0 hi1 ⟨⟨Bk, hb⟩, hp⟩ hstep
    refine ⟨bk_inv_step d i sn.1 sn.2 Bk sn1 hi0 (by omega) hd hb hstep, ?_⟩
    intro c hc0 hc1
    by_cases hc : c < i
    · exact hp c hc0 hc
    · have e : c = i := by omega
      subst e
      have ht := hb.todo c (le_refl _)
      unfold lpt_bucket at hstep
      dsimp only at hstep
      split at hstep
      · simp at hstep
      · rename_i bpe hbp
        unfold bp_deref at hbp
        split at hbp
        · simp at hbp
        · rw [← ht]
          omega
  · refine ⟨⟨fun _ => [], cand_frame_refl d, fun _ => ⟨rfl, rfl⟩, ?_, fun _ _ => rfl, ?_,
      fun _ _ => rfl, le_refl _, fun _ _ => rfl, ?_, ?_, ?_, ?_, ?_⟩, ?_⟩
    · intro c hc0 hc1
      omega
    · intro c hc0 hc1
      omega
    · intro j hj0 hj1
      omega
    · intro j c hj0 hj1
      omega
    · intro c hc0 hc1
      omega
    · intro j k c hj0 hj1
      omega
    · intro j hj0 hj1
      omega
    · intro c hc0 hc1
      omega

/-- What `last_phone_transition` does to the cache of transitions and to the
leaves, no word being a candidate twice: the entry of a candidate's word is
`lt_final`, every other entry is as it was, the backpointer part and the
tables are untouched, and the leaves stay in order. -/
theorem lpt_lm (env : env_t) (fuel : Nat) (d dl : decoder_t) (f T : Int)
    (hd : ∀ c c1, 0 ≤ c → c < d.n_lastphn_cand → 0 ≤ c1 → c1 < d.n_lastphn_cand →
      (d.lastphn_cand c).wid = (d.lastphn_cand c1).wid → c = c1)
    (hl : leaves_ok T d)
    (hr : last_phone_transition env fuel d f = Except.ok dl) :
    leaves_ok T dl ∧ dl.ngs = d.ngs ∧ dl.xwd = d.xwd ∧ dl.output_frame = d.output_frame ∧
    dl.n_1ph_LMwords = d.n_1ph_LMwords ∧ dl.single_phone_wid = d.single_phone_wid ∧
    dl.n_root_chan = d.n_root_chan ∧
    (∀ c, 0 ≤ c → c < d.n_lastphn_cand → 0 ≤ (d.lastphn_cand c).bp ∧
      dl.last_ltrans (d.lastphn_cand c).wid = lt_final env d c) ∧
    (∀ w, (∀ c, 0 ≤ c → c < d.n_lastphn_cand → (d.lastphn_cand c).wid ≠ w) →
      dl.last_ltrans w = d.last_ltrans w) := by
  unfold last_phone_transition at hr
  dsimp only at hr
  split at hr
  · simp at hr
  · rename_i d1 ncs h1
    have hbp := lpt_bucket_bp
      { d with n_lastphn_cand_utt := d.n_lastphn_cand_utt + d.n_lastphn_cand } _ hd h1
    obtain ⟨Bk, hb⟩ := lpt_buckets_spec
      { d with n_lastphn_cand_utt := d.n_lastphn_cand_utt + d.n_lastphn_cand } _ hd h1
    have hn : ∀ c : Int, 0 ≤ c → c < (d.n_lastphn_cand.toNat : Int) →
        c < d.n_lastphn_cand := by
      intro c h0 h
      omega
    split at hr
    · simp at hr
    · rename_i d2 h2
      obtain ⟨g1, g2⟩ := lpt_entry_final env fuel
        { d with n_lastphn_cand_utt := d.n_lastphn_cand_utt + d.n_lastphn_cand }
        d1 d2 ncs Bk hd hb h2
      have hw1 : ∀ c, (d1.lastphn_cand c).wid = (d.lastphn_cand c).wid :=
        fun c => (hb.same c).1
      obtain ⟨_, _, q3⟩ := lpt_scores_spec env fuel d1 d2 ncs Bk hb.chain hb.nodup hb.disj
        (by
          intro j k c c1 hj0 hjm hk0 hkm hc hc1 hw
          rw [hw1 c, hw1 c1] at hw
          obtain ⟨a1, a2, _⟩ := hb.mem j c hj0 hjm hc
          obtain ⟨b1, b2, _⟩ := hb.mem k c1 hk0 hkm hc1
          exact hd c c1 a1 (hn c a1 a2) b1 (hn c1 b1 b2) hw) h2
      have hother : ∀ w, (∀ c, 0 ≤ c → c < d.n_lastphn_cand → (d.lastphn_cand c).wid ≠ w) →
          d2.last_ltrans w = d.last_ltrans w := by
        intro w hw
        rw [q3 w]
        · exact hb.lt_old w (fun c hc0 hc1 _ => hw c hc0 (hn c hc0 hc1))
        · intro j c hj0 hjm hc
          obtain ⟨a1, a2, _⟩ := hb.mem j c hj0 hjm hc
          rw [hw1 c]
          exact hw c a1 (hn c a1 a2)
      have hf1 : cand_frame
          { d with n_lastphn_cand_utt := d.n_lastphn_cand_utt + d.n_lastphn_cand } d1 := hb.frame
      have k2 : d2.ngs = d.ngs ∧ d2.xwd = d.xwd ∧ d2.output_frame = d.output_frame ∧
          d2.n_1ph_LMwords = d.n_1ph_LMwords ∧ d2.single_phone_wid = d.single_phone_wid ∧
          d2.n_root_chan = d.n_root_chan ∧ d2.heap_top = d.heap_top ∧
          d2.word_chan = d.word_chan ∧ d2.chan = d.chan := by
        obtain ⟨x1, x2, x3, x4, x5, x6, x7, x8, x9⟩ := cand_frame_keep _ d1 hf1
        obtain ⟨y1, y2, y3, y4, y5, y6, y7, y8, y9⟩ := lt_only_keep d1 d2 g1
        exact ⟨y1.trans x1, y2.trans x2, y3.trans x3, y4.trans x4, y5.trans x5, y6.trans x6,
          y7.trans x7, y8.trans x8, y9.trans x9⟩
      clear h1 h2 hf1 g1
      generalize hR : iter_up _ d2.n_lastphn_cand.toNat 0 (d2, d2.last_phone_best_score) = R
        at hr
      have hR1 : R.1.last_ltrans = d2.last_ltrans ∧ lm_keep d2 R.1 ∧ R.1.heap_top = d2.heap_top ∧
          R.1.word_chan = d2.word_chan ∧ R.1.chan = d2.chan := by
        rw [← hR]
        apply iter_up_inv (fun sb : decoder_t × Int =>
          sb.1.last_ltrans = d2.last_ltrans ∧ lm_keep d2 sb.1 ∧ sb.1.heap_top = d2.heap_top ∧
            sb.1.word_chan = d2.word_chan ∧ sb.1.chan = d2.chan)
        · intro i sb _ _ hsb
          exact hsb
        · exact ⟨rfl, lm_keep_refl d2, rfl, rfl, rfl⟩
      clear hR
      obtain ⟨r1, r2, r3, r4, r5⟩ := hR1
      have hl3 : leaves_ok T { R.1 with last_phone_best_score := R.2 } := by
        refine leaves_ok_chan T d _ hl ?_ ?_ ?_
        · exact r3.trans k2.2.2.2.2.2.2.1
        · exact r4.trans k2.2.2.2.2.2.2.2.1
        · intro a
          have e : R.1.chan = d.chan := r5.trans k2.2.2.2.2.2.2.2.2
          show (R.1.chan a).next = _ ∧ (R.1.chan a).info = _
          rw [e]
          exact ⟨rfl, rfl⟩
      split at hr
      · simp at hr
      · rename_i d4 n h4
        simp only [Except.ok.injEq] at hr
        subst hr
        have h5 := for_up_inv
          (fun sn : decoder_t × Int =>
            leaves_ok T sn.1 ∧ lm_keep { R.1 with last_phone_best_score := R.2 } sn.1)
          _ _ _ _ _ ?_ ?_ h4
        · obtain ⟨m1, m2⟩ := h5
          have m3 : lm_keep R.1 d4 := m2
          have m4 := lm_keep_trans d2 R.1 d4 r2 m3
          obtain ⟨a1, a2, a3, a4, a5, a6, a7⟩ := m4
          obtain ⟨b1, b2, b3, b4, b5, b6, _⟩ := k2
          refine ⟨leaves_ok_chan T d4 _ m1 rfl rfl (fun _ => ⟨rfl, rfl⟩), a1.trans b1,
            a3.trans b2, a4.trans b3, a5.trans b4, a6.trans b5, a7.trans b6, ?_, ?_⟩
          · intro c hc0 hc1
            refine ⟨hbp c hc0 hc1, ?_⟩
            show d4.last_ltrans (d.lastphn_cand c).wid = lt_final env d c
            rw [a2]
            exact g2 c hc0 hc1
          · intro w hw
            show d4.last_ltrans w = d.last_ltrans w
            rw [a2]
            exact hother w hw
        · intro i sn sn1 _ _ ⟨hs1, hs2⟩ hb1
          obtain ⟨u1, u2⟩ := lpt_enter_lm T fuel f _ i sn sn1 hs1 hb1
          exact ⟨u1, lm_keep_trans _ _ _ hs2 u2⟩
        · exact ⟨hl3, lm_keep_refl _⟩

/-- `last_phone_transition` keeps the invariant of the table and the cache:
the entry it computes for a candidate without cached transition is the
maximisation over the entries of the end frame of the candidate's
predecessor, and every other entry stays. -/
theorem lm_inv_lpt (env : env_t) (W : Int → Prop) (f B S : Int) (s s1 : decoder_t)
    (hi : lm_inv env W f B S s) (hb : bt_ok f B s.ngs) (hc : cands_ok B s)
    (ho : s.output_frame = f + 1)
    (e1 : s1.ngs = s.ngs) (e2 : s1.xwd = s.xwd) (e3 : s1.output_frame = s.output_frame)
    (hcand : ∀ c, 0 ≤ c → c < s.n_lastphn_cand → 0 ≤ (s.lastphn_cand c).bp ∧
      s1.last_ltrans (s.lastphn_cand c).wid = lt_final env s c)
    (hoth : ∀ w, (∀ c, 0 ≤ c → c < s.n_lastphn_cand → (s.lastphn_cand c).wid ≠ w) →
      s1.last_ltrans w = s.last_ltrans w) :
    lm_inv env W f B S s1 := by
  refine lm_inv_of env W W f B S s s1 hi (by rw [e1]) (by rw [e1]) (by rw [e1]) (by rw [e1]) e2 ?_
  intro w hw
  by_cases hex : ∃ c, 0 ≤ c ∧ c < s.n_lastphn_cand ∧ (s.lastphn_cand c).wid = w
  · obtain ⟨c, hc0, hc1, hcw⟩ := hex
    subst hcw
    obtain ⟨hp0, hlt⟩ := hcand c hc0 hc1
    have hpB := hc c hc0 hc1
    by_cases hf : cand_fresh s c
    · have e : lt_final env s c = lt_run env s (s.lastphn_cand c).wid
          (s.ngs.bp_table_idx (cand_ef s c + 1) - 1 - s.ngs.bp_table_idx (cand_ef s c) + 1).toNat
          (s.ngs.bp_table_idx (cand_ef s c)) (lt_init s c) := by
        unfold lt_final
        unfold cand_fresh at hf
        rw [if_pos hf]
      rw [e] at hlt
      obtain ⟨a1, a2, a3⟩ := hi.live _ hp0 hpB
      have a4 := (hb.2.2.2.1 _ hp0 hpB).2
      unfold cache_ok
      refine Or.inr ⟨cand_ef s c, ?_, ?_, ?_, ?_, ?_⟩
      · rw [hlt, lt_run_sf]
        rfl
      · rw [e1]
        exact a3
      · rw [e1]
        exact a4
      · rw [e3, ho]
        have : cand_ef s c < f := a2
        omega
      · rw [e1, hlt, lt_run_congr env s s1 e1 e2]
        exact (lt_run_idem env s _ _ _ (lt_init s c) rfl).symm
    · have e : lt_final env s c = s.last_ltrans (s.lastphn_cand c).wid := by
        unfold lt_final
        unfold cand_fresh at hf
        rw [if_neg hf]
      rw [e] at hlt
      exact cache_ok_congr env s s1 B _ e1 e2 e3 hlt (hi.cache _ hw)
  · have hne : ∀ c, 0 ≤ c → c < s.n_lastphn_cand → (s.lastphn_cand c).wid ≠ w :=
      fun c hc0 hc1 he => hex ⟨c, hc0, hc1, he⟩
    exact cache_ok_congr env s s1 B _ e1 e2 e3 (hoth w hne) (hi.cache _ hw)

/-- A cached transition that `last_phone_transition` reuses is what the
maximisation over the entries of the end frame of the predecessor gives. -/
theorem cache_hit (env : env_t) (W : Int → Prop) (f B S : Int) (s : decoder_t) (c : Int)
    (hi : lm_inv env W f B S s) (hW : W (s.lastphn_cand c).wid)
    (hp0 : 0 ≤ (s.lastphn_cand c).bp) (hpB : (s.lastphn_cand c).bp < B)
    (hnf : ¬ cand_fresh s c) :
    s.last_ltrans (s.lastphn_cand c).wid = lt_run env s (s.lastphn_cand c).wid
      (s.ngs.bp_table_idx (cand_ef s c + 1) - 1 - s.ngs.bp_table_idx (cand_ef s c) + 1).toNat
      (s.ngs.bp_table_idx (cand_ef s c)) (lt_init s c) := by
  have hsf : (s.last_ltrans (s.lastphn_cand c).wid).sf = cand_ef s c + 1 := by
    unfold cand_fresh at hnf
    exact not_not.mp hnf
  obtain ⟨a1, _, _⟩ := hi.live _ hp0 hpB
  have a1' : 0 ≤ cand_ef s c := a1
  have hc := hi.cache _ hW
  unfold cache_ok at hc
  rcases hc with hc | ⟨e, h1, _, _, _, h5⟩
  · omega
  · have ee : e = cand_ef s c := by omega
    subst ee
    have el : lt_init s c = { s.last_ltrans (s.lastphn_cand c).wid with dscr := WORST_SCORE } := by
      unfold lt_init
      exact ltrans_eq _ _ hsf.symm rfl rfl
    rw [el]
    exact h5

/-- The permutation table of a new exit of word `w` maps below the number of
stack slots the exit is given. -/
theorem exit_perm_lt (d : decoder_t) (w ci : Int) (e : bptbl_t)
    (hsz : ∀ r, 0 < d.ngs.dict.rcFwdSizeTable r)
    (hpm : ∀ r ci, d.xwd.rcFwdPermTable r ci < d.ngs.dict.rcFwdSizeTable r)
    (he : e.r_diph = exit_r_diph (d.ngs.dict.dict_list w)) :
    rcpermtab_of d e ci < exit_rcsize d.ngs.dict (d.ngs.dict.dict_list w) := by
  unfold rcpermtab_of exit_rcsize
  rw [he]
  by_cases hc : (d.ngs.dict.dict_list w).len ≠ 1 ∧ (d.ngs.dict.dict_list w).mpx = true
  · rw [if_pos hc]
    split
    · exact hpm _ _
    · exact hsz _
  · rw [if_neg hc]
    have e1 : exit_r_diph (d.ngs.dict.dict_list w) = -1 := by
      unfold exit_r_diph
      rw [if_neg hc]
    rw [e1, if_neg (by decide)]
    show (0 : Int) < 1
    decide

theorem exit_rcsize_pos (dict : dict_t) (de : dict_entry_t)
    (hsz : ∀ r, 0 < dict.rcFwdSizeTable r) : 0 < exit_rcsize dict de := by
  unfold exit_rcsize
  split
  · exact hsz _
  · decide

/-- A word exit saved in frame `f` leaves the entries of earlier frames and
their stack slots alone, and the new or updated entry reads its scores
between the stack head of the earlier frames and the new stack head. -/
theorem save_exit_lm (env : env_t) (fuel : Nat) (d d1 : decoder_t) (f B S T : Int)
    (w score path rc : Int) (hb : bt_ok f B d.ngs)
    (hi : lm_inv env (fun _ => False) f B S d) (hl : leaves_ok T d)
    (hsz : ∀ r, 0 < d.ngs.dict.rcFwdSizeTable r)
    (hpm : ∀ r ci, d.xwd.rcFwdPermTable r ci < d.ngs.dict.rcFwdSizeTable r)
    (hrc : 0 ≤ rc) (hr : save_exit fuel d f w score path rc = Except.ok d1) :
    lm_inv env (fun _ => False) f B S d1 ∧ bt_frozen B S d d1 ∧ leaves_ok T d1 := by
  unfold save_exit at hr
  split at hr
  · simp at hr
  · rename_i ngs1 hs
    simp only [Except.ok.injEq] at hr
    subst hr
    obtain ⟨h0, hB, hm, hlo, hhi, hwl⟩ := hb
    have hhead := hi.head
    refine ⟨?_, ?_, leaves_ok_chan T d _ hl rfl rfl (fun _ => ⟨rfl, rfl⟩)⟩
    · by_cases hw : d.ngs.word_lat_idx w = NO_BP
      · obtain ⟨x, y, he⟩ := save_bwd_ptr_append_eq fuel d.ngs ngs1 f w score path rc hw hs
        clear hs
        subst he
        have hpos := exit_rcsize_pos d.ngs.dict (d.ngs.dict.dict_list w) hsz
        refine { head := ?_, live := ?_, reads := ?_, cur := ?_,
                 cache := fun _ h => absurd h (fun x => x),
                 seg := seg_ok_frozen f B d _
                   (fun b _ hb1 => by
                     show store d.ngs.bp_table d.ngs.bpidx _ b = d.ngs.bp_table b
                     rw [store_ne _ _ _ _ (by omega)])
                   rfl (fun i a b => (hi.live i a b).2.2) hi.seg }
        · show S ≤ d.ngs.bss_head + exit_rcsize d.ngs.dict (d.ngs.dict.dict_list w)
          omega
        · intro i hi0 hi1
          show 0 ≤ (store d.ngs.bp_table d.ngs.bpidx _ i).frame ∧
            (store d.ngs.bp_table d.ngs.bpidx _ i).frame < f ∧
            0 ≤ d.ngs.bp_table_idx (store d.ngs.bp_table d.ngs.bpidx _ i).frame
          rw [store_ne _ _ _ _ (by omega)]
          exact hi.live i hi0 hi1
        · intro i hi0 hi1 ci
          show (store d.ngs.bp_table d.ngs.bpidx _ i).s_idx +
            rcpermtab_of d (store d.ngs.bp_table d.ngs.bpidx _ i) ci < S
          rw [store_ne _ _ _ _ (by omega)]
          exact hi.reads i hi0 hi1 ci
        · intro i hiB hi2
          have hi3 : i < d.ngs.bpidx + 1 := hi2
          show S ≤ (store d.ngs.bp_table d.ngs.bpidx _ i).s_idx ∧
            ∀ ci, (store d.ngs.bp_table d.ngs.bpidx _ i).s_idx +
              rcpermtab_of d (store d.ngs.bp_table d.ngs.bpidx _ i) ci <
                d.ngs.bss_head + exit_rcsize d.ngs.dict (d.ngs.dict.dict_list w)
          by_cases hie : i = d.ngs.bpidx
          · rw [hie, store_same]
            refine ⟨hhead, fun ci => ?_⟩
            have := exit_perm_lt d w ci
              (set_prev_real_wid (set_real_wid
                (new_bpe (d.ngs.bp_table d.ngs.bpidx) f w path score d.ngs.bss_head
                  (exit_r_diph (d.ngs.dict.dict_list w))) x) y) hsz hpm rfl
            show d.ngs.bss_head + _ < _
            omega
          · rw [store_ne _ _ _ _ hie]
            obtain ⟨g1, g2⟩ := hi.cur i hiB (by omega)
            refine ⟨g1, fun ci => ?_⟩
            have := g2 ci
            omega
      · obtain ⟨e1, he, _, hfr, hsi, hrd, _⟩ :=
          save_bwd_ptr_update_eq fuel d.ngs ngs1 f w score path rc hw hs
        clear hs
        subst he
        have hin : B ≤ d.ngs.word_lat_idx w ∧ d.ngs.word_lat_idx w < d.ngs.bpidx := by
          rcases hwl w with h | h
          · exact absurd h hw
          · exact ⟨h.1, h.2.1⟩
        refine { head := hhead, live := ?_, reads := ?_, cur := ?_,
                 cache := fun _ h => absurd h (fun x => x),
                 seg := seg_ok_frozen f B d _
                   (fun b _ hb1 => by
                     show store d.ngs.bp_table (d.ngs.word_lat_idx w) e1 b = d.ngs.bp_table b
                     rw [store_ne _ _ _ _ (by omega)])
                   rfl (fun i a b => (hi.live i a b).2.2) hi.seg }
        · intro i hi0 hi1
          show 0 ≤ (store d.ngs.bp_table (d.ngs.word_lat_idx w) e1 i).frame ∧
            (store d.ngs.bp_table (d.ngs.word_lat_idx w) e1 i).frame < f ∧
            0 ≤ d.ngs.bp_table_idx (store d.ngs.bp_table (d.ngs.word_lat_idx w) e1 i).frame
          rw [store_ne _ _ _ _ (by omega)]
          exact hi.live i hi0 hi1
        · intro i hi0 hi1 ci
          show (store d.ngs.bp_table (d.ngs.word_lat_idx w) e1 i).s_idx +
            rcpermtab_of d (store d.ngs.bp_table (d.ngs.word_lat_idx w) e1 i) ci < S
          rw [store_ne _ _ _ _ (by omega)]
          exact hi.reads i hi0 hi1 ci
        · intro i hiB hi2
          have hi3 : i < d.ngs.bpidx := hi2
          show S ≤ (store d.ngs.bp_table (d.ngs.word_lat_idx w) e1 i).s_idx ∧
            ∀ ci, (store d.ngs.bp_table (d.ngs.word_lat_idx w) e1 i).s_idx +
              rcpermtab_of d (store d.ngs.bp_table (d.ngs.word_lat_idx w) e1 i) ci <
                d.ngs.bss_head
          by_cases hie : i = d.ngs.word_lat_idx w
          · rw [hie, store_same]
            obtain ⟨g1, g2⟩ := hi.cur _ hin.1 hin.2
            have ep : rcpermtab_of d e1 = rcpermtab_of d (d.ngs.bp_table (d.ngs.word_lat_idx w)) := by
              unfold rcpermtab_of
              rw [hrd]
            rw [hsi, ep]
            exact ⟨g1, g2⟩
          · rw [store_ne _ _ _ _ hie]
            exact hi.cur i hiB hi3
    · by_cases hw : d.ngs.word_lat_idx w = NO_BP
      · obtain ⟨x, y, he⟩ := save_bwd_ptr_append_eq fuel d.ngs ngs1 f w score path rc hw hs
        clear hs
        subst he
        refine ⟨?_, ?_, rfl, rfl, rfl, rfl, rfl, rfl, rfl, rfl⟩
        · intro b hb0 hb1
          show store d.ngs.bp_table d.ngs.bpidx _ b = d.ngs.bp_table b
          rw [store_ne _ _ _ _ (by omega)]
        · intro j hj
          show store (fill_worst _ d.ngs.bss_head d.ngs.bscore_stack) (d.ngs.bss_head + rc)
            score j = d.ngs.bscore_stack j
          rw [store_ne _ _ _ _ (by omega), fill_worst_spec, if_neg (by omega)]
      · obtain ⟨e1, he, _⟩ :=
          save_bwd_ptr_update_eq fuel d.ngs ngs1 f w score path rc hw hs
        clear hs
        subst he
        have hin : B ≤ d.ngs.word_lat_idx w ∧ d.ngs.word_lat_idx w < d.ngs.bpidx := by
          rcases hwl w with h | h
          · exact absurd h hw
          · exact ⟨h.1, h.2.1⟩
        have hs0 := (hi.cur _ hin.1 hin.2).1
        refine ⟨?_, ?_, rfl, rfl, rfl, rfl, rfl, rfl, rfl, rfl⟩
        · intro b hb0 hb1
          show store d.ngs.bp_table (d.ngs.word_lat_idx w) e1 b = d.ngs.bp_table b
          rw [store_ne _ _ _ _ (by omega)]
        · intro j hj
          show store d.ngs.bscore_stack ((d.ngs.bp_table (d.ngs.word_lat_idx w)).s_idx + rc)
            score j = d.ngs.bscore_stack j
          rw [store_ne _ _ _ _ (by omega)]

theorem pw_lm_set_chan_hmm (env : env_t) (f B S T : Int) (d0 d : decoder_t) (a : Int)
    (h : hmm_t) (hp : pw_lm env f B S T d0 d) (hh : hmm_below B h) :
    pw_lm env f B S T d0 (set_chan_hmm d a h) := by
  obtain ⟨p1, p2, p3, p4⟩ := hp
  have e := lm_same_set_chan_hmm d a h
  exact ⟨frame_ok_set_chan_hmm f B d a h p1 hh, lm_inv_same env _ f B S d _ e p2,
    bt_frozen_trans B S d0 d _ p3 (bt_frozen_keep B S d _ (lm_keep_of_same d _ e)),
    leaves_ok_same T d _ e p4⟩

theorem pw_lm_set_rhmm_hmm (env : env_t) (f B S T : Int) (d0 d : decoder_t) (w : Int)
    (h : hmm_t) (hp : pw_lm env f B S T d0 d) (hh : hmm_below B h) :
    pw_lm env f B S T d0 (set_rhmm_hmm d w h) := by
  obtain ⟨p1, p2, p3, p4⟩ := hp
  have e := lm_same_set_rhmm_hmm d w h
  exact ⟨frame_ok_set_rhmm_hmm f B d w h p1 hh, lm_inv_same env _ f B S d _ e p2,
    bt_frozen_trans B S d0 d _ p3 (bt_frozen_keep B S d _ (lm_keep_of_same d _ e)),
    leaves_ok_same T d _ e p4⟩

theorem leaves_ok_write_link (T : Int) (d : decoder_t) (l : link_t) (v : Int)
    (hl : leaves_ok T d) (hv : v = 0 ∨ (T < v ∧ v ≤ d.heap_top)) :
    leaves_ok T (write_link d l v) := by
  obtain ⟨h0, h1, h2⟩ := hl
  cases l with
  | head w =>
    refine ⟨h0, h1, ?_⟩
    intro u
    show store d.word_chan w v u = 0 ∨ (T < store d.word_chan w v u ∧
      store d.word_chan w v u ≤ d.heap_top)
    by_cases e : u = w
    · rw [e, store_same]
      exact hv
    · rw [store_ne _ _ _ _ e]
      exact h2 u
  | next_of a =>
    refine ⟨h0, ?_, h2⟩
    intro b hb1 hb2
    have hb3 : b ≤ d.heap_top := hb2
    clear hb2
    unfold write_link set_chan_next
    dsimp only
    by_cases e : b = a
    · rw [e, store_same]
      dsimp only
      exact ⟨(h1 a (by omega) (by omega)).1, hv⟩
    · rw [store_ne _ _ _ _ e]
      exact h1 b hb1 hb3

theorem write_link_keep (d : decoder_t) (l : link_t) (v : Int) :
    lm_keep d (write_link d l v) ∧ (write_link d l v).heap_top = d.heap_top := by
  cases l with
  | head w => exact ⟨⟨rfl, rfl, rfl, rfl, rfl, rfl, rfl⟩, rfl⟩
  | next_of a => exact ⟨⟨rfl, rfl, rfl, rfl, rfl, rfl, rfl⟩, rfl⟩

theorem pw_lm_write_link (env : env_t) (f B S T : Int) (d0 d : decoder_t) (l : link_t)
    (v : Int) (hp : pw_lm env f B S T d0 d) (hv : v = 0 ∨ (T < v ∧ v ≤ d.heap_top)) :
    pw_lm env f B S T d0 (write_link d l v) := by
  obtain ⟨p1, p2, p3, p4⟩ := hp
  obtain ⟨k, _⟩ := write_link_keep d l v
  exact ⟨frame_ok_write_link f B d l v p1, lm_inv_ngs env f B S d _ p2 k.1 k.2.2.1,
    bt_frozen_trans B S d0 d _ p3 (bt_frozen_keep B S d _ k),
    leaves_ok_write_link T d l v p4 hv⟩

theorem save_exit_heap (fuel : Nat) (d d1 : decoder_t) (f w score path rc : Int)
    (hr : save_exit fuel d f w score path rc = Except.ok d1) :
    d1.heap_top = d.heap_top ∧ d1.chan = d.chan ∧ d1.word_chan = d.word_chan := by
  unfold save_exit at hr
  split at hr
  · simp at hr
  · simp only [Except.ok.injEq] at hr
    subst hr
    exact ⟨rfl, rfl, rfl⟩

theorem pw_lm_save_exit (env : env_t) (fuel : Nat) (f B S T : Int) (d0 d d1 : decoder_t)
    (w score path rc : Int)
    (hsz : ∀ r, 0 < d0.ngs.dict.rcFwdSizeTable r)
    (hpm : ∀ r ci, d0.xwd.rcFwdPermTable r ci < d0.ngs.dict.rcFwdSizeTable r)
    (hp : pw_lm env f B S T d0 d) (hpath : path < B) (hrc : 0 ≤ rc)
    (hr : save_exit fuel d f w score path rc = Except.ok d1) :
    pw_lm env f B S T d0 d1 := by
  obtain ⟨p1, p2, p3, p4⟩ := hp
  have e4 : d.ngs.dict = d0.ngs.dict := p3.2.2.2.1
  have e5 : d.xwd = d0.xwd := p3.2.2.2.2.1
  obtain ⟨g1, g2, g3⟩ := save_exit_lm env fuel d d1 f B S T w score path rc p1.1 p2 p4
    (by rw [e4]; exact hsz) (by rw [e4, e5]; exact hpm) hrc hr
  exact ⟨save_exit_ok fuel d d1 f B w score path rc p1 hpath hr, g1,
    bt_frozen_trans B S d0 d d1 p3 g2, g3⟩

/-- The loop of `prune_word_chan` over the leaves of a word keeps the
invariant: every exit it saves is for a right-context index that is not
negative. -/
theorem prune_leaves_lm (env : env_t) (d0 : decoder_t)
    (hsz : ∀ r, 0 < d0.ngs.dict.rcFwdSizeTable r)
    (hpm : ∀ r ci, d0.xwd.rcFwdPermTable r ci < d0.ngs.dict.rcFwdSizeTable r)
    (sfuel : Nat) (f B S T w nwt lpt : Int) (fuel : Nat) :
    ∀ (hmm : Int) (phmmp : link_t) (k : Int) (d : decoder_t) (r : decoder_t × Int),
      pw_lm env f B S T d0 d → (hmm = 0 ∨ (T < hmm ∧ hmm ≤ d.heap_top)) →
      prune_leaves sfuel f w nwt lpt fuel hmm phmmp k d = Except.ok r →
      pw_lm env f B S T d0 r.1 := by
  induction fuel with
  | zero =>
    intro hmm phmmp k d r _ _ hr
    simp [prune_leaves] at hr
  | succ n ih =>
    intro hmm phmmp k d r hd hh hr
    simp only [prune_leaves] at hr
    split at hr
    · simp only [Except.ok.injEq] at hr
      subst hr
      exact hd
    · rename_i hne
      have hin : T < hmm ∧ hmm ≤ d.heap_top := by
        rcases hh with h | h
        · exact absurd h hne
        · exact h
      obtain ⟨hinfo, hnext⟩ := hd.2.2.2.2.1 hmm hin.1 hin.2
      split at hr
      · simp at hr
      · have h1 : pw_lm env f B S T d0
            (set_chan_hmm d hmm (hmm_set_frame (d.chan hmm).hmm (f + 1))) :=
          pw_lm_set_chan_hmm env f B S T d0 d _ _ hd (hd.1.2.2.1.2.1 _)
        split at hr
        · split at hr
          · split at hr
            · simp at hr
            · rename_i d2 hs
              obtain ⟨t1, _, _⟩ := save_exit_heap sfuel _ d2 _ _ _ _ _ hs
              refine ih _ _ _ _ _ ?_ ?_ hr
              · refine pw_lm_save_exit env sfuel f B S T d0 _ d2 _ _ _ _ hsz hpm h1
                  (h1.1.2.2.1.2.1 _).2.1 ?_ hs
                rw [((lm_same_set_chan_hmm d hmm _).2.2.2.2.2.2.2.2.2.2 hmm).2]
                exact hinfo
              · rw [t1]
                exact hnext
          · exact ih _ _ _ _ _ h1 hnext hr
        · split at hr
          · exact ih _ _ _ _ _ hd hnext hr
          · refine ih _ _ _ _ _ (pw_lm_write_link env f B S T d0 d _ _ hd hnext) ?_ hr
            rw [(write_link_keep d phmmp _).2]
            exact hnext

/-- `prune_word_chan` keeps the invariant of the table and the cache: the
exits of the frame are stored above the entries and the stack slots of the
earlier frames. -/
theorem prune_word_chan_lm (env : env_t) (W : Int → Prop) (fuel : Nat) (d d1 : decoder_t)
    (f B S T : Int) (hd : frame_ok f B d) (hi : lm_inv env W f B S d) (hl : leaves_ok T d)
    (hsz : ∀ r, 0 < d.ngs.dict.rcFwdSizeTable r)
    (hpm : ∀ r ci, d.xwd.rcFwdPermTable r ci < d.ngs.dict.rcFwdSizeTable r)
    (hr : prune_word_chan fuel d f = Except.ok d1) :
    frame_ok f B d1 ∧ lm_inv env W f B S d1 ∧ leaves_ok T d1 ∧ bt_frozen B S d d1 := by
  have h0 : pw_lm env f B S T d d :=
    ⟨hd, lm_inv_of env W _ f B S d d hi rfl rfl rfl rfl rfl (fun _ h => absurd h (fun x => x)),
      bt_frozen_refl B S d, hl⟩
  have key : pw_lm env f B S T d d1 := by
    unfold prune_word_chan at hr
    dsimp only at hr
    split at hr
    · simp at hr
    · rename_i d2 n h2
      have hs2 : pw_lm env f B S T d d2 := by
        have h3 := for_up_inv (fun sn : decoder_t × Int => pw_lm env f B S T d sn.1)
          _ _ _ _ _ ?_ h0 h2
        · exact h3
        · intro i sn sn1 _ _ hs hb
          split at hb
          · simp at hb
          · rename_i s1 k hp
            have hs1 := prune_leaves_lm env d hsz hpm fuel f B S T _ _ _ fuel _ _ _ _ _ hs
              (hs.2.2.2.2.2 _) hp
            have hs1' : pw_lm env f B S T d s1 := hs1
            have hw : ∀ (v : Int → Int) (l : Int → Int → Int),
                pw_lm env f B S T d { s1 with word_active := v, active_word_list := l } := by
              intro v l
              obtain ⟨q1, q2, q3, q4⟩ := hs1'
              exact ⟨q1, lm_inv_ngs env f B S s1 _ q2 rfl rfl, q3, q4⟩
            split at hb
            · split at hb
              · simp at hb
              · simp only [Except.ok.injEq] at hb
                subst hb
                exact hw _ _
            · simp only [Except.ok.injEq] at hb
              subst hb
              exact hs1'
      have hs3 : pw_lm env f B S T d
          { d2 with n_active_word := store d2.n_active_word (parity (f + 1)) n } := by
        obtain ⟨q1, q2, q3, q4⟩ := hs2
        exact ⟨q1, lm_inv_ngs env f B S d2 _ q2 rfl rfl, q3, q4⟩
      refine for_up_inv (fun s : decoder_t => pw_lm env f B S T d s) _ _ _ _ _ ?_ hs3 hr
      intro i s s1 _ _ hs hb
      split at hb
      · simp only [Except.ok.injEq] at hb
        subst hb
        exact hs
      · split at hb
        · have h1 := pw_lm_set_rhmm_hmm env f B S T d s (s.single_phone_wid i)
            (hmm_set_frame (s.all_rhmm (s.single_phone_wid i)).hmm (f + 1)) hs
            (hs.1.2.2.1.2.2 _)
          split at hb
          · exact pw_lm_save_exit env fuel f B S T d _ s1 _ _ _ _ hsz hpm h1
              (h1.1.2.2.1.2.2 _).2.1 (le_refl _) hb
          · simp only [Except.ok.injEq] at hb
            subst hb
            exact h1
        · simp only [Except.ok.injEq] at hb
          subst hb
          exact hs
  obtain ⟨k1, k2, k3, k4⟩ := key
  refine ⟨k1, ?_, k4, k3⟩
  refine lm_inv_of env _ W f B S d1 d1 k2 rfl rfl rfl rfl rfl ?_
  intro w hw
  exact cache_ok_frozen env d d1 B S w k3 hi.reads (hi.cache w hw)

theorem wt_frame_refl (d : decoder_t) : wt_frame d d := by
  unfold wt_frame
  rfl

theorem wt_frame_set_bestbp_rc (d s : decoder_t) (rc : Int) (v : bestbp_rc_t)
    (h : wt_frame d s) : wt_frame d (set_bestbp_rc s rc v) := by
  unfold wt_frame at h ⊢
  unfold set_bestbp_rc
  rw [h]

theorem wt_frame_set_wl (d s : decoder_t) (w : Int) (h : wt_frame d s) :
    wt_frame d (set_ngs s { s.ngs with word_lat_idx := store s.ngs.word_lat_idx w NO_BP }) := by
  unfold wt_frame at h ⊢
  unfold set_ngs
  rw [h]

theorem wt_frame_set_root_hmm (d s : decoder_t) (i : Int) (v : hmm_t) (h : wt_frame d s) :
    wt_frame d (set_root_hmm s i v) := by
  unfold wt_frame at h ⊢
  unfold set_root_hmm
  rw [h]

theorem wt_frame_set_ltrans (d s : decoder_t) (w : Int) (v : last_ltrans_t)
    (h : wt_frame d s) : wt_frame d (set_ltrans s w v) := by
  unfold wt_frame at h ⊢
  unfold set_ltrans
  rw [h]

theorem wt_frame_best_rc (d : decoder_t) (bp : Int) (sk : decoder_t × Int)
    (h : wt_frame d sk.1) : wt_frame d (wt_best_rc bp sk).1 := by
  unfold wt_best_rc
  dsimp only
  split
  · exact wt_frame_set_wl d sk.1 _ h
  · dsimp only
    apply iter_down_inv (wt_frame d)
    · intro rc s _ _ hs
      dsimp only
      split
      · exact wt_frame_set_bestbp_rc d s rc _ hs
      · exact hs
    · exact wt_frame_set_wl d sk.1 _ h

theorem wt_frame_root (d : decoder_t) (f thresh i : Int) (s : decoder_t) (h : wt_frame d s) :
    wt_frame d (wt_root f thresh i s) := by
  unfold wt_root
  dsimp only
  split
  · split
    · exact wt_frame_set_root_hmm d s i _ h
    · exact h
  · exact h

theorem wt_lm_refl (d : decoder_t) : wt_lm d d := ⟨wt_frame_refl d, fun _ _ => rfl⟩

theorem wt_lm_set_ltrans (d s : decoder_t) (w : Int) (v : last_ltrans_t) (h : wt_lm d s)
    (hw : is_lm d w) : wt_lm d (set_ltrans s w v) := by
  refine ⟨wt_frame_set_ltrans d s w v h.1, ?_⟩
  intro u hu
  show store s.last_ltrans w v u = d.last_ltrans u
  have hne : u ≠ w := fun e => hu (e ▸ hw)
  rw [store_ne _ _ _ _ hne]
  exact h.2 u hu

theorem wt_lm_is_lm (d s : decoder_t) (h : wt_frame d s) (i : Int) (h0 : 0 ≤ i)
    (h1 : i < s.n_1ph_LMwords) : is_lm d (s.single_phone_wid i) := by
  obtain ⟨_, _, _, e4, e5, _⟩ := wt_frame_fields d s h
  rw [e5] at h1
  rw [e4]
  exact ⟨i, h0, h1, rfl⟩

theorem wt_lm_ltrans (env : env_t) (d s : decoder_t) (bp : Int) (h : wt_lm d s) :
    wt_lm d (wt_ltrans env bp s) := by
  unfold wt_ltrans
  dsimp only
  split
  · exact h
  · have key := iter_up_ind
      (fun (_ : Int) (t : decoder_t) => wt_lm d t ∧ t.n_1ph_LMwords = s.n_1ph_LMwords)
      (fun i (t : decoder_t) =>
        if (t.last_ltrans (t.single_phone_wid i)).dscr <
            t.ngs.bscore_stack ((s.ngs.bp_table bp).s_idx +
                rcpermtab_of s (s.ngs.bp_table bp)
                  ((t.ngs.dict.dict_list (t.single_phone_wid i)).ci_phone_ids 0)) +
              env.tg_score (t.ngs.dict.dict_list (t.single_phone_wid i)).wid
                (s.ngs.bp_table bp).real_wid (s.ngs.bp_table bp).prev_real_wid then
          set_ltrans
            (set_ltrans t (t.single_phone_wid i)
              { t.last_ltrans (t.single_phone_wid i) with
                dscr := t.ngs.bscore_stack ((s.ngs.bp_table bp).s_idx +
                    rcpermtab_of s (s.ngs.bp_table bp)
                      ((t.ngs.dict.dict_list (t.single_phone_wid i)).ci_phone_ids 0)) +
                  env.tg_score (t.ngs.dict.dict_list (t.single_phone_wid i)).wid
                    (s.ngs.bp_table bp).real_wid (s.ngs.bp_table bp).prev_real_wid })
            (t.single_phone_wid i)
            { (set_ltrans t (t.single_phone_wid i)
                { t.last_ltrans (t.single_phone_wid i) with
                  dscr := t.ngs.bscore_stack ((s.ngs.bp_table bp).s_idx +
                      rcpermtab_of s (s.ngs.bp_table bp)
                        ((t.ngs.dict.dict_list (t.single_phone_wid i)).ci_phone_ids 0)) +
                    env.tg_score (t.ngs.dict.dict_list (t.single_phone_wid i)).wid
                      (s.ngs.bp_table bp).real_wid
                      (s.ngs.bp_table bp).prev_real_wid }).last_ltrans
                (t.single_phone_wid i) with bp := bp }
        else t)
      s.n_1ph_LMwords.toNat 0 s ?_ ⟨h, rfl⟩
    · exact key.1
    · intro i t hi0 hi1 ⟨ht, hn⟩
      dsimp only
      split
      · have hlm : is_lm d (t.single_phone_wid i) :=
          wt_lm_is_lm d t ht.1 i hi0 (by rw [hn]; omega)
        exact ⟨wt_lm_set_ltrans d _ _ _ (wt_lm_set_ltrans d t _ _ ht hlm) hlm, hn⟩
      · exact ⟨ht, hn⟩

theorem wt_lm_single (d s s1 : decoder_t) (f thresh i : Int) (h : wt_lm d s)
    (hr : wt_single f thresh i s = Except.ok s1) : wt_lm d s1 := by
  unfold wt_single at hr
  dsimp only at hr
  split at hr
  · split at hr
    · simp at hr
    · split at hr
      · simp only [Except.ok.injEq] at hr
        subst hr
        exact ⟨wt_frame_set_rhmm_hmm d s _ _ h.1, h.2⟩
      · simp only [Except.ok.injEq] at hr
        subst hr
        exact h
  · simp only [Except.ok.injEq] at hr
    subst hr
    exact h

theorem wt_lm_filler (d s : decoder_t) (f ns w : Int) (h : wt_lm d s) :
    wt_lm d (wt_filler f ns w s) := by
  obtain ⟨g1, g2, _⟩ := wt_filler_frame d s f ns w h.1
  refine ⟨g1, ?_⟩
  intro u hu
  rw [g2]
  exact h.2 u hu

/-- `word_transition` changes `last_ltrans` for the single-phone words of the
language model only and leaves the backpointer table and the score stack
alone. -/
theorem word_transition_lm (env : env_t) (d d1 : decoder_t) (f : Int)
    (hr : word_transition env d f = Except.ok d1) : wt_lm d d1 := by
  unfold word_transition at hr
  dsimp only at hr
  have k1 : wt_lm d (iter_down
      (fun i (s : decoder_t) => set_bestbp_rc s i { s.bestbp_rc i with score := WORST_SCORE })
      d.ngs.n_ciphone.toNat (d.ngs.n_ciphone - 1) d) := by
    apply iter_down_inv (fun s : decoder_t => wt_lm d s)
    · intro i s _ _ hs
      exact ⟨wt_frame_set_bestbp_rc d s _ _ hs.1, hs.2⟩
    · exact wt_lm_refl d
  generalize iter_down _ d.ngs.n_ciphone.toNat (d.ngs.n_ciphone - 1) d = e1 at hr k1
  have k2 : wt_lm d (iter_up wt_best_rc (e1.ngs.bpidx - e1.ngs.bp_table_idx f).toNat
      (e1.ngs.bp_table_idx f) (e1, 0)).1 := by
    apply iter_up_inv (fun sk : decoder_t × Int => wt_lm d sk.1)
    · intro bp sk _ _ hs
      refine ⟨wt_frame_best_rc d bp sk hs.1, ?_⟩
      rw [wt_best_rc_ltrans]
      exact hs.2
    · exact k1
  generalize iter_up wt_best_rc (e1.ngs.bpidx - e1.ngs.bp_table_idx f).toNat
      (e1.ngs.bp_table_idx f) (e1, 0) = r at hr k2
  split at hr
  · simp only [Except.ok.injEq] at hr
    subst hr
    exact k2
  · have k3 : wt_lm d (iter_up (wt_root f (r.1.best_score + r.1.dynamic_beam))
        r.1.n_root_chan.toNat 0 r.1) := by
      apply iter_up_inv (fun s : decoder_t => wt_lm d s)
      · intro i s _ _ hs
        refine ⟨wt_frame_root d f _ i s hs.1, ?_⟩
        rw [wt_root_ltrans]
        exact hs.2
      · exact k2
    generalize iter_up (wt_root f (r.1.best_score + r.1.dynamic_beam))
        r.1.n_root_chan.toNat 0 r.1 = e3 at hr k3
    have k4 : wt_lm d (iter_up
        (fun i (s : decoder_t) =>
          set_ltrans s (s.single_phone_wid i)
            { s.last_ltrans (s.single_phone_wid i) with dscr := INT32_MIN })
        e3.n_1ph_LMwords.toNat 0 e3) := by
      have key := iter_up_ind
        (fun (_ : Int) (t : decoder_t) => wt_lm d t ∧ t.n_1ph_LMwords = e3.n_1ph_LMwords)
        (fun i (s : decoder_t) =>
          set_ltrans s (s.single_phone_wid i)
            { s.last_ltrans (s.single_phone_wid i) with dscr := INT32_MIN })
        e3.n_1ph_LMwords.toNat 0 e3 ?_ ⟨k3, rfl⟩
      · exact key.1
      · intro i t hi0 hi1 ⟨ht, hn⟩
        exact ⟨wt_lm_set_ltrans d t _ _ ht
          (wt_lm_is_lm d t ht.1 i hi0 (by rw [hn]; omega)), hn⟩
    generalize iter_up _ e3.n_1ph_LMwords.toNat 0 e3 = e4 at hr k4
    have k5 : wt_lm d (iter_up (wt_ltrans env) (e1.ngs.bpidx - e1.ngs.bp_table_idx f).toNat
        (e1.ngs.bp_table_idx f) e4) := by
      apply iter_up_inv (fun s : decoder_t => wt_lm d s)
      · intro i s _ _ hs
        exact wt_lm_ltrans env d s i hs
      · exact k4
    generalize iter_up (wt_ltrans env) (e1.ngs.bpidx - e1.ngs.bp_table_idx f).toNat
        (e1.ngs.bp_table_idx f) e4 = e5 at hr k5
    split at hr
    · simp at hr
    · rename_i d6 h6
      simp only [Except.ok.injEq] at hr
      subst hr
      have k6 : wt_lm d d6 := by
        refine for_up_inv (fun s : decoder_t => wt_lm d s) _ _ _ _ _ ?_ k5 h6
        intro i s s1 _ _ hs hb
        exact wt_lm_single d s s1 _ _ i hs hb
      have k7 : wt_lm d (if (d6.bestbp_rc d6.sil).score + d6.silpen + d6.pip >
            r.1.best_score + r.1.dynamic_beam then
          wt_filler f ((d6.bestbp_rc d6.sil).score + d6.silpen + d6.pip) d6.ngs.silence_wid d6
          else d6) := by
        split
        · exact wt_lm_filler d d6 _ _ _ k6
        · exact k6
      generalize (if (d6.bestbp_rc d6.sil).score + d6.silpen + d6.pip >
            r.1.best_score + r.1.dynamic_beam then
          wt_filler f ((d6.bestbp_rc d6.sil).score + d6.silpen + d6.pip) d6.ngs.silence_wid d6
          else d6) = e7 at k7 ⊢
      split
      · apply iter_up_inv (fun s : decoder_t => wt_lm d s)
        · intro i s _ _ hs
          exact wt_lm_filler d s _ _ i hs
        · exact k7
      · exact k7

/-- Capping the word exits of the frame keeps the invariant of the table and
the cache: only `valid` flags of entries of the frame change. -/
theorem cap_exits_lm (env : env_t) (W : Int → Prop) (d d1 : decoder_t) (f B S T : Int)
    (hb : bt_ok f B d.ngs) (hi : lm_inv env W f B S d) (hl : leaves_ok T d)
    (hr : cap_exits d f = Except.ok d1) :
    lm_inv env W f B S d1 ∧ leaves_ok T d1 ∧ d1.ngs.dict = d.ngs.dict ∧ d1.xwd = d.xwd ∧
    d1.n_1ph_LMwords = d.n_1ph_LMwords ∧ d1.single_phone_wid = d.single_phone_wid ∧
    d1.n_root_chan = d.n_root_chan ∧ d1.output_frame = d.output_frame := by
  unfold cap_exits at hr
  split at hr
  · simp at hr
  · rename_i ngs1 hs
    simp only [Except.ok.injEq] at hr
    subst hr
    obtain ⟨he, hv, hn⟩ := bptable_maxwpf_frame d.ngs ngs1 f hs
    have e1 : ngs1.bpidx = d.ngs.bpidx := by
      have e := congrArg ngram_search_t.bpidx he
      exact e
    have e2 : ngs1.bp_table_idx = d.ngs.bp_table_idx := by
      have e := congrArg ngram_search_t.bp_table_idx he
      exact e
    have e3 : ngs1.bss_head = d.ngs.bss_head := by
      have e := congrArg ngram_search_t.bss_head he
      exact e
    have e4 : ngs1.bscore_stack = d.ngs.bscore_stack := by
      have e := congrArg ngram_search_t.bscore_stack he
      exact e
    have e5 : ngs1.dict = d.ngs.dict := by
      have e := congrArg ngram_search_t.dict he
      exact e
    have e6 : ∀ j, (ngs1.bp_table j).s_idx = (d.ngs.bp_table j).s_idx := fun j => by
      rw [hv j]
      rfl
    have e7 : ∀ j, (ngs1.bp_table j).r_diph = (d.ngs.bp_table j).r_diph := fun j => by
      rw [hv j]
      rfl
    have e8 : ∀ j, j < B → ngs1.bp_table j = d.ngs.bp_table j := fun j hj => by
      apply hn
      unfold in_frame
      rw [hb.2.2.1]
      omega
    have ep : ∀ j ci, rcpermtab_of (set_ngs d ngs1) (ngs1.bp_table j) ci =
        rcpermtab_of d (d.ngs.bp_table j) ci := fun j ci => by
      unfold rcpermtab_of
      rw [e7 j]
      rfl
    refine ⟨{ head := ?_, live := ?_, reads := ?_, cur := ?_, cache := ?_,
              seg := seg_ok_frozen f B d _ (fun b _ hb1 => e8 b hb1) e2
                (fun i a b => (hi.live i a b).2.2) hi.seg }, hl, e5, rfl, rfl, rfl, rfl, rfl⟩
    · show S ≤ ngs1.bss_head
      rw [e3]
      exact hi.head
    · intro i hi0 hi1
      show 0 ≤ (ngs1.bp_table i).frame ∧ (ngs1.bp_table i).frame < f ∧
        0 ≤ ngs1.bp_table_idx (ngs1.bp_table i).frame
      rw [e8 i hi1, e2]
      exact hi.live i hi0 hi1
    · intro i hi0 hi1 ci
      show (ngs1.bp_table i).s_idx + rcpermtab_of (set_ngs d ngs1) (ngs1.bp_table i) ci < S
      rw [ep, e6]
      exact hi.reads i hi0 hi1 ci
    · intro i hi0 hi1
      have hi2 : i < d.ngs.bpidx := by
        have e : (set_ngs d ngs1).ngs.bpidx = ngs1.bpidx := rfl
        rw [e, e1] at hi1
        exact hi1
      obtain ⟨c1, c2⟩ := hi.cur i hi0 hi2
      refine ⟨?_, ?_⟩
      · show S ≤ (ngs1.bp_table i).s_idx
        rw [e6]
        exact c1
      · intro ci
        show (ngs1.bp_table i).s_idx + rcpermtab_of (set_ngs d ngs1) (ngs1.bp_table i) ci <
          ngs1.bss_head
        rw [ep, e6, e3]
        exact c2 ci
    · intro w hw
      exact cache_ok_point env d (set_ngs d ngs1) B S w (fun b _ hb1 => e8 b hb1)
        (fun j _ => by
          show ngs1.bscore_stack j = d.ngs.bscore_stack j
          rw [e4])
        e2 e5 rfl rfl rfl hi.reads (hi.cache w hw)

/-- The transitions into new words keep the invariant of the table and the
cache for words that are no single-phone words of the language model. -/
theorem word_transition_inv (env : env_t) (W : Int → Prop) (d d1 : decoder_t)
    (f0 f B S T : Int)
    (hW : ∀ w, W w → ¬ is_lm d w)
    (hi : lm_inv env W f B S d) (hl : leaves_ok T d)
    (hr : word_transition env d f0 = Except.ok d1) :
    lm_inv env W f B S d1 ∧ leaves_ok T d1 ∧ d1.ngs.dict = d.ngs.dict ∧ d1.xwd = d.xwd ∧
    d1.n_1ph_LMwords = d.n_1ph_LMwords ∧ d1.single_phone_wid = d.single_phone_wid ∧
    d1.n_root_chan = d.n_root_chan ∧ d1.output_frame = d.output_frame ∧
    d1.ngs.bpidx = d.ngs.bpidx ∧ d1.ngs.bss_head = d.ngs.bss_head := by
  obtain ⟨hf, hlt⟩ := word_transition_lm env d d1 f0 hr
  unfold wt_frame at hf
  have e1 : d1.ngs.bp_table = d.ngs.bp_table := by
    have e := congrArg (fun x : decoder_t => x.ngs.bp_table) hf
    exact e
  have e2 : d1.ngs.bp_table_idx = d.ngs.bp_table_idx := by
    have e := congrArg (fun x : decoder_t => x.ngs.bp_table_idx) hf
    exact e
  have e3 : d1.ngs.bpidx = d.ngs.bpidx := by
    have e := congrArg (fun x : decoder_t => x.ngs.bpidx) hf
    exact e
  have e4 : d1.ngs.bss_head = d.ngs.bss_head := by
    have e := congrArg (fun x : decoder_t => x.ngs.bss_head) hf
    exact e
  have e5 : d1.xwd = d.xwd := by
    have e := congrArg (fun x : decoder_t => x.xwd) hf
    exact e
  have e6 : d1.ngs.bscore_stack = d.ngs.bscore_stack := by
    have e := congrArg (fun x : decoder_t => x.ngs.bscore_stack) hf
    exact e
  have e7 : d1.ngs.dict = d.ngs.dict := by
    have e := congrArg (fun x : decoder_t => x.ngs.dict) hf
    exact e
  have e8 : d1.output_frame = d.output_frame := by
    have e := congrArg (fun x : decoder_t => x.output_frame) hf
    exact e
  have e9 : d1.n_1ph_LMwords = d.n_1ph_LMwords := by
    have e := congrArg (fun x : decoder_t => x.n_1ph_LMwords) hf
    exact e
  have e10 : d1.single_phone_wid = d.single_phone_wid := by
    have e := congrArg (fun x : decoder_t => x.single_phone_wid) hf
    exact e
  have e11 : d1.n_root_chan = d.n_root_chan := by
    have e := congrArg (fun x : decoder_t => x.n_root_chan) hf
    exact e
  have e12 : d1.heap_top = d.heap_top := by
    have e := congrArg (fun x : decoder_t => x.heap_top) hf
    exact e
  have e13 : d1.chan = d.chan := by
    have e := congrArg (fun x : decoder_t => x.chan) hf
    exact e
  have e14 : d1.word_chan = d.word_chan := by
    have e := congrArg (fun x : decoder_t => x.word_chan) hf
    exact e
  refine ⟨?_, ?_, e7, e5, e9, e10, e11, e8, e3, e4⟩
  · refine lm_inv_of env W W f B S d d1 hi e1 e2 e3 e4 e5 ?_
    intro w hw
    exact cache_ok_point env d d1 B S w (fun b _ _ => by rw [e1]) (fun j _ => by rw [e6])
      e2 e7 e5 (hlt w (hW w hw)) e8 hi.reads (hi.cache w hw)
  · unfold leaves_ok at hl ⊢
    rw [e12, e13, e14]
    exact hl

/-- A word of the tree is no single-phone word of the language model. -/
theorem lm_word_not_is_lm (N : Int → Prop) (KR : Int → List Int) (H : parent_t → List Int)
    (d : decoder_t) (ht : tree_ok d N KR H) (hs : lm_static N H d) (w : Int)
    (hw : lm_word d N H w) : ¬ is_lm d w := by
  obtain ⟨p, hp, hm⟩ := hw
  rintro ⟨j, hj0, hj1, hjw⟩
  have h1 := hs.one j hj0 hj1
  have h2 := (ht.hmp p w hp hm).2
  rw [hjw] at h1
  omega

theorem lm_inv_sub (env : env_t) (W W1 : Int → Prop) (f B S : Int) (d : decoder_t)
    (hW : ∀ w, W1 w → W w) (h : lm_inv env W f B S d) : lm_inv env W1 f B S d :=
  lm_inv_of env W W1 f B S d d h rfl rfl rfl rfl rfl (fun w hw => h.cache w (hW w hw))

theorem is_lm_congr (d s : decoder_t) (e1 : s.n_1ph_LMwords = d.n_1ph_LMwords)
    (e2 : s.single_phone_wid = d.single_phone_wid) (w : Int) : is_lm s w ↔ is_lm d w := by
  unfold is_lm
  rw [e1, e2]

/-- A frame of the search keeps the invariant of the table and the cache. -/
theorem lm_run_step (env : env_t) (hv : vit_frame env) (hv2 : vit_ok env) (N : Int → Prop)
    (KR : Int → List Int) (H : parent_t → List Int) (fuel : Nat) (d d1 : decoder_t) (r : Int)
    (C : Int → List Int) (T : Int) (hi : run_inv N KR H d.output_frame d C)
    (hm : marks_ok d.output_frame d) (hl : lm_run env N H T d)
    (hr : ngram_fwdtree_search env fuel d = Except.ok (d1, r)) : lm_run env N H T d1 := by
  by_cases h0 : d.n_feat_frame = 0
  · unfold ngram_fwdtree_search at hr
    rw [if_pos h0] at hr
    simp only [Except.ok.injEq, Prod.mk.injEq] at hr
    rw [← hr.1]
    exact hl
  · have hidle := (ngram_fwdtree_search_ok env hv2 fuel d d1 r hl.idle hr).1
    obtain ⟨s, s1, s2, s3, s4, g1, g2, g3, g4, g5, g6⟩ := search_factors env fuel d d1 r h0 hr
    obtain ⟨a1, a2, a3, a4, a5, a6⟩ := search_cands_lm env hv hv2 N KR H fuel d s C T hi hl g1
    obtain ⟨b1, b2⟩ := search_cands_inv env hv N KR H fuel d s C hi hm g1
    obtain ⟨c1, c2, c3, c4, c5, c6, c7, c8, c9⟩ :=
      lpt_lm env fuel s s1 d.output_frame T b1.cinj a4 g2
    have i1 := lm_inv_lpt env _ _ _ _ s s1 a3 a1.1 a2 a1.2.1 c2 c3 c4 c8 c9
    have f1 := last_phone_transition_ok env fuel s s1 _ _ _ ⟨a1, a2⟩ g2
    have t1 : lm_static N H s1 := lm_static_congr N H s s1 c7 (by rw [c2]) c5 c6 c3 a5
    obtain ⟨f2, i2, l2, z2⟩ :=
      prune_word_chan_lm env _ fuel s1 s2 _ _ _ T f1 i1 c1 t1.size t1.perm g3
    obtain ⟨_, _, _, z4, z5, _, z7, z8, z9, z10⟩ := z2
    have t2 : lm_static N H s2 := lm_static_congr N H s1 s2 z10 z4 z8 z9 z5 t1
    obtain ⟨i3, l3, y1, y2, y3, y4, y5, y6⟩ :=
      cap_exits_lm env _ s2 s3 _ _ _ T f2.1 i2 l2 g4
    have f3 := cap_exits_ok s2 s3 _ _ _ f2 g4
    have t3 : lm_static N H s3 := lm_static_congr N H s2 s3 y5 y1 y3 y4 y2 t2
    have i3c := lm_inv_close env _ _ _ _ s3 hi.f0 f3.1 i3
    have hW : ∀ w, lm_word d N H w → ¬ is_lm s3 w := by
      intro w hw hlm
      have hws : lm_word s N H w := (lm_word_congr d s N H a6 w).mpr hw
      have h1 : ¬ is_lm s w := lm_word_not_is_lm N KR H s b1.tree a5 w hws
      apply h1
      have q1 := (is_lm_congr s2 s3 y3 y4 w).mp hlm
      have q2 := (is_lm_congr s1 s2 z8 z9 w).mp q1
      exact (is_lm_congr s s1 c5 c6 w).mp q2
    obtain ⟨i4, l4, x1, x2, x3, x4, x5, x6, x7, x8⟩ :=
      word_transition_inv env _ s3 s4 _ _ _ _ T hW i3c l3 g5
    have t4 : lm_static N H s4 := lm_static_congr N H s3 s4 x5 x1 x3 x4 x2 t3
    have hs := lm_same_deactivate s4 d.output_frame
    rw [← g6] at hs
    have i5 := lm_inv_same env _ _ _ _ s4 d1 hs i4
    have eo : d1.output_frame = d.output_frame + 1 := by
      rw [hs.2.2.2.1, x6, y6, z7, c4, b2]
    have en : d1.n_root_chan = d.n_root_chan := by
      rw [hs.2.2.2.2.2.2.2.1, x5, y5, z10, c7, a6]
    have eb : d1.ngs.bpidx = s3.ngs.bpidx := by
      rw [hs.1, x7]
    have es : d1.ngs.bss_head = s3.ngs.bss_head := by
      rw [hs.1, x8]
    refine ⟨hidle, ?_, leaves_ok_same T s4 d1 hs l4, lm_static_same N H s4 d1 hs t4⟩
    rw [eo, eb, es]
    exact lm_inv_sub env _ _ _ _ _ d1 (fun w hw => (lm_word_congr d d1 N H en w).mp hw) i5

theorem reset_sf (n : Nat) (a : Int → last_ltrans_t) (w : Int) (h0 : 0 ≤ w) (h1 : w < n) :
    (iter_up (fun i (a : Int → last_ltrans_t) => store a i { a i with sf := -1 }) n 0 a w).sf
      = -1 := by
  have h := iter_up_ind
    (fun (k : Int) (b : Int → last_ltrans_t) => ∀ v, 0 ≤ v → v < k → (b v).sf = -1)
    (fun i (a : Int → last_ltrans_t) => store a i { a i with sf := -1 }) n 0 a
    (by
      intro i b _ _ hb v hv0 hv1
      dsimp only
      by_cases hv : v = i
      · subst hv
        rw [store_same]
      · rw [store_ne _ _ _ _ hv]
        exact hb v hv0 (by omega))
    (by
      intro v hv0 hv1
      omega)
  exact h w h0 (by omega)

theorem ngram_fwdtree_start_lm (d : decoder_t) :
    (ngram_fwdtree_start d).ngs.bpidx = 0 ∧ (ngram_fwdtree_start d).ngs.bss_head = 0 ∧
    (ngram_fwdtree_start d).last_ltrans = (start_reset d).last_ltrans ∧
    (ngram_fwdtree_start d).xwd = d.xwd ∧
    (ngram_fwdtree_start d).n_1ph_LMwords = d.n_1ph_LMwords ∧
    (ngram_fwdtree_start d).single_phone_wid = d.single_phone_wid := by
  have h : (start_clear_1ph (start_reset d)).ngs.bpidx = 0 ∧
      (start_clear_1ph (start_reset d)).ngs.bss_head = 0 ∧
      (start_clear_1ph (start_reset d)).last_ltrans = (start_reset d).last_ltrans ∧
      (start_clear_1ph (start_reset d)).xwd = d.xwd ∧
      (start_clear_1ph (start_reset d)).n_1ph_LMwords = d.n_1ph_LMwords ∧
      (start_clear_1ph (start_reset d)).single_phone_wid = d.single_phone_wid := by
    unfold start_clear_1ph
    apply iter_up_inv (fun s : decoder_t => s.ngs.bpidx = 0 ∧ s.ngs.bss_head = 0 ∧
      s.last_ltrans = (start_reset d).last_ltrans ∧ s.xwd = d.xwd ∧
      s.n_1ph_LMwords = d.n_1ph_LMwords ∧ s.single_phone_wid = d.single_phone_wid)
    · intro i s _ _ hs
      exact hs
    · exact ⟨rfl, rfl, rfl, rfl, rfl, rfl⟩
  exact h

/-- A decoder ready for an utterance is, after `ngram_fwdtree_start`, in a
state between frames with an empty table and an empty cache. -/
theorem lm_run_start (env : env_t) (N : Int → Prop) (KR : Int → List Int)
    (H : parent_t → List Int) (d : decoder_t) (hd : lm_ready N KR H d) :
    lm_run env N H d.heap_top (ngram_fwdtree_start d) := by
  obtain ⟨hr, hc, hs⟩ := hd
  obtain ⟨_, k2, k3, k4, k5, _, _, _, _, _, _⟩ := ngram_fwdtree_start_keeps d
  obtain ⟨m1, m2, m3, m4, m5, m6⟩ := ngram_fwdtree_start_lm d
  have hidle := (ngram_fwdtree_start_ok d hc).1
  have hst : lm_static N H (ngram_fwdtree_start d) :=
    lm_static_congr N H d _ k2 k3 m5 m6 m4 hs
  refine ⟨hidle, ?_, ?_, hst⟩
  · refine { head := le_refl _, live := ?_, reads := ?_, cur := ?_, cache := ?_, seg := ?_ }
    rotate_left 4
    · intro i hi0 hi1
      omega
    · intro i hi0 hi1
      omega
    · intro i hi0 hi1
      omega
    · intro i hi0 hi1
      omega
    · intro w hw
      obtain ⟨w0, w1⟩ := hs.wdict w ((lm_word_congr d _ N H k2 w).mp hw)
      refine Or.inl ?_
      rw [m3]
      exact reset_sf _ _ w w0 (by omega)
  · unfold leaves_ok
    rw [k4, k5]
    refine ⟨le_refl _, ?_, ?_⟩
    · intro a ha1 ha2
      omega
    · intro w
      exact Or.inl (hr.2.2.2.2.2.1 w)

/-- Every state reached from a ready decoder keeps the invariant of the table
and the cache. -/
theorem reachable_lm (env : env_t) (hv : vit_frame env) (hv2 : vit_ok env) (N : Int → Prop)
    (KR : Int → List Int) (H : parent_t → List Int) (d : decoder_t)
    (hd : reachable env (lm_ready N KR H) d) :
    ∃ C T, run_inv N KR H d.output_frame d C ∧ marks_ok d.output_frame d ∧
      lm_run env N H T d := by
  induction hd with
  | start d0 h0 =>
    obtain ⟨a1, a2⟩ := run_inv_start N KR H d0 h0.1
    exact ⟨_, _, a1, a2, lm_run_start env N KR H d0 h0⟩
  | step fuel d d1 r _ hs ih =>
    obtain ⟨C, T, h1, h2, h3⟩ := ih
    obtain ⟨C1, b1, b2⟩ := run_inv_step env hv N KR H fuel d d1 r C h1 h2 hs
    exact ⟨C1, T, b1, b2, lm_run_step env hv hv2 N KR H fuel d d1 r C T h1 h2 h3 hs⟩

/-- In a frame of an utterance the entry `last_phone_transition` reads for a
candidate is what step 2 computes over the entries of the end frame of the
predecessor, whether it is cached or not; those entries are the entries
between the frame marks of that frame and the next; and no word is a
candidate twice. -/
theorem lt_final_recomputed (env : env_t) (hv : vit_frame env) (hv2 : vit_ok env)
    (N : Int → Prop) (KR : Int → List Int) (H : parent_t → List Int) (d : decoder_t)
    (hd : reachable env (lm_ready N KR H) d) (fuel fuel1 : Nat) (s dl : decoder_t) (c : Int)
    (hs : search_cands env fuel d = Except.ok s)
    (hr : last_phone_transition env fuel1 s d.output_frame = Except.ok dl)
    (hc0 : 0 ≤ c) (hc1 : c < s.n_lastphn_cand) :
    (∀ c c1, 0 ≤ c → c < s.n_lastphn_cand → 0 ≤ c1 → c1 < s.n_lastphn_cand →
      (s.lastphn_cand c).wid = (s.lastphn_cand c1).wid → c = c1) ∧
    lt_final env s c = lt_run env s (s.lastphn_cand c).wid
      (s.ngs.bp_table_idx (cand_ef s c + 1) - 1 - s.ngs.bp_table_idx (cand_ef s c) + 1).toNat
      (s.ngs.bp_table_idx (cand_ef s c)) (lt_init s c) ∧
    ∀ b, 0 ≤ b → b < s.ngs.bpidx →
      ((s.ngs.bp_table b).frame = cand_ef s c ↔
        s.ngs.bp_table_idx (cand_ef s c) ≤ b ∧ b < s.ngs.bp_table_idx (cand_ef s c + 1)) := by
  obtain ⟨C, T, h1, h2, h3⟩ := reachable_lm env hv hv2 N KR H d hd
  obtain ⟨a1, a2, a3, a4, _, a6⟩ := search_cands_lm env hv hv2 N KR H fuel d s C T h1 h3 hs
  obtain ⟨b1, _⟩ := search_cands_inv env hv N KR H fuel d s C h1 h2 hs
  obtain ⟨_, _, _, _, _, _, _, c8, _⟩ := lpt_lm env fuel1 s dl d.output_frame T b1.cinj a4 hr
  refine ⟨b1.cinj, ?_,
    frame_entries env _ _ _ _ s (s.lastphn_cand c).bp a3 a1.1 (c8 c hc0 hc1).1 (a2 c hc0 hc1)⟩
  by_cases hf : cand_fresh s c
  · unfold lt_final
    unfold cand_fresh at hf
    rw [if_pos hf]
  · have hW : lm_word d N H (s.lastphn_cand c).wid :=
      (lm_word_congr d s N H a6 _).mp (b1.csrc c hc0 hc1)
    have e : lt_final env s c = s.last_ltrans (s.lastphn_cand c).wid := by
      unfold lt_final
      unfold cand_fresh at hf
      rw [if_neg hf]
    rw [e]
    exact cache_hit env _ _ _ _ s c a3 hW (c8 c hc0 hc1).1 (a2 c hc0 hc1) hf

theorem lt_best_frame (env : env_t) (s : decoder_t) (c : Int) :
    lt_best env s (s.ngs.bp_table_idx (cand_ef s c)) (s.ngs.bp_table_idx (cand_ef s c + 1))
      (s.lastphn_cand c).wid (s.last_ltrans (s.lastphn_cand c).wid).bp
      (lt_run env s (s.lastphn_cand c).wid
        (s.ngs.bp_table_idx (cand_ef s c + 1) - 1 - s.ngs.bp_table_idx (cand_ef s c) + 1).toNat
        (s.ngs.bp_table_idx (cand_ef s c)) (lt_init s c)) := by
  have hb := (lt_run_best env s (s.lastphn_cand c).wid
    (s.ngs.bp_table_idx (cand_ef s c + 1) - 1 - s.ngs.bp_table_idx (cand_ef s c) + 1).toNat
    (s.ngs.bp_table_idx (cand_ef s c)) (lt_init s c) rfl).1
  refine lt_best_range env s _ _ _ _ _ _ ?_ hb
  intro b hb1
  constructor
  · intro g
    omega
  · intro g
    omega

theorem ex_lm_static : lm_static ex_fresh_nodes ex_fresh_hom ex_fresh_dec := by
  refine { wdict := ?_, one := ?_, size := ?_, perm := ?_ }
  · rintro w ⟨p, hp, hw⟩
    cases p with
    | root i =>
      have e : w = 0 := List.mem_singleton.mp hw
      rw [e]
      exact ⟨le_refl _, by decide⟩
    | node a => exact absurd hp (fun h => h)
  · intro i hi0 hi1
    have h1 : i < 1 := hi1
    have e : i = 0 := by omega
    rw [e]
    rfl
  · intro r
    exact Int.one_pos
  · intro r ci
    exact Int.one_pos

theorem ex_lm_ready : lm_ready ex_fresh_nodes ex_fresh_kids ex_fresh_hom ex_fresh_dec :=
  ⟨ex_fresh_ready, clean_ex_fresh_dec, ex_lm_static⟩

set_option maxRecDepth 100000 in
theorem ex_lm_reach2 :
    reachable ex_env (lm_ready ex_fresh_nodes ex_fresh_kids ex_fresh_hom) (ex_lm_run 2) :=
  reachable_frames ex_env _ 10 2 _ (reachable.start ex_fresh_dec ex_lm_ready) (by decide!)

set_option maxRecDepth 100000 in
theorem ex_lm_reach3 :
    reachable ex_env (lm_ready ex_fresh_nodes ex_fresh_kids ex_fresh_hom) (ex_lm_run 3) :=
  reachable_frames ex_env _ 10 3 _ (reachable.start ex_fresh_dec ex_lm_ready) (by decide!)

set_option maxRecDepth 100000 in
theorem ex_lm_cands2 : search_cands ex_env 10 (ex_lm_run 2) = Except.ok (ex_lm_cands 2) :=
  cands_out_eq ex_env 10 _ (by decide!)

set_option maxRecDepth 100000 in
theorem ex_lm_cands3 : search_cands ex_env 10 (ex_lm_run 3) = Except.ok (ex_lm_cands 3) :=
  cands_out_eq ex_env 10 _ (by decide!)

set_option maxRecDepth 100000 in
theorem ex_lm_lpt2 :
    last_phone_transition ex_env 10 (ex_lm_cands 2) (ex_lm_run 2).output_frame =
      Except.ok (ex_lm_done 2) :=
  lpt_out_eq ex_env 10 _ _ (by decide!)

set_option maxRecDepth 100000 in
theorem ex_lm_lpt3 :
    last_phone_transition ex_env 10 (ex_lm_cands 3) (ex_lm_run 3).output_frame =
      Except.ok (ex_lm_done 3) :=
  lpt_out_eq ex_env 10 _ _ (by decide!)

set_option maxRecDepth 100000 in
theorem ex_lm_count2 : (ex_lm_cands 2).n_lastphn_cand = 1 := by decide!

set_option maxRecDepth 100000 in
theorem ex_lm_count3 : (ex_lm_cands 3).n_lastphn_cand = 1 := by decide!

set_option maxRecDepth 100000 in
theorem ex_lm_hit2 :
    ((ex_lm_cands 2).last_ltrans ((ex_lm_cands 2).lastphn_cand 0).wid).sf =
      cand_ef (ex_lm_cands 2) 0 + 1 := by
  unfold cand_ef
  decide!

set_option maxRecDepth 100000 in
theorem ex_lm_hit3 :
    ((ex_lm_cands 3).last_ltrans ((ex_lm_cands 3).lastphn_cand 0).wid).sf =
      cand_ef (ex_lm_cands 3) 0 + 1 := by
  unfold cand_ef
  decide!

set_option maxRecDepth 100000 in
theorem ex_lm_entry3 :
    ((ex_lm_cands 3).last_ltrans ((ex_lm_cands 3).lastphn_cand 0).wid).dscr = 0 ∧
    ((ex_lm_cands 3).last_ltrans ((ex_lm_cands 3).lastphn_cand 0).wid).bp = 0 ∧
    ((ex_lm_cands 3).ngs.bp_table 0).valid = true := by
  decide!

set_option maxRecDepth 100000 in
theorem ex_lm_score2 :
    ((ex_lm_done 2).lastphn_cand 0).score = 0 ∧ ((ex_lm_done 2).lastphn_cand 0).bp = 0 ∧
    ((ex_lm_cands 2).ngs.bp_table 0).valid = true := by
  decide!

/-- C32: in a frame of an utterance -- the decoder reached by
`ngram_fwdtree_search` calls from `ngram_fwdtree_start` on a ready and clean
decoder whose dictionary tables are in order, for a Viterbi step that keeps
frame stamps and invents no history, and `s` the state in which the frame calls
`last_phone_transition` -- after `last_phone_transition` has returned a
candidate (w, s, p) has the score
s - bscore_stack[p.s_idx + perm_p[first CI phone of w]] + D and the
backpointer B, where D and B are the fields of the entry `lt_final` of its
word: the best transition score into w over the valid backpointer entries of
the end frame of p, never below `WORST_SCORE`, with B the first entry
attaining it, whether the entry was cached or is computed in this call.  The
entries of the end frame of p are those between the frame marks of that frame
and the next: an entry below `bpidx` lies between them exactly when its frame
is the frame of p. -/
theorem last_phone_rescoring (env : env_t) (hv : vit_frame env) (hv2 : vit_ok env)
    (N : Int → Prop) (KR : Int → List Int) (H : parent_t → List Int) (d : decoder_t)
    (hd : reachable env (lm_ready N KR H) d) (fuel fuel1 : Nat) (s dl : decoder_t) (c : Int)
    (hs : search_cands env fuel d = Except.ok s)
    (hr : last_phone_transition env fuel1 s d.output_frame = Except.ok dl)
    (hc0 : 0 ≤ c) (hc1 : c < s.n_lastphn_cand) :
    (dl.lastphn_cand c).wid = (s.lastphn_cand c).wid ∧
    (dl.lastphn_cand c).score =
      (s.lastphn_cand c).score -
        s.ngs.bscore_stack ((s.ngs.bp_table (s.lastphn_cand c).bp).s_idx +
          rcpermtab_of s (s.ngs.bp_table (s.lastphn_cand c).bp)
            ((s.ngs.dict.dict_list (s.lastphn_cand c).wid).ci_phone_ids 0)) +
        (lt_final env s c).dscr ∧
    (dl.lastphn_cand c).bp = (lt_final env s c).bp ∧
    lt_best env s (s.ngs.bp_table_idx (cand_ef s c)) (s.ngs.bp_table_idx (cand_ef s c + 1))
      (s.lastphn_cand c).wid (s.last_ltrans (s.lastphn_cand c).wid).bp (lt_final env s c) ∧
    ∀ b, 0 ≤ b → b < s.ngs.bpidx →
      ((s.ngs.bp_table b).frame = cand_ef s c ↔
        s.ngs.bp_table_idx (cand_ef s c) ≤ b ∧ b < s.ngs.bp_table_idx (cand_ef s c + 1)) := by
  obtain ⟨hdist, he, hfr⟩ :=
    lt_final_recomputed env hv hv2 N KR H d hd fuel fuel1 s dl c hs hr hc0 hc1
  obtain ⟨h1, h2, h3⟩ := lpt_cands_spec env fuel1 s dl d.output_frame hdist hr c hc0 hc1
  refine ⟨h1, h2, h3, ?_, hfr⟩
  rw [he]
  exact lt_best_frame env s c

/-- Witness for C32: in the third frame of the test decoder the one
candidate, word 0 with predecessor entry 0, has a cached transition, and
`last_phone_transition` gives it the score 0 and the backpointer 0. -/
theorem last_phone_rescoring_witness :
    vit_frame ex_env ∧ vit_ok ex_env ∧
    reachable ex_env (lm_ready ex_fresh_nodes ex_fresh_kids ex_fresh_hom) (ex_lm_run 2) ∧
    search_cands ex_env 10 (ex_lm_run 2) = Except.ok (ex_lm_cands 2) ∧
    last_phone_transition ex_env 10 (ex_lm_cands 2) (ex_lm_run 2).output_frame =
      Except.ok (ex_lm_done 2) ∧
    (ex_lm_cands 2).n_lastphn_cand = 1 ∧
    (((ex_lm_done 2).lastphn_cand 0).score = 0 ∧ ((ex_lm_done 2).lastphn_cand 0).bp = 0 ∧
      ((ex_lm_cands 2).ngs.bp_table 0).valid = true) ∧
    (((ex_lm_done 2).lastphn_cand 0).wid = ((ex_lm_cands 2).lastphn_cand 0).wid ∧
    ((ex_lm_done 2).lastphn_cand 0).score =
      ((ex_lm_cands 2).lastphn_cand 0).score -
        (ex_lm_cands 2).ngs.bscore_stack
          (((ex_lm_cands 2).ngs.bp_table ((ex_lm_cands 2).lastphn_cand 0).bp).s_idx +
            rcpermtab_of (ex_lm_cands 2)
              ((ex_lm_cands 2).ngs.bp_table ((ex_lm_cands 2).lastphn_cand 0).bp)
              (((ex_lm_cands 2).ngs.dict.dict_list
                ((ex_lm_cands 2).lastphn_cand 0).wid).ci_phone_ids 0)) +
        (lt_final ex_env (ex_lm_cands 2) 0).dscr ∧
    ((ex_lm_done 2).lastphn_cand 0).bp = (lt_final ex_env (ex_lm_cands 2) 0).bp ∧
    lt_best ex_env (ex_lm_cands 2)
      ((ex_lm_cands 2).ngs.bp_table_idx (cand_ef (ex_lm_cands 2) 0))
      ((ex_lm_cands 2).ngs.bp_table_idx (cand_ef (ex_lm_cands 2) 0 + 1))
      ((ex_lm_cands 2).lastphn_cand 0).wid
      ((ex_lm_cands 2).last_ltrans ((ex_lm_cands 2).lastphn_cand 0).wid).bp
      (lt_final ex_env (ex_lm_cands 2) 0) ∧
    ∀ b, 0 ≤ b → b < (ex_lm_cands 2).ngs.bpidx →
      (((ex_lm_cands 2).ngs.bp_table b).frame = cand_ef (ex_lm_cands 2) 0 ↔
        (ex_lm_cands 2).ngs.bp_table_idx (cand_ef (ex_lm_cands 2) 0) ≤ b ∧
        b < (ex_lm_cands 2).ngs.bp_table_idx (cand_ef (ex_lm_cands 2) 0 + 1))) :=
  ⟨vit_frame_ex_env, vit_ok_ex_env, ex_lm_reach2, ex_lm_cands2, ex_lm_lpt2, ex_lm_count2,
    ex_lm_score2,
    last_phone_rescoring ex_env vit_frame_ex_env vit_ok_ex_env ex_fresh_nodes ex_fresh_kids
      ex_fresh_hom (ex_lm_run 2) ex_lm_reach2 10 10 (ex_lm_cands 2) (ex_lm_done 2) 0
      ex_lm_cands2 ex_lm_lpt2 (le_refl _) (by rw [ex_lm_count2]; exact Int.one_pos)⟩

/-- C39: in every state reached by `ngram_fwdtree_search` calls from
`ngram_fwdtree_start` on a ready and clean decoder whose dictionary tables
are in order, for a Viterbi step that keeps frame stamps and invents no
history: when the frame calls `last_phone_transition` in state `s` and a
candidate (w, p) has `last_ltrans[w].sf` equal to frame(p) + 1 already, so
that the entry is reused, the reused entry is the one step 2 would compute
anew in `s` over the entries of frame(p): it is the best transition into w
over the valid entries of that frame, and the candidate gets its score and
backpointer as from the recomputed entry.  The entries of frame(p) are those
between the frame marks of that frame and the next: an entry below `bpidx`
lies between them exactly when its frame is frame(p). -/
theorem cached_transition (env : env_t) (hv : vit_frame env) (hv2 : vit_ok env)
    (N : Int → Prop) (KR : Int → List Int) (H : parent_t → List Int) (d : decoder_t)
    (hd : reachable env (lm_ready N KR H) d) (fuel fuel1 : Nat) (s dl : decoder_t) (c : Int)
    (hs : search_cands env fuel d = Except.ok s)
    (hr : last_phone_transition env fuel1 s d.output_frame = Except.ok dl)
    (hc0 : 0 ≤ c) (hc1 : c < s.n_lastphn_cand)
    (hsf : (s.last_ltrans (s.lastphn_cand c).wid).sf = cand_ef s c + 1) :
    s.last_ltrans (s.lastphn_cand c).wid = lt_run env s (s.lastphn_cand c).wid
      (s.ngs.bp_table_idx (cand_ef s c + 1) - 1 - s.ngs.bp_table_idx (cand_ef s c) + 1).toNat
      (s.ngs.bp_table_idx (cand_ef s c)) (lt_init s c) ∧
    lt_best env s (s.ngs.bp_table_idx (cand_ef s c)) (s.ngs.bp_table_idx (cand_ef s c + 1))
      (s.lastphn_cand c).wid (s.last_ltrans (s.lastphn_cand c).wid).bp
      (s.last_ltrans (s.lastphn_cand c).wid) ∧
    (dl.lastphn_cand c).score = cand_base s c +
      (lt_run env s (s.lastphn_cand c).wid
        (s.ngs.bp_table_idx (cand_ef s c + 1) - 1 - s.ngs.bp_table_idx (cand_ef s c) + 1).toNat
        (s.ngs.bp_table_idx (cand_ef s c)) (lt_init s c)).dscr ∧
    (dl.lastphn_cand c).bp =
      (lt_run env s (s.lastphn_cand c).wid
        (s.ngs.bp_table_idx (cand_ef s c + 1) - 1 - s.ngs.bp_table_idx (cand_ef s c) + 1).toNat
        (s.ngs.bp_table_idx (cand_ef s c)) (lt_init s c)).bp ∧
    ∀ b, 0 ≤ b → b < s.ngs.bpidx →
      ((s.ngs.bp_table b).frame = cand_ef s c ↔
        s.ngs.bp_table_idx (cand_ef s c) ≤ b ∧ b < s.ngs.bp_table_idx (cand_ef s c + 1)) := by
  obtain ⟨hdist, he, hfr⟩ :=
    lt_final_recomputed env hv hv2 N KR H d hd fuel fuel1 s dl c hs hr hc0 hc1
  obtain ⟨_, h2, h3⟩ := lpt_cands_spec env fuel1 s dl d.output_frame hdist hr c hc0 hc1
  have e : lt_final env s c = s.last_ltrans (s.lastphn_cand c).wid := by
    unfold lt_final
    rw [if_neg (not_not.mpr hsf)]
  have hb := lt_best_frame env s c
  rw [← he] at hb ⊢
  rw [e] at hb
  exact ⟨e.symm, hb, h2, h3, hfr⟩

/-- Witness for C39: in the fourth frame of the test decoder the one
candidate, word 0 with predecessor entry 0 of frame 0, finds the transition
cached in the second frame: score 0 from the valid entry 0. -/
theorem cached_transition_witness :
    vit_frame ex_env ∧ vit_ok ex_env ∧
    reachable ex_env (lm_ready ex_fresh_nodes ex_fresh_kids ex_fresh_hom) (ex_lm_run 3) ∧
    search_cands ex_env 10 (ex_lm_run 3) = Except.ok (ex_lm_cands 3) ∧
    last_phone_transition ex_env 10 (ex_lm_cands 3) (ex_lm_run 3).output_frame =
      Except.ok (ex_lm_done 3) ∧
    (ex_lm_cands 3).n_lastphn_cand = 1 ∧
    ((ex_lm_cands 3).last_ltrans ((ex_lm_cands 3).lastphn_cand 0).wid).sf =
      cand_ef (ex_lm_cands 3) 0 + 1 ∧
    (((ex_lm_cands 3).last_ltrans ((ex_lm_cands 3).lastphn_cand 0).wid).dscr = 0 ∧
      ((ex_lm_cands 3).last_ltrans ((ex_lm_cands 3).lastphn_cand 0).wid).bp = 0 ∧
      ((ex_lm_cands 3).ngs.bp_table 0).valid = true) ∧
    ((ex_lm_cands 3).last_ltrans ((ex_lm_cands 3).lastphn_cand 0).wid =
      lt_run ex_env (ex_lm_cands 3) ((ex_lm_cands 3).lastphn_cand 0).wid
        ((ex_lm_cands 3).ngs.bp_table_idx (cand_ef (ex_lm_cands 3) 0 + 1) - 1 -
          (ex_lm_cands 3).ngs.bp_table_idx (cand_ef (ex_lm_cands 3) 0) + 1).toNat
        ((ex_lm_cands 3).ngs.bp_table_idx (cand_ef (ex_lm_cands 3) 0))
        (lt_init (ex_lm_cands 3) 0) ∧
    lt_best ex_env (ex_lm_cands 3)
      ((ex_lm_cands 3).ngs.bp_table_idx (cand_ef (ex_lm_cands 3) 0))
      ((ex_lm_cands 3).ngs.bp_table_idx (cand_ef (ex_lm_cands 3) 0 + 1))
      ((ex_lm_cands 3).lastphn_cand 0).wid
      ((ex_lm_cands 3).last_ltrans ((ex_lm_cands 3).lastphn_cand 0).wid).bp
      ((ex_lm_cands 3).last_ltrans ((ex_lm_cands 3).lastphn_cand 0).wid) ∧
    ((ex_lm_done 3).lastphn_cand 0).score = cand_base (ex_lm_cands 3) 0 +
      (lt_run ex_env (ex_lm_cands 3) ((ex_lm_cands 3).lastphn_cand 0).wid
        ((ex_lm_cands 3).ngs.bp_table_idx (cand_ef (ex_lm_cands 3) 0 + 1) - 1 -
          (ex_lm_cands 3).ngs.bp_table_idx (cand_ef (ex_lm_cands 3) 0) + 1).toNat
        ((ex_lm_cands 3).ngs.bp_table_idx (cand_ef (ex_lm_cands 3) 0))
        (lt_init (ex_lm_cands 3) 0)).dscr ∧
    ((ex_lm_done 3).lastphn_cand 0).bp =
      (lt_run ex_env (ex_lm_cands 3) ((ex_lm_cands 3).lastphn_cand 0).wid
        ((ex_lm_cands 3).ngs.bp_table_idx (cand_ef (ex_lm_cands 3) 0 + 1) - 1 -
          (ex_lm_cands 3).ngs.bp_table_idx (cand_ef (ex_lm_cands 3) 0) + 1).toNat
        ((ex_lm_cands 3).ngs.bp_table_idx (cand_ef (ex_lm_cands 3) 0))
        (lt_init (ex_lm_cands 3) 0)).bp ∧
    ∀ b, 0 ≤ b → b < (ex_lm_cands 3).ngs.bpidx →
      (((ex_lm_cands 3).ngs.bp_table b).frame = cand_ef (ex_lm_cands 3) 0 ↔
        (ex_lm_cands 3).ngs.bp_table_idx (cand_ef (ex_lm_cands 3) 0) ≤ b ∧
        b < (ex_lm_cands 3).ngs.bp_table_idx (cand_ef (ex_lm_cands 3) 0 + 1))) :=
  ⟨vit_frame_ex_env, vit_ok_ex_env, ex_lm_reach3, ex_lm_cands3, ex_lm_lpt3, ex_lm_count3,
    ex_lm_hit3, ex_lm_entry3,
    cached_transition ex_env vit_frame_ex_env vit_ok_ex_env ex_fresh_nodes ex_fresh_kids
      ex_fresh_hom (ex_lm_run 3) ex_lm_reach3 10 10 (ex_lm_cands 3) (ex_lm_done 3) 0
      ex_lm_cands3 ex_lm_lpt3 (le_refl _) (by rw [ex_lm_count3]; exact Int.one_pos)
      ex_lm_hit3⟩

end Fwdtree
